import Mathlib

/-!
# Missing-data VB-GMM kernels of `gmmlib.c`

A shallow embedding of `src/src/gmmlib.c`, followed by the byte-order helpers of
`src/spm_getdata.c` and the argument checks of `cgs3_mexFunction` and
`fmg3_mexFunction` of `src/toolbox/Shoot/shoot3.c`.

* A C `double` is an element of a linear ordered field `α` (exact real
  arithmetic: rounding and overflow are not modelled).  The definitions are
  generic in `α`, so they run on `ℚ` and are reasoned about for every field.
* A C `float` read from a caller's volume is an `FVal α`: finite, infinite or
  NaN, which is what `isfinite` tests and what `NAN` stores.  The variance
  volume `vf` is never tested by the code and is taken to hold finite values.
* A buffer is a total map `Nat → _`; a pointer `buf + o` handed to a callee is
  the view `shift buf o`, and what the callee leaves behind is put back with
  `unshift`.  The tables of pointers (`SStype`, `GMMtype`) hold offsets.
* `size_t` values are natural numbers; the subtractions that can wrap are
  written with `wsub` (modulo `2^64`).
* A shift of a `size_t` is the shift of natural numbers, which is what C computes
  while the shift count stays below `64`.  Where the code can reach a larger count
  (`allocate_gmm` for `P ≥ 7`, `make_index` for `ic ≥ 64`) C leaves the result
  undefined: the definitions named `…_c` have no value there, and the definitions
  named `…_masked` take the count modulo `64`, as the x86-64 shift instructions do.
  What is proved of the table of `allocate_gmm` as built by the C code is stated for
  `P ≤ 6`.
* The C math library (`exp`, `log`, `sqrt`, `lgamma`) is a parameter `Libm α`.
* The uninitialised local arrays `mx`, `vx`, `p` of a volume pass are the argument
  `scr` of the pass: whatever they held on entry.  The static table `exp_lkp` of
  `fastexp` is left out of the main definitions (an entry is `exp(i)` whenever it is
  read); the definitions named `…_memo` are the same code with the table threaded
  through as explicit state.
-/

namespace Gmmlib

/-! ## Values, buffers and loops -/

/-- Value of a C floating-point cell that may be non-finite. -/
inductive FVal (α : Type) where
  | fin (a : α)
  | inf (neg : Bool)
  | nan
deriving DecidableEq

/-- C `isfinite`. -/
def FVal.isfinite {α : Type} : FVal α → Bool
  | .fin _ => true
  | _ => false

/-- C `isnan`. -/
def FVal.isnan {α : Type} : FVal α → Bool
  | .nan => true
  | _ => false

/-- The C statement `r += p` for a cell `r` and a finite `p`. -/
def FVal.addFin {α : Type} [Add α] : FVal α → α → FVal α
  | .fin a, p => .fin (a + p)
  | .inf s, _ => .inf s
  | .nan, _ => .nan

/-- The C math library functions used by the code. -/
structure Libm (α : Type) where
  /-- C `exp`. -/
  exp : α → α
  /-- C `log`. -/
  log : α → α
  /-- C `sqrt`. -/
  sqrt : α → α
  /-- C `lgamma`. -/
  lgamma : α → α

/-- The facts about libm `exp` that the softmax relies on: it is positive and `exp(0) = 1`. -/
def Libm.ExpOk {α : Type} [LinearOrderedField α] (m : Libm α) : Prop :=
  (∀ x : α, 0 < m.exp x) ∧ m.exp 0 = 1

/-- The loop `for (i = 0; i < n; i++) s = body i s`. -/
def forUp {σ : Type} (n : Nat) (body : Nat → σ → σ) (s : σ) : σ :=
  (List.range n).foldl (fun s i => body i s) s

/-- The loop `for (i = lo; i < hi; i++) s = body i s`. -/
def forFrom {σ : Type} (lo hi : Nat) (body : Nat → σ → σ) (s : σ) : σ :=
  (List.range' lo (hi - lo)).foldl (fun s i => body i s) s

/-- The loop `for (k = n-1; k >= 0; k--) s = body k s` over a signed counter. -/
def forDown {σ : Type} (n : Nat) (body : Nat → σ → σ) (s : σ) : σ :=
  (List.range n).reverse.foldl (fun s i => body i s) s

/-- The view `buf + o` of a buffer. -/
def shift {β : Type} (buf : Nat → β) (o : Nat) : Nat → β := fun i => buf (o + i)

/-- The buffer after a callee has left `v` behind the pointer `buf + o`. -/
def unshift {β : Type} (buf : Nat → β) (o : Nat) (v : Nat → β) : Nat → β :=
  fun i => if i < o then buf i else v (i - o)

/-- Subtraction of `size_t` values, wrapping modulo `2^64`. -/
def wsub (a b : Nat) : Nat := (a + 2 ^ 64 - b % 2 ^ 64) % 2 ^ 64

/-- Constant `MaxChan`. -/
def MaxChan : Nat := 50

/-- Constant `Undefined`. -/
def Undefined : Nat := 0xFFFFFFFFFFFFF

/-- Table entry `SStype`: offsets of one pattern's statistics in the three caller buffers. -/
structure SStype where
  s2 : Nat
  s1 : Nat
  s0 : Nat
deriving DecidableEq

/-- Table entry `GMMtype`: dimension of one pattern and offsets of its parameters. -/
structure GMMtype where
  P : Nat
  mu : Nat
  b : Nat
  W : Nat
  nu : Nat
  gam : Nat
  conN : Nat
  conT : Nat
deriving DecidableEq

section Numeric

variable {α : Type} [LinearOrderedField α] [FloorRing α]

/-- The constant `pi` of the source. -/
def pi : α := 31415926535897931 / 10 ^ 16

/-- C `rint` in the default rounding mode: nearest integer, ties to even. -/
def rint (x : α) : Int :=
  let f := ⌊x⌋
  let d := x - (f : α)
  if d < 1 / 2 then f
  else if 1 / 2 < d then f + 1
  else if f % 2 = 0 then f else f + 1

/-- Function `fastexp`.  The memoised table entry `exp_lkp[i]` is `exp((double)i)`
whenever it is used, so the table is not part of the state here. -/
def fastexp (m : Libm α) (x : α) : α :=
  let i := rint x
  let i := if i < -128 then -128 else i
  let i := if i > 127 then 127 else i
  let r := x - (i : α)
  let rr := r * r
  m.exp (i : α) * (1 + 2 * r / (2 - r + rr / 6))

/-- The bit-counting loop `for (i = 0, Po = 0; i < n; i++) Po += (code >> i) & 1`.  The
shift is the mathematical one (zero once `i` reaches the width of `code`). -/
def bitcount (n code : Nat) : Nat :=
  forUp n (fun i Po => Po + ((code >>> i) &&& 1)) 0

/-- The bound check `P >= MaxChan || K >= 128` of the three entry points. -/
def boundFails (P K : Nat) : Prop := P ≥ MaxChan ∨ K ≥ 128

instance (P K : Nat) : Decidable (boundFails P K) := by
  unfold boundFails; infer_instance

/-- Loop state of `suffstat_pointers`. -/
structure SSloop where
  tbl : Nat → SStype
  o0 : Nat
  o1 : Nat
  o2 : Nat

/-- Body of the loop over `code` of `suffstat_pointers`. -/
def suffstat_pointers_step (P K : Nat) (code : Nat) (st : SSloop) : SSloop :=
  let Po := bitcount P code
  { tbl := Function.update st.tbl code ⟨st.o2, st.o1, st.o0⟩
    o0 := st.o0 + K
    o1 := st.o1 + K * Po
    o2 := st.o2 + K * Po * Po }

/-- The loop of `suffstat_pointers` with its running offsets. -/
def suffstat_pointers_loop (P K : Nat) : SSloop :=
  forUp (1 <<< P) (suffstat_pointers_step P K) ⟨fun _ => ⟨0, 0, 0⟩, 0, 0, 0⟩

/-- Function `suffstat_pointers`; `ok` says whether `calloc` succeeds. -/
def suffstat_pointers (ok : Bool) (P K : Nat) : Option (Nat → SStype) :=
  if ok then some (suffstat_pointers_loop P K).tbl else none

/-- Loop state of `get_vox`. -/
structure VoxLoop (α : Type) where
  j1 : Nat
  code : Nat
  x : Nat → α
  v : Nat → α

/-- Body of the loop over channels `j` of `get_vox`. -/
def get_vox_step (N1 : Nat) (mf : Nat → FVal α) (vf : Nat → α) (j : Nat) (st : VoxLoop α) :
    VoxLoop α :=
  let o := j * N1
  match mf o with
  | .fin tmp =>
    { j1 := st.j1 + 1
      code := st.code ||| (1 <<< j)
      x := Function.update st.x st.j1 tmp
      v := Function.update st.v st.j1 (vf o) }
  | _ => st

/-- Function `get_vox`: `mf` and `vf` are the views at the voxel, `x` and `v` the
caller's arrays; the result holds the pattern code and the arrays after packing. -/
def get_vox (N1 P : Nat) (mf : Nat → FVal α) (vf : Nat → α) (x v : Nat → α) : VoxLoop α :=
  forUp P (get_vox_step N1 mf vf) ⟨0, 0, x, v⟩

/-- The first loop of `softmax1`: `for (k = 1, mx = q[0]; k < K; k++) if (q[k] > mx) mx = q[k]`. -/
def softmax1_max (K : Nat) (q : Nat → α) : α :=
  forFrom 1 K (fun k mx => if q k > mx then q k else mx) (q 0)

/-- Function `softmax1`.  At its call sites `q` and `p` are the same array; every `q[k]`
is read before `p[k]` is written, so `q` is the content on entry. -/
def softmax1 (m : Libm α) (K : Nat) (q p : Nat → α) : α × (Nat → α) :=
  let mx := softmax1_max K q
  let sp := forUp K (fun k (sp : α × (Nat → α)) =>
    let e := fastexp m (q k - mx)
    (sp.1 + e, Function.update sp.2 k e)) (0, p)
  let s := sp.1
  let p := forUp K (fun k p => Function.update p k (p k / s)) sp.2
  (m.log s + mx, p)

/-- Function `softmax` (with the implicit zero logit); `q` and `p` as for `softmax1`. -/
def softmax (m : Libm α) (K : Nat) (q p : Nat → α) : α × (Nat → α) :=
  let mx := forUp K (fun k mx => if q k > mx then q k else mx) 0
  let sp := forUp K (fun k (sp : α × (Nat → α)) =>
    let e := fastexp m (q k - mx)
    (sp.1 + e, Function.update sp.2 k e)) (fastexp m (-mx), p)
  let s := sp.1
  let p := forUp K (fun k p => Function.update p k (p k / s)) sp.2
  (m.log s + mx, p)

/-- Function `del2`. -/
def del2 (P : Nat) (mu W x v : Nat → α) : α :=
  forUp P (fun j d =>
    let r := x j - mu j
    let d := d + W (j * P + j) * (r * r + v j)
    forFrom (j + 1) P (fun i d => d + 2 * r * W (j * P + i) * (x i - mu i)) d) 0

/-- The loop `for (f = 0; z < 7.0; z++) f -= 1.0/z` of `psi`, with the number of
rounds still allowed. -/
def psi_loop : Nat → α → α → α × α
  | 0, f, z => (f, z)
  | n + 1, f, z => if z < 7 then psi_loop n (f - 1 / z) (z + 1) else (f, z)

/-- Function `psi`; the loop runs `⌈7 - z⌉` times. -/
def psi (m : Libm α) (z : α) : α :=
  let fz := psi_loop (Int.toNat ⌈7 - z⌉) 0 z
  let f := fz.1
  let z := fz.2 - 1 / 2
  let r := 1 / z
  let r2 := r * r
  let r4 := r2 * r2
  f + (m.log z + (1 / 24) * r2 - (7 / 960) * r4 + (31 / 8064) * r4 * r2 - (127 / 30720) * r4 * r4)

/-- Function `Nresp`: `buf` is the parameter buffer the table `gmm` points into. -/
def Nresp (m : Libm α) (K : Nat) (gmm : Nat → GMMtype) (buf : Nat → α) (code : Nat)
    (x v p : Nat → α) : α × (Nat → α) :=
  let g := gmm code
  let P := g.P
  let p := forUp K (fun k p =>
    Function.update p k (p k + (buf (g.conN + k) - (1 / 2) * buf (g.nu + k) *
      del2 P (shift buf (g.mu + k * P)) (shift buf (g.W + k * (P * P))) x v))) p
  softmax1 m K p p

/-- Function `Tresp`. -/
def Tresp (m : Libm α) (K : Nat) (gmm : Nat → GMMtype) (buf : Nat → α) (code : Nat)
    (x v p : Nat → α) : α × (Nat → α) :=
  let g := gmm code
  let P := g.P
  let p := forUp K (fun k p =>
    Function.update p k (p k + (buf (g.conT + k) - (1 / 2) * (buf (g.nu + k) + 1) *
      m.log (1 + buf (g.b + k) / (buf (g.b + k) + 1) *
        del2 P (shift buf (g.mu + k * P)) (shift buf (g.W + k * (P * P))) x v)))) p
  softmax1 m K p p

/-- The loop of `get_priors` from class `k` on, with `n` classes left. -/
def get_priors_loop (N1 : Nat) (lp : Nat → FVal α) (lkp : Nat → Nat) :
    Nat → Nat → (Nat → α) → Bool × (Nat → α)
  | 0, _, p => (true, p)
  | n + 1, k, p =>
    match lp (N1 * lkp k) with
    | .fin lpk => get_priors_loop N1 lp lkp n (k + 1) (Function.update p k lpk)
    | _ => (false, p)

/-- Function `get_priors`: returns whether every prior was finite, and `p`. -/
def get_priors (N1 : Nat) (lp : Nat → FVal α) (K : Nat) (lkp : Nat → Nat) (p : Nat → α) :
    Bool × (Nat → α) :=
  get_priors_loop N1 lp lkp K 0 p

/-! ## Linear algebra and the pattern table -/

/-- Function `choldc`: returns the matrix `a` and the diagonal `p` after the decomposition. -/
def choldc (m : Libm α) (n : Nat) (a p : Nat → α) : (Nat → α) × (Nat → α) :=
  let sm0 := forUp n (fun i sm0 => sm0 + a (i * n + i)) (1 / 10 ^ 40)
  let sm0 := sm0 * (1 / 10 ^ 7)
  let sm0 := sm0 * sm0
  forUp n (fun i ap =>
    forFrom i n (fun j (ap : (Nat → α) × (Nat → α)) =>
      let sm := forDown i (fun k sm => sm - ap.1 (i * n + k) * ap.1 (j * n + k)) (ap.1 (i * n + j))
      if i = j then
        let sm := if sm ≤ sm0 then sm0 else sm
        (ap.1, Function.update ap.2 i (m.sqrt sm))
      else
        (Function.update ap.1 (j * n + i) (sm / ap.2 i), ap.2)) ap) (a, p)

/-- Function `cholls`: returns `x`.  At its call site `b` and `x` are the same array;
`b[i]` is read before `x[i]` is written, so `b` is the content on entry. -/
def cholls (n : Nat) (a p b x : Nat → α) : Nat → α :=
  let x := forUp n (fun i x =>
    let sm := forDown i (fun k sm => sm - a (i * n + k) * x k) (b i)
    Function.update x i (sm / p i)) x
  forDown n (fun i x =>
    let sm := forFrom (i + 1) n (fun k sm => sm - a (k * n + i) * x k) (x i)
    Function.update x i (sm / p i)) x

/-- The table `products` of `factorial`, in `size_t` arithmetic. -/
def factorial_products : Nat → Nat
  | 0 => 1
  | i + 1 => (factorial_products i * (i + 1)) % 2 ^ 64

/-- Function `factorial`: a read of the 21-entry table, `none` outside it. -/
def factorial (n : Nat) : Option Nat :=
  if n < 21 then some (factorial_products n) else none

/-- Function `space_needed` in `size_t` arithmetic; `none` when a table read of
`factorial` falls outside the table or the divisor is zero. -/
def space_needed (P K : Nat) : Option (Nat × Nat × Nat) :=
  forUp (P + 1) (fun mm (acc : Option (Nat × Nat × Nat)) =>
    match acc, factorial P, factorial mm, factorial (wsub P mm) with
    | some (m0, m1, m2), some fP, some fm, some fPm =>
      if (fm * fPm) % 2 ^ 64 = 0 then none
      else
        let nel := ((K * fP) % 2 ^ 64) / ((fm * fPm) % 2 ^ 64)
        some ((m0 + nel) % 2 ^ 64, (m1 + nel * mm) % 2 ^ 64, (m2 + nel * mm * mm) % 2 ^ 64)
    | _, _, _, _ => none) (some (0, 0, 0))

/-- Loop state of `allocate_gmm`. -/
structure GMMloop where
  tbl : Nat → GMMtype
  o : Nat

/-- Body of the loop over `code` of `allocate_gmm`; its bit count runs over `i < code`.  The
shift is the mathematical one.  This is the C code as long as every shift count stays below
`64`, that is for `code ≤ 64`, hence for every table with `P ≤ 6`; for `code > 64` the loop of
the C code reaches the shift count `64`, which C leaves undefined (`allocate_gmm_loop_c`
has no value then, `allocate_gmm_loop_masked` is what x86-64 computes). -/
def allocate_gmm_step (K : Nat) (code : Nat) (st : GMMloop) : GMMloop :=
  let nel := bitcount code code
  let o := st.o
  { tbl := Function.update st.tbl code
      { P := nel
        mu := o
        b := o + K * nel
        W := o + K * nel + K
        nu := o + K * nel + K + K * nel * nel
        gam := o + K * nel + K + K * nel * nel + K
        conN := o + K * nel + K + K * nel * nel + K + K
        conT := o + K * nel + K + K * nel * nel + K + K + K }
    o := o + K * nel + K + K * nel * nel + K + K + K + K }

/-- The loop of `allocate_gmm` with its running offset. -/
def allocate_gmm_loop (P K : Nat) : GMMloop :=
  forUp (1 <<< P) (allocate_gmm_step K) ⟨fun _ => ⟨0, 0, 0, 0, 0, 0, 0, 0⟩, 0⟩

/-- Function `allocate_gmm`: the table and the zeroed parameter buffer; `ok` says
whether `calloc` succeeds.  Buffers are unbounded here: the number `5*n0 + n1 + n2` of
doubles requested from `calloc` (`allocate_gmm_size`, from `space_needed`) is not part of
the result.  For `P ≤ 6` and `K < 128` that number is the final offset of the loop, so
every view lies inside the allocation; statements about larger `P` are about this model
only. -/
def allocate_gmm (ok : Bool) (P K : Nat) : Option ((Nat → GMMtype) × (Nat → α)) :=
  if ok then some ((allocate_gmm_loop P K).tbl, fun _ => 0) else none

/-- Function `invert`: returns the value `-2*ld` and the views `S` and `T` on return. -/
def invert (m : Libm α) (P : Nat) (W S T : Nat → α) : α × (Nat → α) × (Nat → α) :=
  let PP := P * P
  let T := forUp PP (fun i T => Function.update T i (W i)) T
  let ap := choldc m P T (shift T PP)
  let T := unshift ap.1 PP ap.2
  let p := shift T PP
  let st := forUp P (fun j (st : α × (Nat → α)) =>
    let ld := st.1 + m.log (p j)
    let S := forUp P (fun i S => Function.update S (i + j * P) 0) st.2
    let S := Function.update S (j + j * P) 1
    let x := cholls P T p (shift S (j * P)) (shift S (j * P))
    (ld, unshift S (j * P) x)) (0, S)
  (-2 * st.1, st.2, T)

/-- Body of the loop over `code` in `sub_gmm`, for class `k`: the state is the parameter
buffer and the scratch buffer `S`. -/
def sub_gmm_code (m : Libm α) (P : Nat) (mu b nu : Nat → α) (gmm : Nat → GMMtype)
    (k : Nat) (lgam : α) (code : Nat) (st : (Nat → α) × (Nat → α)) : (Nat → α) × (Nat → α) :=
  let log2pi := m.log (2 * pi)
  let log2 := m.log 2
  let PP := P * P
  let g := gmm code
  let Po := g.P
  let buf := st.1
  let S := st.2
  let buf := Function.update buf (g.nu + k) (nu k - ((wsub P Po : Nat) : α))
  let buf := Function.update buf (g.b + k) (b k)
  let buf := Function.update buf (g.gam + k) lgam
  let r := forUp P (fun j (r : Nat × (Nat → α) × (Nat → α)) =>
    let j1 := r.1
    if ((1 <<< j) &&& code) ≠ 0 then
      let buf := Function.update r.2.1 (g.mu + (j1 + Po * k)) (mu (j + P * k))
      let q := forUp P (fun i (q : Nat × (Nat → α)) =>
        if ((1 <<< i) &&& code) ≠ 0 then
          (q.1 + 1, Function.update q.2 (PP + (q.1 + Po * j1)) (q.2 (i + P * j)))
        else q) (0, r.2.2)
      (j1 + 1, buf, q.2)
    else r) (0, buf, S)
  let buf := r.2.1
  let S := r.2.2
  let inv := invert m Po (shift S PP) (shift buf (g.W + k * Po * Po)) (shift S (PP + Po * Po))
  let ld := inv.1
  let buf := unshift buf (g.W + k * Po * Po) inv.2.1
  let S := unshift S (PP + Po * Po) inv.2.2
  let eld := forUp Po (fun j eld => eld + psi m ((buf (g.nu + k) - (j : α)) * (1 / 2))) 0
  let eld := eld + ((Po : α) * log2 + ld)
  let buf := Function.update buf (g.conN + k)
    ((1 / 2) * (eld - (Po : α) * (log2pi + 1 / buf (g.b + k))) + lgam)
  let ld1 := ld + (Po : α) * m.log ((buf (g.nu + k) + 1 - (Po : α)) * b k / (b k + 1))
  let buf := Function.update buf (g.conT + k)
    (m.lgamma ((1 / 2) * (buf (g.nu + k) + 1)) - m.lgamma ((1 / 2) * (buf (g.nu + k) + 1 - (Po : α)))
      + (1 / 2) * ld1 - (1 / 2) * (Po : α) * m.log ((buf (g.nu + k) + 1 - (Po : α)) * pi) + lgam)
  (buf, S)

/-- Function `sub_gmm`: the pattern table and its filled parameter buffer; `ok1` and
`ok2` say whether the two allocations succeed. -/
def sub_gmm (m : Libm α) (ok1 ok2 : Bool) (P K : Nat) (mu b W nu gam : Nat → α) :
    Option ((Nat → GMMtype) × (Nat → α)) :=
  match allocate_gmm ok1 P K with
  | none => none
  | some gb =>
    if ok2 then
      let PP := P * P
      let st := forUp K (fun k (st : (Nat → α) × (Nat → α)) =>
        let lgam := m.log (gam k)
        let inv := invert m P (shift W (PP * k)) st.2 (shift st.2 PP)
        let S := unshift inv.2.1 PP inv.2.2
        forUp (1 <<< P) (sub_gmm_code m P mu b nu gb.1 k lgam) (st.1, S)) (gb.2, fun _ => 0)
      some (gb.1, st.1)
    else none

/-! ## The three volume passes -/

/-- The three statistics buffers `s0_ptr`, `s1_ptr`, `s2_ptr`. -/
structure Stats (α : Type) where
  s0 : Nat → α
  s1 : Nat → α
  s2 : Nat → α

/-- The local arrays `mx`, `vx`, `p` of a volume pass. -/
structure Scratch (α : Type) where
  mx : Nat → α
  vx : Nat → α
  p : Nat → α

/-- The accumulation of one voxel into the statistics of its pattern (the loop over
`k` in `suffstats_missing`); `ss` is the table entry of the pattern, `Po` its dimension. -/
def suffstats_accum (K Po : Nat) (ss : SStype) (mx vx p : Nat → α) (s : Stats α) : Stats α :=
  forUp K (fun k s =>
    let pk := p k
    let s : Stats α := { s with s0 := Function.update s.s0 (ss.s0 + k) (s.s0 (ss.s0 + k) + pk) }
    forUp Po (fun j (s : Stats α) =>
      let mxj := mx j
      let px := pk * mxj
      let s1 := Function.update s.s1 (ss.s1 + k * Po + j) (s.s1 (ss.s1 + k * Po + j) + px)
      let s2 := Function.update s.s2 (ss.s2 + k * (Po * Po) + (j + Po * j))
        (s.s2 (ss.s2 + k * (Po * Po) + (j + Po * j)) + pk * (mxj * mxj + vx j))
      let s2 := forFrom (j + 1) Po (fun j1 s2 =>
        Function.update s2 (ss.s2 + k * (Po * Po) + (j1 + Po * j))
          (s2 (ss.s2 + k * (Po * Po) + (j1 + Po * j)) + px * mx j1)) s2
      { s with s1 := s1, s2 := s2 }) s) s

/-- The final loop of `suffstats_missing`: copy the lower triangle of every `s2` block
into its upper triangle. -/
def suffstats_mirror (P K : Nat) (gmm : Nat → GMMtype) (suffstat : Nat → SStype)
    (s2 : Nat → α) : Nat → α :=
  forFrom 1 (1 <<< P) (fun code s2 =>
    let Po := (gmm code).P
    let o := (suffstat code).s2
    forUp K (fun k s2 =>
      forUp Po (fun j s2 =>
        forFrom (j + 1) Po (fun j1 s2 =>
          Function.update s2 (o + k * (Po * Po) + (j + Po * j1))
            (s2 (o + k * (Po * Po) + (j1 + Po * j)))) s2) s2) s2) s2

/-- State of the voxel loop of `suffstats_missing`. -/
structure SSstate (α : Type) where
  ll : α
  scr : Scratch α
  st : Stats α

/-- Body of the voxel loop of `suffstats_missing` at data index `i` and prior index `im`. -/
def suffstats_voxel (m : Libm α) (Nf P K : Nat) (mf : Nat → FVal α) (vf : Nat → α)
    (gmm : Nat → GMMtype) (buf : Nat → α) (Nm : Nat) (lkp : Nat → Nat) (lp : Nat → FVal α)
    (suffstat : Nat → SStype) (i im : Nat) (s : SSstate α) : SSstate α :=
  let vox := get_vox Nf P (shift mf i) (shift vf i) s.scr.mx s.scr.vx
  let code := vox.code
  if code > 0 then
    let pr := get_priors Nm (shift lp im) K lkp s.scr.p
    if pr.1 then
      let nr := Nresp m K gmm buf code vox.x vox.v pr.2
      { ll := s.ll + nr.1
        scr := ⟨vox.x, vox.v, nr.2⟩
        st := suffstats_accum K (gmm code).P (suffstat code) vox.x vox.v nr.2 s.st }
    else { s with scr := ⟨vox.x, vox.v, pr.2⟩ }
  else { s with scr := ⟨vox.x, vox.v, s.scr.p⟩ }

/-- The sampled extent `min(nm[d]/skip[d], nf[d])` of `suffstats_missing` and `INUgrads`. -/
def extent (nf nm skip : Nat → Nat) (d : Nat) : Nat :=
  let n := nm d / skip d
  if n > nf d then nf d else n

/-- The voxel loops of `suffstats_missing`, before the mirroring of `s2`. -/
def suffstats_pass (m : Libm α) (nf : Nat → Nat) (mf : Nat → FVal α) (vf : Nat → α) (K : Nat)
    (gmm : Nat → GMMtype) (buf : Nat → α) (nm skip lkp : Nat → Nat) (lp : Nat → FVal α)
    (suffstat : Nat → SStype) (s : SSstate α) : SSstate α :=
  let P := nf 3
  let Nf := nf 0 * nf 1 * nf 2
  let Nm := nm 0 * nm 1 * nm 2
  forUp (extent nf nm skip 2) (fun i2 s =>
    forUp (extent nf nm skip 1) (fun i1 s =>
      let off_f := nf 0 * (i1 + nf 1 * i2)
      let off_m := nm 0 * (i1 * skip 1 + nm 1 * i2 * skip 2)
      forUp (extent nf nm skip 0) (fun i0 s =>
        suffstats_voxel m Nf P K mf vf gmm buf Nm lkp lp suffstat
          (i0 + off_f) (i0 * skip 0 + off_m) s) s) s) s

/-- Function `suffstats_missing`: the log-likelihood and the statistics buffers on return.
`scr` is the content of the uninitialised local arrays. -/
def suffstats_missing (m : Libm α) (nf : Nat → Nat) (mf : Nat → FVal α) (vf : Nat → α) (K : Nat)
    (gmm : Nat → GMMtype) (buf : Nat → α) (nm skip lkp : Nat → Nat) (lp : Nat → FVal α)
    (suffstat : Nat → SStype) (scr : Scratch α) (st : Stats α) : α × Stats α :=
  let s := suffstats_pass m nf mf vf K gmm buf nm skip lkp lp suffstat ⟨0, scr, st⟩
  (s.ll, { s.st with s2 := suffstats_mirror (nf 3) K gmm suffstat s.st.s2 })

/-- Function `call_suffstats_missing`; `ok1`, `ok2`, `ok3` say whether the allocations
succeed. -/
def call_suffstats_missing (m : Libm α) (ok1 ok2 ok3 : Bool) (nf : Nat → Nat)
    (mf : Nat → FVal α) (vf : Nat → α) (K : Nat) (mu b W nu gam : Nat → α)
    (nm skip lkp : Nat → Nat) (lp : Nat → FVal α) (scr : Scratch α) (st : Stats α) :
    FVal α × Stats α :=
  let P := nf 3
  if boundFails P K then (.nan, st)
  else
    match sub_gmm m ok1 ok2 P K mu b W nu gam with
    | none => (.nan, st)
    | some gb =>
      match suffstat_pointers ok3 P K with
      | none => (.nan, st)
      | some suffstat =>
        let r := suffstats_missing m nf mf vf K gb.1 gb.2 nm skip lkp lp suffstat scr st
        (.fin r.1, r.2)

/-- State of the voxel loop of `responsibilities`. -/
structure RState (α : Type) where
  ll : α
  scr : Scratch α
  r : Nat → FVal α

/-- Body of the voxel loop of `responsibilities` at voxel `(i0, i1, i2)` with index `i`. -/
def responsibilities_voxel (m : Libm α) (N1 P K : Nat) (skip : Nat → Nat) (mf : Nat → FVal α)
    (vf : Nat → α) (gmm : Nat → GMMtype) (buf : Nat → α) (K1 : Nat) (lkp : Nat → Nat)
    (lp : Nat → FVal α) (i0 i1 i2 i : Nat) (s : RState α) : RState α :=
  let vox := get_vox N1 P (shift mf i) (shift vf i) s.scr.mx s.scr.vx
  let code := vox.code
  let pr := get_priors N1 (shift lp i) K lkp s.scr.p
  if pr.1 then
    if code ≠ 0 then
      let nr :=
        if i2 % skip 2 = 0 ∧ (i1 % skip 1 = 0 ∧ i0 % skip 0 = 0) then
          Nresp m K gmm buf code vox.x vox.v pr.2
        else
          Tresp m K gmm buf code vox.x vox.v pr.2
      { ll := s.ll + nr.1
        scr := ⟨vox.x, vox.v, nr.2⟩
        r := forUp K (fun k r =>
          let k1 := lkp k
          if k1 < wsub K1 1 then Function.update r (i + k1 * N1) ((r (i + k1 * N1)).addFin (nr.2 k))
          else r) s.r }
    else
      let sm := softmax m K1 pr.2 pr.2
      { ll := s.ll
        scr := ⟨vox.x, vox.v, sm.2⟩
        r := forUp (wsub K1 1) (fun k1 r => Function.update r (i + k1 * N1) .nan) s.r }
  else
    { ll := s.ll
      scr := ⟨vox.x, vox.v, pr.2⟩
      r := forUp (wsub K1 1) (fun k1 r => Function.update r (i + k1 * N1) .nan) s.r }

/-- Function `responsibilities`: the log-likelihood and the map `r` on return. -/
def responsibilities (m : Libm α) (nf skip : Nat → Nat) (mf : Nat → FVal α) (vf : Nat → α)
    (K : Nat) (gmm : Nat → GMMtype) (buf : Nat → α) (K1 : Nat) (lkp : Nat → Nat)
    (lp : Nat → FVal α) (scr : Scratch α) (r : Nat → FVal α) : α × (Nat → FVal α) :=
  let P := nf 3
  let N1 := nf 0 * nf 1 * nf 2
  let s := forUp (nf 2) (fun i2 s =>
    forUp (nf 1) (fun i1 s =>
      let off_f := nf 0 * (i1 + nf 1 * i2)
      forUp (nf 0) (fun i0 s =>
        responsibilities_voxel m N1 P K skip mf vf gmm buf K1 lkp lp i0 i1 i2 (i0 + off_f) s) s) s)
    (⟨0, scr, r⟩ : RState α)
  (s.ll, s.r)

/-- Function `call_responsibilities`; `ok1`, `ok2` say whether the allocations succeed. -/
def call_responsibilities (m : Libm α) (ok1 ok2 : Bool) (nf skip : Nat → Nat)
    (mf : Nat → FVal α) (vf : Nat → α) (K : Nat) (mu b W nu gam : Nat → α)
    (K1 : Nat) (lkp : Nat → Nat) (lp : Nat → FVal α) (scr : Scratch α) (r : Nat → FVal α) :
    FVal α × (Nat → FVal α) :=
  let P := nf 3
  if boundFails P K then (.nan, r)
  else
    match sub_gmm m ok1 ok2 P K mu b W nu gam with
    | none => (.nan, r)
    | some gb =>
      let res := responsibilities m nf skip mf vf K gb.1 gb.2 K1 lkp lp scr r
      (.fin res.1, res.2)

/-- State of the voxel loop of `INUgrads`. -/
structure GState (α : Type) where
  ll : α
  scr : Scratch α
  g1 : Nat → FVal α
  g2 : Nat → FVal α

/-- Body of the voxel loop of `INUgrads` at data index `i` and prior index `im`. -/
def INUgrads_voxel (m : Libm α) (Nf P K : Nat) (mf : Nat → FVal α) (vf : Nat → α)
    (gmm : Nat → GMMtype) (buf : Nat → α) (Nm : Nat) (lkp : Nat → Nat) (lp : Nat → FVal α)
    (index : Nat → Nat) (i im : Nat) (s : GState α) : GState α :=
  let vox := get_vox Nf P (shift mf i) (shift vf i) s.scr.mx s.scr.vx
  let code := vox.code
  if code ≠ 0 then
    let pr := get_priors Nm (shift lp im) K lkp s.scr.p
    if pr.1 then
      let nr := Nresp m K gmm buf code vox.x vox.v pr.2
      let p := nr.2
      let mx := vox.x
      let vx := vox.v
      if index code ≠ Undefined then
        let Po := (gmm code).P
        let mu := (gmm code).mu
        let W := (gmm code).W
        let nu := (gmm code).nu
        let nc := index code
        let gh := forUp K (fun k (gh : α × α) =>
          let nup := buf (nu + k) * p k
          let gk := forUp Po (fun j gk =>
            gk + (mx j - buf (mu + (j + Po * k))) * buf (W + (j + Po * (nc + Po * k)))) 0
          (gh.1 + nup * gk, gh.2 + nup * buf (W + (nc + Po * (nc + Po * k))))) (0, 0)
        let g := gh.1 * mx nc + gh.2 * vx nc - 1
        let h := gh.2 * (mx nc * mx nc + vx nc) + 1
        let h := if g > 0 then h + g else h
        { ll := s.ll + nr.1
          scr := ⟨mx, vx, p⟩
          g1 := Function.update s.g1 i (.fin g)
          g2 := Function.update s.g2 i (.fin h) }
      else { s with ll := s.ll + nr.1, scr := ⟨mx, vx, p⟩ }
    else { s with scr := ⟨vox.x, vox.v, pr.2⟩ }
  else { s with scr := ⟨vox.x, vox.v, s.scr.p⟩ }

/-- Function `INUgrads`: the returned value and the buffers `g1`, `g2` on return. -/
def INUgrads (m : Libm α) (nf : Nat → Nat) (mf : Nat → FVal α) (vf : Nat → α) (K : Nat)
    (gmm : Nat → GMMtype) (buf : Nat → α) (nm skip lkp : Nat → Nat) (lp : Nat → FVal α)
    (index : Nat → Nat) (scr : Scratch α) (g1 g2 : Nat → FVal α) :
    α × (Nat → FVal α) × (Nat → FVal α) :=
  let P := nf 3
  let Nf := nf 0 * nf 1 * nf 2
  let Nm := nm 0 * nm 1 * nm 2
  if boundFails P K then (-1, g1, g2)
  else
    let s := forUp (extent nf nm skip 2) (fun i2 s =>
      forUp (extent nf nm skip 1) (fun i1 s =>
        let off_f := nf 0 * (i1 + nf 1 * i2)
        let off_m := nm 0 * (i1 * skip 1 + nm 1 * i2 * skip 2)
        forUp (extent nf nm skip 0) (fun i0 s =>
          INUgrads_voxel m Nf P K mf vf gmm buf Nm lkp lp index
            (i0 + off_f) (i0 * skip 0 + off_m) s) s) s)
      (⟨0, scr, g1, g2⟩ : GState α)
    (s.ll, s.g1, s.g2)

/-- Function `make_index`: the array `index` on return.  The shifts `(size_t)1 << ic` and
`(size_t)1 << i` are the mathematical ones; this is the C code for `ic < 64` (and `P < 64`).
For `ic ≥ 64` C leaves the shift undefined (`make_index_c` has no value then,
`make_index_masked` is what x86-64 computes). -/
def make_index (P ic : Nat) (index : Nat → Nat) : Nat → Nat :=
  forUp (1 <<< P) (fun code index =>
    if (code &&& (1 <<< ic)) ≠ 0 then
      let i1 := forUp ic (fun i i1 => if (code &&& (1 <<< i)) ≠ 0 then i1 + 1 else i1) 0
      Function.update index code i1
    else Function.update index code Undefined) index

/-- Function `call_INUgrads`; `ok1`, `ok2`, `ok3` say whether the allocations succeed. -/
def call_INUgrads (m : Libm α) (ok1 ok2 ok3 : Bool) (nf : Nat → Nat)
    (mf : Nat → FVal α) (vf : Nat → α) (K : Nat) (mu b W nu gam : Nat → α)
    (nm skip lkp : Nat → Nat) (lp : Nat → FVal α) (ic : Nat) (scr : Scratch α)
    (g1 g2 : Nat → FVal α) : FVal α × (Nat → FVal α) × (Nat → FVal α) :=
  let P := nf 3
  if boundFails P K then (.nan, g1, g2)
  else
    match sub_gmm m ok1 ok2 P K mu b W nu gam with
    | none => (.nan, g1, g2)
    | some gb =>
      if ok3 then
        let index := make_index P ic (fun _ => 0)
        let res := INUgrads m nf mf vf K gb.1 gb.2 nm skip lkp lp index scr g1 g2
        (.fin res.1, res.2.1, res.2.2)
      else (.nan, g1, g2)

end Numeric

/-! ## Definitions used to state the properties -/

section SpecSide

variable {α : Type} [LinearOrderedField α] [FloorRing α]

/-- The finite value held by a cell (zero for a non-finite cell). -/
def FVal.toD : FVal α → α
  | .fin a => a
  | _ => 0

/-- The normaliser `s` of `softmax1` on `q`: the sum of the exponentials. -/
def softmax1_norm (m : Libm α) (K : Nat) (q : Nat → α) : α :=
  Finset.sum (Finset.range K) (fun k => fastexp m (q k - softmax1_max K q))

/-- Offset reached after laying out regions `0 .. n-1` of sizes `sz 0, sz 1, ...` one
after the other. -/
def offsetOf (sz : Nat → Nat) (n : Nat) : Nat := ((List.range n).map sz).sum

/-- Regions `[start c, start c + size c)`, `c < n`, lie inside `[0, total)`, come in
increasing order without overlap, and cover `[0, total)`. -/
def Tiles (n : Nat) (start size : Nat → Nat) (total : Nat) : Prop :=
  (∀ c, c < n → start c + size c ≤ total) ∧
  (∀ c c', c < c' → c' < n → start c + size c ≤ start c') ∧
  (∀ x, x < total → ∃ c, c < n ∧ start c ≤ x ∧ x < start c + size c)

/-- The value that `Nresp` hands to the softmax for class `k`. -/
def Nresp_logit (gmm : Nat → GMMtype) (buf : Nat → α) (code : Nat) (x v p : Nat → α)
    (k : Nat) : α :=
  p k + (buf ((gmm code).conN + k) - (1 / 2) * buf ((gmm code).nu + k) *
    del2 (gmm code).P (shift buf ((gmm code).mu + k * (gmm code).P))
      (shift buf ((gmm code).W + k * ((gmm code).P * (gmm code).P))) x v)

/-- Sum of `f i im` over the voxels visited by `suffstats_missing` and `INUgrads`, `i` the
data index and `im` the prior index of the voxel. -/
def latticeSum (nf nm skip : Nat → Nat) (f : Nat → Nat → α) : α :=
  Finset.sum (Finset.range (extent nf nm skip 2)) (fun i2 =>
    Finset.sum (Finset.range (extent nf nm skip 1)) (fun i1 =>
      Finset.sum (Finset.range (extent nf nm skip 0)) (fun i0 =>
        f (i0 + nf 0 * (i1 + nf 1 * i2))
          (i0 * skip 0 + nm 0 * (i1 * skip 1 + nm 1 * i2 * skip 2)))))

/-- Buffer `s'` is `s` after the copies `s'[d] = s[src]` for the pairs related by `R`,
every other cell unchanged. -/
def Copies (R : Nat → Nat → Prop) (s s' : Nat → α) : Prop :=
  (∀ d src, R d src → s' d = s src) ∧ (∀ idx, (∀ src, ¬ R idx src) → s' idx = s idx)

/-- The copies made by the final loop of `suffstats_missing`: destination and source of
the cell pair `j < j1` of class `k` of a pattern `code ≥ 1`. -/
def MirrorPair (P K : Nat) (gmm : Nat → GMMtype) (suffstat : Nat → SStype) (d src : Nat) : Prop :=
  ∃ code k j j1, 1 ≤ code ∧ code < 2 ^ P ∧ k < K ∧ j < j1 ∧ j1 < (gmm code).P ∧
    d = (suffstat code).s2 + k * ((gmm code).P * (gmm code).P) + (j + (gmm code).P * j1) ∧
    src = (suffstat code).s2 + k * ((gmm code).P * (gmm code).P) + (j1 + (gmm code).P * j)

end SpecSide

section SpecVox

variable {α : Type} [LinearOrderedField α] [FloorRing α]
variable (m : Libm α) (Nf P K : Nat) (mf : Nat → FVal α) (vf : Nat → α)
  (gmm : Nat → GMMtype) (buf : Nat → α) (Nm : Nat) (lkp : Nat → Nat) (lp : Nat → FVal α)
  (suffstat : Nat → SStype)

/-- Pattern code of the voxel at data index `i`. -/
def voxCode (i : Nat) : Nat :=
  (get_vox Nf P (shift mf i) (shift vf i) (fun _ => 0) (fun _ => 0)).code

/-- Packed observed means of the voxel at data index `i`. -/
def voxX (i : Nat) : Nat → α :=
  (get_vox Nf P (shift mf i) (shift vf i) (fun _ => 0) (fun _ => 0)).x

/-- Packed observed variances of the voxel at data index `i`. -/
def voxV (i : Nat) : Nat → α :=
  (get_vox Nf P (shift mf i) (shift vf i) (fun _ => 0) (fun _ => 0)).v

/-- Whether the prior lookup at prior index `im` is finite for every class. -/
def priorOk (im : Nat) : Bool :=
  (get_priors Nm (shift lp im) K lkp (fun _ => 0)).1

/-- The log priors read at prior index `im`. -/
def voxPrior (im : Nat) : Nat → α :=
  (get_priors Nm (shift lp im) K lkp (fun _ => 0)).2

/-- The Normal kernel at the voxel `(i, im)`: its returned value and its responsibilities. -/
def voxNresp (i im : Nat) : α × (Nat → α) :=
  Nresp m K gmm buf (voxCode Nf P mf vf i) (voxX Nf P mf vf i) (voxV Nf P mf vf i)
    (voxPrior K Nm lkp lp im)

/-- A voxel contributes to a statistics pass when it has a finite channel mean and its
prior lookup is finite for every class. -/
def contributes (i im : Nat) : Prop :=
  0 < voxCode Nf P mf vf i ∧ priorOk K Nm lkp lp im = true

instance (i im : Nat) : Decidable (contributes Nf P K mf vf Nm lkp lp i im) := by
  unfold contributes; infer_instance

end SpecVox

section SpecResp
variable {α : Type} [LinearOrderedField α] [FloorRing α]

/-- The kernel that `responsibilities` runs at the voxel `(i0, i1, i2)` with index `i`, on
the data of that voxel: `Nresp` on the stride lattice and `Tresp` off it; returned value and
responsibilities. -/
def voxResp (m : Libm α) (N1 P K : Nat) (skip : Nat → Nat) (mf : Nat → FVal α) (vf : Nat → α)
    (gmm : Nat → GMMtype) (buf : Nat → α) (lkp : Nat → Nat) (lp : Nat → FVal α)
    (i0 i1 i2 i : Nat) : α × (Nat → α) :=
  if i2 % skip 2 = 0 ∧ (i1 % skip 1 = 0 ∧ i0 % skip 0 = 0) then
    Nresp m K gmm buf (voxCode N1 P mf vf i) (voxX N1 P mf vf i) (voxV N1 P mf vf i)
      (voxPrior K N1 lkp lp i)
  else
    Tresp m K gmm buf (voxCode N1 P mf vf i) (voxX N1 P mf vf i) (voxV N1 P mf vf i)
      (voxPrior K N1 lkp lp i)

/-- The value that `Tresp` hands to the softmax for class `k`. -/
def Tresp_logit (m : Libm α) (gmm : Nat → GMMtype) (buf : Nat → α) (code : Nat)
    (x v p : Nat → α) (k : Nat) : α :=
  p k + (buf ((gmm code).conT + k) - (1 / 2) * (buf ((gmm code).nu + k) + 1) *
    m.log (1 + buf ((gmm code).b + k) / (buf ((gmm code).b + k) + 1) *
      del2 (gmm code).P (shift buf ((gmm code).mu + k * (gmm code).P))
        (shift buf ((gmm code).W + k * ((gmm code).P * (gmm code).P))) x v))

end SpecResp

section SpecINU
variable {α : Type} [LinearOrderedField α] [FloorRing α]

/-- The sum `g = Σ_k nu'[k] p_k Σ_j (x_j - mu_k[j]) W_k[j, nc]` over the classes of a
pattern, `nc` the local position of the selected channel. -/
def INU_g (K : Nat) (gmm : Nat → GMMtype) (buf : Nat → α) (code nc : Nat) (x p : Nat → α) : α :=
  Finset.sum (Finset.range K) (fun k =>
    buf ((gmm code).nu + k) * p k *
      Finset.sum (Finset.range (gmm code).P) (fun j =>
        (x j - buf ((gmm code).mu + (j + (gmm code).P * k)))
          * buf ((gmm code).W + (j + (gmm code).P * (nc + (gmm code).P * k)))))

/-- The sum `h = Σ_k nu'[k] p_k W_k[nc, nc]` over the classes of a pattern. -/
def INU_h (K : Nat) (gmm : Nat → GMMtype) (buf : Nat → α) (code nc : Nat) (p : Nat → α) : α :=
  Finset.sum (Finset.range K) (fun k =>
    buf ((gmm code).nu + k) * p k
      * buf ((gmm code).W + (nc + (gmm code).P * (nc + (gmm code).P * k))))

/-- The gradient `G = g x_nc + h v_nc - 1` of the voxel `(i, im)` for the index array
`index`. -/
def voxGrad (m : Libm α) (Nf P K : Nat) (mf : Nat → FVal α) (vf : Nat → α)
    (gmm : Nat → GMMtype) (buf : Nat → α) (Nm : Nat) (lkp : Nat → Nat) (lp : Nat → FVal α)
    (index : Nat → Nat) (i im : Nat) : α :=
  INU_g K gmm buf (voxCode Nf P mf vf i) (index (voxCode Nf P mf vf i)) (voxX Nf P mf vf i)
      (voxNresp m Nf P K mf vf gmm buf Nm lkp lp i im).2
      * voxX Nf P mf vf i (index (voxCode Nf P mf vf i))
    + INU_h K gmm buf (voxCode Nf P mf vf i) (index (voxCode Nf P mf vf i))
      (voxNresp m Nf P K mf vf gmm buf Nm lkp lp i im).2
      * voxV Nf P mf vf i (index (voxCode Nf P mf vf i))
    - 1

/-- The Hessian term `h (x_nc^2 + v_nc) + 1` of the voxel `(i, im)`. -/
def voxHess (m : Libm α) (Nf P K : Nat) (mf : Nat → FVal α) (vf : Nat → α)
    (gmm : Nat → GMMtype) (buf : Nat → α) (Nm : Nat) (lkp : Nat → Nat) (lp : Nat → FVal α)
    (index : Nat → Nat) (i im : Nat) : α :=
  INU_h K gmm buf (voxCode Nf P mf vf i) (index (voxCode Nf P mf vf i))
      (voxNresp m Nf P K mf vf gmm buf Nm lkp lp i im).2
      * (voxX Nf P mf vf i (index (voxCode Nf P mf vf i))
          * voxX Nf P mf vf i (index (voxCode Nf P mf vf i))
        + voxV Nf P mf vf i (index (voxCode Nf P mf vf i)))
    + 1

end SpecINU

section SpecPart
variable {α : Type} [LinearOrderedField α] [FloorRing α]

end SpecPart

section Memo
variable {α : Type} [LinearOrderedField α] [FloorRing α]

/-- The table index `i` of `fastexp`: `rint(x)` clamped to `[-128, 127]`. -/
def fastexp_index (x : α) : Int :=
  let i := rint x
  let i := if i < -128 then -128 else i
  if i > 127 then 127 else i

/-- Function `fastexp` with its static table `exp_lkp` (indices `-128 .. 127`, zero at
program start) as explicit state: the returned value and the table after the call. -/
def fastexp_memo (m : Libm α) (tbl : Int → α) (x : α) : α × (Int → α) :=
  let i := fastexp_index x
  let tbl := if tbl i = 0 then Function.update tbl i (m.exp (i : α)) else tbl
  let r := x - (i : α)
  let rr := r * r
  (tbl i * (1 + 2 * r / (2 - r + rr / 6)), tbl)

/-- Function `softmax1` with the table of `fastexp` as explicit state. -/
def softmax1_memo (m : Libm α) (tbl : Int → α) (K : Nat) (q p : Nat → α) :
    (α × (Nat → α)) × (Int → α) :=
  let mx := softmax1_max K q
  let st := forUp K (fun k (st : (α × (Nat → α)) × (Int → α)) =>
    let e := fastexp_memo m st.2 (q k - mx)
    ((st.1.1 + e.1, Function.update st.1.2 k e.1), e.2)) ((0, p), tbl)
  let s := st.1.1
  let p := forUp K (fun k p => Function.update p k (p k / s)) st.1.2
  ((m.log s + mx, p), st.2)

/-- Function `softmax` with the table of `fastexp` as explicit state. -/
def softmax_memo (m : Libm α) (tbl : Int → α) (K : Nat) (q p : Nat → α) :
    (α × (Nat → α)) × (Int → α) :=
  let mx := forUp K (fun k mx => if q k > mx then q k else mx) 0
  let e0 := fastexp_memo m tbl (-mx)
  let st := forUp K (fun k (st : (α × (Nat → α)) × (Int → α)) =>
    let e := fastexp_memo m st.2 (q k - mx)
    ((st.1.1 + e.1, Function.update st.1.2 k e.1), e.2)) ((e0.1, p), e0.2)
  let s := st.1.1
  let p := forUp K (fun k p => Function.update p k (p k / s)) st.1.2
  ((m.log s + mx, p), st.2)

/-- The states of the table of `fastexp` that can be reached from the zeroed static array
by calls of `fastexp`. -/
inductive TableReachable (m : Libm α) : (Int → α) → Prop
  | init : TableReachable m (fun _ => 0)
  | call (tbl : Int → α) (x : α) : TableReachable m tbl → TableReachable m (fastexp_memo m tbl x).2

end Memo

section SpecChol
variable {α : Type} [LinearOrderedField α] [FloorRing α]

/-- The pivot floor `sm0` of `choldc`: `((1e-40 + trace(a)) * 1e-7)^2`. -/
def choldc_floor (n : Nat) (a : Nat → α) : α :=
  forUp n (fun i sm0 => sm0 + a (i * n + i)) (1 / 10 ^ 40) * (1 / 10 ^ 7)
    * (forUp n (fun i sm0 => sm0 + a (i * n + i)) (1 / 10 ^ 40) * (1 / 10 ^ 7))

/-- The fact about libm `sqrt` that the Cholesky code relies on, over exact arithmetic:
the square root of the square of a positive number is that number. -/
def Libm.SqrtOk (m : Libm α) : Prop :=
  ∀ x : α, 0 < x → m.sqrt (x * x) = x

/-- The law of libm `log` used to read a sum of logarithms as the logarithm of a
determinant: it turns products of positive numbers into sums. -/
def Libm.LogOk (m : Libm α) : Prop :=
  ∀ x y : α, 0 < x → 0 < y → m.log (x * y) = m.log x + m.log y

/-- Matrix `L` (rows and columns below `n`) is a Cholesky factor of the `n × n` array `a`
that `choldc` does not floor: lower triangular with a positive diagonal, `a = L Lᵀ`, and
every squared diagonal entry above the pivot floor. -/
def CholFactor (n : Nat) (a : Nat → α) (L : Nat → Nat → α) : Prop :=
  (∀ r c, r < c → c < n → L r c = 0) ∧
  (∀ i, i < n → 0 < L i i) ∧
  (∀ i j, i < n → j < n → a (i * n + j) = Finset.sum (Finset.range n) (fun k => L i k * L j k)) ∧
  (∀ i, i < n → choldc_floor n a < L i i * L i i)

/-- The `n × n` matrix with entries `f r c`. -/
def matOf (n : Nat) (f : Nat → Nat → α) : Matrix (Fin n) (Fin n) α :=
  Matrix.of (fun r c => f r c)

end SpecChol

section SpecGmm
variable {α : Type} [LinearOrderedField α] [FloorRing α]

/-- Number of cells that pattern `c` takes in the parameter buffer of `allocate_gmm`. -/
def gmmSize (K c : Nat) : Nat :=
  K * bitcount c c + K + K * bitcount c c * bitcount c c + K + K + K + K

/-- The table entry that `allocate_gmm` makes for a pattern of dimension `nel` whose
parameters start at offset `o`. -/
def gmmEntry (K nel o : Nat) : GMMtype :=
  { P := nel
    mu := o
    b := o + K * nel
    W := o + K * nel + K
    nu := o + K * nel + K + K * nel * nel
    gam := o + K * nel + K + K * nel * nel + K
    conN := o + K * nel + K + K * nel * nel + K + K
    conT := o + K * nel + K + K * nel * nel + K + K + K }

/-- Cell `idx` of the parameter buffer belongs to class `k` of the pattern with table
entry `g`: it is one of the cells that `sub_gmm` writes for that pattern and class. -/
def GmmCell (g : GMMtype) (k idx : Nat) : Prop :=
  idx = g.nu + k ∨ idx = g.b + k ∨ idx = g.gam + k ∨
  (∃ j1, j1 < g.P ∧ idx = g.mu + (j1 + g.P * k)) ∨
  (∃ e, e < g.P * g.P ∧ idx = g.W + k * g.P * g.P + e) ∨
  idx = g.conN + k ∨ idx = g.conT + k
end SpecGmm

section SpecExtract
variable {α : Type} [LinearOrderedField α] [FloorRing α]

/-- The loop over the channels `j` of `sub_gmm` for one pattern and class: it packs the
means of the observed channels into `gmm[code].mu` and the sub-covariance of the observed
channels into `Si = S + P*P`; the state is the running count `j1`, the parameter buffer and
the scratch buffer. -/
def sub_gmm_pack (P : Nat) (mu : Nat → α) (g : GMMtype) (k code : Nat)
    (buf S : Nat → α) : Nat × (Nat → α) × (Nat → α) :=
  forUp P (fun j (r : Nat × (Nat → α) × (Nat → α)) =>
    let j1 := r.1
    if ((1 <<< j) &&& code) ≠ 0 then
      let buf := Function.update r.2.1 (g.mu + (j1 + g.P * k)) (mu (j + P * k))
      let q := forUp P (fun i (q : Nat × (Nat → α)) =>
        if ((1 <<< i) &&& code) ≠ 0 then
          (q.1 + 1, Function.update q.2 (P * P + (q.1 + g.P * j1)) (q.2 (i + P * j)))
        else q) (0, r.2.2)
      (j1 + 1, buf, q.2)
    else r) (0, buf, S)
end SpecExtract

section SpecStages
variable {α : Type} [LinearOrderedField α] [FloorRing α]

/-- The first three stores of the body of the loop over `code` in `sub_gmm`: `nu'`, `b`
and the log mixing weight of class `k`. -/
def sub_gmm_head (P : Nat) (b nu : Nat → α) (g : GMMtype) (k : Nat) (lgam : α)
    (buf : Nat → α) : Nat → α :=
  Function.update (Function.update (Function.update buf (g.nu + k)
    (nu k - ((wsub P g.P : Nat) : α))) (g.b + k) (b k)) (g.gam + k) lgam

/-- The call `invert(Po, Si, gmm[code].W + k*Po*Po, Si + Po*Po)` of `sub_gmm` on the packed
sub-covariance: its returned value and the views `S` and `T` on return. -/
def sub_gmm_inv (m : Libm α) (P : Nat) (mu b nu : Nat → α) (g : GMMtype) (k : Nat) (lgam : α)
    (code : Nat) (buf S : Nat → α) : α × (Nat → α) × (Nat → α) :=
  invert m g.P
    (shift (sub_gmm_pack P mu g k code (sub_gmm_head P b nu g k lgam buf) S).2.2 (P * P))
    (shift (sub_gmm_pack P mu g k code (sub_gmm_head P b nu g k lgam buf) S).2.1
      (g.W + k * g.P * g.P))
    (shift (sub_gmm_pack P mu g k code (sub_gmm_head P b nu g k lgam buf) S).2.2
      (P * P + g.P * g.P))

/-- The last two stores of the body of the loop over `code` in `sub_gmm`: the constants
`conN[k]` and `conT[k]`, from the value `ld` returned by `invert`. -/
def sub_gmm_tail (m : Libm α) (b : Nat → α) (g : GMMtype) (k : Nat) (lgam ld : α)
    (buf : Nat → α) : Nat → α :=
  let log2pi := m.log (2 * pi)
  let log2 := m.log 2
  let Po := g.P
  let eld := forUp Po (fun j eld => eld + psi m ((buf (g.nu + k) - (j : α)) * (1 / 2))) 0
  let eld := eld + ((Po : α) * log2 + ld)
  let buf := Function.update buf (g.conN + k)
    ((1 / 2) * (eld - (Po : α) * (log2pi + 1 / buf (g.b + k))) + lgam)
  let ld1 := ld + (Po : α) * m.log ((buf (g.nu + k) + 1 - (Po : α)) * b k / (b k + 1))
  Function.update buf (g.conT + k)
    (m.lgamma ((1 / 2) * (buf (g.nu + k) + 1)) - m.lgamma ((1 / 2) * (buf (g.nu + k) + 1 - (Po : α)))
      + (1 / 2) * ld1 - (1 / 2) * (Po : α) * m.log ((buf (g.nu + k) + 1 - (Po : α)) * pi) + lgam)
end SpecStages

section SpecSub
variable {α : Type} [LinearOrderedField α] [FloorRing α]

/-- Array `Sub` holds the sub-matrix of the `P × P` array `S` over the channels of the
pattern `code`, in increasing channel order: the entry at the local positions of two
observed channels `i`, `j` is `S[i + P*j]`. -/
def IsSubMatrix (P code : Nat) (S Sub : Nat → α) : Prop :=
  ∀ i j, i < P → j < P → code.testBit i = true → code.testBit j = true →
    Sub (bitcount i code + bitcount P code * bitcount j code) = S (i + P * j)
end SpecSub

section SpecOne
variable {α : Type} [LinearOrderedField α] [FloorRing α]

/-- The pivot that `choldc` takes for the `1 × 1` array `(w)`: `w`, or the floor
`((1e-40 + w) * 1e-7)^2` when `w` is not above it. -/
def pivot1 (w : α) : α :=
  if w ≤ (1 / 10 ^ 40 + w) * (1 / 10 ^ 7) * ((1 / 10 ^ 40 + w) * (1 / 10 ^ 7)) then
    (1 / 10 ^ 40 + w) * (1 / 10 ^ 7) * ((1 / 10 ^ 40 + w) * (1 / 10 ^ 7))
  else w

/-- What `invert` leaves in `S[0]` for the `1 × 1` array `(w)`. -/
def invert1 (m : Libm α) (w : α) : α :=
  1 / m.sqrt (pivot1 w) / m.sqrt (pivot1 w)
end SpecOne

section SpecVB
variable {α : Type} [LinearOrderedField α] [FloorRing α]

/-- The logit of class `k` of the one-channel VB-GMM as the specification writes it:
`logprior_k + log gam_k + 0.5*(psi(nu_k/2) + log 2 + log W_k - log(2*pi) - 1/b_k)
 - 0.5*nu_k*W_k*((x - mu_k)^2 + v)`. -/
def vb1d_logit (m : Libm α) (mu b W nu gam : Nat → α) (x v : α) (p : Nat → α) (k : Nat) : α :=
  p k + m.log (gam k)
    + (1 / 2) * (psi m (nu k / 2) + m.log 2 + m.log (W k) - m.log (2 * pi) - 1 / b k)
    - (1 / 2) * nu k * W k * ((x - mu k) ^ 2 + v)
end SpecVB

section SpecPop
/-- The number of set bits of `c` (bits at positions above `log2 c` are clear). -/
def popcount (c : Nat) : Nat :=
  (Finset.filter (fun i => c.testBit i = true) (Finset.range (Nat.log2 c + 1))).card

/-- The right shift `x >> i` of a 64-bit `size_t` as C defines it: no value for a shift
count `i ≥ 64`. -/
def shr64 (x i : Nat) : Option Nat := if i < 64 then some (x >>> i) else none

/-- The bit-counting loop `for (i = 0, Po = 0; i < n; i++) Po += (code >> i) & 1` with the
shift of C: no value once a shift count reaches `64`. -/
def bitcount_c (n code : Nat) : Option Nat :=
  forUp n (fun i acc =>
    match acc, shr64 code i with
    | some Po, some s => some (Po + (s &&& 1))
    | _, _ => none) (some 0)

/-- The same loop with the shift count taken modulo `64`, as the x86-64 shift instruction
takes it: one outcome of the shift that C leaves undefined. -/
def bitcount_masked (n code : Nat) : Nat :=
  forUp n (fun i Po => Po + ((code >>> (i % 64)) &&& 1)) 0
end SpecPop

section SpecSafe
variable {α : Type} [LinearOrderedField α] [FloorRing α]

/-- The fact about libm `sqrt` behind the positive pivots: the square root of a positive
number is positive. -/
def Libm.SqrtPos (m : Libm α) : Prop := ∀ x : α, 0 < x → 0 < m.sqrt x

/-- The `n × n` array `a` is symmetric positive semi-definite: `a[i,j] = a[j,i]` and
`zᵀ a z ≥ 0` for every vector `z`. -/
def IsPSD (n : Nat) (a : Nat → α) : Prop :=
  (∀ i j, i < n → j < n → a (i * n + j) = a (j * n + i)) ∧
  ∀ z : Nat → α, 0 ≤ Finset.sum (Finset.range n) (fun i =>
    Finset.sum (Finset.range n) (fun j => z i * a (i * n + j) * z j))

/-- Function `choldc` with its faults made explicit: the result is `none` when a square
root is taken of a number that is not positive or a division is by zero. -/
def choldc_chk (m : Libm α) (n : Nat) (a p : Nat → α) : Option ((Nat → α) × (Nat → α)) :=
  let sm0 := forUp n (fun i sm0 => sm0 + a (i * n + i)) (1 / 10 ^ 40)
  let sm0 := sm0 * (1 / 10 ^ 7)
  let sm0 := sm0 * sm0
  forUp n (fun i st =>
    forFrom i n (fun j (st : Option ((Nat → α) × (Nat → α))) =>
      st.bind (fun ap =>
        let sm := forDown i (fun k sm => sm - ap.1 (i * n + k) * ap.1 (j * n + k)) (ap.1 (i * n + j))
        if i = j then
          let sm := if sm ≤ sm0 then sm0 else sm
          if 0 < sm then some (ap.1, Function.update ap.2 i (m.sqrt sm)) else none
        else
          if ap.2 i = 0 then none
          else some (Function.update ap.1 (j * n + i) (sm / ap.2 i), ap.2))) st) (some (a, p))

/-- Function `cholls` with its faults made explicit: `none` when a division is by zero. -/
def cholls_chk (n : Nat) (a p b x : Nat → α) : Option (Nat → α) :=
  let x := forUp n (fun i (st : Option (Nat → α)) =>
    st.bind (fun x =>
      let sm := forDown i (fun k sm => sm - a (i * n + k) * x k) (b i)
      if p i = 0 then none else some (Function.update x i (sm / p i)))) (some x)
  forDown n (fun i (st : Option (Nat → α)) =>
    st.bind (fun x =>
      let sm := forFrom (i + 1) n (fun k sm => sm - a (k * n + i) * x k) (x i)
      if p i = 0 then none else some (Function.update x i (sm / p i)))) x

/-- Function `invert` with its faults made explicit: `none` when `choldc` or `cholls`
faults or a logarithm is taken of a number that is not positive. -/
def invert_chk (m : Libm α) (P : Nat) (W S T : Nat → α) :
    Option (α × (Nat → α) × (Nat → α)) :=
  let PP := P * P
  let T := forUp PP (fun i T => Function.update T i (W i)) T
  match choldc_chk m P T (shift T PP) with
  | none => none
  | some ap =>
    let T := unshift ap.1 PP ap.2
    let p := shift T PP
    let st := forUp P (fun j (st : Option (α × (Nat → α))) =>
      st.bind (fun st =>
        if 0 < p j then
          let ld := st.1 + m.log (p j)
          let S := forUp P (fun i S => Function.update S (i + j * P) 0) st.2
          let S := Function.update S (j + j * P) 1
          match cholls_chk P T p (shift S (j * P)) (shift S (j * P)) with
          | none => none
          | some x => some (ld, unshift S (j * P) x)
        else none)) (some (0, S))
    st.map (fun st => (-2 * st.1, st.2, T))
end SpecSafe

section SpecCount
variable {α : Type} [LinearOrderedField α] [FloorRing α]

/-- The number of contributing voxels of a statistics pass: the lattice points
`(i2, i1, i0)` below the sampled extents whose voxel has a finite channel mean and a prior
lookup that is finite for every class. -/
def contributingCount (nf : Nat → Nat) (mf : Nat → FVal α) (vf : Nat → α) (K : Nat)
    (nm skip lkp : Nat → Nat) (lp : Nat → FVal α) : Nat :=
  (Finset.filter (fun t : Nat × Nat × Nat =>
      contributes (nf 0 * nf 1 * nf 2) (nf 3) K mf vf (nm 0 * nm 1 * nm 2) lkp lp
        (t.2.2 + nf 0 * (t.2.1 + nf 1 * t.1))
        (t.2.2 * skip 0 + nm 0 * (t.2.1 * skip 1 + nm 1 * t.1 * skip 2)))
    (Finset.range (extent nf nm skip 2) ×ˢ Finset.range (extent nf nm skip 1)
      ×ˢ Finset.range (extent nf nm skip 0))).card
end SpecCount

section SpecFactor
variable {α : Type} [LinearOrderedField α] [FloorRing α]

/-- Libm `sqrt` over exact arithmetic: the square root of a positive number is positive and
squares to that number. -/
def Libm.SqrtExact (m : Libm α) : Prop :=
  ∀ x : α, 0 < x → 0 < m.sqrt x ∧ m.sqrt x * m.sqrt x = x

/-- The lower-triangular matrix that `choldc` leaves behind in the pair `ap` of its results:
the strict lower triangle in `a[r*n + c]`, `c < r`, the diagonal in `p`. -/
def cholLeft (n : Nat) (ap : (Nat → α) × (Nat → α)) (r c : Nat) : α :=
  if c < r then ap.1 (r * n + c) else if c = r then ap.2 r else 0

/-- The squared pivot of row `i` that `choldc` compares with its floor:
`a[i,i] - Σ_{k<i} L[i,k]^2`, with the row `i` of `L` as `choldc` leaves it. -/
def cholPivot (m : Libm α) (n : Nat) (a p : Nat → α) (i : Nat) : α :=
  a (i * n + i) - Finset.sum (Finset.range i) (fun k =>
    (choldc m n a p).1 (i * n + k) * (choldc m n a p).1 (i * n + k))
end SpecFactor

section SpecViews
/-- Start of view `t` of a table entry of `allocate_gmm`, the views numbered in the order in
which they are carved: 0 `mu`, 1 `b`, 2 `W`, 3 `nu`, 4 `gam`, 5 `conN`, 6 `conT`. -/
def gmmViewStart (g : GMMtype) (t : Nat) : Nat :=
  if t = 0 then g.mu else if t = 1 then g.b else if t = 2 then g.W else if t = 3 then g.nu
  else if t = 4 then g.gam else if t = 5 then g.conN else g.conT

/-- Number of cells by which `allocate_gmm` advances its offset after view `t` of a pattern
of dimension `Po`: `K*Po` for `mu`, `K*Po*Po` for `W`, `K` for the others. -/
def gmmViewLen (K Po t : Nat) : Nat :=
  if t = 0 then K * Po else if t = 2 then K * Po * Po else K

/-- The final offset of the loop over `code` of `allocate_gmm` when the dimension `nel` of
each pattern is counted with the shift count taken modulo 64 (`bitcount_masked`), the outcome
of `code >> i`, `i ≥ 64`, on x86-64. -/
def allocate_gmm_masked_end (P K : Nat) : Nat :=
  forUp (1 <<< P) (fun code o =>
    let nel := bitcount_masked code code
    o + K * nel + K + K * nel * nel + K + K + K + K) 0
end SpecViews

section SpecShoot
/-! ## The argument checks of `cgs3_mexFunction` and `fmg3_mexFunction` (`shoot3.c`) -/

/-- What the argument checks of `shoot3.c` read of an `mxArray`: the answers of
`mxIsNumeric`, `mxIsComplex`, `mxIsSparse`, `mxIsSingle`, `mxIsDouble`,
`mxGetNumberOfDimensions`, `mxGetDimensions` and `mxGetNumberOfElements`. -/
structure MxArray where
  isNumeric : Bool
  isComplex : Bool
  isSparse : Bool
  isSingle : Bool
  isDouble : Bool
  ndims : Nat
  dims : Nat → Nat
  numel : Nat

/-- The argument checks at the head of `cgs3_mexFunction`, in the order of the source:
the message of the first `mexErrMsgTxt` reached, `none` when every check passes. The third
dimension of `prhs[0]` is compared with `dm[1]`, as in the source. -/
def cgs3_validate (nlhs nrhs : Nat) (prhs : Nat → MxArray) : Option String :=
  if nrhs ≠ 3 ∨ nlhs > 1 then some "Incorrect usage"
  else if !(prhs 0).isNumeric || (prhs 0).isComplex || (prhs 0).isSparse || !(prhs 0).isSingle
    then some "Data must be numeric, real, full and single"
  else if (prhs 0).ndims ≠ 4 then some "Wrong number of dimensions."
  else if (prhs 0).dims 3 ≠ 6 then some "4th dimension of 1st arg must be 6."
  else if !(prhs 1).isNumeric || (prhs 1).isComplex || (prhs 1).isSparse || !(prhs 1).isSingle
    then some "Data must be numeric, real, full and single"
  else if (prhs 1).ndims ≠ 4 then some "Wrong number of dimensions."
  else
    let dm := (prhs 1).dims
    if dm 3 ≠ 3 then some "4th dimension of second arg must be 3."
    else if (prhs 0).dims 0 ≠ dm 0 then some "Incompatible 1st dimension."
    else if (prhs 0).dims 1 ≠ dm 1 then some "Incompatible 2nd dimension."
    else if (prhs 0).dims 2 ≠ dm 1 then some "Incompatible 3rd dimension."
    else if !(prhs 2).isNumeric || (prhs 2).isComplex || (prhs 2).isSparse || !(prhs 2).isDouble
      then some "Data must be numeric, real, full and double"
    else if (prhs 2).numel ≠ 9
      then some "Third argument should contain rtype, vox1, vox2, vox3, param1, param2, param3, tol and nit."
    else none

/-- The argument checks of `fmg3_mexFunction`, in the order of the source, those of the
optional fourth argument included. -/
def fmg3_validate (nlhs nrhs : Nat) (prhs : Nat → MxArray) : Option String :=
  if (nrhs ≠ 3 ∧ nrhs ≠ 4) ∨ nlhs > 1 then some "Incorrect usage"
  else if !(prhs 0).isNumeric || (prhs 0).isComplex || (prhs 0).isSparse || !(prhs 0).isSingle
    then some "Data must be numeric, real, full and single"
  else if (prhs 0).ndims ≠ 4 then some "Wrong number of dimensions."
  else if (prhs 0).dims 3 ≠ 6 then some "4th dimension of 1st arg must be 6."
  else if !(prhs 1).isNumeric || (prhs 1).isComplex || (prhs 1).isSparse || !(prhs 1).isSingle
    then some "Data must be numeric, real, full and single"
  else if (prhs 1).ndims ≠ 4 then some "Wrong number of dimensions."
  else
    let dm := (prhs 1).dims
    if dm 3 ≠ 3 then some "4th dimension of second arg must be 3."
    else if (prhs 0).dims 0 ≠ dm 0 then some "Incompatible 1st dimension."
    else if (prhs 0).dims 1 ≠ dm 1 then some "Incompatible 2nd dimension."
    else if (prhs 0).dims 2 ≠ dm 2 then some "Incompatible 3rd dimension."
    else if !(prhs 2).isNumeric || (prhs 2).isComplex || (prhs 2).isSparse || !(prhs 2).isDouble
      then some "Data must be numeric, real, full and double"
    else if (prhs 2).numel ≠ 9
      then some "Third argument should contain rtype, vox1, vox2, vox3, param1, param2, param3, ncycles and relax-its."
    else if nrhs ≥ 4 then
      if !(prhs 3).isNumeric || (prhs 3).isComplex || (prhs 3).isSparse || !(prhs 3).isSingle
        then some "Data must be numeric, real, full and single"
      else if (prhs 3).ndims ≠ 4 then some "Wrong number of dimensions."
      else if (prhs 3).dims 3 ≠ 3 then some "4th dimension of fourth arg must be 3."
      else if (prhs 3).dims 0 ≠ dm 0 then some "Incompatible 1st dimension."
      else if (prhs 3).dims 1 ≠ dm 1 then some "Incompatible 2nd dimension."
      else if (prhs 3).dims 2 ≠ dm 2 then some "Incompatible 3rd dimension."
      else none
    else none

/-- A real, full, single-precision array of four dimensions `d0 × d1 × d2 × d3`. -/
def singleArray (d0 d1 d2 d3 : Nat) : MxArray :=
  ⟨true, false, false, true, false, 4,
    fun i => if i = 0 then d0 else if i = 1 then d1 else if i = 2 then d2 else
      if i = 3 then d3 else 1, d0 * d1 * d2 * d3⟩

/-- A real, full, double-precision row of `n` elements. -/
def doubleRow (n : Nat) : MxArray :=
  ⟨true, false, false, false, true, 2, fun i => if i = 1 then n else 1, n⟩

/-- The three arguments `A`, `b` and the parameter row of nine numbers. -/
def shootArgs (A b : MxArray) : Nat → MxArray :=
  fun i => if i = 0 then A else if i = 1 then b else doubleRow 9
end SpecShoot

section SpecBytes
/-! ## The byte-order helpers of `spm_getdata.c`

A value is the bit pattern of its object representation, a natural number below `2^16`,
`2^32` or `2^64`; the arrays `p1`, `p2` of the helpers view its bytes. -/

/-- Byte `i` of the object representation of the bit pattern `x`, least significant byte
first (the numbering of the bytes does not matter for a reversal). -/
def byteAt (x i : Nat) : Nat := (x / 256 ^ i) % 256

/-- The bit pattern whose object representation is the `n` bytes `p 0`, …, `p (n - 1)`. -/
def ofBytes (n : Nat) (p : Nat → Nat) : Nat :=
  forUp n (fun i acc => acc + (p i % 256) * 256 ^ i) 0

/-- Function `getshort` of `spm_getdata.c` on the 16-bit pattern of its argument: `p1` views
the bytes of `x`, `p2` those of `y`, and `p2[1] = p1[0]; p2[0] = p1[1]`. -/
def getshort (x : Nat) : Nat :=
  let p1 := byteAt (x % 2 ^ 16)
  let p2 : Nat → Nat := fun _ => 0
  let p2 := Function.update p2 1 (p1 0)
  let p2 := Function.update p2 0 (p1 1)
  ofBytes 2 p2

/-- Function `getushort` of `spm_getdata.c`: the same statements as `getshort`. -/
def getushort (x : Nat) : Nat :=
  let p1 := byteAt (x % 2 ^ 16)
  let p2 : Nat → Nat := fun _ => 0
  let p2 := Function.update p2 1 (p1 0)
  let p2 := Function.update p2 0 (p1 1)
  ofBytes 2 p2

/-- Function `getint` of `spm_getdata.c` on the 32-bit pattern of its argument:
`p2[3] = p1[0]; p2[2] = p1[1]; p2[1] = p1[2]; p2[0] = p1[3]`. -/
def getint (x : Nat) : Nat :=
  let p1 := byteAt (x % 2 ^ 32)
  let p2 : Nat → Nat := fun _ => 0
  let p2 := Function.update p2 3 (p1 0)
  let p2 := Function.update p2 2 (p1 1)
  let p2 := Function.update p2 1 (p1 2)
  let p2 := Function.update p2 0 (p1 3)
  ofBytes 4 p2

/-- Function `getuint` of `spm_getdata.c`: the same statements as `getint`. -/
def getuint (x : Nat) : Nat :=
  let p1 := byteAt (x % 2 ^ 32)
  let p2 : Nat → Nat := fun _ => 0
  let p2 := Function.update p2 3 (p1 0)
  let p2 := Function.update p2 2 (p1 1)
  let p2 := Function.update p2 1 (p1 2)
  let p2 := Function.update p2 0 (p1 3)
  ofBytes 4 p2

/-- A 32-bit pattern is a signalling NaN of the IEEE-754 single format: exponent bits all
set, quiet bit (bit 22) clear, payload not zero. -/
def signallingNaN (x : Nat) : Prop :=
  (x % 2 ^ 32 / 2 ^ 23) % 256 = 255 ∧ (x % 2 ^ 32 / 2 ^ 22) % 2 = 0 ∧ x % 2 ^ 32 % 2 ^ 22 ≠ 0

instance (x : Nat) : Decidable (signallingNaN x) := by
  unfold signallingNaN; infer_instance

/-- The `float` that the body of an old-style function definition with a `float` parameter
works on, as a 32-bit pattern: the caller passes the argument promoted to `double` and the
function converts it back to `float`.  The two conversions give every pattern back except a
signalling NaN, which the promotion quiets by setting bit 22 (payload kept). -/
def floatParam (x : Nat) : Nat :=
  if signallingNaN x then x % 2 ^ 32 + 2 ^ 22 else x % 2 ^ 32

/-- Function `getfloat` of `spm_getdata.c` on the 32-bit pattern of the `float` given by the
caller: the parameter `float x` of the old-style definition is the argument after its
promotion to `double` and back (`floatParam`); then the same statements as `getint`. -/
def getfloat (x : Nat) : Nat :=
  let p1 := byteAt (floatParam x)
  let p2 : Nat → Nat := fun _ => 0
  let p2 := Function.update p2 3 (p1 0)
  let p2 := Function.update p2 2 (p1 1)
  let p2 := Function.update p2 1 (p1 2)
  let p2 := Function.update p2 0 (p1 3)
  ofBytes 4 p2

/-- Function `getdouble` of `spm_getdata.c` on the 64-bit pattern of the `double`:
`p2[7] = p1[0]; …; p2[0] = p1[7]`. -/
def getdouble (x : Nat) : Nat :=
  let p1 := byteAt (x % 2 ^ 64)
  let p2 : Nat → Nat := fun _ => 0
  let p2 := Function.update p2 7 (p1 0)
  let p2 := Function.update p2 6 (p1 1)
  let p2 := Function.update p2 5 (p1 2)
  let p2 := Function.update p2 4 (p1 3)
  let p2 := Function.update p2 3 (p1 4)
  let p2 := Function.update p2 2 (p1 5)
  let p2 := Function.update p2 1 (p1 6)
  let p2 := Function.update p2 0 (p1 7)
  ofBytes 8 p2
end SpecBytes

section SpecShift
/-- The left shift `(size_t)1 << i` as C defines it: no value for a shift count `i ≥ 64`. -/
def shl64 (i : Nat) : Option Nat := if i < 64 then some (1 <<< i) else none

/-- Body of the loop over `code` of `allocate_gmm` with the shift of C: no value once the
bit count `for (i = 0; i < code; i++) nel += (code >> i) & 1` needs a shift count of `64`
(`bitcount_c`), that is for `code > 64`. -/
def allocate_gmm_step_c (K : Nat) (code : Nat) (st : Option GMMloop) : Option GMMloop :=
  match st, bitcount_c code code with
  | some st, some nel =>
    let o := st.o
    some
      { tbl := Function.update st.tbl code
          { P := nel
            mu := o
            b := o + K * nel
            W := o + K * nel + K
            nu := o + K * nel + K + K * nel * nel
            gam := o + K * nel + K + K * nel * nel + K
            conN := o + K * nel + K + K * nel * nel + K + K
            conT := o + K * nel + K + K * nel * nel + K + K + K }
        o := o + K * nel + K + K * nel * nel + K + K + K + K }
  | _, _ => none

/-- The loop over `code < (size_t)1 << P` of `allocate_gmm` with the shifts of C: the table
and the final offset, or no value when a shift is undefined. -/
def allocate_gmm_loop_c (P K : Nat) : Option GMMloop :=
  match shl64 P with
  | some n => forUp n (allocate_gmm_step_c K) (some ⟨fun _ => ⟨0, 0, 0, 0, 0, 0, 0, 0⟩, 0⟩)
  | none => none

/-- Body of the loop over `code` of `allocate_gmm` with the shift count taken modulo `64`
(`bitcount_masked`), as the x86-64 shift instruction takes it. -/
def allocate_gmm_step_masked (K : Nat) (code : Nat) (st : GMMloop) : GMMloop :=
  let nel := bitcount_masked code code
  let o := st.o
  { tbl := Function.update st.tbl code
      { P := nel
        mu := o
        b := o + K * nel
        W := o + K * nel + K
        nu := o + K * nel + K + K * nel * nel
        gam := o + K * nel + K + K * nel * nel + K
        conN := o + K * nel + K + K * nel * nel + K + K
        conT := o + K * nel + K + K * nel * nel + K + K + K }
    o := o + K * nel + K + K * nel * nel + K + K + K + K }

/-- The loop of `allocate_gmm` as x86-64 runs it: every shift count modulo `64`. -/
def allocate_gmm_loop_masked (P K : Nat) : GMMloop :=
  forUp (1 <<< (P % 64)) (allocate_gmm_step_masked K) ⟨fun _ => ⟨0, 0, 0, 0, 0, 0, 0, 0⟩, 0⟩

/-- The number of doubles that `allocate_gmm` requests from `calloc` for the parameter
buffer, `n0*5 + n1 + n2` in `size_t` arithmetic with the sizes of `space_needed`; no value
when `space_needed` has none. -/
def allocate_gmm_size (P K : Nat) : Option Nat :=
  match space_needed P K with
  | some n => some ((n.1 * 5 + n.2.1 + n.2.2) % 2 ^ 64)
  | none => none

/-- The counting loop `for (i = 0, i1 = 0; i < ic; i++) if ((code & (size_t)1 << i) != 0) i1++`
of `make_index` with the shift of C. -/
def make_index_count_c (code ic : Nat) : Option Nat :=
  forUp ic (fun i (acc : Option Nat) =>
    match acc, shl64 i with
    | some i1, some bit => some (if (code &&& bit) ≠ 0 then i1 + 1 else i1)
    | _, _ => none) (some 0)

/-- Body of the loop over `code` of `make_index` with the shift of C: no value when
`(size_t)1 << ic` has none. -/
def make_index_step_c (ic code : Nat) (st : Option (Nat → Nat)) : Option (Nat → Nat) :=
  match st, shl64 ic with
  | some index, some bit =>
    if (code &&& bit) ≠ 0 then
      match make_index_count_c code ic with
      | some i1 => some (Function.update index code i1)
      | none => none
    else some (Function.update index code Undefined)
  | _, _ => none

/-- Function `make_index` with the shifts of C: the array `index` on return, or no value
when a shift is undefined. -/
def make_index_c (P ic : Nat) (index : Nat → Nat) : Option (Nat → Nat) :=
  match shl64 P with
  | some n => forUp n (make_index_step_c ic) (some index)
  | none => none

/-- Function `make_index` as x86-64 runs it: every shift count modulo `64`. -/
def make_index_masked (P ic : Nat) (index : Nat → Nat) : Nat → Nat :=
  forUp (1 <<< (P % 64)) (fun code index =>
    if (code &&& (1 <<< (ic % 64))) ≠ 0 then
      let i1 := forUp ic (fun i i1 => if (code &&& (1 <<< (i % 64))) ≠ 0 then i1 + 1 else i1) 0
      Function.update index code i1
    else Function.update index code Undefined) index
end SpecShift

section SpecMemoChain
variable {α : Type} [LinearOrderedField α] [FloorRing α]

/-! ## The entry points with the table of `fastexp` as explicit state

The static array `exp_lkp` of `fastexp` is the only state that outlives a call of an entry
point.  The definitions below are the volume passes and the entry points with that table
threaded through every call of `softmax1` and `softmax` (the only callers of `fastexp`);
`sub_gmm`, `suffstat_pointers` and `make_index` do not call `fastexp`. -/

/-- Function `Nresp` with the table of `fastexp` as explicit state. -/
def Nresp_memo (m : Libm α) (tbl : Int → α) (K : Nat) (gmm : Nat → GMMtype) (buf : Nat → α)
    (code : Nat) (x v p : Nat → α) : (α × (Nat → α)) × (Int → α) :=
  let g := gmm code
  let P := g.P
  let p := forUp K (fun k p =>
    Function.update p k (p k + (buf (g.conN + k) - (1 / 2) * buf (g.nu + k) *
      del2 P (shift buf (g.mu + k * P)) (shift buf (g.W + k * (P * P))) x v))) p
  softmax1_memo m tbl K p p

/-- Function `Tresp` with the table of `fastexp` as explicit state. -/
def Tresp_memo (m : Libm α) (tbl : Int → α) (K : Nat) (gmm : Nat → GMMtype) (buf : Nat → α)
    (code : Nat) (x v p : Nat → α) : (α × (Nat → α)) × (Int → α) :=
  let g := gmm code
  let P := g.P
  let p := forUp K (fun k p =>
    Function.update p k (p k + (buf (g.conT + k) - (1 / 2) * (buf (g.nu + k) + 1) *
      m.log (1 + buf (g.b + k) / (buf (g.b + k) + 1) *
        del2 P (shift buf (g.mu + k * P)) (shift buf (g.W + k * (P * P))) x v)))) p
  softmax1_memo m tbl K p p

/-- Body of the voxel loop of `suffstats_missing` with the table of `fastexp`. -/
def suffstats_voxel_memo (m : Libm α) (Nf P K : Nat) (mf : Nat → FVal α) (vf : Nat → α)
    (gmm : Nat → GMMtype) (buf : Nat → α) (Nm : Nat) (lkp : Nat → Nat) (lp : Nat → FVal α)
    (suffstat : Nat → SStype) (i im : Nat) (s : SSstate α × (Int → α)) :
    SSstate α × (Int → α) :=
  let vox := get_vox Nf P (shift mf i) (shift vf i) s.1.scr.mx s.1.scr.vx
  let code := vox.code
  if code > 0 then
    let pr := get_priors Nm (shift lp im) K lkp s.1.scr.p
    if pr.1 then
      let nr := Nresp_memo m s.2 K gmm buf code vox.x vox.v pr.2
      ({ ll := s.1.ll + nr.1.1
         scr := ⟨vox.x, vox.v, nr.1.2⟩
         st := suffstats_accum K (gmm code).P (suffstat code) vox.x vox.v nr.1.2 s.1.st }, nr.2)
    else ({ s.1 with scr := ⟨vox.x, vox.v, pr.2⟩ }, s.2)
  else ({ s.1 with scr := ⟨vox.x, vox.v, s.1.scr.p⟩ }, s.2)

/-- The voxel loops of `suffstats_missing` with the table of `fastexp`. -/
def suffstats_pass_memo (m : Libm α) (nf : Nat → Nat) (mf : Nat → FVal α) (vf : Nat → α)
    (K : Nat) (gmm : Nat → GMMtype) (buf : Nat → α) (nm skip lkp : Nat → Nat)
    (lp : Nat → FVal α) (suffstat : Nat → SStype) (s : SSstate α × (Int → α)) :
    SSstate α × (Int → α) :=
  let P := nf 3
  let Nf := nf 0 * nf 1 * nf 2
  let Nm := nm 0 * nm 1 * nm 2
  forUp (extent nf nm skip 2) (fun i2 s =>
    forUp (extent nf nm skip 1) (fun i1 s =>
      let off_f := nf 0 * (i1 + nf 1 * i2)
      let off_m := nm 0 * (i1 * skip 1 + nm 1 * i2 * skip 2)
      forUp (extent nf nm skip 0) (fun i0 s =>
        suffstats_voxel_memo m Nf P K mf vf gmm buf Nm lkp lp suffstat
          (i0 + off_f) (i0 * skip 0 + off_m) s) s) s) s

/-- Function `suffstats_missing` with the table of `fastexp`: the log-likelihood and the
statistics buffers on return, and the table on return. -/
def suffstats_missing_memo (m : Libm α) (tbl : Int → α) (nf : Nat → Nat) (mf : Nat → FVal α)
    (vf : Nat → α) (K : Nat) (gmm : Nat → GMMtype) (buf : Nat → α) (nm skip lkp : Nat → Nat)
    (lp : Nat → FVal α) (suffstat : Nat → SStype) (scr : Scratch α) (st : Stats α) :
    (α × Stats α) × (Int → α) :=
  let s := suffstats_pass_memo m nf mf vf K gmm buf nm skip lkp lp suffstat (⟨0, scr, st⟩, tbl)
  ((s.1.ll, { s.1.st with s2 := suffstats_mirror (nf 3) K gmm suffstat s.1.st.s2 }), s.2)

/-- Function `call_suffstats_missing` with the table of `fastexp`. -/
def call_suffstats_missing_memo (m : Libm α) (tbl : Int → α) (ok1 ok2 ok3 : Bool)
    (nf : Nat → Nat) (mf : Nat → FVal α) (vf : Nat → α) (K : Nat) (mu b W nu gam : Nat → α)
    (nm skip lkp : Nat → Nat) (lp : Nat → FVal α) (scr : Scratch α) (st : Stats α) :
    (FVal α × Stats α) × (Int → α) :=
  let P := nf 3
  if boundFails P K then ((.nan, st), tbl)
  else
    match sub_gmm m ok1 ok2 P K mu b W nu gam with
    | none => ((.nan, st), tbl)
    | some gb =>
      match suffstat_pointers ok3 P K with
      | none => ((.nan, st), tbl)
      | some suffstat =>
        let r := suffstats_missing_memo m tbl nf mf vf K gb.1 gb.2 nm skip lkp lp suffstat scr st
        ((.fin r.1.1, r.1.2), r.2)

/-- Body of the voxel loop of `responsibilities` with the table of `fastexp`. -/
def responsibilities_voxel_memo (m : Libm α) (N1 P K : Nat) (skip : Nat → Nat)
    (mf : Nat → FVal α) (vf : Nat → α) (gmm : Nat → GMMtype) (buf : Nat → α) (K1 : Nat)
    (lkp : Nat → Nat) (lp : Nat → FVal α) (i0 i1 i2 i : Nat) (s : RState α × (Int → α)) :
    RState α × (Int → α) :=
  let vox := get_vox N1 P (shift mf i) (shift vf i) s.1.scr.mx s.1.scr.vx
  let code := vox.code
  let pr := get_priors N1 (shift lp i) K lkp s.1.scr.p
  if pr.1 then
    if code ≠ 0 then
      let nr :=
        if i2 % skip 2 = 0 ∧ (i1 % skip 1 = 0 ∧ i0 % skip 0 = 0) then
          Nresp_memo m s.2 K gmm buf code vox.x vox.v pr.2
        else
          Tresp_memo m s.2 K gmm buf code vox.x vox.v pr.2
      ({ ll := s.1.ll + nr.1.1
         scr := ⟨vox.x, vox.v, nr.1.2⟩
         r := forUp K (fun k r =>
           let k1 := lkp k
           if k1 < wsub K1 1 then
             Function.update r (i + k1 * N1) ((r (i + k1 * N1)).addFin (nr.1.2 k))
           else r) s.1.r }, nr.2)
    else
      let sm := softmax_memo m s.2 K1 pr.2 pr.2
      ({ ll := s.1.ll
         scr := ⟨vox.x, vox.v, sm.1.2⟩
         r := forUp (wsub K1 1) (fun k1 r => Function.update r (i + k1 * N1) .nan) s.1.r }, sm.2)
  else
    ({ ll := s.1.ll
       scr := ⟨vox.x, vox.v, pr.2⟩
       r := forUp (wsub K1 1) (fun k1 r => Function.update r (i + k1 * N1) .nan) s.1.r }, s.2)

/-- Function `responsibilities` with the table of `fastexp`. -/
def responsibilities_memo (m : Libm α) (tbl : Int → α) (nf skip : Nat → Nat)
    (mf : Nat → FVal α) (vf : Nat → α) (K : Nat) (gmm : Nat → GMMtype) (buf : Nat → α)
    (K1 : Nat) (lkp : Nat → Nat) (lp : Nat → FVal α) (scr : Scratch α) (r : Nat → FVal α) :
    (α × (Nat → FVal α)) × (Int → α) :=
  let P := nf 3
  let N1 := nf 0 * nf 1 * nf 2
  let s := forUp (nf 2) (fun i2 s =>
    forUp (nf 1) (fun i1 s =>
      let off_f := nf 0 * (i1 + nf 1 * i2)
      forUp (nf 0) (fun i0 s =>
        responsibilities_voxel_memo m N1 P K skip mf vf gmm buf K1 lkp lp i0 i1 i2
          (i0 + off_f) s) s) s)
    ((⟨0, scr, r⟩ : RState α), tbl)
  ((s.1.ll, s.1.r), s.2)

/-- Function `call_responsibilities` with the table of `fastexp`. -/
def call_responsibilities_memo (m : Libm α) (tbl : Int → α) (ok1 ok2 : Bool)
    (nf skip : Nat → Nat) (mf : Nat → FVal α) (vf : Nat → α) (K : Nat)
    (mu b W nu gam : Nat → α) (K1 : Nat) (lkp : Nat → Nat) (lp : Nat → FVal α)
    (scr : Scratch α) (r : Nat → FVal α) : (FVal α × (Nat → FVal α)) × (Int → α) :=
  let P := nf 3
  if boundFails P K then ((.nan, r), tbl)
  else
    match sub_gmm m ok1 ok2 P K mu b W nu gam with
    | none => ((.nan, r), tbl)
    | some gb =>
      let res := responsibilities_memo m tbl nf skip mf vf K gb.1 gb.2 K1 lkp lp scr r
      ((.fin res.1.1, res.1.2), res.2)

/-- Body of the voxel loop of `INUgrads` with the table of `fastexp`. -/
def INUgrads_voxel_memo (m : Libm α) (Nf P K : Nat) (mf : Nat → FVal α) (vf : Nat → α)
    (gmm : Nat → GMMtype) (buf : Nat → α) (Nm : Nat) (lkp : Nat → Nat) (lp : Nat → FVal α)
    (index : Nat → Nat) (i im : Nat) (s : GState α × (Int → α)) : GState α × (Int → α) :=
  let vox := get_vox Nf P (shift mf i) (shift vf i) s.1.scr.mx s.1.scr.vx
  let code := vox.code
  if code ≠ 0 then
    let pr := get_priors Nm (shift lp im) K lkp s.1.scr.p
    if pr.1 then
      let nr := Nresp_memo m s.2 K gmm buf code vox.x vox.v pr.2
      let p := nr.1.2
      let mx := vox.x
      let vx := vox.v
      if index code ≠ Undefined then
        let Po := (gmm code).P
        let mu := (gmm code).mu
        let W := (gmm code).W
        let nu := (gmm code).nu
        let nc := index code
        let gh := forUp K (fun k (gh : α × α) =>
          let nup := buf (nu + k) * p k
          let gk := forUp Po (fun j gk =>
            gk + (mx j - buf (mu + (j + Po * k))) * buf (W + (j + Po * (nc + Po * k)))) 0
          (gh.1 + nup * gk, gh.2 + nup * buf (W + (nc + Po * (nc + Po * k))))) (0, 0)
        let g := gh.1 * mx nc + gh.2 * vx nc - 1
        let h := gh.2 * (mx nc * mx nc + vx nc) + 1
        let h := if g > 0 then h + g else h
        ({ ll := s.1.ll + nr.1.1
           scr := ⟨mx, vx, p⟩
           g1 := Function.update s.1.g1 i (.fin g)
           g2 := Function.update s.1.g2 i (.fin h) }, nr.2)
      else ({ s.1 with ll := s.1.ll + nr.1.1, scr := ⟨mx, vx, p⟩ }, nr.2)
    else ({ s.1 with scr := ⟨vox.x, vox.v, pr.2⟩ }, s.2)
  else ({ s.1 with scr := ⟨vox.x, vox.v, s.1.scr.p⟩ }, s.2)

/-- Function `INUgrads` with the table of `fastexp`. -/
def INUgrads_memo (m : Libm α) (tbl : Int → α) (nf : Nat → Nat) (mf : Nat → FVal α)
    (vf : Nat → α) (K : Nat) (gmm : Nat → GMMtype) (buf : Nat → α) (nm skip lkp : Nat → Nat)
    (lp : Nat → FVal α) (index : Nat → Nat) (scr : Scratch α) (g1 g2 : Nat → FVal α) :
    (α × (Nat → FVal α) × (Nat → FVal α)) × (Int → α) :=
  let P := nf 3
  let Nf := nf 0 * nf 1 * nf 2
  let Nm := nm 0 * nm 1 * nm 2
  if boundFails P K then ((-1, g1, g2), tbl)
  else
    let s := forUp (extent nf nm skip 2) (fun i2 s =>
      forUp (extent nf nm skip 1) (fun i1 s =>
        let off_f := nf 0 * (i1 + nf 1 * i2)
        let off_m := nm 0 * (i1 * skip 1 + nm 1 * i2 * skip 2)
        forUp (extent nf nm skip 0) (fun i0 s =>
          INUgrads_voxel_memo m Nf P K mf vf gmm buf Nm lkp lp index
            (i0 + off_f) (i0 * skip 0 + off_m) s) s) s)
      ((⟨0, scr, g1, g2⟩ : GState α), tbl)
    ((s.1.ll, s.1.g1, s.1.g2), s.2)

/-- Function `call_INUgrads` with the table of `fastexp`. -/
def call_INUgrads_memo (m : Libm α) (tbl : Int → α) (ok1 ok2 ok3 : Bool) (nf : Nat → Nat)
    (mf : Nat → FVal α) (vf : Nat → α) (K : Nat) (mu b W nu gam : Nat → α)
    (nm skip lkp : Nat → Nat) (lp : Nat → FVal α) (ic : Nat) (scr : Scratch α)
    (g1 g2 : Nat → FVal α) : (FVal α × (Nat → FVal α) × (Nat → FVal α)) × (Int → α) :=
  let P := nf 3
  if boundFails P K then ((.nan, g1, g2), tbl)
  else
    match sub_gmm m ok1 ok2 P K mu b W nu gam with
    | none => ((.nan, g1, g2), tbl)
    | some gb =>
      if ok3 then
        let index := make_index P ic (fun _ => 0)
        let res := INUgrads_memo m tbl nf mf vf K gb.1 gb.2 nm skip lkp lp index scr g1 g2
        ((.fin res.1.1, res.1.2.1, res.1.2.2), res.2)
      else ((.nan, g1, g2), tbl)
end SpecMemoChain

/-! ## A rational instance for running the definitions -/

/-- A rational stand-in for the C math library, used to run the definitions on concrete
inputs: `exp` is `(11/4)^⌊x⌋`, `sqrt` is the rational square root (exact on squares of
rationals), the other two are crude rational maps. -/
def testLibm : Libm ℚ where
  exp := fun x => (11 / 4 : ℚ) ^ ⌊x⌋
  log := fun x => x - 1
  sqrt := fun x => Rat.sqrt x
  lgamma := fun x => x

/-- Dimensions of the test volume: `2 x 2 x 2` voxels, two channels. -/
def testNf : Nat → Nat := fun _ => 2

/-- Means of the test volume: all finite except channel 2 of voxel 3. -/
def testMf : Nat → FVal ℚ := fun i => if i = 11 then FVal.nan else FVal.fin 1

/-- Uniform log priors `log 0.5` of the test volume. -/
def testLp : Nat → FVal ℚ := fun _ => FVal.fin (testLibm.log (1 / 2))

/-- Zeroed local arrays. -/
def testScr : Scratch ℚ := ⟨fun _ => 0, fun _ => 0, fun _ => 0⟩

/-- Zeroed statistics buffers. -/
def testStats : Stats ℚ := ⟨fun _ => 0, fun _ => 0, fun _ => 0⟩

section Lemmas

set_option linter.unusedSectionVars false

variable {α : Type} [LinearOrderedField α] [FloorRing α]

/-! ## Loops -/

theorem forUp_zero {σ : Type} (body : Nat → σ → σ) (s : σ) : forUp 0 body s = s := rfl

theorem forUp_succ {σ : Type} (n : Nat) (body : Nat → σ → σ) (s : σ) :
    forUp (n + 1) body s = body n (forUp n body s) := by
  unfold forUp
  rw [List.range_succ, List.foldl_append]
  rfl

theorem forFrom_self {σ : Type} (lo : Nat) (body : Nat → σ → σ) (s : σ) :
    forFrom lo lo body s = s := by
  simp [forFrom]

theorem forFrom_of_le {σ : Type} (lo hi : Nat) (h : hi ≤ lo) (body : Nat → σ → σ) (s : σ) :
    forFrom lo hi body s = s := by
  simp [forFrom, Nat.sub_eq_zero_of_le h]

theorem forFrom_succ {σ : Type} (lo hi : Nat) (h : lo ≤ hi) (body : Nat → σ → σ) (s : σ) :
    forFrom lo (hi + 1) body s = body hi (forFrom lo hi body s) := by
  unfold forFrom
  have e : hi + 1 - lo = (hi - lo) + 1 := by omega
  rw [e, List.range'_concat, List.foldl_append]
  simp only [List.foldl_cons, List.foldl_nil, one_mul]
  congr 1
  omega

theorem testLibm_expOk : testLibm.ExpOk := by
  refine ⟨fun x => ?_, ?_⟩
  · show (0 : ℚ) < (11 / 4 : ℚ) ^ ⌊x⌋
    positivity
  · show (11 / 4 : ℚ) ^ ⌊(0 : ℚ)⌋ = 1
    simp

theorem forUp_map_update {β : Type} (n : Nat) (g : Nat → β → β) (p : Nat → β) :
    forUp n (fun k p => Function.update p k (g k (p k))) p
      = fun i => if i < n then g i (p i) else p i := by
  induction n with
  | zero => funext i; simp [forUp_zero]
  | succ n ih =>
    rw [forUp_succ, ih]
    funext i
    by_cases h : i = n
    · subst h; simp
    · rw [Function.update_noteq h]
      by_cases h2 : i < n
      · simp [h2, Nat.lt_succ_of_lt h2]
      · have : ¬ i < n + 1 := by omega
        simp [h2, this]

theorem forUp_sum_update (n : Nat) (e : Nat → α) (s0 : α) (p : Nat → α) :
    forUp n (fun k (sp : α × (Nat → α)) => (sp.1 + e k, Function.update sp.2 k (e k))) (s0, p)
      = (s0 + Finset.sum (Finset.range n) e, fun i => if i < n then e i else p i) := by
  induction n with
  | zero => simp [forUp_zero]
  | succ n ih =>
    rw [forUp_succ, ih]
    refine Prod.ext ?_ ?_
    · simp [Finset.sum_range_succ, add_assoc]
    · funext i
      by_cases h : i = n
      · subst h; simp
      · simp only [Function.update_noteq h]
        by_cases h2 : i < n
        · simp [h2, Nat.lt_succ_of_lt h2]
        · have : ¬ i < n + 1 := by omega
          simp [h2, this]

theorem forUp_congr {σ : Type} (n : Nat) (body body' : Nat → σ → σ)
    (h : ∀ i, i < n → ∀ s, body i s = body' i s) (s : σ) :
    forUp n body s = forUp n body' s := by
  induction n with
  | zero => rfl
  | succ n ih =>
    rw [forUp_succ, forUp_succ, ih (fun i hi => h i (by omega)), h n (by omega)]

theorem forFrom_congr {σ : Type} (lo hi : Nat) (body body' : Nat → σ → σ)
    (h : ∀ i, lo ≤ i → i < hi → ∀ s, body i s = body' i s) (s : σ) :
    forFrom lo hi body s = forFrom lo hi body' s := by
  induction hi with
  | zero => rw [forFrom_of_le lo 0 (by omega), forFrom_of_le lo 0 (by omega)]
  | succ n ih =>
    by_cases hl : lo ≤ n
    · rw [forFrom_succ lo n hl, forFrom_succ lo n hl, ih (fun i h1 h2 => h i h1 (by omega)),
        h n hl (by omega)]
    · rw [forFrom_of_le lo (n + 1) (by omega), forFrom_of_le lo (n + 1) (by omega)]

/-- A loop whose body adds `g i` to a component of the state adds the sum of the `g i`. -/
theorem forUp_acc {σ : Type} (π : σ → α) (body : Nat → σ → σ) (g : Nat → α)
    (h : ∀ i s, π (body i s) = π s + g i) (n : Nat) (s : σ) :
    π (forUp n body s) = π s + Finset.sum (Finset.range n) g := by
  induction n with
  | zero => simp [forUp_zero]
  | succ n ih => rw [forUp_succ, h, ih, Finset.sum_range_succ, add_assoc]

theorem forFrom_acc {σ : Type} (π : σ → α) (body : Nat → σ → σ) (g : Nat → α)
    (h : ∀ i s, π (body i s) = π s + g i) (lo hi : Nat) (s : σ) :
    π (forFrom lo hi body s) = π s + Finset.sum (Finset.Ico lo hi) g := by
  induction hi with
  | zero => rw [forFrom_of_le lo 0 (by omega)]; simp
  | succ n ih =>
    by_cases hl : lo ≤ n
    · rw [forFrom_succ lo n hl, h, ih, Finset.sum_Ico_succ_top hl, add_assoc]
    · rw [forFrom_of_le lo (n + 1) (by omega), Finset.Ico_eq_empty (by omega)]
      simp

/-- A loop whose body leaves a component of the state alone leaves it alone. -/
theorem forUp_keep {σ τ : Type} (π : σ → τ) (body : Nat → σ → σ)
    (h : ∀ i s, π (body i s) = π s) (n : Nat) (s : σ) :
    π (forUp n body s) = π s := by
  induction n with
  | zero => rfl
  | succ n ih => rw [forUp_succ, h, ih]

theorem forUp_add {σ : Type} (a b : Nat) (body : Nat → σ → σ) (s : σ) :
    forUp (a + b) body s = forUp b (fun i => body (a + i)) (forUp a body s) := by
  induction b with
  | zero => rfl
  | succ b ih => rw [← Nat.add_assoc, forUp_succ, forUp_succ, ih]

/-- Two nested counting loops are one loop over the linear index `lo + m * hi`. -/
theorem forUp_nested {σ : Type} (n m : Nat) (F : Nat → Nat → σ → σ) (s : σ) :
    forUp n (fun hi s => forUp m (fun lo s => F lo hi s) s) s
      = forUp (n * m) (fun i s => F (i % m) (i / m) s) s := by
  induction n with
  | zero => simp [forUp_zero]
  | succ n ih =>
    rw [forUp_succ, ih, Nat.succ_mul, forUp_add]
    refine forUp_congr m _ _ (fun i hi s' => ?_) _
    have hm : 0 < m := by omega
    have e1 : (n * m + i) % m = i := by
      rw [Nat.add_comm, Nat.add_mul_mod_self_right, Nat.mod_eq_of_lt hi]
    have e2 : (n * m + i) / m = n := by
      rw [Nat.add_comm, Nat.add_mul_div_right _ _ hm, Nat.div_eq_of_lt hi, Nat.zero_add]
    rw [e1, e2]

/-! ## Pattern codes -/

theorem bit_eq_testBit (c i : Nat) : (c >>> i) &&& 1 = (c.testBit i).toNat := by
  rw [Nat.and_one_is_mod, Nat.shiftRight_eq_div_pow, Nat.toNat_testBit]

theorem bitcount_succ (n c : Nat) : bitcount (n + 1) c = bitcount n c + (c.testBit n).toNat := by
  unfold bitcount
  rw [forUp_succ, bit_eq_testBit]

theorem bitcount_congr (n c c' : Nat) (h : ∀ i, i < n → c.testBit i = c'.testBit i) :
    bitcount n c = bitcount n c' := by
  induction n with
  | zero => rfl
  | succ n ih =>
    rw [bitcount_succ, bitcount_succ, ih (fun i hi => h i (by omega)), h n (by omega)]

theorem bitcount_le (n c : Nat) : bitcount n c ≤ n := by
  induction n with
  | zero => exact le_refl _
  | succ n ih =>
    rw [bitcount_succ]
    have : (c.testBit n).toNat ≤ 1 := Bool.toNat_le _
    omega

/-- Counting the bits of `c` below any `n` with `c < 2 ^ n` gives the same number. -/
theorem bitcount_stable (c n : Nat) (h : c < 2 ^ n) (k : Nat) :
    bitcount (n + k) c = bitcount n c := by
  induction k with
  | zero => rfl
  | succ k ih =>
    rw [← Nat.add_assoc, bitcount_succ, ih]
    have : c < 2 ^ (n + k) :=
      lt_of_lt_of_le h (Nat.pow_le_pow_right (by decide) (Nat.le_add_right n k))
    rw [Nat.testBit_lt_two_pow this]
    rfl

theorem bitcount_self (P c : Nat) (h : c < 2 ^ P) : bitcount c c = bitcount P c := by
  have hc : c < 2 ^ c := Nat.lt_two_pow c
  rcases Nat.le_total c P with hle | hle
  · obtain ⟨k, hk⟩ := Nat.exists_eq_add_of_le hle
    rw [hk, bitcount_stable c c hc k]
  · obtain ⟨k, hk⟩ := Nat.exists_eq_add_of_le hle
    have e := bitcount_stable c P h k
    rw [← hk] at e
    exact e

theorem bitcount_zero (n : Nat) : bitcount n 0 = 0 := by
  induction n with
  | zero => rfl
  | succ n ih => rw [bitcount_succ, ih]; simp

theorem bitcount_pos (n c : Nat) (h : c < 2 ^ n) (h0 : 0 < c) : 0 < bitcount n c := by
  by_contra hz
  have hz0 : bitcount n c = 0 := by omega
  have hb : ∀ m, m ≤ n → bitcount m c = 0 → ∀ i, i < m → c.testBit i = false := by
    intro m
    induction m with
    | zero => intro _ _ i hi; omega
    | succ m ih =>
      intro hm hbc i hi
      rw [bitcount_succ] at hbc
      by_cases him : i = m
      · subst him
        cases hbit : c.testBit i
        · rfl
        · rw [hbit] at hbc; simp at hbc
      · exact ih (by omega) (by omega) i (by omega)
  have hall : ∀ i, c.testBit i = (0 : Nat).testBit i := by
    intro i
    rw [Nat.zero_testBit]
    by_cases hi : i < n
    · exact hb n (le_refl _) hz0 i hi
    · exact Nat.testBit_lt_two_pow
        (lt_of_lt_of_le h (Nat.pow_le_pow_right (by decide) (by omega)))
  have := Nat.eq_of_testBit_eq hall
  omega

/-! ## `get_vox` and `get_priors` -/

theorem get_vox_step_fin (N1 : Nat) (mf : Nat → FVal α) (vf : Nat → α) (j : Nat)
    (st : VoxLoop α) (tmp : α) (h : mf (j * N1) = FVal.fin tmp) :
    get_vox_step N1 mf vf j st =
      { j1 := st.j1 + 1
        code := st.code ||| 2 ^ j
        x := Function.update st.x st.j1 tmp
        v := Function.update st.v st.j1 (vf (j * N1)) } := by
  unfold get_vox_step
  simp only [h, Nat.one_shiftLeft]

theorem get_vox_step_nonfin (N1 : Nat) (mf : Nat → FVal α) (vf : Nat → α) (j : Nat)
    (st : VoxLoop α) (h : (mf (j * N1)).isfinite = false) :
    get_vox_step N1 mf vf j st = st := by
  cases hm : mf (j * N1) with
  | fin tmp => rw [hm] at h; simp [FVal.isfinite] at h
  | inf sgn => simp [get_vox_step, hm]
  | nan => simp [get_vox_step, hm]

theorem get_vox_inv (N1 : Nat) (mf : Nat → FVal α) (vf : Nat → α) (x v : Nat → α) (n : Nat) :
    (forUp n (get_vox_step N1 mf vf) ⟨0, 0, x, v⟩).code < 2 ^ n ∧
    (forUp n (get_vox_step N1 mf vf) ⟨0, 0, x, v⟩).j1
      = bitcount n (forUp n (get_vox_step N1 mf vf) ⟨0, 0, x, v⟩).code ∧
    (∀ j, j < n → (forUp n (get_vox_step N1 mf vf) ⟨0, 0, x, v⟩).code.testBit j
      = (mf (j * N1)).isfinite) := by
  induction n with
  | zero => simp [forUp_zero, bitcount]
  | succ n ih =>
    obtain ⟨h1, h2, h3⟩ := ih
    rw [forUp_succ]
    generalize forUp n (get_vox_step N1 mf vf) ⟨0, 0, x, v⟩ = st at h1 h2 h3
    have hpow : 2 ^ n < 2 ^ (n + 1) := Nat.pow_lt_pow_right (by decide) (by omega)
    have hne : st.code.testBit n = false := Nat.testBit_lt_two_pow h1
    cases hfin : (mf (n * N1)).isfinite with
    | true =>
      obtain ⟨tmp, hm⟩ : ∃ tmp, mf (n * N1) = FVal.fin tmp := by
        cases hm : mf (n * N1) with
        | fin tmp => exact ⟨tmp, rfl⟩
        | inf sgn => rw [hm] at hfin; simp [FVal.isfinite] at hfin
        | nan => rw [hm] at hfin; simp [FVal.isfinite] at hfin
      rw [get_vox_step_fin N1 mf vf n st tmp hm]
      refine ⟨Nat.or_lt_two_pow (lt_trans h1 hpow) hpow, ?_, fun j hj => ?_⟩
      · show st.j1 + 1 = bitcount (n + 1) (st.code ||| 2 ^ n)
        rw [bitcount_succ, h2]
        rw [bitcount_congr n (st.code ||| 2 ^ n) st.code (fun i hi => by
          rw [Nat.testBit_or, Nat.testBit_two_pow]
          have : ¬ n = i := by omega
          simp [this])]
        rw [Nat.testBit_or, Nat.testBit_two_pow_self]
        simp
      · show (st.code ||| 2 ^ n).testBit j = _
        rw [Nat.testBit_or, Nat.testBit_two_pow]
        by_cases hjn : j = n
        · subst hjn; simp [hfin]
        · have : ¬ n = j := fun e => hjn e.symm
          simp [this, h3 j (by omega)]
    | false =>
      rw [get_vox_step_nonfin N1 mf vf n st hfin]
      refine ⟨lt_trans h1 hpow, ?_, fun j hj => ?_⟩
      · rw [bitcount_succ, hne, h2]; rfl
      · by_cases hjn : j = n
        · subst hjn; rw [hne, hfin]
        · exact h3 j (by omega)

theorem get_vox_code_lt (N1 P : Nat) (mf : Nat → FVal α) (vf : Nat → α) (x v : Nat → α) :
    (get_vox N1 P mf vf x v).code < 2 ^ P := (get_vox_inv N1 mf vf x v P).1

theorem get_vox_j1 (N1 P : Nat) (mf : Nat → FVal α) (vf : Nat → α) (x v : Nat → α) :
    (get_vox N1 P mf vf x v).j1 = bitcount P (get_vox N1 P mf vf x v).code :=
  (get_vox_inv N1 mf vf x v P).2.1

theorem get_vox_testBit (N1 P : Nat) (mf : Nat → FVal α) (vf : Nat → α) (x v : Nat → α)
    (j : Nat) (hj : j < P) :
    (get_vox N1 P mf vf x v).code.testBit j = (mf (j * N1)).isfinite :=
  (get_vox_inv N1 mf vf x v P).2.2 j hj

theorem get_vox_code_zero_iff (N1 P : Nat) (mf : Nat → FVal α) (vf : Nat → α) (x v : Nat → α) :
    (get_vox N1 P mf vf x v).code = 0 ↔ ∀ j, j < P → (mf (j * N1)).isfinite = false := by
  constructor
  · intro h j hj
    rw [← get_vox_testBit N1 P mf vf x v j hj, h, Nat.zero_testBit]
  · intro h
    apply Nat.eq_of_testBit_eq
    intro i
    rw [Nat.zero_testBit]
    by_cases hi : i < P
    · rw [get_vox_testBit N1 P mf vf x v i hi, h i hi]
    · exact Nat.testBit_lt_two_pow (lt_of_lt_of_le (get_vox_code_lt N1 P mf vf x v)
        (Nat.pow_le_pow_right (by decide) (by omega)))

/-- The outcome of `get_vox` below the packed length does not depend on what the
arrays `x` and `v` held on entry. -/
theorem get_vox_indep (N1 : Nat) (mf : Nat → FVal α) (vf : Nat → α) (x v x' v' : Nat → α)
    (n : Nat) :
    (forUp n (get_vox_step N1 mf vf) ⟨0, 0, x, v⟩).code
      = (forUp n (get_vox_step N1 mf vf) ⟨0, 0, x', v'⟩).code ∧
    (forUp n (get_vox_step N1 mf vf) ⟨0, 0, x, v⟩).j1
      = (forUp n (get_vox_step N1 mf vf) ⟨0, 0, x', v'⟩).j1 ∧
    ∀ i, i < (forUp n (get_vox_step N1 mf vf) ⟨0, 0, x, v⟩).j1 →
      (forUp n (get_vox_step N1 mf vf) ⟨0, 0, x, v⟩).x i
        = (forUp n (get_vox_step N1 mf vf) ⟨0, 0, x', v'⟩).x i ∧
      (forUp n (get_vox_step N1 mf vf) ⟨0, 0, x, v⟩).v i
        = (forUp n (get_vox_step N1 mf vf) ⟨0, 0, x', v'⟩).v i := by
  induction n with
  | zero => simp [forUp_zero]
  | succ n ih =>
    rw [forUp_succ, forUp_succ]
    generalize forUp n (get_vox_step N1 mf vf) ⟨0, 0, x, v⟩ = st at ih
    generalize forUp n (get_vox_step N1 mf vf) ⟨0, 0, x', v'⟩ = st' at ih
    obtain ⟨h1, h2, h3⟩ := ih
    cases hfin : (mf (n * N1)).isfinite with
    | true =>
      obtain ⟨tmp, hm⟩ : ∃ tmp, mf (n * N1) = FVal.fin tmp := by
        cases hm : mf (n * N1) with
        | fin tmp => exact ⟨tmp, rfl⟩
        | inf sgn => rw [hm] at hfin; simp [FVal.isfinite] at hfin
        | nan => rw [hm] at hfin; simp [FVal.isfinite] at hfin
      rw [get_vox_step_fin N1 mf vf n st tmp hm, get_vox_step_fin N1 mf vf n st' tmp hm]
      refine ⟨by simp [h1], by simp [h2], fun i hi => ?_⟩
      simp only at hi ⊢
      by_cases hij : i = st.j1
      · subst hij
        rw [← h2]; simp
      · rw [← h2]
        simp only [Function.update_noteq hij]
        exact h3 i (by omega)
    | false =>
      rw [get_vox_step_nonfin N1 mf vf n st hfin, get_vox_step_nonfin N1 mf vf n st' hfin]
      exact ⟨h1, h2, h3⟩

theorem get_priors_loop_spec (N1 : Nat) (lp : Nat → FVal α) (lkp : Nat → Nat) (n : Nat) :
    ∀ (k : Nat) (p : Nat → α),
      ((get_priors_loop N1 lp lkp n k p).1 = true ↔
        ∀ i, k ≤ i → i < k + n → (lp (N1 * lkp i)).isfinite = true) ∧
      ((get_priors_loop N1 lp lkp n k p).1 = true →
        (get_priors_loop N1 lp lkp n k p).2
          = fun i => if k ≤ i ∧ i < k + n then (lp (N1 * lkp i)).toD else p i) := by
  induction n with
  | zero =>
    intro k p
    refine ⟨⟨fun _ i h1 h2 => by omega, fun _ => rfl⟩, fun _ => ?_⟩
    funext i
    have : ¬ (k ≤ i ∧ i < k) := by omega
    simp [get_priors_loop, this]
  | succ n ih =>
    intro k p
    cases hm : lp (N1 * lkp k) with
    | fin a =>
      have hs : get_priors_loop N1 lp lkp (n + 1) k p
          = get_priors_loop N1 lp lkp n (k + 1) (Function.update p k a) := by
        simp [get_priors_loop, hm]
      rw [hs]
      obtain ⟨i1, i2⟩ := ih (k + 1) (Function.update p k a)
      refine ⟨⟨fun h i h1 h2 => ?_, fun h => ?_⟩, fun h => ?_⟩
      · by_cases hik : i = k
        · subst hik; rw [hm]; rfl
        · exact i1.mp h i (by omega) (by omega)
      · exact i1.mpr (fun i h1 h2 => h i (by omega) (by omega))
      · rw [i2 h]
        funext i
        by_cases hik : i = k
        · subst hik
          have h1 : ¬ (i + 1 ≤ i ∧ i < i + 1 + n) := by omega
          have h2 : i ≤ i ∧ i < i + (n + 1) := by omega
          simp [h1, h2, hm, FVal.toD]
        · by_cases hr : k + 1 ≤ i ∧ i < k + 1 + n
          · have h2 : k ≤ i ∧ i < k + (n + 1) := by omega
            simp [hr, h2]
          · have h2 : ¬ (k ≤ i ∧ i < k + (n + 1)) := by omega
            simp [hr, h2, Function.update_noteq hik]
    | inf sgn =>
      have hs : get_priors_loop N1 lp lkp (n + 1) k p = (false, p) := by
        simp [get_priors_loop, hm]
      rw [hs]
      refine ⟨⟨fun h => by simp at h, fun h => ?_⟩, fun h => by simp at h⟩
      have := h k (le_refl _) (by omega)
      rw [hm] at this
      simp [FVal.isfinite] at this
    | nan =>
      have hs : get_priors_loop N1 lp lkp (n + 1) k p = (false, p) := by
        simp [get_priors_loop, hm]
      rw [hs]
      refine ⟨⟨fun h => by simp at h, fun h => ?_⟩, fun h => by simp at h⟩
      have := h k (le_refl _) (by omega)
      rw [hm] at this
      simp [FVal.isfinite] at this

theorem get_priors_ok_iff (N1 : Nat) (lp : Nat → FVal α) (K : Nat) (lkp : Nat → Nat)
    (p : Nat → α) :
    (get_priors N1 lp K lkp p).1 = true ↔ ∀ k, k < K → (lp (N1 * lkp k)).isfinite = true := by
  unfold get_priors
  rw [(get_priors_loop_spec N1 lp lkp K 0 p).1]
  constructor
  · intro h k hk; exact h k (by omega) (by omega)
  · intro h k _ hk; exact h k (by omega)

theorem get_priors_val (N1 : Nat) (lp : Nat → FVal α) (K : Nat) (lkp : Nat → Nat)
    (p : Nat → α) (h : (get_priors N1 lp K lkp p).1 = true) :
    (get_priors N1 lp K lkp p).2 = fun i => if i < K then (lp (N1 * lkp i)).toD else p i := by
  unfold get_priors at h ⊢
  rw [(get_priors_loop_spec N1 lp lkp K 0 p).2 h]
  funext i
  by_cases hi : i < K
  · have : 0 ≤ i ∧ i < 0 + K := by omega
    simp [hi, this]
  · have : ¬ (0 ≤ i ∧ i < 0 + K) := by omega
    simp [hi]

/-! ## `fastexp` and the softmax -/

theorem fastexp_factor_pos (r : α) : 0 < 1 + 2 * r / (2 - r + r * r / 6) := by
  have hD : 0 < 2 - r + r * r / 6 := by nlinarith [sq_nonneg (r - 3)]
  have hN : 0 < 2 + r + r * r / 6 := by nlinarith [sq_nonneg (r + 3)]
  have e : 1 + 2 * r / (2 - r + r * r / 6) = (2 + r + r * r / 6) / (2 - r + r * r / 6) := by
    rw [eq_div_iff (ne_of_gt hD), add_mul, div_mul_cancel₀ _ (ne_of_gt hD)]
    ring
  rw [e]
  exact div_pos hN hD

theorem fastexp_pos (m : Libm α) (hm : m.ExpOk) (x : α) : 0 < fastexp m x := by
  unfold fastexp
  exact mul_pos (hm.1 _) (fastexp_factor_pos _)

theorem rint_zero : rint (0 : α) = 0 := by
  simp [rint]

theorem fastexp_zero (m : Libm α) (hm : m.ExpOk) : fastexp m 0 = 1 := by
  unfold fastexp
  simp [rint_zero, hm.2]

/-- The running maximum of `softmax1` dominates every entry and is one of them. -/
theorem softmax1_max_spec (q : Nat → α) (n : Nat) :
    (∀ k, k < n + 1 → q k ≤ softmax1_max (n + 1) q) ∧
    (∃ k, k < n + 1 ∧ q k = softmax1_max (n + 1) q) := by
  unfold softmax1_max
  induction n with
  | zero =>
    rw [forFrom_self]
    refine ⟨fun k hk => ?_, 0, by omega, rfl⟩
    have : k = 0 := by omega
    subst this; exact le_refl _
  | succ n ih =>
    rw [forFrom_succ 1 (n + 1) (by omega)]
    obtain ⟨h1, k0, hk0, h2⟩ := ih
    by_cases hc : q (n + 1) > forFrom 1 (n + 1) (fun k mx => if q k > mx then q k else mx) (q 0)
    · simp only [hc, if_true]
      refine ⟨fun k hk => ?_, n + 1, by omega, rfl⟩
      by_cases hkn : k = n + 1
      · subst hkn; exact le_refl _
      · exact le_of_lt (lt_of_le_of_lt (h1 k (by omega)) hc)
    · simp only [hc, if_false]
      refine ⟨fun k hk => ?_, k0, by omega, h2⟩
      by_cases hkn : k = n + 1
      · subst hkn; exact not_lt.mp hc
      · exact h1 k (by omega)

theorem softmax1_eq (m : Libm α) (K : Nat) (q p : Nat → α) :
    softmax1 m K q p =
      (m.log (softmax1_norm m K q) + softmax1_max K q,
       fun i => if i < K then
          fastexp m (q i - softmax1_max K q)
            / softmax1_norm m K q
        else p i) := by
  unfold softmax1
  simp only [forUp_sum_update, zero_add]
  rw [forUp_map_update K (fun _ y => y / _)]
  refine Prod.ext rfl ?_
  funext i
  by_cases h : i < K <;> simp [h, softmax1_norm]

theorem softmax1_norm_ge_one (m : Libm α) (hm : m.ExpOk) (K : Nat) (hK : 1 ≤ K) (q : Nat → α) :
    1 ≤ softmax1_norm m K q := by
  obtain ⟨n, rfl⟩ : ∃ n, K = n + 1 := ⟨K - 1, by omega⟩
  obtain ⟨_, k0, hk0, h2⟩ := softmax1_max_spec q n
  unfold softmax1_norm
  have hmem : k0 ∈ Finset.range (n + 1) := Finset.mem_range.mpr hk0
  have hle := Finset.single_le_sum
    (f := fun k => fastexp m (q k - softmax1_max (n + 1) q))
    (fun i _ => le_of_lt (fastexp_pos m hm _)) hmem
  simp only [h2, sub_self, fastexp_zero m hm] at hle
  simpa [h2] using hle

/-- What `softmax1` leaves in `p`: entries in `(0, 1]` that sum to one. -/
theorem softmax1_closure (m : Libm α) (hm : m.ExpOk) (K : Nat) (hK : 1 ≤ K) (q p : Nat → α) :
    (∀ k, k < K → 0 < (softmax1 m K q p).2 k ∧ (softmax1 m K q p).2 k ≤ 1) ∧
    Finset.sum (Finset.range K) (fun k => (softmax1 m K q p).2 k) = 1 := by
  have hs : 1 ≤ softmax1_norm m K q := softmax1_norm_ge_one m hm K hK q
  have hs0 : 0 < softmax1_norm m K q := lt_of_lt_of_le one_pos hs
  rw [softmax1_eq]
  constructor
  · intro k hk
    simp only [hk, if_true]
    refine ⟨div_pos (fastexp_pos m hm _) hs0, ?_⟩
    rw [div_le_one hs0]
    unfold softmax1_norm
    exact Finset.single_le_sum
      (f := fun k => fastexp m (q k - softmax1_max K q))
      (fun i _ => le_of_lt (fastexp_pos m hm _)) (Finset.mem_range.mpr hk)
  · have e : Finset.sum (Finset.range K) (fun k =>
        (fun i => if i < K then
          fastexp m (q i - softmax1_max K q)
            / softmax1_norm m K q else p i) k)
        = Finset.sum (Finset.range K) (fun k =>
          fastexp m (q k - softmax1_max K q)
            / softmax1_norm m K q) := by
      refine Finset.sum_congr rfl (fun k hk => ?_)
      simp [Finset.mem_range.mp hk]
    simp only [] at e ⊢
    rw [e, ← Finset.sum_div]
    exact div_self (ne_of_gt hs0)

/-! ## Layout of the statistics buffers -/

theorem offsetOf_zero (sz : Nat → Nat) : offsetOf sz 0 = 0 := rfl

theorem offsetOf_succ (sz : Nat → Nat) (n : Nat) : offsetOf sz (n + 1) = offsetOf sz n + sz n := by
  simp [offsetOf, List.range_succ]

theorem offsetOf_const (K n : Nat) : offsetOf (fun _ => K) n = K * n := by
  induction n with
  | zero => rfl
  | succ n ih => rw [offsetOf_succ, ih]; ring

theorem offsetOf_mono (sz : Nat → Nat) {a b : Nat} (h : a ≤ b) : offsetOf sz a ≤ offsetOf sz b := by
  induction b with
  | zero => have : a = 0 := by omega
            subst this; exact le_refl _
  | succ b ih =>
    by_cases hab : a = b + 1
    · subst hab; exact le_refl _
    · have := ih (by omega)
      rw [offsetOf_succ]; omega

theorem offsetOf_tiles (sz : Nat → Nat) (n : Nat) :
    Tiles n (offsetOf sz) sz (offsetOf sz n) := by
  refine ⟨fun c hc => ?_, fun c c' hcc hc' => ?_, ?_⟩
  · rw [← offsetOf_succ]; exact offsetOf_mono sz hc
  · rw [← offsetOf_succ]; exact offsetOf_mono sz hcc
  · induction n with
    | zero => intro x hx; simp [offsetOf_zero] at hx
    | succ n ih =>
      intro x hx
      by_cases h : x < offsetOf sz n
      · obtain ⟨c, hc, h1, h2⟩ := ih x h
        exact ⟨c, by omega, h1, h2⟩
      · rw [offsetOf_succ] at hx
        exact ⟨n, by omega, by omega, hx⟩

theorem suffstat_loop_spec (P K n : Nat) :
    (forUp n (suffstat_pointers_step P K) ⟨fun _ => ⟨0, 0, 0⟩, 0, 0, 0⟩).o0 = K * n ∧
    (forUp n (suffstat_pointers_step P K) ⟨fun _ => ⟨0, 0, 0⟩, 0, 0, 0⟩).o1
      = offsetOf (fun c => K * bitcount P c) n ∧
    (forUp n (suffstat_pointers_step P K) ⟨fun _ => ⟨0, 0, 0⟩, 0, 0, 0⟩).o2
      = offsetOf (fun c => K * bitcount P c * bitcount P c) n ∧
    ∀ code, (forUp n (suffstat_pointers_step P K) ⟨fun _ => ⟨0, 0, 0⟩, 0, 0, 0⟩).tbl code =
      if code < n then
        ⟨offsetOf (fun c => K * bitcount P c * bitcount P c) code,
         offsetOf (fun c => K * bitcount P c) code, K * code⟩
      else ⟨0, 0, 0⟩ := by
  induction n with
  | zero => simp [forUp_zero, offsetOf_zero]
  | succ n ih =>
    obtain ⟨h0, h1, h2, ht⟩ := ih
    rw [forUp_succ]
    refine ⟨?_, ?_, ?_, fun code => ?_⟩
    · simp only [suffstat_pointers_step, h0]; ring
    · simp only [suffstat_pointers_step, h1, offsetOf_succ]
    · simp only [suffstat_pointers_step, h2, offsetOf_succ]
    · simp only [suffstat_pointers_step]
      by_cases hc : code = n
      · subst hc
        simp [h0, h1, h2]
      · rw [Function.update_noteq hc, ht]
        by_cases hlt : code < n
        · simp [hlt, Nat.lt_succ_of_lt hlt]
        · have : ¬ code < n + 1 := by omega
          simp [hlt, this]

theorem suffstat_tbl (P K code : Nat) (h : code < 2 ^ P) :
    (suffstat_pointers_loop P K).tbl code =
      ⟨offsetOf (fun c => K * bitcount P c * bitcount P c) code,
       offsetOf (fun c => K * bitcount P c) code, K * code⟩ := by
  unfold suffstat_pointers_loop
  rw [(suffstat_loop_spec P K (1 <<< P)).2.2.2 code, Nat.one_shiftLeft]
  simp [h]

theorem Tiles_congr {n : Nat} {start start' size : Nat → Nat} {total : Nat}
    (h : Tiles n start size total) (e : ∀ c, c < n → start' c = start c) :
    Tiles n start' size total := by
  obtain ⟨h1, h2, h3⟩ := h
  refine ⟨fun c hc => ?_, fun c c' hcc hc' => ?_, fun x hx => ?_⟩
  · rw [e c hc]; exact h1 c hc
  · rw [e c (by omega), e c' hc']; exact h2 c c' hcc hc'
  · obtain ⟨c, hc, h4, h5⟩ := h3 x hx
    exact ⟨c, hc, by rw [e c hc]; exact h4, by rw [e c hc]; exact h5⟩

theorem offsetOf_mul (K : Nat) (f : Nat → Nat) (n : Nat) :
    offsetOf (fun c => K * f c) n = K * offsetOf f n := by
  induction n with
  | zero => rfl
  | succ n ih => rw [offsetOf_succ, offsetOf_succ, ih]; ring

set_option maxRecDepth 100000 in
theorem bitcount_sums_small (P : Nat) (hP : P ≤ 10) :
    offsetOf (bitcount P) (2 ^ P) = P * 2 ^ (P - 1) ∧
    offsetOf (fun c => bitcount P c * bitcount P c) (2 ^ P) = P * (P + 1) * 2 ^ P / 4 := by
  interval_cases P <;> decide

set_option maxRecDepth 100000 in
theorem space_needed_small (P K : Nat) (hP : P ≤ 10) (hK : K ≤ 20) :
    space_needed P K = some (K * 2 ^ P, K * (P * 2 ^ (P - 1)), K * (P * (P + 1) * 2 ^ P / 4)) := by
  interval_cases P <;> interval_cases K <;> decide

/-! ## The Normal kernel and the accumulation of one voxel -/

theorem del2_congr (P : Nat) (mu W x v x' v' : Nat → α)
    (h : ∀ j, j < P → x j = x' j ∧ v j = v' j) :
    del2 P mu W x v = del2 P mu W x' v' := by
  unfold del2
  refine forUp_congr P _ _ (fun j hj d => ?_) _
  simp only [(h j hj).1, (h j hj).2]
  refine forFrom_congr _ _ _ _ (fun i _ hi d' => ?_) _
  rw [(h i hi).1]

theorem softmax1_max_congr (K : Nat) (q q' : Nat → α) (hK : 1 ≤ K)
    (h : ∀ k, k < K → q k = q' k) : softmax1_max K q = softmax1_max K q' := by
  unfold softmax1_max
  rw [h 0 (by omega)]
  refine forFrom_congr _ _ _ _ (fun i _ hi s => ?_) _
  rw [h i hi]

theorem softmax1_norm_congr (m : Libm α) (K : Nat) (q q' : Nat → α) (hK : 1 ≤ K)
    (h : ∀ k, k < K → q k = q' k) : softmax1_norm m K q = softmax1_norm m K q' := by
  unfold softmax1_norm
  rw [softmax1_max_congr K q q' hK h]
  refine Finset.sum_congr rfl (fun k hk => ?_)
  rw [h k (Finset.mem_range.mp hk)]

theorem softmax1_congr (m : Libm α) (K : Nat) (q q' p p' : Nat → α) (hK : 1 ≤ K)
    (h : ∀ k, k < K → q k = q' k) :
    (softmax1 m K q p).1 = (softmax1 m K q' p').1 ∧
    ∀ k, k < K → (softmax1 m K q p).2 k = (softmax1 m K q' p').2 k := by
  rw [softmax1_eq, softmax1_eq]
  refine ⟨?_, fun k hk => ?_⟩
  · simp only []
    rw [softmax1_norm_congr m K q q' hK h, softmax1_max_congr K q q' hK h]
  · simp only [hk, if_true]
    rw [softmax1_norm_congr m K q q' hK h, softmax1_max_congr K q q' hK h, h k hk]

theorem Nresp_eq (m : Libm α) (K : Nat) (gmm : Nat → GMMtype) (buf : Nat → α) (code : Nat)
    (x v p : Nat → α) :
    Nresp m K gmm buf code x v p =
      softmax1 m K (fun i => if i < K then Nresp_logit gmm buf code x v p i else p i)
        (fun i => if i < K then Nresp_logit gmm buf code x v p i else p i) := by
  unfold Nresp
  simp only []
  rw [forUp_map_update K (fun k y => y + (buf ((gmm code).conN + k) -
    (1 / 2) * buf ((gmm code).nu + k) *
      del2 (gmm code).P (shift buf ((gmm code).mu + k * (gmm code).P))
        (shift buf ((gmm code).W + k * ((gmm code).P * (gmm code).P))) x v))]
  rfl

theorem Nresp_congr (m : Libm α) (K : Nat) (gmm : Nat → GMMtype) (buf : Nat → α) (code : Nat)
    (x v p x' v' p' : Nat → α) (hK : 1 ≤ K)
    (hx : ∀ j, j < (gmm code).P → x j = x' j ∧ v j = v' j)
    (hp : ∀ k, k < K → p k = p' k) :
    (Nresp m K gmm buf code x v p).1 = (Nresp m K gmm buf code x' v' p').1 ∧
    ∀ k, k < K → (Nresp m K gmm buf code x v p).2 k = (Nresp m K gmm buf code x' v' p').2 k := by
  rw [Nresp_eq, Nresp_eq]
  refine softmax1_congr m K _ _ _ _ hK (fun k hk => ?_)
  simp only [hk, if_true]
  unfold Nresp_logit
  rw [hp k hk, del2_congr _ _ _ x v x' v' hx]

/-! ## accumulation -/

theorem accum_s0 (K Po : Nat) (ss : SStype) (mx vx p : Nat → α) (s : Stats α) (idx : Nat) :
    (suffstats_accum K Po ss mx vx p s).s0 idx
      = s.s0 idx + Finset.sum (Finset.range K) (fun k => if ss.s0 + k = idx then p k else 0) := by
  unfold suffstats_accum
  refine forUp_acc (fun s : Stats α => s.s0 idx) _
    (fun k => if ss.s0 + k = idx then p k else 0) (fun k s => ?_) K s
  simp only []
  refine Eq.trans (congrFun (forUp_keep (fun s : Stats α => s.s0) _ ?_ Po _) idx) ?_
  · intro j s; rfl
  · by_cases h : ss.s0 + k = idx
    · subst h; simp
    · simp [h, Function.update_noteq (Ne.symm h)]

theorem accum_s1 (K Po : Nat) (ss : SStype) (mx vx p : Nat → α) (s : Stats α) (idx : Nat) :
    (suffstats_accum K Po ss mx vx p s).s1 idx
      = s.s1 idx + Finset.sum (Finset.range K) (fun k => Finset.sum (Finset.range Po) (fun j =>
          if ss.s1 + k * Po + j = idx then p k * mx j else 0)) := by
  unfold suffstats_accum
  refine forUp_acc (fun s : Stats α => s.s1 idx) _
    (fun k => Finset.sum (Finset.range Po) (fun j =>
          if ss.s1 + k * Po + j = idx then p k * mx j else 0)) (fun k s => ?_) K s
  simp only []
  refine forUp_acc (fun s : Stats α => s.s1 idx) _
    (fun j => if ss.s1 + k * Po + j = idx then p k * mx j else 0) (fun j s => ?_) Po _
  simp only []
  by_cases h : ss.s1 + k * Po + j = idx
  · subst h; simp
  · simp [h, Function.update_noteq (Ne.symm h)]

theorem accum_s2 (K Po : Nat) (ss : SStype) (mx vx p : Nat → α) (s : Stats α) (idx : Nat) :
    (suffstats_accum K Po ss mx vx p s).s2 idx
      = s.s2 idx + Finset.sum (Finset.range K) (fun k => Finset.sum (Finset.range Po) (fun j =>
          (if ss.s2 + k * (Po * Po) + (j + Po * j) = idx then p k * (mx j * mx j + vx j) else 0)
          + Finset.sum (Finset.Ico (j + 1) Po) (fun j1 =>
              if ss.s2 + k * (Po * Po) + (j1 + Po * j) = idx then p k * mx j * mx j1 else 0))) := by
  unfold suffstats_accum
  refine forUp_acc (fun s : Stats α => s.s2 idx) _
    (fun k => Finset.sum (Finset.range Po) (fun j =>
          (if ss.s2 + k * (Po * Po) + (j + Po * j) = idx then p k * (mx j * mx j + vx j) else 0)
          + Finset.sum (Finset.Ico (j + 1) Po) (fun j1 =>
              if ss.s2 + k * (Po * Po) + (j1 + Po * j) = idx then p k * mx j * mx j1 else 0)))
    (fun k s => ?_) K s
  simp only []
  refine forUp_acc (fun s : Stats α => s.s2 idx) _
    (fun j => (if ss.s2 + k * (Po * Po) + (j + Po * j) = idx then p k * (mx j * mx j + vx j) else 0)
          + Finset.sum (Finset.Ico (j + 1) Po) (fun j1 =>
              if ss.s2 + k * (Po * Po) + (j1 + Po * j) = idx then p k * mx j * mx j1 else 0))
    (fun j s => ?_) Po _
  simp only []
  rw [forFrom_acc (fun s2 : Nat → α => s2 idx) _
    (fun j1 => if ss.s2 + k * (Po * Po) + (j1 + Po * j) = idx then p k * mx j * mx j1 else 0)
    (fun j1 s2 => by
      by_cases h : ss.s2 + k * (Po * Po) + (j1 + Po * j) = idx
      · subst h; simp
      · simp [h, Function.update_noteq (Ne.symm h)])]
  by_cases h : ss.s2 + k * (Po * Po) + (j + Po * j) = idx
  · subst h
    simp only [Function.update_same, if_true]
    ring
  · simp only [h, if_false, Function.update_noteq (Ne.symm h), zero_add]

end Lemmas

section VoxLemmas

set_option linter.unusedSectionVars false

variable {α : Type} [LinearOrderedField α] [FloorRing α]
variable (m : Libm α) (Nf P K : Nat) (mf : Nat → FVal α) (vf : Nat → α)
  (gmm : Nat → GMMtype) (buf : Nat → α) (Nm : Nat) (lkp : Nat → Nat) (lp : Nat → FVal α)
  (suffstat : Nat → SStype)

theorem get_vox_code_eq (N1 P : Nat) (mf : Nat → FVal α) (vf : Nat → α) (x v x' v' : Nat → α) :
    (get_vox N1 P mf vf x v).code = (get_vox N1 P mf vf x' v').code :=
  (get_vox_indep N1 mf vf x v x' v' P).1

theorem get_vox_xv_eq (N1 P : Nat) (mf : Nat → FVal α) (vf : Nat → α) (x v x' v' : Nat → α)
    (j : Nat) (hj : j < bitcount P (get_vox N1 P mf vf x v).code) :
    (get_vox N1 P mf vf x v).x j = (get_vox N1 P mf vf x' v').x j ∧
    (get_vox N1 P mf vf x v).v j = (get_vox N1 P mf vf x' v').v j := by
  rw [← get_vox_j1] at hj
  exact (get_vox_indep N1 mf vf x v x' v' P).2.2 j hj

theorem get_priors_ok_eq (N1 : Nat) (lp : Nat → FVal α) (K : Nat) (lkp : Nat → Nat)
    (p p' : Nat → α) :
    (get_priors N1 lp K lkp p).1 = (get_priors N1 lp K lkp p').1 := by
  rw [Bool.eq_iff_iff, get_priors_ok_iff, get_priors_ok_iff]

theorem get_priors_val_eq (N1 : Nat) (lp : Nat → FVal α) (K : Nat) (lkp : Nat → Nat)
    (p p' : Nat → α) (h : (get_priors N1 lp K lkp p).1 = true) (k : Nat) (hk : k < K) :
    (get_priors N1 lp K lkp p).2 k = (get_priors N1 lp K lkp p').2 k := by
  have h' : (get_priors N1 lp K lkp p').1 = true := by rw [← get_priors_ok_eq N1 lp K lkp p p']; exact h
  rw [get_priors_val N1 lp K lkp p h, get_priors_val N1 lp K lkp p' h']
  simp [hk]

/-- At a contributing voxel the kernel gives the same responsibilities whatever the local
arrays held before. -/
theorem vox_nresp_clean (hg : ∀ code, code < 2 ^ P → (gmm code).P = bitcount P code)
    (i im : Nat) (scr : Scratch α)
    (hok : (get_priors Nm (shift lp im) K lkp scr.p).1 = true) (hK : 1 ≤ K) :
    (Nresp m K gmm buf (get_vox Nf P (shift mf i) (shift vf i) scr.mx scr.vx).code
        (get_vox Nf P (shift mf i) (shift vf i) scr.mx scr.vx).x
        (get_vox Nf P (shift mf i) (shift vf i) scr.mx scr.vx).v
        (get_priors Nm (shift lp im) K lkp scr.p).2).1
      = (voxNresp m Nf P K mf vf gmm buf Nm lkp lp i im).1 ∧
    ∀ k, k < K →
      (Nresp m K gmm buf (get_vox Nf P (shift mf i) (shift vf i) scr.mx scr.vx).code
        (get_vox Nf P (shift mf i) (shift vf i) scr.mx scr.vx).x
        (get_vox Nf P (shift mf i) (shift vf i) scr.mx scr.vx).v
        (get_priors Nm (shift lp im) K lkp scr.p).2).2 k
      = (voxNresp m Nf P K mf vf gmm buf Nm lkp lp i im).2 k := by
  unfold voxNresp voxCode voxX voxV voxPrior
  rw [get_vox_code_eq Nf P (shift mf i) (shift vf i) scr.mx scr.vx (fun _ => 0) (fun _ => 0)]
  refine Nresp_congr m K gmm buf _ _ _ _ _ _ _ hK (fun j hj => ?_) (fun k hk => ?_)
  · rw [hg _ (get_vox_code_lt _ _ _ _ _ _)] at hj
    rw [get_vox_code_eq Nf P (shift mf i) (shift vf i) (fun _ => 0) (fun _ => 0) scr.mx scr.vx] at hj
    exact get_vox_xv_eq Nf P (shift mf i) (shift vf i) scr.mx scr.vx _ _ j hj
  · exact get_priors_val_eq Nm (shift lp im) K lkp scr.p _ hok k hk

theorem contributes_iff (i im : Nat) (scr : Scratch α) :
    contributes Nf P K mf vf Nm lkp lp i im ↔
      (get_vox Nf P (shift mf i) (shift vf i) scr.mx scr.vx).code > 0 ∧
      (get_priors Nm (shift lp im) K lkp scr.p).1 = true := by
  unfold contributes voxCode priorOk
  rw [get_vox_code_eq Nf P (shift mf i) (shift vf i) scr.mx scr.vx (fun _ => 0) (fun _ => 0),
    get_priors_ok_eq Nm (shift lp im) K lkp scr.p (fun _ => 0)]

/-- A voxel that does not contribute leaves the log-likelihood and the statistics alone. -/
theorem suffstats_voxel_skip (i im : Nat) (s : SSstate α)
    (h : ¬ contributes Nf P K mf vf Nm lkp lp i im) :
    (suffstats_voxel m Nf P K mf vf gmm buf Nm lkp lp suffstat i im s).ll = s.ll ∧
    (suffstats_voxel m Nf P K mf vf gmm buf Nm lkp lp suffstat i im s).st = s.st := by
  rw [contributes_iff Nf P K mf vf Nm lkp lp i im s.scr] at h
  unfold suffstats_voxel
  by_cases hc : (get_vox Nf P (shift mf i) (shift vf i) s.scr.mx s.scr.vx).code > 0
  · have hok : ¬ (get_priors Nm (shift lp im) K lkp s.scr.p).1 = true := fun e => h ⟨hc, e⟩
    simp [hc, hok]
  · simp [hc]

theorem suffstats_voxel_hit (i im : Nat) (s : SSstate α)
    (h : contributes Nf P K mf vf Nm lkp lp i im) :
    suffstats_voxel m Nf P K mf vf gmm buf Nm lkp lp suffstat i im s =
      { ll := s.ll + (Nresp m K gmm buf
            (get_vox Nf P (shift mf i) (shift vf i) s.scr.mx s.scr.vx).code
            (get_vox Nf P (shift mf i) (shift vf i) s.scr.mx s.scr.vx).x
            (get_vox Nf P (shift mf i) (shift vf i) s.scr.mx s.scr.vx).v
            (get_priors Nm (shift lp im) K lkp s.scr.p).2).1
        scr := ⟨(get_vox Nf P (shift mf i) (shift vf i) s.scr.mx s.scr.vx).x,
                (get_vox Nf P (shift mf i) (shift vf i) s.scr.mx s.scr.vx).v,
                (Nresp m K gmm buf
                  (get_vox Nf P (shift mf i) (shift vf i) s.scr.mx s.scr.vx).code
                  (get_vox Nf P (shift mf i) (shift vf i) s.scr.mx s.scr.vx).x
                  (get_vox Nf P (shift mf i) (shift vf i) s.scr.mx s.scr.vx).v
                  (get_priors Nm (shift lp im) K lkp s.scr.p).2).2⟩
        st := suffstats_accum K
          (gmm (get_vox Nf P (shift mf i) (shift vf i) s.scr.mx s.scr.vx).code).P
          (suffstat (get_vox Nf P (shift mf i) (shift vf i) s.scr.mx s.scr.vx).code)
          (get_vox Nf P (shift mf i) (shift vf i) s.scr.mx s.scr.vx).x
          (get_vox Nf P (shift mf i) (shift vf i) s.scr.mx s.scr.vx).v
          (Nresp m K gmm buf
            (get_vox Nf P (shift mf i) (shift vf i) s.scr.mx s.scr.vx).code
            (get_vox Nf P (shift mf i) (shift vf i) s.scr.mx s.scr.vx).x
            (get_vox Nf P (shift mf i) (shift vf i) s.scr.mx s.scr.vx).v
            (get_priors Nm (shift lp im) K lkp s.scr.p).2).2 s.st } := by
  rw [contributes_iff Nf P K mf vf Nm lkp lp i im s.scr] at h
  unfold suffstats_voxel
  simp only [h.1, h.2, if_true]

theorem suffstats_voxel_ll (hg : ∀ code, code < 2 ^ P → (gmm code).P = bitcount P code)
    (hK : 1 ≤ K) (i im : Nat) (s : SSstate α) :
    (suffstats_voxel m Nf P K mf vf gmm buf Nm lkp lp suffstat i im s).ll
      = s.ll + (if contributes Nf P K mf vf Nm lkp lp i im then
          (voxNresp m Nf P K mf vf gmm buf Nm lkp lp i im).1 else 0) := by
  by_cases h : contributes Nf P K mf vf Nm lkp lp i im
  · rw [suffstats_voxel_hit m Nf P K mf vf gmm buf Nm lkp lp suffstat i im s h]
    simp only [h, if_true]
    rw [(vox_nresp_clean m Nf P K mf vf gmm buf Nm lkp lp hg i im s.scr
      ((contributes_iff Nf P K mf vf Nm lkp lp i im s.scr).mp h).2 hK).1]
  · rw [(suffstats_voxel_skip m Nf P K mf vf gmm buf Nm lkp lp suffstat i im s h).1]
    simp [h]

theorem suffstats_voxel_s0 (hg : ∀ code, code < 2 ^ P → (gmm code).P = bitcount P code)
    (i im : Nat) (s : SSstate α) (idx : Nat) :
    (suffstats_voxel m Nf P K mf vf gmm buf Nm lkp lp suffstat i im s).st.s0 idx
      = s.st.s0 idx + (if contributes Nf P K mf vf Nm lkp lp i im then
          Finset.sum (Finset.range K) (fun k =>
            if (suffstat (voxCode Nf P mf vf i)).s0 + k = idx then
              (voxNresp m Nf P K mf vf gmm buf Nm lkp lp i im).2 k else 0) else 0) := by
  by_cases h : contributes Nf P K mf vf Nm lkp lp i im
  · rw [suffstats_voxel_hit m Nf P K mf vf gmm buf Nm lkp lp suffstat i im s h]
    simp only [h, if_true]
    rw [accum_s0]
    congr 1
    refine Finset.sum_congr rfl (fun k hk => ?_)
    have hk' := Finset.mem_range.mp hk
    rw [(vox_nresp_clean m Nf P K mf vf gmm buf Nm lkp lp hg i im s.scr
      ((contributes_iff Nf P K mf vf Nm lkp lp i im s.scr).mp h).2 (by omega)).2 k hk']
    rw [get_vox_code_eq Nf P (shift mf i) (shift vf i) s.scr.mx s.scr.vx (fun _ => 0) (fun _ => 0)]
    rfl
  · rw [(suffstats_voxel_skip m Nf P K mf vf gmm buf Nm lkp lp suffstat i im s h).2]
    simp [h]

theorem suffstats_voxel_s1 (hg : ∀ code, code < 2 ^ P → (gmm code).P = bitcount P code)
    (i im : Nat) (s : SSstate α) (idx : Nat) :
    (suffstats_voxel m Nf P K mf vf gmm buf Nm lkp lp suffstat i im s).st.s1 idx
      = s.st.s1 idx + (if contributes Nf P K mf vf Nm lkp lp i im then
          Finset.sum (Finset.range K) (fun k =>
            Finset.sum (Finset.range (gmm (voxCode Nf P mf vf i)).P) (fun j =>
              if (suffstat (voxCode Nf P mf vf i)).s1 + k * (gmm (voxCode Nf P mf vf i)).P + j = idx
              then (voxNresp m Nf P K mf vf gmm buf Nm lkp lp i im).2 k * voxX Nf P mf vf i j
              else 0)) else 0) := by
  by_cases h : contributes Nf P K mf vf Nm lkp lp i im
  · rw [suffstats_voxel_hit m Nf P K mf vf gmm buf Nm lkp lp suffstat i im s h]
    simp only [h, if_true]
    rw [accum_s1]
    have hc := get_vox_code_eq Nf P (shift mf i) (shift vf i) s.scr.mx s.scr.vx
      (fun _ => 0) (fun _ => 0)
    congr 1
    refine Finset.sum_congr rfl (fun k hk => ?_)
    have hk' := Finset.mem_range.mp hk
    rw [(vox_nresp_clean m Nf P K mf vf gmm buf Nm lkp lp hg i im s.scr
      ((contributes_iff Nf P K mf vf Nm lkp lp i im s.scr).mp h).2 (by omega)).2 k hk']
    unfold voxCode
    rw [← hc]
    refine Finset.sum_congr rfl (fun j hj => ?_)
    have hj' := Finset.mem_range.mp hj
    rw [hg _ (get_vox_code_lt _ _ _ _ _ _)] at hj'
    unfold voxX
    rw [(get_vox_xv_eq Nf P (shift mf i) (shift vf i) s.scr.mx s.scr.vx _ _ j hj').1]
  · rw [(suffstats_voxel_skip m Nf P K mf vf gmm buf Nm lkp lp suffstat i im s h).2]
    simp [h]

theorem suffstats_voxel_s2 (hg : ∀ code, code < 2 ^ P → (gmm code).P = bitcount P code)
    (i im : Nat) (s : SSstate α) (idx : Nat) :
    (suffstats_voxel m Nf P K mf vf gmm buf Nm lkp lp suffstat i im s).st.s2 idx
      = s.st.s2 idx + (if contributes Nf P K mf vf Nm lkp lp i im then
          Finset.sum (Finset.range K) (fun k =>
            Finset.sum (Finset.range (gmm (voxCode Nf P mf vf i)).P) (fun j =>
              (if (suffstat (voxCode Nf P mf vf i)).s2
                  + k * ((gmm (voxCode Nf P mf vf i)).P * (gmm (voxCode Nf P mf vf i)).P)
                  + (j + (gmm (voxCode Nf P mf vf i)).P * j) = idx
                then (voxNresp m Nf P K mf vf gmm buf Nm lkp lp i im).2 k
                  * (voxX Nf P mf vf i j * voxX Nf P mf vf i j + voxV Nf P mf vf i j)
                else 0)
              + Finset.sum (Finset.Ico (j + 1) (gmm (voxCode Nf P mf vf i)).P) (fun j1 =>
                if (suffstat (voxCode Nf P mf vf i)).s2
                  + k * ((gmm (voxCode Nf P mf vf i)).P * (gmm (voxCode Nf P mf vf i)).P)
                  + (j1 + (gmm (voxCode Nf P mf vf i)).P * j) = idx
                then (voxNresp m Nf P K mf vf gmm buf Nm lkp lp i im).2 k
                  * voxX Nf P mf vf i j * voxX Nf P mf vf i j1
                else 0))) else 0) := by
  by_cases h : contributes Nf P K mf vf Nm lkp lp i im
  · rw [suffstats_voxel_hit m Nf P K mf vf gmm buf Nm lkp lp suffstat i im s h]
    simp only [h, if_true]
    rw [accum_s2]
    have hc := get_vox_code_eq Nf P (shift mf i) (shift vf i) s.scr.mx s.scr.vx
      (fun _ => 0) (fun _ => 0)
    congr 1
    refine Finset.sum_congr rfl (fun k hk => ?_)
    have hk' := Finset.mem_range.mp hk
    rw [(vox_nresp_clean m Nf P K mf vf gmm buf Nm lkp lp hg i im s.scr
      ((contributes_iff Nf P K mf vf Nm lkp lp i im s.scr).mp h).2 (by omega)).2 k hk']
    unfold voxCode
    rw [← hc]
    refine Finset.sum_congr rfl (fun j hj => ?_)
    have hj' := Finset.mem_range.mp hj
    have hPo := hg _ (get_vox_code_lt Nf P (shift mf i) (shift vf i) s.scr.mx s.scr.vx)
    rw [hPo] at hj'
    unfold voxX voxV
    rw [(get_vox_xv_eq Nf P (shift mf i) (shift vf i) s.scr.mx s.scr.vx _ _ j hj').1,
      (get_vox_xv_eq Nf P (shift mf i) (shift vf i) s.scr.mx s.scr.vx _ _ j hj').2]
    congr 1
    refine Finset.sum_congr rfl (fun j1 hj1 => ?_)
    have hj1' := (Finset.mem_Ico.mp hj1).2
    rw [hPo] at hj1'
    rw [(get_vox_xv_eq Nf P (shift mf i) (shift vf i) s.scr.mx s.scr.vx _ _ j1 hj1').1]
  · rw [(suffstats_voxel_skip m Nf P K mf vf gmm buf Nm lkp lp suffstat i im s h).2]
    simp [h]

end VoxLemmas

section Lemmas2

set_option linter.unusedSectionVars false

variable {α : Type} [LinearOrderedField α] [FloorRing α]

/-- A component of the state to which every voxel adds `G i im` ends the voxel loops
increased by the sum of `G` over the visited voxels. -/
theorem suffstats_pass_acc (m : Libm α) (nf : Nat → Nat) (mf : Nat → FVal α) (vf : Nat → α)
    (K : Nat) (gmm : Nat → GMMtype) (buf : Nat → α) (nm skip lkp : Nat → Nat)
    (lp : Nat → FVal α) (suffstat : Nat → SStype) (π : SSstate α → α) (G : Nat → Nat → α)
    (h : ∀ i im s, π (suffstats_voxel m (nf 0 * nf 1 * nf 2) (nf 3) K mf vf gmm buf
      (nm 0 * nm 1 * nm 2) lkp lp suffstat i im s) = π s + G i im) (s : SSstate α) :
    π (suffstats_pass m nf mf vf K gmm buf nm skip lkp lp suffstat s)
      = π s + latticeSum nf nm skip G := by
  unfold suffstats_pass latticeSum
  simp only []
  refine forUp_acc π _ _ (fun i2 s => ?_) _ s
  refine forUp_acc π _ _ (fun i1 s => ?_) _ s
  refine forUp_acc π _ _ (fun i0 s => ?_) _ s
  exact h _ _ s

/-! ## Index arithmetic of the statistics buffers -/

theorem radix_inj (n a b a' b' : Nat) (ha : a < n) (ha' : a' < n)
    (h : a + n * b = a' + n * b') : a = a' ∧ b = b' := by
  have hn : 0 < n := by omega
  have e1 : (a + n * b) % n = a := by
    rw [Nat.add_mul_mod_self_left, Nat.mod_eq_of_lt ha]
  have e2 : (a' + n * b') % n = a' := by
    rw [Nat.add_mul_mod_self_left, Nat.mod_eq_of_lt ha']
  have ea : a = a' := by rw [← e1, ← e2, h]
  subst ea
  have : n * b = n * b' := by omega
  exact ⟨rfl, Nat.eq_of_mul_eq_mul_left hn this⟩

theorem cell_lt (n a b : Nat) (ha : a < n) (hb : b < n) : a + n * b < n * n := by
  have h1 : n * (b + 1) ≤ n * n := Nat.mul_le_mul_left n hb
  have h2 : n * (b + 1) = n * b + n := by ring
  omega

theorem block_inj (M k e k' e' : Nat) (he : e < M) (he' : e' < M)
    (h : k * M + e = k' * M + e') : k = k' ∧ e = e' := by
  have := radix_inj M e k e' k' he he' (by rw [Nat.mul_comm M k, Nat.mul_comm M k']; omega)
  exact ⟨this.2, this.1⟩

theorem block_lt (K M k e : Nat) (hk : k < K) (he : e < M) : k * M + e < K * M := by
  have h1 : (k + 1) * M ≤ K * M := Nat.mul_le_mul_right M hk
  have h2 : (k + 1) * M = k * M + M := by ring
  omega

theorem offsetOf_inj (sz : Nat → Nat) (c c' r r' : Nat) (hr : r < sz c) (hr' : r' < sz c')
    (h : offsetOf sz c + r = offsetOf sz c' + r') : c = c' ∧ r = r' := by
  have key : ∀ a b, a < b → offsetOf sz a + sz a ≤ offsetOf sz b := by
    intro a b hab
    rw [← offsetOf_succ]
    exact offsetOf_mono sz hab
  rcases Nat.lt_trichotomy c c' with hlt | heq | hgt
  · have := key c c' hlt; omega
  · subst heq; exact ⟨rfl, by omega⟩
  · have := key c' c hgt; omega

/-- Evaluation of the accumulated `s2` increments of one block at the cell `(a, b)`. -/
theorem block_sum_eval (K Po o k0 a b : Nat) (vd : Nat → Nat → α) (vl : Nat → Nat → Nat → α)
    (hk0 : k0 < K) (ha : a < Po) (hb : b < Po) :
    Finset.sum (Finset.range K) (fun k => Finset.sum (Finset.range Po) (fun j =>
      (if o + k * (Po * Po) + (j + Po * j) = o + k0 * (Po * Po) + (a + Po * b)
        then vd k j else 0)
      + Finset.sum (Finset.Ico (j + 1) Po) (fun j1 =>
        if o + k * (Po * Po) + (j1 + Po * j) = o + k0 * (Po * Po) + (a + Po * b)
          then vl k j j1 else 0)))
    = if a = b then vd k0 b else if b < a then vl k0 b a else 0 := by
  have hcell := cell_lt Po a b ha hb
  rw [Finset.sum_eq_single_of_mem k0 (Finset.mem_range.mpr hk0)]
  · rw [Finset.sum_eq_single_of_mem b (Finset.mem_range.mpr hb)]
    · have hd : (o + k0 * (Po * Po) + (b + Po * b) = o + k0 * (Po * Po) + (a + Po * b)) ↔ a = b := by
        constructor
        · intro h; omega
        · intro h; rw [h]
      simp only [hd]
      by_cases hab : a = b
      · subst hab
        simp only [if_true]
        rw [Finset.sum_eq_zero, add_zero]
        intro j1 hj1
        have := (Finset.mem_Ico.mp hj1).1
        rw [if_neg (by omega)]
      · simp only [hab, if_false, zero_add]
        by_cases hlt : b < a
        · simp only [hlt, if_true]
          rw [Finset.sum_eq_single_of_mem a (Finset.mem_Ico.mpr ⟨by omega, ha⟩)]
          · simp
          · intro j1 _ hne
            rw [if_neg (by omega)]
        · simp only [hlt, if_false]
          refine Finset.sum_eq_zero (fun j1 hj1 => ?_)
          have := (Finset.mem_Ico.mp hj1).1
          rw [if_neg (by omega)]
    · intro j hj hne
      have hj' := Finset.mem_range.mp hj
      have h1 : ¬ (o + k0 * (Po * Po) + (j + Po * j) = o + k0 * (Po * Po) + (a + Po * b)) := by
        intro h
        have := radix_inj Po j j a b hj' ha (by omega)
        omega
      rw [if_neg h1, zero_add]
      refine Finset.sum_eq_zero (fun j1 hj1 => ?_)
      have hj1' := (Finset.mem_Ico.mp hj1).2
      have h2 : ¬ (o + k0 * (Po * Po) + (j1 + Po * j) = o + k0 * (Po * Po) + (a + Po * b)) := by
        intro h
        have := radix_inj Po j1 j a b hj1' ha (by omega)
        omega
      rw [if_neg h2]
  · intro k _ hne
    refine Finset.sum_eq_zero (fun j hj => ?_)
    have hj' := Finset.mem_range.mp hj
    have h1 : ¬ (o + k * (Po * Po) + (j + Po * j) = o + k0 * (Po * Po) + (a + Po * b)) := by
      intro h
      have := block_inj (Po * Po) k (j + Po * j) k0 (a + Po * b) (cell_lt Po j j hj' hj') hcell
        (by omega)
      omega
    rw [if_neg h1, zero_add]
    refine Finset.sum_eq_zero (fun j1 hj1 => ?_)
    have hj1' := (Finset.mem_Ico.mp hj1).2
    have h2 : ¬ (o + k * (Po * Po) + (j1 + Po * j) = o + k0 * (Po * Po) + (a + Po * b)) := by
      intro h
      have := block_inj (Po * Po) k (j1 + Po * j) k0 (a + Po * b) (cell_lt Po j1 j hj1' hj') hcell
        (by omega)
      omega
    rw [if_neg h2]

/-- The accumulated `s2` increments of a block vanish at an index outside the block. -/
theorem block_sum_zero (K Po o idx : Nat) (vd : Nat → Nat → α) (vl : Nat → Nat → Nat → α)
    (h : ∀ r, r < K * (Po * Po) → o + r ≠ idx) :
    Finset.sum (Finset.range K) (fun k => Finset.sum (Finset.range Po) (fun j =>
      (if o + k * (Po * Po) + (j + Po * j) = idx then vd k j else 0)
      + Finset.sum (Finset.Ico (j + 1) Po) (fun j1 =>
        if o + k * (Po * Po) + (j1 + Po * j) = idx then vl k j j1 else 0)))
    = 0 := by
  refine Finset.sum_eq_zero (fun k hk => Finset.sum_eq_zero (fun j hj => ?_))
  have hk' := Finset.mem_range.mp hk
  have hj' := Finset.mem_range.mp hj
  have h1 : ¬ (o + k * (Po * Po) + (j + Po * j) = idx) := by
    intro e
    exact h (k * (Po * Po) + (j + Po * j))
      (block_lt K (Po * Po) k _ hk' (cell_lt Po j j hj' hj')) (by omega)
  rw [if_neg h1, zero_add]
  refine Finset.sum_eq_zero (fun j1 hj1 => ?_)
  have hj1' := (Finset.mem_Ico.mp hj1).2
  have h2 : ¬ (o + k * (Po * Po) + (j1 + Po * j) = idx) := by
    intro e
    exact h (k * (Po * Po) + (j1 + Po * j))
      (block_lt K (Po * Po) k _ hk' (cell_lt Po j1 j hj1' hj')) (by omega)
  rw [if_neg h2]

theorem vec_sum_eval (K Po o k0 j0 : Nat) (val : Nat → Nat → α) (hk0 : k0 < K) (hj0 : j0 < Po) :
    Finset.sum (Finset.range K) (fun k => Finset.sum (Finset.range Po) (fun j =>
      if o + k * Po + j = o + k0 * Po + j0 then val k j else 0)) = val k0 j0 := by
  rw [Finset.sum_eq_single_of_mem k0 (Finset.mem_range.mpr hk0)]
  · rw [Finset.sum_eq_single_of_mem j0 (Finset.mem_range.mpr hj0)]
    · simp
    · intro j _ hne
      rw [if_neg (by omega)]
  · intro k _ hne
    refine Finset.sum_eq_zero (fun j hj => ?_)
    have hj' := Finset.mem_range.mp hj
    have h1 : ¬ (o + k * Po + j = o + k0 * Po + j0) := by
      intro h
      have := block_inj Po k j k0 j0 hj' hj0 (by omega)
      omega
    rw [if_neg h1]

theorem vec_sum_zero (K Po o idx : Nat) (val : Nat → Nat → α)
    (h : ∀ r, r < K * Po → o + r ≠ idx) :
    Finset.sum (Finset.range K) (fun k => Finset.sum (Finset.range Po) (fun j =>
      if o + k * Po + j = idx then val k j else 0)) = 0 := by
  refine Finset.sum_eq_zero (fun k hk => Finset.sum_eq_zero (fun j hj => ?_))
  have hk' := Finset.mem_range.mp hk
  have hj' := Finset.mem_range.mp hj
  have h1 : ¬ (o + k * Po + j = idx) := by
    intro e
    exact h (k * Po + j) (block_lt K Po k j hk' hj') (by omega)
  rw [if_neg h1]

theorem scal_sum_eval (K o k0 : Nat) (val : Nat → α) (hk0 : k0 < K) :
    Finset.sum (Finset.range K) (fun k => if o + k = o + k0 then val k else 0) = val k0 := by
  rw [Finset.sum_eq_single_of_mem k0 (Finset.mem_range.mpr hk0)]
  · simp
  · intro k _ hne
    rw [if_neg (by omega)]

theorem scal_sum_zero (K o idx : Nat) (val : Nat → α) (h : ∀ r, r < K → o + r ≠ idx) :
    Finset.sum (Finset.range K) (fun k => if o + k = idx then val k else 0) = 0 := by
  refine Finset.sum_eq_zero (fun k hk => ?_)
  rw [if_neg (h k (Finset.mem_range.mp hk))]

/-! ## The mirroring of `s2` -/

theorem forFrom_eq_forUp {σ : Type} (lo hi : Nat) (body : Nat → σ → σ) (s : σ) :
    forFrom lo hi body s = forUp (hi - lo) (fun i => body (lo + i)) s := by
  unfold forFrom forUp
  rw [List.range'_eq_map_range, List.foldl_map]

theorem copies_update (s : Nat → α) (d0 a0 : Nat) :
    Copies (fun d a => d = d0 ∧ a = a0) s (Function.update s d0 (s a0)) := by
  refine ⟨fun d a h => ?_, fun idx h => ?_⟩
  · rw [h.1, h.2]; simp
  · have : idx ≠ d0 := fun e => h a0 ⟨e, rfl⟩
    rw [Function.update_noteq this]

theorem copies_forUp (Rtot : Nat → Nat → Prop)
    (hfun : ∀ d a b, Rtot d a → Rtot d b → a = b)
    (hsep : ∀ d a b, Rtot d a → ¬ Rtot a b)
    (R : Nat → Nat → Nat → Prop) (body : Nat → (Nat → α) → (Nat → α)) (n : Nat)
    (hsub : ∀ i, i < n → ∀ d a, R i d a → Rtot d a)
    (hbody : ∀ i, i < n → ∀ s, Copies (R i) s (body i s)) (s : Nat → α) :
    Copies (fun d a => ∃ i, i < n ∧ R i d a) s (forUp n body s) := by
  induction n with
  | zero =>
    refine ⟨fun d a h => ?_, fun idx _ => rfl⟩
    obtain ⟨i, hi, _⟩ := h
    omega
  | succ n ih =>
    rw [forUp_succ]
    obtain ⟨ih1, ih2⟩ := ih (fun i hi => hsub i (by omega)) (fun i hi => hbody i (by omega))
    obtain ⟨hb1, hb2⟩ := hbody n (by omega) (forUp n body s)
    refine ⟨fun d a h => ?_, fun idx h => ?_⟩
    · obtain ⟨i, hi, hR⟩ := h
      by_cases hex : ∃ a', R n d a'
      · obtain ⟨a', ha'⟩ := hex
        rw [hb1 d a' ha']
        have e : a' = a := hfun d a' a (hsub n (by omega) d a' ha') (hsub i hi d a hR)
        subst e
        exact ih2 a' (fun src hsrc => by
          obtain ⟨i', hi', hR'⟩ := hsrc
          exact hsep d a' src (hsub n (by omega) d a' ha') (hsub i' (by omega) a' src hR'))
      · rw [hb2 d (fun src hsrc => hex ⟨src, hsrc⟩)]
        have hin : i < n := by
          rcases Nat.lt_or_ge i n with h1 | h1
          · exact h1
          · have : i = n := by omega
            subst this
            exact absurd ⟨a, hR⟩ hex
        exact ih1 d a ⟨i, hin, hR⟩
    · rw [hb2 idx (fun src hsrc => h src ⟨n, by omega, hsrc⟩)]
      exact ih2 idx (fun src hsrc => by
        obtain ⟨i, hi, hR⟩ := hsrc
        exact h src ⟨i, by omega, hR⟩)

theorem copies_forFrom (Rtot : Nat → Nat → Prop)
    (hfun : ∀ d a b, Rtot d a → Rtot d b → a = b)
    (hsep : ∀ d a b, Rtot d a → ¬ Rtot a b)
    (R : Nat → Nat → Nat → Prop) (body : Nat → (Nat → α) → (Nat → α)) (lo hi : Nat)
    (hsub : ∀ i, lo ≤ i → i < hi → ∀ d a, R i d a → Rtot d a)
    (hbody : ∀ i, lo ≤ i → i < hi → ∀ s, Copies (R i) s (body i s)) (s : Nat → α) :
    Copies (fun d a => ∃ i, lo ≤ i ∧ i < hi ∧ R i d a) s (forFrom lo hi body s) := by
  rw [forFrom_eq_forUp]
  have := copies_forUp Rtot hfun hsep (fun i => R (lo + i)) (fun i => body (lo + i)) (hi - lo)
    (fun i hi' d a h => hsub _ (by omega) (by omega) d a h)
    (fun i hi' s => hbody (lo + i) (by omega) (by omega) s) s
  refine ⟨fun d a h => this.1 d a ?_, fun idx h => this.2 idx (fun src hsrc => ?_)⟩
  · obtain ⟨i, h1, h2, h3⟩ := h
    refine ⟨i - lo, by omega, ?_⟩
    have : lo + (i - lo) = i := by omega
    rw [this]; exact h3
  · obtain ⟨i, h1, h2⟩ := hsrc
    exact h src ⟨lo + i, by omega, by omega, h2⟩

theorem copies_congr {R R' : Nat → Nat → Prop} {s s' : Nat → α} (h : Copies R s s')
    (e : ∀ d a, R' d a ↔ R d a) : Copies R' s s' :=
  ⟨fun d a hR => h.1 d a ((e d a).mp hR), fun idx hn => h.2 idx (fun src hs => hn src ((e idx src).mpr hs))⟩

/-- Cells of the `s2` buffer are addressed uniquely by pattern, class, row and column. -/
theorem s2_index_inj (P K : Nat) (gmm : Nat → GMMtype)
    (hg : ∀ code, code < 2 ^ P → (gmm code).P = bitcount P code)
    (c k a b c' k' a' b' : Nat) (hc : c < 2 ^ P) (hc' : c' < 2 ^ P) (hk : k < K) (hk' : k' < K)
    (ha : a < (gmm c).P) (hb : b < (gmm c).P) (ha' : a' < (gmm c').P) (hb' : b' < (gmm c').P)
    (h : ((suffstat_pointers_loop P K).tbl c).s2 + k * ((gmm c).P * (gmm c).P)
          + (a + (gmm c).P * b)
        = ((suffstat_pointers_loop P K).tbl c').s2 + k' * ((gmm c').P * (gmm c').P)
          + (a' + (gmm c').P * b')) :
    c = c' ∧ k = k' ∧ a = a' ∧ b = b' := by
  rw [suffstat_tbl P K c hc, suffstat_tbl P K c' hc'] at h
  simp only [] at h
  rw [hg c hc] at h ha hb
  rw [hg c' hc'] at h ha' hb'
  have hr : k * (bitcount P c * bitcount P c) + (a + bitcount P c * b)
      < K * bitcount P c * bitcount P c := by
    rw [Nat.mul_assoc]
    exact block_lt K _ k _ hk (cell_lt _ a b ha hb)
  have hr' : k' * (bitcount P c' * bitcount P c') + (a' + bitcount P c' * b')
      < K * bitcount P c' * bitcount P c' := by
    rw [Nat.mul_assoc]
    exact block_lt K _ k' _ hk' (cell_lt _ a' b' ha' hb')
  obtain ⟨e1, e2⟩ := offsetOf_inj (fun c => K * bitcount P c * bitcount P c) c c' _ _ hr hr'
    (by omega)
  subst e1
  obtain ⟨e3, e4⟩ := block_inj _ k _ k' _ (cell_lt _ a b ha hb) (cell_lt _ a' b' ha' hb') e2
  obtain ⟨e5, e6⟩ := radix_inj _ a b a' b' ha ha' e4
  exact ⟨rfl, e3, e5, e6⟩

theorem mirrorPair_fun (P K : Nat) (gmm : Nat → GMMtype)
    (hg : ∀ code, code < 2 ^ P → (gmm code).P = bitcount P code) (d a b : Nat)
    (h1 : MirrorPair P K gmm (suffstat_pointers_loop P K).tbl d a)
    (h2 : MirrorPair P K gmm (suffstat_pointers_loop P K).tbl d b) : a = b := by
  obtain ⟨c, k, j, j1, _, hc, hk, hj, hj1, hd, ha⟩ := h1
  obtain ⟨c', k', j', j1', _, hc', hk', hj', hj1', hd', hb⟩ := h2
  obtain ⟨e1, e2, e3, e4⟩ := s2_index_inj P K gmm hg c k j j1 c' k' j' j1' hc hc' hk hk'
    (by omega) hj1 (by omega) hj1' (by rw [← hd, ← hd'])
  subst e1 e2 e3 e4
  rw [ha, hb]

theorem mirrorPair_sep (P K : Nat) (gmm : Nat → GMMtype)
    (hg : ∀ code, code < 2 ^ P → (gmm code).P = bitcount P code) (d a b : Nat)
    (h1 : MirrorPair P K gmm (suffstat_pointers_loop P K).tbl d a) :
    ¬ MirrorPair P K gmm (suffstat_pointers_loop P K).tbl a b := by
  intro h2
  obtain ⟨c, k, j, j1, _, hc, hk, hj, hj1, hd, ha⟩ := h1
  obtain ⟨c', k', j', j1', _, hc', hk', hj', hj1', hd', hb⟩ := h2
  obtain ⟨e1, e2, e3, e4⟩ := s2_index_inj P K gmm hg c k j1 j c' k' j' j1' hc hc' hk hk'
    hj1 (by omega) (by omega) hj1' (by rw [← ha, ← hd'])
  omega

/-- The final loop of `suffstats_missing` performs exactly the copies `MirrorPair`. -/
theorem suffstats_mirror_copies (P K : Nat) (gmm : Nat → GMMtype)
    (hg : ∀ code, code < 2 ^ P → (gmm code).P = bitcount P code) (s2 : Nat → α) :
    Copies (MirrorPair P K gmm (suffstat_pointers_loop P K).tbl) s2
      (suffstats_mirror P K gmm (suffstat_pointers_loop P K).tbl s2) := by
  have hfun := mirrorPair_fun P K gmm hg
  have hsep := mirrorPair_sep P K gmm hg
  unfold suffstats_mirror
  rw [Nat.one_shiftLeft]
  refine copies_congr (copies_forFrom (MirrorPair P K gmm (suffstat_pointers_loop P K).tbl)
    hfun hsep
    (fun code d a => ∃ k, k < K ∧ ∃ j, j < (gmm code).P ∧ ∃ j1, j + 1 ≤ j1 ∧
      j1 < (gmm code).P ∧
      (d = ((suffstat_pointers_loop P K).tbl code).s2 + k * ((gmm code).P * (gmm code).P)
        + (j + (gmm code).P * j1) ∧
       a = ((suffstat_pointers_loop P K).tbl code).s2 + k * ((gmm code).P * (gmm code).P)
        + (j1 + (gmm code).P * j)))
    _ 1 (2 ^ P) ?_ ?_ s2) ?_
  · rintro code hc1 hc d a ⟨k, hk, j, hj, j1, h1, h2, hd, ha⟩
    exact ⟨code, k, j, j1, hc1, hc, hk, by omega, h2, hd, ha⟩
  · intro code hc1 hc s
    refine copies_forUp (MirrorPair P K gmm (suffstat_pointers_loop P K).tbl) hfun hsep
      (fun k d a => ∃ j, j < (gmm code).P ∧ ∃ j1, j + 1 ≤ j1 ∧ j1 < (gmm code).P ∧
        (d = ((suffstat_pointers_loop P K).tbl code).s2 + k * ((gmm code).P * (gmm code).P)
          + (j + (gmm code).P * j1) ∧
         a = ((suffstat_pointers_loop P K).tbl code).s2 + k * ((gmm code).P * (gmm code).P)
          + (j1 + (gmm code).P * j))) _ K ?_ ?_ s
    · rintro k hk d a ⟨j, hj, j1, h1, h2, hd, ha⟩
      exact ⟨code, k, j, j1, hc1, hc, hk, by omega, h2, hd, ha⟩
    · intro k hk s
      refine copies_forUp (MirrorPair P K gmm (suffstat_pointers_loop P K).tbl) hfun hsep
        (fun j d a => ∃ j1, j + 1 ≤ j1 ∧ j1 < (gmm code).P ∧
          (d = ((suffstat_pointers_loop P K).tbl code).s2 + k * ((gmm code).P * (gmm code).P)
            + (j + (gmm code).P * j1) ∧
           a = ((suffstat_pointers_loop P K).tbl code).s2 + k * ((gmm code).P * (gmm code).P)
            + (j1 + (gmm code).P * j))) _ (gmm code).P ?_ ?_ s
      · rintro j hj d a ⟨j1, h1, h2, hd, ha⟩
        exact ⟨code, k, j, j1, hc1, hc, hk, by omega, h2, hd, ha⟩
      · intro j hj s
        refine copies_forFrom (MirrorPair P K gmm (suffstat_pointers_loop P K).tbl) hfun hsep
          (fun j1 d a =>
            (d = ((suffstat_pointers_loop P K).tbl code).s2 + k * ((gmm code).P * (gmm code).P)
              + (j + (gmm code).P * j1) ∧
             a = ((suffstat_pointers_loop P K).tbl code).s2 + k * ((gmm code).P * (gmm code).P)
              + (j1 + (gmm code).P * j))) _ (j + 1) (gmm code).P ?_ ?_ s
        · rintro j1 h1 h2 d a ⟨hd, ha⟩
          exact ⟨code, k, j, j1, hc1, hc, hk, by omega, h2, hd, ha⟩
        · intro j1 _ _ s
          exact copies_update s _ _
  · intro d a
    constructor
    · rintro ⟨code, k, j, j1, hc1, hc, hk, hj, hj1, hd, ha⟩
      exact ⟨code, hc1, hc, k, hk, j, by omega, j1, by omega, hj1, hd, ha⟩
    · rintro ⟨code, hc1, hc, k, hk, j, hj, j1, h1, h2, hd, ha⟩
      exact ⟨code, k, j, j1, hc1, hc, hk, by omega, h2, hd, ha⟩

end Lemmas2

section Lemmas3

set_option linter.unusedSectionVars false

variable {α : Type} [LinearOrderedField α] [FloorRing α]

/-! ## The statistics pass -/

theorem forUp_keep_lt {σ τ : Type} (π : σ → τ) (body : Nat → σ → σ) (n : Nat)
    (h : ∀ i, i < n → ∀ s, π (body i s) = π s) (s : σ) :
    π (forUp n body s) = π s := by
  induction n with
  | zero => rfl
  | succ n ih => rw [forUp_succ, h n (by omega), ih (fun i hi => h i (by omega))]

theorem latticeSum_congr (nf nm skip : Nat → Nat) (f g : Nat → Nat → α)
    (h : ∀ i im, f i im = g i im) : latticeSum nf nm skip f = latticeSum nf nm skip g := by
  have : f = g := by funext i im; exact h i im
  rw [this]

theorem latticeSum_sum {ι : Type} (S : Finset ι) (nf nm skip : Nat → Nat)
    (f : ι → Nat → Nat → α) :
    Finset.sum S (fun x => latticeSum nf nm skip (f x))
      = latticeSum nf nm skip (fun i im => Finset.sum S (fun x => f x i im)) := by
  unfold latticeSum
  rw [Finset.sum_comm]
  refine Finset.sum_congr rfl (fun i2 _ => ?_)
  rw [Finset.sum_comm]
  refine Finset.sum_congr rfl (fun i1 _ => ?_)
  rw [Finset.sum_comm]

theorem voxCode_lt (Nf P : Nat) (mf : Nat → FVal α) (vf : Nat → α) (i : Nat) :
    voxCode Nf P mf vf i < 2 ^ P := get_vox_code_lt _ _ _ _ _ _

/-- A statistics pass in which no visited voxel contributes leaves the log-likelihood
and the statistics as they were. -/
theorem suffstats_pass_skip (m : Libm α) (nf : Nat → Nat) (mf : Nat → FVal α) (vf : Nat → α)
    (K : Nat) (gmm : Nat → GMMtype) (buf : Nat → α) (nm skip lkp : Nat → Nat)
    (lp : Nat → FVal α) (suffstat : Nat → SStype) (s : SSstate α)
    (h : ∀ i2, i2 < extent nf nm skip 2 → ∀ i1, i1 < extent nf nm skip 1 →
      ∀ i0, i0 < extent nf nm skip 0 →
      ¬ contributes (nf 0 * nf 1 * nf 2) (nf 3) K mf vf (nm 0 * nm 1 * nm 2) lkp lp
        (i0 + nf 0 * (i1 + nf 1 * i2))
        (i0 * skip 0 + nm 0 * (i1 * skip 1 + nm 1 * i2 * skip 2))) :
    (suffstats_pass m nf mf vf K gmm buf nm skip lkp lp suffstat s).ll = s.ll ∧
    (suffstats_pass m nf mf vf K gmm buf nm skip lkp lp suffstat s).st = s.st := by
  have key : (fun t : SSstate α => (t.ll, t.st))
      (suffstats_pass m nf mf vf K gmm buf nm skip lkp lp suffstat s)
      = (fun t : SSstate α => (t.ll, t.st)) s := by
    unfold suffstats_pass
    simp only []
    refine forUp_keep_lt (fun t : SSstate α => (t.ll, t.st)) _ _ (fun i2 h2 s => ?_) s
    refine forUp_keep_lt (fun t : SSstate α => (t.ll, t.st)) _ _ (fun i1 h1 s => ?_) s
    refine forUp_keep_lt (fun t : SSstate α => (t.ll, t.st)) _ _ (fun i0 h0 s => ?_) s
    have := suffstats_voxel_skip m (nf 0 * nf 1 * nf 2) (nf 3) K mf vf gmm buf
      (nm 0 * nm 1 * nm 2) lkp lp suffstat _ _ s (h i2 h2 i1 h1 i0 h0)
    exact Prod.ext this.1 this.2
  exact ⟨congrArg Prod.fst key, congrArg Prod.snd key⟩

/-- The `s0` cell of class `k` of pattern `code` after the voxel loops. -/
theorem pass_s0_eval (m : Libm α) (nf : Nat → Nat) (mf : Nat → FVal α) (vf : Nat → α)
    (K : Nat) (gmm : Nat → GMMtype) (buf : Nat → α) (nm skip lkp : Nat → Nat)
    (lp : Nat → FVal α)
    (hg : ∀ code, code < 2 ^ nf 3 → (gmm code).P = bitcount (nf 3) code)
    (s : SSstate α) (code k : Nat) (hc : code < 2 ^ nf 3) (hk : k < K) :
    (suffstats_pass m nf mf vf K gmm buf nm skip lkp lp (suffstat_pointers_loop (nf 3) K).tbl
        s).st.s0 (((suffstat_pointers_loop (nf 3) K).tbl code).s0 + k)
      = s.st.s0 (((suffstat_pointers_loop (nf 3) K).tbl code).s0 + k)
        + latticeSum nf nm skip (fun i im =>
          if contributes (nf 0 * nf 1 * nf 2) (nf 3) K mf vf (nm 0 * nm 1 * nm 2) lkp lp i im ∧
              voxCode (nf 0 * nf 1 * nf 2) (nf 3) mf vf i = code then
            (voxNresp m (nf 0 * nf 1 * nf 2) (nf 3) K mf vf gmm buf (nm 0 * nm 1 * nm 2)
              lkp lp i im).2 k
          else 0) := by
  rw [suffstats_pass_acc m nf mf vf K gmm buf nm skip lkp lp _
    (fun s => s.st.s0 (((suffstat_pointers_loop (nf 3) K).tbl code).s0 + k)) _
    (fun i im s => suffstats_voxel_s0 m _ _ K mf vf gmm buf _ lkp lp _ hg i im s _)]
  congr 1
  refine latticeSum_congr _ _ _ _ _ (fun i im => ?_)
  by_cases hcon : contributes (nf 0 * nf 1 * nf 2) (nf 3) K mf vf (nm 0 * nm 1 * nm 2) lkp lp i im
  · simp only [hcon, if_true, true_and]
    by_cases hcode : voxCode (nf 0 * nf 1 * nf 2) (nf 3) mf vf i = code
    · rw [hcode]
      simp only [if_true]
      exact scal_sum_eval K _ k _ hk
    · simp only [hcode, if_false]
      refine scal_sum_zero K _ _ _ (fun r hr e => hcode ?_)
      rw [suffstat_tbl _ _ _ (voxCode_lt _ _ mf vf i), suffstat_tbl _ _ _ hc] at e
      simp only [] at e
      exact (radix_inj K r _ k _ hr hk (by omega)).2
  · simp only [hcon, if_false, false_and]

/-- The `s1` cell `j` of class `k` of pattern `code` after the voxel loops. -/
theorem pass_s1_eval (m : Libm α) (nf : Nat → Nat) (mf : Nat → FVal α) (vf : Nat → α)
    (K : Nat) (gmm : Nat → GMMtype) (buf : Nat → α) (nm skip lkp : Nat → Nat)
    (lp : Nat → FVal α)
    (hg : ∀ code, code < 2 ^ nf 3 → (gmm code).P = bitcount (nf 3) code)
    (s : SSstate α) (code k j : Nat) (hc : code < 2 ^ nf 3) (hk : k < K)
    (hj : j < (gmm code).P) :
    (suffstats_pass m nf mf vf K gmm buf nm skip lkp lp (suffstat_pointers_loop (nf 3) K).tbl
        s).st.s1 (((suffstat_pointers_loop (nf 3) K).tbl code).s1 + k * (gmm code).P + j)
      = s.st.s1 (((suffstat_pointers_loop (nf 3) K).tbl code).s1 + k * (gmm code).P + j)
        + latticeSum nf nm skip (fun i im =>
          if contributes (nf 0 * nf 1 * nf 2) (nf 3) K mf vf (nm 0 * nm 1 * nm 2) lkp lp i im ∧
              voxCode (nf 0 * nf 1 * nf 2) (nf 3) mf vf i = code then
            (voxNresp m (nf 0 * nf 1 * nf 2) (nf 3) K mf vf gmm buf (nm 0 * nm 1 * nm 2)
              lkp lp i im).2 k * voxX (nf 0 * nf 1 * nf 2) (nf 3) mf vf i j
          else 0) := by
  rw [suffstats_pass_acc m nf mf vf K gmm buf nm skip lkp lp _
    (fun s => s.st.s1 (((suffstat_pointers_loop (nf 3) K).tbl code).s1 + k * (gmm code).P + j)) _
    (fun i im s => suffstats_voxel_s1 m _ _ K mf vf gmm buf _ lkp lp _ hg i im s _)]
  congr 1
  refine latticeSum_congr _ _ _ _ _ (fun i im => ?_)
  by_cases hcon : contributes (nf 0 * nf 1 * nf 2) (nf 3) K mf vf (nm 0 * nm 1 * nm 2) lkp lp i im
  · simp only [hcon, if_true, true_and]
    by_cases hcode : voxCode (nf 0 * nf 1 * nf 2) (nf 3) mf vf i = code
    · rw [hcode]
      simp only [if_true]
      exact vec_sum_eval K _ _ k j _ hk hj
    · simp only [hcode, if_false]
      refine vec_sum_zero K _ _ _ _ (fun r hr e => hcode ?_)
      have hv := voxCode_lt (nf 0 * nf 1 * nf 2) (nf 3) mf vf i
      rw [suffstat_tbl _ _ _ hv, suffstat_tbl _ _ _ hc] at e
      simp only [] at e
      rw [hg _ hv] at hr
      rw [hg _ hc] at e hj
      exact (offsetOf_inj (fun c => K * bitcount (nf 3) c) _ _ r (k * bitcount (nf 3) code + j) hr
        (block_lt K _ k j hk hj) (by omega)).1
  · simp only [hcon, if_false, false_and]

/-- The `s2` cell at `a + Po * b` of class `k` of pattern `code` after the voxel loops:
only the diagonal and the cells with `b < a` have been added to. -/
theorem pass_s2_eval (m : Libm α) (nf : Nat → Nat) (mf : Nat → FVal α) (vf : Nat → α)
    (K : Nat) (gmm : Nat → GMMtype) (buf : Nat → α) (nm skip lkp : Nat → Nat)
    (lp : Nat → FVal α)
    (hg : ∀ code, code < 2 ^ nf 3 → (gmm code).P = bitcount (nf 3) code)
    (s : SSstate α) (code k a b : Nat) (hc : code < 2 ^ nf 3) (hk : k < K)
    (ha : a < (gmm code).P) (hb : b < (gmm code).P) :
    (suffstats_pass m nf mf vf K gmm buf nm skip lkp lp (suffstat_pointers_loop (nf 3) K).tbl
        s).st.s2 (((suffstat_pointers_loop (nf 3) K).tbl code).s2
          + k * ((gmm code).P * (gmm code).P) + (a + (gmm code).P * b))
      = s.st.s2 (((suffstat_pointers_loop (nf 3) K).tbl code).s2
          + k * ((gmm code).P * (gmm code).P) + (a + (gmm code).P * b))
        + latticeSum nf nm skip (fun i im =>
          if contributes (nf 0 * nf 1 * nf 2) (nf 3) K mf vf (nm 0 * nm 1 * nm 2) lkp lp i im ∧
              voxCode (nf 0 * nf 1 * nf 2) (nf 3) mf vf i = code then
            (if a = b then
              (voxNresp m (nf 0 * nf 1 * nf 2) (nf 3) K mf vf gmm buf (nm 0 * nm 1 * nm 2)
                lkp lp i im).2 k
              * (voxX (nf 0 * nf 1 * nf 2) (nf 3) mf vf i b * voxX (nf 0 * nf 1 * nf 2) (nf 3) mf vf i b
                + voxV (nf 0 * nf 1 * nf 2) (nf 3) mf vf i b)
            else if b < a then
              (voxNresp m (nf 0 * nf 1 * nf 2) (nf 3) K mf vf gmm buf (nm 0 * nm 1 * nm 2)
                lkp lp i im).2 k
              * voxX (nf 0 * nf 1 * nf 2) (nf 3) mf vf i b * voxX (nf 0 * nf 1 * nf 2) (nf 3) mf vf i a
            else 0)
          else 0) := by
  rw [suffstats_pass_acc m nf mf vf K gmm buf nm skip lkp lp _
    (fun s => s.st.s2 (((suffstat_pointers_loop (nf 3) K).tbl code).s2
          + k * ((gmm code).P * (gmm code).P) + (a + (gmm code).P * b))) _
    (fun i im s => suffstats_voxel_s2 m _ _ K mf vf gmm buf _ lkp lp _ hg i im s _)]
  congr 1
  refine latticeSum_congr _ _ _ _ _ (fun i im => ?_)
  by_cases hcon : contributes (nf 0 * nf 1 * nf 2) (nf 3) K mf vf (nm 0 * nm 1 * nm 2) lkp lp i im
  · simp only [hcon, if_true, true_and]
    by_cases hcode : voxCode (nf 0 * nf 1 * nf 2) (nf 3) mf vf i = code
    · rw [hcode]
      simp only [if_true]
      exact block_sum_eval K _ _ k a b _ _ hk ha hb
    · simp only [hcode, if_false]
      refine block_sum_zero K _ _ _ _ _ (fun r hr e => hcode ?_)
      have hv := voxCode_lt (nf 0 * nf 1 * nf 2) (nf 3) mf vf i
      rw [suffstat_tbl _ _ _ hv, suffstat_tbl _ _ _ hc] at e
      simp only [] at e
      rw [hg _ hv] at hr
      rw [hg _ hc] at e ha hb
      rw [← Nat.mul_assoc] at hr
      have hr0 : k * (bitcount (nf 3) code * bitcount (nf 3) code)
          + (a + bitcount (nf 3) code * b)
          < K * bitcount (nf 3) code * bitcount (nf 3) code := by
        rw [Nat.mul_assoc]
        exact block_lt K _ k _ hk (cell_lt _ a b ha hb)
      exact (offsetOf_inj (fun c => K * bitcount (nf 3) c * bitcount (nf 3) c) _ _ r _ hr hr0
        (by omega)).1
  · simp only [hcon, if_false, false_and]

/-- A cell on or below the diagonal (`b ≤ a` at `a + Po * b`) is no destination of the
mirroring. -/
theorem lower_not_dest (P K : Nat) (gmm : Nat → GMMtype)
    (hg : ∀ code, code < 2 ^ P → (gmm code).P = bitcount P code)
    (code k a b : Nat) (hc : code < 2 ^ P) (hk : k < K) (ha : a < (gmm code).P)
    (hba : b ≤ a) (src : Nat) :
    ¬ MirrorPair P K gmm (suffstat_pointers_loop P K).tbl
      (((suffstat_pointers_loop P K).tbl code).s2 + k * ((gmm code).P * (gmm code).P)
        + (a + (gmm code).P * b)) src := by
  rintro ⟨c', k', j', j1', _, hc', hk', hj', hj1', hd', _⟩
  obtain ⟨e1, e2, e3, e4⟩ := s2_index_inj P K gmm hg code k a b c' k' j' j1' hc hc' hk hk'
    ha (by omega) (by omega) hj1' hd'
  omega

/-- The `s2` buffer after the mirroring, cell by cell. -/
theorem mirror_cell (P K : Nat) (gmm : Nat → GMMtype)
    (hg : ∀ code, code < 2 ^ P → (gmm code).P = bitcount P code) (s2 : Nat → α)
    (code k a b : Nat) (hc1 : 1 ≤ code) (hc : code < 2 ^ P) (hk : k < K)
    (ha : a < (gmm code).P) (hb : b < (gmm code).P) :
    suffstats_mirror P K gmm (suffstat_pointers_loop P K).tbl s2
      (((suffstat_pointers_loop P K).tbl code).s2 + k * ((gmm code).P * (gmm code).P)
        + (a + (gmm code).P * b))
    = if a < b then
        s2 (((suffstat_pointers_loop P K).tbl code).s2 + k * ((gmm code).P * (gmm code).P)
          + (b + (gmm code).P * a))
      else
        s2 (((suffstat_pointers_loop P K).tbl code).s2 + k * ((gmm code).P * (gmm code).P)
          + (a + (gmm code).P * b)) := by
  obtain ⟨h1, h2⟩ := suffstats_mirror_copies P K gmm hg s2
  by_cases hab : a < b
  · simp only [hab, if_true]
    exact h1 _ _ ⟨code, k, a, b, hc1, hc, hk, hab, hb, rfl, rfl⟩
  · simp only [hab, if_false]
    exact h2 _ (fun src => lower_not_dest P K gmm hg code k a b hc hk ha (by omega) src)

theorem latticeSum_zero (nf nm skip : Nat → Nat) :
    latticeSum nf nm skip (fun _ _ => (0 : α)) = 0 := by
  unfold latticeSum
  simp

/-- A voxel fails to contribute exactly when no channel mean is finite or some class has
a non-finite prior. -/
theorem not_contributes_iff (Nf P K : Nat) (mf : Nat → FVal α) (vf : Nat → α) (Nm : Nat)
    (lkp : Nat → Nat) (lp : Nat → FVal α) (i im : Nat) :
    ¬ contributes Nf P K mf vf Nm lkp lp i im ↔
      ((∀ j, j < P → (mf (i + j * Nf)).isfinite = false) ∨
       (∃ k, k < K ∧ (lp (im + Nm * lkp k)).isfinite = false)) := by
  have hz0 : (get_vox Nf P (shift mf i) (shift vf i) (fun _ => 0) (fun _ => 0)).code = 0 ↔
      ∀ j, j < P → (mf (i + j * Nf)).isfinite = false :=
    get_vox_code_zero_iff Nf P (shift mf i) (shift vf i) (fun _ => 0) (fun _ => 0)
  unfold contributes voxCode priorOk
  rw [get_priors_ok_iff, ← hz0]
  constructor
  · intro h
    by_cases hz : (get_vox Nf P (shift mf i) (shift vf i) (fun _ => 0) (fun _ => 0)).code = 0
    · exact Or.inl hz
    · right
      by_contra hne
      apply h
      refine ⟨by omega, fun k hk => ?_⟩
      cases hfin : (shift lp im (Nm * lkp k)).isfinite
      · exact absurd ⟨k, hk, hfin⟩ hne
      · rfl
  · rintro (hz | ⟨k, hk, hfin⟩) ⟨h1, h2⟩
    · omega
    · have := h2 k hk
      unfold shift at this
      rw [hfin] at this
      exact Bool.noConfusion this

theorem allocate_gmm_loop_P (K n code : Nat) :
    ((forUp n (allocate_gmm_step K) ⟨fun _ => ⟨0, 0, 0, 0, 0, 0, 0, 0⟩, 0⟩).tbl code).P
      = if code < n then bitcount code code else 0 := by
  induction n with
  | zero => simp [forUp_zero]
  | succ n ih =>
    rw [forUp_succ]
    generalize forUp n (allocate_gmm_step K) ⟨fun _ => ⟨0, 0, 0, 0, 0, 0, 0, 0⟩, 0⟩ = st at ih
    unfold allocate_gmm_step
    simp only []
    by_cases hc : code = n
    · subst hc; simp
    · rw [Function.update_noteq hc, ih]
      by_cases hlt : code < n
      · simp [hlt, Nat.lt_succ_of_lt hlt]
      · have : ¬ code < n + 1 := by omega
        simp [hlt, this]

/-- The dimension that `allocate_gmm` stores for a pattern is the bit count of its code. -/
theorem allocate_gmm_P (P K code : Nat) (h : code < 2 ^ P) :
    ((allocate_gmm_loop P K).tbl code).P = bitcount P code := by
  unfold allocate_gmm_loop
  rw [allocate_gmm_loop_P, Nat.one_shiftLeft]
  simp only [h, if_true]
  exact bitcount_self P code h

theorem Nresp_sum_one (m : Libm α) (hm : m.ExpOk) (K : Nat) (hK : 1 ≤ K)
    (gmm : Nat → GMMtype) (buf : Nat → α) (code : Nat) (x v p : Nat → α) :
    Finset.sum (Finset.range K) (fun k => (Nresp m K gmm buf code x v p).2 k) = 1 :=
  (softmax1_closure m hm K hK _ _).2

/-- With the allocations succeeding and the bounds respected, `call_suffstats_missing`
returns what `suffstats_missing` returns on the tables of `allocate_gmm` and
`suffstat_pointers`. -/
theorem call_suffstats_missing_ok (m : Libm α) (nf : Nat → Nat)
    (mf : Nat → FVal α) (vf : Nat → α) (K : Nat) (mu b W nu gam : Nat → α)
    (nm skip lkp : Nat → Nat) (lp : Nat → FVal α) (scr : Scratch α) (st : Stats α)
    (hb : ¬ boundFails (nf 3) K) :
    ∃ buf : Nat → α,
      call_suffstats_missing m true true true nf mf vf K mu b W nu gam nm skip lkp lp scr st
        = (FVal.fin (suffstats_missing m nf mf vf K (allocate_gmm_loop (nf 3) K).tbl buf
              nm skip lkp lp (suffstat_pointers_loop (nf 3) K).tbl scr st).1,
           (suffstats_missing m nf mf vf K (allocate_gmm_loop (nf 3) K).tbl buf
              nm skip lkp lp (suffstat_pointers_loop (nf 3) K).tbl scr st).2) := by
  unfold call_suffstats_missing
  simp only [hb, if_false, sub_gmm, allocate_gmm, suffstat_pointers, if_true]
  exact ⟨_, rfl⟩

/-- Total occupancy: the `s0` cells of all patterns and classes grow, in total, by the
number of contributing voxels. -/
theorem total_occupancy (m : Libm α) (hm : m.ExpOk) (nf : Nat → Nat) (mf : Nat → FVal α)
    (vf : Nat → α) (K : Nat) (hK : 1 ≤ K) (gmm : Nat → GMMtype) (buf : Nat → α)
    (nm skip lkp : Nat → Nat) (lp : Nat → FVal α) (scr : Scratch α) (st : Stats α)
    (hg : ∀ code, code < 2 ^ nf 3 → (gmm code).P = bitcount (nf 3) code) :
    Finset.sum (Finset.range (2 ^ nf 3)) (fun code => Finset.sum (Finset.range K) (fun k =>
      (suffstats_missing m nf mf vf K gmm buf nm skip lkp lp
        (suffstat_pointers_loop (nf 3) K).tbl scr st).2.s0
        (((suffstat_pointers_loop (nf 3) K).tbl code).s0 + k)))
    = Finset.sum (Finset.range (2 ^ nf 3)) (fun code => Finset.sum (Finset.range K) (fun k =>
        st.s0 (((suffstat_pointers_loop (nf 3) K).tbl code).s0 + k)))
      + latticeSum nf nm skip (fun i im =>
          if contributes (nf 0 * nf 1 * nf 2) (nf 3) K mf vf (nm 0 * nm 1 * nm 2) lkp lp i im
          then 1 else 0) := by
  unfold suffstats_missing
  simp only []
  have e : ∀ code ∈ Finset.range (2 ^ nf 3), ∀ k ∈ Finset.range K,
      (suffstats_pass m nf mf vf K gmm buf nm skip lkp lp (suffstat_pointers_loop (nf 3) K).tbl
        ⟨0, scr, st⟩).st.s0 (((suffstat_pointers_loop (nf 3) K).tbl code).s0 + k)
      = st.s0 (((suffstat_pointers_loop (nf 3) K).tbl code).s0 + k)
        + latticeSum nf nm skip (fun i im =>
          if contributes (nf 0 * nf 1 * nf 2) (nf 3) K mf vf (nm 0 * nm 1 * nm 2) lkp lp i im ∧
              voxCode (nf 0 * nf 1 * nf 2) (nf 3) mf vf i = code then
            (voxNresp m (nf 0 * nf 1 * nf 2) (nf 3) K mf vf gmm buf (nm 0 * nm 1 * nm 2)
              lkp lp i im).2 k
          else 0) := by
    intro code hc k hk
    exact pass_s0_eval m nf mf vf K gmm buf nm skip lkp lp hg _ code k
      (Finset.mem_range.mp hc) (Finset.mem_range.mp hk)
  rw [Finset.sum_congr rfl (fun code hc => Finset.sum_congr rfl (fun k hk => e code hc k hk))]
  simp only [Finset.sum_add_distrib]
  congr 1
  simp only [latticeSum_sum]
  refine latticeSum_congr _ _ _ _ _ (fun i im => ?_)
  by_cases hcon : contributes (nf 0 * nf 1 * nf 2) (nf 3) K mf vf (nm 0 * nm 1 * nm 2) lkp lp i im
  · simp only [hcon, true_and, if_true]
    rw [Finset.sum_eq_single_of_mem (voxCode (nf 0 * nf 1 * nf 2) (nf 3) mf vf i)
      (Finset.mem_range.mpr (voxCode_lt _ _ mf vf i))]
    · simp only [if_true]
      exact Nresp_sum_one m hm K hK _ _ _ _ _ _
    · intro c _ hne
      refine Finset.sum_eq_zero (fun k _ => ?_)
      rw [if_neg (fun e => hne e.symm)]
  · simp only [hcon, false_and, if_false]
    simp

/-- In a `2 x 2 x 2` volume with two channels and two classes, prior grid equal to the data
grid and unit strides, where every voxel has a finite first channel and finite priors,
the total occupancy returned by `call_suffstats_missing` on zeroed buffers is 8. -/
theorem occupancy_P2K2 (m : Libm α) (hm : m.ExpOk) (mf : Nat → FVal α) (vf : Nat → α)
    (mu b W nu gam : Nat → α) (lkp : Nat → Nat) (lp : Nat → FVal α) (scr : Scratch α)
    (hmf : ∀ i, i < 8 → (mf i).isfinite = true)
    (hlp : ∀ i, (lp i).isfinite = true) :
    Finset.sum (Finset.range 4) (fun code => Finset.sum (Finset.range 2) (fun k =>
      (call_suffstats_missing m true true true (fun _ => 2) mf vf 2 mu b W nu gam
        (fun _ => 2) (fun _ => 1) lkp lp scr ⟨fun _ => 0, fun _ => 0, fun _ => 0⟩).2.s0
        (((suffstat_pointers_loop 2 2).tbl code).s0 + k))) = 8 := by
  have hb : ¬ boundFails ((fun _ => 2 : Nat → Nat) 3) 2 := by
    show ¬ boundFails 2 2
    unfold boundFails MaxChan; omega
  obtain ⟨buf, hcall⟩ := call_suffstats_missing_ok m (fun _ => 2) mf vf 2 mu b W nu gam
    (fun _ => 2) (fun _ => 1) lkp lp scr ⟨fun _ => 0, fun _ => 0, fun _ => 0⟩ hb
  rw [hcall]
  have ht := total_occupancy m hm (fun _ => 2) mf vf 2 (by omega)
    (allocate_gmm_loop 2 2).tbl buf (fun _ => 2) (fun _ => 1) lkp lp scr
    ⟨fun _ => 0, fun _ => 0, fun _ => 0⟩ (fun code h => allocate_gmm_P _ _ code h)
  have hcon : ∀ i im, i < 8 →
      contributes (2 * 2 * 2) 2 2 mf vf (2 * 2 * 2) lkp lp i im := by
    intro i im hi
    by_contra hn
    rw [not_contributes_iff] at hn
    rcases hn with h | ⟨k, _, h⟩
    · have := h 0 (by omega)
      rw [Nat.zero_mul, Nat.add_zero, hmf i hi] at this
      exact Bool.noConfusion this
    · rw [hlp] at h
      exact Bool.noConfusion h
  have hl : latticeSum (fun _ => 2) (fun _ => 2) (fun _ => 1) (fun i im =>
      if contributes (2 * 2 * 2) 2 2 mf vf (2 * 2 * 2) lkp lp i im then (1 : α) else 0) = 8 := by
    unfold latticeSum extent
    simp only [Nat.div_one, lt_irrefl, if_false]
    rw [Finset.sum_congr rfl (fun i2 h2 => Finset.sum_congr rfl (fun i1 h1 =>
      Finset.sum_congr rfl (fun i0 h0 => if_pos (hcon _ _ (by
        have := Finset.mem_range.mp h2
        have := Finset.mem_range.mp h1
        have := Finset.mem_range.mp h0
        omega)))))]
    simp
    norm_num
  simp only [] at ht ⊢
  rw [show (2 : Nat) ^ 2 = 4 from rfl] at ht
  rw [ht, hl]
  simp

/-! ## The responsibility maps -/

theorem wsub_one (K1 : Nat) (h1 : 1 ≤ K1) (h2 : K1 < 2 ^ 64) : wsub K1 1 = K1 - 1 := by
  unfold wsub
  have e : (1 : Nat) % 2 ^ 64 = 1 := by decide
  rw [e]
  have : K1 + 2 ^ 64 - 1 = (K1 - 1) + 2 ^ 64 := by omega
  rw [this, Nat.add_mod_right, Nat.mod_eq_of_lt (by omega)]

/-- If round `i0` of a loop sets a component of the state to `v` and every other round
leaves it alone, the component is `v` after the loop. -/
theorem forUp_set_once {σ τ : Type} (π : σ → τ) (body : Nat → σ → σ) (v : τ) (n i0 : Nat)
    (hi0 : i0 < n) (hset : ∀ s, π (body i0 s) = v)
    (hkeep : ∀ i, i < n → i ≠ i0 → ∀ s, π (body i s) = π s) (s : σ) :
    π (forUp n body s) = v := by
  induction n with
  | zero => omega
  | succ n ih =>
    rw [forUp_succ]
    by_cases h : n = i0
    · subst h; exact hset _
    · rw [hkeep n (by omega) h]
      exact ih (by omega) (fun i hi hne => hkeep i (by omega) hne)

/-- The three voxel loops of `responsibilities` are one loop over the linear voxel index
`i = 0, 1, ..., nf[0]*nf[1]*nf[2] - 1`. -/
theorem responsibilities_linear (m : Libm α) (nf skip : Nat → Nat) (mf : Nat → FVal α)
    (vf : Nat → α) (K : Nat) (gmm : Nat → GMMtype) (buf : Nat → α) (K1 : Nat)
    (lkp : Nat → Nat) (lp : Nat → FVal α) (scr : Scratch α) (r : Nat → FVal α) :
    responsibilities m nf skip mf vf K gmm buf K1 lkp lp scr r =
      ((forUp (nf 0 * nf 1 * nf 2) (fun i s =>
          responsibilities_voxel m (nf 0 * nf 1 * nf 2) (nf 3) K skip mf vf gmm buf K1 lkp lp
            (i % nf 0) (i / nf 0 % nf 1) (i / (nf 0 * nf 1)) i s) (⟨0, scr, r⟩ : RState α)).ll,
       (forUp (nf 0 * nf 1 * nf 2) (fun i s =>
          responsibilities_voxel m (nf 0 * nf 1 * nf 2) (nf 3) K skip mf vf gmm buf K1 lkp lp
            (i % nf 0) (i / nf 0 % nf 1) (i / (nf 0 * nf 1)) i s) (⟨0, scr, r⟩ : RState α)).r) := by
  have hin : ∀ (i2 : Nat) (s : RState α),
      forUp (nf 1) (fun i1 s => forUp (nf 0) (fun i0 s =>
        responsibilities_voxel m (nf 0 * nf 1 * nf 2) (nf 3) K skip mf vf gmm buf K1 lkp lp
          i0 i1 i2 (i0 + nf 0 * (i1 + nf 1 * i2)) s) s) s
      = forUp (nf 1 * nf 0) (fun q s =>
        responsibilities_voxel m (nf 0 * nf 1 * nf 2) (nf 3) K skip mf vf gmm buf K1 lkp lp
          (q % nf 0) (q / nf 0) i2 (q % nf 0 + nf 0 * (q / nf 0 + nf 1 * i2)) s) s :=
    fun i2 s => forUp_nested (nf 1) (nf 0) (fun i0 i1 s =>
        responsibilities_voxel m (nf 0 * nf 1 * nf 2) (nf 3) K skip mf vf gmm buf K1 lkp lp
          i0 i1 i2 (i0 + nf 0 * (i1 + nf 1 * i2)) s) s
  have hout : ∀ (s : RState α),
      forUp (nf 2) (fun i2 s => forUp (nf 1 * nf 0) (fun q s =>
        responsibilities_voxel m (nf 0 * nf 1 * nf 2) (nf 3) K skip mf vf gmm buf K1 lkp lp
          (q % nf 0) (q / nf 0) i2 (q % nf 0 + nf 0 * (q / nf 0 + nf 1 * i2)) s) s) s
      = forUp (nf 2 * (nf 1 * nf 0)) (fun i s =>
        responsibilities_voxel m (nf 0 * nf 1 * nf 2) (nf 3) K skip mf vf gmm buf K1 lkp lp
          (i % (nf 1 * nf 0) % nf 0) (i % (nf 1 * nf 0) / nf 0) (i / (nf 1 * nf 0))
          (i % (nf 1 * nf 0) % nf 0 + nf 0 * (i % (nf 1 * nf 0) / nf 0 + nf 1 * (i / (nf 1 * nf 0))))
          s) s :=
    fun s => forUp_nested (nf 2) (nf 1 * nf 0) (fun q i2 s =>
        responsibilities_voxel m (nf 0 * nf 1 * nf 2) (nf 3) K skip mf vf gmm buf K1 lkp lp
          (q % nf 0) (q / nf 0) i2 (q % nf 0 + nf 0 * (q / nf 0 + nf 1 * i2)) s) s
  have hbody : ∀ i : Nat,
      (i % (nf 1 * nf 0) % nf 0 = i % nf 0) ∧ (i % (nf 1 * nf 0) / nf 0 = i / nf 0 % nf 1) ∧
      (i / (nf 1 * nf 0) = i / (nf 0 * nf 1)) ∧
      (i % (nf 1 * nf 0) % nf 0 + nf 0 * (i % (nf 1 * nf 0) / nf 0 + nf 1 * (i / (nf 1 * nf 0)))
        = i) := by
    intro i
    refine ⟨Nat.mod_mul_left_mod _ _ _, Nat.mod_mul_left_div_self _ _ _, by rw [Nat.mul_comm], ?_⟩
    have e1 := Nat.mod_add_div (i % (nf 1 * nf 0)) (nf 0)
    have e2 := Nat.mod_add_div i (nf 1 * nf 0)
    have e3 : nf 0 * (nf 1 * (i / (nf 1 * nf 0))) = nf 1 * nf 0 * (i / (nf 1 * nf 0)) := by ring
    rw [Nat.mul_add, e3]
    omega
  have hN : nf 2 * (nf 1 * nf 0) = nf 0 * nf 1 * nf 2 := by ring
  unfold responsibilities
  simp only []
  have hloop : forUp (nf 2) (fun i2 s => forUp (nf 1) (fun i1 s => forUp (nf 0) (fun i0 s =>
        responsibilities_voxel m (nf 0 * nf 1 * nf 2) (nf 3) K skip mf vf gmm buf K1 lkp lp
          i0 i1 i2 (i0 + nf 0 * (i1 + nf 1 * i2)) s) s) s) (⟨0, scr, r⟩ : RState α)
      = forUp (nf 0 * nf 1 * nf 2) (fun i s =>
          responsibilities_voxel m (nf 0 * nf 1 * nf 2) (nf 3) K skip mf vf gmm buf K1 lkp lp
            (i % nf 0) (i / nf 0 % nf 1) (i / (nf 0 * nf 1)) i s) (⟨0, scr, r⟩ : RState α) := by
    rw [forUp_congr (nf 2) _ _ (fun i2 _ s => hin i2 s), hout, hN]
    refine forUp_congr _ _ _ (fun i _ s => ?_) _
    obtain ⟨h1, h2, h3, h4⟩ := hbody i
    rw [h4, h1, h2, h3]
  rw [hloop]

theorem nan_loop_frame (n i N1 idx : Nat) (r : Nat → FVal α) (h : ∀ t, idx ≠ i + t * N1) :
    forUp n (fun k1 r => Function.update r (i + k1 * N1) FVal.nan) r idx = r idx :=
  forUp_keep (fun r : Nat → FVal α => r idx) _
    (fun k1 r => Function.update_noteq (h k1) _ _) n r

theorem nan_loop_set (n i N1 t : Nat) (r : Nat → FVal α) (ht : t < n) :
    forUp n (fun k1 r => Function.update r (i + k1 * N1) FVal.nan) r (i + t * N1)
      = FVal.nan := by
  induction n with
  | zero => omega
  | succ n ih =>
    rw [forUp_succ]
    by_cases hidx : i + t * N1 = i + n * N1
    · rw [hidx]; simp
    · rw [Function.update_noteq hidx]
      have : t ≠ n := fun e => hidx (by rw [e])
      exact ih (by omega)

theorem add_loop_frame (K i N1 idx n : Nat) (lkp : Nat → Nat)
    (p : Nat → α) (r : Nat → FVal α) (h : ∀ t, idx ≠ i + t * N1) :
    forUp K (fun k r =>
      if lkp k < n then
        Function.update r (i + lkp k * N1) ((r (i + lkp k * N1)).addFin (p k))
      else r) r idx = r idx := by
  refine forUp_keep (fun r : Nat → FVal α => r idx) _ (fun k r => ?_) K r
  by_cases hc : lkp k < n
  · simp only [hc, if_true]
    exact Function.update_noteq (h _) _ _
  · simp only [hc, if_false]

theorem responsibilities_voxel_invalid (m : Libm α) (N1 P K : Nat) (skip : Nat → Nat)
    (mf : Nat → FVal α) (vf : Nat → α) (gmm : Nat → GMMtype) (buf : Nat → α) (K1 : Nat)
    (lkp : Nat → Nat) (lp : Nat → FVal α) (i0 i1 i2 i : Nat) (s : RState α)
    (hpr : ¬ (get_priors N1 (shift lp i) K lkp s.scr.p).1 = true) :
    responsibilities_voxel m N1 P K skip mf vf gmm buf K1 lkp lp i0 i1 i2 i s =
      { ll := s.ll
        scr := ⟨(get_vox N1 P (shift mf i) (shift vf i) s.scr.mx s.scr.vx).x,
                (get_vox N1 P (shift mf i) (shift vf i) s.scr.mx s.scr.vx).v,
                (get_priors N1 (shift lp i) K lkp s.scr.p).2⟩
        r := forUp (wsub K1 1) (fun k1 r => Function.update r (i + k1 * N1) FVal.nan) s.r } := by
  unfold responsibilities_voxel
  simp only []
  rw [if_neg hpr]

theorem responsibilities_voxel_allmissing (m : Libm α) (N1 P K : Nat) (skip : Nat → Nat)
    (mf : Nat → FVal α) (vf : Nat → α) (gmm : Nat → GMMtype) (buf : Nat → α) (K1 : Nat)
    (lkp : Nat → Nat) (lp : Nat → FVal α) (i0 i1 i2 i : Nat) (s : RState α)
    (hpr : (get_priors N1 (shift lp i) K lkp s.scr.p).1 = true)
    (hcode : (get_vox N1 P (shift mf i) (shift vf i) s.scr.mx s.scr.vx).code = 0) :
    responsibilities_voxel m N1 P K skip mf vf gmm buf K1 lkp lp i0 i1 i2 i s =
      { ll := s.ll
        scr := ⟨(get_vox N1 P (shift mf i) (shift vf i) s.scr.mx s.scr.vx).x,
                (get_vox N1 P (shift mf i) (shift vf i) s.scr.mx s.scr.vx).v,
                (softmax m K1 (get_priors N1 (shift lp i) K lkp s.scr.p).2
                  (get_priors N1 (shift lp i) K lkp s.scr.p).2).2⟩
        r := forUp (wsub K1 1) (fun k1 r => Function.update r (i + k1 * N1) FVal.nan) s.r } := by
  unfold responsibilities_voxel
  simp only []
  rw [if_pos hpr, if_neg (fun h => h hcode)]

theorem responsibilities_voxel_valid (m : Libm α) (N1 P K : Nat) (skip : Nat → Nat)
    (mf : Nat → FVal α) (vf : Nat → α) (gmm : Nat → GMMtype) (buf : Nat → α) (K1 : Nat)
    (lkp : Nat → Nat) (lp : Nat → FVal α) (i0 i1 i2 i : Nat) (s : RState α)
    (hpr : (get_priors N1 (shift lp i) K lkp s.scr.p).1 = true)
    (hcode : (get_vox N1 P (shift mf i) (shift vf i) s.scr.mx s.scr.vx).code ≠ 0)
    (nr : α × (Nat → α))
    (hnr : nr = if i2 % skip 2 = 0 ∧ (i1 % skip 1 = 0 ∧ i0 % skip 0 = 0) then
          Nresp m K gmm buf (get_vox N1 P (shift mf i) (shift vf i) s.scr.mx s.scr.vx).code
            (get_vox N1 P (shift mf i) (shift vf i) s.scr.mx s.scr.vx).x
            (get_vox N1 P (shift mf i) (shift vf i) s.scr.mx s.scr.vx).v
            (get_priors N1 (shift lp i) K lkp s.scr.p).2
        else
          Tresp m K gmm buf (get_vox N1 P (shift mf i) (shift vf i) s.scr.mx s.scr.vx).code
            (get_vox N1 P (shift mf i) (shift vf i) s.scr.mx s.scr.vx).x
            (get_vox N1 P (shift mf i) (shift vf i) s.scr.mx s.scr.vx).v
            (get_priors N1 (shift lp i) K lkp s.scr.p).2) :
    responsibilities_voxel m N1 P K skip mf vf gmm buf K1 lkp lp i0 i1 i2 i s =
      { ll := s.ll + nr.1
        scr := ⟨(get_vox N1 P (shift mf i) (shift vf i) s.scr.mx s.scr.vx).x,
                (get_vox N1 P (shift mf i) (shift vf i) s.scr.mx s.scr.vx).v, nr.2⟩
        r := forUp K (fun k r =>
          if lkp k < wsub K1 1 then
            Function.update r (i + lkp k * N1) ((r (i + lkp k * N1)).addFin (nr.2 k))
          else r) s.r } := by
  unfold responsibilities_voxel
  simp only []
  rw [if_pos hpr, if_pos hcode, hnr]

/-- The voxel with index `i` writes only cells `r[i + t*N1]`. -/
theorem responsibilities_voxel_frame (m : Libm α) (N1 P K : Nat) (skip : Nat → Nat)
    (mf : Nat → FVal α) (vf : Nat → α) (gmm : Nat → GMMtype) (buf : Nat → α) (K1 : Nat)
    (lkp : Nat → Nat) (lp : Nat → FVal α) (i0 i1 i2 i : Nat) (s : RState α) (idx : Nat)
    (h : ∀ t, idx ≠ i + t * N1) :
    (responsibilities_voxel m N1 P K skip mf vf gmm buf K1 lkp lp i0 i1 i2 i s).r idx
      = s.r idx := by
  by_cases hpr : (get_priors N1 (shift lp i) K lkp s.scr.p).1 = true
  · by_cases hcode : (get_vox N1 P (shift mf i) (shift vf i) s.scr.mx s.scr.vx).code = 0
    · rw [responsibilities_voxel_allmissing m N1 P K skip mf vf gmm buf K1 lkp lp i0 i1 i2 i s
        hpr hcode]
      dsimp only
      exact nan_loop_frame (wsub K1 1) i N1 idx s.r h
    · rw [responsibilities_voxel_valid m N1 P K skip mf vf gmm buf K1 lkp lp i0 i1 i2 i s
        hpr hcode _ rfl]
      dsimp only
      exact add_loop_frame K i N1 idx (wsub K1 1) lkp _ s.r h
  · rw [responsibilities_voxel_invalid m N1 P K skip mf vf gmm buf K1 lkp lp i0 i1 i2 i s hpr]
    dsimp only
    exact nan_loop_frame (wsub K1 1) i N1 idx s.r h

/-- A voxel with an invalid prior or with no finite channel gets NaN in every output
class map and adds nothing to the log-likelihood. -/
theorem responsibilities_voxel_bad (m : Libm α) (N1 P K : Nat) (skip : Nat → Nat)
    (mf : Nat → FVal α) (vf : Nat → α) (gmm : Nat → GMMtype) (buf : Nat → α) (K1 : Nat)
    (lkp : Nat → Nat) (lp : Nat → FVal α) (i0 i1 i2 i : Nat) (s : RState α)
    (hbad : (∃ k, k < K ∧ (lp (i + N1 * lkp k)).isfinite = false) ∨
      (∀ j, j < P → (mf (i + j * N1)).isfinite = false)) :
    (responsibilities_voxel m N1 P K skip mf vf gmm buf K1 lkp lp i0 i1 i2 i s).ll = s.ll ∧
    ∀ t, t < wsub K1 1 →
      (responsibilities_voxel m N1 P K skip mf vf gmm buf K1 lkp lp i0 i1 i2 i s).r (i + t * N1)
        = FVal.nan := by
  have hz0 : (get_vox N1 P (shift mf i) (shift vf i) s.scr.mx s.scr.vx).code = 0 ↔
      ∀ j, j < P → (mf (i + j * N1)).isfinite = false :=
    get_vox_code_zero_iff N1 P (shift mf i) (shift vf i) s.scr.mx s.scr.vx
  have hp0 : (get_priors N1 (shift lp i) K lkp s.scr.p).1 = true ↔
      ∀ k, k < K → (lp (i + N1 * lkp k)).isfinite = true :=
    get_priors_ok_iff N1 (shift lp i) K lkp s.scr.p
  by_cases hpr : (get_priors N1 (shift lp i) K lkp s.scr.p).1 = true
  · have hcode : (get_vox N1 P (shift mf i) (shift vf i) s.scr.mx s.scr.vx).code = 0 := by
      rcases hbad with ⟨k, hk, hf⟩ | hall
      · have := hp0.mp hpr k hk
        rw [hf] at this
        exact Bool.noConfusion this
      · exact hz0.mpr hall
    rw [responsibilities_voxel_allmissing m N1 P K skip mf vf gmm buf K1 lkp lp i0 i1 i2 i s
      hpr hcode]
    dsimp only
    exact ⟨rfl, fun t ht => nan_loop_set (wsub K1 1) i N1 t s.r ht⟩
  · rw [responsibilities_voxel_invalid m N1 P K skip mf vf gmm buf K1 lkp lp i0 i1 i2 i s hpr]
    dsimp only
    exact ⟨rfl, fun t ht => nan_loop_set (wsub K1 1) i N1 t s.r ht⟩

end Lemmas3

section Lemmas4
set_option linter.unusedSectionVars false
variable {α : Type} [LinearOrderedField α] [FloorRing α]

theorem Tresp_eq (m : Libm α) (K : Nat) (gmm : Nat → GMMtype) (buf : Nat → α) (code : Nat)
    (x v p : Nat → α) :
    Tresp m K gmm buf code x v p =
      softmax1 m K (fun i => if i < K then Tresp_logit m gmm buf code x v p i else p i)
        (fun i => if i < K then Tresp_logit m gmm buf code x v p i else p i) := by
  unfold Tresp
  simp only []
  rw [forUp_map_update K (fun k y => y + (buf ((gmm code).conT + k)
    - (1 / 2) * (buf ((gmm code).nu + k) + 1) *
      m.log (1 + buf ((gmm code).b + k) / (buf ((gmm code).b + k) + 1) *
        del2 (gmm code).P (shift buf ((gmm code).mu + k * (gmm code).P))
          (shift buf ((gmm code).W + k * ((gmm code).P * (gmm code).P))) x v)))]
  rfl

theorem Tresp_congr (m : Libm α) (K : Nat) (gmm : Nat → GMMtype) (buf : Nat → α) (code : Nat)
    (x v p x' v' p' : Nat → α) (hK : 1 ≤ K)
    (hx : ∀ j, j < (gmm code).P → x j = x' j ∧ v j = v' j)
    (hp : ∀ k, k < K → p k = p' k) :
    (Tresp m K gmm buf code x v p).1 = (Tresp m K gmm buf code x' v' p').1 ∧
    ∀ k, k < K → (Tresp m K gmm buf code x v p).2 k = (Tresp m K gmm buf code x' v' p').2 k := by
  rw [Tresp_eq, Tresp_eq]
  refine softmax1_congr m K _ _ _ _ hK (fun k hk => ?_)
  simp only [hk, if_true]
  unfold Tresp_logit
  rw [hp k hk, del2_congr (gmm code).P _ _ x v x' v' hx]

theorem vox_resp_clean (m : Libm α) (N1 P K : Nat) (skip : Nat → Nat) (mf : Nat → FVal α)
    (vf : Nat → α) (gmm : Nat → GMMtype) (buf : Nat → α) (lkp : Nat → Nat) (lp : Nat → FVal α)
    (hg : ∀ code, code < 2 ^ P → (gmm code).P = bitcount P code)
    (i0 i1 i2 i : Nat) (scr : Scratch α)
    (hok : (get_priors N1 (shift lp i) K lkp scr.p).1 = true) (k : Nat) (hk : k < K) :
    (if i2 % skip 2 = 0 ∧ (i1 % skip 1 = 0 ∧ i0 % skip 0 = 0) then
        Nresp m K gmm buf (get_vox N1 P (shift mf i) (shift vf i) scr.mx scr.vx).code
          (get_vox N1 P (shift mf i) (shift vf i) scr.mx scr.vx).x
          (get_vox N1 P (shift mf i) (shift vf i) scr.mx scr.vx).v
          (get_priors N1 (shift lp i) K lkp scr.p).2
      else
        Tresp m K gmm buf (get_vox N1 P (shift mf i) (shift vf i) scr.mx scr.vx).code
          (get_vox N1 P (shift mf i) (shift vf i) scr.mx scr.vx).x
          (get_vox N1 P (shift mf i) (shift vf i) scr.mx scr.vx).v
          (get_priors N1 (shift lp i) K lkp scr.p).2).2 k
      = (voxResp m N1 P K skip mf vf gmm buf lkp lp i0 i1 i2 i).2 k := by
  have hK : 1 ≤ K := by omega
  have hx : ∀ j, j < (gmm (get_vox N1 P (shift mf i) (shift vf i) scr.mx scr.vx).code).P →
      (get_vox N1 P (shift mf i) (shift vf i) scr.mx scr.vx).x j
        = (get_vox N1 P (shift mf i) (shift vf i) (fun _ => 0) (fun _ => 0)).x j ∧
      (get_vox N1 P (shift mf i) (shift vf i) scr.mx scr.vx).v j
        = (get_vox N1 P (shift mf i) (shift vf i) (fun _ => 0) (fun _ => 0)).v j := by
    intro j hj
    rw [hg _ (get_vox_code_lt _ _ _ _ _ _)] at hj
    exact get_vox_xv_eq N1 P (shift mf i) (shift vf i) scr.mx scr.vx _ _ j hj
  have hp : ∀ k, k < K → (get_priors N1 (shift lp i) K lkp scr.p).2 k
      = (get_priors N1 (shift lp i) K lkp (fun _ => 0)).2 k :=
    fun k hk => get_priors_val_eq N1 (shift lp i) K lkp scr.p _ hok k hk
  unfold voxResp voxCode voxX voxV voxPrior
  rw [← get_vox_code_eq N1 P (shift mf i) (shift vf i) scr.mx scr.vx (fun _ => 0) (fun _ => 0)]
  by_cases hc : i2 % skip 2 = 0 ∧ (i1 % skip 1 = 0 ∧ i0 % skip 0 = 0)
  · rw [if_pos hc, if_pos hc]
    exact (Nresp_congr m K gmm buf _ _ _ _ _ _ _ hK hx hp).2 k hk
  · rw [if_neg hc, if_neg hc]
    exact (Tresp_congr m K gmm buf _ _ _ _ _ _ _ hK hx hp).2 k hk

/-- The accumulation loop of one voxel adds to the cell of tissue `t` the responsibilities
of the classes mapped to `t`. -/
theorem add_loop_val (K i N1 t n : Nat) (lkp : Nat → Nat) (p : Nat → α) (r : Nat → FVal α)
    (a : α) (hN : 0 < N1) (ht : t < n) (hr : r (i + t * N1) = FVal.fin a) :
    forUp K (fun k r =>
      if lkp k < n then
        Function.update r (i + lkp k * N1) ((r (i + lkp k * N1)).addFin (p k))
      else r) r (i + t * N1)
    = FVal.fin (a + Finset.sum (Finset.range K) (fun k => if lkp k = t then p k else 0)) := by
  induction K with
  | zero => simp [forUp_zero, hr]
  | succ K ih =>
    rw [forUp_succ, Finset.sum_range_succ]
    by_cases hc : lkp K < n
    · rw [if_pos hc]
      by_cases he : lkp K = t
      · rw [he, Function.update_same, ih, if_pos rfl]
        simp only [FVal.addFin, add_assoc]
      · rw [if_neg he, add_zero, Function.update_noteq, ih]
        intro e
        apply he
        have := Nat.eq_of_mul_eq_mul_right hN (Nat.add_left_cancel e)
        exact this.symm
    · rw [if_neg hc, ih]
      have he : lkp K ≠ t := by omega
      rw [if_neg he, add_zero]

/-- If round `i0` of a loop takes a component of the state from `a` to `v` and every other
round leaves it alone, the component goes from `a` to `v` in the loop. -/
theorem forUp_step_once {σ τ : Type} (π : σ → τ) (body : Nat → σ → σ) (a v : τ) (n i0 : Nat)
    (hi0 : i0 < n) (hstep : ∀ s, π s = a → π (body i0 s) = v)
    (hkeep : ∀ i, i < n → i ≠ i0 → ∀ s, π (body i s) = π s) (s : σ) (hs : π s = a) :
    π (forUp n body s) = v := by
  induction n with
  | zero => omega
  | succ n ih =>
    rw [forUp_succ]
    by_cases h : n = i0
    · subst h
      exact hstep _ (by rw [forUp_keep_lt π body n (fun i hi => hkeep i (by omega) (by omega))]; exact hs)
    · rw [hkeep n (by omega) h]
      exact ih (by omega) (fun i hi hne => hkeep i (by omega) hne)

/-- Summed over the tissue maps `t < n`, the responsibilities of the classes mapped to `t`
are the total minus the responsibilities of the classes mapped to no map. -/
theorem tissue_sum (K n : Nat) (lkp : Nat → Nat) (p : Nat → α) :
    Finset.sum (Finset.range n) (fun t =>
      Finset.sum (Finset.range K) (fun k => if lkp k = t then p k else 0))
    = Finset.sum (Finset.range K) p
      - Finset.sum (Finset.range K) (fun k => if n ≤ lkp k then p k else 0) := by
  rw [Finset.sum_comm, eq_sub_iff_add_eq, ← Finset.sum_add_distrib]
  refine Finset.sum_congr rfl (fun k _ => ?_)
  by_cases h : n ≤ lkp k
  · rw [if_pos h, Finset.sum_eq_zero, zero_add]
    intro t ht
    have := Finset.mem_range.mp ht
    rw [if_neg (by omega)]
  · rw [if_neg h, add_zero, Finset.sum_ite_eq]
    rw [if_pos (Finset.mem_range.mpr (by omega))]

theorem Tresp_closure (m : Libm α) (hm : m.ExpOk) (K : Nat) (hK : 1 ≤ K)
    (gmm : Nat → GMMtype) (buf : Nat → α) (code : Nat) (x v p : Nat → α) :
    (∀ k, k < K → 0 < (Tresp m K gmm buf code x v p).2 k) ∧
    Finset.sum (Finset.range K) (fun k => (Tresp m K gmm buf code x v p).2 k) = 1 := by
  rw [Tresp_eq]
  exact ⟨fun k hk => ((softmax1_closure m hm K hK _ _).1 k hk).1,
    (softmax1_closure m hm K hK _ _).2⟩

theorem Nresp_closure (m : Libm α) (hm : m.ExpOk) (K : Nat) (hK : 1 ≤ K)
    (gmm : Nat → GMMtype) (buf : Nat → α) (code : Nat) (x v p : Nat → α) :
    (∀ k, k < K → 0 < (Nresp m K gmm buf code x v p).2 k) ∧
    Finset.sum (Finset.range K) (fun k => (Nresp m K gmm buf code x v p).2 k) = 1 := by
  rw [Nresp_eq]
  exact ⟨fun k hk => ((softmax1_closure m hm K hK _ _).1 k hk).1,
    (softmax1_closure m hm K hK _ _).2⟩

theorem voxResp_closure (m : Libm α) (hm : m.ExpOk) (N1 P K : Nat) (hK : 1 ≤ K)
    (skip : Nat → Nat) (mf : Nat → FVal α)
    (vf : Nat → α) (gmm : Nat → GMMtype) (buf : Nat → α) (lkp : Nat → Nat) (lp : Nat → FVal α)
    (i0 i1 i2 i : Nat) :
    (∀ k, k < K → 0 < (voxResp m N1 P K skip mf vf gmm buf lkp lp i0 i1 i2 i).2 k) ∧
    Finset.sum (Finset.range K)
      (fun k => (voxResp m N1 P K skip mf vf gmm buf lkp lp i0 i1 i2 i).2 k) = 1 := by
  unfold voxResp
  by_cases hc : i2 % skip 2 = 0 ∧ (i1 % skip 1 = 0 ∧ i0 % skip 0 = 0)
  · rw [if_pos hc]; exact Nresp_closure m hm K hK _ _ _ _ _ _
  · rw [if_neg hc]; exact Tresp_closure m hm K hK _ _ _ _ _ _

/-- The voxel with index `i` writes only the cells `r[i + t*N1]` with `t < K1 - 1`. -/
theorem responsibilities_voxel_frame_lt (m : Libm α) (N1 P K : Nat) (skip : Nat → Nat)
    (mf : Nat → FVal α) (vf : Nat → α) (gmm : Nat → GMMtype) (buf : Nat → α) (K1 : Nat)
    (lkp : Nat → Nat) (lp : Nat → FVal α) (i0 i1 i2 i : Nat) (s : RState α) (idx : Nat)
    (h : ∀ t, t < wsub K1 1 → idx ≠ i + t * N1) :
    (responsibilities_voxel m N1 P K skip mf vf gmm buf K1 lkp lp i0 i1 i2 i s).r idx
      = s.r idx := by
  have hnan : forUp (wsub K1 1) (fun k1 r => Function.update r (i + k1 * N1) FVal.nan) s.r idx
      = s.r idx :=
    forUp_keep_lt (fun r : Nat → FVal α => r idx) _ (wsub K1 1)
      (fun k1 hk1 r => Function.update_noteq (h k1 hk1) _ _) s.r
  by_cases hpr : (get_priors N1 (shift lp i) K lkp s.scr.p).1 = true
  · by_cases hcode : (get_vox N1 P (shift mf i) (shift vf i) s.scr.mx s.scr.vx).code = 0
    · rw [responsibilities_voxel_allmissing m N1 P K skip mf vf gmm buf K1 lkp lp i0 i1 i2 i s
        hpr hcode]
      dsimp only
      exact hnan
    · rw [responsibilities_voxel_valid m N1 P K skip mf vf gmm buf K1 lkp lp i0 i1 i2 i s
        hpr hcode _ rfl]
      dsimp only
      refine forUp_keep (fun r : Nat → FVal α => r idx) _ (fun k r => ?_) K s.r
      by_cases hc : lkp k < wsub K1 1
      · rw [if_pos hc]
        exact Function.update_noteq (h _ hc) _ _
      · rw [if_neg hc]
  · rw [responsibilities_voxel_invalid m N1 P K skip mf vf gmm buf K1 lkp lp i0 i1 i2 i s hpr]
    dsimp only
    exact hnan

/-- At a voxel with a finite prior and a finite channel, the cell of tissue `t` grows by
the responsibilities of the classes mapped to `t`. -/
theorem responsibilities_voxel_sum (m : Libm α) (N1 P K : Nat) (skip : Nat → Nat)
    (mf : Nat → FVal α) (vf : Nat → α) (gmm : Nat → GMMtype) (buf : Nat → α) (K1 : Nat)
    (lkp : Nat → Nat) (lp : Nat → FVal α)
    (hg : ∀ code, code < 2 ^ P → (gmm code).P = bitcount P code)
    (i0 i1 i2 i : Nat) (s : RState α) (hN : 0 < N1)
    (hpr : ∀ k, k < K → (lp (i + N1 * lkp k)).isfinite = true)
    (hobs : ∃ j, j < P ∧ (mf (i + j * N1)).isfinite = true)
    (t : Nat) (ht : t < wsub K1 1) (a : α) (hr : s.r (i + t * N1) = FVal.fin a) :
    (responsibilities_voxel m N1 P K skip mf vf gmm buf K1 lkp lp i0 i1 i2 i s).r (i + t * N1)
      = FVal.fin (a + Finset.sum (Finset.range K) (fun k =>
          if lkp k = t then (voxResp m N1 P K skip mf vf gmm buf lkp lp i0 i1 i2 i).2 k
          else 0)) := by
  have hz0 : (get_vox N1 P (shift mf i) (shift vf i) s.scr.mx s.scr.vx).code = 0 ↔
      ∀ j, j < P → (mf (i + j * N1)).isfinite = false :=
    get_vox_code_zero_iff N1 P (shift mf i) (shift vf i) s.scr.mx s.scr.vx
  have hp0 : (get_priors N1 (shift lp i) K lkp s.scr.p).1 = true ↔
      ∀ k, k < K → (lp (i + N1 * lkp k)).isfinite = true :=
    get_priors_ok_iff N1 (shift lp i) K lkp s.scr.p
  have hpr' := hp0.mpr hpr
  have hcode : (get_vox N1 P (shift mf i) (shift vf i) s.scr.mx s.scr.vx).code ≠ 0 := by
    intro e
    obtain ⟨j, hj, hf⟩ := hobs
    have := hz0.mp e j hj
    rw [hf] at this
    exact Bool.noConfusion this
  rw [responsibilities_voxel_valid m N1 P K skip mf vf gmm buf K1 lkp lp i0 i1 i2 i s
    hpr' hcode _ rfl]
  dsimp only
  rw [add_loop_val K i N1 t (wsub K1 1) lkp _ s.r a hN ht hr]
  congr 2
  refine Finset.sum_congr rfl (fun k hk => ?_)
  rw [vox_resp_clean m N1 P K skip mf vf gmm buf lkp lp hg i0 i1 i2 i s.scr hpr' k
    (Finset.mem_range.mp hk)]

end Lemmas4

section Lemmas5

set_option linter.unusedSectionVars false

variable {α : Type} [LinearOrderedField α] [FloorRing α]

/-! ## The gradient pass -/

theorem forUp_sum (n : Nat) (f : Nat → α) (a : α) :
    forUp n (fun j s => s + f j) a = a + Finset.sum (Finset.range n) f :=
  forUp_acc (fun s : α => s) (fun j s => s + f j) f (fun _ _ => rfl) n a

theorem forUp_sum_pair (n : Nat) (f g : Nat → α) :
    forUp n (fun k (gh : α × α) => (gh.1 + f k, gh.2 + g k)) (0, 0)
      = (Finset.sum (Finset.range n) f, Finset.sum (Finset.range n) g) := by
  induction n with
  | zero => simp [forUp_zero]
  | succ n ih => rw [forUp_succ, ih, Finset.sum_range_succ, Finset.sum_range_succ]

/-- A voxel of `INUgrads` writes no cell of `g1`, `g2` other than its own. -/
theorem INUgrads_voxel_frame (m : Libm α) (Nf P K : Nat) (mf : Nat → FVal α) (vf : Nat → α)
    (gmm : Nat → GMMtype) (buf : Nat → α) (Nm : Nat) (lkp : Nat → Nat) (lp : Nat → FVal α)
    (index : Nat → Nat) (i im : Nat) (s : GState α) (idx : Nat) (h : idx ≠ i) :
    (INUgrads_voxel m Nf P K mf vf gmm buf Nm lkp lp index i im s).g1 idx = s.g1 idx ∧
    (INUgrads_voxel m Nf P K mf vf gmm buf Nm lkp lp index i im s).g2 idx = s.g2 idx := by
  unfold INUgrads_voxel
  simp only []
  split_ifs <;> simp [Function.update_noteq h]

/-- A voxel of `INUgrads` that is skipped, or whose pattern does not hold the selected
channel, writes nothing to `g1`, `g2`. -/
theorem INUgrads_voxel_skip (m : Libm α) (Nf P K : Nat) (mf : Nat → FVal α) (vf : Nat → α)
    (gmm : Nat → GMMtype) (buf : Nat → α) (Nm : Nat) (lkp : Nat → Nat) (lp : Nat → FVal α)
    (index : Nat → Nat) (i im : Nat) (s : GState α)
    (h : ¬ (contributes Nf P K mf vf Nm lkp lp i im ∧
      index (voxCode Nf P mf vf i) ≠ Undefined)) :
    (INUgrads_voxel m Nf P K mf vf gmm buf Nm lkp lp index i im s).g1 = s.g1 ∧
    (INUgrads_voxel m Nf P K mf vf gmm buf Nm lkp lp index i im s).g2 = s.g2 := by
  have hc := contributes_iff Nf P K mf vf Nm lkp lp i im s.scr
  have hcode : (get_vox Nf P (shift mf i) (shift vf i) s.scr.mx s.scr.vx).code
      = voxCode Nf P mf vf i := get_vox_code_eq _ _ _ _ _ _ _ _
  unfold INUgrads_voxel
  simp only []
  by_cases h1 : (get_vox Nf P (shift mf i) (shift vf i) s.scr.mx s.scr.vx).code ≠ 0
  · rw [if_pos h1]
    by_cases h2 : (get_priors Nm (shift lp im) K lkp s.scr.p).1 = true
    · rw [if_pos h2]
      have h3 : ¬ index (get_vox Nf P (shift mf i) (shift vf i) s.scr.mx s.scr.vx).code
          ≠ Undefined := by
        intro h3
        rw [hcode] at h3
        exact h ⟨hc.mpr ⟨Nat.pos_of_ne_zero h1, h2⟩, h3⟩
      rw [if_neg h3]
      exact ⟨rfl, rfl⟩
    · rw [if_neg h2]
      exact ⟨rfl, rfl⟩
  · rw [if_neg h1]
    exact ⟨rfl, rfl⟩

/-- A contributing voxel of `INUgrads` whose pattern holds the selected channel at the
local position `index[code]` writes the gradient and the Hessian of the voxel. -/
theorem INUgrads_voxel_hit (m : Libm α) (Nf P K : Nat) (mf : Nat → FVal α) (vf : Nat → α)
    (gmm : Nat → GMMtype) (buf : Nat → α) (Nm : Nat) (lkp : Nat → Nat) (lp : Nat → FVal α)
    (index : Nat → Nat) (i im : Nat) (s : GState α)
    (hg : ∀ code, code < 2 ^ P → (gmm code).P = bitcount P code)
    (hcon : contributes Nf P K mf vf Nm lkp lp i im)
    (hidx : index (voxCode Nf P mf vf i) ≠ Undefined)
    (hnc : index (voxCode Nf P mf vf i) < bitcount P (voxCode Nf P mf vf i)) :
    (INUgrads_voxel m Nf P K mf vf gmm buf Nm lkp lp index i im s).g1 i
      = FVal.fin (voxGrad m Nf P K mf vf gmm buf Nm lkp lp index i im) ∧
    (INUgrads_voxel m Nf P K mf vf gmm buf Nm lkp lp index i im s).g2 i
      = FVal.fin (if voxGrad m Nf P K mf vf gmm buf Nm lkp lp index i im > 0 then
          voxHess m Nf P K mf vf gmm buf Nm lkp lp index i im
            + voxGrad m Nf P K mf vf gmm buf Nm lkp lp index i im
        else voxHess m Nf P K mf vf gmm buf Nm lkp lp index i im) := by
  have hc := (contributes_iff Nf P K mf vf Nm lkp lp i im s.scr).mp hcon
  have hcode : (get_vox Nf P (shift mf i) (shift vf i) s.scr.mx s.scr.vx).code
      = voxCode Nf P mf vf i := get_vox_code_eq _ _ _ _ _ _ _ _
  have hlt : voxCode Nf P mf vf i < 2 ^ P := voxCode_lt Nf P mf vf i
  have hx : ∀ j, j < bitcount P (voxCode Nf P mf vf i) →
      (get_vox Nf P (shift mf i) (shift vf i) s.scr.mx s.scr.vx).x j = voxX Nf P mf vf i j ∧
      (get_vox Nf P (shift mf i) (shift vf i) s.scr.mx s.scr.vx).v j = voxV Nf P mf vf i j := by
    intro j hj
    rw [← hcode] at hj
    exact get_vox_xv_eq Nf P (shift mf i) (shift vf i) s.scr.mx s.scr.vx _ _ j hj
  have hp : ∀ k, k < K →
      (Nresp m K gmm buf (voxCode Nf P mf vf i)
        (get_vox Nf P (shift mf i) (shift vf i) s.scr.mx s.scr.vx).x
        (get_vox Nf P (shift mf i) (shift vf i) s.scr.mx s.scr.vx).v
        (get_priors Nm (shift lp im) K lkp s.scr.p).2).2 k
      = (voxNresp m Nf P K mf vf gmm buf Nm lkp lp i im).2 k :=
    fun k hk => by
      have e := (vox_nresp_clean m Nf P K mf vf gmm buf Nm lkp lp hg i im s.scr hc.2
        (by omega)).2 k hk
      rw [hcode] at e
      exact e
  have hG : (forUp K (fun k (gh : α × α) =>
        (gh.1 + buf ((gmm (voxCode Nf P mf vf i)).nu + k)
            * (Nresp m K gmm buf (voxCode Nf P mf vf i)
                (get_vox Nf P (shift mf i) (shift vf i) s.scr.mx s.scr.vx).x
                (get_vox Nf P (shift mf i) (shift vf i) s.scr.mx s.scr.vx).v
                (get_priors Nm (shift lp im) K lkp s.scr.p).2).2 k
            * forUp (gmm (voxCode Nf P mf vf i)).P (fun j gk => gk +
                ((get_vox Nf P (shift mf i) (shift vf i) s.scr.mx s.scr.vx).x j
                  - buf ((gmm (voxCode Nf P mf vf i)).mu + (j + (gmm (voxCode Nf P mf vf i)).P * k)))
                * buf ((gmm (voxCode Nf P mf vf i)).W + (j + (gmm (voxCode Nf P mf vf i)).P *
                    (index (voxCode Nf P mf vf i) + (gmm (voxCode Nf P mf vf i)).P * k)))) 0,
         gh.2 + buf ((gmm (voxCode Nf P mf vf i)).nu + k)
            * (Nresp m K gmm buf (voxCode Nf P mf vf i)
                (get_vox Nf P (shift mf i) (shift vf i) s.scr.mx s.scr.vx).x
                (get_vox Nf P (shift mf i) (shift vf i) s.scr.mx s.scr.vx).v
                (get_priors Nm (shift lp im) K lkp s.scr.p).2).2 k
            * buf ((gmm (voxCode Nf P mf vf i)).W + (index (voxCode Nf P mf vf i)
                + (gmm (voxCode Nf P mf vf i)).P *
                  (index (voxCode Nf P mf vf i) + (gmm (voxCode Nf P mf vf i)).P * k))))) (0, 0))
      = (INU_g K gmm buf (voxCode Nf P mf vf i) (index (voxCode Nf P mf vf i))
            (voxX Nf P mf vf i) (voxNresp m Nf P K mf vf gmm buf Nm lkp lp i im).2,
         INU_h K gmm buf (voxCode Nf P mf vf i) (index (voxCode Nf P mf vf i))
            (voxNresp m Nf P K mf vf gmm buf Nm lkp lp i im).2) := by
    rw [forUp_sum_pair]
    unfold INU_g INU_h
    refine Prod.ext ?_ ?_
    · dsimp only
      refine Finset.sum_congr rfl (fun k hk => ?_)
      rw [hp k (Finset.mem_range.mp hk), forUp_sum, zero_add]
      rw [Finset.sum_congr rfl (fun j hj => by
        rw [(hx j (by rw [← hg _ hlt]; exact Finset.mem_range.mp hj)).1])]
    · dsimp only
      refine Finset.sum_congr rfl (fun k hk => ?_)
      rw [hp k (Finset.mem_range.mp hk)]
  have h1 : (get_vox Nf P (shift mf i) (shift vf i) s.scr.mx s.scr.vx).code ≠ 0 := by
    have := hc.1
    omega
  unfold INUgrads_voxel
  simp only []
  rw [if_pos h1, if_pos hc.2, if_pos (by rw [hcode]; exact hidx)]
  simp only [hcode]
  rw [hG]
  simp only [Function.update_same, (hx _ hnc).1, (hx _ hnc).2]
  unfold voxGrad voxHess
  refine ⟨rfl, ?_⟩
  split_ifs <;> rfl

theorem extent_le (nf nm skip : Nat → Nat) (d : Nat) : extent nf nm skip d ≤ nf d := by
  unfold extent
  simp only []
  split_ifs <;> omega

/-- Two voxels of the volume with the same data index have the same coordinates. -/
theorem lattice_inj (n0 n1 i0 i1 i2 j0 j1 j2 : Nat) (hi0 : i0 < n0) (hi1 : i1 < n1)
    (hj0 : j0 < n0) (hj1 : j1 < n1)
    (h : i0 + n0 * (i1 + n1 * i2) = j0 + n0 * (j1 + n1 * j2)) :
    i0 = j0 ∧ i1 = j1 ∧ i2 = j2 := by
  obtain ⟨h0, h12⟩ := radix_inj n0 i0 _ j0 _ hi0 hj0 h
  obtain ⟨h1, h2⟩ := radix_inj n1 i1 _ j1 _ hi1 hj1 h12
  exact ⟨h0, h1, h2⟩

/-- The voxel loops of `INUgrads` leave alone every cell of `g1`, `g2` that is not the
data index of a visited contributing voxel whose pattern holds the selected channel. -/
theorem INUgrads_frame (m : Libm α) (nf : Nat → Nat) (mf : Nat → FVal α) (vf : Nat → α) (K : Nat)
    (gmm : Nat → GMMtype) (buf : Nat → α) (nm skip lkp : Nat → Nat) (lp : Nat → FVal α)
    (index : Nat → Nat) (scr : Scratch α) (g1 g2 : Nat → FVal α) (idx : Nat)
    (h : ∀ i2, i2 < extent nf nm skip 2 → ∀ i1, i1 < extent nf nm skip 1 →
      ∀ i0, i0 < extent nf nm skip 0 → i0 + nf 0 * (i1 + nf 1 * i2) = idx →
      ¬ (contributes (nf 0 * nf 1 * nf 2) (nf 3) K mf vf (nm 0 * nm 1 * nm 2) lkp lp
          (i0 + nf 0 * (i1 + nf 1 * i2))
          (i0 * skip 0 + nm 0 * (i1 * skip 1 + nm 1 * i2 * skip 2)) ∧
        index (voxCode (nf 0 * nf 1 * nf 2) (nf 3) mf vf (i0 + nf 0 * (i1 + nf 1 * i2)))
          ≠ Undefined)) :
    (INUgrads m nf mf vf K gmm buf nm skip lkp lp index scr g1 g2).2.1 idx = g1 idx ∧
    (INUgrads m nf mf vf K gmm buf nm skip lkp lp index scr g1 g2).2.2 idx = g2 idx := by
  unfold INUgrads
  simp only []
  by_cases hb : boundFails (nf 3) K
  · rw [if_pos hb]
    exact ⟨rfl, rfl⟩
  · rw [if_neg hb]
    have key := forUp_keep_lt (fun s : GState α => (s.g1 idx, s.g2 idx))
      (fun i2 s => forUp (extent nf nm skip 1) (fun i1 s =>
        forUp (extent nf nm skip 0) (fun i0 s =>
          INUgrads_voxel m (nf 0 * nf 1 * nf 2) (nf 3) K mf vf gmm buf (nm 0 * nm 1 * nm 2)
            lkp lp index (i0 + nf 0 * (i1 + nf 1 * i2))
            (i0 * skip 0 + nm 0 * (i1 * skip 1 + nm 1 * i2 * skip 2)) s) s) s)
      (extent nf nm skip 2) (fun i2 hi2 s =>
        forUp_keep_lt (fun s : GState α => (s.g1 idx, s.g2 idx)) _ _ (fun i1 hi1 s =>
          forUp_keep_lt (fun s : GState α => (s.g1 idx, s.g2 idx)) _ _ (fun i0 hi0 s => by
            by_cases e : i0 + nf 0 * (i1 + nf 1 * i2) = idx
            · have := INUgrads_voxel_skip m (nf 0 * nf 1 * nf 2) (nf 3) K mf vf gmm buf
                (nm 0 * nm 1 * nm 2) lkp lp index (i0 + nf 0 * (i1 + nf 1 * i2))
                (i0 * skip 0 + nm 0 * (i1 * skip 1 + nm 1 * i2 * skip 2)) s
                (h i2 hi2 i1 hi1 i0 hi0 e)
              dsimp only
              rw [this.1, this.2]
            · have := INUgrads_voxel_frame m (nf 0 * nf 1 * nf 2) (nf 3) K mf vf gmm buf
                (nm 0 * nm 1 * nm 2) lkp lp index (i0 + nf 0 * (i1 + nf 1 * i2))
                (i0 * skip 0 + nm 0 * (i1 * skip 1 + nm 1 * i2 * skip 2)) s idx
                (fun e' => e e'.symm)
              dsimp only
              rw [this.1, this.2]) s) s)
      (⟨0, scr, g1, g2⟩ : GState α)
    exact ⟨congrArg Prod.fst key, congrArg Prod.snd key⟩

/-- The cells `g1[i]`, `g2[i]` of a visited contributing voxel whose pattern holds the
selected channel hold the gradient and Hessian of that voxel after `INUgrads`. -/
theorem INUgrads_hit (m : Libm α) (nf : Nat → Nat) (mf : Nat → FVal α) (vf : Nat → α) (K : Nat)
    (gmm : Nat → GMMtype) (buf : Nat → α) (nm skip lkp : Nat → Nat) (lp : Nat → FVal α)
    (index : Nat → Nat) (scr : Scratch α) (g1 g2 : Nat → FVal α)
    (hb : ¬ boundFails (nf 3) K)
    (hg : ∀ code, code < 2 ^ nf 3 → (gmm code).P = bitcount (nf 3) code)
    (i0 i1 i2 : Nat) (hi0 : i0 < extent nf nm skip 0) (hi1 : i1 < extent nf nm skip 1)
    (hi2 : i2 < extent nf nm skip 2)
    (hcon : contributes (nf 0 * nf 1 * nf 2) (nf 3) K mf vf (nm 0 * nm 1 * nm 2) lkp lp
      (i0 + nf 0 * (i1 + nf 1 * i2)) (i0 * skip 0 + nm 0 * (i1 * skip 1 + nm 1 * i2 * skip 2)))
    (hidx : index (voxCode (nf 0 * nf 1 * nf 2) (nf 3) mf vf (i0 + nf 0 * (i1 + nf 1 * i2)))
      ≠ Undefined)
    (hnc : index (voxCode (nf 0 * nf 1 * nf 2) (nf 3) mf vf (i0 + nf 0 * (i1 + nf 1 * i2)))
      < bitcount (nf 3) (voxCode (nf 0 * nf 1 * nf 2) (nf 3) mf vf (i0 + nf 0 * (i1 + nf 1 * i2)))) :
    (INUgrads m nf mf vf K gmm buf nm skip lkp lp index scr g1 g2).2.1
        (i0 + nf 0 * (i1 + nf 1 * i2))
      = FVal.fin (voxGrad m (nf 0 * nf 1 * nf 2) (nf 3) K mf vf gmm buf (nm 0 * nm 1 * nm 2)
          lkp lp index (i0 + nf 0 * (i1 + nf 1 * i2))
          (i0 * skip 0 + nm 0 * (i1 * skip 1 + nm 1 * i2 * skip 2))) ∧
    (INUgrads m nf mf vf K gmm buf nm skip lkp lp index scr g1 g2).2.2
        (i0 + nf 0 * (i1 + nf 1 * i2))
      = FVal.fin (if voxGrad m (nf 0 * nf 1 * nf 2) (nf 3) K mf vf gmm buf (nm 0 * nm 1 * nm 2)
            lkp lp index (i0 + nf 0 * (i1 + nf 1 * i2))
            (i0 * skip 0 + nm 0 * (i1 * skip 1 + nm 1 * i2 * skip 2)) > 0 then
          voxHess m (nf 0 * nf 1 * nf 2) (nf 3) K mf vf gmm buf (nm 0 * nm 1 * nm 2)
            lkp lp index (i0 + nf 0 * (i1 + nf 1 * i2))
            (i0 * skip 0 + nm 0 * (i1 * skip 1 + nm 1 * i2 * skip 2))
          + voxGrad m (nf 0 * nf 1 * nf 2) (nf 3) K mf vf gmm buf (nm 0 * nm 1 * nm 2)
            lkp lp index (i0 + nf 0 * (i1 + nf 1 * i2))
            (i0 * skip 0 + nm 0 * (i1 * skip 1 + nm 1 * i2 * skip 2))
        else
          voxHess m (nf 0 * nf 1 * nf 2) (nf 3) K mf vf gmm buf (nm 0 * nm 1 * nm 2)
            lkp lp index (i0 + nf 0 * (i1 + nf 1 * i2))
            (i0 * skip 0 + nm 0 * (i1 * skip 1 + nm 1 * i2 * skip 2))) := by
  have hn0 := extent_le nf nm skip 0
  have hn1 := extent_le nf nm skip 1
  have hfr : ∀ j0 j1 j2, j0 < extent nf nm skip 0 → j1 < extent nf nm skip 1 →
      ¬ (j0 = i0 ∧ j1 = i1 ∧ j2 = i2) → ∀ s : GState α,
      (fun s : GState α => (s.g1 (i0 + nf 0 * (i1 + nf 1 * i2)),
          s.g2 (i0 + nf 0 * (i1 + nf 1 * i2))))
        (INUgrads_voxel m (nf 0 * nf 1 * nf 2) (nf 3) K mf vf gmm buf (nm 0 * nm 1 * nm 2)
          lkp lp index (j0 + nf 0 * (j1 + nf 1 * j2))
          (j0 * skip 0 + nm 0 * (j1 * skip 1 + nm 1 * j2 * skip 2)) s)
      = (s.g1 (i0 + nf 0 * (i1 + nf 1 * i2)), s.g2 (i0 + nf 0 * (i1 + nf 1 * i2))) := by
    intro j0 j1 j2 hj0 hj1 hne s
    have := INUgrads_voxel_frame m (nf 0 * nf 1 * nf 2) (nf 3) K mf vf gmm buf
      (nm 0 * nm 1 * nm 2) lkp lp index (j0 + nf 0 * (j1 + nf 1 * j2))
      (j0 * skip 0 + nm 0 * (j1 * skip 1 + nm 1 * j2 * skip 2)) s (i0 + nf 0 * (i1 + nf 1 * i2))
      (fun e => hne (by
        have := lattice_inj (nf 0) (nf 1) i0 i1 i2 j0 j1 j2 (by omega) (by omega) (by omega)
          (by omega) e
        exact ⟨this.1.symm, this.2.1.symm, this.2.2.symm⟩))
    dsimp only
    rw [this.1, this.2]
  unfold INUgrads
  simp only []
  rw [if_neg hb]
  have key : (fun s : GState α => (s.g1 (i0 + nf 0 * (i1 + nf 1 * i2)),
        s.g2 (i0 + nf 0 * (i1 + nf 1 * i2))))
      (forUp (extent nf nm skip 2) (fun i2 s => forUp (extent nf nm skip 1) (fun i1 s =>
        forUp (extent nf nm skip 0) (fun i0 s =>
          INUgrads_voxel m (nf 0 * nf 1 * nf 2) (nf 3) K mf vf gmm buf (nm 0 * nm 1 * nm 2)
            lkp lp index (i0 + nf 0 * (i1 + nf 1 * i2))
            (i0 * skip 0 + nm 0 * (i1 * skip 1 + nm 1 * i2 * skip 2)) s) s) s)
        (⟨0, scr, g1, g2⟩ : GState α))
      = (FVal.fin (voxGrad m (nf 0 * nf 1 * nf 2) (nf 3) K mf vf gmm buf (nm 0 * nm 1 * nm 2)
          lkp lp index (i0 + nf 0 * (i1 + nf 1 * i2))
          (i0 * skip 0 + nm 0 * (i1 * skip 1 + nm 1 * i2 * skip 2))),
       FVal.fin (if voxGrad m (nf 0 * nf 1 * nf 2) (nf 3) K mf vf gmm buf (nm 0 * nm 1 * nm 2)
            lkp lp index (i0 + nf 0 * (i1 + nf 1 * i2))
            (i0 * skip 0 + nm 0 * (i1 * skip 1 + nm 1 * i2 * skip 2)) > 0 then
          voxHess m (nf 0 * nf 1 * nf 2) (nf 3) K mf vf gmm buf (nm 0 * nm 1 * nm 2)
            lkp lp index (i0 + nf 0 * (i1 + nf 1 * i2))
            (i0 * skip 0 + nm 0 * (i1 * skip 1 + nm 1 * i2 * skip 2))
          + voxGrad m (nf 0 * nf 1 * nf 2) (nf 3) K mf vf gmm buf (nm 0 * nm 1 * nm 2)
            lkp lp index (i0 + nf 0 * (i1 + nf 1 * i2))
            (i0 * skip 0 + nm 0 * (i1 * skip 1 + nm 1 * i2 * skip 2))
        else
          voxHess m (nf 0 * nf 1 * nf 2) (nf 3) K mf vf gmm buf (nm 0 * nm 1 * nm 2)
            lkp lp index (i0 + nf 0 * (i1 + nf 1 * i2))
            (i0 * skip 0 + nm 0 * (i1 * skip 1 + nm 1 * i2 * skip 2)))) := by
    refine forUp_set_once (fun s : GState α => (s.g1 (i0 + nf 0 * (i1 + nf 1 * i2)),
        s.g2 (i0 + nf 0 * (i1 + nf 1 * i2)))) _ _ (extent nf nm skip 2) i2 hi2 (fun s => ?_)
      (fun j2 hj2 hne s => ?_) _
    · refine forUp_set_once (fun s : GState α => (s.g1 (i0 + nf 0 * (i1 + nf 1 * i2)),
        s.g2 (i0 + nf 0 * (i1 + nf 1 * i2)))) _ _ (extent nf nm skip 1) i1 hi1 (fun s => ?_)
        (fun j1 hj1 hne s => ?_) _
      · refine forUp_set_once (fun s : GState α => (s.g1 (i0 + nf 0 * (i1 + nf 1 * i2)),
        s.g2 (i0 + nf 0 * (i1 + nf 1 * i2)))) _ _ (extent nf nm skip 0) i0 hi0 (fun s => ?_)
          (fun j0 hj0 hne s => ?_) _
        · have := INUgrads_voxel_hit m (nf 0 * nf 1 * nf 2) (nf 3) K mf vf gmm buf
            (nm 0 * nm 1 * nm 2) lkp lp index (i0 + nf 0 * (i1 + nf 1 * i2))
            (i0 * skip 0 + nm 0 * (i1 * skip 1 + nm 1 * i2 * skip 2)) s hg hcon hidx hnc
          exact Prod.ext this.1 this.2
        · exact hfr j0 i1 i2 hj0 hi1 (fun e => hne e.1) s
      · exact forUp_keep_lt (fun s : GState α => (s.g1 (i0 + nf 0 * (i1 + nf 1 * i2)),
        s.g2 (i0 + nf 0 * (i1 + nf 1 * i2)))) _ _
          (fun j0 hj0 s => hfr j0 j1 i2 hj0 hj1 (fun e => hne e.2.1) s) s
    · refine forUp_keep_lt (fun s : GState α => (s.g1 (i0 + nf 0 * (i1 + nf 1 * i2)),
        s.g2 (i0 + nf 0 * (i1 + nf 1 * i2)))) _ _ (fun j1 hj1 s => ?_) s
      exact forUp_keep_lt (fun s : GState α => (s.g1 (i0 + nf 0 * (i1 + nf 1 * i2)),
        s.g2 (i0 + nf 0 * (i1 + nf 1 * i2)))) _ _
          (fun j0 hj0 s => hfr j0 j1 j2 hj0 hj1 (fun e => hne e.2.2) s) s
  exact ⟨congrArg Prod.fst key, congrArg Prod.snd key⟩

theorem and_shift_ne_zero (code i : Nat) :
    (code &&& (1 <<< i)) ≠ 0 ↔ code.testBit i = true := by
  rw [Nat.one_shiftLeft, Nat.and_two_pow]
  cases h : code.testBit i
  · simp
  · simp

theorem shift_and_ne_zero (code i : Nat) :
    ((1 <<< i) &&& code) ≠ 0 ↔ code.testBit i = true := by
  rw [Nat.land_comm]
  exact and_shift_ne_zero code i

/-- The counting loop of `make_index` counts the set bits of `code` below `ic`. -/
theorem make_index_count (code ic : Nat) :
    forUp ic (fun i i1 => if (code &&& (1 <<< i)) ≠ 0 then i1 + 1 else i1) 0
      = bitcount ic code := by
  induction ic with
  | zero => rfl
  | succ n ih =>
    rw [forUp_succ, ih, bitcount_succ]
    by_cases h : code.testBit n = true
    · rw [if_pos ((and_shift_ne_zero code n).mpr h), h]; rfl
    · rw [if_neg (fun e => h ((and_shift_ne_zero code n).mp e))]
      simp only [Bool.not_eq_true] at h
      rw [h]; rfl

/-- The array left by `make_index`: for a pattern `code < 2^P`, the number of channels of
`code` below `ic` when `code` holds channel `ic`, and `Undefined` otherwise. -/
theorem make_index_eq (P ic : Nat) (index : Nat → Nat) (code : Nat) :
    make_index P ic index code =
      if code < 2 ^ P then
        (if code.testBit ic = true then bitcount ic code else Undefined)
      else index code := by
  unfold make_index
  rw [forUp_congr (1 <<< P) _ (fun code index => Function.update index code
      ((fun c (_ : Nat) => if c.testBit ic = true then bitcount ic c else Undefined)
        code (index code))) (fun c _ s => ?_),
    forUp_map_update (1 <<< P)
      (fun c (_ : Nat) => if c.testBit ic = true then bitcount ic c else Undefined) index,
    Nat.one_shiftLeft]
  by_cases h : c.testBit ic = true
  · rw [if_pos ((and_shift_ne_zero c ic).mpr h)]
    simp only [h, if_true, make_index_count]
  · rw [if_neg (fun e => h ((and_shift_ne_zero c ic).mp e))]
    simp only [h, if_false]
    rfl

theorem bitcount_mono (n n' c : Nat) (h : n ≤ n') : bitcount n c ≤ bitcount n' c := by
  induction n' with
  | zero =>
    have : n = 0 := by omega
    rw [this]
  | succ k ih =>
    by_cases e : n = k + 1
    · rw [e]
    · have := ih (by omega)
      rw [bitcount_succ]
      omega

/-- The local position of channel `ic` in a pattern that holds it lies below the dimension
of the pattern. -/
theorem bitcount_lt_of_testBit (P ic c : Nat) (hic : ic < P) (hb : c.testBit ic = true) :
    bitcount ic c < bitcount P c := by
  have h1 := bitcount_succ ic c
  rw [hb] at h1
  have h2 := bitcount_mono (ic + 1) P c (by omega)
  have : (true : Bool).toNat = 1 := rfl
  omega

theorem undefined_gt (n : Nat) (h : n < 50) : n ≠ Undefined := by
  unfold Undefined
  omega

theorem contributes_of_testBit (Nf P K : Nat) (mf : Nat → FVal α) (vf : Nat → α) (Nm : Nat)
    (lkp : Nat → Nat) (lp : Nat → FVal α) (i im ic : Nat)
    (hpr : priorOk K Nm lkp lp im = true) (hbit : (voxCode Nf P mf vf i).testBit ic = true) :
    contributes Nf P K mf vf Nm lkp lp i im := by
  refine ⟨Nat.pos_of_ne_zero (fun e => ?_), hpr⟩
  rw [e, Nat.zero_testBit] at hbit
  exact Bool.noConfusion hbit

/-- The pattern of a voxel does not hold channel `ic` when `ic` is not a channel of the
volume or the mean of channel `ic` is not finite at the voxel. -/
theorem voxCode_testBit_false (Nf P : Nat) (mf : Nat → FVal α) (vf : Nat → α) (i ic : Nat)
    (h : P ≤ ic ∨ (mf (i + ic * Nf)).isfinite = false) :
    (voxCode Nf P mf vf i).testBit ic = false := by
  by_cases hic : ic < P
  · rcases h with h | h
    · omega
    · have := get_vox_testBit Nf P (shift mf i) (shift vf i) (fun _ => (0 : α)) (fun _ => 0) ic hic
      unfold voxCode
      rw [this]
      exact h
  · refine Nat.testBit_eq_false_of_lt (lt_of_lt_of_le (voxCode_lt Nf P mf vf i) ?_)
    exact Nat.pow_le_pow_right (by decide) (by omega)

/-- Function `call_INUgrads` leaves alone every cell of `g1`, `g2` that is not the data
index of a visited voxel with a finite prior whose pattern holds channel `ic`. -/
theorem call_INUgrads_frame (m : Libm α) (ok1 ok2 ok3 : Bool) (nf : Nat → Nat)
    (mf : Nat → FVal α) (vf : Nat → α) (K : Nat) (mu b W nu gam : Nat → α)
    (nm skip lkp : Nat → Nat) (lp : Nat → FVal α) (ic : Nat) (scr : Scratch α)
    (g1 g2 : Nat → FVal α) (idx : Nat)
    (h : ∀ i2, i2 < extent nf nm skip 2 → ∀ i1, i1 < extent nf nm skip 1 →
      ∀ i0, i0 < extent nf nm skip 0 → i0 + nf 0 * (i1 + nf 1 * i2) = idx →
      ¬ (priorOk K (nm 0 * nm 1 * nm 2) lkp lp
          (i0 * skip 0 + nm 0 * (i1 * skip 1 + nm 1 * i2 * skip 2)) = true ∧
        (voxCode (nf 0 * nf 1 * nf 2) (nf 3) mf vf (i0 + nf 0 * (i1 + nf 1 * i2))).testBit ic
          = true)) :
    (call_INUgrads m ok1 ok2 ok3 nf mf vf K mu b W nu gam nm skip lkp lp ic scr g1 g2).2.1 idx
      = g1 idx ∧
    (call_INUgrads m ok1 ok2 ok3 nf mf vf K mu b W nu gam nm skip lkp lp ic scr g1 g2).2.2 idx
      = g2 idx := by
  unfold call_INUgrads
  simp only []
  by_cases hb : boundFails (nf 3) K
  · rw [if_pos hb]; exact ⟨rfl, rfl⟩
  · rw [if_neg hb]
    cases hs : sub_gmm m ok1 ok2 (nf 3) K mu b W nu gam with
    | none => exact ⟨rfl, rfl⟩
    | some gb =>
      dsimp only
      cases ok3 with
      | false => exact ⟨rfl, rfl⟩
      | true =>
        simp only [if_true]
        refine INUgrads_frame m nf mf vf K gb.1 gb.2 nm skip lkp lp _ scr g1 g2 idx
          (fun i2 hi2 i1 hi1 i0 hi0 e hc => h i2 hi2 i1 hi1 i0 hi0 e ⟨hc.1.2, ?_⟩)
        have hne := hc.2
        rw [make_index_eq, if_pos (voxCode_lt _ _ _ _ _)] at hne
        by_contra hbit
        rw [if_neg hbit] at hne
        exact hne rfl

end Lemmas5

section Lemmas6

set_option linter.unusedSectionVars false

variable {α : Type} [LinearOrderedField α] [FloorRing α]

/-! ## Passes over a part of the voxels -/

theorem forUp_acc_lt {σ : Type} (π : σ → α) (body : Nat → σ → σ) (g : Nat → α) (n : Nat)
    (h : ∀ i, i < n → ∀ s, π (body i s) = π s + g i) (s : σ) :
    π (forUp n body s) = π s + Finset.sum (Finset.range n) g := by
  induction n with
  | zero => simp [forUp_zero]
  | succ n ih =>
    rw [forUp_succ, h n (by omega), ih (fun i hi => h i (by omega)), Finset.sum_range_succ,
      add_assoc]

end Lemmas6

section Lemmas7

set_option linter.unusedSectionVars false

variable {α : Type} [LinearOrderedField α] [FloorRing α]

/-! ## The table of `fastexp` -/

theorem fastexp_index_range (x : α) : -128 ≤ fastexp_index x ∧ fastexp_index x ≤ 127 := by
  unfold fastexp_index
  simp only []
  split_ifs <;> omega

theorem fastexp_eq_index (m : Libm α) (x : α) :
    fastexp m x = m.exp (fastexp_index x : α)
      * (1 + 2 * (x - (fastexp_index x : α))
        / (2 - (x - (fastexp_index x : α))
          + (x - (fastexp_index x : α)) * (x - (fastexp_index x : α)) / 6)) := rfl

/-- Every entry of a reachable table is zero or the exponential of its index, and the
entries outside `[-128, 127]` are never written. -/
theorem table_inv (m : Libm α) (tbl : Int → α) (h : TableReachable m tbl) :
    (∀ i, tbl i = 0 ∨ tbl i = m.exp (i : α)) ∧ (∀ i, (i < -128 ∨ 127 < i) → tbl i = 0) := by
  induction h with
  | init => exact ⟨fun _ => Or.inl rfl, fun _ _ => rfl⟩
  | call tbl x _ ih =>
    unfold fastexp_memo
    simp only []
    by_cases hz : tbl (fastexp_index x) = 0
    · rw [if_pos hz]
      refine ⟨fun i => ?_, fun i hi => ?_⟩
      · by_cases e : i = fastexp_index x
        · rw [e, Function.update_same]; exact Or.inr rfl
        · rw [Function.update_noteq e]; exact ih.1 i
      · have hr := fastexp_index_range x
        rw [Function.update_noteq (by omega)]
        exact ih.2 i hi
    · rw [if_neg hz]
      exact ih

/-- On a table whose entries are zero or the exponential of their index, `fastexp`
returns the value computed from `exp` itself. -/
theorem fastexp_memo_val (m : Libm α) (tbl : Int → α)
    (h : ∀ i, tbl i = 0 ∨ tbl i = m.exp (i : α)) (x : α) :
    (fastexp_memo m tbl x).1 = fastexp m x := by
  rw [fastexp_eq_index]
  unfold fastexp_memo
  simp only []
  by_cases hz : tbl (fastexp_index x) = 0
  · rw [if_pos hz, Function.update_same]
  · rw [if_neg hz]
    rcases h (fastexp_index x) with h0 | h1
    · exact absurd h0 hz
    · rw [h1]

theorem memo_loop (m : Libm α) (K : Nat) (q : Nat → α) (mx : α) (s0 : α) (p : Nat → α)
    (tbl : Int → α) (h : TableReachable m tbl) :
    (forUp K (fun k (st : (α × (Nat → α)) × (Int → α)) =>
      ((st.1.1 + (fastexp_memo m st.2 (q k - mx)).1,
        Function.update st.1.2 k (fastexp_memo m st.2 (q k - mx)).1),
       (fastexp_memo m st.2 (q k - mx)).2)) ((s0, p), tbl)).1
      = forUp K (fun k (sp : α × (Nat → α)) =>
          (sp.1 + fastexp m (q k - mx), Function.update sp.2 k (fastexp m (q k - mx)))) (s0, p) ∧
    TableReachable m (forUp K (fun k (st : (α × (Nat → α)) × (Int → α)) =>
      ((st.1.1 + (fastexp_memo m st.2 (q k - mx)).1,
        Function.update st.1.2 k (fastexp_memo m st.2 (q k - mx)).1),
       (fastexp_memo m st.2 (q k - mx)).2)) ((s0, p), tbl)).2 := by
  induction K with
  | zero => exact ⟨rfl, h⟩
  | succ K ih =>
    rw [forUp_succ, forUp_succ]
    dsimp only
    rw [fastexp_memo_val m _ (table_inv m _ ih.2).1, ih.1]
    exact ⟨rfl, TableReachable.call _ _ ih.2⟩

theorem softmax1_memo_eq (m : Libm α) (tbl : Int → α) (h : TableReachable m tbl) (K : Nat)
    (q p : Nat → α) :
    (softmax1_memo m tbl K q p).1 = softmax1 m K q p ∧
    TableReachable m (softmax1_memo m tbl K q p).2 := by
  have hl := memo_loop m K q (softmax1_max K q) 0 p tbl h
  unfold softmax1_memo softmax1
  dsimp only
  rw [hl.1]
  exact ⟨rfl, hl.2⟩

theorem softmax_memo_eq (m : Libm α) (tbl : Int → α) (h : TableReachable m tbl) (K : Nat)
    (q p : Nat → α) :
    (softmax_memo m tbl K q p).1 = softmax m K q p ∧
    TableReachable m (softmax_memo m tbl K q p).2 := by
  have h0 := TableReachable.call tbl
    (-(forUp K (fun k mx => if q k > mx then q k else mx) 0)) h
  have e0 := fastexp_memo_val m tbl (table_inv m _ h).1
    (-(forUp K (fun k mx => if q k > mx then q k else mx) 0))
  have hl := memo_loop m K q (forUp K (fun k mx => if q k > mx then q k else mx) 0)
    (fastexp m (-(forUp K (fun k mx => if q k > mx then q k else mx) 0))) p _ h0
  unfold softmax_memo softmax
  dsimp only
  rw [e0, hl.1]
  exact ⟨rfl, hl.2⟩

end Lemmas7

section Lemmas8

set_option linter.unusedSectionVars false

variable {α : Type} [LinearOrderedField α] [FloorRing α]

/-! ## Cholesky factorisation, substitution and inversion -/

theorem forUp_inv {σ : Type} (Inv : Nat → σ → Prop) (body : Nat → σ → σ) (n : Nat) (s : σ)
    (h0 : Inv 0 s) (hstep : ∀ i, i < n → ∀ s, Inv i s → Inv (i + 1) (body i s)) :
    Inv n (forUp n body s) := by
  induction n with
  | zero => exact h0
  | succ n ih =>
    rw [forUp_succ]
    exact hstep n (by omega) _ (ih (fun i hi s hs => hstep i (by omega) s hs))

theorem forFrom_inv {σ : Type} (Inv : Nat → σ → Prop) (body : Nat → σ → σ) (lo hi : Nat)
    (hle : lo ≤ hi) (s : σ) (h0 : Inv lo s)
    (hstep : ∀ i, lo ≤ i → i < hi → ∀ s, Inv i s → Inv (i + 1) (body i s)) :
    Inv hi (forFrom lo hi body s) := by
  induction hi with
  | zero =>
    have : lo = 0 := by omega
    subst this
    rw [forFrom_self]; exact h0
  | succ n ih =>
    by_cases e : lo = n + 1
    · subst e
      rw [forFrom_self]; exact h0
    · rw [forFrom_succ lo n (by omega)]
      exact hstep n (by omega) (by omega) _
        (ih (by omega) (fun i h1 h2 s hs => hstep i h1 (by omega) s hs))

theorem forDown_succ {σ : Type} (n : Nat) (body : Nat → σ → σ) (s : σ) :
    forDown (n + 1) body s = forDown n body (body n s) := by
  unfold forDown
  rw [List.range_succ, List.reverse_append]
  rfl

theorem forDown_zero {σ : Type} (body : Nat → σ → σ) (s : σ) : forDown 0 body s = s := rfl

/-- The reduction `for (k = i-1; k >= 0; k--) sm -= f k`. -/
theorem forDown_sub (n : Nat) (f : Nat → α) (s : α) :
    forDown n (fun k sm => sm - f k) s = s - Finset.sum (Finset.range n) f := by
  induction n generalizing s with
  | zero => simp [forDown_zero]
  | succ n ih =>
    rw [forDown_succ, ih, Finset.sum_range_succ]
    ring

/-- The reduction `for (k = lo; k < hi; k++) sm -= f k`. -/
theorem forFrom_sub (lo hi : Nat) (f : Nat → α) (s : α) :
    forFrom lo hi (fun k sm => sm - f k) s = s - Finset.sum (Finset.Ico lo hi) f := by
  have := forFrom_acc (fun x : α => x) (fun k sm => sm - f k) (fun k => - f k)
    (fun i s => by ring) lo hi s
  rw [this, Finset.sum_neg_distrib]
  ring

theorem choldc_floor_eq (m : Libm α) (n : Nat) (a p : Nat → α) :
    choldc m n a p =
      forUp n (fun i ap =>
        forFrom i n (fun j (ap : (Nat → α) × (Nat → α)) =>
          if i = j then
            (ap.1, Function.update ap.2 i (m.sqrt
              (if forDown i (fun k sm => sm - ap.1 (i * n + k) * ap.1 (j * n + k))
                  (ap.1 (i * n + j)) ≤ choldc_floor n a then choldc_floor n a
                else forDown i (fun k sm => sm - ap.1 (i * n + k) * ap.1 (j * n + k))
                  (ap.1 (i * n + j)))))
          else
            (Function.update ap.1 (j * n + i)
              (forDown i (fun k sm => sm - ap.1 (i * n + k) * ap.1 (j * n + k))
                (ap.1 (i * n + j)) / ap.2 i), ap.2)) ap) (a, p) := rfl

/-- For a lower-triangular `L`, the entry `(i, j)`, `i ≤ j`, of `L Lᵀ` stops at column `i`. -/
theorem tri_sum_split (n : Nat) (L : Nat → Nat → α)
    (hLT : ∀ r c, r < c → c < n → L r c = 0) (i j : Nat) (hi : i < n) :
    Finset.sum (Finset.range n) (fun k => L i k * L j k)
      = Finset.sum (Finset.range i) (fun k => L i k * L j k) + L i i * L j i := by
  rw [← Finset.sum_range_add_sum_Ico _ (show i + 1 ≤ n by omega), Finset.sum_range_succ]
  rw [Finset.sum_eq_zero (s := Finset.Ico (i + 1) n), add_zero]
  intro k hk
  have := Finset.mem_Ico.mp hk
  rw [hLT i k (by omega) (by omega), zero_mul]

theorem sqrt_sq_of_ok (m : Libm α) (hs : m.SqrtOk) (x : α) (hx : 0 < x) :
    m.sqrt (x * x) = x := hs x hx

/-- The cell `(r, c)` of a square array determines `r` and `c`. -/
theorem rc_inj (n r c r' c' : Nat) (hc : c < n) (hc' : c' < n)
    (h : r * n + c = r' * n + c') : r = r' ∧ c = c' :=
  block_inj n r c r' c' hc hc' h

theorem rc_lt (n r c : Nat) (hr : r < n) (hc : c < n) : r * n + c < n * n := by
  have h1 : (r + 1) * n ≤ n * n := Nat.mul_le_mul_right n hr
  rw [Nat.add_mul, Nat.one_mul] at h1
  omega

/-- Function `choldc` on an array with an unfloored Cholesky factor `L`: the strict lower
triangle of the array holds `L`, the rest of the array is untouched, and `p` holds the
diagonal of `L`. -/
theorem choldc_spec (m : Libm α) (hs : m.SqrtOk) (n : Nat) (a p : Nat → α) (L : Nat → Nat → α)
    (hL : CholFactor n a L) :
    (∀ r c, r < n → c < n →
      (choldc m n a p).1 (r * n + c) = if c < r then L r c else a (r * n + c)) ∧
    (∀ idx, n * n ≤ idx → (choldc m n a p).1 idx = a idx) ∧
    (∀ c, (choldc m n a p).2 c = if c < n then L c c else p c) := by
  obtain ⟨hLT, hpos, hA, hfl⟩ := hL
  rw [choldc_floor_eq]
  have key := forUp_inv (fun i (ap : (Nat → α) × (Nat → α)) =>
      (∀ r c, r < n → c < n →
        ap.1 (r * n + c) = if c < i ∧ c < r then L r c else a (r * n + c)) ∧
      (∀ idx, n * n ≤ idx → ap.1 idx = a idx) ∧
      (∀ c, ap.2 c = if c < i then L c c else p c))
    (fun i ap =>
        forFrom i n (fun j (ap : (Nat → α) × (Nat → α)) =>
          if i = j then
            (ap.1, Function.update ap.2 i (m.sqrt
              (if forDown i (fun k sm => sm - ap.1 (i * n + k) * ap.1 (j * n + k))
                  (ap.1 (i * n + j)) ≤ choldc_floor n a then choldc_floor n a
                else forDown i (fun k sm => sm - ap.1 (i * n + k) * ap.1 (j * n + k))
                  (ap.1 (i * n + j)))))
          else
            (Function.update ap.1 (j * n + i)
              (forDown i (fun k sm => sm - ap.1 (i * n + k) * ap.1 (j * n + k))
                (ap.1 (i * n + j)) / ap.2 i), ap.2)) ap) n (a, p)
    ⟨fun r c _ _ => by simp, fun _ _ => rfl, fun c => by simp⟩ ?_
  · obtain ⟨k1, k2, k3⟩ := key
    refine ⟨fun r c hr hc => ?_, k2, k3⟩
    rw [k1 r c hr hc]
    by_cases h : c < r
    · rw [if_pos ⟨hc, h⟩, if_pos h]
    · rw [if_neg (fun e => h e.2), if_neg h]
  · intro i hi ap hinv
    have inner := forFrom_inv (fun J (ap : (Nat → α) × (Nat → α)) =>
        (∀ r c, r < n → c < n →
          ap.1 (r * n + c) = if (c < i ∧ c < r) ∨ (c = i ∧ i < r ∧ r < J) then L r c
            else a (r * n + c)) ∧
        (∀ idx, n * n ≤ idx → ap.1 idx = a idx) ∧
        (∀ c, ap.2 c = if c < i ∨ (c = i ∧ i < J) then L c c else p c))
      (fun j (ap : (Nat → α) × (Nat → α)) =>
          if i = j then
            (ap.1, Function.update ap.2 i (m.sqrt
              (if forDown i (fun k sm => sm - ap.1 (i * n + k) * ap.1 (j * n + k))
                  (ap.1 (i * n + j)) ≤ choldc_floor n a then choldc_floor n a
                else forDown i (fun k sm => sm - ap.1 (i * n + k) * ap.1 (j * n + k))
                  (ap.1 (i * n + j)))))
          else
            (Function.update ap.1 (j * n + i)
              (forDown i (fun k sm => sm - ap.1 (i * n + k) * ap.1 (j * n + k))
                (ap.1 (i * n + j)) / ap.2 i), ap.2)) i n (by omega) ap ?_ ?_
    · obtain ⟨k1, k2, k3⟩ := inner
      refine ⟨fun r c hr hc => ?_, k2, fun c => ?_⟩
      · rw [k1 r c hr hc]
        by_cases h : c < i + 1 ∧ c < r
        · rw [if_pos h, if_pos (by omega)]
        · rw [if_neg h, if_neg (by omega)]
      · rw [k3 c]
        by_cases h : c < i + 1
        · rw [if_pos h, if_pos (by omega)]
        · rw [if_neg h, if_neg (by omega)]
    · obtain ⟨k1, k2, k3⟩ := hinv
      refine ⟨fun r c hr hc => ?_, k2, fun c => ?_⟩
      · rw [k1 r c hr hc]
        by_cases h : c < i ∧ c < r
        · rw [if_pos h, if_pos (Or.inl h)]
        · rw [if_neg h, if_neg (by omega)]
      · rw [k3 c]
        by_cases h : c < i
        · rw [if_pos h, if_pos (Or.inl h)]
        · rw [if_neg h, if_neg (by omega)]
    · intro j hij hjn ap ⟨k1, k2, k3⟩
      have hsm : forDown i (fun k sm => sm - ap.1 (i * n + k) * ap.1 (j * n + k))
          (ap.1 (i * n + j)) = L i i * L j i := by
        have hsum : Finset.sum (Finset.range i) (fun k => ap.1 (i * n + k) * ap.1 (j * n + k))
            = Finset.sum (Finset.range i) (fun k => L i k * L j k) :=
          Finset.sum_congr rfl (fun k hk => by
            have hk' := Finset.mem_range.mp hk
            rw [k1 i k hi (by omega), if_pos (Or.inl ⟨hk', hk'⟩),
              k1 j k hjn (by omega), if_pos (Or.inl ⟨hk', by omega⟩)])
        rw [forDown_sub, k1 i j hi hjn, if_neg (by omega), hA i j hi hjn,
          tri_sum_split n L hLT i j hi, hsum]
        ring
      dsimp only
      rw [hsm]
      by_cases e : i = j
      · subst e
        rw [if_pos rfl, if_neg (not_le.mpr (hfl i hi)), sqrt_sq_of_ok m hs _ (hpos i hi)]
        refine ⟨fun r c hr hc => ?_, k2, fun c => ?_⟩
        · dsimp only
          rw [k1 r c hr hc]
          by_cases h : (c < i ∧ c < r) ∨ (c = i ∧ i < r ∧ r < i)
          · rw [if_pos h, if_pos (by omega)]
          · rw [if_neg h, if_neg (by omega)]
        · dsimp only
          by_cases hc : c = i
          · subst hc
            rw [Function.update_same, if_pos (by omega)]
          · rw [Function.update_noteq hc, k3 c]
            by_cases h : c < i ∨ (c = i ∧ i < i)
            · rw [if_pos h, if_pos (by omega)]
            · rw [if_neg h, if_neg (by omega)]
      · rw [if_neg e]
        have hp : ap.2 i = L i i := by rw [k3 i, if_pos (by omega)]
        have hne : L i i ≠ 0 := ne_of_gt (hpos i hi)
        refine ⟨fun r c hr hc => ?_, fun idx hidx => ?_, fun c => ?_⟩
        · dsimp only
          by_cases hcell : r * n + c = j * n + i
          · obtain ⟨e1, e2⟩ := rc_inj n r c j i hc hi hcell
            subst e1 e2
            rw [Function.update_same, hp, if_pos (by omega), mul_comm, mul_div_assoc,
              div_self hne, mul_one]
          · rw [Function.update_noteq hcell, k1 r c hr hc]
            have hne2 : ¬ (r = j ∧ c = i) := fun h => hcell (by rw [h.1, h.2])
            by_cases h : (c < i ∧ c < r) ∨ (c = i ∧ i < r ∧ r < j)
            · rw [if_pos h, if_pos (by omega)]
            · rw [if_neg h, if_neg (by omega)]
        · dsimp only
          have := rc_lt n j i hjn hi
          rw [Function.update_noteq (by omega), k2 idx hidx]
        · dsimp only
          rw [k3 c]
          by_cases h : c < i ∨ (c = i ∧ i < j)
          · rw [if_pos h, if_pos (by omega)]
          · rw [if_neg h, if_neg (by omega)]

theorem tri_row_sum (n : Nat) (L : Nat → Nat → α)
    (hLT : ∀ r c, r < c → c < n → L r c = 0) (i : Nat) (hi : i < n) (f : Nat → α) :
    Finset.sum (Finset.range n) (fun k => L i k * f k)
      = Finset.sum (Finset.range i) (fun k => L i k * f k) + L i i * f i := by
  rw [← Finset.sum_range_add_sum_Ico _ (show i + 1 ≤ n by omega), Finset.sum_range_succ]
  rw [Finset.sum_eq_zero (s := Finset.Ico (i + 1) n), add_zero]
  intro k hk
  have := Finset.mem_Ico.mp hk
  rw [hLT i k (by omega) (by omega), zero_mul]

theorem tri_col_sum (n : Nat) (L : Nat → Nat → α)
    (hLT : ∀ r c, r < c → c < n → L r c = 0) (i : Nat) (hi : i < n) (f : Nat → α) :
    Finset.sum (Finset.range n) (fun k => L k i * f k)
      = L i i * f i + Finset.sum (Finset.Ico (i + 1) n) (fun k => L k i * f k) := by
  rw [← Finset.sum_range_add_sum_Ico _ (show i + 1 ≤ n by omega), Finset.sum_range_succ]
  rw [Finset.sum_eq_zero (s := Finset.range i), zero_add]
  intro k hk
  have := Finset.mem_range.mp hk
  rw [hLT k i (by omega) hi, zero_mul]

/-- The forward substitution of `cholls` solves `L y = b`. -/
theorem cholls_forward (n : Nat) (a p b x : Nat → α) (hp : ∀ r, r < n → p r ≠ 0) :
    (∀ r, r < n →
      Finset.sum (Finset.range r) (fun c => a (r * n + c) *
        forUp n (fun i x => Function.update x i
          (forDown i (fun k sm => sm - a (i * n + k) * x k) (b i) / p i)) x c)
      + p r * forUp n (fun i x => Function.update x i
          (forDown i (fun k sm => sm - a (i * n + k) * x k) (b i) / p i)) x r = b r) ∧
    (∀ k, n ≤ k → forUp n (fun i x => Function.update x i
          (forDown i (fun k sm => sm - a (i * n + k) * x k) (b i) / p i)) x k = x k) := by
  have key := forUp_inv (fun i (y : Nat → α) =>
      (∀ r, r < i → Finset.sum (Finset.range r) (fun c => a (r * n + c) * y c) + p r * y r = b r) ∧
      (∀ k, i ≤ k → y k = x k))
    (fun i x => Function.update x i
      (forDown i (fun k sm => sm - a (i * n + k) * x k) (b i) / p i)) n x
    ⟨fun r hr => by omega, fun _ _ => rfl⟩ ?_
  · exact ⟨fun r hr => key.1 r hr, key.2⟩
  · intro i hi y ⟨h1, h2⟩
    have hsum : ∀ r, r ≤ i → Finset.sum (Finset.range r) (fun c => a (r * n + c) *
        Function.update y i (forDown i (fun k sm => sm - a (i * n + k) * y k) (b i) / p i) c)
        = Finset.sum (Finset.range r) (fun c => a (r * n + c) * y c) := fun r hr =>
      Finset.sum_congr rfl (fun c hc => by
        have := Finset.mem_range.mp hc
        rw [Function.update_noteq (by omega)])
    refine ⟨fun r hr => ?_, fun k hk => ?_⟩
    · dsimp only
      rw [hsum r (by omega)]
      by_cases e : r = i
      · subst e
        rw [Function.update_same, forDown_sub, mul_div_cancel₀ _ (hp r hi)]
        ring
      · rw [Function.update_noteq e]
        exact h1 r (by omega)
    · dsimp only
      rw [Function.update_noteq (by omega)]
      exact h2 k (by omega)

/-- The backward substitution of `cholls`, from row `I - 1` down to row `0`, solves
`Lᵀ z = y` when the rows from `I` on are already solved. -/
theorem cholls_backward (n : Nat) (a p y x : Nat → α) (hp : ∀ r, r < n → p r ≠ 0)
    (I : Nat) (hI : I ≤ n) (s : Nat → α)
    (h1 : ∀ r, I ≤ r → r < n →
      Finset.sum (Finset.Ico (r + 1) n) (fun k => a (k * n + r) * s k) + p r * s r = y r)
    (h2 : ∀ r, r < I → s r = y r) (h3 : ∀ k, n ≤ k → s k = x k) :
    (∀ r, r < n →
      Finset.sum (Finset.Ico (r + 1) n) (fun k => a (k * n + r) *
        forDown I (fun i x => Function.update x i
          (forFrom (i + 1) n (fun k sm => sm - a (k * n + i) * x k) (x i) / p i)) s k)
      + p r * forDown I (fun i x => Function.update x i
          (forFrom (i + 1) n (fun k sm => sm - a (k * n + i) * x k) (x i) / p i)) s r = y r) ∧
    (∀ k, n ≤ k → forDown I (fun i x => Function.update x i
          (forFrom (i + 1) n (fun k sm => sm - a (k * n + i) * x k) (x i) / p i)) s k = x k) := by
  induction I generalizing s with
  | zero =>
    rw [forDown_zero]
    exact ⟨fun r hr => h1 r (by omega) hr, h3⟩
  | succ I ih =>
    rw [forDown_succ]
    have hsum : ∀ r, I ≤ r → Finset.sum (Finset.Ico (r + 1) n) (fun k => a (k * n + r) *
        Function.update s I (forFrom (I + 1) n (fun k sm => sm - a (k * n + I) * s k) (s I)
          / p I) k)
        = Finset.sum (Finset.Ico (r + 1) n) (fun k => a (k * n + r) * s k) := fun r hr =>
      Finset.sum_congr rfl (fun c hc => by
        have := Finset.mem_Ico.mp hc
        rw [Function.update_noteq (by omega)])
    refine ih (by omega) _ (fun r hr hrn => ?_) (fun r hr => ?_) (fun k hk => ?_)
    · rw [hsum r hr]
      by_cases e : r = I
      · subst e
        rw [Function.update_same, forFrom_sub, mul_div_cancel₀ _ (hp r hrn), h2 r (by omega)]
        ring
      · rw [Function.update_noteq e]
        exact h1 r (by omega) hrn
    · rw [Function.update_noteq (by omega)]
      exact h2 r (by omega)
    · rw [Function.update_noteq (by omega)]
      exact h3 k hk

/-- Function `cholls` on the output of `choldc` for a factor `L`: the result solves
`(L Lᵀ) z = b`, and the cells of `x` from `n` on are untouched. -/
theorem cholls_spec (n : Nat) (a p b x : Nat → α) (L : Nat → Nat → α)
    (hLT : ∀ r c, r < c → c < n → L r c = 0) (hpos : ∀ i, i < n → 0 < L i i)
    (ha : ∀ r c, c < r → r < n → a (r * n + c) = L r c) (hp : ∀ r, r < n → p r = L r r) :
    (∀ r, r < n →
      Finset.sum (Finset.range n) (fun c =>
        Finset.sum (Finset.range n) (fun k => L r k * L c k) * cholls n a p b x c) = b r) ∧
    (∀ k, n ≤ k → cholls n a p b x k = x k) := by
  have hp0 : ∀ r, r < n → p r ≠ 0 := fun r hr => by
    rw [hp r hr]; exact ne_of_gt (hpos r hr)
  obtain ⟨f1, f2⟩ := cholls_forward n a p b x hp0
  have hz : cholls n a p b x = forDown n (fun i x => Function.update x i
          (forFrom (i + 1) n (fun k sm => sm - a (k * n + i) * x k) (x i) / p i))
      (forUp n (fun i x => Function.update x i
        (forDown i (fun k sm => sm - a (i * n + k) * x k) (b i) / p i)) x) := rfl
  rw [hz]
  generalize forUp n (fun i x => Function.update x i
    (forDown i (fun k sm => sm - a (i * n + k) * x k) (b i) / p i)) x = y at f1 f2 ⊢
  obtain ⟨b1, b2⟩ := cholls_backward n a p y x hp0 n (le_refl n) y
    (fun r hr hrn => by omega) (fun _ _ => rfl) f2
  generalize forDown n (fun i x => Function.update x i
    (forFrom (i + 1) n (fun k sm => sm - a (k * n + i) * x k) (x i) / p i)) y = z at b1 b2 ⊢
  refine ⟨fun r hr => ?_, b2⟩
  have hy : ∀ k, k < n → y k = Finset.sum (Finset.range n) (fun c => L c k * z c) := by
    intro k hk
    rw [tri_col_sum n L hLT k hk, ← b1 k hk, hp k hk, add_comm]
    congr 1
    exact Finset.sum_congr rfl (fun c hc => by
      have := Finset.mem_Ico.mp hc
      rw [ha c k (by omega) (by omega)])
  have hb : b r = Finset.sum (Finset.range n) (fun k => L r k * y k) := by
    rw [tri_row_sum n L hLT r hr, ← f1 r hr, hp r hr]
    congr 1
    exact Finset.sum_congr rfl (fun c hc => by
      have := Finset.mem_range.mp hc
      rw [ha r c (by omega) hr])
  have hb2 : b r = Finset.sum (Finset.range n) (fun k =>
      Finset.sum (Finset.range n) (fun c => L r k * (L c k * z c))) := by
    rw [hb]
    exact Finset.sum_congr rfl (fun k hk => by
      rw [hy k (Finset.mem_range.mp hk), Finset.mul_sum])
  rw [hb2, Finset.sum_comm]
  refine Finset.sum_congr rfl (fun c _ => ?_)
  rw [Finset.sum_mul]
  refine Finset.sum_congr rfl (fun k _ => ?_)
  ring

theorem shift_unshift {β : Type} (buf : Nat → β) (o : Nat) (v : Nat → β) (i : Nat) :
    shift (unshift buf o v) o i = v i := by
  unfold shift unshift
  rw [if_neg (by omega)]
  congr 1
  omega

theorem unshift_lt {β : Type} (buf : Nat → β) (o : Nat) (v : Nat → β) (i : Nat) (h : i < o) :
    unshift buf o v i = buf i := by
  unfold unshift
  rw [if_pos h]

theorem unshift_ge {β : Type} (buf : Nat → β) (o : Nat) (v : Nat → β) (i : Nat) :
    unshift buf o v (o + i) = v i := shift_unshift buf o v i

/-- The loop `for (i = 0; i < n; i++) S[i + o] = v`. -/
theorem forUp_fill {β : Type} (n o : Nat) (v : β) (S : Nat → β) (idx : Nat) :
    forUp n (fun i S => Function.update S (i + o) v) S idx
      = if o ≤ idx ∧ idx < o + n then v else S idx := by
  induction n with
  | zero =>
    rw [forUp_zero, if_neg (by omega)]
  | succ n ih =>
    rw [forUp_succ]
    by_cases e : idx = n + o
    · rw [e, Function.update_same, if_pos (by omega)]
    · rw [Function.update_noteq e, ih]
      by_cases h : o ≤ idx ∧ idx < o + n
      · rw [if_pos h, if_pos (by omega)]
      · rw [if_neg h, if_neg (by omega)]

theorem choldc_floor_congr (n : Nat) (a a' : Nat → α)
    (h : ∀ i, i < n → a (i * n + i) = a' (i * n + i)) :
    choldc_floor n a = choldc_floor n a' := by
  have e : forUp n (fun i sm0 => sm0 + a (i * n + i)) (1 / 10 ^ 40 : α)
      = forUp n (fun i sm0 => sm0 + a' (i * n + i)) (1 / 10 ^ 40 : α) :=
    forUp_congr n _ _ (fun i hi s => by rw [h i hi]) _
  unfold choldc_floor
  rw [e]

theorem cholFactor_congr (n : Nat) (a a' : Nat → α) (L : Nat → Nat → α)
    (h : ∀ idx, idx < n * n → a' idx = a idx) (hL : CholFactor n a L) : CholFactor n a' L := by
  obtain ⟨h1, h2, h3, h4⟩ := hL
  refine ⟨h1, h2, fun i j hi hj => ?_, fun i hi => ?_⟩
  · rw [h _ (rc_lt n i j hi hj)]
    exact h3 i j hi hj
  · rw [choldc_floor_congr n a' a (fun i hi => h _ (rc_lt n i i hi hi))]
    exact h4 i hi

/-- The trace form of the pivot floor. -/
theorem choldc_floor_trace (n : Nat) (a : Nat → α) :
    choldc_floor n a
      = ((1 / 10 ^ 40 + Finset.sum (Finset.range n) (fun i => a (i * n + i))) * (1 / 10 ^ 7))
        * ((1 / 10 ^ 40 + Finset.sum (Finset.range n) (fun i => a (i * n + i))) * (1 / 10 ^ 7)) := by
  unfold choldc_floor
  rw [forUp_sum]

/-- One round of the column loop of `invert`: column `j` of `S` becomes the solution of
`(L Lᵀ) z = e_j`, the other cells of `S` are untouched. -/
theorem invert_column (P : Nat) (a p : Nat → α) (L : Nat → Nat → α)
    (hLT : ∀ r c, r < c → c < P → L r c = 0) (hpos : ∀ i, i < P → 0 < L i i)
    (ha : ∀ r c, c < r → r < P → a (r * P + c) = L r c) (hp : ∀ r, r < P → p r = L r r)
    (j : Nat) (hj : j < P) (S : Nat → α) :
    (∀ r, r < P →
      Finset.sum (Finset.range P) (fun c =>
        Finset.sum (Finset.range P) (fun k => L r k * L c k) *
          unshift (Function.update (forUp P (fun i S => Function.update S (i + j * P) 0) S)
              (j + j * P) 1) (j * P)
            (cholls P a p
              (shift (Function.update (forUp P (fun i S => Function.update S (i + j * P) 0) S)
                (j + j * P) 1) (j * P))
              (shift (Function.update (forUp P (fun i S => Function.update S (i + j * P) 0) S)
                (j + j * P) 1) (j * P))) (j * P + c))
        = if r = j then 1 else 0) ∧
    (∀ idx, (idx < j * P ∨ j * P + P ≤ idx) →
      unshift (Function.update (forUp P (fun i S => Function.update S (i + j * P) 0) S)
          (j + j * P) 1) (j * P)
        (cholls P a p
          (shift (Function.update (forUp P (fun i S => Function.update S (i + j * P) 0) S)
            (j + j * P) 1) (j * P))
          (shift (Function.update (forUp P (fun i S => Function.update S (i + j * P) 0) S)
            (j + j * P) 1) (j * P))) idx = S idx) := by
  have hS2 : ∀ idx, Function.update (forUp P (fun i S => Function.update S (i + j * P) (0 : α)) S)
      (j + j * P) 1 idx
      = if idx = j + j * P then 1 else if j * P ≤ idx ∧ idx < j * P + P then 0 else S idx := by
    intro idx
    by_cases e : idx = j + j * P
    · rw [e, Function.update_same, if_pos rfl]
    · rw [Function.update_noteq e, if_neg e, forUp_fill]
  generalize Function.update (forUp P (fun i S => Function.update S (i + j * P) (0 : α)) S)
      (j + j * P) 1 = S2 at hS2 ⊢
  obtain ⟨c1, c2⟩ := cholls_spec P a p (shift S2 (j * P)) (shift S2 (j * P)) L hLT hpos ha hp
  refine ⟨fun r hr => ?_, fun idx hidx => ?_⟩
  · rw [Finset.sum_congr rfl (fun c _ => by rw [unshift_ge])]
    rw [c1 r hr]
    unfold shift
    rw [hS2]
    by_cases e : r = j
    · rw [if_pos e, if_pos (by rw [e]; omega)]
    · rw [if_neg e, if_neg (by omega), if_pos (by omega)]
  · rcases hidx with h | h
    · rw [unshift_lt _ _ _ _ h, hS2, if_neg (by omega), if_neg (by omega)]
    · obtain ⟨d, hd⟩ : ∃ d, idx = j * P + d := ⟨idx - j * P, by omega⟩
      rw [hd, unshift_ge, c2 d (by omega)]
      unfold shift
      rw [hS2, if_neg (by omega), if_neg (by omega)]

/-- Function `invert` on an array `W` with an unfloored Cholesky factor `L`: the returned
value, the columns left in `S`, and the cells of `S` and `T` that are untouched. -/
theorem invert_spec (m : Libm α) (hs : m.SqrtOk) (P : Nat) (W S T : Nat → α)
    (L : Nat → Nat → α) (hL : CholFactor P W L) :
    (invert m P W S T).1 = -2 * Finset.sum (Finset.range P) (fun j => m.log (L j j)) ∧
    (∀ j r, j < P → r < P →
      Finset.sum (Finset.range P) (fun c =>
        W (r * P + c) * (invert m P W S T).2.1 (c + j * P)) = if r = j then 1 else 0) ∧
    (∀ idx, P * P ≤ idx → (invert m P W S T).2.1 idx = S idx) ∧
    (∀ idx, P * P + P ≤ idx → (invert m P W S T).2.2 idx = T idx) ∧
    (∀ j, j < P → (invert m P W S T).2.2 (P * P + j) = L j j) ∧
    (∀ r c, r < P → c < P →
      (invert m P W S T).2.2 (r * P + c) = if c < r then L r c else W (r * P + c)) := by
  have hT1 : forUp (P * P) (fun i T => Function.update T i (W i)) T
      = fun i => if i < P * P then W i else T i :=
    forUp_map_update (P * P) (fun i _ => W i) T
  have hL1 : CholFactor P (fun i => if i < P * P then W i else T i) L :=
    cholFactor_congr P W _ L (fun idx h => by simp only [h, if_true]) hL
  obtain ⟨hLT, hpos, hA, hfl⟩ := hL
  obtain ⟨d1, d2, d3⟩ := choldc_spec m hs P (fun i => if i < P * P then W i else T i)
    (shift (fun i => if i < P * P then W i else T i) (P * P)) L hL1
  unfold invert
  simp only []
  rw [hT1]
  generalize choldc m P (fun i => if i < P * P then W i else T i)
    (shift (fun i => if i < P * P then W i else T i) (P * P)) = ap at d1 d2 d3 ⊢
  have ha : ∀ r c, c < r → r < P → unshift ap.1 (P * P) ap.2 (r * P + c) = L r c := by
    intro r c hc hr
    rw [unshift_lt _ _ _ _ (rc_lt P r c hr (by omega)), d1 r c hr (by omega), if_pos hc]
  have hp : ∀ r, r < P → shift (unshift ap.1 (P * P) ap.2) (P * P) r = L r r := by
    intro r hr
    rw [shift_unshift, d3 r, if_pos hr]
  have key := forUp_inv (fun J (st : α × (Nat → α)) =>
      st.1 = Finset.sum (Finset.range J) (fun j => m.log (L j j)) ∧
      (∀ j r, j < J → r < P →
        Finset.sum (Finset.range P) (fun c =>
          Finset.sum (Finset.range P) (fun k => L r k * L c k) * st.2 (j * P + c))
          = if r = j then 1 else 0) ∧
      (∀ idx, J * P ≤ idx → st.2 idx = S idx))
    (fun j (st : α × (Nat → α)) =>
      (st.1 + m.log (shift (unshift ap.1 (P * P) ap.2) (P * P) j),
       unshift (Function.update (forUp P (fun i S => Function.update S (i + j * P) 0) st.2)
          (j + j * P) 1) (j * P)
        (cholls P (unshift ap.1 (P * P) ap.2) (shift (unshift ap.1 (P * P) ap.2) (P * P))
          (shift (Function.update (forUp P (fun i S => Function.update S (i + j * P) 0) st.2)
            (j + j * P) 1) (j * P))
          (shift (Function.update (forUp P (fun i S => Function.update S (i + j * P) 0) st.2)
            (j + j * P) 1) (j * P))))) P (0, S)
    ⟨by simp, fun j r hj => by omega, fun _ _ => rfl⟩ ?_
  · obtain ⟨k1, k2, k3⟩ := key
    refine ⟨by rw [k1], fun j r hj hr => ?_, fun idx hidx => k3 idx hidx, fun idx hidx => ?_,
      fun j hj => ?_, fun r c hr hc => ?_⟩
    · rw [← k2 j r hj hr]
      refine Finset.sum_congr rfl (fun c hc => ?_)
      rw [hA r c hr (Finset.mem_range.mp hc), Nat.add_comm c (j * P)]
    · obtain ⟨d, hd⟩ : ∃ d, idx = P * P + d := ⟨idx - P * P, by omega⟩
      rw [hd, unshift_ge, d3 d, if_neg (by omega)]
      dsimp only [shift]
      rw [if_neg (by omega)]
    · rw [unshift_ge, d3 j, if_pos hj]
    · rw [unshift_lt _ _ _ _ (rc_lt P r c hr hc), d1 r c hr hc]
      simp only [rc_lt P r c hr hc, if_true]
  · intro j hj st ⟨k1, k2, k3⟩
    obtain ⟨e1, e2⟩ := invert_column P (unshift ap.1 (P * P) ap.2)
      (shift (unshift ap.1 (P * P) ap.2) (P * P)) L hLT hpos ha hp j hj st.2
    refine ⟨?_, fun j' r hj' hr => ?_, fun idx hidx => ?_⟩
    · dsimp only
      rw [Finset.sum_range_succ, k1, hp j hj]
    · dsimp only
      by_cases e : j' = j
      · subst e
        exact e1 r hr
      · have hlt : j' < j := by omega
        rw [← k2 j' r hlt hr]
        refine Finset.sum_congr rfl (fun c hc => ?_)
        have hc' := Finset.mem_range.mp hc
        have : j' * P + c < j * P := by
          have : (j' + 1) * P ≤ j * P := Nat.mul_le_mul_right P hlt
          rw [Nat.add_mul, Nat.one_mul] at this
          omega
        rw [e2 _ (Or.inl this)]
    · dsimp only
      have h1 : (j + 1) * P = j * P + P := by rw [Nat.add_mul, Nat.one_mul]
      rw [e2 idx (Or.inr (by omega))]
      exact k3 idx (by omega)

theorem matOf_apply (n : Nat) (f : Nat → Nat → α) (r c : Fin n) : matOf n f r c = f r c := rfl

theorem matOf_mul (n : Nat) (f g : Nat → Nat → α) :
    matOf n f * matOf n g
      = matOf n (fun r c => Finset.sum (Finset.range n) (fun k => f r k * g k c)) := by
  ext r c
  rw [Matrix.mul_apply, matOf_apply]
  exact Fin.sum_univ_eq_sum_range (fun k => f r k * g k c) n

theorem matOf_transpose (n : Nat) (f : Nat → Nat → α) :
    (matOf n f).transpose = matOf n (fun r c => f c r) := rfl

theorem matOf_one (n : Nat) :
    matOf n (fun r c => if r = c then (1 : α) else 0) = 1 := by
  ext r c
  rw [matOf_apply, Matrix.one_apply]
  by_cases h : r = c
  · rw [if_pos h, if_pos (by rw [h])]
  · rw [if_neg h, if_neg (fun e => h (Fin.ext e))]

theorem matOf_congr (n : Nat) (f g : Nat → Nat → α)
    (h : ∀ r c, r < n → c < n → f r c = g r c) : matOf n f = matOf n g := by
  ext r c
  exact h r c r.isLt c.isLt

/-- The determinant of `L Lᵀ` for a lower-triangular `L` is the squared product of its
diagonal. -/
theorem det_of_factor (n : Nat) (W : Nat → α) (L : Nat → Nat → α)
    (hLT : ∀ r c, r < c → c < n → L r c = 0)
    (hA : ∀ i j, i < n → j < n →
      W (i * n + j) = Finset.sum (Finset.range n) (fun k => L i k * L j k)) :
    Matrix.det (matOf n (fun i j => W (i * n + j)))
      = Finset.prod (Finset.range n) (fun j => L j j * L j j) := by
  have e : matOf n (fun i j => W (i * n + j)) = matOf n L * (matOf n L).transpose := by
    rw [matOf_transpose, matOf_mul]
    exact matOf_congr n _ _ hA
  have hdet : Matrix.det (matOf n L) = Finset.prod (Finset.range n) (fun j => L j j) := by
    rw [Matrix.det_of_lowerTriangular]
    · exact Fin.prod_univ_eq_prod_range (fun j => L j j) n
    · intro i j hij
      exact hLT i j hij j.isLt
  rw [e, Matrix.det_mul, Matrix.det_transpose, hdet, ← Finset.prod_mul_distrib]

/-- A logarithm that turns products into sums turns a product of positive numbers into
the sum of the logarithms. -/
theorem log_prod (m : Libm α) (hlog : m.LogOk) (n : Nat) (f : Nat → α)
    (hf : ∀ j, j < n → 0 < f j) :
    m.log (Finset.prod (Finset.range n) f) = Finset.sum (Finset.range n) (fun j => m.log (f j)) := by
  induction n with
  | zero =>
    have h1 := hlog 1 1 one_pos one_pos
    rw [mul_one] at h1
    simp only [Finset.range_zero, Finset.prod_empty, Finset.sum_empty]
    linarith
  | succ n ih =>
    rw [Finset.prod_range_succ, Finset.sum_range_succ,
      hlog _ _ (Finset.prod_pos (fun j hj => hf j (by have := Finset.mem_range.mp hj; omega)))
        (hf n (by omega)),
      ih (fun j hj => hf j (by omega))]

theorem forUp_one {σ : Type} (body : Nat → σ → σ) (s : σ) : forUp 1 body s = body 0 s := rfl

/-- Function `choldc` on a `1 × 1` array: the array is untouched and `p[0]` is the square
root of the pivot, floored. -/
theorem choldc_one (m : Libm α) (a p : Nat → α) :
    choldc m 1 a p = (a, Function.update p 0
      (m.sqrt (if a 0 ≤ choldc_floor 1 a then choldc_floor 1 a else a 0))) := by
  rw [choldc_floor_eq, forUp_one, forFrom_eq_forUp, forUp_one]
  simp only [forDown_zero, Nat.add_zero, Nat.zero_mul, if_true]

/-- Function `cholls` on a `1 × 1` system: `x[0] = b[0] / p[0] / p[0]`. -/
theorem cholls_one (a p b x : Nat → α) :
    cholls 1 a p b x 0 = b 0 / p 0 / p 0 := by
  unfold cholls
  rw [forUp_one, forDown_succ, forDown_zero, forDown_zero, forFrom_of_le _ _ (by omega)]
  simp only [Function.update_same]

/-- Function `invert` on a `1 × 1` array: the cell `S[0]` on return. -/
theorem invert_one (m : Libm α) (W S T : Nat → α) :
    (invert m 1 W S T).2.1 0
      = 1 / m.sqrt (if W 0 ≤ choldc_floor 1 W then choldc_floor 1 W else W 0)
          / m.sqrt (if W 0 ≤ choldc_floor 1 W then choldc_floor 1 W else W 0) := by
  have hfl : choldc_floor 1 (Function.update T 0 (W 0)) = choldc_floor 1 W :=
    choldc_floor_congr 1 _ _ (fun i hi => by
      have : i = 0 := by omega
      subst this
      simp)
  unfold invert
  simp only [Nat.mul_one, forUp_one]
  rw [choldc_one, hfl]
  simp only [Nat.zero_mul, Nat.add_zero, Function.update_same]
  rw [unshift, if_neg (by omega), Nat.sub_zero, cholls_one]
  simp only [shift, Nat.zero_add, Nat.add_zero, Function.update_same, unshift, Nat.lt_irrefl,
    if_false, Nat.sub_self]

end Lemmas8

section Lemmas9

set_option linter.unusedSectionVars false

variable {α : Type} [LinearOrderedField α] [FloorRing α]

/-! ## The marginal parameters built by `sub_gmm` -/

theorem allocate_gmm_loop_spec (K n : Nat) :
    (forUp n (allocate_gmm_step K) ⟨fun _ => ⟨0, 0, 0, 0, 0, 0, 0, 0⟩, 0⟩).o
      = offsetOf (gmmSize K) n ∧
    ∀ code, (forUp n (allocate_gmm_step K) ⟨fun _ => ⟨0, 0, 0, 0, 0, 0, 0, 0⟩, 0⟩).tbl code =
      if code < n then gmmEntry K (bitcount code code) (offsetOf (gmmSize K) code)
      else ⟨0, 0, 0, 0, 0, 0, 0, 0⟩ := by
  induction n with
  | zero => exact ⟨rfl, fun code => by rw [if_neg (by omega)]; rfl⟩
  | succ n ih =>
    obtain ⟨h0, ht⟩ := ih
    rw [forUp_succ]
    generalize forUp n (allocate_gmm_step K) ⟨fun _ => ⟨0, 0, 0, 0, 0, 0, 0, 0⟩, 0⟩ = st at h0 ht
    refine ⟨?_, fun code => ?_⟩
    · simp only [allocate_gmm_step, h0, offsetOf_succ, gmmSize]
      omega
    · simp only [allocate_gmm_step]
      by_cases hc : code = n
      · subst hc
        rw [Function.update_same, if_pos (by omega), h0]
        rfl
      · rw [Function.update_noteq hc, ht]
        by_cases hlt : code < n
        · rw [if_pos hlt, if_pos (by omega)]
        · rw [if_neg hlt, if_neg (by omega)]

/-- The table entry of `allocate_gmm` for a pattern `code < 2^P`. -/
theorem allocate_gmm_tbl (P K code : Nat) (h : code < 2 ^ P) :
    (allocate_gmm_loop P K).tbl code
      = gmmEntry K (bitcount P code) (offsetOf (gmmSize K) code) := by
  unfold allocate_gmm_loop
  rw [(allocate_gmm_loop_spec K (1 <<< P)).2 code, Nat.one_shiftLeft, if_pos h,
    bitcount_self P code h]

theorem mul_cell_lt (K M k e : Nat) (hk : k < K) (he : e < M) : k * M + e < K * M := by
  have : (k + 1) * M ≤ K * M := Nat.mul_le_mul_right M hk
  rw [Nat.add_mul, Nat.one_mul] at this
  omega

/-- Every cell of a pattern and class lies inside the region of the pattern. -/
theorem gmmCell_lt (K nel o k idx : Nat) (hk : k < K) (h : GmmCell (gmmEntry K nel o) k idx) :
    o ≤ idx ∧ idx < o + (K * nel + K + K * nel * nel + K + K + K + K) := by
  unfold GmmCell gmmEntry at h
  dsimp only at h
  rcases h with h | h | h | ⟨j1, hj, h⟩ | ⟨e, he, h⟩ | h | h
  · omega
  · omega
  · omega
  · have := mul_cell_lt K nel k j1 hk hj
    have e1 : nel * k = k * nel := Nat.mul_comm _ _
    omega
  · have := mul_cell_lt K (nel * nel) k e hk he
    have e1 : k * nel * nel = k * (nel * nel) := Nat.mul_assoc _ _ _
    have e2 : K * nel * nel = K * (nel * nel) := Nat.mul_assoc _ _ _
    omega
  · omega
  · omega

/-- The cells of two different (pattern, class) pairs of the table of `allocate_gmm` are
different cells. -/
theorem gmmCell_disjoint (P K code k code' k' idx : Nat) (hc : code < 2 ^ P)
    (hc' : code' < 2 ^ P) (hk : k < K) (hk' : k' < K)
    (h : GmmCell ((allocate_gmm_loop P K).tbl code) k idx)
    (h' : GmmCell ((allocate_gmm_loop P K).tbl code') k' idx) :
    code = code' ∧ k = k' := by
  rw [allocate_gmm_tbl P K code hc] at h
  rw [allocate_gmm_tbl P K code' hc'] at h'
  have b1 := gmmCell_lt K _ _ k idx hk h
  have b2 := gmmCell_lt K _ _ k' idx hk' h'
  have hsz : ∀ c, c < 2 ^ P → gmmSize K c
      = K * bitcount P c + K + K * bitcount P c * bitcount P c + K + K + K + K := fun c hc => by
    unfold gmmSize
    rw [bitcount_self P c hc]
  have hcc : code = code' := by
    have := offsetOf_inj (gmmSize K) code code' (idx - offsetOf (gmmSize K) code)
      (idx - offsetOf (gmmSize K) code') (by rw [hsz code hc]; omega)
      (by rw [hsz code' hc']; omega) (by omega)
    exact this.1
  subst hcc
  refine ⟨rfl, ?_⟩
  unfold GmmCell gmmEntry at h h'
  dsimp only at h h'
  generalize offsetOf (gmmSize K) code = o at h h' b1 b2
  generalize bitcount P code = nel at h h' b1 b2
  have m1 : ∀ k j1, k < K → j1 < nel → j1 + nel * k < K * nel := fun k j1 hk hj => by
    have := mul_cell_lt K nel k j1 hk hj
    have e1 : nel * k = k * nel := Nat.mul_comm _ _
    omega
  have m2 : ∀ k e, k < K → e < nel * nel → k * nel * nel + e < K * nel * nel := fun k e hk he => by
    have := mul_cell_lt K (nel * nel) k e hk he
    have e1 : k * nel * nel = k * (nel * nel) := Nat.mul_assoc _ _ _
    have e2 : K * nel * nel = K * (nel * nel) := Nat.mul_assoc _ _ _
    omega
  rcases h with h | h | h | ⟨j1, hj, h⟩ | ⟨e, he, h⟩ | h | h <;>
  rcases h' with h' | h' | h' | ⟨j1', hj', h'⟩ | ⟨e', he', h'⟩ | h' | h' <;>
  first
  | omega
  | (have q1 := m1 k j1 hk hj; omega)
  | (have q1 := m1 k' j1' hk' hj'; omega)
  | (have q1 := m2 k e hk he; omega)
  | (have q1 := m2 k' e' hk' he'; omega)
  | exact (radix_inj nel j1 k j1' k' hj hj' (by omega)).2
  | (have e1 : k * nel * nel = k * (nel * nel) := Nat.mul_assoc _ _ _
     have e2 : k' * nel * nel = k' * (nel * nel) := Nat.mul_assoc _ _ _
     have := block_inj (nel * nel) k e k' e' he he' (by omega)
     exact this.1)

theorem forDown_keep_lt {σ τ : Type} (π : σ → τ) (body : Nat → σ → σ) (n : Nat)
    (h : ∀ i, i < n → ∀ s, π (body i s) = π s) (s : σ) :
    π (forDown n body s) = π s := by
  induction n generalizing s with
  | zero => rfl
  | succ n ih =>
    rw [forDown_succ, ih (fun i hi s => h i (by omega) s), h n (by omega)]

/-- Function `cholls` writes no cell of `x` from `n` on. -/
theorem cholls_frame (n : Nat) (a p b x : Nat → α) (k : Nat) (hk : n ≤ k) :
    cholls n a p b x k = x k := by
  unfold cholls
  rw [forDown_keep_lt (fun x : Nat → α => x k) _ n
    (fun i hi x => Function.update_noteq (by omega) _ _)]
  exact forUp_keep_lt (fun x : Nat → α => x k) _ n
    (fun i hi x => Function.update_noteq (by omega) _ _) x

/-- Function `invert` writes no cell of `S` from `P*P` on, whatever the input. -/
theorem invert_frame (m : Libm α) (P : Nat) (W S T : Nat → α) (idx : Nat) (h : P * P ≤ idx) :
    (invert m P W S T).2.1 idx = S idx := by
  unfold invert
  simp only []
  refine forUp_keep_lt (fun st : α × (Nat → α) => st.2 idx) _ P (fun j hj st => ?_) (0, S)
  dsimp only
  have h1 : (j + 1) * P ≤ P * P := Nat.mul_le_mul_right P hj
  rw [Nat.add_mul, Nat.one_mul] at h1
  obtain ⟨d, hd⟩ : ∃ d, idx = j * P + d := ⟨idx - j * P, by omega⟩
  rw [hd, unshift_ge, cholls_frame P _ _ _ _ d (by omega)]
  unfold shift
  rw [Function.update_noteq (by omega), forUp_fill, if_neg (by omega)]

/-- Function `invert` writes no cell of `T` from `P*P + P` on, whatever the input. -/
theorem invert_frame_T (m : Libm α) (P : Nat) (W S T : Nat → α) (idx : Nat)
    (h : P * P + P ≤ idx) : (invert m P W S T).2.2 idx = T idx := by
  have hT1 : forUp (P * P) (fun i T => Function.update T i (W i)) T
      = fun i => if i < P * P then W i else T i :=
    forUp_map_update (P * P) (fun i _ => W i) T
  have hp : ∀ (a p : Nat → α) (c : Nat), P ≤ c → (choldc m P a p).2 c = p c := by
    intro a p c hc
    rw [choldc_floor_eq]
    refine forUp_keep_lt (fun ap : (Nat → α) × (Nat → α) => ap.2 c) _ P (fun i hi ap => ?_) _
    rw [forFrom_eq_forUp]
    refine forUp_keep (fun ap : (Nat → α) × (Nat → α) => ap.2 c) _ (fun j ap => ?_) _ _
    dsimp only
    by_cases e : i = i + j
    · rw [if_pos e]
      exact Function.update_noteq (by omega) _ _
    · rw [if_neg e]
  unfold invert
  simp only []
  rw [hT1]
  obtain ⟨d, hd⟩ : ∃ d, idx = P * P + d := ⟨idx - P * P, by omega⟩
  rw [hd, unshift_ge, hp _ _ d (by omega)]
  dsimp only [shift]
  rw [if_neg (by omega)]

theorem pos_lt_pos (code i j : Nat) (hij : i < j) (hi : code.testBit i = true) :
    bitcount i code < bitcount j code := bitcount_lt_of_testBit j i code hij hi

theorem pos_inj (code i j : Nat) (hi : code.testBit i = true) (hj : code.testBit j = true)
    (h : bitcount i code = bitcount j code) : i = j := by
  rcases Nat.lt_trichotomy i j with h1 | h1 | h1
  · have := pos_lt_pos code i j h1 hi; omega
  · exact h1
  · have := pos_lt_pos code j i h1 hj; omega

/-- The inner loop of `sub_gmm_pack` for channel `j` at local position `j1`: row `j1` of
the packed sub-covariance. -/
theorem pack_inner (P Po code j j1 : Nat) (hj : j < P) (S : Nat → α) (I : Nat) :
    (forUp I (fun i (q : Nat × (Nat → α)) =>
        if ((1 <<< i) &&& code) ≠ 0 then
          (q.1 + 1, Function.update q.2 (P * P + (q.1 + Po * j1)) (q.2 (i + P * j)))
        else q) (0, S)).1 = bitcount I code ∧
    (∀ i, i < I → i < P → code.testBit i = true →
      (forUp I (fun i (q : Nat × (Nat → α)) =>
        if ((1 <<< i) &&& code) ≠ 0 then
          (q.1 + 1, Function.update q.2 (P * P + (q.1 + Po * j1)) (q.2 (i + P * j)))
        else q) (0, S)).2 (P * P + (bitcount i code + Po * j1)) = S (i + P * j)) ∧
    (∀ idx, (∀ i, i < I → code.testBit i = true → idx ≠ P * P + (bitcount i code + Po * j1)) →
      (forUp I (fun i (q : Nat × (Nat → α)) =>
        if ((1 <<< i) &&& code) ≠ 0 then
          (q.1 + 1, Function.update q.2 (P * P + (q.1 + Po * j1)) (q.2 (i + P * j)))
        else q) (0, S)).2 idx = S idx) := by
  induction I with
  | zero => exact ⟨rfl, fun i hi => by omega, fun _ _ => rfl⟩
  | succ I ih =>
    obtain ⟨a1, a2, a3⟩ := ih
    rw [forUp_succ]
    generalize forUp I (fun i (q : Nat × (Nat → α)) =>
        if ((1 <<< i) &&& code) ≠ 0 then
          (q.1 + 1, Function.update q.2 (P * P + (q.1 + Po * j1)) (q.2 (i + P * j)))
        else q) (0, S) = q at a1 a2 a3
    by_cases hb : code.testBit I = true
    · rw [if_pos ((shift_and_ne_zero code I).mpr hb)]
      dsimp only
      rw [a1]
      refine ⟨?_, fun i hi hiP hbi => ?_, fun idx h => ?_⟩
      · rw [bitcount_succ, hb]; rfl
      · by_cases e : i = I
        · subst e
          rw [Function.update_same]
          refine a3 _ (fun i' _ _ e' => ?_)
          have := cell_lt P i j hiP hj
          omega
        · have hlt : i < I := by omega
          have := pos_lt_pos code i I hlt hbi
          rw [Function.update_noteq (by omega)]
          exact a2 i hlt hiP hbi
      · rw [Function.update_noteq (h I (by omega) hb)]
        exact a3 idx (fun i hi hbi => h i (by omega) hbi)
    · rw [if_neg (fun e => hb ((shift_and_ne_zero code I).mp e))]
      refine ⟨?_, fun i hi hiP hbi => ?_, fun idx h => ?_⟩
      · rw [bitcount_succ, a1]
        simp only [Bool.not_eq_true] at hb
        rw [hb]; rfl
      · have hne : i ≠ I := fun e => hb (e ▸ hbi)
        exact a2 i (by omega) hiP hbi
      · exact a3 idx (fun i hi hbi => h i (by omega) hbi)

/-- The result of `sub_gmm_pack` for a pattern of dimension `g.P = bitcount P code`: the
packed means, the packed sub-covariance, and the cells left alone. -/
theorem pack_spec (P : Nat) (mu : Nat → α) (g : GMMtype) (k code : Nat) (buf S : Nat → α)
    (hg : g.P = bitcount P code) :
    (sub_gmm_pack P mu g k code buf S).1 = bitcount P code ∧
    (∀ j, j < P → code.testBit j = true →
      (sub_gmm_pack P mu g k code buf S).2.1 (g.mu + (bitcount j code + g.P * k))
        = mu (j + P * k)) ∧
    (∀ idx, (∀ j, j < P → code.testBit j = true → idx ≠ g.mu + (bitcount j code + g.P * k)) →
      (sub_gmm_pack P mu g k code buf S).2.1 idx = buf idx) ∧
    (∀ i j, i < P → j < P → code.testBit i = true → code.testBit j = true →
      (sub_gmm_pack P mu g k code buf S).2.2
          (P * P + (bitcount i code + g.P * bitcount j code)) = S (i + P * j)) ∧
    (∀ idx, idx < P * P → (sub_gmm_pack P mu g k code buf S).2.2 idx = S idx) := by
  have key := forUp_inv (fun J (r : Nat × (Nat → α) × (Nat → α)) =>
      r.1 = bitcount J code ∧
      (∀ j, j < J → code.testBit j = true →
        r.2.1 (g.mu + (bitcount j code + g.P * k)) = mu (j + P * k)) ∧
      (∀ idx, (∀ j, j < J → code.testBit j = true →
        idx ≠ g.mu + (bitcount j code + g.P * k)) → r.2.1 idx = buf idx) ∧
      (∀ i j, i < P → j < J → code.testBit i = true → code.testBit j = true →
        r.2.2 (P * P + (bitcount i code + g.P * bitcount j code)) = S (i + P * j)) ∧
      (∀ idx, idx < P * P → r.2.2 idx = S idx))
    (fun j (r : Nat × (Nat → α) × (Nat → α)) =>
      if ((1 <<< j) &&& code) ≠ 0 then
        (r.1 + 1, Function.update r.2.1 (g.mu + (r.1 + g.P * k)) (mu (j + P * k)),
          (forUp P (fun i (q : Nat × (Nat → α)) =>
            if ((1 <<< i) &&& code) ≠ 0 then
              (q.1 + 1, Function.update q.2 (P * P + (q.1 + g.P * r.1)) (q.2 (i + P * j)))
            else q) (0, r.2.2)).2)
      else r) P (0, buf, S)
    ⟨rfl, fun j hj => by omega, fun _ _ => rfl, fun i j _ hj => by omega, fun _ _ => rfl⟩ ?_
  · obtain ⟨k1, k2, k3, k4, k5⟩ := key
    exact ⟨k1, fun j hj hb => k2 j hj hb, fun idx h => k3 idx (fun j hj hb => h j hj hb),
      fun i j hi hj hbi hbj => k4 i j hi hj hbi hbj, k5⟩
  · rintro J hJ ⟨j1, bufr, Sr⟩ ⟨a1, a2, a3, a4, a5⟩
    dsimp only at a1 a2 a3 a4 a5 ⊢
    subst a1
    by_cases hb : code.testBit J = true
    · rw [if_pos ((shift_and_ne_zero code J).mpr hb)]
      obtain ⟨_, q2, q3⟩ := pack_inner P g.P code J (bitcount J code) hJ Sr P
      dsimp only
      refine ⟨?_, fun j hj hbj => ?_, fun idx h => ?_, fun i j hi hj hbi hbj => ?_,
        fun idx hidx => ?_⟩
      · rw [bitcount_succ, hb]; rfl
      · by_cases e : j = J
        · subst e
          rw [Function.update_same]
        · have hlt : j < J := by omega
          have := pos_lt_pos code j J hlt hbj
          rw [Function.update_noteq (by omega)]
          exact a2 j hlt hbj
      · rw [Function.update_noteq (h J (by omega) hb)]
        exact a3 idx (fun j hj hbj => h j (by omega) hbj)
      · by_cases e : j = J
        · subst e
          rw [q2 i hi hi hbi, a5 _ (cell_lt P i j hi hJ)]
        · have hlt : j < J := by omega
          have hpos := pos_lt_pos code j J hlt hbj
          rw [q3 _ (fun i' hi' hbi' e' => ?_)]
          · exact a4 i j hi hlt hbi hbj
          · have h1 := bitcount_lt_of_testBit P i code hi hbi
            have h2 := bitcount_lt_of_testBit P i' code hi' hbi'
            rw [← hg] at h1 h2
            have := radix_inj g.P _ _ _ _ h1 h2 (Nat.add_left_cancel e')
            omega
      · rw [q3 _ (fun i' _ _ e' => by omega)]
        exact a5 idx hidx
    · rw [if_neg (fun e => hb ((shift_and_ne_zero code J).mp e))]
      have hbf : code.testBit J = false := by simpa using hb
      refine ⟨?_, fun j hj hbj => ?_, fun idx h => ?_, fun i j hi hj hbi hbj => ?_, a5⟩
      · rw [bitcount_succ, hbf]; rfl
      · have hne : j ≠ J := fun e => hb (e ▸ hbj)
        exact a2 j (by omega) hbj
      · exact a3 idx (fun j hj hbj => h j (by omega) hbj)
      · have hne : j ≠ J := fun e => hb (e ▸ hbj)
        exact a4 i j hi (by omega) hbi hbj

/-- The body of the loop over `code` in `sub_gmm` as the sequence of its stages. -/
theorem sub_gmm_code_eq (m : Libm α) (P : Nat) (mu b nu : Nat → α) (gmm : Nat → GMMtype)
    (k : Nat) (lgam : α) (code : Nat) (st : (Nat → α) × (Nat → α)) :
    sub_gmm_code m P mu b nu gmm k lgam code st =
      (sub_gmm_tail m b (gmm code) k lgam
          (sub_gmm_inv m P mu b nu (gmm code) k lgam code st.1 st.2).1
          (unshift (sub_gmm_pack P mu (gmm code) k code
              (sub_gmm_head P b nu (gmm code) k lgam st.1) st.2).2.1
            ((gmm code).W + k * (gmm code).P * (gmm code).P)
            (sub_gmm_inv m P mu b nu (gmm code) k lgam code st.1 st.2).2.1),
       unshift (sub_gmm_pack P mu (gmm code) k code
              (sub_gmm_head P b nu (gmm code) k lgam st.1) st.2).2.2
          (P * P + (gmm code).P * (gmm code).P)
          (sub_gmm_inv m P mu b nu (gmm code) k lgam code st.1 st.2).2.2) := rfl

theorem sub_gmm_tail_other (m : Libm α) (b : Nat → α) (g : GMMtype) (k : Nat) (lgam ld : α)
    (buf : Nat → α) (idx : Nat) (h1 : idx ≠ g.conN + k) (h2 : idx ≠ g.conT + k) :
    sub_gmm_tail m b g k lgam ld buf idx = buf idx := by
  unfold sub_gmm_tail
  rw [Function.update_noteq h2, Function.update_noteq h1]

theorem sub_gmm_head_other (P : Nat) (b nu : Nat → α) (g : GMMtype) (k : Nat) (lgam : α)
    (buf : Nat → α) (idx : Nat) (h1 : idx ≠ g.nu + k) (h2 : idx ≠ g.b + k)
    (h3 : idx ≠ g.gam + k) :
    sub_gmm_head P b nu g k lgam buf idx = buf idx := by
  unfold sub_gmm_head
  rw [Function.update_noteq h3, Function.update_noteq h2, Function.update_noteq h1]

/-- The buffer after the call of `invert` in the loop body of `sub_gmm`: the cells of the
precision block hold the output of `invert`, every other cell is as before the call. -/
theorem unshift_invert (m : Libm α) (Po : Nat) (W T bufE : Nat → α) (off idx : Nat) :
    unshift bufE off (invert m Po W (shift bufE off) T).2.1 idx
      = if off ≤ idx ∧ idx < off + Po * Po then (invert m Po W (shift bufE off) T).2.1 (idx - off)
        else bufE idx := by
  by_cases h : idx < off
  · rw [unshift_lt _ _ _ _ h, if_neg (by omega)]
  · obtain ⟨d, hd⟩ : ∃ d, idx = off + d := ⟨idx - off, by omega⟩
    subst hd
    rw [unshift_ge]
    by_cases h2 : d < Po * Po
    · rw [if_pos (by omega), Nat.add_sub_cancel_left]
    · rw [if_neg (by omega), invert_frame m Po W _ T d (by omega)]
      rfl

/-- The body of the loop over `code` in `sub_gmm` writes, in the parameter buffer, only
cells of the pattern `code` and the class `k`. -/
theorem sub_gmm_code_frame (m : Libm α) (P : Nat) (mu b nu : Nat → α) (gmm : Nat → GMMtype)
    (k : Nat) (lgam : α) (code : Nat) (st : (Nat → α) × (Nat → α))
    (hg : (gmm code).P = bitcount P code) (idx : Nat) (h : ¬ GmmCell (gmm code) k idx) :
    (sub_gmm_code m P mu b nu gmm k lgam code st).1 idx = st.1 idx := by
  have hc : ∀ p : Prop, (p → GmmCell (gmm code) k idx) → ¬ p := fun p hp e => h (hp e)
  rw [sub_gmm_code_eq]
  dsimp only
  rw [sub_gmm_tail_other m b _ k lgam _ _ idx
    (hc _ (fun e => Or.inr (Or.inr (Or.inr (Or.inr (Or.inr (Or.inl e)))))))
    (hc _ (fun e => Or.inr (Or.inr (Or.inr (Or.inr (Or.inr (Or.inr e)))))))]
  unfold sub_gmm_inv
  rw [unshift_invert, if_neg (fun e => h (Or.inr (Or.inr (Or.inr (Or.inr (Or.inl
    ⟨idx - ((gmm code).W + k * (gmm code).P * (gmm code).P), by omega, by omega⟩))))))]
  rw [(pack_spec P mu (gmm code) k code _ st.2 hg).2.2.1 idx (fun j hj hb e =>
    h (Or.inr (Or.inr (Or.inr (Or.inl ⟨bitcount j code, by
      rw [hg]; exact bitcount_lt_of_testBit P j code hj hb, e⟩)))))]
  exact sub_gmm_head_other P b nu _ k lgam st.1 idx
    (hc _ (fun e => Or.inl e)) (hc _ (fun e => Or.inr (Or.inl e)))
    (hc _ (fun e => Or.inr (Or.inr (Or.inl e))))

/-- The body of the loop over `code` in `sub_gmm` leaves the first `P*P` cells of the
scratch buffer, the inverse of the full precision, as they are. -/
theorem sub_gmm_code_frame_S (m : Libm α) (P : Nat) (mu b nu : Nat → α) (gmm : Nat → GMMtype)
    (k : Nat) (lgam : α) (code : Nat) (st : (Nat → α) × (Nat → α))
    (hg : (gmm code).P = bitcount P code) (idx : Nat) (h : idx < P * P) :
    (sub_gmm_code m P mu b nu gmm k lgam code st).2 idx = st.2 idx := by
  rw [sub_gmm_code_eq]
  dsimp only
  rw [unshift_lt _ _ _ _ (by omega)]
  exact (pack_spec P mu (gmm code) k code _ st.2 hg).2.2.2.2 idx h

/-- If the rounds after round `i` leave a component of the state alone, the component after
the loop is the one after round `i`. -/
theorem forUp_at {σ τ : Type} (π : σ → τ) (body : Nat → σ → σ) (n i : Nat) (hi : i < n)
    (hkeep : ∀ j, i < j → j < n → ∀ s, π (body j s) = π s) (s : σ) :
    π (forUp n body s) = π (body i (forUp i body s)) := by
  induction n with
  | zero => omega
  | succ n ih =>
    rw [forUp_succ]
    by_cases e : i = n
    · subst e; rfl
    · rw [hkeep n (by omega) (by omega)]
      exact ih (by omega) (fun j h1 h2 s => hkeep j h1 (by omega) s)

/-- Function `sub_gmm` with both allocations succeeding: the table of `allocate_gmm` and
the buffer left by the loop over the classes. -/
theorem sub_gmm_ok (m : Libm α) (P K : Nat) (mu b W nu gam : Nat → α) :
    sub_gmm m true true P K mu b W nu gam
      = some ((allocate_gmm_loop P K).tbl,
          (forUp K (fun k (st : (Nat → α) × (Nat → α)) =>
            forUp (1 <<< P) (sub_gmm_code m P mu b nu (allocate_gmm_loop P K).tbl k
              (m.log (gam k)))
              (st.1, unshift (invert m P (shift W (P * P * k)) st.2 (shift st.2 (P * P))).2.1
                (P * P) (invert m P (shift W (P * P * k)) st.2 (shift st.2 (P * P))).2.2))
            (fun _ => 0, fun _ => 0)).1) := rfl

/-- Every cell of class `k` of a pattern `code` holds, when `sub_gmm` returns, what the
round of `(k, code)` stored in it; that round starts from a scratch buffer whose first
`P*P` cells were left by the call `invert(P, W + P*P*k, S, S + P*P)`. -/
theorem sub_gmm_reach0 (m : Libm α) (P K : Nat) (mu b W nu gam : Nat → α)
    (k code : Nat) (hk : k < K) (hc : code < 2 ^ P) :
    ∃ buf0 S0 Sp Tp : Nat → α,
      (∀ idx, idx < P * P → S0 idx = (invert m P (shift W (P * P * k)) Sp Tp).2.1 idx) ∧
      ∀ idx, GmmCell ((allocate_gmm_loop P K).tbl code) k idx →
        (forUp K (fun k (st : (Nat → α) × (Nat → α)) =>
            forUp (1 <<< P) (sub_gmm_code m P mu b nu (allocate_gmm_loop P K).tbl k
              (m.log (gam k)))
              (st.1, unshift (invert m P (shift W (P * P * k)) st.2 (shift st.2 (P * P))).2.1
                (P * P) (invert m P (shift W (P * P * k)) st.2 (shift st.2 (P * P))).2.2))
            (fun _ => 0, fun _ => 0)).1 idx
        = (sub_gmm_code m P mu b nu (allocate_gmm_loop P K).tbl k (m.log (gam k)) code
            (buf0, S0)).1 idx := by
  have hP : (1 : Nat) <<< P = 2 ^ P := Nat.one_shiftLeft P
  have hg : ∀ c, c < 2 ^ P → ((allocate_gmm_loop P K).tbl c).P = bitcount P c :=
    fun c h => allocate_gmm_P P K c h
  generalize hprev : forUp k (fun k (st : (Nat → α) × (Nat → α)) =>
      forUp (1 <<< P) (sub_gmm_code m P mu b nu (allocate_gmm_loop P K).tbl k (m.log (gam k)))
        (st.1, unshift (invert m P (shift W (P * P * k)) st.2 (shift st.2 (P * P))).2.1
          (P * P) (invert m P (shift W (P * P * k)) st.2 (shift st.2 (P * P))).2.2))
      (fun _ => (0 : α), fun _ => (0 : α)) = stPrev
  refine ⟨(forUp code (sub_gmm_code m P mu b nu (allocate_gmm_loop P K).tbl k (m.log (gam k)))
      (stPrev.1, unshift (invert m P (shift W (P * P * k)) stPrev.2
        (shift stPrev.2 (P * P))).2.1 (P * P)
        (invert m P (shift W (P * P * k)) stPrev.2 (shift stPrev.2 (P * P))).2.2)).1,
    (forUp code (sub_gmm_code m P mu b nu (allocate_gmm_loop P K).tbl k (m.log (gam k)))
      (stPrev.1, unshift (invert m P (shift W (P * P * k)) stPrev.2
        (shift stPrev.2 (P * P))).2.1 (P * P)
        (invert m P (shift W (P * P * k)) stPrev.2 (shift stPrev.2 (P * P))).2.2)).2,
    stPrev.2, shift stPrev.2 (P * P), ?_, ?_⟩
  · intro idx hidx
    rw [forUp_keep_lt (fun st : (Nat → α) × (Nat → α) => st.2 idx) _ code
      (fun c hcc st => sub_gmm_code_frame_S m P mu b nu _ k _ c st (hg c (by omega)) idx hidx)]
    exact unshift_lt _ _ _ _ hidx
  · intro idx hcell
    have hother : ∀ k' c', k' < K → c' < 2 ^ P → ¬ (c' = code ∧ k' = k) →
        ∀ st : (Nat → α) × (Nat → α),
        (sub_gmm_code m P mu b nu (allocate_gmm_loop P K).tbl k' (m.log (gam k')) c' st).1 idx
          = st.1 idx := by
      intro k' c' hk' hc' hne st
      refine sub_gmm_code_frame m P mu b nu _ k' _ c' st (hg c' hc') idx (fun hcell' => hne ?_)
      have := gmmCell_disjoint P K c' k' code k idx hc' hc hk' hk hcell' hcell
      exact this
    rw [forUp_at (fun st : (Nat → α) × (Nat → α) => st.1 idx) _ K k hk (fun k' h1 h2 st => ?_),
      hprev]
    · rw [forUp_at (fun st : (Nat → α) × (Nat → α) => st.1 idx) _ (1 <<< P) code
        (by rw [hP]; exact hc) (fun c' h1 h2 st => ?_)]
      exact hother k c' hk (by rw [← hP]; exact h2) (fun e => by omega) st
    · exact forUp_keep_lt (fun st : (Nat → α) × (Nat → α) => st.1 idx) _ (1 <<< P)
        (fun c' hc' st => hother k' c' h2 (by rw [← hP]; exact hc') (fun e => by omega) st) _

/-- As `sub_gmm_reach0`, when the full precision of class `k` has an unfloored Cholesky
factor: the first `P*P` cells of the scratch buffer hold its inverse. -/
theorem sub_gmm_reach (m : Libm α) (hs : m.SqrtOk) (P K : Nat) (mu b W nu gam : Nat → α)
    (k code : Nat) (hk : k < K) (hc : code < 2 ^ P) (Lk : Nat → Nat → α)
    (hLk : CholFactor P (shift W (P * P * k)) Lk) :
    ∃ buf0 S0 : Nat → α,
      (∀ j r, j < P → r < P →
        Finset.sum (Finset.range P) (fun c => W (P * P * k + (r * P + c)) * S0 (c + j * P))
          = if r = j then 1 else 0) ∧
      ∀ idx, GmmCell ((allocate_gmm_loop P K).tbl code) k idx →
        (forUp K (fun k (st : (Nat → α) × (Nat → α)) =>
            forUp (1 <<< P) (sub_gmm_code m P mu b nu (allocate_gmm_loop P K).tbl k
              (m.log (gam k)))
              (st.1, unshift (invert m P (shift W (P * P * k)) st.2 (shift st.2 (P * P))).2.1
                (P * P) (invert m P (shift W (P * P * k)) st.2 (shift st.2 (P * P))).2.2))
            (fun _ => 0, fun _ => 0)).1 idx
        = (sub_gmm_code m P mu b nu (allocate_gmm_loop P K).tbl k (m.log (gam k)) code
            (buf0, S0)).1 idx := by
  obtain ⟨buf0, S0, Sp, Tp, hS, hcells⟩ := sub_gmm_reach0 m P K mu b W nu gam k code hk hc
  refine ⟨buf0, S0, fun j r hj hr => ?_, hcells⟩
  have hinv := (invert_spec m hs P (shift W (P * P * k)) Sp Tp Lk hLk).2.1 j r hj hr
  rw [← hinv]
  refine Finset.sum_congr rfl (fun c hcm => ?_)
  have hcP := Finset.mem_range.mp hcm
  have hlt : c + j * P < P * P := by
    have := rc_lt P j c hj hcP
    omega
  rw [hS _ hlt]
  rfl

/-- The parameter buffer between the call of `invert` and the stores of `conN`, `conT` in
the round of pattern `code` and class `k`, for the table entry of `allocate_gmm`. -/
theorem round_mid (m : Libm α) (P K : Nat) (mu b nu : Nat → α) (Po o k : Nat) (lgam : α)
    (code : Nat) (buf S : Nat → α) (hk : k < K) (hPo : Po = bitcount P code) :
    unshift (sub_gmm_pack P mu (gmmEntry K Po o) k code
        (sub_gmm_head P b nu (gmmEntry K Po o) k lgam buf) S).2.1
      ((gmmEntry K Po o).W + k * (gmmEntry K Po o).P * (gmmEntry K Po o).P)
      (sub_gmm_inv m P mu b nu (gmmEntry K Po o) k lgam code buf S).2.1
        ((gmmEntry K Po o).nu + k) = nu k - ((wsub P Po : Nat) : α) ∧
    unshift (sub_gmm_pack P mu (gmmEntry K Po o) k code
        (sub_gmm_head P b nu (gmmEntry K Po o) k lgam buf) S).2.1
      ((gmmEntry K Po o).W + k * (gmmEntry K Po o).P * (gmmEntry K Po o).P)
      (sub_gmm_inv m P mu b nu (gmmEntry K Po o) k lgam code buf S).2.1
        ((gmmEntry K Po o).b + k) = b k ∧
    (∀ j, j < P → code.testBit j = true →
      unshift (sub_gmm_pack P mu (gmmEntry K Po o) k code
          (sub_gmm_head P b nu (gmmEntry K Po o) k lgam buf) S).2.1
        ((gmmEntry K Po o).W + k * (gmmEntry K Po o).P * (gmmEntry K Po o).P)
        (sub_gmm_inv m P mu b nu (gmmEntry K Po o) k lgam code buf S).2.1
          ((gmmEntry K Po o).mu + (bitcount j code + Po * k)) = mu (j + P * k)) ∧
    (∀ e, e < Po * Po →
      unshift (sub_gmm_pack P mu (gmmEntry K Po o) k code
          (sub_gmm_head P b nu (gmmEntry K Po o) k lgam buf) S).2.1
        ((gmmEntry K Po o).W + k * (gmmEntry K Po o).P * (gmmEntry K Po o).P)
        (sub_gmm_inv m P mu b nu (gmmEntry K Po o) k lgam code buf S).2.1
          ((gmmEntry K Po o).W + k * Po * Po + e)
        = (sub_gmm_inv m P mu b nu (gmmEntry K Po o) k lgam code buf S).2.1 e) := by
  have hgP : (gmmEntry K Po o).P = bitcount P code := hPo
  obtain ⟨_, p2, p3, _, _⟩ := pack_spec P mu (gmmEntry K Po o) k code
    (sub_gmm_head P b nu (gmmEntry K Po o) k lgam buf) S hgP
  have m1 : ∀ j1, j1 < Po → j1 + Po * k < K * Po := fun j1 hj => by
    have := mul_cell_lt K Po k j1 hk hj
    have e1 : Po * k = k * Po := Nat.mul_comm _ _
    omega
  have m2 : k * Po * Po + Po * Po ≤ K * Po * Po := by
    have : (k + 1) * (Po * Po) ≤ K * (Po * Po) := Nat.mul_le_mul_right _ hk
    rw [Nat.add_mul, Nat.one_mul] at this
    have e1 : k * Po * Po = k * (Po * Po) := Nat.mul_assoc _ _ _
    have e2 : K * Po * Po = K * (Po * Po) := Nat.mul_assoc _ _ _
    omega
  have hpos : ∀ j, j < P → code.testBit j = true → bitcount j code < Po := fun j hj hb => by
    rw [hPo]; exact bitcount_lt_of_testBit P j code hj hb
  unfold sub_gmm_inv
  simp only [unshift_invert]
  simp only [gmmEntry] at p2 p3 ⊢
  refine ⟨?_, ?_, fun j hj hb => ?_, fun e he => ?_⟩
  · rw [if_neg (by omega), p3 _ (fun j hj hb => by have := m1 _ (hpos j hj hb); omega)]
    unfold sub_gmm_head
    simp only [gmmEntry]
    rw [Function.update_noteq (by omega), Function.update_noteq (by omega),
      Function.update_same]
  · rw [if_neg (by omega), p3 _ (fun j hj hb => by have := m1 _ (hpos j hj hb); omega)]
    unfold sub_gmm_head
    simp only [gmmEntry]
    rw [Function.update_noteq (by omega), Function.update_same]
  · have := m1 _ (hpos j hj hb)
    rw [if_neg (by omega)]
    exact p2 j hj hb
  · rw [if_pos (by omega), Nat.add_sub_cancel_left]

theorem matOf_eq_one_iff (n : Nat) (A X : Nat → Nat → α) :
    matOf n A * matOf n X = 1 ↔
      ∀ j r, j < n → r < n →
        Finset.sum (Finset.range n) (fun c => A r c * X c j) = if r = j then 1 else 0 := by
  rw [matOf_mul]
  constructor
  · intro h j r hj hr
    have := congrFun (congrFun h ⟨r, hr⟩) ⟨j, hj⟩
    rw [matOf_apply, Matrix.one_apply] at this
    simp only [Fin.mk.injEq] at this
    exact this
  · intro h
    ext r c
    rw [matOf_apply, Matrix.one_apply, h c r c.isLt r.isLt]
    by_cases e : r = c
    · rw [if_pos e, if_pos (by rw [e])]
    · rw [if_neg e, if_neg (fun e' => e (Fin.ext e'))]

/-- A square array has at most one right inverse. -/
theorem inverse_unique (n : Nat) (A X Y : Nat → Nat → α)
    (hX : ∀ j r, j < n → r < n →
      Finset.sum (Finset.range n) (fun c => A r c * X c j) = if r = j then 1 else 0)
    (hY : ∀ j r, j < n → r < n →
      Finset.sum (Finset.range n) (fun c => A r c * Y c j) = if r = j then 1 else 0)
    (c j : Nat) (hc : c < n) (hj : j < n) : X c j = Y c j := by
  have h1 := (matOf_eq_one_iff n A X).mpr hX
  have h2 := (matOf_eq_one_iff n A Y).mpr hY
  have h3 : matOf n Y * matOf n A = 1 := (Matrix.mul_eq_one_comm).mp h2
  have h4 : matOf n X = matOf n Y := by
    calc matOf n X = (matOf n Y * matOf n A) * matOf n X := by rw [h3, Matrix.one_mul]
      _ = matOf n Y * (matOf n A * matOf n X) := Matrix.mul_assoc _ _ _
      _ = matOf n Y := by rw [h1, Matrix.mul_one]
  exact congrFun (congrFun h4 ⟨c, hc⟩) ⟨j, hj⟩

/-- Every local position below the dimension of a pattern is the position of one of its
channels. -/
theorem pos_surj (P code a : Nat) (ha : a < bitcount P code) :
    ∃ i, i < P ∧ code.testBit i = true ∧ bitcount i code = a := by
  induction P with
  | zero =>
    have : bitcount 0 code = 0 := rfl
    omega
  | succ P ih =>
    rw [bitcount_succ] at ha
    by_cases h : a < bitcount P code
    · obtain ⟨i, hi, hb, e⟩ := ih h
      exact ⟨i, by omega, hb, e⟩
    · cases hb : code.testBit P
      · rw [hb] at ha
        have : (false : Bool).toNat = 0 := rfl
        omega
      · rw [hb] at ha
        have : (true : Bool).toNat = 1 := rfl
        exact ⟨P, by omega, hb, by omega⟩

/-- The sub-covariance that the round of `(k, code)` packs is the sub-matrix of the
inverse of the full precision, whatever array holds that inverse. -/
theorem packed_is_sub (P : Nat) (mu : Nat → α) (g : GMMtype) (k code : Nat) (buf S0 : Nat → α)
    (hg : g.P = bitcount P code) (Wk Sg Sub : Nat → α)
    (hS0 : ∀ j r, j < P → r < P →
      Finset.sum (Finset.range P) (fun c => Wk (r * P + c) * S0 (c + j * P))
        = if r = j then 1 else 0)
    (hSg : ∀ j r, j < P → r < P →
      Finset.sum (Finset.range P) (fun c => Wk (r * P + c) * Sg (c + j * P))
        = if r = j then 1 else 0)
    (hSub : IsSubMatrix P code Sg Sub) (idx : Nat) (hidx : idx < g.P * g.P) :
    shift (sub_gmm_pack P mu g k code buf S0).2.2 (P * P) idx = Sub idx := by
  have hPo : 0 < g.P := by
    rcases Nat.eq_zero_or_pos g.P with h | h
    · rw [h] at hidx; omega
    · exact h
  have ha : idx / g.P < g.P := Nat.div_lt_of_lt_mul hidx
  have hb : idx % g.P < g.P := Nat.mod_lt _ hPo
  have hdec : idx = idx % g.P + g.P * (idx / g.P) := (Nat.mod_add_div idx g.P).symm
  rw [hg] at ha hb
  obtain ⟨i, hi, hbi, ei⟩ := pos_surj P code _ hb
  obtain ⟨j, hj, hbj, ej⟩ := pos_surj P code _ ha
  rw [← hg] at ei ej
  have h1 := (pack_spec P mu g k code buf S0 hg).2.2.2.1 i j hi hj hbi hbj
  have h2 := hSub i j hi hj hbi hbj
  rw [← hg] at h2
  rw [ei, ej, ← hdec] at h1 h2
  unfold shift
  rw [h1, h2]
  have := inverse_unique P (fun r c => Wk (r * P + c)) (fun c j => S0 (c + j * P))
    (fun c j => Sg (c + j * P)) hS0 hSg i j hi hj
  dsimp only at this
  rw [Nat.mul_comm P j]
  exact this

/-- The call of `invert` in the round of `(k, code)`: when the sub-matrix of the inverse
of the full precision has an unfloored Cholesky factor, the call returns `-2 Σ log` of its
diagonal and leaves the inverse of that sub-matrix. -/
theorem round_inverse (m : Libm α) (hs : m.SqrtOk) (P : Nat) (mu b nu : Nat → α)
    (g : GMMtype) (k : Nat) (lgam : α) (code : Nat) (buf S0 : Nat → α)
    (hg : g.P = bitcount P code) (Wk Sg Sub : Nat → α)
    (hS0 : ∀ j r, j < P → r < P →
      Finset.sum (Finset.range P) (fun c => Wk (r * P + c) * S0 (c + j * P))
        = if r = j then 1 else 0)
    (hSg : ∀ j r, j < P → r < P →
      Finset.sum (Finset.range P) (fun c => Wk (r * P + c) * Sg (c + j * P))
        = if r = j then 1 else 0)
    (hSub : IsSubMatrix P code Sg Sub) (Lc : Nat → Nat → α) (hLc : CholFactor g.P Sub Lc) :
    (sub_gmm_inv m P mu b nu g k lgam code buf S0).1
      = -2 * Finset.sum (Finset.range g.P) (fun j => m.log (Lc j j)) ∧
    (∀ j r, j < g.P → r < g.P →
      Finset.sum (Finset.range g.P) (fun c =>
        Sub (r * g.P + c) * (sub_gmm_inv m P mu b nu g k lgam code buf S0).2.1 (c + j * g.P))
        = if r = j then 1 else 0) := by
  have hcongr : CholFactor g.P
      (shift (sub_gmm_pack P mu g k code (sub_gmm_head P b nu g k lgam buf) S0).2.2 (P * P))
      Lc :=
    cholFactor_congr g.P Sub _ Lc (fun idx hidx =>
      packed_is_sub P mu g k code _ S0 hg Wk Sg Sub hS0 hSg hSub idx hidx) hLc
  obtain ⟨h1, h2, _⟩ := invert_spec m hs g.P _
    (shift (sub_gmm_pack P mu g k code (sub_gmm_head P b nu g k lgam buf) S0).2.1
      (g.W + k * g.P * g.P))
    (shift (sub_gmm_pack P mu g k code (sub_gmm_head P b nu g k lgam buf) S0).2.2
      (P * P + g.P * g.P)) Lc hcongr
  refine ⟨h1, fun j r hj hr => ?_⟩
  rw [← h2 j r hj hr]
  refine Finset.sum_congr rfl (fun c hc => ?_)
  rw [packed_is_sub P mu g k code _ S0 hg Wk Sg Sub hS0 hSg hSub _
    (rc_lt g.P r c hr (Finset.mem_range.mp hc))]
  rfl

/-- The cells of the precision block after the round of `(k, code)` hold the output of
the call of `invert` on the packed sub-covariance. -/
theorem round_W (m : Libm α) (P K : Nat) (mu b nu : Nat → α) (gmm : Nat → GMMtype)
    (Po o k : Nat) (lgam : α) (code : Nat) (buf S : Nat → α) (hk : k < K)
    (hPo : Po = bitcount P code) (hgm : gmm code = gmmEntry K Po o) (e : Nat)
    (he : e < Po * Po) :
    (sub_gmm_code m P mu b nu gmm k lgam code (buf, S)).1 ((gmm code).W + k * Po * Po + e)
      = (sub_gmm_inv m P mu b nu (gmm code) k lgam code buf S).2.1 e := by
  have m2 : k * Po * Po + Po * Po ≤ K * Po * Po := by
    have : (k + 1) * (Po * Po) ≤ K * (Po * Po) := Nat.mul_le_mul_right _ hk
    rw [Nat.add_mul, Nat.one_mul] at this
    have e1 : k * Po * Po = k * (Po * Po) := Nat.mul_assoc _ _ _
    have e2 : K * Po * Po = K * (Po * Po) := Nat.mul_assoc _ _ _
    omega
  rw [sub_gmm_code_eq, hgm]
  dsimp only
  rw [sub_gmm_tail_other m b _ k lgam _ _ _ (by simp only [gmmEntry]; omega)
    (by simp only [gmmEntry]; omega)]
  exact (round_mid m P K mu b nu Po o k lgam code buf S hk hPo).2.2.2 e he

theorem bitcount_full (P i : Nat) (hi : i ≤ P) : bitcount i (2 ^ P - 1) = i := by
  induction i with
  | zero => rfl
  | succ i ih =>
    rw [bitcount_succ, ih (by omega), Nat.testBit_two_pow_sub_one]
    simp only [show i < P by omega, decide_True, Bool.toNat_true]

theorem testLibm_sqrtOk : testLibm.SqrtOk := fun x hx => by
  show Rat.sqrt (x * x) = x
  rw [Rat.sqrt_eq, abs_of_pos hx]

theorem choldc_floor_one (a : Nat → α) :
    choldc_floor 1 a = (1 / 10 ^ 40 + a 0) * (1 / 10 ^ 7) * ((1 / 10 ^ 40 + a 0) * (1 / 10 ^ 7)) := by
  rw [choldc_floor_trace]
  simp only [Finset.sum_range_one, Nat.zero_mul, Nat.add_zero]

theorem invert_one_eq (m : Libm α) (W S T : Nat → α) :
    (invert m 1 W S T).2.1 0 = invert1 m (W 0) := by
  rw [invert_one, choldc_floor_one]
  rfl

/-- A `1 × 1` array `(l^2)`, `l > 0`, whose entry is above the pivot floor has the
Cholesky factor `(l)`. -/
theorem cholFactor_one (a : Nat → α) (l : α) (hl : 0 < l) (ha : a 0 = l * l)
    (hfl : (1 / 10 ^ 40 + l * l) * (1 / 10 ^ 7) * ((1 / 10 ^ 40 + l * l) * (1 / 10 ^ 7)) < l * l) :
    CholFactor 1 a (fun _ _ => l) := by
  refine ⟨fun r c h1 h2 => by omega, fun _ _ => hl, fun i j hi hj => ?_, fun i _ => ?_⟩
  · have e1 : i = 0 := by omega
    have e2 : j = 0 := by omega
    subst e1 e2
    simp only [Finset.sum_range_one, Nat.zero_mul, Nat.add_zero]
    exact ha
  · rw [choldc_floor_one, ha]
    exact hfl

/-- For one channel, the precision that `sub_gmm` stores for the pattern `1` and class `k`
is the twice inverted `W[k]`, each inversion with its own pivot floor. -/
theorem sub_gmm_P1_W (m : Libm α) (K : Nat) (mu b W nu gam : Nat → α) (k : Nat) (hk : k < K) :
    ∃ buf, sub_gmm m true true 1 K mu b W nu gam = some ((allocate_gmm_loop 1 K).tbl, buf) ∧
      buf (((allocate_gmm_loop 1 K).tbl 1).W + k * 1 * 1 + 0) = invert1 m (invert1 m (W k)) := by
  have hgm := allocate_gmm_tbl 1 K 1 (by decide)
  have hb : bitcount 1 1 = 1 := by decide
  obtain ⟨buf0, S0, Sp, Tp, hS0, hcells⟩ := sub_gmm_reach0 m 1 K mu b W nu gam k 1 hk (by decide)
  refine ⟨_, sub_gmm_ok m 1 K mu b W nu gam, ?_⟩
  have hgP : ((allocate_gmm_loop 1 K).tbl 1).P = 1 := by rw [hgm, hb]; rfl
  have hcell : GmmCell ((allocate_gmm_loop 1 K).tbl 1) k
      (((allocate_gmm_loop 1 K).tbl 1).W + k * 1 * 1 + 0) := by
    refine Or.inr (Or.inr (Or.inr (Or.inr (Or.inl ⟨0, ?_, ?_⟩))))
    · rw [hgP]; decide
    · rw [hgP]
  rw [hcells _ hcell]
  have hW := round_W m 1 K mu b nu (allocate_gmm_loop 1 K).tbl 1 (offsetOf (gmmSize K) 1) k
    (m.log (gam k)) 1 buf0 S0 hk hb.symm (by rw [hgm, hb]) 0 (by decide)
  rw [hW]
  have hpk := (pack_spec 1 mu ((allocate_gmm_loop 1 K).tbl 1) k 1
    (sub_gmm_head 1 b nu ((allocate_gmm_loop 1 K).tbl 1) k (m.log (gam k)) buf0) S0
    (by rw [hgP, hb])).2.2.2.1 0 0 (by decide) (by decide) (by decide) (by decide)
  have hb0 : bitcount 0 1 = 0 := rfl
  rw [hgP, hb0] at hpk
  unfold sub_gmm_inv
  rw [hgP, invert_one_eq]
  unfold shift
  rw [hpk, hS0 _ (by decide), invert_one_eq]
  unfold shift
  congr 2
  ring_nf

theorem invert1_floored (m : Libm α) (hs : m.SqrtOk) (c w : α) (hc : 0 < c)
    (hcw : (1 / 10 ^ 40 + w) * (1 / 10 ^ 7) = c) (hw : w ≤ c * c) :
    invert1 m w = 1 / c / c := by
  unfold invert1 pivot1
  rw [hcw, if_pos hw, hs c hc]

theorem invert1_exact (m : Libm α) (hs : m.SqrtOk) (l : α) (hl : 0 < l)
    (hfl : (1 / 10 ^ 40 + l * l) * (1 / 10 ^ 7) * ((1 / 10 ^ 40 + l * l) * (1 / 10 ^ 7)) < l * l) :
    invert1 m (l * l) = 1 / l / l := by
  unfold invert1 pivot1
  rw [if_neg (not_le.mpr hfl), hs l hl]

/-- The `nu`, `b` and `mu` cells of class `k` after the round of pattern `code`. -/
theorem round_cells (m : Libm α) (P K : Nat) (mu b nu : Nat → α) (gmm : Nat → GMMtype)
    (Po o k : Nat) (lgam : α) (code : Nat) (buf S : Nat → α) (hk : k < K)
    (hPo : Po = bitcount P code) (hgm : gmm code = gmmEntry K Po o) :
    (sub_gmm_code m P mu b nu gmm k lgam code (buf, S)).1 ((gmm code).nu + k)
      = nu k - ((wsub P Po : Nat) : α) ∧
    (sub_gmm_code m P mu b nu gmm k lgam code (buf, S)).1 ((gmm code).b + k) = b k ∧
    (∀ j, j < P → code.testBit j = true →
      (sub_gmm_code m P mu b nu gmm k lgam code (buf, S)).1
        ((gmm code).mu + (bitcount j code + Po * k)) = mu (j + P * k)) := by
  have m1 : ∀ j1, j1 < Po → j1 + Po * k < K * Po := fun j1 hj => by
    have := mul_cell_lt K Po k j1 hk hj
    have e1 : Po * k = k * Po := Nat.mul_comm _ _
    omega
  have hpos : ∀ j, j < P → code.testBit j = true → bitcount j code < Po := fun j hj hb => by
    rw [hPo]; exact bitcount_lt_of_testBit P j code hj hb
  have hmid := round_mid m P K mu b nu Po o k lgam code buf S hk hPo
  rw [sub_gmm_code_eq, hgm]
  dsimp only
  refine ⟨?_, ?_, fun j hj hb => ?_⟩
  · rw [sub_gmm_tail_other m b _ k lgam _ _ _ (by simp only [gmmEntry]; omega)
      (by simp only [gmmEntry]; omega)]
    exact hmid.1
  · rw [sub_gmm_tail_other m b _ k lgam _ _ _ (by simp only [gmmEntry]; omega)
      (by simp only [gmmEntry]; omega)]
    exact hmid.2.1
  · have := m1 _ (hpos j hj hb)
    rw [sub_gmm_tail_other m b _ k lgam _ _ _ (by simp only [gmmEntry]; omega)
      (by simp only [gmmEntry]; omega)]
    exact hmid.2.2.1 j hj hb

/-- The constant `conN[k]` after the round of pattern `code`. -/
theorem round_conN (m : Libm α) (P K : Nat) (mu b nu : Nat → α) (gmm : Nat → GMMtype)
    (Po o k : Nat) (lgam : α) (code : Nat) (buf S : Nat → α) (hk : k < K)
    (hPo : Po = bitcount P code) (hgm : gmm code = gmmEntry K Po o) :
    (sub_gmm_code m P mu b nu gmm k lgam code (buf, S)).1 ((gmm code).conN + k)
      = (1 / 2) * (forUp Po (fun j eld =>
            eld + psi m ((nu k - ((wsub P Po : Nat) : α) - (j : α)) * (1 / 2))) 0
          + ((Po : α) * m.log 2 + (sub_gmm_inv m P mu b nu (gmm code) k lgam code buf S).1)
          - (Po : α) * (m.log (2 * pi) + 1 / b k)) + lgam := by
  have hmid := round_mid m P K mu b nu Po o k lgam code buf S hk hPo
  rw [sub_gmm_code_eq, hgm]
  dsimp only
  unfold sub_gmm_tail
  rw [Function.update_noteq (by simp only [gmmEntry]; omega), Function.update_same,
    hmid.1, hmid.2.1]
  rfl

/-- A diagonal `2 × 2` array `diag(l0^2, l1^2)` whose entries are above the pivot floor has
the Cholesky factor `diag(l0, l1)`. -/
theorem cholFactor_diag2 (a : Nat → α) (l0 l1 : α) (h0 : 0 < l0) (h1 : 0 < l1)
    (ha0 : a 0 = l0 * l0) (ha1 : a 1 = 0) (ha2 : a 2 = 0) (ha3 : a 3 = l1 * l1)
    (hf0 : choldc_floor 2 a < l0 * l0) (hf1 : choldc_floor 2 a < l1 * l1) :
    CholFactor 2 a (fun r c => if r = c then (if r = 0 then l0 else l1) else 0) := by
  refine ⟨fun r c h1 h2 => if_neg (by omega), fun i hi => ?_, fun i j hi hj => ?_,
    fun i hi => ?_⟩
  · dsimp only
    rw [if_pos rfl]
    split
    · exact h0
    · exact h1
  · have hi2 : i = 0 ∨ i = 1 := by omega
    have hj2 : j = 0 ∨ j = 1 := by omega
    rcases hi2 with rfl | rfl <;> rcases hj2 with rfl | rfl <;>
      simp [Finset.sum_range_succ, ha0, ha1, ha2, ha3]
  · have hi2 : i = 0 ∨ i = 1 := by omega
    rcases hi2 with rfl | rfl
    · simpa using hf0
    · simpa using hf1

/-- Two channels, one class, diagonal precision `diag(l0^2, l1^2)` above the floor of the
first inversion: the cells of the pattern `code = 2` in the buffer that `sub_gmm` builds. -/
theorem sub_gmm_diag2 (m : Libm α) (hs : m.SqrtOk) (mu b W nu gam : Nat → α) (l0 l1 : α)
    (h0 : 0 < l0) (h1 : 0 < l1) (hW0 : W 0 = l0 * l0) (hW1 : W 1 = 0) (hW2 : W 2 = 0)
    (hW3 : W 3 = l1 * l1) (hf0 : choldc_floor 2 W < l0 * l0)
    (hf1 : choldc_floor 2 W < l1 * l1) :
    ∃ buf, sub_gmm m true true 2 1 mu b W nu gam = some ((allocate_gmm_loop 2 1).tbl, buf) ∧
      ((allocate_gmm_loop 2 1).tbl 2).P = 1 ∧
      buf (((allocate_gmm_loop 2 1).tbl 2).mu + (0 + 1 * 0)) = mu 1 ∧
      buf (((allocate_gmm_loop 2 1).tbl 2).W + 0 * 1 * 1 + 0) = invert1 m (1 / l1 * (1 / l1)) ∧
      buf (((allocate_gmm_loop 2 1).tbl 2).nu + 0) = nu 0 - 1 := by
  have hgm := allocate_gmm_tbl 2 1 2 (by decide)
  have hb : bitcount 2 2 = 1 := by decide
  have hb1 : bitcount 1 2 = 0 := by decide
  have hgP : ((allocate_gmm_loop 2 1).tbl 2).P = 1 := by rw [hgm, hb]; rfl
  have hLk : CholFactor 2 (shift W (2 * 2 * 0))
      (fun r c => if r = c then (if r = 0 then l0 else l1) else 0) :=
    cholFactor_diag2 _ l0 l1 h0 h1 hW0 hW1 hW2 hW3
      (by rw [choldc_floor_congr 2 (shift W (2 * 2 * 0)) W (fun i _ => by unfold shift; simp)]
          exact hf0)
      (by rw [choldc_floor_congr 2 (shift W (2 * 2 * 0)) W (fun i _ => by unfold shift; simp)]
          exact hf1)
  obtain ⟨buf0, S0, hinv, hcells⟩ :=
    sub_gmm_reach m hs 2 1 mu b W nu gam 0 2 (by decide) (by decide) _ hLk
  have hS3 : S0 3 = 1 / l1 * (1 / l1) := by
    have e := hinv 1 1 (by decide) (by decide)
    simp only [Finset.sum_range_succ, Finset.sum_range_zero, if_true] at e
    norm_num at e
    rw [hW2, hW3] at e
    have hl : l1 ≠ 0 := ne_of_gt h1
    field_simp
    linear_combination e
  have hc := round_cells m 2 1 mu b nu (allocate_gmm_loop 2 1).tbl 1
    (offsetOf (gmmSize 1) 2) 0 (m.log (gam 0)) 2 buf0 S0 (by decide) hb.symm (by rw [hgm, hb])
  refine ⟨_, sub_gmm_ok m 2 1 mu b W nu gam, hgP, ?_, ?_, ?_⟩
  · rw [hcells _ (Or.inr (Or.inr (Or.inr (Or.inl ⟨0, by rw [hgP]; decide, by rw [hgP]⟩))))]
    have := hc.2.2 1 (by decide) (by decide)
    rw [hb1] at this
    exact this
  · rw [hcells _ (Or.inr (Or.inr (Or.inr (Or.inr (Or.inl
      ⟨0, by rw [hgP]; decide, by rw [hgP]⟩)))))]
    rw [round_W m 2 1 mu b nu (allocate_gmm_loop 2 1).tbl 1 (offsetOf (gmmSize 1) 2) 0
      (m.log (gam 0)) 2 buf0 S0 (by decide) hb.symm (by rw [hgm, hb]) 0 (by decide)]
    have hpk := (pack_spec 2 mu ((allocate_gmm_loop 2 1).tbl 2) 0 2
      (sub_gmm_head 2 b nu ((allocate_gmm_loop 2 1).tbl 2) 0 (m.log (gam 0)) buf0) S0
      (by rw [hgP, hb])).2.2.2.1 1 1 (by decide) (by decide) (by decide) (by decide)
    rw [hgP, hb1] at hpk
    unfold sub_gmm_inv
    rw [hgP, invert_one_eq]
    unfold shift
    rw [hpk, hS3]
  · rw [hcells _ (Or.inl rfl)]
    have e := hc.1
    have hw : wsub 2 1 = 1 := by decide
    rw [hw, Nat.cast_one] at e
    exact e

end Lemmas9

section Lemmas10

set_option linter.unusedSectionVars false

variable {α : Type} [LinearOrderedField α] [FloorRing α]

/-! ## The one-channel table and its responsibilities -/

/-- Function `invert` on a `1 × 1` array: the returned value. -/
theorem invert_one_ld (m : Libm α) (W S T : Nat → α) :
    (invert m 1 W S T).1 = -2 * m.log (m.sqrt (pivot1 (W 0))) := by
  have hfl : choldc_floor 1 (Function.update T 0 (W 0)) = choldc_floor 1 W :=
    choldc_floor_congr 1 _ _ (fun i hi => by
      have : i = 0 := by omega
      subst this
      simp)
  unfold invert
  simp only [Nat.mul_one, forUp_one]
  rw [choldc_one, hfl, choldc_floor_one]
  simp only [shift, unshift, Nat.add_zero, Nat.lt_irrefl, if_false, Nat.sub_self,
    Function.update_same, zero_add]
  rfl

/-- The loop of `allocate_gmm` leaves the entries from `2^P` on as they were. -/
theorem allocate_gmm_tbl_ge (P K code : Nat) (h : 2 ^ P ≤ code) :
    (allocate_gmm_loop P K).tbl code = ⟨0, 0, 0, 0, 0, 0, 0, 0⟩ := by
  unfold allocate_gmm_loop
  rw [(allocate_gmm_loop_spec K (1 <<< P)).2 code, Nat.one_shiftLeft, if_neg (by omega)]

/-- One channel: the cells of the pattern `code = 1` and class `k` in the buffer that
`sub_gmm` builds, for any input. -/
theorem sub_gmm_P1_cells (m : Libm α) (K : Nat) (mu b W nu gam : Nat → α) :
    ∃ buf, sub_gmm m true true 1 K mu b W nu gam = some ((allocate_gmm_loop 1 K).tbl, buf) ∧
      ∀ k, k < K →
        buf (((allocate_gmm_loop 1 K).tbl 1).nu + k) = nu k ∧
        buf (((allocate_gmm_loop 1 K).tbl 1).mu + k * 1 + 0) = mu k ∧
        buf (((allocate_gmm_loop 1 K).tbl 1).W + k * (1 * 1) + (0 * 1 + 0))
          = invert1 m (invert1 m (W k)) ∧
        buf (((allocate_gmm_loop 1 K).tbl 1).conN + k)
          = (1 / 2) * (psi m (nu k * (1 / 2))
              + (m.log 2 + -2 * m.log (m.sqrt (pivot1 (invert1 m (W k)))))
              - (m.log (2 * pi) + 1 / b k)) + m.log (gam k) := by
  have hgm := allocate_gmm_tbl 1 K 1 (by decide)
  have hb : bitcount 1 1 = 1 := by decide
  have hb0 : bitcount 0 1 = 0 := rfl
  have hgP : ((allocate_gmm_loop 1 K).tbl 1).P = 1 := by rw [hgm, hb]; rfl
  refine ⟨_, sub_gmm_ok m 1 K mu b W nu gam, fun k hk => ?_⟩
  obtain ⟨buf0, S0, Sp, Tp, hS0, hcells⟩ := sub_gmm_reach0 m 1 K mu b W nu gam k 1 hk (by decide)
  have hc := round_cells m 1 K mu b nu (allocate_gmm_loop 1 K).tbl 1
    (offsetOf (gmmSize K) 1) k (m.log (gam k)) 1 buf0 S0 hk hb.symm (by rw [hgm, hb])
  have hpk := (pack_spec 1 mu ((allocate_gmm_loop 1 K).tbl 1) k 1
    (sub_gmm_head 1 b nu ((allocate_gmm_loop 1 K).tbl 1) k (m.log (gam k)) buf0) S0
    (by rw [hgP, hb])).2.2.2.1 0 0 (by decide) (by decide) (by decide) (by decide)
  rw [hgP, hb0] at hpk
  have hSi : shift (sub_gmm_pack 1 mu ((allocate_gmm_loop 1 K).tbl 1) k 1
      (sub_gmm_head 1 b nu ((allocate_gmm_loop 1 K).tbl 1) k (m.log (gam k)) buf0) S0).2.2
        (1 * 1) 0 = invert1 m (W k) := by
    unfold shift
    rw [hpk, hS0 _ (by decide), invert_one_eq]
    unfold shift
    congr 2
    ring_nf
  have hw : wsub 1 1 = 0 := by decide
  refine ⟨?_, ?_, ?_, ?_⟩
  · rw [hcells _ (Or.inl rfl), hc.1, hw, Nat.cast_zero, sub_zero]
  · have e : ((allocate_gmm_loop 1 K).tbl 1).mu + k * 1 + 0
        = ((allocate_gmm_loop 1 K).tbl 1).mu + (bitcount 0 1 + 1 * k) := by
      rw [hb0]; omega
    rw [e, hcells _ (Or.inr (Or.inr (Or.inr (Or.inl ⟨0, by rw [hgP]; decide, by rw [hgP, hb0]⟩))))]
    have := hc.2.2 0 (by decide) (by decide)
    rw [this]
    congr 1
    omega
  · have e : ((allocate_gmm_loop 1 K).tbl 1).W + k * (1 * 1) + (0 * 1 + 0)
        = ((allocate_gmm_loop 1 K).tbl 1).W + k * 1 * 1 + 0 := by omega
    rw [e, hcells _ (Or.inr (Or.inr (Or.inr (Or.inr (Or.inl
      ⟨0, by rw [hgP]; decide, by rw [hgP]⟩))))),
      round_W m 1 K mu b nu (allocate_gmm_loop 1 K).tbl 1 (offsetOf (gmmSize K) 1) k
        (m.log (gam k)) 1 buf0 S0 hk hb.symm (by rw [hgm, hb]) 0 (by decide)]
    unfold sub_gmm_inv
    rw [hgP, invert_one_eq, hSi]
  · rw [hcells _ (Or.inr (Or.inr (Or.inr (Or.inr (Or.inr (Or.inl rfl)))))),
      round_conN m 1 K mu b nu (allocate_gmm_loop 1 K).tbl 1 (offsetOf (gmmSize K) 1) k
        (m.log (gam k)) 1 buf0 S0 hk hb.symm (by rw [hgm, hb])]
    unfold sub_gmm_inv
    rw [hgP, invert_one_ld, hSi, forUp_one, hw]
    simp only [Nat.cast_zero, Nat.cast_one, sub_zero, zero_add, one_mul]

theorem del2_one (mu W x v : Nat → α) :
    del2 1 mu W x v = W 0 * ((x 0 - mu 0) * (x 0 - mu 0) + v 0) := by
  unfold del2
  rw [forUp_one]
  dsimp only
  rw [forFrom_of_le _ _ (by omega), zero_add]

theorem logOk_one (m : Libm α) (hl : m.LogOk) : m.log 1 = 0 := by
  have h := hl 1 1 one_pos one_pos
  rw [mul_one] at h
  linarith

theorem logOk_inv (m : Libm α) (hl : m.LogOk) (l : α) (h : 0 < l) :
    m.log (1 / l) = - m.log l := by
  have h1 := hl l (1 / l) h (by positivity)
  rw [mul_one_div_cancel (ne_of_gt h), logOk_one m hl] at h1
  linarith

/-- One channel, precision `l^2` with both pivots above their floors: the twice inverted
precision is `l^2` again and the value returned by the second inversion is `log (l^2)`. -/
theorem invert1_twice (m : Libm α) (hs : m.SqrtOk) (hlog : m.LogOk) (l : α) (hl : 0 < l)
    (hf1 : choldc_floor 1 (fun _ => l * l) < l * l)
    (hf2 : choldc_floor 1 (fun _ => 1 / (l * l)) < 1 / (l * l)) :
    invert1 m (invert1 m (l * l)) = l * l ∧
    -2 * m.log (m.sqrt (pivot1 (invert1 m (l * l)))) = m.log (l * l) := by
  have hne : l ≠ 0 := ne_of_gt hl
  have e1 : (1 : α) / l / l = 1 / l * (1 / l) := by field_simp
  have e2 : (1 : α) / (l * l) = 1 / l * (1 / l) := by field_simp
  rw [choldc_floor_one] at hf1 hf2
  rw [e2] at hf2
  have h1 : invert1 m (l * l) = 1 / l * (1 / l) := by
    rw [invert1_exact m hs l hl hf1, e1]
  have hp : pivot1 (1 / l * (1 / l)) = 1 / l * (1 / l) := by
    unfold pivot1
    rw [if_neg (not_le.mpr hf2)]
  rw [h1]
  refine ⟨?_, ?_⟩
  · rw [invert1_exact m hs (1 / l) (by positivity) hf2]
    field_simp
  · rw [hp, hs (1 / l) (by positivity), logOk_inv m hlog l hl, hlog l l hl hl]
    ring

/-- The logit of `Nresp` for one channel, from the cells of the pattern. -/
theorem Nresp_logit_one (gmm : Nat → GMMtype) (buf : Nat → α) (code : Nat) (x v p : Nat → α)
    (k : Nat) (hP : (gmm code).P = 1) :
    Nresp_logit gmm buf code x v p k
      = p k + (buf ((gmm code).conN + k) - (1 / 2) * buf ((gmm code).nu + k) *
          (buf ((gmm code).W + k * (1 * 1) + (0 * 1 + 0))
            * ((x 0 - buf ((gmm code).mu + k * 1 + 0))
                * (x 0 - buf ((gmm code).mu + k * 1 + 0)) + v 0))) := by
  unfold Nresp_logit
  rw [hP, del2_one]
  rfl

theorem rint_near (x : α) (n : Int) (h1 : (n : α) - 1 / 2 < x) (h2 : x < (n : α) + 1 / 2) :
    rint x = n := by
  unfold rint
  by_cases hx : (n : α) ≤ x
  · have hf : ⌊x⌋ = n := Int.floor_eq_iff.mpr ⟨hx, by linarith⟩
    rw [hf]
    dsimp only
    rw [if_pos (by linarith)]
  · have hx' : x < (n : α) := not_le.mp hx
    have hf : ⌊x⌋ = n - 1 := Int.floor_eq_iff.mpr ⟨by push_cast; linarith, by push_cast; linarith⟩
    rw [hf]
    dsimp only
    rw [if_neg (by push_cast; linarith), if_pos (by push_cast; linarith)]
    omega

/-- The value of `fastexp` at an argument that rounds to `-1`. -/
theorem fastexp_near_neg_one (m : Libm α) (y : α) (h1 : -(3 / 2) < y) (h2 : y < -(1 / 2)) :
    fastexp m y
      = m.exp (-1) * (1 + 2 * (y + 1) / (2 - (y + 1) + (y + 1) * (y + 1) / 6)) := by
  have hr : rint y = -1 := rint_near y (-1) (by push_cast; linarith) (by push_cast; linarith)
  unfold fastexp
  rw [hr]
  dsimp only
  rw [if_neg (by decide), if_neg (by decide)]
  push_cast
  rw [sub_neg_eq_add]

/-- The first responsibility of `softmax1` for two classes with `q[1] ≤ q[0]`. -/
theorem softmax1_two (m : Libm α) (hm : m.ExpOk) (q p : Nat → α) (h : q 1 ≤ q 0) :
    (softmax1 m 2 q p).2 0 = 1 / (1 + fastexp m (q 1 - q 0)) := by
  have hmx : softmax1_max 2 q = q 0 := by
    show (if q 1 > q 0 then q 1 else q 0) = q 0
    rw [if_neg (not_lt.mpr h)]
  rw [softmax1_eq]
  dsimp only
  rw [if_pos (by decide)]
  unfold softmax1_norm
  rw [hmx, Finset.sum_range_succ, Finset.sum_range_one, sub_self, fastexp_zero m hm]

/-- The real logarithms of `10^15` and of the floor constant `c = (1e-40 + 10^15) * 1e-7`:
`2 log c - log 10^15` lies between `1` and `3`. -/
theorem floor_gap_bounds :
    1 + Real.log (10 ^ 15) < 2 * Real.log ((1 / 10 ^ 40 + 10 ^ 15) * (1 / 10 ^ 7)) ∧
    2 * Real.log ((1 / 10 ^ 40 + 10 ^ 15) * (1 / 10 ^ 7)) < 3 + Real.log (10 ^ 15) := by
  have hc : (0 : ℝ) < (1 / 10 ^ 40 + 10 ^ 15) * (1 / 10 ^ 7) := by norm_num
  have hgap1 : 1 + Real.log (10 ^ 15) < 2 * Real.log ((1 / 10 ^ 40 + 10 ^ 15) * (1 / 10 ^ 7)) := by
    have e1 : 2 * Real.log ((1 / 10 ^ 40 + 10 ^ 15) * (1 / 10 ^ 7))
        = Real.log ((1 / 10 ^ 40 + 10 ^ 15) * (1 / 10 ^ 7) * ((1 / 10 ^ 40 + 10 ^ 15) * (1 / 10 ^ 7))) := by
      rw [Real.log_mul (ne_of_gt hc) (ne_of_gt hc)]; ring
    have e2 : 1 + Real.log (10 ^ 15) = Real.log (Real.exp 1 * 10 ^ 15) := by
      rw [Real.log_mul (Real.exp_ne_zero 1) (by norm_num), Real.log_exp]
    rw [e1, e2]
    refine Real.log_lt_log (by positivity) ?_
    have := Real.exp_one_lt_d9
    have h3 : Real.exp 1 * 10 ^ 15 < 3 * 10 ^ 15 := by
      have : Real.exp 1 < 3 := by linarith
      nlinarith
    refine lt_trans h3 ?_
    norm_num
  have hgap2 : 2 * Real.log ((1 / 10 ^ 40 + 10 ^ 15) * (1 / 10 ^ 7)) < 3 + Real.log (10 ^ 15) := by
    have e1 : 2 * Real.log ((1 / 10 ^ 40 + 10 ^ 15) * (1 / 10 ^ 7))
        = Real.log ((1 / 10 ^ 40 + 10 ^ 15) * (1 / 10 ^ 7) * ((1 / 10 ^ 40 + 10 ^ 15) * (1 / 10 ^ 7))) := by
      rw [Real.log_mul (ne_of_gt hc) (ne_of_gt hc)]; ring
    have e2 : 3 + Real.log (10 ^ 15) = Real.log (Real.exp 3 * 10 ^ 15) := by
      rw [Real.log_mul (Real.exp_ne_zero 3) (by norm_num), Real.log_exp]
    rw [e1, e2]
    refine Real.log_lt_log (by positivity) ?_
    have h1 := Real.exp_one_gt_d9
    have e3 : Real.exp 3 = Real.exp 1 * Real.exp 1 * Real.exp 1 := by
      rw [← Real.exp_add, ← Real.exp_add]; norm_num
    have h11 : (11 : ℝ) < Real.exp 3 := by
      rw [e3]
      have h2 : (2 : ℝ) < Real.exp 1 := by linarith
      nlinarith [mul_pos (Real.exp_pos 1) (Real.exp_pos 1)]
    have h4 : (11 : ℝ) * 10 ^ 15 < Real.exp 3 * 10 ^ 15 := by nlinarith
    refine lt_trans ?_ h4
    norm_num
  exact ⟨hgap1, hgap2⟩

/-- With the real `exp`, `fastexp` is below `1` at arguments that round to `-1`. -/
theorem fastexp_lt_one_near (m : Libm ℝ) (hem : m.exp = Real.exp) (y : ℝ)
    (hy1 : -(3 / 2) < y) (hy2 : y < -(1 / 2)) : fastexp m y < 1 := by
  rw [fastexp_near_neg_one m y hy1 hy2, hem]
  have he1 : Real.exp (-1) < 1 / 2 := by
    rw [Real.exp_neg]
    have := Real.exp_one_gt_d9
    rw [inv_eq_one_div]
    rw [div_lt_div_iff₀ (Real.exp_pos 1) (by norm_num)]
    linarith
  have he0 : 0 < Real.exp (-1) := Real.exp_pos _
  have hD : 0 < 2 - (y + 1) + (y + 1) * (y + 1) / 6 := by nlinarith [mul_self_nonneg (y + 1)]
  have hF : 1 + 2 * (y + 1) / (2 - (y + 1) + (y + 1) * (y + 1) / 6) < 5 / 3 := by
    have : 2 * (y + 1) / (2 - (y + 1) + (y + 1) * (y + 1) / 6) < 2 / 3 := by
      rw [div_lt_iff₀ hD]
      nlinarith [mul_self_nonneg (y + 1)]
    linarith
  by_cases hF0 : 1 + 2 * (y + 1) / (2 - (y + 1) + (y + 1) * (y + 1) / 6) ≤ 0
  · have := mul_nonpos_of_nonneg_of_nonpos (le_of_lt he0) hF0
    linarith
  · have hFp := not_le.mp hF0
    nlinarith

end Lemmas10

section Lemmas11

set_option linter.unusedSectionVars false

variable {α : Type} [LinearOrderedField α] [FloorRing α]

/-! ## Kernels, bit patterns and the guarded Cholesky code -/

/-- Function `del2` as a sum over the diagonal and the upper triangle of `W`. -/
theorem del2_sum (P : Nat) (mu W x v : Nat → α) :
    del2 P mu W x v = Finset.sum (Finset.range P) (fun j =>
      W (j * P + j) * ((x j - mu j) * (x j - mu j) + v j)
        + Finset.sum (Finset.Ico (j + 1) P) (fun i =>
            2 * (x j - mu j) * W (j * P + i) * (x i - mu i))) := by
  unfold del2
  rw [forUp_acc (fun d : α => d) _ (fun j =>
      W (j * P + j) * ((x j - mu j) * (x j - mu j) + v j)
        + Finset.sum (Finset.Ico (j + 1) P) (fun i =>
            2 * (x j - mu j) * W (j * P + i) * (x i - mu i))) (fun j d => ?_) P 0, zero_add]
  dsimp only
  rw [forFrom_acc (fun d : α => d) _ (fun i => 2 * (x j - mu j) * W (j * P + i) * (x i - mu i))
    (fun _ _ => rfl), add_assoc]

/-- A symmetric quadratic form as the sum over the diagonal and twice the upper triangle. -/
theorem quad_split (n : Nat) (A : Nat → Nat → α) (r : Nat → α)
    (hsym : ∀ i j, i < n → j < n → A i j = A j i) :
    Finset.sum (Finset.range n) (fun j => Finset.sum (Finset.range n) (fun i => r j * A j i * r i))
      = Finset.sum (Finset.range n) (fun j => A j j * (r j * r j)
          + Finset.sum (Finset.Ico (j + 1) n) (fun i => 2 * r j * A j i * r i)) := by
  induction n with
  | zero => simp
  | succ n ih =>
    have h1 : Finset.sum (Finset.range n) (fun j =>
        Finset.sum (Finset.range (n + 1)) (fun i => r j * A j i * r i))
        = Finset.sum (Finset.range n) (fun j =>
            Finset.sum (Finset.range n) (fun i => r j * A j i * r i))
          + Finset.sum (Finset.range n) (fun j => r j * A j n * r n) := by
      rw [← Finset.sum_add_distrib]
      exact Finset.sum_congr rfl (fun j _ => Finset.sum_range_succ _ _)
    have h2 : Finset.sum (Finset.range n) (fun j => A j j * (r j * r j)
          + Finset.sum (Finset.Ico (j + 1) (n + 1)) (fun i => 2 * r j * A j i * r i))
        = Finset.sum (Finset.range n) (fun j => A j j * (r j * r j)
          + Finset.sum (Finset.Ico (j + 1) n) (fun i => 2 * r j * A j i * r i))
          + Finset.sum (Finset.range n) (fun j => 2 * r j * A j n * r n) := by
      rw [← Finset.sum_add_distrib]
      refine Finset.sum_congr rfl (fun j hj => ?_)
      have hjn : j + 1 ≤ n := Finset.mem_range.mp hj
      rw [Finset.sum_Ico_succ_top hjn, add_assoc]
    have h3 : Finset.sum (Finset.range n) (fun i => r n * A n i * r i)
        = Finset.sum (Finset.range n) (fun j => r j * A j n * r n) := by
      refine Finset.sum_congr rfl (fun i hi => ?_)
      rw [hsym n i (by omega) (by have := Finset.mem_range.mp hi; omega)]
      ring
    rw [Finset.sum_range_succ, h1, Finset.sum_range_succ (fun i => r n * A n i * r i) n, h3,
      ih (fun i j hi hj => hsym i j (by omega) (by omega)),
      Finset.sum_range_succ (fun j => A j j * (r j * r j)
          + Finset.sum (Finset.Ico (j + 1) (n + 1)) (fun i => 2 * r j * A j i * r i)) n, h2,
      Finset.Ico_self, Finset.sum_empty]
    have h4 : Finset.sum (Finset.range n) (fun j => 2 * r j * A j n * r n)
        = 2 * Finset.sum (Finset.range n) (fun j => r j * A j n * r n) := by
      rw [Finset.mul_sum]
      exact Finset.sum_congr rfl (fun j _ => by ring)
    rw [h4]
    ring

/-- Function `del2` reads `W` only on the diagonal and the upper triangle. -/
theorem del2_congr_W (P : Nat) (mu W W' x v : Nat → α)
    (h : ∀ j i, j ≤ i → i < P → W' (j * P + i) = W (j * P + i)) :
    del2 P mu W' x v = del2 P mu W x v := by
  unfold del2
  refine forUp_congr P _ _ (fun j hj d => ?_) _
  dsimp only
  rw [h j j (le_refl _) hj]
  refine forFrom_congr _ _ _ _ (fun i hi1 hi2 d' => ?_) _
  rw [h j i (by omega) hi2]

/-- The running maximum of `softmax` (started at `0`) is non-negative, dominates every
entry, and is `0` or one of the entries. -/
theorem softmax_max_spec (q : Nat → α) (K : Nat) :
    0 ≤ forUp K (fun k mx => if q k > mx then q k else mx) (0 : α) ∧
    (∀ k, k < K → q k ≤ forUp K (fun k mx => if q k > mx then q k else mx) (0 : α)) ∧
    (forUp K (fun k mx => if q k > mx then q k else mx) (0 : α) = 0 ∨
      ∃ k, k < K ∧ q k = forUp K (fun k mx => if q k > mx then q k else mx) (0 : α)) := by
  induction K with
  | zero => exact ⟨le_refl _, fun k hk => by omega, Or.inl rfl⟩
  | succ n ih =>
    obtain ⟨h0, h1, h2⟩ := ih
    rw [forUp_succ]
    generalize forUp n (fun k mx => if q k > mx then q k else mx) (0 : α) = M at h0 h1 h2
    by_cases hq : q n > M
    · rw [if_pos hq]
      refine ⟨le_trans h0 (le_of_lt hq), fun k hk => ?_, Or.inr ⟨n, by omega, rfl⟩⟩
      by_cases e : k = n
      · rw [e]
      · exact le_trans (h1 k (by omega)) (le_of_lt hq)
    · rw [if_neg hq]
      refine ⟨h0, fun k hk => ?_, ?_⟩
      · by_cases e : k = n
        · rw [e]; exact not_lt.mp hq
        · exact h1 k (by omega)
      · rcases h2 with h2 | ⟨k, hk, e⟩
        · exact Or.inl h2
        · exact Or.inr ⟨k, by omega, e⟩

/-- The maximum taken by `softmax` on `q` is the maximum taken by `softmax1` on `q`
extended by a zero. -/
theorem softmax_max_eq (q : Nat → α) (K : Nat) :
    forUp K (fun k mx => if q k > mx then q k else mx) (0 : α)
      = softmax1_max (K + 1) (fun i => if i < K then q i else 0) := by
  obtain ⟨h0, h1, h2⟩ := softmax_max_spec q K
  obtain ⟨g1, k0, hk0, g2⟩ := softmax1_max_spec (fun i => if i < K then q i else (0 : α)) K
  refine le_antisymm ?_ ?_
  · rcases h2 with h2 | ⟨k, hk, e⟩
    · have := g1 K (by omega)
      simp only [Nat.lt_irrefl, if_false] at this
      rw [h2]; exact this
    · have := g1 k (by omega)
      simp only [hk, if_true] at this
      rw [← e]; exact this
  · rw [← g2]
    by_cases hk : k0 < K
    · simp only [hk, if_true]
      exact h1 k0 hk
    · simp only [hk, if_false]
      exact h0

/-- Function `softmax` in closed form. -/
theorem softmax_eq (m : Libm α) (K : Nat) (q p : Nat → α) :
    softmax m K q p =
      (m.log (fastexp m (-(forUp K (fun k mx => if q k > mx then q k else mx) 0))
          + Finset.sum (Finset.range K) (fun k =>
              fastexp m (q k - forUp K (fun k mx => if q k > mx then q k else mx) 0)))
        + forUp K (fun k mx => if q k > mx then q k else mx) 0,
       fun i => if i < K then
          fastexp m (q i - forUp K (fun k mx => if q k > mx then q k else mx) 0)
            / (fastexp m (-(forUp K (fun k mx => if q k > mx then q k else mx) 0))
                + Finset.sum (Finset.range K) (fun k =>
                    fastexp m (q k - forUp K (fun k mx => if q k > mx then q k else mx) 0)))
        else p i) := by
  unfold softmax
  simp only [forUp_sum_update]
  rw [forUp_map_update K (fun _ y => y / _)]
  refine Prod.ext rfl ?_
  funext i
  by_cases h : i < K <;> simp [h]

/-- The closed softmax and `softmax1` on the vector extended by a zero logit. -/
theorem softmax_as_softmax1 (m : Libm α) (K : Nat) (q p p' : Nat → α) :
    (softmax m K q p).1 = (softmax1 m (K + 1) (fun i => if i < K then q i else 0) p').1 ∧
    ∀ k, k < K →
      (softmax m K q p).2 k = (softmax1 m (K + 1) (fun i => if i < K then q i else 0) p').2 k := by
  have hn : softmax1_norm m (K + 1) (fun i => if i < K then q i else 0)
      = fastexp m (-(forUp K (fun k mx => if q k > mx then q k else mx) 0))
        + Finset.sum (Finset.range K) (fun k =>
            fastexp m (q k - forUp K (fun k mx => if q k > mx then q k else mx) 0)) := by
    unfold softmax1_norm
    rw [Finset.sum_range_succ, ← softmax_max_eq, add_comm]
    simp only [Nat.lt_irrefl, if_false, zero_sub]
    congr 1
    refine Finset.sum_congr rfl (fun k hk => ?_)
    rw [if_pos (Finset.mem_range.mp hk)]
  rw [softmax_eq, softmax1_eq, hn, ← softmax_max_eq]
  refine ⟨rfl, fun k hk => ?_⟩
  dsimp only
  rw [if_pos hk, if_pos (by omega), if_pos hk]

theorem bitcount_card (n c : Nat) :
    bitcount n c = (Finset.filter (fun i => c.testBit i = true) (Finset.range n)).card := by
  induction n with
  | zero => rfl
  | succ n ih =>
    rw [bitcount_succ, ih, Finset.range_succ, Finset.filter_insert]
    by_cases h : c.testBit n = true
    · rw [if_pos h, Finset.card_insert_of_not_mem (by simp), h]
      rfl
    · rw [if_neg h]
      have : c.testBit n = false := by simpa using h
      rw [this]
      rfl

theorem bitcount_eq_of_lt (c n n' : Nat) (h : c < 2 ^ n) (h' : c < 2 ^ n') :
    bitcount n c = bitcount n' c := by
  rw [← bitcount_self n c h, ← bitcount_self n' c h']

/-- The counting loop over the bits below `n` gives the number of set bits of `c` as soon as
`c < 2^n`. -/
theorem bitcount_eq_popcount (n c : Nat) (h : c < 2 ^ n) : bitcount n c = popcount c := by
  unfold popcount
  rw [← bitcount_card]
  exact bitcount_eq_of_lt c n _ h Nat.lt_log2_self

/-- The number of set bits of `c` below position `j`. -/
theorem bitcount_eq_popcount_mod (j c : Nat) : bitcount j c = popcount (c % 2 ^ j) := by
  rw [← bitcount_eq_popcount j (c % 2 ^ j) (Nat.mod_lt _ (Nat.two_pow_pos j))]
  refine bitcount_congr j _ _ (fun i hi => ?_)
  rw [Nat.testBit_mod_two_pow]
  simp [hi]

theorem bitcount_c_of_le (n code : Nat) (h : n ≤ 64) :
    bitcount_c n code = some (bitcount n code) := by
  unfold bitcount_c bitcount
  induction n with
  | zero => rfl
  | succ n ih =>
    rw [forUp_succ, forUp_succ, ih (by omega)]
    unfold shr64
    rw [if_pos (by omega)]

theorem bitcount_c_of_gt (n code : Nat) (h : 64 < n) : bitcount_c n code = none := by
  unfold bitcount_c
  induction n with
  | zero => omega
  | succ n ih =>
    rw [forUp_succ]
    by_cases e : n = 64
    · subst e
      unfold shr64
      rw [if_neg (by omega)]
      split <;> simp_all
    · rw [ih (by omega)]

/-- The loop of `get_vox` after `n` channels: the finite channels below `n` sit in `x` and
`v` at their rank among the finite channels, and the cells from `j1` on are untouched. -/
theorem get_vox_pack (N1 : Nat) (mf : Nat → FVal α) (vf : Nat → α) (x v : Nat → α) (n : Nat) :
    (∀ j, j < n → (mf (j * N1)).isfinite = true →
      mf (j * N1) = FVal.fin ((forUp n (get_vox_step N1 mf vf) ⟨0, 0, x, v⟩).x
        (bitcount j (forUp n (get_vox_step N1 mf vf) ⟨0, 0, x, v⟩).code)) ∧
      (forUp n (get_vox_step N1 mf vf) ⟨0, 0, x, v⟩).v
        (bitcount j (forUp n (get_vox_step N1 mf vf) ⟨0, 0, x, v⟩).code) = vf (j * N1)) ∧
    (∀ idx, (forUp n (get_vox_step N1 mf vf) ⟨0, 0, x, v⟩).j1 ≤ idx →
      (forUp n (get_vox_step N1 mf vf) ⟨0, 0, x, v⟩).x idx = x idx ∧
      (forUp n (get_vox_step N1 mf vf) ⟨0, 0, x, v⟩).v idx = v idx) := by
  induction n with
  | zero => exact ⟨fun j hj => by omega, fun idx _ => ⟨rfl, rfl⟩⟩
  | succ n ih =>
    obtain ⟨hA, hB⟩ := ih
    obtain ⟨h1, h2, h3⟩ := get_vox_inv N1 mf vf x v n
    rw [forUp_succ]
    generalize forUp n (get_vox_step N1 mf vf) ⟨0, 0, x, v⟩ = st at h1 h2 h3 hA hB
    cases hfin : (mf (n * N1)).isfinite with
    | true =>
      obtain ⟨tmp, hm⟩ : ∃ tmp, mf (n * N1) = FVal.fin tmp := by
        cases hm : mf (n * N1) with
        | fin tmp => exact ⟨tmp, rfl⟩
        | inf sgn => rw [hm] at hfin; simp [FVal.isfinite] at hfin
        | nan => rw [hm] at hfin; simp [FVal.isfinite] at hfin
      rw [get_vox_step_fin N1 mf vf n st tmp hm]
      dsimp only
      have hbc : ∀ j, j ≤ n → bitcount j (st.code ||| 2 ^ n) = bitcount j st.code := fun j hj =>
        bitcount_congr j _ _ (fun i hi => by
          rw [Nat.testBit_or, Nat.testBit_two_pow]
          have : ¬ n = i := by omega
          simp [this])
      refine ⟨fun j hj hf => ?_, fun idx hidx => ?_⟩
      · rw [hbc j (by omega)]
        by_cases hjn : j = n
        · subst hjn
          rw [← h2, Function.update_same, Function.update_same]
          exact ⟨hm, rfl⟩
        · have hjl : j < n := by omega
          have hb : st.code.testBit j = true := by rw [h3 j hjl]; exact hf
          have hlt := bitcount_lt_of_testBit n j st.code hjl hb
          rw [← h2] at hlt
          rw [Function.update_noteq (by omega), Function.update_noteq (by omega)]
          exact hA j hjl hf
      · rw [Function.update_noteq (by omega), Function.update_noteq (by omega)]
        exact hB idx (by omega)
    | false =>
      rw [get_vox_step_nonfin N1 mf vf n st hfin]
      refine ⟨fun j hj hf => ?_, hB⟩
      have hjn : j ≠ n := fun e => by rw [e, hfin] at hf; exact Bool.noConfusion hf
      exact hA j (by omega) hf

/-- The code of `get_vox` does not depend on the variances or on the output arrays. -/
theorem get_vox_code_vf (N1 P : Nat) (mf : Nat → FVal α) (vf vf' : Nat → α)
    (x v x' v' : Nat → α) :
    (get_vox N1 P mf vf' x' v').code = (get_vox N1 P mf vf x v).code := by
  apply Nat.eq_of_testBit_eq
  intro i
  by_cases hi : i < P
  · rw [get_vox_testBit N1 P mf vf' x' v' i hi, get_vox_testBit N1 P mf vf x v i hi]
  · have hp : 2 ^ P ≤ 2 ^ i := Nat.pow_le_pow_right (by decide) (by omega)
    rw [Nat.testBit_lt_two_pow (lt_of_lt_of_le (get_vox_code_lt N1 P mf vf' x' v') hp),
      Nat.testBit_lt_two_pow (lt_of_lt_of_le (get_vox_code_lt N1 P mf vf x v) hp)]

theorem wsub_of_le (a b : Nat) (hb : b ≤ a) (ha : a < 2 ^ 64) : wsub a b = a - b := by
  unfold wsub
  rw [Nat.mod_eq_of_lt (show b < 2 ^ 64 by omega)]
  have : a + 2 ^ 64 - b = (a - b) + 2 ^ 64 := by omega
  rw [this, Nat.add_mod_right, Nat.mod_eq_of_lt (by omega)]

/-- The log-weight cell of class `k` after the round of pattern `code`. -/
theorem round_gam (m : Libm α) (P K : Nat) (mu b nu : Nat → α) (gmm : Nat → GMMtype)
    (Po o k : Nat) (lgam : α) (code : Nat) (buf S : Nat → α) (hk : k < K)
    (hPo : Po = bitcount P code) (hgm : gmm code = gmmEntry K Po o) :
    (sub_gmm_code m P mu b nu gmm k lgam code (buf, S)).1 ((gmm code).gam + k) = lgam := by
  have hgP : (gmmEntry K Po o).P = bitcount P code := hPo
  obtain ⟨_, _, p3, _, _⟩ := pack_spec P mu (gmmEntry K Po o) k code
    (sub_gmm_head P b nu (gmmEntry K Po o) k lgam buf) S hgP
  have m1 : ∀ j1, j1 < Po → j1 + Po * k < K * Po := fun j1 hj => by
    have := mul_cell_lt K Po k j1 hk hj
    have e1 : Po * k = k * Po := Nat.mul_comm _ _
    omega
  have m2 : k * Po * Po + Po * Po ≤ K * Po * Po := by
    have : (k + 1) * (Po * Po) ≤ K * (Po * Po) := Nat.mul_le_mul_right _ hk
    rw [Nat.add_mul, Nat.one_mul] at this
    have e1 : k * Po * Po = k * (Po * Po) := Nat.mul_assoc _ _ _
    have e2 : K * Po * Po = K * (Po * Po) := Nat.mul_assoc _ _ _
    omega
  have hpos : ∀ j, j < P → code.testBit j = true → bitcount j code < Po := fun j hj hb => by
    rw [hPo]; exact bitcount_lt_of_testBit P j code hj hb
  rw [sub_gmm_code_eq, hgm]
  dsimp only
  rw [sub_gmm_tail_other m b _ k lgam _ _ _ (by simp only [gmmEntry]; omega)
    (by simp only [gmmEntry]; omega)]
  unfold sub_gmm_inv
  simp only [unshift_invert]
  simp only [gmmEntry] at p3 ⊢
  rw [if_neg (by omega), p3 _ (fun j hj hb => by have := m1 _ (hpos j hj hb); omega)]
  unfold sub_gmm_head
  simp only [gmmEntry]
  rw [Function.update_same]

/-- The cells `nu'`, `b`, log weight and marginal mean of every pattern and class in the
buffer that `sub_gmm` builds. -/
theorem sub_gmm_cells (m : Libm α) (P K : Nat) (mu b W nu gam : Nat → α) :
    ∃ buf, sub_gmm m true true P K mu b W nu gam = some ((allocate_gmm_loop P K).tbl, buf) ∧
      ∀ code k, code < 2 ^ P → k < K →
        buf (((allocate_gmm_loop P K).tbl code).nu + k)
          = nu k - ((wsub P (bitcount P code) : Nat) : α) ∧
        buf (((allocate_gmm_loop P K).tbl code).b + k) = b k ∧
        buf (((allocate_gmm_loop P K).tbl code).gam + k) = m.log (gam k) ∧
        ∀ j, j < P → code.testBit j = true →
          buf (((allocate_gmm_loop P K).tbl code).mu + (bitcount j code + bitcount P code * k))
            = mu (j + P * k) := by
  refine ⟨_, sub_gmm_ok m P K mu b W nu gam, fun code k hc hk => ?_⟩
  have hgm := allocate_gmm_tbl P K code hc
  have hgP : ((allocate_gmm_loop P K).tbl code).P = bitcount P code := allocate_gmm_P P K code hc
  obtain ⟨buf0, S0, Sp, Tp, _, hcells⟩ := sub_gmm_reach0 m P K mu b W nu gam k code hk hc
  have hc3 := round_cells m P K mu b nu (allocate_gmm_loop P K).tbl (bitcount P code)
    (offsetOf (gmmSize K) code) k (m.log (gam k)) code buf0 S0 hk rfl hgm
  have hg := round_gam m P K mu b nu (allocate_gmm_loop P K).tbl (bitcount P code)
    (offsetOf (gmmSize K) code) k (m.log (gam k)) code buf0 S0 hk rfl hgm
  refine ⟨?_, ?_, ?_, fun j hj hb => ?_⟩
  · rw [hcells _ (Or.inl rfl)]; exact hc3.1
  · rw [hcells _ (Or.inr (Or.inl rfl))]; exact hc3.2.1
  · rw [hcells _ (Or.inr (Or.inr (Or.inl rfl)))]; exact hg
  · rw [hcells _ (Or.inr (Or.inr (Or.inr (Or.inl ⟨bitcount j code, by
      rw [hgP]; exact bitcount_lt_of_testBit P j code hj hb, by rw [hgP]⟩))))]
    exact hc3.2.2 j hj hb

/-- One round `i` of the outer loop of `choldc`, from any state `ap0`: column `i` of the
strict lower triangle is written, `p[i]` is the square root of the floored pivot, and
every other cell is untouched. -/
theorem choldc_round (m : Libm α) (n : Nat) (fl : α) (i : Nat) (hi : i < n)
    (ap0 : (Nat → α) × (Nat → α)) :
    (∀ idx, (∀ r, i < r → r < n → idx ≠ r * n + i) →
      (forFrom i n (fun j (ap : (Nat → α) × (Nat → α)) =>
          if i = j then
            (ap.1, Function.update ap.2 i (m.sqrt
              (if forDown i (fun k sm => sm - ap.1 (i * n + k) * ap.1 (j * n + k))
                  (ap.1 (i * n + j)) ≤ fl then fl
                else forDown i (fun k sm => sm - ap.1 (i * n + k) * ap.1 (j * n + k))
                  (ap.1 (i * n + j)))))
          else
            (Function.update ap.1 (j * n + i)
              (forDown i (fun k sm => sm - ap.1 (i * n + k) * ap.1 (j * n + k))
                (ap.1 (i * n + j)) / ap.2 i), ap.2)) ap0).1 idx = ap0.1 idx) ∧
    (∀ r, i < r → r < n →
      (forFrom i n (fun j (ap : (Nat → α) × (Nat → α)) =>
          if i = j then
            (ap.1, Function.update ap.2 i (m.sqrt
              (if forDown i (fun k sm => sm - ap.1 (i * n + k) * ap.1 (j * n + k))
                  (ap.1 (i * n + j)) ≤ fl then fl
                else forDown i (fun k sm => sm - ap.1 (i * n + k) * ap.1 (j * n + k))
                  (ap.1 (i * n + j)))))
          else
            (Function.update ap.1 (j * n + i)
              (forDown i (fun k sm => sm - ap.1 (i * n + k) * ap.1 (j * n + k))
                (ap.1 (i * n + j)) / ap.2 i), ap.2)) ap0).1 (r * n + i)
        = (ap0.1 (i * n + r)
            - Finset.sum (Finset.range i) (fun k => ap0.1 (i * n + k) * ap0.1 (r * n + k)))
          / m.sqrt (if ap0.1 (i * n + i)
              - Finset.sum (Finset.range i) (fun k => ap0.1 (i * n + k) * ap0.1 (i * n + k)) ≤ fl
            then fl else ap0.1 (i * n + i)
              - Finset.sum (Finset.range i) (fun k => ap0.1 (i * n + k) * ap0.1 (i * n + k)))) ∧
    (∀ c, (forFrom i n (fun j (ap : (Nat → α) × (Nat → α)) =>
          if i = j then
            (ap.1, Function.update ap.2 i (m.sqrt
              (if forDown i (fun k sm => sm - ap.1 (i * n + k) * ap.1 (j * n + k))
                  (ap.1 (i * n + j)) ≤ fl then fl
                else forDown i (fun k sm => sm - ap.1 (i * n + k) * ap.1 (j * n + k))
                  (ap.1 (i * n + j)))))
          else
            (Function.update ap.1 (j * n + i)
              (forDown i (fun k sm => sm - ap.1 (i * n + k) * ap.1 (j * n + k))
                (ap.1 (i * n + j)) / ap.2 i), ap.2)) ap0).2 c
        = if c = i then m.sqrt (if ap0.1 (i * n + i)
              - Finset.sum (Finset.range i) (fun k => ap0.1 (i * n + k) * ap0.1 (i * n + k)) ≤ fl
            then fl else ap0.1 (i * n + i)
              - Finset.sum (Finset.range i) (fun k => ap0.1 (i * n + k) * ap0.1 (i * n + k)))
          else ap0.2 c) := by
  have inner := forFrom_inv (fun J (ap : (Nat → α) × (Nat → α)) =>
      (∀ idx, (∀ r, i < r → r < J → idx ≠ r * n + i) → ap.1 idx = ap0.1 idx) ∧
      (∀ r, i < r → r < J → ap.1 (r * n + i)
        = (ap0.1 (i * n + r)
            - Finset.sum (Finset.range i) (fun k => ap0.1 (i * n + k) * ap0.1 (r * n + k)))
          / m.sqrt (if ap0.1 (i * n + i)
              - Finset.sum (Finset.range i) (fun k => ap0.1 (i * n + k) * ap0.1 (i * n + k)) ≤ fl
            then fl else ap0.1 (i * n + i)
              - Finset.sum (Finset.range i) (fun k => ap0.1 (i * n + k) * ap0.1 (i * n + k)))) ∧
      (∀ c, ap.2 c = if c = i ∧ i < J then m.sqrt (if ap0.1 (i * n + i)
              - Finset.sum (Finset.range i) (fun k => ap0.1 (i * n + k) * ap0.1 (i * n + k)) ≤ fl
            then fl else ap0.1 (i * n + i)
              - Finset.sum (Finset.range i) (fun k => ap0.1 (i * n + k) * ap0.1 (i * n + k)))
          else ap0.2 c))
    (fun j (ap : (Nat → α) × (Nat → α)) =>
          if i = j then
            (ap.1, Function.update ap.2 i (m.sqrt
              (if forDown i (fun k sm => sm - ap.1 (i * n + k) * ap.1 (j * n + k))
                  (ap.1 (i * n + j)) ≤ fl then fl
                else forDown i (fun k sm => sm - ap.1 (i * n + k) * ap.1 (j * n + k))
                  (ap.1 (i * n + j)))))
          else
            (Function.update ap.1 (j * n + i)
              (forDown i (fun k sm => sm - ap.1 (i * n + k) * ap.1 (j * n + k))
                (ap.1 (i * n + j)) / ap.2 i), ap.2)) i n (by omega) ap0
    ⟨fun _ _ => rfl, fun r h1 h2 => by omega, fun c => by rw [if_neg (by omega)]⟩ ?_
  · obtain ⟨k1, k2, k3⟩ := inner
    refine ⟨k1, k2, fun c => ?_⟩
    rw [k3 c]
    generalize m.sqrt (if ap0.1 (i * n + i)
            - Finset.sum (Finset.range i) (fun k => ap0.1 (i * n + k) * ap0.1 (i * n + k)) ≤ fl
          then fl else ap0.1 (i * n + i)
            - Finset.sum (Finset.range i) (fun k => ap0.1 (i * n + k) * ap0.1 (i * n + k))) = q
    by_cases h : c = i
    · rw [if_pos ⟨h, hi⟩, if_pos h]
    · rw [if_neg (fun e => h e.1), if_neg h]
  · intro j hij hjn ap ⟨k1, k2, k3⟩
    have hrd : ∀ r c, c < n → (c < i ∨ r = i) → ap.1 (r * n + c) = ap0.1 (r * n + c) :=
      fun r c hc h => k1 _ (fun r' h1 h2 e => by
        have := rc_inj n r c r' i hc hi e
        omega)
    have hsm : forDown i (fun k sm => sm - ap.1 (i * n + k) * ap.1 (j * n + k))
        (ap.1 (i * n + j))
        = ap0.1 (i * n + j)
          - Finset.sum (Finset.range i) (fun k => ap0.1 (i * n + k) * ap0.1 (j * n + k)) := by
      have hsum : Finset.sum (Finset.range i) (fun k => ap.1 (i * n + k) * ap.1 (j * n + k))
          = Finset.sum (Finset.range i) (fun k => ap0.1 (i * n + k) * ap0.1 (j * n + k)) :=
        Finset.sum_congr rfl (fun k hk => by
          have hk' := Finset.mem_range.mp hk
          rw [hrd i k (by omega) (Or.inl hk'), hrd j k (by omega) (Or.inl hk')])
      rw [forDown_sub, hsum, hrd i j hjn (Or.inr rfl)]
    dsimp only
    rw [hsm]
    by_cases e : i = j
    · subst e
      rw [if_pos rfl]
      generalize m.sqrt (if ap0.1 (i * n + i)
              - Finset.sum (Finset.range i) (fun k => ap0.1 (i * n + k) * ap0.1 (i * n + k)) ≤ fl
            then fl else ap0.1 (i * n + i)
              - Finset.sum (Finset.range i) (fun k => ap0.1 (i * n + k) * ap0.1 (i * n + k))) = q
        at k2 k3 ⊢
      refine ⟨fun idx h => k1 idx (fun r h1 h2 => h r h1 (by omega)),
        fun r h1 h2 => by omega, fun c => ?_⟩
      dsimp only
      by_cases hc : c = i
      · rw [hc, Function.update_same, if_pos ⟨rfl, by omega⟩]
      · rw [Function.update_noteq hc, k3 c, if_neg (fun e => hc e.1), if_neg (fun e => hc e.1)]
    · rw [if_neg e]
      generalize m.sqrt (if ap0.1 (i * n + i)
              - Finset.sum (Finset.range i) (fun k => ap0.1 (i * n + k) * ap0.1 (i * n + k)) ≤ fl
            then fl else ap0.1 (i * n + i)
              - Finset.sum (Finset.range i) (fun k => ap0.1 (i * n + k) * ap0.1 (i * n + k))) = q
        at k2 k3 ⊢
      have hp : ap.2 i = q := by
        rw [k3 i, if_pos ⟨rfl, by omega⟩]
      refine ⟨fun idx h => ?_, fun r h1 h2 => ?_, fun c => ?_⟩
      · dsimp only
        rw [Function.update_noteq (h j (by omega) (by omega))]
        exact k1 idx (fun r h1 h2 => h r h1 (by omega))
      · dsimp only
        by_cases hr : r = j
        · rw [hr, Function.update_same, hp]
        · rw [Function.update_noteq (fun e' => hr (rc_inj n r i j i hi hi e').1)]
          exact k2 r h1 (by omega)
      · dsimp only
        rw [k3 c]
        by_cases h : c = i
        · rw [if_pos ⟨h, by omega⟩, if_pos ⟨h, by omega⟩]
        · rw [if_neg (fun e => h e.1), if_neg (fun e => h e.1)]

/-- Function `choldc` on any input: the diagonal and the upper triangle of the array are
untouched; `p[i]` is the square root of the squared pivot `a[i,i] - Σ_{k<i} L[i,k]^2`,
replaced by the floor `sm0` when it is not above it; the strict lower triangle holds
`L[r,c] = (a[c,r] - Σ_{k<c} L[c,k] L[r,k]) / p[c]`. -/
theorem choldc_general (m : Libm α) (n : Nat) (a p : Nat → α) :
    (∀ idx, (∀ r c, c < r → r < n → idx ≠ r * n + c) → (choldc m n a p).1 idx = a idx) ∧
    (∀ i, i < n → (choldc m n a p).2 i
      = m.sqrt (if a (i * n + i) - Finset.sum (Finset.range i) (fun k =>
            (choldc m n a p).1 (i * n + k) * (choldc m n a p).1 (i * n + k)) ≤ choldc_floor n a
          then choldc_floor n a
          else a (i * n + i) - Finset.sum (Finset.range i) (fun k =>
            (choldc m n a p).1 (i * n + k) * (choldc m n a p).1 (i * n + k)))) ∧
    (∀ c r, c < r → r < n → (choldc m n a p).1 (r * n + c)
      = (a (c * n + r) - Finset.sum (Finset.range c) (fun k =>
            (choldc m n a p).1 (c * n + k) * (choldc m n a p).1 (r * n + k)))
          / (choldc m n a p).2 c) ∧
    (∀ c, n ≤ c → (choldc m n a p).2 c = p c) := by
  rw [choldc_floor_eq]
  have key := forUp_inv (fun i (ap : (Nat → α) × (Nat → α)) =>
      (∀ idx, (∀ r c, c < i → c < r → r < n → idx ≠ r * n + c) → ap.1 idx = a idx) ∧
      (∀ c, c < i → ap.2 c
        = m.sqrt (if a (c * n + c) - Finset.sum (Finset.range c) (fun k =>
              ap.1 (c * n + k) * ap.1 (c * n + k)) ≤ choldc_floor n a
            then choldc_floor n a
            else a (c * n + c) - Finset.sum (Finset.range c) (fun k =>
              ap.1 (c * n + k) * ap.1 (c * n + k)))) ∧
      (∀ c r, c < i → c < r → r < n → ap.1 (r * n + c)
        = (a (c * n + r) - Finset.sum (Finset.range c) (fun k =>
              ap.1 (c * n + k) * ap.1 (r * n + k))) / ap.2 c) ∧
      (∀ c, i ≤ c → ap.2 c = p c))
    (fun i ap =>
        forFrom i n (fun j (ap : (Nat → α) × (Nat → α)) =>
          if i = j then
            (ap.1, Function.update ap.2 i (m.sqrt
              (if forDown i (fun k sm => sm - ap.1 (i * n + k) * ap.1 (j * n + k))
                  (ap.1 (i * n + j)) ≤ choldc_floor n a then choldc_floor n a
                else forDown i (fun k sm => sm - ap.1 (i * n + k) * ap.1 (j * n + k))
                  (ap.1 (i * n + j)))))
          else
            (Function.update ap.1 (j * n + i)
              (forDown i (fun k sm => sm - ap.1 (i * n + k) * ap.1 (j * n + k))
                (ap.1 (i * n + j)) / ap.2 i), ap.2)) ap) n (a, p)
    ⟨fun _ _ => rfl, fun c hc => by omega, fun c r hc => by omega, fun _ _ => rfl⟩ ?_
  · obtain ⟨k1, k2, k3, k4⟩ := key
    exact ⟨fun idx h => k1 idx (fun r c _ h2 h3 => h r c h2 h3),
      fun i hi => k2 i hi, fun c r h1 h2 => k3 c r (by omega) h1 h2, k4⟩
  · intro i hi ap ⟨k1, k2, k3, k4⟩
    obtain ⟨a1, b1, c1⟩ := choldc_round m n (choldc_floor n a) i hi ap
    dsimp only
    generalize forFrom i n (fun j (ap : (Nat → α) × (Nat → α)) =>
          if i = j then
            (ap.1, Function.update ap.2 i (m.sqrt
              (if forDown i (fun k sm => sm - ap.1 (i * n + k) * ap.1 (j * n + k))
                  (ap.1 (i * n + j)) ≤ choldc_floor n a then choldc_floor n a
                else forDown i (fun k sm => sm - ap.1 (i * n + k) * ap.1 (j * n + k))
                  (ap.1 (i * n + j)))))
          else
            (Function.update ap.1 (j * n + i)
              (forDown i (fun k sm => sm - ap.1 (i * n + k) * ap.1 (j * n + k))
                (ap.1 (i * n + j)) / ap.2 i), ap.2)) ap = ap' at a1 b1 c1
    have hcol : ∀ r c, c < n → c ≠ i → ap'.1 (r * n + c) = ap.1 (r * n + c) := fun r c hc hne =>
      a1 _ (fun r' _ _ e => hne (rc_inj n r c r' i hc hi e).2)
    have hii : ap.1 (i * n + i) = a (i * n + i) :=
      k1 _ (fun r c h1 h2 h3 e => by
        have := rc_inj n i i r c hi (by omega) e
        omega)
    have hpi : ap'.2 i = m.sqrt (if a (i * n + i) - Finset.sum (Finset.range i) (fun k =>
              ap'.1 (i * n + k) * ap'.1 (i * n + k)) ≤ choldc_floor n a
            then choldc_floor n a
            else a (i * n + i) - Finset.sum (Finset.range i) (fun k =>
              ap'.1 (i * n + k) * ap'.1 (i * n + k))) := by
      have hsum : Finset.sum (Finset.range i) (fun k => ap'.1 (i * n + k) * ap'.1 (i * n + k))
          = Finset.sum (Finset.range i) (fun k => ap.1 (i * n + k) * ap.1 (i * n + k)) :=
        Finset.sum_congr rfl (fun k hk => by
          have hk' := Finset.mem_range.mp hk
          rw [hcol i k (by omega) (by omega)])
      rw [c1 i, if_pos rfl, hsum, hii]
    refine ⟨fun idx h => ?_, fun c hc => ?_, fun c r hc hcr hr => ?_, fun c hc => ?_⟩
    · rw [a1 idx (fun r h1 h2 => h r i (by omega) h1 h2)]
      exact k1 idx (fun r c h1 h2 h3 => h r c (by omega) h2 h3)
    · by_cases e : c = i
      · rw [e]; exact hpi
      · have hsum : Finset.sum (Finset.range c) (fun k => ap'.1 (c * n + k) * ap'.1 (c * n + k))
            = Finset.sum (Finset.range c) (fun k => ap.1 (c * n + k) * ap.1 (c * n + k)) :=
          Finset.sum_congr rfl (fun k hk => by
            have hk' := Finset.mem_range.mp hk
            rw [hcol c k (by omega) (by omega)])
        rw [c1 c, if_neg e, hsum]
        exact k2 c (by omega)
    · have hsum : Finset.sum (Finset.range c) (fun k => ap'.1 (c * n + k) * ap'.1 (r * n + k))
          = Finset.sum (Finset.range c) (fun k => ap.1 (c * n + k) * ap.1 (r * n + k)) :=
        Finset.sum_congr rfl (fun k hk => by
          have hk' := Finset.mem_range.mp hk
          rw [hcol c k (by omega) (by omega), hcol r k (by omega) (by omega)])
      rw [hsum]
      by_cases e : c = i
      · rw [e, b1 r (by omega) hr, c1 i, if_pos rfl]
        have hir : ap.1 (i * n + r) = a (i * n + r) :=
          k1 _ (fun r' c' h1 h2 h3 e' => by
            have := rc_inj n i r r' c' hr (by omega) e'
            omega)
        rw [hir]
      · rw [hcol r c (by omega) e, c1 c, if_neg e]
        exact k3 c r (by omega) hcr hr
    · rw [c1 c, if_neg (by omega)]
      exact k4 c (by omega)

/-- A counting loop over an optional state whose rounds never fault runs the plain loop. -/
theorem forUp_some {σ : Type} (Inv : Nat → σ → Prop) (body : Nat → σ → σ)
    (F : Nat → Option σ → Option σ) (n : Nat) (s : σ) (h0 : Inv 0 s)
    (hstep : ∀ i, i < n → ∀ s, Inv i s → F i (some s) = some (body i s) ∧ Inv (i + 1) (body i s)) :
    forUp n F (some s) = some (forUp n body s) ∧ Inv n (forUp n body s) := by
  induction n with
  | zero => exact ⟨rfl, h0⟩
  | succ n ih =>
    obtain ⟨e, hi⟩ := ih (fun i hi s hs => hstep i (by omega) s hs)
    rw [forUp_succ, forUp_succ, e]
    exact hstep n (by omega) _ hi

theorem forFrom_some {σ : Type} (Inv : Nat → σ → Prop) (body : Nat → σ → σ)
    (F : Nat → Option σ → Option σ) (lo hi : Nat) (hle : lo ≤ hi) (s : σ) (h0 : Inv lo s)
    (hstep : ∀ i, lo ≤ i → i < hi → ∀ s, Inv i s →
      F i (some s) = some (body i s) ∧ Inv (i + 1) (body i s)) :
    forFrom lo hi F (some s) = some (forFrom lo hi body s) ∧ Inv hi (forFrom lo hi body s) := by
  rw [forFrom_eq_forUp, forFrom_eq_forUp]
  have := forUp_some (fun i s => Inv (lo + i) s) (fun i => body (lo + i)) (fun i => F (lo + i))
    (hi - lo) s h0 (fun i hi' s hs => hstep (lo + i) (by omega) (by omega) s hs)
  have e : lo + (hi - lo) = hi := by omega
  dsimp only at this
  rw [e] at this
  exact this

theorem forDown_some {σ : Type} (Inv : Nat → σ → Prop) (body : Nat → σ → σ)
    (F : Nat → Option σ → Option σ) (n : Nat) (s : σ) (h0 : Inv n s)
    (hstep : ∀ i, i < n → ∀ s, Inv (i + 1) s → F i (some s) = some (body i s) ∧ Inv i (body i s)) :
    forDown n F (some s) = some (forDown n body s) ∧ Inv 0 (forDown n body s) := by
  induction n generalizing s with
  | zero => exact ⟨rfl, h0⟩
  | succ n ih =>
    obtain ⟨e, hi⟩ := hstep n (by omega) s h0
    rw [forDown_succ, forDown_succ, e]
    exact ih _ hi (fun i hi' s hs => hstep i (by omega) s hs)

/-- The diagonal of a positive semi-definite array is non-negative. -/
theorem psd_diag_nonneg (n : Nat) (a : Nat → α) (h : IsPSD n a) (i : Nat) (hi : i < n) :
    0 ≤ a (i * n + i) := by
  have hz := h.2 (fun k => if k = i then 1 else 0)
  rw [Finset.sum_eq_single i (fun j _ hj => by
      simp only [if_neg hj, zero_mul, Finset.sum_const_zero])
    (fun hni => absurd (Finset.mem_range.mpr hi) hni)] at hz
  rw [Finset.sum_eq_single i (fun j _ hj => by simp only [if_neg hj, mul_zero])
    (fun hni => absurd (Finset.mem_range.mpr hi) hni)] at hz
  simpa using hz

/-- The pivot floor of `choldc` is positive for an array with a non-negative diagonal. -/
theorem choldc_floor_pos (n : Nat) (a : Nat → α) (h : ∀ i, i < n → 0 ≤ a (i * n + i)) :
    0 < choldc_floor n a := by
  rw [choldc_floor_trace]
  have ht : 0 ≤ Finset.sum (Finset.range n) (fun i => a (i * n + i)) :=
    Finset.sum_nonneg (fun i hi => h i (Finset.mem_range.mp hi))
  have hc : (0 : α) < (1 / 10 ^ 40 + Finset.sum (Finset.range n) (fun i => a (i * n + i)))
      * (1 / 10 ^ 7) := by positivity
  exact mul_pos hc hc

/-- With a positive floor and a positive square root, `choldc` never faults and all its
pivots are positive. -/
theorem choldc_chk_ok (m : Libm α) (hsq : m.SqrtPos) (n : Nat) (a p : Nat → α)
    (hfl : 0 < choldc_floor n a) :
    choldc_chk m n a p = some (choldc m n a p) ∧ ∀ i, i < n → 0 < (choldc m n a p).2 i := by
  rw [choldc_floor_eq]
  show forUp n (fun i st =>
    forFrom i n (fun j (st : Option ((Nat → α) × (Nat → α))) =>
      st.bind (fun ap =>
        if i = j then
          if 0 < (if forDown i (fun k sm => sm - ap.1 (i * n + k) * ap.1 (j * n + k))
                (ap.1 (i * n + j)) ≤ choldc_floor n a then choldc_floor n a
              else forDown i (fun k sm => sm - ap.1 (i * n + k) * ap.1 (j * n + k))
                (ap.1 (i * n + j)))
          then some (ap.1, Function.update ap.2 i (m.sqrt
            (if forDown i (fun k sm => sm - ap.1 (i * n + k) * ap.1 (j * n + k))
                (ap.1 (i * n + j)) ≤ choldc_floor n a then choldc_floor n a
              else forDown i (fun k sm => sm - ap.1 (i * n + k) * ap.1 (j * n + k))
                (ap.1 (i * n + j)))))
          else none
        else
          if ap.2 i = 0 then none
          else some (Function.update ap.1 (j * n + i)
            (forDown i (fun k sm => sm - ap.1 (i * n + k) * ap.1 (j * n + k))
              (ap.1 (i * n + j)) / ap.2 i), ap.2))) st) (some (a, p)) = _ ∧ _
  have hpiv : ∀ x : α, 0 < (if x ≤ choldc_floor n a then choldc_floor n a else x) := fun x => by
    by_cases h : x ≤ choldc_floor n a
    · rw [if_pos h]; exact hfl
    · rw [if_neg h]; exact lt_trans hfl (not_le.mp h)
  refine forUp_some (fun i (ap : (Nat → α) × (Nat → α)) => ∀ c, c < i → 0 < ap.2 c) _ _ n (a, p)
    (fun c hc => by omega) (fun i hi ap hinv => ?_)
  have inner := forFrom_some
    (fun J (ap : (Nat → α) × (Nat → α)) => ∀ c, (c < i ∨ (c = i ∧ i < J)) → 0 < ap.2 c)
    (fun j (ap : (Nat → α) × (Nat → α)) =>
          if i = j then
            (ap.1, Function.update ap.2 i (m.sqrt
              (if forDown i (fun k sm => sm - ap.1 (i * n + k) * ap.1 (j * n + k))
                  (ap.1 (i * n + j)) ≤ choldc_floor n a then choldc_floor n a
                else forDown i (fun k sm => sm - ap.1 (i * n + k) * ap.1 (j * n + k))
                  (ap.1 (i * n + j)))))
          else
            (Function.update ap.1 (j * n + i)
              (forDown i (fun k sm => sm - ap.1 (i * n + k) * ap.1 (j * n + k))
                (ap.1 (i * n + j)) / ap.2 i), ap.2))
    (fun j (st : Option ((Nat → α) × (Nat → α))) =>
      st.bind (fun ap =>
        if i = j then
          if 0 < (if forDown i (fun k sm => sm - ap.1 (i * n + k) * ap.1 (j * n + k))
                (ap.1 (i * n + j)) ≤ choldc_floor n a then choldc_floor n a
              else forDown i (fun k sm => sm - ap.1 (i * n + k) * ap.1 (j * n + k))
                (ap.1 (i * n + j)))
          then some (ap.1, Function.update ap.2 i (m.sqrt
            (if forDown i (fun k sm => sm - ap.1 (i * n + k) * ap.1 (j * n + k))
                (ap.1 (i * n + j)) ≤ choldc_floor n a then choldc_floor n a
              else forDown i (fun k sm => sm - ap.1 (i * n + k) * ap.1 (j * n + k))
                (ap.1 (i * n + j)))))
          else none
        else
          if ap.2 i = 0 then none
          else some (Function.update ap.1 (j * n + i)
            (forDown i (fun k sm => sm - ap.1 (i * n + k) * ap.1 (j * n + k))
              (ap.1 (i * n + j)) / ap.2 i), ap.2)))
    i n (by omega) ap (fun c hc => hinv c (by omega)) ?_
  · exact ⟨inner.1, fun c hc => inner.2 c (by omega)⟩
  · intro j hij hjn ap' hin
    dsimp only
    rw [Option.some_bind]
    by_cases e : i = j
    · rw [if_pos e, if_pos e, if_pos (hpiv _)]
      refine ⟨rfl, fun c hc => ?_⟩
      dsimp only
      by_cases hci : c = i
      · rw [hci, Function.update_same]
        exact hsq _ (hpiv _)
      · rw [Function.update_noteq hci]
        exact hin c (by omega)
    · rw [if_neg e, if_neg e, if_neg (ne_of_gt (hin i (Or.inr ⟨rfl, by omega⟩)))]
      exact ⟨rfl, fun c hc => hin c (by omega)⟩

/-- With non-zero pivots `cholls` never faults. -/
theorem cholls_chk_ok (n : Nat) (a p b x : Nat → α) (hp : ∀ i, i < n → p i ≠ 0) :
    cholls_chk n a p b x = some (cholls n a p b x) := by
  unfold cholls_chk cholls
  have h1 := (forUp_some (fun _ (_ : Nat → α) => True)
    (fun i x => Function.update x i
      (forDown i (fun k sm => sm - a (i * n + k) * x k) (b i) / p i))
    (fun i (st : Option (Nat → α)) =>
      st.bind (fun x =>
        if p i = 0 then none
        else some (Function.update x i
          (forDown i (fun k sm => sm - a (i * n + k) * x k) (b i) / p i))))
    n x trivial (fun i hi s _ => by
      dsimp only
      rw [Option.some_bind, if_neg (hp i hi)]
      exact ⟨rfl, trivial⟩)).1
  have h2 := fun s => (forDown_some (fun _ (_ : Nat → α) => True)
    (fun i x => Function.update x i
      (forFrom (i + 1) n (fun k sm => sm - a (k * n + i) * x k) (x i) / p i))
    (fun i (st : Option (Nat → α)) =>
      st.bind (fun x =>
        if p i = 0 then none
        else some (Function.update x i
          (forFrom (i + 1) n (fun k sm => sm - a (k * n + i) * x k) (x i) / p i))))
    n s trivial (fun i hi s _ => by
      dsimp only
      rw [Option.some_bind, if_neg (hp i hi)]
      exact ⟨rfl, trivial⟩)).1
  rw [h1]
  exact h2 _

/-- On an array with a non-negative diagonal and with a positive square root, `invert`
never faults, and the pivots it takes the logarithm of are positive. -/
theorem invert_chk_ok (m : Libm α) (hsq : m.SqrtPos) (P : Nat) (W S T : Nat → α)
    (hd : ∀ i, i < P → 0 ≤ W (i * P + i)) :
    invert_chk m P W S T = some (invert m P W S T) ∧
    ∀ j, j < P → 0 < (invert m P W S T).2.2 (P * P + j) := by
  have hT1 : forUp (P * P) (fun i T => Function.update T i (W i)) T
      = fun i => if i < P * P then W i else T i :=
    forUp_map_update (P * P) (fun i _ => W i) T
  have hfl : 0 < choldc_floor P (fun i => if i < P * P then W i else T i) :=
    choldc_floor_pos P _ (fun i hi => by
      rw [if_pos (rc_lt P i i hi hi)]
      exact hd i hi)
  obtain ⟨c1, c2⟩ := choldc_chk_ok m hsq P (fun i => if i < P * P then W i else T i)
    (shift (fun i => if i < P * P then W i else T i) (P * P)) hfl
  unfold invert_chk invert
  simp only []
  rw [hT1, c1]
  dsimp only
  generalize choldc m P (fun i => if i < P * P then W i else T i)
    (shift (fun i => if i < P * P then W i else T i) (P * P)) = ap at c2 ⊢
  have hp : ∀ r, r < P → 0 < shift (unshift ap.1 (P * P) ap.2) (P * P) r := fun r hr => by
    rw [shift_unshift]; exact c2 r hr
  have key : ∀ F : Nat → Option (α × (Nat → α)) → Option (α × (Nat → α)),
      (∀ j, j < P → ∀ st, F j (some st) = some
        (st.1 + m.log (shift (unshift ap.1 (P * P) ap.2) (P * P) j),
         unshift (Function.update (forUp P (fun i S => Function.update S (i + j * P) 0) st.2)
            (j + j * P) 1) (j * P)
          (cholls P (unshift ap.1 (P * P) ap.2) (shift (unshift ap.1 (P * P) ap.2) (P * P))
            (shift (Function.update (forUp P (fun i S => Function.update S (i + j * P) 0) st.2)
              (j + j * P) 1) (j * P))
            (shift (Function.update (forUp P (fun i S => Function.update S (i + j * P) 0) st.2)
              (j + j * P) 1) (j * P))))) →
      forUp P F (some (0, S)) = some (forUp P (fun j (st : α × (Nat → α)) =>
        (st.1 + m.log (shift (unshift ap.1 (P * P) ap.2) (P * P) j),
         unshift (Function.update (forUp P (fun i S => Function.update S (i + j * P) 0) st.2)
            (j + j * P) 1) (j * P)
          (cholls P (unshift ap.1 (P * P) ap.2) (shift (unshift ap.1 (P * P) ap.2) (P * P))
            (shift (Function.update (forUp P (fun i S => Function.update S (i + j * P) 0) st.2)
              (j + j * P) 1) (j * P))
            (shift (Function.update (forUp P (fun i S => Function.update S (i + j * P) 0) st.2)
              (j + j * P) 1) (j * P))))) (0, S)) := fun F h =>
    (forUp_some (fun _ (_ : α × (Nat → α)) => True) _ F P (0, S) trivial
      (fun j hj st _ => ⟨h j hj st, trivial⟩)).1
  refine ⟨?_, fun j hj => ?_⟩
  · rw [key _ (fun j hj st => by
      rw [Option.some_bind, if_pos (hp j hj),
        cholls_chk_ok P _ _ _ _ (fun i hi => ne_of_gt (hp i hi))])]
    rfl
  · rw [unshift_ge]
    exact c2 j hj

end Lemmas11

section Lemmas12

set_option linter.unusedSectionVars false

variable {α : Type} [LinearOrderedField α] [FloorRing α]

/-! ## Bounds, layout, byte order and the remaining kernels -/

/-! ## Sign of the Hessian term of `INUgrads` -/

/-- The sum `h` of `INUgrads` is non-negative when the degrees of freedom, the weights and
the selected diagonal precision entries are. -/
theorem INU_h_nonneg (K : Nat) (gmm : Nat → GMMtype) (buf : Nat → α) (code nc : Nat)
    (p : Nat → α) (hp : ∀ k, k < K → 0 ≤ p k)
    (hnu : ∀ k, k < K → 0 ≤ buf ((gmm code).nu + k))
    (hW : ∀ k, k < K →
      0 ≤ buf ((gmm code).W + (nc + (gmm code).P * (nc + (gmm code).P * k)))) :
    0 ≤ INU_h K gmm buf code nc p := by
  unfold INU_h
  refine Finset.sum_nonneg (fun k hk => ?_)
  have hk' := Finset.mem_range.mp hk
  exact mul_nonneg (mul_nonneg (hnu k hk') (hp k hk')) (hW k hk')

/-- The guarded Hessian value is at least one and above the gradient value as soon as the
unguarded one is at least one. -/
theorem guarded_hessian (G H : α) (h : 1 ≤ H) :
    1 ≤ (if G > 0 then H + G else H) ∧ G < (if G > 0 then H + G else H) ∧
    G / (if G > 0 then H + G else H) < 1 := by
  by_cases c : G > 0
  · rw [if_pos c]
    have h1 : 1 ≤ H + G := by linarith
    refine ⟨h1, by linarith, ?_⟩
    rw [div_lt_one (by linarith)]
    linarith
  · rw [if_neg c]
    have h2 : G < H := by linarith [not_lt.mp c]
    exact ⟨h, h2, by rw [div_lt_one (by linarith)]; exact h2⟩

theorem voxHess_ge_one (m : Libm α) (hm : m.ExpOk) (Nf P K : Nat) (mf : Nat → FVal α)
    (vf : Nat → α) (gmm : Nat → GMMtype) (buf : Nat → α) (Nm : Nat) (lkp : Nat → Nat)
    (lp : Nat → FVal α) (index : Nat → Nat) (i im : Nat)
    (hnu : ∀ k, k < K → 0 ≤ buf ((gmm (voxCode Nf P mf vf i)).nu + k))
    (hW : ∀ k, k < K → 0 ≤ buf ((gmm (voxCode Nf P mf vf i)).W
      + (index (voxCode Nf P mf vf i) + (gmm (voxCode Nf P mf vf i)).P
          * (index (voxCode Nf P mf vf i) + (gmm (voxCode Nf P mf vf i)).P * k))))
    (hv : 0 ≤ voxV Nf P mf vf i (index (voxCode Nf P mf vf i))) :
    1 ≤ voxHess m Nf P K mf vf gmm buf Nm lkp lp index i im := by
  unfold voxHess
  have hh := INU_h_nonneg K gmm buf (voxCode Nf P mf vf i) (index (voxCode Nf P mf vf i))
    (voxNresp m Nf P K mf vf gmm buf Nm lkp lp i im).2
    (fun k hk => le_of_lt ((Nresp_closure m hm K (by omega) gmm buf _ _ _ _).1 k hk)) hnu hW
  have hx := mul_self_nonneg (voxX Nf P mf vf i (index (voxCode Nf P mf vf i)))
  have := mul_nonneg hh (add_nonneg hx hv)
  linarith

/-- The packed variances of a voxel are non-negative when the variances of the volume are
(the entries that `get_vox` does not write being those of a zeroed array). -/
theorem voxV_nonneg (Nf P : Nat) (mf : Nat → FVal α) (vf : Nat → α) (i : Nat)
    (h : ∀ idx, 0 ≤ vf idx) (j : Nat) : 0 ≤ voxV Nf P mf vf i j := by
  unfold voxV get_vox
  refine forUp_inv (fun _ (st : VoxLoop α) => ∀ j, 0 ≤ st.v j) _ P _ (fun _ => le_refl _)
    (fun c _ st hst => ?_) j
  intro j
  unfold get_vox_step
  dsimp only
  cases hm : shift mf i (c * Nf) with
  | fin tmp =>
    dsimp only
    by_cases e : j = st.j1
    · rw [e, Function.update_same]; exact h _
    · rw [Function.update_noteq e]; exact hst j
  | inf s => exact hst j
  | nan => exact hst j

/-! ## Counting the contributing voxels -/

/-- The lattice sum of the indicator of the contributing voxels is their number. -/
theorem latticeSum_indicator (nf : Nat → Nat) (mf : Nat → FVal α) (vf : Nat → α) (K : Nat)
    (nm skip lkp : Nat → Nat) (lp : Nat → FVal α) :
    latticeSum nf nm skip (fun i im =>
        if contributes (nf 0 * nf 1 * nf 2) (nf 3) K mf vf (nm 0 * nm 1 * nm 2) lkp lp i im
        then (1 : α) else 0)
      = ((contributingCount nf mf vf K nm skip lkp lp : Nat) : α) := by
  unfold contributingCount latticeSum
  rw [Finset.card_filter, Finset.sum_product]
  push_cast
  refine Finset.sum_congr rfl (fun i2 _ => ?_)
  rw [Finset.sum_product]

/-- A voxel contributes exactly when some channel mean is finite and every class has a
finite prior. -/
theorem contributes_iff_finite (Nf P K : Nat) (mf : Nat → FVal α) (vf : Nat → α) (Nm : Nat)
    (lkp : Nat → Nat) (lp : Nat → FVal α) (i im : Nat) :
    contributes Nf P K mf vf Nm lkp lp i im ↔
      ((∃ j, j < P ∧ (mf (i + j * Nf)).isfinite = true) ∧
       (∀ k, k < K → (lp (im + Nm * lkp k)).isfinite = true)) := by
  have h := not_contributes_iff Nf P K mf vf Nm lkp lp i im
  constructor
  · intro hc
    constructor
    · by_contra hn
      exact (h.mpr (Or.inl (fun j hj => by
        cases hf : (mf (i + j * Nf)).isfinite
        · rfl
        · exact absurd ⟨j, hj, hf⟩ hn))) hc
    · intro k hk
      cases hf : (lp (im + Nm * lkp k)).isfinite
      · exact absurd hc (h.mpr (Or.inr ⟨k, hk, hf⟩))
      · rfl
  · rintro ⟨⟨j, hj, hf⟩, hp⟩
    by_contra hn
    rcases h.mp hn with h1 | ⟨k, hk, h2⟩
    · rw [h1 j hj] at hf
      exact Bool.noConfusion hf
    · rw [hp k hk] at h2
      exact Bool.noConfusion h2

/-! ## The range on which `space_needed` is exact -/

/-- Up to index 20 the table of `factorial` holds the factorials. -/
theorem factorial_products_eq (i : Nat) (hi : i ≤ 20) :
    factorial_products i = Nat.factorial i := by
  induction i with
  | zero => rfl
  | succ i ih =>
    have h1 : Nat.factorial (i + 1) ≤ Nat.factorial 20 := Nat.factorial_le hi
    have h2 : Nat.factorial 20 < 2 ^ 64 := by decide
    rw [factorial_products, ih (by omega), Nat.mul_comm, ← Nat.factorial_succ,
      Nat.mod_eq_of_lt (by omega)]

theorem factorial_table (i : Nat) (hi : i ≤ 20) : factorial i = some (Nat.factorial i) := by
  unfold factorial
  rw [if_pos (by omega), factorial_products_eq i hi]

theorem factorial_outside (i : Nat) (hi : 21 ≤ i) : factorial i = none := by
  unfold factorial
  rw [if_neg (by omega)]

/-- A partial binomial sum with bounded weights. -/
theorem choose_sum_le (P K B i : Nat) (w : Nat → Nat) (hi : i ≤ P + 1)
    (hw : ∀ m, m ≤ P → w m ≤ B) :
    Finset.sum (Finset.range i) (fun m => K * P.choose m * w m) ≤ K * 2 ^ P * B := by
  have h1 : Finset.sum (Finset.range i) (fun m => K * P.choose m * w m)
      ≤ Finset.sum (Finset.range (P + 1)) (fun m => K * P.choose m * B) := by
    refine le_trans (Finset.sum_le_sum (fun m hm => ?_))
      (Finset.sum_le_sum_of_subset (Finset.range_mono hi))
    have := Finset.mem_range.mp hm
    exact Nat.mul_le_mul_left _ (hw m (by omega))
  have h2 : Finset.sum (Finset.range (P + 1)) (fun m => K * P.choose m * B) = K * 2 ^ P * B := by
    rw [← Nat.sum_range_choose P, Finset.mul_sum, Finset.sum_mul]
  omega

/-- The loop of `space_needed` when no table read falls outside the table and nothing wraps
around: the three sums of `K*C(P,m)`, `K*C(P,m)*m`, `K*C(P,m)*m^2` over `m ≤ P`. -/
theorem space_needed_exact (P K : Nat) (hP : P ≤ 20) (hK : K * Nat.factorial P < 2 ^ 64)
    (hS : K * 2 ^ P * (P * P + 1) < 2 ^ 64) :
    space_needed P K = some
      (Finset.sum (Finset.range (P + 1)) (fun m => K * P.choose m),
       Finset.sum (Finset.range (P + 1)) (fun m => K * P.choose m * m),
       Finset.sum (Finset.range (P + 1)) (fun m => K * P.choose m * m * m)) := by
  unfold space_needed
  have key : ∀ F : Nat → Option (Nat × Nat × Nat) → Option (Nat × Nat × Nat),
      (∀ i, i < P + 1 → ∀ s : Nat × Nat × Nat, (i ≤ P + 1 ∧ s =
          (Finset.sum (Finset.range i) (fun m => K * P.choose m),
           Finset.sum (Finset.range i) (fun m => K * P.choose m * m),
           Finset.sum (Finset.range i) (fun m => K * P.choose m * m * m))) →
        F i (some s) = some (s.1 + K * P.choose i, s.2.1 + K * P.choose i * i,
          s.2.2 + K * P.choose i * i * i) ∧
        (i + 1 ≤ P + 1 ∧ (s.1 + K * P.choose i, s.2.1 + K * P.choose i * i,
            s.2.2 + K * P.choose i * i * i) =
          (Finset.sum (Finset.range (i + 1)) (fun m => K * P.choose m),
           Finset.sum (Finset.range (i + 1)) (fun m => K * P.choose m * m),
           Finset.sum (Finset.range (i + 1)) (fun m => K * P.choose m * m * m)))) →
      forUp (P + 1) F (some (0, 0, 0)) = some
        (Finset.sum (Finset.range (P + 1)) (fun m => K * P.choose m),
         Finset.sum (Finset.range (P + 1)) (fun m => K * P.choose m * m),
         Finset.sum (Finset.range (P + 1)) (fun m => K * P.choose m * m * m)) := by
    intro F hF
    have e := forUp_some
      (fun i (s : Nat × Nat × Nat) => i ≤ P + 1 ∧ s =
        (Finset.sum (Finset.range i) (fun m => K * P.choose m),
         Finset.sum (Finset.range i) (fun m => K * P.choose m * m),
         Finset.sum (Finset.range i) (fun m => K * P.choose m * m * m)))
      (fun mm (s : Nat × Nat × Nat) =>
        (s.1 + K * P.choose mm, s.2.1 + K * P.choose mm * mm, s.2.2 + K * P.choose mm * mm * mm))
      F (P + 1) (0, 0, 0) ⟨by omega, rfl⟩ hF
    rw [e.1, e.2.2]
  refine key _ (fun i hi s hs => ?_)
  · obtain ⟨_, rfl⟩ := hs
    have hiP : i ≤ P := by omega
    have hdvd := Nat.factorial_mul_factorial_dvd_factorial hiP
    have hpos : 0 < Nat.factorial i * Nat.factorial (P - i) :=
      Nat.mul_pos (Nat.factorial_pos _) (Nat.factorial_pos _)
    have hle : Nat.factorial i * Nat.factorial (P - i) ≤ Nat.factorial P :=
      Nat.le_of_dvd (Nat.factorial_pos _) hdvd
    have hfl : Nat.factorial P ≤ K * Nat.factorial P ∨ K = 0 := by
      rcases Nat.eq_zero_or_pos K with h | h
      · exact Or.inr h
      · exact Or.inl (Nat.le_mul_of_pos_left _ h)
    have hP64 : Nat.factorial P < 2 ^ 64 :=
      lt_of_le_of_lt (Nat.factorial_le hP) (by decide)
    have hnel : K * Nat.factorial P / (Nat.factorial i * Nat.factorial (P - i))
        = K * P.choose i := by
      rw [Nat.mul_div_assoc _ hdvd, Nat.choose_eq_factorial_div_factorial hiP]
    have b0 := choose_sum_le P K 1 (i + 1) (fun _ => 1) (by omega) (fun _ _ => le_refl _)
    have b1 := choose_sum_le P K P (i + 1) (fun m => m) (by omega) (fun _ h => h)
    have b2 := choose_sum_le P K (P * P) (i + 1) (fun m => m * m) (by omega)
      (fun _ h => Nat.mul_le_mul h h)
    simp only [Nat.mul_one] at b0
    have e2 : ∀ m, K * P.choose m * (m * m) = K * P.choose m * m * m := fun m => by ring
    simp only [e2] at b2
    have t0 : K * 2 ^ P ≤ K * 2 ^ P * (P * P + 1) := Nat.le_mul_of_pos_right _ (by omega)
    have t1 : K * 2 ^ P * P ≤ K * 2 ^ P * (P * P + 1) := by
      refine Nat.mul_le_mul_left _ ?_
      rcases Nat.eq_zero_or_pos P with h | h
      · omega
      · have := Nat.le_mul_of_pos_left P h
        omega
    have t2 : K * 2 ^ P * (P * P) ≤ K * 2 ^ P * (P * P + 1) := Nat.mul_le_mul_left _ (by omega)
    rw [Finset.sum_range_succ] at b0 b1 b2
    dsimp only at b0 b1 b2
    refine ⟨?_, by omega, ?_⟩
    · rw [factorial_table P hP, factorial_table i (by omega),
        wsub_of_le P i hiP (by omega), factorial_table (P - i) (by omega)]
      dsimp only
      rw [Nat.mod_eq_of_lt (show Nat.factorial i * Nat.factorial (P - i) < 2 ^ 64 by omega),
        if_neg (by omega), Nat.mod_eq_of_lt hK, hnel,
        Nat.mod_eq_of_lt (by omega), Nat.mod_eq_of_lt (by omega), Nat.mod_eq_of_lt (by omega)]
    · dsimp only
      rw [Finset.sum_range_succ, Finset.sum_range_succ, Finset.sum_range_succ]

/-- With more than 20 channels `space_needed` reads outside the table of `factorial`. -/
theorem space_needed_outside (P K : Nat) (hP : 21 ≤ P) : space_needed P K = none := by
  unfold space_needed
  have key : ∀ F : Nat → Option (Nat × Nat × Nat) → Option (Nat × Nat × Nat),
      (∀ i st, F i st = none) → forUp (P + 1) F (some (0, 0, 0)) = none := by
    intro F hF
    rw [forUp_succ, hF]
  refine key _ (fun i st => ?_)
  rw [factorial_outside P hP]
  cases st with
  | none => rfl
  | some s => rfl

theorem offsetOf_add (g : Nat → Nat) (a b : Nat) :
    offsetOf g (a + b) = offsetOf g a + offsetOf (fun c => g (a + c)) b := by
  induction b with
  | zero => rfl
  | succ b ih => rw [← Nat.add_assoc, offsetOf_succ, offsetOf_succ, ih]; ring

theorem offsetOf_congr_lt (g g' : Nat → Nat) (n : Nat) (h : ∀ c, c < n → g c = g' c) :
    offsetOf g n = offsetOf g' n := by
  induction n with
  | zero => rfl
  | succ n ih => rw [offsetOf_succ, offsetOf_succ, ih (fun c hc => h c (by omega)), h n (by omega)]

/-- Among the codes below `2^P` there are `C(P, m)` with `m` bits set: a sum over the codes
of a function of the bit count is a binomial sum. -/
theorem bitcount_sum_choose (P : Nat) : ∀ f : Nat → Nat,
    offsetOf (fun c => f (bitcount P c)) (2 ^ P)
      = Finset.sum (Finset.range (P + 1)) (fun m => P.choose m * f m) := by
  induction P with
  | zero =>
    intro f
    simp [offsetOf, bitcount, forUp]
  | succ P ih =>
    intro f
    have e : 2 ^ (P + 1) = 2 ^ P + 2 ^ P := by ring
    rw [e, offsetOf_add]
    have l1 : offsetOf (fun c => f (bitcount (P + 1) c)) (2 ^ P)
        = offsetOf (fun c => f (bitcount P c)) (2 ^ P) :=
      offsetOf_congr_lt _ _ _ (fun c hc => by
        show f (bitcount (P + 1) c) = f (bitcount P c)
        rw [bitcount_succ, Nat.testBit_lt_two_pow hc]
        rfl)
    have l2 : offsetOf (fun c => f (bitcount (P + 1) (2 ^ P + c))) (2 ^ P)
        = offsetOf (fun c => (fun m => f (m + 1)) (bitcount P c)) (2 ^ P) :=
      offsetOf_congr_lt _ _ _ (fun c hc => by
        show f (bitcount (P + 1) (2 ^ P + c)) = f (bitcount P c + 1)
        rw [bitcount_succ, Nat.testBit_two_pow_add_eq, Nat.testBit_lt_two_pow hc,
          bitcount_congr P (2 ^ P + c) c (fun i hi => Nat.testBit_two_pow_add_gt hi c)]
        rfl)
    rw [l1, l2, ih f, ih (fun m => f (m + 1))]
    rw [Finset.sum_range_succ' _ (P + 1), Finset.sum_range_succ' _ P]
    rw [Finset.sum_range_succ (fun m => P.choose m * f (m + 1)) P]
    have e3 : Finset.sum (Finset.range (P + 1))
          (fun m => (P + 1).choose (m + 1) * f (m + 1))
        = Finset.sum (Finset.range (P + 1)) (fun m => P.choose m * f (m + 1))
          + Finset.sum (Finset.range (P + 1)) (fun m => P.choose (m + 1) * f (m + 1)) := by
      rw [← Finset.sum_add_distrib]
      exact Finset.sum_congr rfl (fun m _ => by rw [Nat.choose_succ_succ]; ring)
    rw [e3, Finset.sum_range_succ (fun m => P.choose (m + 1) * f (m + 1)) P,
      Finset.sum_range_succ (fun m => P.choose m * f (m + 1)) P,
      Nat.choose_succ_self P]
    simp only [Nat.choose_zero_right, Nat.zero_mul, Nat.add_zero]
    ring

/-- The three sizes in closed form and as sums over the pattern codes. -/
theorem choose_sums (P K : Nat) :
    Finset.sum (Finset.range (P + 1)) (fun m => K * P.choose m) = K * 2 ^ P ∧
    Finset.sum (Finset.range (P + 1)) (fun m => K * P.choose m * m)
      = offsetOf (fun c => K * bitcount P c) (2 ^ P) ∧
    Finset.sum (Finset.range (P + 1)) (fun m => K * P.choose m * m * m)
      = offsetOf (fun c => K * bitcount P c * bitcount P c) (2 ^ P) := by
  refine ⟨?_, ?_, ?_⟩
  · rw [← Finset.mul_sum, Nat.sum_range_choose]
  · rw [bitcount_sum_choose P (fun m => K * m)]
    exact Finset.sum_congr rfl (fun m _ => by ring)
  · rw [bitcount_sum_choose P (fun m => K * m * m)]
    exact Finset.sum_congr rfl (fun m _ => by ring)

/-! ## The factor left by a run of `choldc` that floors no pivot -/

theorem choldc_floor_nonneg (n : Nat) (a : Nat → α) : 0 ≤ choldc_floor n a := by
  unfold choldc_floor
  exact mul_self_nonneg _

/-- After a run of `choldc` that floors no pivot, on a symmetric array and with an exact
`sqrt`, the matrix left behind is a Cholesky factor of the array. -/
theorem choldc_run_factor (m : Libm α) (hx : m.SqrtExact) (n : Nat) (a p : Nat → α)
    (hsym : ∀ i j, i < n → j < n → a (i * n + j) = a (j * n + i))
    (hnf : ∀ i, i < n → choldc_floor n a < cholPivot m n a p i) :
    CholFactor n a (cholLeft n (choldc m n a p)) := by
  obtain ⟨_, g2, g3, _⟩ := choldc_general m n a p
  have hpiv : ∀ i, i < n → (choldc m n a p).2 i = m.sqrt (cholPivot m n a p i) := by
    intro i hi
    rw [g2 i hi]
    have := hnf i hi
    unfold cholPivot at this
    rw [if_neg (not_le.mpr this)]
    rfl
  have hpos : ∀ i, i < n → 0 < cholPivot m n a p i := fun i hi =>
    lt_of_le_of_lt (choldc_floor_nonneg n a) (hnf i hi)
  have hLT : ∀ r c, r < c → c < n → cholLeft n (choldc m n a p) r c = 0 := by
    intro r c h _
    unfold cholLeft
    rw [if_neg (by omega), if_neg (by omega)]
  have hdiag : ∀ i, cholLeft n (choldc m n a p) i i = (choldc m n a p).2 i := by
    intro i
    unfold cholLeft
    rw [if_neg (by omega), if_pos rfl]
  have hlow : ∀ r c, c < r → cholLeft n (choldc m n a p) r c = (choldc m n a p).1 (r * n + c) := by
    intro r c h
    unfold cholLeft
    rw [if_pos h]
  have hle : ∀ i j, i ≤ j → j < n →
      a (i * n + j) = Finset.sum (Finset.range n) (fun k =>
        cholLeft n (choldc m n a p) i k * cholLeft n (choldc m n a p) j k) := by
    intro i j hij hj
    have hi : i < n := by omega
    rw [tri_sum_split n _ hLT i j hi, hdiag i, hpiv i hi]
    have e1 : Finset.sum (Finset.range i) (fun k =>
          cholLeft n (choldc m n a p) i k * cholLeft n (choldc m n a p) j k)
        = Finset.sum (Finset.range i) (fun k =>
          (choldc m n a p).1 (i * n + k) * (choldc m n a p).1 (j * n + k)) :=
      Finset.sum_congr rfl (fun k hk => by
        have := Finset.mem_range.mp hk
        rw [hlow i k this, hlow j k (by omega)])
    rw [e1]
    rcases Nat.lt_or_eq_of_le hij with h | h
    · rw [hlow j i h, g3 i j h hj, hpiv i hi,
        mul_div_cancel₀ _ (ne_of_gt (hx _ (hpos i hi)).1)]
      ring
    · subst h
      rw [hdiag i, hpiv i hi, (hx _ (hpos i hi)).2]
      unfold cholPivot
      ring
  refine ⟨hLT, fun i hi => ?_, fun i j hi hj => ?_, fun i hi => ?_⟩
  · rw [hdiag i, hpiv i hi]
    exact (hx _ (hpos i hi)).1
  · rcases Nat.le_total i j with h | h
    · exact hle i j h hj
    · rw [hsym i j hi hj, hle j i h hi]
      exact Finset.sum_congr rfl (fun k _ => mul_comm _ _)
  · rw [hdiag i, hpiv i hi, (hx _ (hpos i hi)).2]
    exact hnf i hi

/-! ## Index bounds on the sampled lattice -/

/-- A coordinate below the sampled extent, scaled by the stride, stays inside the prior grid
and is itself inside the data grid. -/
theorem extent_bounds (nf nm skip : Nat → Nat) (d i : Nat) (hs : 1 ≤ skip d)
    (hi : i < extent nf nm skip d) : i < nf d ∧ i * skip d < nm d := by
  have h1 : i < nm d / skip d := by
    unfold extent at hi
    dsimp only at hi
    split_ifs at hi with c <;> omega
  refine ⟨lt_of_lt_of_le hi (extent_le nf nm skip d), ?_⟩
  have h2 : (i + 1) * skip d ≤ nm d :=
    le_trans (Nat.mul_le_mul_right _ h1) (Nat.div_mul_le_self _ _)
  have h3 : (i + 1) * skip d = i * skip d + skip d := by ring
  omega

/-- A linear index built from coordinates inside a box is inside the box. -/
theorem box_index_lt (n0 n1 n2 a b c : Nat) (ha : a < n0) (hb : b < n1) (hc : c < n2) :
    a + n0 * (b + n1 * c) < n0 * n1 * n2 := by
  have h1 : b + n1 * c + 1 ≤ n1 * n2 := by
    have : n1 * (c + 1) ≤ n1 * n2 := Nat.mul_le_mul_left _ hc
    have e : n1 * (c + 1) = n1 * c + n1 := by ring
    omega
  have h2 : n0 * (b + n1 * c + 1) ≤ n0 * (n1 * n2) := Nat.mul_le_mul_left _ h1
  have e2 : n0 * (b + n1 * c + 1) = n0 * (b + n1 * c) + n0 := by ring
  have e3 : n0 * (n1 * n2) = n0 * n1 * n2 := by ring
  omega

/-- The loop of `get_priors` reads `lp` only at the indices `N1 * lkp[i]` of its classes. -/
theorem get_priors_loop_congr (N1 : Nat) (lp lp' : Nat → FVal α) (lkp : Nat → Nat) (n : Nat) :
    ∀ (k : Nat) (p : Nat → α),
      (∀ i, k ≤ i → i < k + n → lp (N1 * lkp i) = lp' (N1 * lkp i)) →
      get_priors_loop N1 lp lkp n k p = get_priors_loop N1 lp' lkp n k p := by
  induction n with
  | zero => intro k p _; rfl
  | succ n ih =>
    intro k p h
    have h0 := h k (le_refl _) (by omega)
    rw [get_priors_loop, get_priors_loop, ← h0]
    cases lp (N1 * lkp k) with
    | fin a => exact ih (k + 1) _ (fun i h1 h2 => h i (by omega) (by omega))
    | inf s => rfl
    | nan => rfl

/-! ## The seven views of every pattern tile the parameter buffer -/

theorem Tiles_congr_size {n : Nat} {start size size' : Nat → Nat} {total : Nat}
    (h : Tiles n start size total) (e : ∀ c, c < n → size' c = size c) :
    Tiles n start size' total := by
  obtain ⟨h1, h2, h3⟩ := h
  refine ⟨fun c hc => ?_, fun c c' hcc hc' => ?_, fun x hx => ?_⟩
  · rw [e c hc]; exact h1 c hc
  · rw [e c (by omega)]; exact h2 c c' hcc hc'
  · obtain ⟨c, hc, h4, h5⟩ := h3 x hx
    exact ⟨c, hc, h4, by rw [e c hc]; exact h5⟩

theorem viewLen_at (K c s : Nat) (hs : s < 7) :
    (fun i => gmmViewLen K (bitcount (i / 7) (i / 7)) (i % 7)) (7 * c + s)
      = gmmViewLen K (bitcount c c) s := by
  have h1 : (7 * c + s) / 7 = c := by omega
  have h2 : (7 * c + s) % 7 = s := by omega
  show gmmViewLen K (bitcount ((7 * c + s) / 7) ((7 * c + s) / 7)) ((7 * c + s) % 7) = _
  rw [h1, h2]

/-- Seven consecutive steps of a running offset. -/
theorem offsetOf_block (F : Nat → Nat) (n l0 l1 l2 l3 l4 l5 l6 : Nat)
    (h0 : F (n + 0) = l0) (h1 : F (n + 1) = l1) (h2 : F (n + 2) = l2) (h3 : F (n + 3) = l3)
    (h4 : F (n + 4) = l4) (h5 : F (n + 5) = l5) (h6 : F (n + 6) = l6) :
    offsetOf F (n + 1) = offsetOf F n + l0 ∧
    offsetOf F (n + 2) = offsetOf F n + l0 + l1 ∧
    offsetOf F (n + 3) = offsetOf F n + l0 + l1 + l2 ∧
    offsetOf F (n + 4) = offsetOf F n + l0 + l1 + l2 + l3 ∧
    offsetOf F (n + 5) = offsetOf F n + l0 + l1 + l2 + l3 + l4 ∧
    offsetOf F (n + 6) = offsetOf F n + l0 + l1 + l2 + l3 + l4 + l5 ∧
    offsetOf F (n + 7) = offsetOf F n + l0 + l1 + l2 + l3 + l4 + l5 + l6 := by
  have e1 : offsetOf F (n + 1) = offsetOf F n + l0 := by rw [offsetOf_succ, ← h0]; rfl
  have e2 : offsetOf F (n + 2) = offsetOf F n + l0 + l1 := by
    rw [show n + 2 = n + 1 + 1 from rfl, offsetOf_succ, e1, h1]
  have e3 : offsetOf F (n + 3) = offsetOf F n + l0 + l1 + l2 := by
    rw [show n + 3 = n + 2 + 1 from rfl, offsetOf_succ, e2, h2]
  have e4 : offsetOf F (n + 4) = offsetOf F n + l0 + l1 + l2 + l3 := by
    rw [show n + 4 = n + 3 + 1 from rfl, offsetOf_succ, e3, h3]
  have e5 : offsetOf F (n + 5) = offsetOf F n + l0 + l1 + l2 + l3 + l4 := by
    rw [show n + 5 = n + 4 + 1 from rfl, offsetOf_succ, e4, h4]
  have e6 : offsetOf F (n + 6) = offsetOf F n + l0 + l1 + l2 + l3 + l4 + l5 := by
    rw [show n + 6 = n + 5 + 1 from rfl, offsetOf_succ, e5, h5]
  have e7 : offsetOf F (n + 7) = offsetOf F n + l0 + l1 + l2 + l3 + l4 + l5 + l6 := by
    rw [show n + 7 = n + 6 + 1 from rfl, offsetOf_succ, e6, h6]
  exact ⟨e1, e2, e3, e4, e5, e6, e7⟩

/-- The running offset over the views, after all views of the patterns below `c`. -/
theorem offsetOf_views_block (K c : Nat) :
    offsetOf (fun i => gmmViewLen K (bitcount (i / 7) (i / 7)) (i % 7)) (7 * c)
      = offsetOf (gmmSize K) c := by
  induction c with
  | zero => rfl
  | succ c ih =>
    obtain ⟨_, _, _, _, _, _, e7⟩ := offsetOf_block
      (fun i => gmmViewLen K (bitcount (i / 7) (i / 7)) (i % 7)) (7 * c) _ _ _ _ _ _ _
      (viewLen_at K c 0 (by omega)) (viewLen_at K c 1 (by omega)) (viewLen_at K c 2 (by omega))
      (viewLen_at K c 3 (by omega)) (viewLen_at K c 4 (by omega)) (viewLen_at K c 5 (by omega))
      (viewLen_at K c 6 (by omega))
    rw [show 7 * (c + 1) = 7 * c + 7 from rfl, e7, ih, offsetOf_succ]
    unfold gmmSize gmmViewLen
    simp only [if_true, OfNat.ofNat_ne_zero, OfNat.ofNat_ne_one, if_false, one_ne_zero,
      Nat.reduceEqDiff]
    ring

/-- The running offset before view `t` of pattern `c` is the start of that view. -/
theorem offsetOf_views (K c t : Nat) (ht : t < 7) :
    offsetOf (fun i => gmmViewLen K (bitcount (i / 7) (i / 7)) (i % 7)) (7 * c + t)
      = gmmViewStart (gmmEntry K (bitcount c c) (offsetOf (gmmSize K) c)) t := by
  obtain ⟨e1, e2, e3, e4, e5, e6, _⟩ := offsetOf_block
    (fun i => gmmViewLen K (bitcount (i / 7) (i / 7)) (i % 7)) (7 * c) _ _ _ _ _ _ _
    (viewLen_at K c 0 (by omega)) (viewLen_at K c 1 (by omega)) (viewLen_at K c 2 (by omega))
    (viewLen_at K c 3 (by omega)) (viewLen_at K c 4 (by omega)) (viewLen_at K c 5 (by omega))
    (viewLen_at K c 6 (by omega))
  rw [offsetOf_views_block] at e1 e2 e3 e4 e5 e6
  have e0 := offsetOf_views_block K c
  unfold gmmViewLen at e1 e2 e3 e4 e5 e6
  simp only [if_true, OfNat.ofNat_ne_zero, OfNat.ofNat_ne_one, if_false, one_ne_zero,
    Nat.reduceEqDiff] at e1 e2 e3 e4 e5 e6
  unfold gmmViewStart gmmEntry
  interval_cases t
  · simpa using e0
  · simpa using e1
  · simpa using e2
  · simpa using e3
  · simpa using e4
  · simpa using e5
  · simpa using e6

/-- The final offset of `allocate_gmm` in closed form. -/
theorem offsetOf_gmmSize (P K n : Nat) (hn : n ≤ 2 ^ P) :
    offsetOf (gmmSize K) n = 5 * (K * n) + offsetOf (fun c => K * bitcount P c) n
      + offsetOf (fun c => K * bitcount P c * bitcount P c) n := by
  induction n with
  | zero => rfl
  | succ n ih =>
    rw [offsetOf_succ, offsetOf_succ, offsetOf_succ, ih (by omega)]
    unfold gmmSize
    rw [bitcount_self P n (by omega)]
    ring

theorem allocate_gmm_final (P K : Nat) :
    (allocate_gmm_loop P K).o = offsetOf (gmmSize K) (2 ^ P) := by
  unfold allocate_gmm_loop
  rw [(allocate_gmm_loop_spec K (1 <<< P)).1, Nat.one_shiftLeft]

/-- A cell that `sub_gmm` writes for a class `k < K` lies inside one of the seven views of
its pattern. -/
theorem gmmCell_in_view (K : Nat) (g : GMMtype) (k idx : Nat) (hk : k < K)
    (h : GmmCell g k idx) :
    ∃ t, t < 7 ∧ gmmViewStart g t ≤ idx ∧ idx < gmmViewStart g t + gmmViewLen K g.P t := by
  unfold GmmCell at h
  rcases h with h | h | h | ⟨j1, hj, h⟩ | ⟨e, he, h⟩ | h | h
  · exact ⟨3, by omega, by simp [gmmViewStart, gmmViewLen]; omega⟩
  · exact ⟨1, by omega, by simp [gmmViewStart, gmmViewLen]; omega⟩
  · exact ⟨4, by omega, by simp [gmmViewStart, gmmViewLen]; omega⟩
  · refine ⟨0, by omega, ?_⟩
    have := mul_cell_lt K g.P k j1 hk hj
    have e1 : g.P * k = k * g.P := Nat.mul_comm _ _
    simp only [gmmViewStart, gmmViewLen, if_true]
    omega
  · refine ⟨2, by omega, ?_⟩
    have := mul_cell_lt K (g.P * g.P) k e hk he
    have e1 : k * g.P * g.P = k * (g.P * g.P) := Nat.mul_assoc _ _ _
    have e2 : K * g.P * g.P = K * (g.P * g.P) := Nat.mul_assoc _ _ _
    simp only [gmmViewStart, gmmViewLen]
    norm_num
    omega
  · exact ⟨5, by omega, by simp [gmmViewStart, gmmViewLen]; omega⟩
  · exact ⟨6, by omega, by simp [gmmViewStart, gmmViewLen]; omega⟩

/-- Every cell of a pattern `code < 2^P` and class `k < K` is below the final offset. -/
theorem gmmCell_lt_total (P K code k idx : Nat) (hc : code < 2 ^ P) (hk : k < K)
    (h : GmmCell ((allocate_gmm_loop P K).tbl code) k idx) :
    idx < (allocate_gmm_loop P K).o := by
  rw [allocate_gmm_tbl P K code hc] at h
  have b1 := gmmCell_lt K _ _ k idx hk h
  have h2 : offsetOf (gmmSize K) (code + 1) ≤ offsetOf (gmmSize K) (2 ^ P) :=
    offsetOf_mono _ (by omega)
  rw [offsetOf_succ] at h2
  have h3 : gmmSize K code
      = K * bitcount P code + K + K * bitcount P code * bitcount P code + K + K + K + K := by
    unfold gmmSize
    rw [bitcount_self P code hc]
  rw [allocate_gmm_final]
  omega

/-- The parameter buffer returned by `sub_gmm` is still zero from the final offset of
`allocate_gmm` on: nothing is written behind the allocation. -/
theorem sub_gmm_within (m : Libm α) (P K : Nat) (mu b W nu gam : Nat → α) :
    ∃ buf, sub_gmm m true true P K mu b W nu gam = some ((allocate_gmm_loop P K).tbl, buf) ∧
      ∀ idx, (allocate_gmm_loop P K).o ≤ idx → buf idx = 0 := by
  refine ⟨_, sub_gmm_ok m P K mu b W nu gam, ?_⟩
  refine forUp_inv (fun _ (st : (Nat → α) × (Nat → α)) =>
    ∀ idx, (allocate_gmm_loop P K).o ≤ idx → st.1 idx = 0) _ K _ (fun _ _ => rfl)
    (fun k hk st hst => ?_)
  refine forUp_inv (fun _ (st : (Nat → α) × (Nat → α)) =>
    ∀ idx, (allocate_gmm_loop P K).o ≤ idx → st.1 idx = 0) _ (1 <<< P) _ hst
    (fun code hcode st' hst' => ?_)
  intro idx hidx
  rw [Nat.one_shiftLeft] at hcode
  rw [sub_gmm_code_frame m P mu b nu _ k _ code st' (allocate_gmm_P P K code hcode) idx
    (fun hcell => by
      have := gmmCell_lt_total P K code k idx hcode hk hcell
      omega)]
  exact hst' idx hidx

set_option maxRecDepth 100000 in
theorem allocate_gmm_masked_end_seven :
    space_needed 7 1 = some (128, 448, 1792) ∧ allocate_gmm_masked_end 7 1 = 6432 := by
  constructor <;> decide

theorem byteAt_lt (x i : Nat) : byteAt x i < 256 := Nat.mod_lt _ (by norm_num)

theorem ofBytes_succ (n : Nat) (p : Nat → Nat) :
    ofBytes (n + 1) p = ofBytes n p + (p n % 256) * 256 ^ n := by
  unfold ofBytes; rw [forUp_succ]

theorem ofBytes_lt (n : Nat) (p : Nat → Nat) : ofBytes n p < 256 ^ n := by
  induction n with
  | zero => simp [ofBytes, forUp]
  | succ n ih =>
    rw [ofBytes_succ, pow_succ]
    have h : p n % 256 < 256 := Nat.mod_lt _ (by norm_num)
    nlinarith [Nat.pow_pos (n := n) (show 0 < 256 by norm_num)]

/-- Reading byte `i` of the pattern assembled from `n` bytes gives byte `i` back. -/
theorem byteAt_ofBytes (n : Nat) (p : Nat → Nat) (i : Nat) (hi : i < n) :
    byteAt (ofBytes n p) i = p i % 256 := by
  induction n with
  | zero => omega
  | succ n ih =>
    rw [ofBytes_succ]
    have hl := ofBytes_lt n p
    have hpos : 0 < 256 ^ i := Nat.pow_pos (by norm_num)
    rcases Nat.lt_succ_iff_lt_or_eq.mp hi with h | h
    · rw [← ih h]
      unfold byteAt
      obtain ⟨d, rfl⟩ : ∃ d, n = i + 1 + d := ⟨n - (i + 1), by omega⟩
      have e : p (i + 1 + d) % 256 * 256 ^ (i + 1 + d)
          = 256 ^ i * (256 * (p (i + 1 + d) % 256 * 256 ^ d)) := by
        rw [pow_add, pow_succ]; ring
      rw [e, Nat.add_mul_div_left _ _ hpos, Nat.add_mul_mod_self_left]
    · subst h
      unfold byteAt
      rw [Nat.add_mul_div_right _ _ hpos, Nat.div_eq_of_lt hl, Nat.zero_add, Nat.mod_mod]

/-- Assembling the first `n` bytes of a pattern gives the pattern modulo `256 ^ n`. -/
theorem ofBytes_byteAt (n x : Nat) : ofBytes n (byteAt x) = x % 256 ^ n := by
  induction n with
  | zero => simp [ofBytes, forUp, Nat.mod_one]
  | succ n ih =>
    rw [ofBytes_succ, ih]
    unfold byteAt
    rw [Nat.mod_mod, pow_succ, Nat.mod_mul, Nat.mul_comm (256 ^ n)]

theorem ofBytes_congr (n : Nat) (p q : Nat → Nat) (h : ∀ i, i < n → p i = q i) :
    ofBytes n p = ofBytes n q := by
  induction n with
  | zero => rfl
  | succ n ih =>
    rw [ofBytes_succ, ofBytes_succ, ih (fun i hi => h i (by omega)), h n (by omega)]

/-- A pattern below `256 ^ n` is determined by its first `n` bytes. -/
theorem eq_of_byteAt (n x y : Nat) (hx : x < 256 ^ n) (hy : y < 256 ^ n)
    (h : ∀ i, i < n → byteAt x i = byteAt y i) : x = y := by
  rw [← Nat.mod_eq_of_lt hx, ← Nat.mod_eq_of_lt hy, ← ofBytes_byteAt, ← ofBytes_byteAt]
  exact ofBytes_congr n _ _ h

theorem getshort_lt (x : Nat) : getshort x < 2 ^ 16 := by
  unfold getshort; exact ofBytes_lt 2 _

theorem getint_lt (x : Nat) : getint x < 2 ^ 32 := by
  unfold getint; exact ofBytes_lt 4 _

theorem getdouble_lt (x : Nat) : getdouble x < 2 ^ 64 := by
  unfold getdouble; exact ofBytes_lt 8 _

theorem getshort_byte (x i : Nat) (hi : i < 2) :
    byteAt (getshort x) i = byteAt (x % 2 ^ 16) (1 - i) := by
  unfold getshort
  dsimp only
  rw [byteAt_ofBytes 2 _ i hi]
  interval_cases i <;> simp [Function.update, Nat.mod_eq_of_lt (byteAt_lt _ _)]

theorem getint_byte (x i : Nat) (hi : i < 4) :
    byteAt (getint x) i = byteAt (x % 2 ^ 32) (3 - i) := by
  unfold getint
  dsimp only
  rw [byteAt_ofBytes 4 _ i hi]
  interval_cases i <;> simp [Function.update, Nat.mod_eq_of_lt (byteAt_lt _ _)]

theorem getdouble_byte (x i : Nat) (hi : i < 8) :
    byteAt (getdouble x) i = byteAt (x % 2 ^ 64) (7 - i) := by
  unfold getdouble
  dsimp only
  rw [byteAt_ofBytes 8 _ i hi]
  interval_cases i <;> simp [Function.update, Nat.mod_eq_of_lt (byteAt_lt _ _)]

theorem getshort_twice (x : Nat) : getshort (getshort x) = x % 2 ^ 16 := by
  refine eq_of_byteAt 2 _ _ (getshort_lt _) (Nat.mod_lt _ (by norm_num)) (fun i hi => ?_)
  rw [getshort_byte _ i hi, Nat.mod_eq_of_lt (getshort_lt x), getshort_byte x (1 - i) (by omega)]
  congr 1; omega

theorem getint_twice (x : Nat) : getint (getint x) = x % 2 ^ 32 := by
  refine eq_of_byteAt 4 _ _ (getint_lt _) (Nat.mod_lt _ (by norm_num)) (fun i hi => ?_)
  rw [getint_byte _ i hi, Nat.mod_eq_of_lt (getint_lt x), getint_byte x (3 - i) (by omega)]
  congr 1; omega

theorem getdouble_twice (x : Nat) : getdouble (getdouble x) = x % 2 ^ 64 := by
  refine eq_of_byteAt 8 _ _ (getdouble_lt _) (Nat.mod_lt _ (by norm_num)) (fun i hi => ?_)
  rw [getdouble_byte _ i hi, Nat.mod_eq_of_lt (getdouble_lt x),
    getdouble_byte x (7 - i) (by omega)]
  congr 1; omega

/-! ## `fastexp` and `psi` on every argument -/

/-- The index of `fastexp` is `rint x` clamped to `[-128, 127]`. -/
theorem fastexp_index_clamp (x : α) : fastexp_index x = max (-128) (min 127 (rint x)) := by
  unfold fastexp_index
  dsimp only
  split_ifs <;> omega

/-- C `rint` returns an integer within one half of its argument. -/
theorem rint_dist (x : α) : |x - ((rint x : Int) : α)| ≤ 1 / 2 := by
  have h1 := Int.floor_le x
  have h2 := Int.lt_floor_add_one x
  unfold rint
  dsimp only
  rw [abs_le]
  split_ifs with c1 c2 c3
  · constructor <;> linarith
  · push_cast; constructor <;> linarith
  · have : x - (⌊x⌋ : α) = 1 / 2 := le_antisymm (not_lt.mp c2) (not_lt.mp c1)
    constructor <;> linarith
  · have : x - (⌊x⌋ : α) = 1 / 2 := le_antisymm (not_lt.mp c2) (not_lt.mp c1)
    push_cast; constructor <;> linarith

/-- No integer is nearer to `x` than `rint x`. -/
theorem rint_nearest (x : α) (n : Int) : |x - ((rint x : Int) : α)| ≤ |x - (n : α)| := by
  have h := rint_dist x
  by_cases e : n = rint x
  · rw [e]
  · have h1 : (1 : α) ≤ |((n - rint x : Int) : α)| := by
      rw [← Int.cast_abs]
      have : (1 : Int) ≤ |n - rint x| := Int.one_le_abs (sub_ne_zero.mpr e)
      exact_mod_cast this
    push_cast at h1
    have h2 : |(n : α) - (rint x : α)| ≤ |x - (n : α)| + |x - (rint x : α)| := by
      have e2 : (n : α) - (rint x : α) = (x - (rint x : α)) - (x - (n : α)) := by ring
      rw [e2]
      have := abs_sub (x - (rint x : α)) (x - (n : α))
      linarith
    linarith

theorem rint_intCast (i : Int) : rint ((i : Int) : α) = i :=
  rint_near _ i (by linarith) (by linarith)

theorem fastexp_intCast (m : Libm α) (i : Int) (h1 : -128 ≤ i) (h2 : i ≤ 127) :
    fastexp m ((i : Int) : α) = m.exp ((i : Int) : α) := by
  have hi : fastexp_index ((i : Int) : α) = i := by
    rw [fastexp_index_clamp, rint_intCast]; omega
  rw [fastexp_eq_index, hi]
  simp

/-- The two forms of the factor of `fastexp`; its denominator is positive. -/
theorem fastexp_factor_eq (r : α) :
    0 < r * r / 6 - r + 2 ∧
    1 + 2 * r / (2 - r + r * r / 6) = (r * r / 6 + r + 2) / (r * r / 6 - r + 2) := by
  have hD : 0 < r * r / 6 - r + 2 := by nlinarith [sq_nonneg (r - 3)]
  refine ⟨hD, ?_⟩
  have e : 2 - r + r * r / 6 = r * r / 6 - r + 2 := by ring
  rw [e, eq_div_iff (ne_of_gt hD), add_mul, div_mul_cancel₀ _ (ne_of_gt hD)]
  ring

/-- Rounds of the loop of `psi` on an argument that stays below 7. -/
theorem psi_loop_run (n : Nat) : ∀ (f z : α), (∀ j, j < n → z + (j : α) < 7) →
    psi_loop n f z = (f - Finset.sum (Finset.range n) (fun j => 1 / (z + (j : α))), z + (n : α)) := by
  induction n with
  | zero => intro f z _; simp [psi_loop]
  | succ n ih =>
    intro f z h
    have h0 : z < 7 := by simpa using h 0 (Nat.succ_pos n)
    rw [psi_loop, if_pos h0, ih (f - 1 / z) (z + 1) (fun j hj => by
      have := h (j + 1) (by omega)
      push_cast at this
      linarith)]
    rw [Finset.sum_range_succ']
    refine Prod.ext ?_ ?_
    · dsimp only
      have e : ∀ j : Nat, 1 / (z + 1 + (j : α)) = 1 / (z + ((j + 1 : Nat) : α)) := fun j => by
        push_cast; rw [add_assoc, add_comm (1 : α)]
      rw [Finset.sum_congr rfl (fun j _ => e j)]
      simp only [Nat.cast_zero, add_zero]
      ring
    · dsimp only
      push_cast
      ring

/-- Once the argument has reached 7 the loop of `psi` does nothing. -/
theorem psi_loop_stop (n : Nat) (f z : α) (h : ¬ z < 7) : psi_loop n f z = (f, z) := by
  cases n with
  | zero => rfl
  | succ n => rw [psi_loop, if_neg h]

/-- More rounds than needed change nothing. -/
theorem psi_loop_add (n k : Nat) : ∀ (f z : α), (∀ j, j < n → z + (j : α) < 7) →
    ¬ z + (n : α) < 7 → psi_loop (n + k) f z = psi_loop n f z := by
  induction n with
  | zero =>
    intro f z _ h2
    rw [Nat.zero_add, psi_loop_stop k f z (by simpa using h2)]
    rfl
  | succ n ih =>
    intro f z h h2
    have h0 : z < 7 := by simpa using h 0 (Nat.succ_pos n)
    rw [show n + 1 + k = (n + k) + 1 by omega, psi_loop, psi_loop, if_pos h0, if_pos h0]
    refine ih _ _ (fun j hj => ?_) ?_
    · have := h (j + 1) (by omega)
      push_cast at this
      linarith
    · push_cast at h2
      intro c; exact h2 (by linarith)

/-- The rounds of the loop of `psi` are those `j` below `⌈7 - z⌉`. -/
theorem psi_rounds (z : α) (j : Nat) : j < Int.toNat ⌈7 - z⌉ ↔ z + (j : α) < 7 := by
  rw [Int.lt_toNat, Int.lt_ceil]
  push_cast
  constructor <;> intro h <;> linarith

theorem psi_rounds_succ (z : α) (h : z < 7) :
    Int.toNat ⌈7 - z⌉ = Int.toNat ⌈7 - (z + 1)⌉ + 1 := by
  have e : (7 : α) - z = (7 - (z + 1)) + ((1 : Int) : α) := by push_cast; ring
  have h1 : ⌈7 - z⌉ = ⌈7 - (z + 1)⌉ + 1 := by rw [e, Int.ceil_add_int]
  have h2 : 0 < ⌈7 - z⌉ := Int.ceil_pos.mpr (by linarith)
  omega

/-- Adding a constant to the accumulator of the loop of `psi`. -/
theorem psi_loop_shift (n : Nat) : ∀ (f c z : α),
    psi_loop n (f + c) z = ((psi_loop n f z).1 + c, (psi_loop n f z).2) := by
  induction n with
  | zero => intro f c z; rfl
  | succ n ih =>
    intro f c z
    rw [psi_loop, psi_loop]
    by_cases h : z < 7
    · rw [if_pos h, if_pos h, ← ih (f - 1 / z) c (z + 1)]
      congr 1; ring
    · rw [if_neg h, if_neg h]

theorem psi_recurrence (m : Libm α) (z : α) (h : z < 7) : psi m z = psi m (z + 1) - 1 / z := by
  unfold psi
  rw [psi_rounds_succ z h, psi_loop, if_pos h]
  have e : (0 : α) - 1 / z = 0 + (-(1 / z)) := by ring
  rw [e, psi_loop_shift]
  dsimp only
  ring

theorem psi_large (m : Libm α) (z : α) (h : 7 ≤ z) :
    psi m z = m.log (z - 1 / 2) + (1 / 24) * ((1 / (z - 1 / 2)) * (1 / (z - 1 / 2)))
      - (7 / 960) * (((1 / (z - 1 / 2)) * (1 / (z - 1 / 2)))
          * ((1 / (z - 1 / 2)) * (1 / (z - 1 / 2))))
      + (31 / 8064) * (((1 / (z - 1 / 2)) * (1 / (z - 1 / 2)))
          * ((1 / (z - 1 / 2)) * (1 / (z - 1 / 2)))) * ((1 / (z - 1 / 2)) * (1 / (z - 1 / 2)))
      - (127 / 30720) * (((1 / (z - 1 / 2)) * (1 / (z - 1 / 2)))
          * ((1 / (z - 1 / 2)) * (1 / (z - 1 / 2))))
        * (((1 / (z - 1 / 2)) * (1 / (z - 1 / 2))) * ((1 / (z - 1 / 2)) * (1 / (z - 1 / 2)))) := by
  unfold psi
  rw [psi_loop_stop _ 0 z (not_lt.mpr h)]
  dsimp only
  ring

end Lemmas12

section Lemmas13

set_option linter.unusedSectionVars false

variable {α : Type} [LinearOrderedField α] [FloorRing α]

/-! ## Shifts as C defines them, the table of `fastexp` through the entry points, and the local arrays -/

/-! ## The old-style `float` parameter of `getfloat` -/

theorem floatParam_lt (x : Nat) : floatParam x < 2 ^ 32 := by
  unfold floatParam
  by_cases h : signallingNaN x
  · rw [if_pos h]
    unfold signallingNaN at h
    have := Nat.mod_lt x (show 0 < 2 ^ 32 by norm_num)
    omega
  · rw [if_neg h]
    exact Nat.mod_lt x (by norm_num)

theorem getfloat_eq (x : Nat) : getfloat x = getint (floatParam x) := by
  unfold getfloat getint
  rw [Nat.mod_eq_of_lt (floatParam_lt x)]

/-! ## Passes without a class -/

/-- With no class, `Nresp` returns `log(0) + p[0]` and leaves `p` alone: `softmax1` starts
its maximum from `q[0]`, which nothing has written. -/
theorem Nresp_noclass (m : Libm α) (gmm : Nat → GMMtype) (buf : Nat → α) (code : Nat)
    (x v p : Nat → α) : Nresp m 0 gmm buf code x v p = (m.log 0 + p 0, p) := rfl

/-- With no class, a voxel with a finite channel mean adds `log(0) + p[0]` to the
log-likelihood of `suffstats_missing`, `p[0]` being whatever the local array held. -/
theorem suffstats_voxel_noclass (m : Libm α) (Nf P : Nat) (mf : Nat → FVal α) (vf : Nat → α)
    (gmm : Nat → GMMtype) (buf : Nat → α) (Nm : Nat) (lkp : Nat → Nat) (lp : Nat → FVal α)
    (suffstat : Nat → SStype) (i im : Nat) (s : SSstate α)
    (hc : (get_vox Nf P (shift mf i) (shift vf i) s.scr.mx s.scr.vx).code > 0) :
    (suffstats_voxel m Nf P 0 mf vf gmm buf Nm lkp lp suffstat i im s).ll
      = s.ll + (m.log 0 + s.scr.p 0) ∧
    (suffstats_voxel m Nf P 0 mf vf gmm buf Nm lkp lp suffstat i im s).scr.p = s.scr.p := by
  unfold suffstats_voxel
  simp only [hc, if_true]
  have e : get_priors Nm (shift lp im) 0 lkp s.scr.p = (true, s.scr.p) := rfl
  rw [e]
  simp only [if_true, Nresp_noclass]
  exact ⟨trivial, trivial⟩

/-- With no class, a voxel of `responsibilities` that has a finite channel mean writes
nothing to `r`. -/
theorem responsibilities_voxel_noclass (m : Libm α) (N1 P : Nat) (skip : Nat → Nat)
    (mf : Nat → FVal α) (vf : Nat → α) (gmm : Nat → GMMtype) (buf : Nat → α) (K1 : Nat)
    (lkp : Nat → Nat) (lp : Nat → FVal α) (i0 i1 i2 i : Nat) (s : RState α)
    (hc : (get_vox N1 P (shift mf i) (shift vf i) s.scr.mx s.scr.vx).code ≠ 0) :
    (responsibilities_voxel m N1 P 0 skip mf vf gmm buf K1 lkp lp i0 i1 i2 i s).r = s.r := by
  rw [responsibilities_voxel_valid m N1 P 0 skip mf vf gmm buf K1 lkp lp i0 i1 i2 i s rfl hc _ rfl]
  rfl

/-! ## The shifts of C in `allocate_gmm` and `make_index` -/

theorem forUp_none {σ : Type} (F : Nat → Option σ → Option σ) (hF : ∀ i, F i none = none)
    (n : Nat) : forUp n F none = none := by
  induction n with
  | zero => rfl
  | succ n ih => rw [forUp_succ, ih, hF]

/-- A loop over an optional state whose every round from a state gives a state runs the
plain loop. -/
theorem forUp_some_all {σ : Type} (body : Nat → σ → σ) (F : Nat → Option σ → Option σ)
    (n : Nat) (s : σ) (h : ∀ i, i < n → ∀ s, F i (some s) = some (body i s)) :
    forUp n F (some s) = some (forUp n body s) :=
  (forUp_some (fun _ _ => True) body F n s trivial (fun i hi s _ => ⟨h i hi s, trivial⟩)).1

theorem two_pow_le_64 (P : Nat) (hP : P ≤ 6) : 2 ^ P ≤ 64 :=
  Nat.pow_le_pow_right (by decide) hP

theorem allocate_gmm_step_c_of_le (K code : Nat) (st : GMMloop) (h : code ≤ 64) :
    allocate_gmm_step_c K code (some st) = some (allocate_gmm_step K code st) := by
  unfold allocate_gmm_step_c
  rw [bitcount_c_of_le code code h]
  rfl

theorem allocate_gmm_step_c_of_gt (K code : Nat) (st : Option GMMloop) (h : 64 < code) :
    allocate_gmm_step_c K code st = none := by
  unfold allocate_gmm_step_c
  rw [bitcount_c_of_gt code code h]
  cases st <;> rfl

theorem allocate_gmm_step_c_none (K code : Nat) : allocate_gmm_step_c K code none = none := by
  unfold allocate_gmm_step_c
  cases bitcount_c code code <;> rfl

/-- For `P ≤ 6` every shift of `allocate_gmm` is defined in C, and the table and final
offset are those of `allocate_gmm_loop`. -/
theorem allocate_gmm_loop_c_small (P K : Nat) (hP : P ≤ 6) :
    allocate_gmm_loop_c P K = some (allocate_gmm_loop P K) := by
  unfold allocate_gmm_loop_c allocate_gmm_loop shl64
  rw [if_pos (by omega)]
  dsimp only
  refine forUp_some_all _ _ _ _ (fun i hi s => allocate_gmm_step_c_of_le K i s ?_)
  rw [Nat.one_shiftLeft] at hi
  have := two_pow_le_64 P hP
  omega

/-- For `P ≥ 7` the loop of `allocate_gmm` reaches `code = 65` and the shift `code >> 64`:
C gives the run no defined result. -/
theorem allocate_gmm_loop_c_large (P K : Nat) (hP : 7 ≤ P) : allocate_gmm_loop_c P K = none := by
  unfold allocate_gmm_loop_c shl64
  by_cases h : P < 64
  · rw [if_pos h]
    dsimp only
    have h7 : 2 ^ 7 ≤ 2 ^ P := Nat.pow_le_pow_right (by decide) hP
    obtain ⟨d, hd⟩ : ∃ d, 1 <<< P = 65 + 1 + d := ⟨2 ^ P - 66, by rw [Nat.one_shiftLeft]; omega⟩
    rw [hd, forUp_add, forUp_succ, allocate_gmm_step_c_of_gt K 65 _ (by decide)]
    exact forUp_none _ (fun i => allocate_gmm_step_c_none K _) d
  · rw [if_neg h]

theorem bitcount_masked_of_le (n code : Nat) (h : n ≤ 64) :
    bitcount_masked n code = bitcount n code := by
  unfold bitcount_masked bitcount
  exact forUp_congr n _ _ (fun i hi s => by rw [Nat.mod_eq_of_lt (by omega)]) 0

/-- For `P ≤ 6` the table that x86-64 builds is the one of `allocate_gmm_loop`. -/
theorem allocate_gmm_loop_masked_small (P K : Nat) (hP : P ≤ 6) :
    allocate_gmm_loop_masked P K = allocate_gmm_loop P K := by
  unfold allocate_gmm_loop_masked allocate_gmm_loop
  rw [Nat.mod_eq_of_lt (by omega)]
  refine forUp_congr _ _ _ (fun i hi s => ?_) _
  rw [Nat.one_shiftLeft] at hi
  have := two_pow_le_64 P hP
  unfold allocate_gmm_step_masked allocate_gmm_step
  rw [bitcount_masked_of_le i i (by omega)]

theorem allocate_gmm_loop_masked_P (K n code : Nat) :
    ((forUp n (allocate_gmm_step_masked K) ⟨fun _ => ⟨0, 0, 0, 0, 0, 0, 0, 0⟩, 0⟩).tbl code).P
      = if code < n then bitcount_masked code code else 0 := by
  induction n with
  | zero => simp [forUp_zero]
  | succ n ih =>
    rw [forUp_succ]
    generalize forUp n (allocate_gmm_step_masked K) ⟨fun _ => ⟨0, 0, 0, 0, 0, 0, 0, 0⟩, 0⟩ = st at ih
    unfold allocate_gmm_step_masked
    simp only []
    by_cases hc : code = n
    · subst hc; simp
    · rw [Function.update_noteq hc, ih]
      by_cases hlt : code < n
      · simp [hlt, Nat.lt_succ_of_lt hlt]
      · have : ¬ code < n + 1 := by omega
        simp [hlt, this]

/-- The dimension that x86-64 stores for a pattern: the masked bit count over `i < code`. -/
theorem allocate_gmm_masked_P (P K code : Nat) (hP : P < 64) (h : code < 2 ^ P) :
    ((allocate_gmm_loop_masked P K).tbl code).P = bitcount_masked code code := by
  unfold allocate_gmm_loop_masked
  rw [allocate_gmm_loop_masked_P, Nat.mod_eq_of_lt hP, Nat.one_shiftLeft]
  simp only [h, if_true]

/-- The sizes of `space_needed` in closed form, for the channel and class counts on which
it is exact and that the bound check lets through. -/
theorem space_needed_closed (P K : Nat) (hP : P ≤ 19) (hK : K < 128) :
    space_needed P K = some (K * 2 ^ P, offsetOf (fun c => K * bitcount P c) (2 ^ P),
      offsetOf (fun c => K * bitcount P c * bitcount P c) (2 ^ P)) := by
  have h19 : Nat.factorial 19 = 121645100408832000 := by decide
  have hf : K * Nat.factorial P < 2 ^ 64 := by
    have a1 : Nat.factorial P ≤ Nat.factorial 19 := Nat.factorial_le hP
    have a2 : K * Nat.factorial P ≤ 127 * Nat.factorial 19 := Nat.mul_le_mul (by omega) a1
    rw [h19] at a2
    omega
  have hS : K * 2 ^ P * (P * P + 1) < 2 ^ 64 := by
    have a1 : 2 ^ P ≤ 2 ^ 19 := Nat.pow_le_pow_right (by omega) hP
    have a2 : P * P ≤ 19 * 19 := Nat.mul_le_mul hP hP
    have a3 : K * 2 ^ P ≤ 127 * 2 ^ 19 := Nat.mul_le_mul (by omega) a1
    have a4 : K * 2 ^ P * (P * P + 1) ≤ 127 * 2 ^ 19 * (19 * 19 + 1) :=
      Nat.mul_le_mul a3 (by omega)
    omega
  rw [space_needed_exact P K (by omega) hf hS, (choose_sums P K).1, (choose_sums P K).2.1,
    (choose_sums P K).2.2]

/-- For `P ≤ 19` and `K < 128` the number of doubles that `allocate_gmm` requests is the
final offset of its loop: the views of the table fill the allocation exactly. -/
theorem allocate_gmm_size_eq (P K : Nat) (hP : P ≤ 19) (hK : K < 128) :
    allocate_gmm_size P K = some (allocate_gmm_loop P K).o := by
  have b1 := choose_sum_le P K P (P + 1) (fun m => m) (le_refl _) (fun _ h => h)
  have b2 := choose_sum_le P K (P * P) (P + 1) (fun m => m * m) (le_refl _)
    (fun _ h => Nat.mul_le_mul h h)
  have e2 : ∀ m, K * P.choose m * (m * m) = K * P.choose m * m * m := fun m => by ring
  simp only [e2] at b2
  rw [(choose_sums P K).2.1] at b1
  rw [(choose_sums P K).2.2] at b2
  have a1 : 2 ^ P ≤ 2 ^ 19 := Nat.pow_le_pow_right (by omega) hP
  have a2 : P * P ≤ 19 * 19 := Nat.mul_le_mul hP hP
  have a3 : K * 2 ^ P ≤ 127 * 2 ^ 19 := Nat.mul_le_mul (by omega) a1
  have a4 : K * 2 ^ P * (P * P) ≤ 127 * 2 ^ 19 * (19 * 19) := Nat.mul_le_mul a3 a2
  have a5 : K * 2 ^ P * P ≤ 127 * 2 ^ 19 * 19 := Nat.mul_le_mul a3 hP
  unfold allocate_gmm_size
  rw [space_needed_closed P K hP hK]
  dsimp only
  rw [allocate_gmm_final, offsetOf_gmmSize P K (2 ^ P) (le_refl _), Nat.mod_eq_of_lt (by omega)]
  congr 1
  ring

theorem make_index_count_c_of_le (code ic : Nat) (hic : ic ≤ 64) :
    make_index_count_c code ic
      = some (forUp ic (fun i i1 => if (code &&& (1 <<< i)) ≠ 0 then i1 + 1 else i1) 0) := by
  unfold make_index_count_c
  refine forUp_some_all _ _ _ _ (fun i hi s => ?_)
  unfold shl64
  rw [if_pos (by omega)]

theorem make_index_step_c_of_lt (ic code : Nat) (index : Nat → Nat) (hic : ic < 64) :
    make_index_step_c ic code (some index) = some
      (if (code &&& (1 <<< ic)) ≠ 0 then
        Function.update index code
          (forUp ic (fun i i1 => if (code &&& (1 <<< i)) ≠ 0 then i1 + 1 else i1) 0)
      else Function.update index code Undefined) := by
  unfold make_index_step_c shl64
  rw [if_pos hic]
  dsimp only
  by_cases hb : (code &&& (1 <<< ic)) ≠ 0
  · rw [if_pos hb, if_pos hb, make_index_count_c_of_le code ic (by omega)]
  · rw [if_neg hb, if_neg hb]

theorem make_index_step_c_none (ic code : Nat) : make_index_step_c ic code none = none := by
  unfold make_index_step_c
  cases shl64 ic <;> rfl

theorem make_index_step_c_of_ge (ic code : Nat) (st : Option (Nat → Nat)) (hic : 64 ≤ ic) :
    make_index_step_c ic code st = none := by
  unfold make_index_step_c shl64
  rw [if_neg (by omega)]
  cases st <;> rfl

/-- For `P < 64` and `ic < 64` every shift of `make_index` is defined in C, and the array
is the one of `make_index`. -/
theorem make_index_c_of_lt (P ic : Nat) (index : Nat → Nat) (hP : P < 64) (hic : ic < 64) :
    make_index_c P ic index = some (make_index P ic index) := by
  unfold make_index_c make_index shl64
  rw [if_pos hP]
  dsimp only
  exact forUp_some_all _ _ _ _ (fun code _ s => make_index_step_c_of_lt ic code s hic)

/-- For `ic ≥ 64` the first round of `make_index` shifts by `ic`: C gives the run no
defined result. -/
theorem make_index_c_of_ge (P ic : Nat) (index : Nat → Nat) (hic : 64 ≤ ic) :
    make_index_c P ic index = none := by
  unfold make_index_c shl64
  by_cases hP : P < 64
  · rw [if_pos hP]
    dsimp only
    obtain ⟨d, hd⟩ : ∃ d, 1 <<< P = 0 + 1 + d :=
      ⟨2 ^ P - 1, by rw [Nat.one_shiftLeft]; have := Nat.two_pow_pos P; omega⟩
    rw [hd, forUp_add, forUp_succ, make_index_step_c_of_ge ic 0 _ hic]
    exact forUp_none _ (fun i => make_index_step_c_none ic _) d
  · rw [if_neg hP]

theorem masked_count_le (code ic : Nat) :
    forUp ic (fun i i1 => if (code &&& (1 <<< (i % 64))) ≠ 0 then i1 + 1 else i1) 0 ≤ ic := by
  induction ic with
  | zero => exact Nat.le_refl 0
  | succ n ih =>
    rw [forUp_succ]
    split_ifs <;> omega

/-- The array that x86-64 leaves for `make_index`: a pattern whose bit `ic mod 64` is set
gets a position, whatever `ic` is. -/
theorem make_index_masked_eq (P ic : Nat) (index : Nat → Nat) (code : Nat) (hP : P < 64) :
    make_index_masked P ic index code =
      if code < 2 ^ P then
        (if code.testBit (ic % 64) = true then
          forUp ic (fun i i1 => if (code &&& (1 <<< (i % 64))) ≠ 0 then i1 + 1 else i1) 0
        else Undefined)
      else index code := by
  unfold make_index_masked
  rw [Nat.mod_eq_of_lt hP,
    forUp_congr (1 <<< P) _ (fun code index => Function.update index code
      ((fun c (_ : Nat) => if c.testBit (ic % 64) = true then
          forUp ic (fun i i1 => if (c &&& (1 <<< (i % 64))) ≠ 0 then i1 + 1 else i1) 0
        else Undefined)
        code (index code))) (fun c _ s => ?_),
    forUp_map_update (1 <<< P)
      (fun c (_ : Nat) => if c.testBit (ic % 64) = true then
          forUp ic (fun i i1 => if (c &&& (1 <<< (i % 64))) ≠ 0 then i1 + 1 else i1) 0
        else Undefined) index,
    Nat.one_shiftLeft]
  by_cases h : c.testBit (ic % 64) = true
  · rw [if_pos ((and_shift_ne_zero c (ic % 64)).mpr h)]
    simp only [h, if_true]
  · rw [if_neg (fun e => h ((and_shift_ne_zero c (ic % 64)).mp e))]
    simp only [h, if_false]
    rfl

/-! ## A voxel that `INUgrads` writes -/

/-- If round `i0` of a loop brings a component of the state into `Q` and every other round
leaves the component alone, the component is in `Q` after the loop. -/
theorem forUp_sat_once {σ τ : Type} (π : σ → τ) (Q : τ → Prop) (body : Nat → σ → σ)
    (n i0 : Nat) (hi0 : i0 < n) (hset : ∀ s, Q (π (body i0 s)))
    (hkeep : ∀ i, i < n → i ≠ i0 → ∀ s, π (body i s) = π s) (s : σ) :
    Q (π (forUp n body s)) := by
  induction n with
  | zero => omega
  | succ n ih =>
    rw [forUp_succ]
    by_cases h : n = i0
    · subst h; exact hset _
    · rw [hkeep n (by omega) h]
      exact ih (by omega) (fun i hi hne => hkeep i (by omega) hne)

/-- A contributing voxel whose pattern has an entry other than `Undefined` in `index` gets
finite values in `g1` and `g2`, whatever the entry is. -/
theorem INUgrads_voxel_written (m : Libm α) (Nf P K : Nat) (mf : Nat → FVal α) (vf : Nat → α)
    (gmm : Nat → GMMtype) (buf : Nat → α) (Nm : Nat) (lkp : Nat → Nat) (lp : Nat → FVal α)
    (index : Nat → Nat) (i im : Nat) (s : GState α)
    (hcon : contributes Nf P K mf vf Nm lkp lp i im)
    (hidx : index (voxCode Nf P mf vf i) ≠ Undefined) :
    ((INUgrads_voxel m Nf P K mf vf gmm buf Nm lkp lp index i im s).g1 i).isfinite = true ∧
    ((INUgrads_voxel m Nf P K mf vf gmm buf Nm lkp lp index i im s).g2 i).isfinite = true := by
  have hc := (contributes_iff Nf P K mf vf Nm lkp lp i im s.scr).mp hcon
  have hcode : (get_vox Nf P (shift mf i) (shift vf i) s.scr.mx s.scr.vx).code
      = voxCode Nf P mf vf i := get_vox_code_eq _ _ _ _ _ _ _ _
  have h1 : (get_vox Nf P (shift mf i) (shift vf i) s.scr.mx s.scr.vx).code ≠ 0 := by
    have := hc.1; omega
  have h3 : index (get_vox Nf P (shift mf i) (shift vf i) s.scr.mx s.scr.vx).code ≠ Undefined := by
    rw [hcode]; exact hidx
  unfold INUgrads_voxel
  simp only []
  rw [if_pos h1, if_pos hc.2, if_pos h3]
  simp [FVal.isfinite]

/-- The cells `g1[i]`, `g2[i]` of a visited contributing voxel whose pattern has an entry
other than `Undefined` in `index` are finite after `INUgrads`. -/
theorem INUgrads_written (m : Libm α) (nf : Nat → Nat) (mf : Nat → FVal α) (vf : Nat → α)
    (K : Nat) (gmm : Nat → GMMtype) (buf : Nat → α) (nm skip lkp : Nat → Nat)
    (lp : Nat → FVal α) (index : Nat → Nat) (scr : Scratch α) (g1 g2 : Nat → FVal α)
    (hb : ¬ boundFails (nf 3) K)
    (i0 i1 i2 : Nat) (hi0 : i0 < extent nf nm skip 0) (hi1 : i1 < extent nf nm skip 1)
    (hi2 : i2 < extent nf nm skip 2)
    (hcon : contributes (nf 0 * nf 1 * nf 2) (nf 3) K mf vf (nm 0 * nm 1 * nm 2) lkp lp
      (i0 + nf 0 * (i1 + nf 1 * i2)) (i0 * skip 0 + nm 0 * (i1 * skip 1 + nm 1 * i2 * skip 2)))
    (hidx : index (voxCode (nf 0 * nf 1 * nf 2) (nf 3) mf vf (i0 + nf 0 * (i1 + nf 1 * i2)))
      ≠ Undefined) :
    ((INUgrads m nf mf vf K gmm buf nm skip lkp lp index scr g1 g2).2.1
        (i0 + nf 0 * (i1 + nf 1 * i2))).isfinite = true ∧
    ((INUgrads m nf mf vf K gmm buf nm skip lkp lp index scr g1 g2).2.2
        (i0 + nf 0 * (i1 + nf 1 * i2))).isfinite = true := by
  have hn0 := extent_le nf nm skip 0
  have hn1 := extent_le nf nm skip 1
  have hfr : ∀ j0 j1 j2, j0 < extent nf nm skip 0 → j1 < extent nf nm skip 1 →
      ¬ (j0 = i0 ∧ j1 = i1 ∧ j2 = i2) → ∀ s : GState α,
      (fun s : GState α => (s.g1 (i0 + nf 0 * (i1 + nf 1 * i2)),
          s.g2 (i0 + nf 0 * (i1 + nf 1 * i2))))
        (INUgrads_voxel m (nf 0 * nf 1 * nf 2) (nf 3) K mf vf gmm buf (nm 0 * nm 1 * nm 2)
          lkp lp index (j0 + nf 0 * (j1 + nf 1 * j2))
          (j0 * skip 0 + nm 0 * (j1 * skip 1 + nm 1 * j2 * skip 2)) s)
      = (s.g1 (i0 + nf 0 * (i1 + nf 1 * i2)), s.g2 (i0 + nf 0 * (i1 + nf 1 * i2))) := by
    intro j0 j1 j2 hj0 hj1 hne s
    have := INUgrads_voxel_frame m (nf 0 * nf 1 * nf 2) (nf 3) K mf vf gmm buf
      (nm 0 * nm 1 * nm 2) lkp lp index (j0 + nf 0 * (j1 + nf 1 * j2))
      (j0 * skip 0 + nm 0 * (j1 * skip 1 + nm 1 * j2 * skip 2)) s (i0 + nf 0 * (i1 + nf 1 * i2))
      (fun e => hne (by
        have := lattice_inj (nf 0) (nf 1) i0 i1 i2 j0 j1 j2 (by omega) (by omega) (by omega)
          (by omega) e
        exact ⟨this.1.symm, this.2.1.symm, this.2.2.symm⟩))
    dsimp only
    rw [this.1, this.2]
  unfold INUgrads
  simp only []
  rw [if_neg hb]
  refine forUp_sat_once (fun s : GState α => (s.g1 (i0 + nf 0 * (i1 + nf 1 * i2)),
      s.g2 (i0 + nf 0 * (i1 + nf 1 * i2))))
    (fun v : FVal α × FVal α => v.1.isfinite = true ∧ v.2.isfinite = true)
    _ (extent nf nm skip 2) i2 hi2 (fun s => ?_) (fun j2 hj2 hne s => ?_) _
  · refine forUp_sat_once (fun s : GState α => (s.g1 (i0 + nf 0 * (i1 + nf 1 * i2)),
        s.g2 (i0 + nf 0 * (i1 + nf 1 * i2))))
      (fun v : FVal α × FVal α => v.1.isfinite = true ∧ v.2.isfinite = true)
      _ (extent nf nm skip 1) i1 hi1 (fun s => ?_) (fun j1 hj1 hne s => ?_) _
    · refine forUp_sat_once (fun s : GState α => (s.g1 (i0 + nf 0 * (i1 + nf 1 * i2)),
          s.g2 (i0 + nf 0 * (i1 + nf 1 * i2))))
        (fun v : FVal α × FVal α => v.1.isfinite = true ∧ v.2.isfinite = true)
        _ (extent nf nm skip 0) i0 hi0 (fun s => ?_) (fun j0 hj0 hne s => ?_) _
      · exact INUgrads_voxel_written m (nf 0 * nf 1 * nf 2) (nf 3) K mf vf gmm buf
          (nm 0 * nm 1 * nm 2) lkp lp index (i0 + nf 0 * (i1 + nf 1 * i2))
          (i0 * skip 0 + nm 0 * (i1 * skip 1 + nm 1 * i2 * skip 2)) s hcon hidx
      · exact hfr j0 i1 i2 hj0 hi1 (fun e => hne e.1) s
    · exact forUp_keep_lt (fun s : GState α => (s.g1 (i0 + nf 0 * (i1 + nf 1 * i2)),
        s.g2 (i0 + nf 0 * (i1 + nf 1 * i2)))) _ _
          (fun j0 hj0 s => hfr j0 j1 i2 hj0 hj1 (fun e => hne e.2.1) s) s
  · refine forUp_keep_lt (fun s : GState α => (s.g1 (i0 + nf 0 * (i1 + nf 1 * i2)),
        s.g2 (i0 + nf 0 * (i1 + nf 1 * i2)))) _ _ (fun j1 hj1 s => ?_) s
    exact forUp_keep_lt (fun s : GState α => (s.g1 (i0 + nf 0 * (i1 + nf 1 * i2)),
        s.g2 (i0 + nf 0 * (i1 + nf 1 * i2)))) _ _
          (fun j0 hj0 s => hfr j0 j1 j2 hj0 hj1 (fun e => hne e.2.2) s) s

/-! ## `invert` on a factor with floored pivots -/

/-- Function `invert` when `choldc` leaves a lower-triangular matrix `L` with a positive
diagonal (some of its pivots may have been replaced by the floor): the columns left in `S`
are those of the inverse of `L Lᵀ`. -/
theorem invert_of_factor (m : Libm α) (P : Nat) (W S T : Nat → α) (L : Nat → Nat → α)
    (hLT : ∀ r c, r < c → c < P → L r c = 0) (hpos : ∀ i, i < P → 0 < L i i)
    (d1 : ∀ r c, c < r → r < P → (choldc m P (fun i => if i < P * P then W i else T i)
        (shift (fun i => if i < P * P then W i else T i) (P * P))).1 (r * P + c) = L r c)
    (d3 : ∀ r, r < P → (choldc m P (fun i => if i < P * P then W i else T i)
        (shift (fun i => if i < P * P then W i else T i) (P * P))).2 r = L r r) :
    ∀ j r, j < P → r < P →
      Finset.sum (Finset.range P) (fun c =>
        Finset.sum (Finset.range P) (fun k => L r k * L c k)
          * (invert m P W S T).2.1 (j * P + c)) = if r = j then 1 else 0 := by
  have hT1 : forUp (P * P) (fun i T => Function.update T i (W i)) T
      = fun i => if i < P * P then W i else T i :=
    forUp_map_update (P * P) (fun i _ => W i) T
  unfold invert
  simp only []
  rw [hT1]
  generalize choldc m P (fun i => if i < P * P then W i else T i)
    (shift (fun i => if i < P * P then W i else T i) (P * P)) = ap at d1 d3 ⊢
  have ha : ∀ r c, c < r → r < P → unshift ap.1 (P * P) ap.2 (r * P + c) = L r c := by
    intro r c hc hr
    rw [unshift_lt _ _ _ _ (rc_lt P r c hr (by omega)), d1 r c hc hr]
  have hp : ∀ r, r < P → shift (unshift ap.1 (P * P) ap.2) (P * P) r = L r r := by
    intro r hr
    rw [shift_unshift, d3 r hr]
  have key := forUp_inv (fun J (st : α × (Nat → α)) =>
      (∀ j r, j < J → r < P →
        Finset.sum (Finset.range P) (fun c =>
          Finset.sum (Finset.range P) (fun k => L r k * L c k) * st.2 (j * P + c))
          = if r = j then 1 else 0) ∧
      (∀ idx, J * P ≤ idx → st.2 idx = S idx))
    (fun j (st : α × (Nat → α)) =>
      (st.1 + m.log (shift (unshift ap.1 (P * P) ap.2) (P * P) j),
       unshift (Function.update (forUp P (fun i S => Function.update S (i + j * P) 0) st.2)
          (j + j * P) 1) (j * P)
        (cholls P (unshift ap.1 (P * P) ap.2) (shift (unshift ap.1 (P * P) ap.2) (P * P))
          (shift (Function.update (forUp P (fun i S => Function.update S (i + j * P) 0) st.2)
            (j + j * P) 1) (j * P))
          (shift (Function.update (forUp P (fun i S => Function.update S (i + j * P) 0) st.2)
            (j + j * P) 1) (j * P))))) P (0, S)
    ⟨fun j r hj => by omega, fun _ _ => rfl⟩ ?_
  · exact fun j r hj hr => key.1 j r hj hr
  · intro j hj st ⟨k2, k3⟩
    obtain ⟨e1, e2⟩ := invert_column P (unshift ap.1 (P * P) ap.2)
      (shift (unshift ap.1 (P * P) ap.2) (P * P)) L hLT hpos ha hp j hj st.2
    refine ⟨fun j' r hj' hr => ?_, fun idx hidx => ?_⟩
    · dsimp only
      by_cases e : j' = j
      · subst e
        exact e1 r hr
      · have hlt : j' < j := by omega
        rw [← k2 j' r hlt hr]
        refine Finset.sum_congr rfl (fun c hc => ?_)
        have hc' := Finset.mem_range.mp hc
        have : j' * P + c < j * P := by
          have : (j' + 1) * P ≤ j * P := Nat.mul_le_mul_right P hlt
          rw [Nat.add_mul, Nat.one_mul] at this
          omega
        rw [e2 _ (Or.inl this)]
    · dsimp only
      have h1 : (j + 1) * P = j * P + P := by rw [Nat.add_mul, Nat.one_mul]
      rw [e2 idx (Or.inr (by omega))]
      exact k3 idx (by omega)

/-- The cell `S[1,1]` that `invert` leaves for a diagonal `2 × 2` array `diag(l0^2, l1^2)`,
`l0, l1 > 0`: `1 / q^2`, where `q` is `l1`, or the root of the pivot floor when `l1^2` is not
above it; the first pivot, floored or not, plays no part. -/
theorem invert_diag2_11 (m : Libm α) (hs : m.SqrtOk) (W S T : Nat → α) (l0 l1 : α)
    (h0 : 0 < l0) (h1 : 0 < l1) (hW0 : W 0 = l0 * l0) (hW1 : W 1 = 0) (hW3 : W 3 = l1 * l1) :
    (invert m 2 W S T).2.1 3
      = 1 / (if l1 * l1 ≤ choldc_floor 2 W then (1 / 10 ^ 40 + (W 0 + W 3)) * (1 / 10 ^ 7)
          else l1)
        * (1 / (if l1 * l1 ≤ choldc_floor 2 W then (1 / 10 ^ 40 + (W 0 + W 3)) * (1 / 10 ^ 7)
          else l1)) := by
  have hfl : choldc_floor 2 (fun i => if i < 2 * 2 then W i else T i) = choldc_floor 2 W :=
    choldc_floor_congr 2 _ W (fun i hi => by
      have : i * 2 + i < 2 * 2 := by omega
      simp only [this, if_true])
  obtain ⟨g1, g2, g3, _⟩ := choldc_general m 2 (fun i => if i < 2 * 2 then W i else T i)
    (shift (fun i => if i < 2 * 2 then W i else T i) (2 * 2))
  rw [hfl] at g2
  have hc : (0 : α) < (1 / 10 ^ 40 + (W 0 + W 3)) * (1 / 10 ^ 7) := by
    rw [hW0, hW3]; positivity
  have hfc : choldc_floor 2 W = (1 / 10 ^ 40 + (W 0 + W 3)) * (1 / 10 ^ 7)
      * ((1 / 10 ^ 40 + (W 0 + W 3)) * (1 / 10 ^ 7)) := by
    rw [choldc_floor_trace]
    simp only [Finset.sum_range_succ, Finset.sum_range_zero, zero_add]
  generalize hq : (if l1 * l1 ≤ choldc_floor 2 W then (1 / 10 ^ 40 + (W 0 + W 3)) * (1 / 10 ^ 7)
      else l1) = q
  have hqpos : 0 < q := by
    rw [← hq]
    by_cases hle : l1 * l1 ≤ choldc_floor 2 W
    · rw [if_pos hle]; exact hc
    · rw [if_neg hle]; exact h1
  -- the first pivot is positive
  have hp0 : 0 < (choldc m 2 (fun i => if i < 2 * 2 then W i else T i)
      (shift (fun i => if i < 2 * 2 then W i else T i) (2 * 2))).2 0 := by
    rw [g2 0 (by decide)]
    simp only [Finset.sum_range_zero, sub_zero]
    have e0 : (if 0 * 2 + 0 < 2 * 2 then W (0 * 2 + 0) else T (0 * 2 + 0)) = W 0 := by simp
    rw [e0]
    by_cases hle : W 0 ≤ choldc_floor 2 W
    · rw [if_pos hle, hfc, hs _ hc]; exact hc
    · rw [if_neg hle, hW0, hs _ h0]; exact h0
  -- the entry below the diagonal is zero
  have hl10 : (choldc m 2 (fun i => if i < 2 * 2 then W i else T i)
      (shift (fun i => if i < 2 * 2 then W i else T i) (2 * 2))).1 (1 * 2 + 0) = 0 := by
    rw [g3 0 1 (by decide) (by decide)]
    simp only [Finset.sum_range_zero, sub_zero]
    have e1 : (if 0 * 2 + 1 < 2 * 2 then W (0 * 2 + 1) else T (0 * 2 + 1)) = W 1 := by simp
    rw [e1, hW1, zero_div]
  -- the second pivot
  have hp1 : (choldc m 2 (fun i => if i < 2 * 2 then W i else T i)
      (shift (fun i => if i < 2 * 2 then W i else T i) (2 * 2))).2 1 = q := by
    rw [g2 1 (by decide)]
    simp only [Finset.sum_range_one]
    rw [hl10]
    have e3 : (if 1 * 2 + 1 < 2 * 2 then W (1 * 2 + 1) else T (1 * 2 + 1)) = W 3 := by simp
    rw [e3, hW3, mul_zero, sub_zero, ← hq]
    by_cases hle : l1 * l1 ≤ choldc_floor 2 W
    · rw [if_pos hle, if_pos hle, hfc, hs _ hc, hW3]
    · rw [if_neg hle, if_neg hle, hs _ h1]
  have key := invert_of_factor m 2 W S T
    (fun r c => if r = c then (if r = 0 then
        (choldc m 2 (fun i => if i < 2 * 2 then W i else T i)
          (shift (fun i => if i < 2 * 2 then W i else T i) (2 * 2))).2 0 else q) else 0)
    (fun r c h1 h2 => if_neg (by omega))
    (fun i hi => by
      dsimp only
      rw [if_pos rfl]
      by_cases e : i = 0
      · rw [if_pos e]; exact hp0
      · rw [if_neg e]; exact hqpos)
    (fun r c hc hr => by
      have hr1 : r = 1 := by omega
      have hc0 : c = 0 := by omega
      subst hr1 hc0
      rw [hl10]
      simp)
    (fun r hr => by
      have : r = 0 ∨ r = 1 := by omega
      rcases this with rfl | rfl
      · simp
      · rw [hp1]; simp)
    1 1 (by decide) (by decide)
  simp only [Finset.sum_range_succ, Finset.sum_range_zero] at key
  norm_num at key
  have hl : q ≠ 0 := ne_of_gt hqpos
  field_simp
  linear_combination key

/-- Two channels, one class, diagonal precision `diag(l0^2, l1^2)`: the cells of the pattern
`code = 2` in the buffer that `sub_gmm` builds, whichever pivots the first inversion
floors. -/
theorem sub_gmm_diag2_any (m : Libm α) (hs : m.SqrtOk) (mu b W nu gam : Nat → α) (l0 l1 : α)
    (h0 : 0 < l0) (h1 : 0 < l1) (hW0 : W 0 = l0 * l0) (hW1 : W 1 = 0)
    (hW3 : W 3 = l1 * l1) :
    ∃ buf, sub_gmm m true true 2 1 mu b W nu gam = some ((allocate_gmm_loop 2 1).tbl, buf) ∧
      ((allocate_gmm_loop 2 1).tbl 2).P = 1 ∧
      buf (((allocate_gmm_loop 2 1).tbl 2).mu + (0 + 1 * 0)) = mu 1 ∧
      buf (((allocate_gmm_loop 2 1).tbl 2).W + 0 * 1 * 1 + 0)
        = invert1 m (1 / (if l1 * l1 ≤ choldc_floor 2 W
              then (1 / 10 ^ 40 + (W 0 + W 3)) * (1 / 10 ^ 7) else l1)
            * (1 / (if l1 * l1 ≤ choldc_floor 2 W
              then (1 / 10 ^ 40 + (W 0 + W 3)) * (1 / 10 ^ 7) else l1))) ∧
      buf (((allocate_gmm_loop 2 1).tbl 2).nu + 0) = nu 0 - 1 := by
  have hgm := allocate_gmm_tbl 2 1 2 (by decide)
  have hb : bitcount 2 2 = 1 := by decide
  have hb1 : bitcount 1 2 = 0 := by decide
  have hgP : ((allocate_gmm_loop 2 1).tbl 2).P = 1 := by rw [hgm, hb]; rfl
  obtain ⟨buf0, S0, Sp, Tp, hinv, hcells⟩ :=
    sub_gmm_reach0 m 2 1 mu b W nu gam 0 2 (by decide) (by decide)
  have hsh : ∀ i, shift W (2 * 2 * 0) i = W i := fun i => by unfold shift; simp
  have hS3 : S0 3 = 1 / (if l1 * l1 ≤ choldc_floor 2 W
        then (1 / 10 ^ 40 + (W 0 + W 3)) * (1 / 10 ^ 7) else l1)
      * (1 / (if l1 * l1 ≤ choldc_floor 2 W
        then (1 / 10 ^ 40 + (W 0 + W 3)) * (1 / 10 ^ 7) else l1)) := by
    rw [hinv 3 (by decide), invert_diag2_11 m hs (shift W (2 * 2 * 0)) Sp Tp l0 l1 h0 h1
      (by rw [hsh]; exact hW0) (by rw [hsh]; exact hW1) (by rw [hsh]; exact hW3),
      choldc_floor_congr 2 (shift W (2 * 2 * 0)) W (fun i _ => hsh _), hsh, hsh]
  have hc := round_cells m 2 1 mu b nu (allocate_gmm_loop 2 1).tbl 1
    (offsetOf (gmmSize 1) 2) 0 (m.log (gam 0)) 2 buf0 S0 (by decide) hb.symm (by rw [hgm, hb])
  refine ⟨_, sub_gmm_ok m 2 1 mu b W nu gam, hgP, ?_, ?_, ?_⟩
  · rw [hcells _ (Or.inr (Or.inr (Or.inr (Or.inl ⟨0, by rw [hgP]; decide, by rw [hgP]⟩))))]
    have := hc.2.2 1 (by decide) (by decide)
    rw [hb1] at this
    exact this
  · rw [hcells _ (Or.inr (Or.inr (Or.inr (Or.inr (Or.inl
      ⟨0, by rw [hgP]; decide, by rw [hgP]⟩)))))]
    rw [round_W m 2 1 mu b nu (allocate_gmm_loop 2 1).tbl 1 (offsetOf (gmmSize 1) 2) 0
      (m.log (gam 0)) 2 buf0 S0 (by decide) hb.symm (by rw [hgm, hb]) 0 (by decide)]
    have hpk := (pack_spec 2 mu ((allocate_gmm_loop 2 1).tbl 2) 0 2
      (sub_gmm_head 2 b nu ((allocate_gmm_loop 2 1).tbl 2) 0 (m.log (gam 0)) buf0) S0
      (by rw [hgP, hb])).2.2.2.1 1 1 (by decide) (by decide) (by decide) (by decide)
    rw [hgP, hb1] at hpk
    unfold sub_gmm_inv
    rw [hgP, invert_one_eq]
    unfold shift
    rw [hpk, hS3]
  · rw [hcells _ (Or.inl rfl)]
    have e := hc.1
    have hw : wsub 2 1 = 1 := by decide
    rw [hw, Nat.cast_one] at e
    exact e

/-! ## The table that x86-64 builds for `P = 7` -/

/-- Every entry that the masked loop has written has the layout of `gmmEntry`. -/
theorem allocate_gmm_loop_masked_entry (K n code : Nat) (h : code < n) :
    ∃ o, (forUp n (allocate_gmm_step_masked K) ⟨fun _ => ⟨0, 0, 0, 0, 0, 0, 0, 0⟩, 0⟩).tbl code
      = gmmEntry K (bitcount_masked code code) o := by
  induction n with
  | zero => omega
  | succ n ih =>
    rw [forUp_succ]
    generalize forUp n (allocate_gmm_step_masked K) ⟨fun _ => ⟨0, 0, 0, 0, 0, 0, 0, 0⟩, 0⟩ = st at ih
    unfold allocate_gmm_step_masked
    simp only []
    by_cases hc : code = n
    · subst hc
      exact ⟨st.o, by rw [Function.update_same]; rfl⟩
    · rw [Function.update_noteq hc]
      exact ih (by omega)

theorem allocate_gmm_masked_entry (P K code : Nat) (hP : P < 64) (h : code < 2 ^ P) :
    ∃ o, (allocate_gmm_loop_masked P K).tbl code = gmmEntry K (bitcount_masked code code) o := by
  unfold allocate_gmm_loop_masked
  rw [Nat.mod_eq_of_lt hP, Nat.one_shiftLeft]
  exact allocate_gmm_loop_masked_entry K _ code h

/-- The first store of a round of `sub_gmm`: `nu'[k] = nu[k] - (P - Po)` with the dimension
`Po` that the table holds for the pattern. -/
theorem sub_gmm_head_nu (P K : Nat) (b nu : Nat → α) (Po o k : Nat) (lgam : α) (buf : Nat → α)
    (hk : k < K) :
    sub_gmm_head P b nu (gmmEntry K Po o) k lgam buf ((gmmEntry K Po o).nu + k)
      = nu k - ((wsub P Po : Nat) : α) := by
  unfold sub_gmm_head
  simp only [gmmEntry]
  rw [Function.update_noteq (by omega), Function.update_noteq (by omega), Function.update_same]

/-- A `1 × 1` array `(l^2)`, `l > 0`, whose entry is not below the pivot floor is inverted
exactly: a pivot equal to the floor is replaced by itself. -/
theorem invert1_exact_le (m : Libm α) (hs : m.SqrtOk) (l : α) (hl : 0 < l)
    (hfl : (1 / 10 ^ 40 + l * l) * (1 / 10 ^ 7) * ((1 / 10 ^ 40 + l * l) * (1 / 10 ^ 7)) ≤ l * l) :
    invert1 m (l * l) = 1 / l / l := by
  have hp : pivot1 (l * l) = l * l := by
    unfold pivot1
    split_ifs with h
    · exact le_antisymm hfl h
    · rfl
  unfold invert1
  rw [hp, hs l hl]

theorem choldc_floor_two (a : Nat → α) :
    choldc_floor 2 a = (1 / 10 ^ 40 + (a 0 + a 3)) * (1 / 10 ^ 7)
      * ((1 / 10 ^ 40 + (a 0 + a 3)) * (1 / 10 ^ 7)) := by
  rw [choldc_floor_trace]
  simp only [Finset.sum_range_succ, Finset.sum_range_zero]
  norm_num

/-- The pivot that `choldc` takes for the second channel of `diag(l0^2, l1^2)` when
`l1^2` is not below the floor. -/
theorem diag2_pivot (W : Nat → α) (l0 l1 : α) (h0 : 0 < l0) (h1 : 0 < l1)
    (hW0 : W 0 = l0 * l0) (hW3 : W 3 = l1 * l1) (hf1 : choldc_floor 2 W ≤ W 3) :
    (if l1 * l1 ≤ choldc_floor 2 W then (1 / 10 ^ 40 + (W 0 + W 3)) * (1 / 10 ^ 7) else l1)
      = l1 := by
  split_ifs with h
  · have hc : (0 : α) < (1 / 10 ^ 40 + (W 0 + W 3)) * (1 / 10 ^ 7) := by
      rw [hW0, hW3]; positivity
    have e : (1 / 10 ^ 40 + (W 0 + W 3)) * (1 / 10 ^ 7)
        * ((1 / 10 ^ 40 + (W 0 + W 3)) * (1 / 10 ^ 7)) = l1 * l1 := by
      rw [← choldc_floor_two]
      rw [hW3] at hf1
      exact le_antisymm hf1 h
    exact (mul_self_inj (le_of_lt hc) (le_of_lt h1)).mp e
  · rfl

/-- For `P ≤ 6` and `K < 2^52` the sizes of `space_needed` are exact and the number of
doubles that `allocate_gmm` requests is the final offset of its loop: the views of the
table fill the allocation exactly. -/
theorem allocate_gmm_size_small (P K : Nat) (hP : P ≤ 6) (hK : K < 2 ^ 52) :
    allocate_gmm_size P K = some (allocate_gmm_loop P K).o := by
  have h6 : Nat.factorial 6 = 720 := by decide
  have hf : K * Nat.factorial P < 2 ^ 64 := by
    have a1 : Nat.factorial P ≤ Nat.factorial 6 := Nat.factorial_le hP
    have a2 : K * Nat.factorial P ≤ (2 ^ 52 - 1) * Nat.factorial 6 :=
      Nat.mul_le_mul (by omega) a1
    rw [h6] at a2
    omega
  have a1 : 2 ^ P ≤ 2 ^ 6 := Nat.pow_le_pow_right (by omega) hP
  have a2 : P * P ≤ 6 * 6 := Nat.mul_le_mul hP hP
  have a3 : K * 2 ^ P ≤ (2 ^ 52 - 1) * 2 ^ 6 := Nat.mul_le_mul (by omega) a1
  have a4 : K * 2 ^ P * (P * P) ≤ (2 ^ 52 - 1) * 2 ^ 6 * (6 * 6) := Nat.mul_le_mul a3 a2
  have a5 : K * 2 ^ P * P ≤ (2 ^ 52 - 1) * 2 ^ 6 * 6 := Nat.mul_le_mul a3 hP
  have hS : K * 2 ^ P * (P * P + 1) < 2 ^ 64 := by
    have a6 : K * 2 ^ P * (P * P + 1) ≤ (2 ^ 52 - 1) * 2 ^ 6 * (6 * 6 + 1) :=
      Nat.mul_le_mul a3 (by omega)
    omega
  have b1 := choose_sum_le P K P (P + 1) (fun m => m) (le_refl _) (fun _ h => h)
  have b2 := choose_sum_le P K (P * P) (P + 1) (fun m => m * m) (le_refl _)
    (fun _ h => Nat.mul_le_mul h h)
  have e2 : ∀ m, K * P.choose m * (m * m) = K * P.choose m * m * m := fun m => by ring
  simp only [e2] at b2
  rw [(choose_sums P K).2.1] at b1
  rw [(choose_sums P K).2.2] at b2
  unfold allocate_gmm_size
  rw [space_needed_exact P K (by omega) hf hS, (choose_sums P K).1, (choose_sums P K).2.1,
    (choose_sums P K).2.2]
  dsimp only
  rw [allocate_gmm_final, offsetOf_gmmSize P K (2 ^ P) (le_refl _), Nat.mod_eq_of_lt (by omega)]
  congr 1
  ring

/-- The packing loop of `sub_gmm` writes the parameter buffer only at the mean cells of the
observed channels, whatever dimension `g.P` the table holds. -/
theorem pack_frame_any (P : Nat) (mu : Nat → α) (g : GMMtype) (k code : Nat) (buf S : Nat → α) :
    ∀ idx, (∀ j1, j1 < bitcount P code → idx ≠ g.mu + (j1 + g.P * k)) →
      (sub_gmm_pack P mu g k code buf S).2.1 idx = buf idx := by
  have key := forUp_inv (fun J (r : Nat × (Nat → α) × (Nat → α)) =>
      r.1 = bitcount J code ∧
      (∀ idx, (∀ j1, j1 < bitcount J code → idx ≠ g.mu + (j1 + g.P * k)) →
        r.2.1 idx = buf idx))
    (fun j (r : Nat × (Nat → α) × (Nat → α)) =>
      if ((1 <<< j) &&& code) ≠ 0 then
        (r.1 + 1, Function.update r.2.1 (g.mu + (r.1 + g.P * k)) (mu (j + P * k)),
          (forUp P (fun i (q : Nat × (Nat → α)) =>
            if ((1 <<< i) &&& code) ≠ 0 then
              (q.1 + 1, Function.update q.2 (P * P + (q.1 + g.P * r.1)) (q.2 (i + P * j)))
            else q) (0, r.2.2)).2)
      else r) P (0, buf, S)
    ⟨rfl, fun idx _ => rfl⟩ ?_
  · exact key.2
  · rintro J hJ ⟨j1, bufr, Sr⟩ ⟨a1, a2⟩
    dsimp only at a1 a2 ⊢
    subst a1
    by_cases hb : code.testBit J = true
    · rw [if_pos ((shift_and_ne_zero code J).mpr hb)]
      dsimp only
      have hs : bitcount (J + 1) code = bitcount J code + 1 := by
        rw [bitcount_succ, hb]; rfl
      refine ⟨hs.symm, fun idx hidx => ?_⟩
      rw [hs] at hidx
      rw [Function.update_noteq (hidx _ (by omega))]
      exact a2 idx (fun j1 hj1 => hidx j1 (by omega))
    · rw [if_neg (fun e => hb ((shift_and_ne_zero code J).mp e))]
      have hbf : code.testBit J = false := by simpa using hb
      have hs : bitcount (J + 1) code = bitcount J code := by
        rw [bitcount_succ, hbf]; rfl
      refine ⟨hs.symm, fun idx hidx => ?_⟩
      rw [hs] at hidx
      exact a2 idx hidx

/-- The degrees of freedom that one round of `sub_gmm` leaves for class `k` of the pattern
`code`, for a table entry of any dimension `Po` not below the number of observed channels:
`nu[k] - (P - Po)` in `size_t` arithmetic. -/
theorem round_nu_any (m : Libm α) (P K : Nat) (mu b nu : Nat → α) (gmm : Nat → GMMtype)
    (Po o k : Nat) (lgam : α) (code : Nat) (buf S : Nat → α) (hk : k < K)
    (hPo : bitcount P code ≤ Po) (hgm : gmm code = gmmEntry K Po o) :
    (sub_gmm_code m P mu b nu gmm k lgam code (buf, S)).1 ((gmm code).nu + k)
      = nu k - ((wsub P Po : Nat) : α) := by
  have m1 : ∀ j1, j1 < Po → j1 + Po * k < K * Po := fun j1 hj => by
    have := mul_cell_lt K Po k j1 hk hj
    have e1 : Po * k = k * Po := Nat.mul_comm _ _
    omega
  have m2 : k * Po * Po + Po * Po ≤ K * Po * Po := by
    have : (k + 1) * (Po * Po) ≤ K * (Po * Po) := Nat.mul_le_mul_right _ hk
    rw [Nat.add_mul, Nat.one_mul] at this
    have e1 : k * Po * Po = k * (Po * Po) := Nat.mul_assoc _ _ _
    have e2 : K * Po * Po = K * (Po * Po) := Nat.mul_assoc _ _ _
    omega
  have p3 := pack_frame_any P mu (gmmEntry K Po o) k code
    (sub_gmm_head P b nu (gmmEntry K Po o) k lgam buf) S
  rw [sub_gmm_code_eq, hgm]
  dsimp only
  rw [sub_gmm_tail_other m b _ k lgam _ _ _ (by simp only [gmmEntry]; omega)
    (by simp only [gmmEntry]; omega)]
  unfold sub_gmm_inv
  simp only [unshift_invert]
  simp only [gmmEntry] at p3 ⊢
  rw [if_neg (by omega), p3 _ (fun j1 hj1 => by have := m1 j1 (by omega); omega)]
  unfold sub_gmm_head
  simp only [gmmEntry]
  rw [Function.update_noteq (by omega), Function.update_noteq (by omega),
    Function.update_same]

/-- Over exact arithmetic, for a class `k` whose full precision has an unfloored Cholesky
factor and a pattern `code` whose sub-matrix `Sub` of the covariance has one: the array that
`sub_gmm` stores in `gmm[code].W` for class `k` is the inverse of `Sub`, and for the full
pattern it is `W_k`.  The table is the one of `allocate_gmm_loop`. -/
theorem sub_gmm_marginal_precision (m : Libm α) (hs : m.SqrtOk)
    (P K : Nat) (mu b W nu gam : Nat → α) (k code : Nat) (hk : k < K) (hc : code < 2 ^ P)
    (Lk : Nat → Nat → α) (hLk : CholFactor P (shift W (P * P * k)) Lk)
    (Sg : Nat → α)
    (hSg : ∀ j r, j < P → r < P →
      Finset.sum (Finset.range P) (fun c => W (P * P * k + (r * P + c)) * Sg (c + j * P))
        = if r = j then 1 else 0)
    (Sub : Nat → α) (hSub : IsSubMatrix P code Sg Sub)
    (Lc : Nat → Nat → α) (hLc : CholFactor (bitcount P code) Sub Lc) :
    ∃ buf, sub_gmm m true true P K mu b W nu gam = some ((allocate_gmm_loop P K).tbl, buf) ∧
      (∀ j r, j < bitcount P code → r < bitcount P code →
        Finset.sum (Finset.range (bitcount P code)) (fun c =>
          Sub (r * bitcount P code + c) *
            buf (((allocate_gmm_loop P K).tbl code).W + k * bitcount P code * bitcount P code
              + (c + j * bitcount P code)))
          = if r = j then 1 else 0) ∧
      (code = 2 ^ P - 1 → ∀ idx, idx < P * P →
        buf (((allocate_gmm_loop P K).tbl code).W + k * P * P + idx) = W (P * P * k + idx)) := by
  have hgm := allocate_gmm_tbl P K code hc
  have hgP : ((allocate_gmm_loop P K).tbl code).P = bitcount P code := allocate_gmm_P P K code hc
  obtain ⟨buf0, S0, hS0, hcells⟩ := sub_gmm_reach m hs P K mu b W nu gam k code hk hc Lk hLk
  have hLc' : CholFactor ((allocate_gmm_loop P K).tbl code).P Sub Lc := by rw [hgP]; exact hLc
  obtain ⟨_, hinv⟩ := round_inverse m hs P mu b nu ((allocate_gmm_loop P K).tbl code) k
    (m.log (gam k)) code buf0 S0 hgP (shift W (P * P * k)) Sg Sub hS0 hSg hSub Lc hLc'
  rw [hgP] at hinv
  have hcellW : ∀ e, e < bitcount P code * bitcount P code →
      (forUp K (fun k (st : (Nat → α) × (Nat → α)) =>
            forUp (1 <<< P) (sub_gmm_code m P mu b nu (allocate_gmm_loop P K).tbl k
              (m.log (gam k)))
              (st.1, unshift (invert m P (shift W (P * P * k)) st.2 (shift st.2 (P * P))).2.1
                (P * P) (invert m P (shift W (P * P * k)) st.2 (shift st.2 (P * P))).2.2))
            (fun _ => 0, fun _ => 0)).1
          (((allocate_gmm_loop P K).tbl code).W + k * bitcount P code * bitcount P code + e)
        = (sub_gmm_inv m P mu b nu ((allocate_gmm_loop P K).tbl code) k (m.log (gam k)) code
            buf0 S0).2.1 e := by
    intro e he
    rw [hcells _ (Or.inr (Or.inr (Or.inr (Or.inr (Or.inl ⟨e, by rw [hgP]; exact he, by
      rw [hgP]⟩)))))]
    exact round_W m P K mu b nu _ (bitcount P code) _ k _ code buf0 S0 hk rfl hgm e he
  have hfirst : ∀ j r, j < bitcount P code → r < bitcount P code →
      Finset.sum (Finset.range (bitcount P code)) (fun c =>
        Sub (r * bitcount P code + c) *
          (forUp K (fun k (st : (Nat → α) × (Nat → α)) =>
            forUp (1 <<< P) (sub_gmm_code m P mu b nu (allocate_gmm_loop P K).tbl k
              (m.log (gam k)))
              (st.1, unshift (invert m P (shift W (P * P * k)) st.2 (shift st.2 (P * P))).2.1
                (P * P) (invert m P (shift W (P * P * k)) st.2 (shift st.2 (P * P))).2.2))
            (fun _ => 0, fun _ => 0)).1
            (((allocate_gmm_loop P K).tbl code).W + k * bitcount P code * bitcount P code
              + (c + j * bitcount P code)))
        = if r = j then 1 else 0 := by
    intro j r hj hr
    rw [← hinv j r hj hr]
    refine Finset.sum_congr rfl (fun c hcm => ?_)
    have hcP := Finset.mem_range.mp hcm
    rw [hcellW _ (by have := rc_lt _ j c hj hcP; omega)]
  refine ⟨_, sub_gmm_ok m P K mu b W nu gam, hfirst, fun hfull idx hidx => ?_⟩
  have hbP : bitcount P code = P := by rw [hfull]; exact bitcount_full P P (le_refl P)
  have hbit : ∀ i, i < P → code.testBit i = true := fun i hi => by
    rw [hfull, Nat.testBit_two_pow_sub_one]; simp [hi]
  have hpos : ∀ i, i ≤ P → bitcount i code = i := fun i hi => by
    rw [hfull]; exact bitcount_full P i hi
  have hP0 : 0 < P := by
    rcases Nat.eq_zero_or_pos P with h | h
    · rw [h] at hidx; omega
    · exact h
  have hX := fun j r (hj : j < P) (hr : r < P) => hfirst j r (by rw [hbP]; exact hj)
    (by rw [hbP]; exact hr)
  simp only [hbP] at hX
  have hY : ∀ j r, j < P → r < P →
      Finset.sum (Finset.range P) (fun c => Sub (r * P + c) * W (P * P * k + (j * P + c)))
        = if r = j then 1 else 0 := by
    intro j r hj hr
    have := hSg r j hr hj
    rw [show (if r = j then (1 : α) else 0) = if j = r then 1 else 0 by
      by_cases e : r = j
      · rw [if_pos e, if_pos e.symm]
      · rw [if_neg e, if_neg (fun e' => e e'.symm)]]
    rw [← this]
    refine Finset.sum_congr rfl (fun c hcm => ?_)
    have hcP := Finset.mem_range.mp hcm
    have h1 := hSub c r hcP hr (hbit c hcP) (hbit r hr)
    rw [hpos c (by omega), hpos r (by omega), hbP] at h1
    rw [Nat.mul_comm r P, Nat.add_comm (P * r) c, h1, Nat.mul_comm P r]
    ring
  have := inverse_unique P (fun r c => Sub (r * P + c))
    (fun c j => (forUp K (fun k (st : (Nat → α) × (Nat → α)) =>
            forUp (1 <<< P) (sub_gmm_code m P mu b nu (allocate_gmm_loop P K).tbl k
              (m.log (gam k)))
              (st.1, unshift (invert m P (shift W (P * P * k)) st.2 (shift st.2 (P * P))).2.1
                (P * P) (invert m P (shift W (P * P * k)) st.2 (shift st.2 (P * P))).2.2))
            (fun _ => 0, fun _ => 0)).1
            (((allocate_gmm_loop P K).tbl code).W + k * P * P + (c + j * P)))
    (fun c j => W (P * P * k + (j * P + c))) hX hY (idx % P) (idx / P)
    (Nat.mod_lt _ hP0) (Nat.div_lt_of_lt_mul hidx)
  dsimp only at this
  have hdec : idx % P + idx / P * P = idx := by
    rw [Nat.mul_comm]; exact Nat.mod_add_div idx P
  rw [hdec] at this
  rw [this, Nat.add_comm (idx / P * P), hdec]

/-- For `P < 2^64`, every pattern `code < 2^P` and class `k < K`, the cells `nu'`, `b'`,
log weight and marginal mean that `sub_gmm` stores, for the table of `allocate_gmm_loop`. -/
theorem sub_gmm_marginal_parameters (m : Libm α) (P K : Nat)
    (mu b W nu gam : Nat → α) (hP : P < 2 ^ 64) :
    ∃ buf, sub_gmm m true true P K mu b W nu gam = some ((allocate_gmm_loop P K).tbl, buf) ∧
      ∀ code k, code < 2 ^ P → k < K →
        ((allocate_gmm_loop P K).tbl code).P = popcount code ∧
        buf (((allocate_gmm_loop P K).tbl code).nu + k)
          = nu k - ((P - popcount code : Nat) : α) ∧
        buf (((allocate_gmm_loop P K).tbl code).b + k) = b k ∧
        buf (((allocate_gmm_loop P K).tbl code).gam + k) = m.log (gam k) ∧
        (∀ j, j < P → code.testBit j = true →
          buf (((allocate_gmm_loop P K).tbl code).mu
              + (popcount (code % 2 ^ j) + popcount code * k)) = mu (j + P * k)) ∧
        (∀ j j', j < j' → code.testBit j = true →
          popcount (code % 2 ^ j) < popcount (code % 2 ^ j')) ∧
        (∀ j1, j1 < popcount code →
          ∃ j, j < P ∧ code.testBit j = true ∧ popcount (code % 2 ^ j) = j1) := by
  obtain ⟨buf, hsub, hcells⟩ := sub_gmm_cells m P K mu b W nu gam
  refine ⟨buf, hsub, fun code k hc hk => ?_⟩
  obtain ⟨c1, c2, c3, c4⟩ := hcells code k hc hk
  have hpc := bitcount_eq_popcount P code hc
  rw [wsub_of_le P _ (bitcount_le P code) hP, hpc] at c1
  refine ⟨by rw [allocate_gmm_P P K code hc, hpc], c1, c2, c3, fun j hj hb => ?_,
    fun j j' hjj hb => ?_, fun j1 hj1 => ?_⟩
  · rw [← bitcount_eq_popcount_mod, ← hpc]
    exact c4 j hj hb
  · rw [← bitcount_eq_popcount_mod, ← bitcount_eq_popcount_mod]
    exact bitcount_lt_of_testBit j' j _ hjj hb
  · rw [← hpc] at hj1
    obtain ⟨j, hj, hb, e⟩ := pos_surj P _ j1 hj1
    exact ⟨j, hj, hb, by rw [← bitcount_eq_popcount_mod]; exact e⟩

/-! ## The table of `fastexp` through the entry points -/

/-- A loop whose body, run with an extra state component satisfying `R`, computes what the
plain body computes and keeps `R`, computes what the plain loop computes and keeps `R`. -/
theorem forUp_memo {σ τ : Type} (R : τ → Prop) (bodyM : Nat → σ × τ → σ × τ)
    (body : Nat → σ → σ)
    (h : ∀ i s t, R t → (bodyM i (s, t)).1 = body i s ∧ R (bodyM i (s, t)).2)
    (n : Nat) (s : σ) (t : τ) (ht : R t) :
    (forUp n bodyM (s, t)).1 = forUp n body s ∧ R (forUp n bodyM (s, t)).2 := by
  induction n with
  | zero => exact ⟨rfl, ht⟩
  | succ n ih =>
    rw [forUp_succ, forUp_succ]
    have := h n (forUp n bodyM (s, t)).1 (forUp n bodyM (s, t)).2 ih.2
    exact ⟨this.1.trans (by rw [ih.1]), this.2⟩

theorem Nresp_memo_eq (m : Libm α) (tbl : Int → α) (h : TableReachable m tbl) (K : Nat)
    (gmm : Nat → GMMtype) (buf : Nat → α) (code : Nat) (x v p : Nat → α) :
    (Nresp_memo m tbl K gmm buf code x v p).1 = Nresp m K gmm buf code x v p ∧
    TableReachable m (Nresp_memo m tbl K gmm buf code x v p).2 := by
  unfold Nresp_memo Nresp
  exact softmax1_memo_eq m tbl h K _ _

theorem Tresp_memo_eq (m : Libm α) (tbl : Int → α) (h : TableReachable m tbl) (K : Nat)
    (gmm : Nat → GMMtype) (buf : Nat → α) (code : Nat) (x v p : Nat → α) :
    (Tresp_memo m tbl K gmm buf code x v p).1 = Tresp m K gmm buf code x v p ∧
    TableReachable m (Tresp_memo m tbl K gmm buf code x v p).2 := by
  unfold Tresp_memo Tresp
  exact softmax1_memo_eq m tbl h K _ _

theorem suffstats_voxel_memo_eq (m : Libm α) (Nf P K : Nat) (mf : Nat → FVal α) (vf : Nat → α)
    (gmm : Nat → GMMtype) (buf : Nat → α) (Nm : Nat) (lkp : Nat → Nat) (lp : Nat → FVal α)
    (suffstat : Nat → SStype) (i im : Nat) (s : SSstate α) (tbl : Int → α)
    (h : TableReachable m tbl) :
    (suffstats_voxel_memo m Nf P K mf vf gmm buf Nm lkp lp suffstat i im (s, tbl)).1
      = suffstats_voxel m Nf P K mf vf gmm buf Nm lkp lp suffstat i im s ∧
    TableReachable m
      (suffstats_voxel_memo m Nf P K mf vf gmm buf Nm lkp lp suffstat i im (s, tbl)).2 := by
  unfold suffstats_voxel_memo suffstats_voxel
  dsimp only
  by_cases hc : (get_vox Nf P (shift mf i) (shift vf i) s.scr.mx s.scr.vx).code > 0
  · rw [if_pos hc, if_pos hc]
    by_cases hp : (get_priors Nm (shift lp im) K lkp s.scr.p).1 = true
    · rw [if_pos hp, if_pos hp]
      have e := Nresp_memo_eq m tbl h K gmm buf
        (get_vox Nf P (shift mf i) (shift vf i) s.scr.mx s.scr.vx).code
        (get_vox Nf P (shift mf i) (shift vf i) s.scr.mx s.scr.vx).x
        (get_vox Nf P (shift mf i) (shift vf i) s.scr.mx s.scr.vx).v
        (get_priors Nm (shift lp im) K lkp s.scr.p).2
      dsimp only
      rw [e.1]
      exact ⟨rfl, e.2⟩
    · rw [if_neg hp, if_neg hp]
      exact ⟨rfl, h⟩
  · rw [if_neg hc, if_neg hc]
    exact ⟨rfl, h⟩

theorem suffstats_pass_memo_eq (m : Libm α) (nf : Nat → Nat) (mf : Nat → FVal α) (vf : Nat → α)
    (K : Nat) (gmm : Nat → GMMtype) (buf : Nat → α) (nm skip lkp : Nat → Nat)
    (lp : Nat → FVal α) (suffstat : Nat → SStype) (s : SSstate α) (tbl : Int → α)
    (h : TableReachable m tbl) :
    (suffstats_pass_memo m nf mf vf K gmm buf nm skip lkp lp suffstat (s, tbl)).1
      = suffstats_pass m nf mf vf K gmm buf nm skip lkp lp suffstat s ∧
    TableReachable m
      (suffstats_pass_memo m nf mf vf K gmm buf nm skip lkp lp suffstat (s, tbl)).2 := by
  unfold suffstats_pass_memo suffstats_pass
  dsimp only
  refine forUp_memo (TableReachable m) _ _ (fun i2 s t ht => ?_) _ s tbl h
  refine forUp_memo (TableReachable m) _ _ (fun i1 s t ht => ?_) _ s t ht
  refine forUp_memo (TableReachable m) _ _ (fun i0 s t ht => ?_) _ s t ht
  exact suffstats_voxel_memo_eq m _ _ K mf vf gmm buf _ lkp lp suffstat _ _ s t ht

theorem suffstats_missing_memo_eq (m : Libm α) (tbl : Int → α) (h : TableReachable m tbl)
    (nf : Nat → Nat) (mf : Nat → FVal α) (vf : Nat → α) (K : Nat) (gmm : Nat → GMMtype)
    (buf : Nat → α) (nm skip lkp : Nat → Nat) (lp : Nat → FVal α) (suffstat : Nat → SStype)
    (scr : Scratch α) (st : Stats α) :
    (suffstats_missing_memo m tbl nf mf vf K gmm buf nm skip lkp lp suffstat scr st).1
      = suffstats_missing m nf mf vf K gmm buf nm skip lkp lp suffstat scr st ∧
    TableReachable m
      (suffstats_missing_memo m tbl nf mf vf K gmm buf nm skip lkp lp suffstat scr st).2 := by
  have e := suffstats_pass_memo_eq m nf mf vf K gmm buf nm skip lkp lp suffstat ⟨0, scr, st⟩
    tbl h
  unfold suffstats_missing_memo suffstats_missing
  dsimp only
  rw [e.1]
  exact ⟨rfl, e.2⟩

theorem call_suffstats_missing_memo_eq (m : Libm α) (tbl : Int → α) (h : TableReachable m tbl)
    (ok1 ok2 ok3 : Bool) (nf : Nat → Nat) (mf : Nat → FVal α) (vf : Nat → α) (K : Nat)
    (mu b W nu gam : Nat → α) (nm skip lkp : Nat → Nat) (lp : Nat → FVal α) (scr : Scratch α)
    (st : Stats α) :
    (call_suffstats_missing_memo m tbl ok1 ok2 ok3 nf mf vf K mu b W nu gam nm skip lkp lp
        scr st).1
      = call_suffstats_missing m ok1 ok2 ok3 nf mf vf K mu b W nu gam nm skip lkp lp scr st ∧
    TableReachable m
      (call_suffstats_missing_memo m tbl ok1 ok2 ok3 nf mf vf K mu b W nu gam nm skip lkp lp
        scr st).2 := by
  unfold call_suffstats_missing_memo call_suffstats_missing
  dsimp only
  by_cases hb : boundFails (nf 3) K
  · rw [if_pos hb, if_pos hb]
    exact ⟨rfl, h⟩
  · rw [if_neg hb, if_neg hb]
    cases hsub : sub_gmm m ok1 ok2 (nf 3) K mu b W nu gam with
    | none => exact ⟨rfl, h⟩
    | some gb =>
      dsimp only
      cases hss : suffstat_pointers ok3 (nf 3) K with
      | none => exact ⟨rfl, h⟩
      | some suffstat =>
        dsimp only
        have e := suffstats_missing_memo_eq m tbl h nf mf vf K gb.1 gb.2 nm skip lkp lp
          suffstat scr st
        rw [e.1]
        exact ⟨rfl, e.2⟩

theorem responsibilities_voxel_memo_eq (m : Libm α) (N1 P K : Nat) (skip : Nat → Nat)
    (mf : Nat → FVal α) (vf : Nat → α) (gmm : Nat → GMMtype) (buf : Nat → α) (K1 : Nat)
    (lkp : Nat → Nat) (lp : Nat → FVal α) (i0 i1 i2 i : Nat) (s : RState α) (tbl : Int → α)
    (h : TableReachable m tbl) :
    (responsibilities_voxel_memo m N1 P K skip mf vf gmm buf K1 lkp lp i0 i1 i2 i (s, tbl)).1
      = responsibilities_voxel m N1 P K skip mf vf gmm buf K1 lkp lp i0 i1 i2 i s ∧
    TableReachable m
      (responsibilities_voxel_memo m N1 P K skip mf vf gmm buf K1 lkp lp i0 i1 i2 i
        (s, tbl)).2 := by
  unfold responsibilities_voxel_memo responsibilities_voxel
  dsimp only
  by_cases hp : (get_priors N1 (shift lp i) K lkp s.scr.p).1 = true
  · rw [if_pos hp, if_pos hp]
    by_cases hc : (get_vox N1 P (shift mf i) (shift vf i) s.scr.mx s.scr.vx).code ≠ 0
    · rw [if_pos hc, if_pos hc]
      by_cases hl : i2 % skip 2 = 0 ∧ (i1 % skip 1 = 0 ∧ i0 % skip 0 = 0)
      · rw [if_pos hl, if_pos hl]
        have e := Nresp_memo_eq m tbl h K gmm buf
          (get_vox N1 P (shift mf i) (shift vf i) s.scr.mx s.scr.vx).code
          (get_vox N1 P (shift mf i) (shift vf i) s.scr.mx s.scr.vx).x
          (get_vox N1 P (shift mf i) (shift vf i) s.scr.mx s.scr.vx).v
          (get_priors N1 (shift lp i) K lkp s.scr.p).2
        rw [e.1]
        exact ⟨rfl, e.2⟩
      · rw [if_neg hl, if_neg hl]
        have e := Tresp_memo_eq m tbl h K gmm buf
          (get_vox N1 P (shift mf i) (shift vf i) s.scr.mx s.scr.vx).code
          (get_vox N1 P (shift mf i) (shift vf i) s.scr.mx s.scr.vx).x
          (get_vox N1 P (shift mf i) (shift vf i) s.scr.mx s.scr.vx).v
          (get_priors N1 (shift lp i) K lkp s.scr.p).2
        rw [e.1]
        exact ⟨rfl, e.2⟩
    · rw [if_neg hc, if_neg hc]
      have e := softmax_memo_eq m tbl h K1 (get_priors N1 (shift lp i) K lkp s.scr.p).2
        (get_priors N1 (shift lp i) K lkp s.scr.p).2
      dsimp only
      rw [e.1]
      exact ⟨rfl, e.2⟩
  · rw [if_neg hp, if_neg hp]
    exact ⟨rfl, h⟩

theorem responsibilities_memo_eq (m : Libm α) (tbl : Int → α) (h : TableReachable m tbl)
    (nf skip : Nat → Nat) (mf : Nat → FVal α) (vf : Nat → α) (K : Nat) (gmm : Nat → GMMtype)
    (buf : Nat → α) (K1 : Nat) (lkp : Nat → Nat) (lp : Nat → FVal α) (scr : Scratch α)
    (r : Nat → FVal α) :
    (responsibilities_memo m tbl nf skip mf vf K gmm buf K1 lkp lp scr r).1
      = responsibilities m nf skip mf vf K gmm buf K1 lkp lp scr r ∧
    TableReachable m (responsibilities_memo m tbl nf skip mf vf K gmm buf K1 lkp lp scr r).2 := by
  have e : (forUp (nf 2) (fun i2 s =>
      forUp (nf 1) (fun i1 s =>
        forUp (nf 0) (fun i0 s =>
          responsibilities_voxel_memo m (nf 0 * nf 1 * nf 2) (nf 3) K skip mf vf gmm buf K1 lkp
            lp i0 i1 i2 (i0 + nf 0 * (i1 + nf 1 * i2)) s) s) s)
      ((⟨0, scr, r⟩ : RState α), tbl)).1
      = forUp (nf 2) (fun i2 s =>
      forUp (nf 1) (fun i1 s =>
        forUp (nf 0) (fun i0 s =>
          responsibilities_voxel m (nf 0 * nf 1 * nf 2) (nf 3) K skip mf vf gmm buf K1 lkp
            lp i0 i1 i2 (i0 + nf 0 * (i1 + nf 1 * i2)) s) s) s)
      (⟨0, scr, r⟩ : RState α) ∧
    TableReachable m (forUp (nf 2) (fun i2 s =>
      forUp (nf 1) (fun i1 s =>
        forUp (nf 0) (fun i0 s =>
          responsibilities_voxel_memo m (nf 0 * nf 1 * nf 2) (nf 3) K skip mf vf gmm buf K1 lkp
            lp i0 i1 i2 (i0 + nf 0 * (i1 + nf 1 * i2)) s) s) s)
      ((⟨0, scr, r⟩ : RState α), tbl)).2 := by
    refine forUp_memo (TableReachable m) _ _ (fun i2 s t ht => ?_) _ _ tbl h
    refine forUp_memo (TableReachable m) _ _ (fun i1 s t ht => ?_) _ s t ht
    refine forUp_memo (TableReachable m) _ _ (fun i0 s t ht => ?_) _ s t ht
    exact responsibilities_voxel_memo_eq m _ _ K skip mf vf gmm buf K1 lkp lp _ _ _ _ s t ht
  unfold responsibilities_memo responsibilities
  dsimp only
  rw [e.1]
  exact ⟨rfl, e.2⟩

theorem call_responsibilities_memo_eq (m : Libm α) (tbl : Int → α) (h : TableReachable m tbl)
    (ok1 ok2 : Bool) (nf skip : Nat → Nat) (mf : Nat → FVal α) (vf : Nat → α) (K : Nat)
    (mu b W nu gam : Nat → α) (K1 : Nat) (lkp : Nat → Nat) (lp : Nat → FVal α)
    (scr : Scratch α) (r : Nat → FVal α) :
    (call_responsibilities_memo m tbl ok1 ok2 nf skip mf vf K mu b W nu gam K1 lkp lp scr r).1
      = call_responsibilities m ok1 ok2 nf skip mf vf K mu b W nu gam K1 lkp lp scr r ∧
    TableReachable m
      (call_responsibilities_memo m tbl ok1 ok2 nf skip mf vf K mu b W nu gam K1 lkp lp
        scr r).2 := by
  unfold call_responsibilities_memo call_responsibilities
  dsimp only
  by_cases hb : boundFails (nf 3) K
  · rw [if_pos hb, if_pos hb]
    exact ⟨rfl, h⟩
  · rw [if_neg hb, if_neg hb]
    cases hsub : sub_gmm m ok1 ok2 (nf 3) K mu b W nu gam with
    | none => exact ⟨rfl, h⟩
    | some gb =>
      dsimp only
      have e := responsibilities_memo_eq m tbl h nf skip mf vf K gb.1 gb.2 K1 lkp lp scr r
      rw [e.1]
      exact ⟨rfl, e.2⟩

theorem INUgrads_voxel_memo_eq (m : Libm α) (Nf P K : Nat) (mf : Nat → FVal α) (vf : Nat → α)
    (gmm : Nat → GMMtype) (buf : Nat → α) (Nm : Nat) (lkp : Nat → Nat) (lp : Nat → FVal α)
    (index : Nat → Nat) (i im : Nat) (s : GState α) (tbl : Int → α)
    (h : TableReachable m tbl) :
    (INUgrads_voxel_memo m Nf P K mf vf gmm buf Nm lkp lp index i im (s, tbl)).1
      = INUgrads_voxel m Nf P K mf vf gmm buf Nm lkp lp index i im s ∧
    TableReachable m
      (INUgrads_voxel_memo m Nf P K mf vf gmm buf Nm lkp lp index i im (s, tbl)).2 := by
  unfold INUgrads_voxel_memo INUgrads_voxel
  dsimp only
  by_cases hc : (get_vox Nf P (shift mf i) (shift vf i) s.scr.mx s.scr.vx).code ≠ 0
  · rw [if_pos hc, if_pos hc]
    by_cases hp : (get_priors Nm (shift lp im) K lkp s.scr.p).1 = true
    · rw [if_pos hp, if_pos hp]
      have e := Nresp_memo_eq m tbl h K gmm buf
        (get_vox Nf P (shift mf i) (shift vf i) s.scr.mx s.scr.vx).code
        (get_vox Nf P (shift mf i) (shift vf i) s.scr.mx s.scr.vx).x
        (get_vox Nf P (shift mf i) (shift vf i) s.scr.mx s.scr.vx).v
        (get_priors Nm (shift lp im) K lkp s.scr.p).2
      by_cases hi : index (get_vox Nf P (shift mf i) (shift vf i) s.scr.mx s.scr.vx).code
          ≠ Undefined
      · rw [if_pos hi, if_pos hi]
        dsimp only
        rw [e.1]
        exact ⟨rfl, e.2⟩
      · rw [if_neg hi, if_neg hi]
        dsimp only
        rw [e.1]
        exact ⟨rfl, e.2⟩
    · rw [if_neg hp, if_neg hp]
      exact ⟨rfl, h⟩
  · rw [if_neg hc, if_neg hc]
    exact ⟨rfl, h⟩

theorem INUgrads_memo_eq (m : Libm α) (tbl : Int → α) (h : TableReachable m tbl)
    (nf : Nat → Nat) (mf : Nat → FVal α) (vf : Nat → α) (K : Nat) (gmm : Nat → GMMtype)
    (buf : Nat → α) (nm skip lkp : Nat → Nat) (lp : Nat → FVal α) (index : Nat → Nat)
    (scr : Scratch α) (g1 g2 : Nat → FVal α) :
    (INUgrads_memo m tbl nf mf vf K gmm buf nm skip lkp lp index scr g1 g2).1
      = INUgrads m nf mf vf K gmm buf nm skip lkp lp index scr g1 g2 ∧
    TableReachable m
      (INUgrads_memo m tbl nf mf vf K gmm buf nm skip lkp lp index scr g1 g2).2 := by
  unfold INUgrads_memo INUgrads
  dsimp only
  by_cases hb : boundFails (nf 3) K
  · rw [if_pos hb, if_pos hb]
    exact ⟨rfl, h⟩
  · rw [if_neg hb, if_neg hb]
    have e : (forUp (extent nf nm skip 2) (fun i2 s =>
        forUp (extent nf nm skip 1) (fun i1 s =>
          forUp (extent nf nm skip 0) (fun i0 s =>
            INUgrads_voxel_memo m (nf 0 * nf 1 * nf 2) (nf 3) K mf vf gmm buf
              (nm 0 * nm 1 * nm 2) lkp lp index
              (i0 + nf 0 * (i1 + nf 1 * i2))
              (i0 * skip 0 + nm 0 * (i1 * skip 1 + nm 1 * i2 * skip 2)) s) s) s)
        ((⟨0, scr, g1, g2⟩ : GState α), tbl)).1
        = forUp (extent nf nm skip 2) (fun i2 s =>
        forUp (extent nf nm skip 1) (fun i1 s =>
          forUp (extent nf nm skip 0) (fun i0 s =>
            INUgrads_voxel m (nf 0 * nf 1 * nf 2) (nf 3) K mf vf gmm buf
              (nm 0 * nm 1 * nm 2) lkp lp index
              (i0 + nf 0 * (i1 + nf 1 * i2))
              (i0 * skip 0 + nm 0 * (i1 * skip 1 + nm 1 * i2 * skip 2)) s) s) s)
        (⟨0, scr, g1, g2⟩ : GState α) ∧
      TableReachable m (forUp (extent nf nm skip 2) (fun i2 s =>
        forUp (extent nf nm skip 1) (fun i1 s =>
          forUp (extent nf nm skip 0) (fun i0 s =>
            INUgrads_voxel_memo m (nf 0 * nf 1 * nf 2) (nf 3) K mf vf gmm buf
              (nm 0 * nm 1 * nm 2) lkp lp index
              (i0 + nf 0 * (i1 + nf 1 * i2))
              (i0 * skip 0 + nm 0 * (i1 * skip 1 + nm 1 * i2 * skip 2)) s) s) s)
        ((⟨0, scr, g1, g2⟩ : GState α), tbl)).2 := by
      refine forUp_memo (TableReachable m) _ _ (fun i2 s t ht => ?_) _ _ tbl h
      refine forUp_memo (TableReachable m) _ _ (fun i1 s t ht => ?_) _ s t ht
      refine forUp_memo (TableReachable m) _ _ (fun i0 s t ht => ?_) _ s t ht
      exact INUgrads_voxel_memo_eq m _ _ K mf vf gmm buf _ lkp lp index _ _ s t ht
    rw [e.1]
    exact ⟨rfl, e.2⟩

theorem call_INUgrads_memo_eq (m : Libm α) (tbl : Int → α) (h : TableReachable m tbl)
    (ok1 ok2 ok3 : Bool) (nf : Nat → Nat) (mf : Nat → FVal α) (vf : Nat → α) (K : Nat)
    (mu b W nu gam : Nat → α) (nm skip lkp : Nat → Nat) (lp : Nat → FVal α) (ic : Nat)
    (scr : Scratch α) (g1 g2 : Nat → FVal α) :
    (call_INUgrads_memo m tbl ok1 ok2 ok3 nf mf vf K mu b W nu gam nm skip lkp lp ic scr
        g1 g2).1
      = call_INUgrads m ok1 ok2 ok3 nf mf vf K mu b W nu gam nm skip lkp lp ic scr g1 g2 ∧
    TableReachable m
      (call_INUgrads_memo m tbl ok1 ok2 ok3 nf mf vf K mu b W nu gam nm skip lkp lp ic scr
        g1 g2).2 := by
  unfold call_INUgrads_memo call_INUgrads
  dsimp only
  by_cases hb : boundFails (nf 3) K
  · rw [if_pos hb, if_pos hb]
    exact ⟨rfl, h⟩
  · rw [if_neg hb, if_neg hb]
    cases hsub : sub_gmm m ok1 ok2 (nf 3) K mu b W nu gam with
    | none => exact ⟨rfl, h⟩
    | some gb =>
      dsimp only
      cases ok3 with
      | false => exact ⟨rfl, h⟩
      | true =>
        simp only [if_true]
        have e := INUgrads_memo_eq m tbl h nf mf vf K gb.1 gb.2 nm skip lkp lp
          (make_index (nf 3) ic (fun _ => 0)) scr g1 g2
        rw [e.1]
        exact ⟨rfl, e.2⟩

/-! ## The local arrays `mx`, `vx`, `p` on entry do not reach the results -/

/-- Two runs of a loop whose bodies keep a relation between the states end in related
states. -/
theorem forUp_rel {σ : Type} (R : σ → σ → Prop) (body : Nat → σ → σ)
    (h : ∀ i s s', R s s' → R (body i s) (body i s')) (n : Nat) (s s' : σ) (hs : R s s') :
    R (forUp n body s) (forUp n body s') := by
  induction n with
  | zero => exact hs
  | succ n ih =>
    rw [forUp_succ, forUp_succ]
    exact h n _ _ ih

/-- The Normal kernel at a voxel gives the same log-likelihood and responsibilities
whatever the local arrays held before. -/
theorem nresp_kernel_congr (m : Libm α) (Nf P K : Nat) (mf : Nat → FVal α) (vf : Nat → α)
    (gmm : Nat → GMMtype) (buf : Nat → α) (Nm : Nat) (lkp : Nat → Nat) (lp : Nat → FVal α)
    (hg : ∀ code, code < 2 ^ P → (gmm code).P = bitcount P code) (hK : 1 ≤ K)
    (i im : Nat) (scr scr' : Scratch α)
    (hok : (get_priors Nm (shift lp im) K lkp scr.p).1 = true) :
    (Nresp m K gmm buf (get_vox Nf P (shift mf i) (shift vf i) scr.mx scr.vx).code
        (get_vox Nf P (shift mf i) (shift vf i) scr.mx scr.vx).x
        (get_vox Nf P (shift mf i) (shift vf i) scr.mx scr.vx).v
        (get_priors Nm (shift lp im) K lkp scr.p).2).1
      = (Nresp m K gmm buf (get_vox Nf P (shift mf i) (shift vf i) scr'.mx scr'.vx).code
        (get_vox Nf P (shift mf i) (shift vf i) scr'.mx scr'.vx).x
        (get_vox Nf P (shift mf i) (shift vf i) scr'.mx scr'.vx).v
        (get_priors Nm (shift lp im) K lkp scr'.p).2).1 ∧
    ∀ k, k < K →
      (Nresp m K gmm buf (get_vox Nf P (shift mf i) (shift vf i) scr.mx scr.vx).code
        (get_vox Nf P (shift mf i) (shift vf i) scr.mx scr.vx).x
        (get_vox Nf P (shift mf i) (shift vf i) scr.mx scr.vx).v
        (get_priors Nm (shift lp im) K lkp scr.p).2).2 k
      = (Nresp m K gmm buf (get_vox Nf P (shift mf i) (shift vf i) scr'.mx scr'.vx).code
        (get_vox Nf P (shift mf i) (shift vf i) scr'.mx scr'.vx).x
        (get_vox Nf P (shift mf i) (shift vf i) scr'.mx scr'.vx).v
        (get_priors Nm (shift lp im) K lkp scr'.p).2).2 k := by
  have hcode := get_vox_code_eq Nf P (shift mf i) (shift vf i) scr.mx scr.vx scr'.mx scr'.vx
  have hx : ∀ j, j < (gmm (get_vox Nf P (shift mf i) (shift vf i) scr.mx scr.vx).code).P →
      (get_vox Nf P (shift mf i) (shift vf i) scr.mx scr.vx).x j
        = (get_vox Nf P (shift mf i) (shift vf i) scr'.mx scr'.vx).x j ∧
      (get_vox Nf P (shift mf i) (shift vf i) scr.mx scr.vx).v j
        = (get_vox Nf P (shift mf i) (shift vf i) scr'.mx scr'.vx).v j := fun j hj => by
    rw [hg _ (get_vox_code_lt _ _ _ _ _ _)] at hj
    exact get_vox_xv_eq Nf P (shift mf i) (shift vf i) scr.mx scr.vx scr'.mx scr'.vx j hj
  have hp : ∀ k, k < K → (get_priors Nm (shift lp im) K lkp scr.p).2 k
      = (get_priors Nm (shift lp im) K lkp scr'.p).2 k :=
    fun k hk => get_priors_val_eq Nm (shift lp im) K lkp scr.p scr'.p hok k hk
  rw [← hcode]
  exact Nresp_congr m K gmm buf _ _ _ _ _ _ _ hK hx hp

/-- The kernel that `responsibilities` runs at a voxel gives the same log-likelihood and
responsibilities whatever the local arrays held before. -/
theorem resp_kernel_congr (m : Libm α) (N1 P K : Nat) (skip : Nat → Nat) (mf : Nat → FVal α)
    (vf : Nat → α) (gmm : Nat → GMMtype) (buf : Nat → α) (lkp : Nat → Nat) (lp : Nat → FVal α)
    (hg : ∀ code, code < 2 ^ P → (gmm code).P = bitcount P code) (hK : 1 ≤ K)
    (i0 i1 i2 i : Nat) (scr scr' : Scratch α)
    (hok : (get_priors N1 (shift lp i) K lkp scr.p).1 = true) :
    (if i2 % skip 2 = 0 ∧ (i1 % skip 1 = 0 ∧ i0 % skip 0 = 0) then
        Nresp m K gmm buf (get_vox N1 P (shift mf i) (shift vf i) scr.mx scr.vx).code
          (get_vox N1 P (shift mf i) (shift vf i) scr.mx scr.vx).x
          (get_vox N1 P (shift mf i) (shift vf i) scr.mx scr.vx).v
          (get_priors N1 (shift lp i) K lkp scr.p).2
      else
        Tresp m K gmm buf (get_vox N1 P (shift mf i) (shift vf i) scr.mx scr.vx).code
          (get_vox N1 P (shift mf i) (shift vf i) scr.mx scr.vx).x
          (get_vox N1 P (shift mf i) (shift vf i) scr.mx scr.vx).v
          (get_priors N1 (shift lp i) K lkp scr.p).2).1
      = (if i2 % skip 2 = 0 ∧ (i1 % skip 1 = 0 ∧ i0 % skip 0 = 0) then
        Nresp m K gmm buf (get_vox N1 P (shift mf i) (shift vf i) scr'.mx scr'.vx).code
          (get_vox N1 P (shift mf i) (shift vf i) scr'.mx scr'.vx).x
          (get_vox N1 P (shift mf i) (shift vf i) scr'.mx scr'.vx).v
          (get_priors N1 (shift lp i) K lkp scr'.p).2
      else
        Tresp m K gmm buf (get_vox N1 P (shift mf i) (shift vf i) scr'.mx scr'.vx).code
          (get_vox N1 P (shift mf i) (shift vf i) scr'.mx scr'.vx).x
          (get_vox N1 P (shift mf i) (shift vf i) scr'.mx scr'.vx).v
          (get_priors N1 (shift lp i) K lkp scr'.p).2).1 ∧
    ∀ k, k < K →
      (if i2 % skip 2 = 0 ∧ (i1 % skip 1 = 0 ∧ i0 % skip 0 = 0) then
        Nresp m K gmm buf (get_vox N1 P (shift mf i) (shift vf i) scr.mx scr.vx).code
          (get_vox N1 P (shift mf i) (shift vf i) scr.mx scr.vx).x
          (get_vox N1 P (shift mf i) (shift vf i) scr.mx scr.vx).v
          (get_priors N1 (shift lp i) K lkp scr.p).2
      else
        Tresp m K gmm buf (get_vox N1 P (shift mf i) (shift vf i) scr.mx scr.vx).code
          (get_vox N1 P (shift mf i) (shift vf i) scr.mx scr.vx).x
          (get_vox N1 P (shift mf i) (shift vf i) scr.mx scr.vx).v
          (get_priors N1 (shift lp i) K lkp scr.p).2).2 k
      = (if i2 % skip 2 = 0 ∧ (i1 % skip 1 = 0 ∧ i0 % skip 0 = 0) then
        Nresp m K gmm buf (get_vox N1 P (shift mf i) (shift vf i) scr'.mx scr'.vx).code
          (get_vox N1 P (shift mf i) (shift vf i) scr'.mx scr'.vx).x
          (get_vox N1 P (shift mf i) (shift vf i) scr'.mx scr'.vx).v
          (get_priors N1 (shift lp i) K lkp scr'.p).2
      else
        Tresp m K gmm buf (get_vox N1 P (shift mf i) (shift vf i) scr'.mx scr'.vx).code
          (get_vox N1 P (shift mf i) (shift vf i) scr'.mx scr'.vx).x
          (get_vox N1 P (shift mf i) (shift vf i) scr'.mx scr'.vx).v
          (get_priors N1 (shift lp i) K lkp scr'.p).2).2 k := by
  have hcode := get_vox_code_eq N1 P (shift mf i) (shift vf i) scr.mx scr.vx scr'.mx scr'.vx
  have hx : ∀ j, j < (gmm (get_vox N1 P (shift mf i) (shift vf i) scr.mx scr.vx).code).P →
      (get_vox N1 P (shift mf i) (shift vf i) scr.mx scr.vx).x j
        = (get_vox N1 P (shift mf i) (shift vf i) scr'.mx scr'.vx).x j ∧
      (get_vox N1 P (shift mf i) (shift vf i) scr.mx scr.vx).v j
        = (get_vox N1 P (shift mf i) (shift vf i) scr'.mx scr'.vx).v j := fun j hj => by
    rw [hg _ (get_vox_code_lt _ _ _ _ _ _)] at hj
    exact get_vox_xv_eq N1 P (shift mf i) (shift vf i) scr.mx scr.vx scr'.mx scr'.vx j hj
  have hp : ∀ k, k < K → (get_priors N1 (shift lp i) K lkp scr.p).2 k
      = (get_priors N1 (shift lp i) K lkp scr'.p).2 k :=
    fun k hk => get_priors_val_eq N1 (shift lp i) K lkp scr.p scr'.p hok k hk
  rw [← hcode]
  by_cases hl : i2 % skip 2 = 0 ∧ (i1 % skip 1 = 0 ∧ i0 % skip 0 = 0)
  · simp only [hl, and_self, if_true]
    exact Nresp_congr m K gmm buf _ _ _ _ _ _ _ hK hx hp
  · simp only [hl, if_false]
    exact Tresp_congr m K gmm buf _ _ _ _ _ _ _ hK hx hp

/-- The sums over the classes in a voxel of `INUgrads` read the local arrays only at the
cells that `get_vox` and `Nresp` have written. -/
theorem INU_gh_congr (K Po : Nat) (buf : Nat → α) (mu W nu nc : Nat) (mx p mx' p' : Nat → α)
    (hx : ∀ j, j < Po → mx j = mx' j) (hp : ∀ k, k < K → p k = p' k) :
    forUp K (fun k (gh : α × α) =>
        (gh.1 + buf (nu + k) * p k * forUp Po (fun j gk =>
            gk + (mx j - buf (mu + (j + Po * k))) * buf (W + (j + Po * (nc + Po * k)))) 0,
          gh.2 + buf (nu + k) * p k * buf (W + (nc + Po * (nc + Po * k))))) (0, 0)
      = forUp K (fun k (gh : α × α) =>
        (gh.1 + buf (nu + k) * p' k * forUp Po (fun j gk =>
            gk + (mx' j - buf (mu + (j + Po * k))) * buf (W + (j + Po * (nc + Po * k)))) 0,
          gh.2 + buf (nu + k) * p' k * buf (W + (nc + Po * (nc + Po * k))))) (0, 0) := by
  refine forUp_congr K _ _ (fun k hk gh => ?_) _
  dsimp only
  rw [hp k hk, forUp_congr Po _ (fun j gk =>
    gk + (mx' j - buf (mu + (j + Po * k))) * buf (W + (j + Po * (nc + Po * k))))
    (fun j hj gk => by rw [hx j hj])]

theorem suffstats_voxel_rel (m : Libm α) (Nf P K : Nat) (mf : Nat → FVal α) (vf : Nat → α)
    (gmm : Nat → GMMtype) (buf : Nat → α) (Nm : Nat) (lkp : Nat → Nat) (lp : Nat → FVal α)
    (suffstat : Nat → SStype)
    (hg : ∀ code, code < 2 ^ P → (gmm code).P = bitcount P code) (hK : 1 ≤ K)
    (i im : Nat) (s s' : SSstate α) (h : s.ll = s'.ll ∧ s.st = s'.st) :
    (suffstats_voxel m Nf P K mf vf gmm buf Nm lkp lp suffstat i im s).ll
      = (suffstats_voxel m Nf P K mf vf gmm buf Nm lkp lp suffstat i im s').ll ∧
    (suffstats_voxel m Nf P K mf vf gmm buf Nm lkp lp suffstat i im s).st
      = (suffstats_voxel m Nf P K mf vf gmm buf Nm lkp lp suffstat i im s').st := by
  refine ⟨?_, ?_⟩
  · rw [suffstats_voxel_ll m Nf P K mf vf gmm buf Nm lkp lp suffstat hg hK i im s,
      suffstats_voxel_ll m Nf P K mf vf gmm buf Nm lkp lp suffstat hg hK i im s', h.1]
  · have e0 : (suffstats_voxel m Nf P K mf vf gmm buf Nm lkp lp suffstat i im s).st.s0
        = (suffstats_voxel m Nf P K mf vf gmm buf Nm lkp lp suffstat i im s').st.s0 := by
      funext idx
      rw [suffstats_voxel_s0 m Nf P K mf vf gmm buf Nm lkp lp suffstat hg i im s idx,
        suffstats_voxel_s0 m Nf P K mf vf gmm buf Nm lkp lp suffstat hg i im s' idx, h.2]
    have e1 : (suffstats_voxel m Nf P K mf vf gmm buf Nm lkp lp suffstat i im s).st.s1
        = (suffstats_voxel m Nf P K mf vf gmm buf Nm lkp lp suffstat i im s').st.s1 := by
      funext idx
      rw [suffstats_voxel_s1 m Nf P K mf vf gmm buf Nm lkp lp suffstat hg i im s idx,
        suffstats_voxel_s1 m Nf P K mf vf gmm buf Nm lkp lp suffstat hg i im s' idx, h.2]
    have e2 : (suffstats_voxel m Nf P K mf vf gmm buf Nm lkp lp suffstat i im s).st.s2
        = (suffstats_voxel m Nf P K mf vf gmm buf Nm lkp lp suffstat i im s').st.s2 := by
      funext idx
      rw [suffstats_voxel_s2 m Nf P K mf vf gmm buf Nm lkp lp suffstat hg i im s idx,
        suffstats_voxel_s2 m Nf P K mf vf gmm buf Nm lkp lp suffstat hg i im s' idx, h.2]
    generalize (suffstats_voxel m Nf P K mf vf gmm buf Nm lkp lp suffstat i im s).st = a
      at e0 e1 e2 ⊢
    generalize (suffstats_voxel m Nf P K mf vf gmm buf Nm lkp lp suffstat i im s').st = a'
      at e0 e1 e2 ⊢
    cases a
    cases a'
    simp only at e0 e1 e2
    rw [e0, e1, e2]

/-- The log-likelihood and the statistics that `suffstats_missing` returns do not depend on
what its local arrays held on entry, for a table with the bit counts as dimensions and at
least one class. -/
theorem suffstats_missing_scr (m : Libm α) (nf : Nat → Nat) (mf : Nat → FVal α) (vf : Nat → α)
    (K : Nat) (gmm : Nat → GMMtype) (buf : Nat → α) (nm skip lkp : Nat → Nat)
    (lp : Nat → FVal α) (suffstat : Nat → SStype)
    (hg : ∀ code, code < 2 ^ nf 3 → (gmm code).P = bitcount (nf 3) code) (hK : 1 ≤ K)
    (scr scr' : Scratch α) (st : Stats α) :
    suffstats_missing m nf mf vf K gmm buf nm skip lkp lp suffstat scr st
      = suffstats_missing m nf mf vf K gmm buf nm skip lkp lp suffstat scr' st := by
  have e : (suffstats_pass m nf mf vf K gmm buf nm skip lkp lp suffstat ⟨0, scr, st⟩).ll
        = (suffstats_pass m nf mf vf K gmm buf nm skip lkp lp suffstat ⟨0, scr', st⟩).ll ∧
      (suffstats_pass m nf mf vf K gmm buf nm skip lkp lp suffstat ⟨0, scr, st⟩).st
        = (suffstats_pass m nf mf vf K gmm buf nm skip lkp lp suffstat ⟨0, scr', st⟩).st := by
    unfold suffstats_pass
    dsimp only
    refine forUp_rel (fun s s' : SSstate α => s.ll = s'.ll ∧ s.st = s'.st) _
      (fun i2 s s' hs => ?_) _ _ _ ⟨rfl, rfl⟩
    refine forUp_rel (fun s s' : SSstate α => s.ll = s'.ll ∧ s.st = s'.st) _
      (fun i1 s s' hs => ?_) _ _ _ hs
    refine forUp_rel (fun s s' : SSstate α => s.ll = s'.ll ∧ s.st = s'.st) _
      (fun i0 s s' hs => ?_) _ _ _ hs
    exact suffstats_voxel_rel m _ _ K mf vf gmm buf _ lkp lp suffstat hg hK _ _ s s' hs
  unfold suffstats_missing
  dsimp only
  rw [e.1, e.2]

theorem responsibilities_voxel_rel (m : Libm α) (N1 P K : Nat) (skip : Nat → Nat)
    (mf : Nat → FVal α) (vf : Nat → α) (gmm : Nat → GMMtype) (buf : Nat → α) (K1 : Nat)
    (lkp : Nat → Nat) (lp : Nat → FVal α)
    (hg : ∀ code, code < 2 ^ P → (gmm code).P = bitcount P code) (hK : 1 ≤ K)
    (i0 i1 i2 i : Nat) (s s' : RState α) (h : s.ll = s'.ll ∧ s.r = s'.r) :
    (responsibilities_voxel m N1 P K skip mf vf gmm buf K1 lkp lp i0 i1 i2 i s).ll
      = (responsibilities_voxel m N1 P K skip mf vf gmm buf K1 lkp lp i0 i1 i2 i s').ll ∧
    (responsibilities_voxel m N1 P K skip mf vf gmm buf K1 lkp lp i0 i1 i2 i s).r
      = (responsibilities_voxel m N1 P K skip mf vf gmm buf K1 lkp lp i0 i1 i2 i s').r := by
  have hcode := get_vox_code_eq N1 P (shift mf i) (shift vf i) s.scr.mx s.scr.vx
    s'.scr.mx s'.scr.vx
  have hp1 := get_priors_ok_eq N1 (shift lp i) K lkp s.scr.p s'.scr.p
  by_cases hpr : (get_priors N1 (shift lp i) K lkp s.scr.p).1 = true
  · have hpr' : (get_priors N1 (shift lp i) K lkp s'.scr.p).1 = true := by
      rw [← hp1]; exact hpr
    by_cases hc : (get_vox N1 P (shift mf i) (shift vf i) s.scr.mx s.scr.vx).code = 0
    · have hc' : (get_vox N1 P (shift mf i) (shift vf i) s'.scr.mx s'.scr.vx).code = 0 := by
        rw [← hcode]; exact hc
      rw [responsibilities_voxel_allmissing m N1 P K skip mf vf gmm buf K1 lkp lp i0 i1 i2 i s
          hpr hc,
        responsibilities_voxel_allmissing m N1 P K skip mf vf gmm buf K1 lkp lp i0 i1 i2 i s'
          hpr' hc']
      dsimp only
      exact ⟨h.1, by rw [h.2]⟩
    · have hc' : (get_vox N1 P (shift mf i) (shift vf i) s'.scr.mx s'.scr.vx).code ≠ 0 := by
        rw [← hcode]; exact hc
      have hk := resp_kernel_congr m N1 P K skip mf vf gmm buf lkp lp hg hK i0 i1 i2 i
        s.scr s'.scr hpr
      rw [responsibilities_voxel_valid m N1 P K skip mf vf gmm buf K1 lkp lp i0 i1 i2 i s
          hpr hc _ rfl,
        responsibilities_voxel_valid m N1 P K skip mf vf gmm buf K1 lkp lp i0 i1 i2 i s'
          hpr' hc' _ rfl]
      dsimp only
      refine ⟨by rw [h.1, hk.1], ?_⟩
      rw [h.2]
      refine forUp_congr K _ _ (fun k hk' r => ?_) _
      dsimp only
      rw [hk.2 k hk']
  · have hpr' : ¬ (get_priors N1 (shift lp i) K lkp s'.scr.p).1 = true := by
      rw [← hp1]; exact hpr
    rw [responsibilities_voxel_invalid m N1 P K skip mf vf gmm buf K1 lkp lp i0 i1 i2 i s hpr,
      responsibilities_voxel_invalid m N1 P K skip mf vf gmm buf K1 lkp lp i0 i1 i2 i s' hpr']
    dsimp only
    exact ⟨h.1, by rw [h.2]⟩

/-- The log-likelihood and the maps that `responsibilities` returns do not depend on what
its local arrays held on entry. -/
theorem responsibilities_scr (m : Libm α) (nf skip : Nat → Nat) (mf : Nat → FVal α)
    (vf : Nat → α) (K : Nat) (gmm : Nat → GMMtype) (buf : Nat → α) (K1 : Nat)
    (lkp : Nat → Nat) (lp : Nat → FVal α)
    (hg : ∀ code, code < 2 ^ nf 3 → (gmm code).P = bitcount (nf 3) code) (hK : 1 ≤ K)
    (scr scr' : Scratch α) (r : Nat → FVal α) :
    responsibilities m nf skip mf vf K gmm buf K1 lkp lp scr r
      = responsibilities m nf skip mf vf K gmm buf K1 lkp lp scr' r := by
  have e : (forUp (nf 2) (fun i2 s =>
      forUp (nf 1) (fun i1 s =>
        forUp (nf 0) (fun i0 s =>
          responsibilities_voxel m (nf 0 * nf 1 * nf 2) (nf 3) K skip mf vf gmm buf K1 lkp
            lp i0 i1 i2 (i0 + nf 0 * (i1 + nf 1 * i2)) s) s) s)
        (⟨0, scr, r⟩ : RState α)).ll
      = (forUp (nf 2) (fun i2 s =>
      forUp (nf 1) (fun i1 s =>
        forUp (nf 0) (fun i0 s =>
          responsibilities_voxel m (nf 0 * nf 1 * nf 2) (nf 3) K skip mf vf gmm buf K1 lkp
            lp i0 i1 i2 (i0 + nf 0 * (i1 + nf 1 * i2)) s) s) s)
        (⟨0, scr', r⟩ : RState α)).ll ∧
    (forUp (nf 2) (fun i2 s =>
      forUp (nf 1) (fun i1 s =>
        forUp (nf 0) (fun i0 s =>
          responsibilities_voxel m (nf 0 * nf 1 * nf 2) (nf 3) K skip mf vf gmm buf K1 lkp
            lp i0 i1 i2 (i0 + nf 0 * (i1 + nf 1 * i2)) s) s) s)
        (⟨0, scr, r⟩ : RState α)).r
      = (forUp (nf 2) (fun i2 s =>
      forUp (nf 1) (fun i1 s =>
        forUp (nf 0) (fun i0 s =>
          responsibilities_voxel m (nf 0 * nf 1 * nf 2) (nf 3) K skip mf vf gmm buf K1 lkp
            lp i0 i1 i2 (i0 + nf 0 * (i1 + nf 1 * i2)) s) s) s)
        (⟨0, scr', r⟩ : RState α)).r := by
    refine forUp_rel (fun s s' : RState α => s.ll = s'.ll ∧ s.r = s'.r) _
      (fun i2 s s' hs => ?_) _ _ _ ⟨rfl, rfl⟩
    refine forUp_rel (fun s s' : RState α => s.ll = s'.ll ∧ s.r = s'.r) _
      (fun i1 s s' hs => ?_) _ _ _ hs
    refine forUp_rel (fun s s' : RState α => s.ll = s'.ll ∧ s.r = s'.r) _
      (fun i0 s s' hs => ?_) _ _ _ hs
    exact responsibilities_voxel_rel m _ _ K skip mf vf gmm buf K1 lkp lp hg hK _ _ _ _ s s' hs
  unfold responsibilities
  dsimp only
  rw [e.1, e.2]

theorem INUgrads_voxel_rel (m : Libm α) (Nf P K : Nat) (mf : Nat → FVal α) (vf : Nat → α)
    (gmm : Nat → GMMtype) (buf : Nat → α) (Nm : Nat) (lkp : Nat → Nat) (lp : Nat → FVal α)
    (index : Nat → Nat)
    (hg : ∀ code, code < 2 ^ P → (gmm code).P = bitcount P code) (hK : 1 ≤ K)
    (hidx : ∀ code, code < 2 ^ P → index code ≠ Undefined → index code < bitcount P code)
    (i im : Nat) (s s' : GState α) (h : s.ll = s'.ll ∧ s.g1 = s'.g1 ∧ s.g2 = s'.g2) :
    (INUgrads_voxel m Nf P K mf vf gmm buf Nm lkp lp index i im s).ll
      = (INUgrads_voxel m Nf P K mf vf gmm buf Nm lkp lp index i im s').ll ∧
    (INUgrads_voxel m Nf P K mf vf gmm buf Nm lkp lp index i im s).g1
      = (INUgrads_voxel m Nf P K mf vf gmm buf Nm lkp lp index i im s').g1 ∧
    (INUgrads_voxel m Nf P K mf vf gmm buf Nm lkp lp index i im s).g2
      = (INUgrads_voxel m Nf P K mf vf gmm buf Nm lkp lp index i im s').g2 := by
  have hcode := get_vox_code_eq Nf P (shift mf i) (shift vf i) s.scr.mx s.scr.vx
    s'.scr.mx s'.scr.vx
  have hp1 := get_priors_ok_eq Nm (shift lp im) K lkp s.scr.p s'.scr.p
  have hlt := get_vox_code_lt Nf P (shift mf i) (shift vf i) s.scr.mx s.scr.vx
  have hxall := get_vox_xv_eq Nf P (shift mf i) (shift vf i) s.scr.mx s.scr.vx
    s'.scr.mx s'.scr.vx
  have hkall := nresp_kernel_congr m Nf P K mf vf gmm buf Nm lkp lp hg hK i im s.scr s'.scr
  have hgP := hg _ hlt
  have hnc := hidx _ hlt
  unfold INUgrads_voxel
  dsimp only
  generalize get_vox Nf P (shift mf i) (shift vf i) s.scr.mx s.scr.vx = X at *
  generalize get_vox Nf P (shift mf i) (shift vf i) s'.scr.mx s'.scr.vx = X' at *
  obtain ⟨j1, c, x, v⟩ := X
  obtain ⟨j1', c', x', v'⟩ := X'
  dsimp only at *
  subst hcode
  generalize get_priors Nm (shift lp im) K lkp s.scr.p = pr at *
  generalize get_priors Nm (shift lp im) K lkp s'.scr.p = pr' at *
  obtain ⟨ok, pv⟩ := pr
  obtain ⟨ok', pv'⟩ := pr'
  dsimp only at *
  subst hp1
  generalize Nresp m K gmm buf c x v pv = nr at *
  generalize Nresp m K gmm buf c x' v' pv' = nr' at *
  by_cases hc : c ≠ 0
  · rw [if_pos hc, if_pos hc]
    by_cases hpr : ok = true
    · rw [if_pos hpr, if_pos hpr]
      have hk := hkall hpr
      by_cases hi : index c ≠ Undefined
      · rw [if_pos hi, if_pos hi]
        dsimp only
        have hx : ∀ j, j < (gmm c).P → x j = x' j := fun j hj => by
          rw [hgP] at hj
          exact (hxall j hj).1
        have hxv := hxall _ (hnc hi)
        rw [INU_gh_congr K (gmm c).P buf (gmm c).mu (gmm c).W (gmm c).nu (index c) x nr.2 x'
          nr'.2 hx hk.2, hxv.1, hxv.2, h.1, h.2.1, h.2.2, hk.1]
        exact ⟨rfl, rfl, rfl⟩
      · rw [if_neg hi, if_neg hi]
        dsimp only
        exact ⟨by rw [h.1, hk.1], h.2.1, h.2.2⟩
    · rw [if_neg hpr, if_neg hpr]
      exact ⟨h.1, h.2.1, h.2.2⟩
  · rw [if_neg hc, if_neg hc]
    exact ⟨h.1, h.2.1, h.2.2⟩

/-- The value and the buffers that `INUgrads` returns do not depend on what its local
arrays held on entry, when `index` sends every pattern to `Undefined` or to a position
below the dimension of the pattern. -/
theorem INUgrads_scr (m : Libm α) (nf : Nat → Nat) (mf : Nat → FVal α) (vf : Nat → α)
    (K : Nat) (gmm : Nat → GMMtype) (buf : Nat → α) (nm skip lkp : Nat → Nat)
    (lp : Nat → FVal α) (index : Nat → Nat)
    (hg : ∀ code, code < 2 ^ nf 3 → (gmm code).P = bitcount (nf 3) code) (hK : 1 ≤ K)
    (hidx : ∀ code, code < 2 ^ nf 3 → index code ≠ Undefined →
      index code < bitcount (nf 3) code)
    (scr scr' : Scratch α) (g1 g2 : Nat → FVal α) :
    INUgrads m nf mf vf K gmm buf nm skip lkp lp index scr g1 g2
      = INUgrads m nf mf vf K gmm buf nm skip lkp lp index scr' g1 g2 := by
  unfold INUgrads
  dsimp only
  by_cases hb : boundFails (nf 3) K
  · rw [if_pos hb, if_pos hb]
  · rw [if_neg hb, if_neg hb]
    have e := forUp_rel (fun s s' : GState α => s.ll = s'.ll ∧ s.g1 = s'.g1 ∧ s.g2 = s'.g2)
      (fun i2 s =>
        forUp (extent nf nm skip 1) (fun i1 s =>
          forUp (extent nf nm skip 0) (fun i0 s =>
            INUgrads_voxel m (nf 0 * nf 1 * nf 2) (nf 3) K mf vf gmm buf
              (nm 0 * nm 1 * nm 2) lkp lp index
              (i0 + nf 0 * (i1 + nf 1 * i2))
              (i0 * skip 0 + nm 0 * (i1 * skip 1 + nm 1 * i2 * skip 2)) s) s) s)
      (fun i2 s s' hs => by
        refine forUp_rel (fun s s' : GState α => s.ll = s'.ll ∧ s.g1 = s'.g1 ∧ s.g2 = s'.g2) _
          (fun i1 s s' hs => ?_) _ _ _ hs
        refine forUp_rel (fun s s' : GState α => s.ll = s'.ll ∧ s.g1 = s'.g1 ∧ s.g2 = s'.g2) _
          (fun i0 s s' hs => ?_) _ _ _ hs
        exact INUgrads_voxel_rel m _ _ K mf vf gmm buf _ lkp lp index hg hK hidx _ _ s s' hs)
      (extent nf nm skip 2) (⟨0, scr, g1, g2⟩ : GState α) (⟨0, scr', g1, g2⟩ : GState α)
      ⟨rfl, rfl, rfl⟩
    rw [e.1, e.2.1, e.2.2]

/-- The table that a successful `sub_gmm` returns is the table of `allocate_gmm_loop`. -/
theorem sub_gmm_some_tbl (m : Libm α) (ok1 ok2 : Bool) (P K : Nat) (mu b W nu gam : Nat → α)
    (gb : (Nat → GMMtype) × (Nat → α)) (h : sub_gmm m ok1 ok2 P K mu b W nu gam = some gb) :
    gb.1 = (allocate_gmm_loop P K).tbl := by
  unfold sub_gmm allocate_gmm at h
  cases ok1 with
  | false => simp at h
  | true =>
    cases ok2 with
    | false => simp at h
    | true =>
      simp only [if_true] at h
      injection h with h
      rw [← h]

/-- The array that `make_index` builds sends every pattern below `2^P` to `Undefined` or to
a position below the dimension of the pattern. -/
theorem make_index_below (P ic : Nat) (index : Nat → Nat) (code : Nat)
    (hc : code < 2 ^ P) (h : make_index P ic index code ≠ Undefined) :
    make_index P ic index code < bitcount P code := by
  rw [make_index_eq, if_pos hc] at h ⊢
  by_cases hb : code.testBit ic = true
  · rw [if_pos hb]
    have hic : ic < P := by
      by_contra hge
      have : code.testBit ic = false :=
        Nat.testBit_eq_false_of_lt (lt_of_lt_of_le hc (Nat.pow_le_pow_right (by omega) (by omega)))
      rw [this] at hb
      exact Bool.noConfusion hb
    exact bitcount_lt_of_testBit P ic code hic hb
  · rw [if_neg hb] at h
    exact absurd rfl h

/-- For at least one class, `call_suffstats_missing` returns the same value and statistics
whatever its local arrays held on entry. -/
theorem call_suffstats_missing_scr (m : Libm α) (ok1 ok2 ok3 : Bool) (nf : Nat → Nat)
    (mf : Nat → FVal α) (vf : Nat → α) (K : Nat) (mu b W nu gam : Nat → α)
    (nm skip lkp : Nat → Nat) (lp : Nat → FVal α) (hK : 1 ≤ K) (scr scr' : Scratch α)
    (st : Stats α) :
    call_suffstats_missing m ok1 ok2 ok3 nf mf vf K mu b W nu gam nm skip lkp lp scr st
      = call_suffstats_missing m ok1 ok2 ok3 nf mf vf K mu b W nu gam nm skip lkp lp scr' st := by
  unfold call_suffstats_missing
  dsimp only
  by_cases hb : boundFails (nf 3) K
  · rw [if_pos hb, if_pos hb]
  · rw [if_neg hb, if_neg hb]
    cases hsub : sub_gmm m ok1 ok2 (nf 3) K mu b W nu gam with
    | none => rfl
    | some gb =>
      dsimp only
      cases hss : suffstat_pointers ok3 (nf 3) K with
      | none => rfl
      | some suffstat =>
        dsimp only
        have hg : ∀ code, code < 2 ^ nf 3 → (gb.1 code).P = bitcount (nf 3) code :=
          fun code hc => by
            rw [sub_gmm_some_tbl m ok1 ok2 (nf 3) K mu b W nu gam gb hsub]
            exact allocate_gmm_P (nf 3) K code hc
        rw [suffstats_missing_scr m nf mf vf K gb.1 gb.2 nm skip lkp lp suffstat hg hK scr scr']

/-- For at least one class, `call_responsibilities` returns the same value and maps
whatever its local arrays held on entry. -/
theorem call_responsibilities_scr (m : Libm α) (ok1 ok2 : Bool) (nf skip : Nat → Nat)
    (mf : Nat → FVal α) (vf : Nat → α) (K : Nat) (mu b W nu gam : Nat → α)
    (K1 : Nat) (lkp : Nat → Nat) (lp : Nat → FVal α) (hK : 1 ≤ K) (scr scr' : Scratch α)
    (r : Nat → FVal α) :
    call_responsibilities m ok1 ok2 nf skip mf vf K mu b W nu gam K1 lkp lp scr r
      = call_responsibilities m ok1 ok2 nf skip mf vf K mu b W nu gam K1 lkp lp scr' r := by
  unfold call_responsibilities
  dsimp only
  by_cases hb : boundFails (nf 3) K
  · rw [if_pos hb, if_pos hb]
  · rw [if_neg hb, if_neg hb]
    cases hsub : sub_gmm m ok1 ok2 (nf 3) K mu b W nu gam with
    | none => rfl
    | some gb =>
      dsimp only
      have hg : ∀ code, code < 2 ^ nf 3 → (gb.1 code).P = bitcount (nf 3) code :=
        fun code hc => by
          rw [sub_gmm_some_tbl m ok1 ok2 (nf 3) K mu b W nu gam gb hsub]
          exact allocate_gmm_P (nf 3) K code hc
      rw [responsibilities_scr m nf skip mf vf K gb.1 gb.2 K1 lkp lp hg hK scr scr']

/-- For at least one class, `call_INUgrads` returns the same value and buffers whatever
its local arrays held on entry. -/
theorem call_INUgrads_scr (m : Libm α) (ok1 ok2 ok3 : Bool) (nf : Nat → Nat)
    (mf : Nat → FVal α) (vf : Nat → α) (K : Nat) (mu b W nu gam : Nat → α)
    (nm skip lkp : Nat → Nat) (lp : Nat → FVal α) (ic : Nat) (hK : 1 ≤ K)
    (scr scr' : Scratch α) (g1 g2 : Nat → FVal α) :
    call_INUgrads m ok1 ok2 ok3 nf mf vf K mu b W nu gam nm skip lkp lp ic scr g1 g2
      = call_INUgrads m ok1 ok2 ok3 nf mf vf K mu b W nu gam nm skip lkp lp ic scr' g1 g2 := by
  unfold call_INUgrads
  dsimp only
  by_cases hb : boundFails (nf 3) K
  · rw [if_pos hb, if_pos hb]
  · rw [if_neg hb, if_neg hb]
    cases hsub : sub_gmm m ok1 ok2 (nf 3) K mu b W nu gam with
    | none => rfl
    | some gb =>
      dsimp only
      have hg : ∀ code, code < 2 ^ nf 3 → (gb.1 code).P = bitcount (nf 3) code :=
        fun code hc => by
          rw [sub_gmm_some_tbl m ok1 ok2 (nf 3) K mu b W nu gam gb hsub]
          exact allocate_gmm_P (nf 3) K code hc
      rw [INUgrads_scr m nf mf vf K gb.1 gb.2 nm skip lkp lp
        (make_index (nf 3) ic (fun _ => 0)) hg hK
        (fun code hc h => make_index_below (nf 3) ic _ code hc h) scr scr']

/-- With no class, `suffstats_missing` on a volume of one voxel with one finite channel
returns `log(0) + p[0]`, `p[0]` being what the local array `p` held on entry. -/
theorem suffstats_missing_noclass (m : Libm α) (gmm : Nat → GMMtype) (buf : Nat → α)
    (lkp : Nat → Nat) (lp : Nat → FVal α) (suffstat : Nat → SStype) (scr : Scratch α)
    (st : Stats α) :
    (suffstats_missing m (fun _ => 1) (fun _ => FVal.fin 1) (fun _ => 1) 0 gmm buf
      (fun _ => 1) (fun _ => 1) lkp lp suffstat scr st).1 = m.log 0 + scr.p 0 := by
  have hcode : ∀ s : SSstate α, (get_vox (1 * 1 * 1) 1
      (shift (fun _ => FVal.fin (1 : α)) (0 + 1 * (0 + 1 * 0)))
      (shift (fun _ => (1 : α)) (0 + 1 * (0 + 1 * 0))) s.scr.mx s.scr.vx).code > 0 := fun s => by
    refine Nat.pos_of_ne_zero (fun h0 => ?_)
    have := (get_vox_code_zero_iff _ _ _ _ _ _).mp h0 0 (by decide)
    exact Bool.noConfusion this
  have hext : ∀ d, extent (fun _ => 1) (fun _ => 1) (fun _ => 1) d = 1 := fun d => by
    unfold extent; simp
  unfold suffstats_missing suffstats_pass
  simp only [hext, forUp_succ, forUp_zero]
  rw [(suffstats_voxel_noclass _ _ _ _ _ _ _ _ _ _ _ _ _ _ (hcode _)).1]
  simp

/-- With one class, the value that `Nresp` returns is `log(fastexp(0))` plus the logit of
the class. -/
theorem Nresp_one_class (m : Libm α) (gmm : Nat → GMMtype) (buf : Nat → α) (code : Nat)
    (x v p : Nat → α) :
    (Nresp m 1 gmm buf code x v p).1
      = m.log (0 + fastexp m 0) + (p 0 + (buf ((gmm code).conN + 0)
          - (1 / 2) * buf ((gmm code).nu + 0)
            * del2 (gmm code).P (shift buf ((gmm code).mu + 0 * (gmm code).P))
                (shift buf ((gmm code).W + 0 * ((gmm code).P * (gmm code).P))) x v)) := by
  unfold Nresp softmax1 softmax1_max
  simp only [forUp_succ, forUp_zero, forFrom_self, Function.update_same, sub_self]

/-- The quadratic form of `del2` for three channels, unit precision entries and unit
means. -/
theorem del2_three_ones (x v : Nat → α) :
    del2 3 (fun _ => 1) (fun _ => 1) x v
      = 1 * ((x 0 - 1) * (x 0 - 1) + v 0) + 2 * (x 0 - 1) * 1 * (x 1 - 1)
        + 2 * (x 0 - 1) * 1 * (x 2 - 1)
        + 1 * ((x 1 - 1) * (x 1 - 1) + v 1) + 2 * (x 1 - 1) * 1 * (x 2 - 1)
        + 1 * ((x 2 - 1) * (x 2 - 1) + v 2) := by
  unfold del2
  have e1 : ∀ (b : Nat → α → α) (s : α), forFrom 1 3 b s = b 2 (b 1 s) := fun b s => by
    rw [forFrom_succ 1 2 (by decide), forFrom_succ 1 1 (by decide), forFrom_self]
  have e2 : ∀ (b : Nat → α → α) (s : α), forFrom 2 3 b s = b 2 s := fun b s => by
    rw [forFrom_succ 2 2 (by decide), forFrom_self]
  simp only [forUp_succ, forUp_zero, Nat.zero_add, e1, e2, forFrom_self]
  ring

/-- On a volume of one voxel with seven channels of which channels `0` and `6` are
observed (pattern `65`), one class, and a table entry of dimension `3` for the pattern,
`suffstats_missing` returns a value that holds the cells `mx[2]`, `vx[2]` of its local
arrays as they were on entry: `get_vox` packs two means, `Nresp` reads three. -/
theorem suffstats_missing_stale (m : Libm α) (gmm : Nat → GMMtype) (o : Nat)
    (hg : gmm 65 = gmmEntry 1 3 o) (suffstat : Nat → SStype) (scr : Scratch α) (st : Stats α) :
    (suffstats_missing m (fun d => if d = 3 then 7 else 1)
      (fun j => if j = 0 ∨ j = 6 then FVal.fin 1 else FVal.nan) (fun _ => 0) 1 gmm (fun _ => 1)
      (fun _ => 1) (fun _ => 1) (fun k => k) (fun _ => FVal.fin 0) suffstat scr st).1
      = m.log (0 + fastexp m 0)
        + (0 + (1 - 1 / 2 * 1 * ((scr.mx 2 - 1) * (scr.mx 2 - 1) + scr.vx 2))) := by
  have hext : ∀ d, d < 3 → extent (fun d => if d = 3 then 7 else 1) (fun _ => 1) (fun _ => 1) d
      = 1 := fun d hd => by
    unfold extent
    have : d ≠ 3 := by omega
    simp [this]
  have hvox : ∀ x v : Nat → α, get_vox 1 7
      (shift (fun j => if j = 0 ∨ j = 6 then FVal.fin (1 : α) else FVal.nan) 0)
      (shift (fun _ => (0 : α)) 0) x v
      = ⟨2, 65, Function.update (Function.update x 0 1) 1 1,
          Function.update (Function.update v 0 0) 1 0⟩ := fun x v => by
    simp [get_vox, forUp_succ, forUp_zero, get_vox_step, shift]
  have hpr : ∀ p : Nat → α, get_priors 1 (shift (fun _ => FVal.fin (0 : α)) 0) 1 (fun k => k) p
      = (true, Function.update p 0 0) := fun p => rfl
  have hs : ∀ o : Nat, shift (fun _ : Nat => (1 : α)) o = fun _ => 1 := fun _ => rfl
  unfold suffstats_missing suffstats_pass
  simp only [hext 0 (by decide), hext 1 (by decide), hext 2 (by decide), forUp_succ, forUp_zero,
    if_true]
  unfold suffstats_voxel
  simp [hvox, hpr, Nresp_one_class, hg, gmmEntry, hs, del2_three_ones]

/-- With one class, the responsibility that `Nresp` leaves in `p[0]` is
`fastexp(0) / (0 + fastexp(0))`. -/
theorem Nresp_one_class_p (m : Libm α) (gmm : Nat → GMMtype) (buf : Nat → α) (code : Nat)
    (x v p : Nat → α) :
    (Nresp m 1 gmm buf code x v p).2 0 = fastexp m 0 / (0 + fastexp m 0) := by
  unfold Nresp softmax1 softmax1_max
  simp only [forUp_succ, forUp_zero, forFrom_self, Function.update_same, sub_self]

/-- On a volume of one voxel with two observed channels (pattern `3`, dimension `2`) and one
class, with an index array that sends the pattern to position `2`, `INUgrads` writes a
gradient that holds the cell `vx[2]` of its local array as it was on entry: `get_vox` packs
two variances, the gradient reads the third. -/
theorem INUgrads_stale (m : Libm α) (hm : m.ExpOk) (gmm : Nat → GMMtype) (o : Nat)
    (hg : gmm 3 = gmmEntry 1 2 o) (index : Nat → Nat) (hi : index 3 = 2) (scr : Scratch α)
    (g1 g2 : Nat → FVal α) :
    (INUgrads m (fun d => if d = 3 then 2 else 1) (fun _ => FVal.fin 1) (fun _ => 0) 1 gmm
      (fun _ => 1) (fun _ => 1) (fun _ => 1) (fun k => k) (fun _ => FVal.fin 0) index scr
      g1 g2).2.1 0 = FVal.fin (scr.vx 2 - 1) := by
  have hext : ∀ d, d < 3 → extent (fun d => if d = 3 then 2 else 1) (fun _ => 1) (fun _ => 1) d
      = 1 := fun d hd => by
    unfold extent
    have : d ≠ 3 := by omega
    simp [this]
  have hvox : ∀ x v : Nat → α, get_vox 1 2 (shift (fun _ => FVal.fin (1 : α)) 0)
      (shift (fun _ => (0 : α)) 0) x v
      = ⟨2, 3, Function.update (Function.update x 0 1) 1 1,
          Function.update (Function.update v 0 0) 1 0⟩ := fun x v => by
    simp [get_vox, forUp_succ, forUp_zero, get_vox_step, shift]
  have hpr : ∀ p : Nat → α, get_priors 1 (shift (fun _ => FVal.fin (0 : α)) 0) 1 (fun k => k) p
      = (true, Function.update p 0 0) := fun p => rfl
  have hb : ¬ boundFails 2 1 := by decide
  have hU : (2 : Nat) ≠ Undefined := by decide
  unfold INUgrads
  simp only [if_true, if_neg hb]
  simp only [hext 0 (by decide), hext 1 (by decide), hext 2 (by decide), forUp_succ, forUp_zero]
  unfold INUgrads_voxel
  simp [hvox, hpr, hi, hU, hg, gmmEntry, Nresp_one_class_p, fastexp_zero m hm, forUp_succ,
    forUp_zero]

end Lemmas13

/-! ## The claims -/

section Claims

variable {α : Type} [LinearOrderedField α] [FloorRing α]

/-- C1: for `suffstats_missing` run on zeroed statistics buffers (with the layout of
`suffstat_pointers` and a pattern table whose dimensions are the bit counts of the codes):
for every pattern `code` in `[1, 2^P)` and class `k < K`, `s0[code][k]` is the sum of the
responsibility `p_k` over the contributing voxels of pattern `code`, `s1[code][k][j]` the
sum of `p_k * x_j`, and `s2[code][k][j1, j]` the sum of `p_k * (x_j * x_j1)` for `j1 ≠ j`
and of `p_k * (x_j^2 + v_j)` for `j1 = j`, with `x`, `v` the packed observed means and
variances and `p` the Normal-kernel responsibilities of each voxel. -/
theorem C1_suffstats_are_weighted_sums (m : Libm α) (nf : Nat → Nat) (mf : Nat → FVal α)
    (vf : Nat → α) (K : Nat) (gmm : Nat → GMMtype) (buf : Nat → α) (nm skip lkp : Nat → Nat)
    (lp : Nat → FVal α) (scr : Scratch α)
    (hg : ∀ code, code < 2 ^ nf 3 → (gmm code).P = bitcount (nf 3) code)
    (code k : Nat) (hc1 : 1 ≤ code) (hc : code < 2 ^ nf 3) (hk : k < K) :
    (suffstats_missing m nf mf vf K gmm buf nm skip lkp lp (suffstat_pointers_loop (nf 3) K).tbl
        scr ⟨fun _ => 0, fun _ => 0, fun _ => 0⟩).2.s0
        (((suffstat_pointers_loop (nf 3) K).tbl code).s0 + k)
      = latticeSum nf nm skip (fun i im =>
          if contributes (nf 0 * nf 1 * nf 2) (nf 3) K mf vf (nm 0 * nm 1 * nm 2) lkp lp i im ∧
              voxCode (nf 0 * nf 1 * nf 2) (nf 3) mf vf i = code then
            (voxNresp m (nf 0 * nf 1 * nf 2) (nf 3) K mf vf gmm buf (nm 0 * nm 1 * nm 2)
              lkp lp i im).2 k
          else 0) ∧
    (∀ j, j < (gmm code).P →
      (suffstats_missing m nf mf vf K gmm buf nm skip lkp lp (suffstat_pointers_loop (nf 3) K).tbl
        scr ⟨fun _ => 0, fun _ => 0, fun _ => 0⟩).2.s1
        (((suffstat_pointers_loop (nf 3) K).tbl code).s1 + k * (gmm code).P + j)
      = latticeSum nf nm skip (fun i im =>
          if contributes (nf 0 * nf 1 * nf 2) (nf 3) K mf vf (nm 0 * nm 1 * nm 2) lkp lp i im ∧
              voxCode (nf 0 * nf 1 * nf 2) (nf 3) mf vf i = code then
            (voxNresp m (nf 0 * nf 1 * nf 2) (nf 3) K mf vf gmm buf (nm 0 * nm 1 * nm 2)
              lkp lp i im).2 k * voxX (nf 0 * nf 1 * nf 2) (nf 3) mf vf i j
          else 0)) ∧
    (∀ j j1, j < (gmm code).P → j1 < (gmm code).P →
      (suffstats_missing m nf mf vf K gmm buf nm skip lkp lp (suffstat_pointers_loop (nf 3) K).tbl
        scr ⟨fun _ => 0, fun _ => 0, fun _ => 0⟩).2.s2
        (((suffstat_pointers_loop (nf 3) K).tbl code).s2
          + k * ((gmm code).P * (gmm code).P) + (j1 + (gmm code).P * j))
      = latticeSum nf nm skip (fun i im =>
          if contributes (nf 0 * nf 1 * nf 2) (nf 3) K mf vf (nm 0 * nm 1 * nm 2) lkp lp i im ∧
              voxCode (nf 0 * nf 1 * nf 2) (nf 3) mf vf i = code then
            (if j1 = j then
              (voxNresp m (nf 0 * nf 1 * nf 2) (nf 3) K mf vf gmm buf (nm 0 * nm 1 * nm 2)
                lkp lp i im).2 k
              * (voxX (nf 0 * nf 1 * nf 2) (nf 3) mf vf i j * voxX (nf 0 * nf 1 * nf 2) (nf 3) mf vf i j
                + voxV (nf 0 * nf 1 * nf 2) (nf 3) mf vf i j)
            else
              (voxNresp m (nf 0 * nf 1 * nf 2) (nf 3) K mf vf gmm buf (nm 0 * nm 1 * nm 2)
                lkp lp i im).2 k
              * (voxX (nf 0 * nf 1 * nf 2) (nf 3) mf vf i j
                * voxX (nf 0 * nf 1 * nf 2) (nf 3) mf vf i j1))
          else 0)) := by
  unfold suffstats_missing
  simp only []
  refine ⟨?_, fun j hj => ?_, fun j j1 hj hj1 => ?_⟩
  · rw [pass_s0_eval m nf mf vf K gmm buf nm skip lkp lp hg _ code k hc hk]
    simp only [zero_add]
  · rw [pass_s1_eval m nf mf vf K gmm buf nm skip lkp lp hg _ code k j hc hk hj]
    simp only [zero_add]
  · rw [mirror_cell (nf 3) K gmm hg _ code k j1 j hc1 hc hk hj1 hj]
    by_cases hlt : j1 < j
    · simp only [hlt, if_true]
      rw [pass_s2_eval m nf mf vf K gmm buf nm skip lkp lp hg _ code k j j1 hc hk hj hj1]
      simp only [zero_add]
      refine latticeSum_congr _ _ _ _ _ (fun i im => ?_)
      have h1 : ¬ j = j1 := by omega
      have h2 : ¬ j1 = j := by omega
      simp only [h1, h2, hlt, if_true, if_false]
      by_cases hcon : contributes (nf 0 * nf 1 * nf 2) (nf 3) K mf vf (nm 0 * nm 1 * nm 2)
          lkp lp i im ∧ voxCode (nf 0 * nf 1 * nf 2) (nf 3) mf vf i = code
      · simp only [hcon, and_self, if_true]; ring
      · simp only [hcon, if_false]
    · simp only [hlt, if_false]
      rw [pass_s2_eval m nf mf vf K gmm buf nm skip lkp lp hg _ code k j1 j hc hk hj1 hj]
      simp only [zero_add]
      refine latticeSum_congr _ _ _ _ _ (fun i im => ?_)
      by_cases hcon : contributes (nf 0 * nf 1 * nf 2) (nf 3) K mf vf (nm 0 * nm 1 * nm 2)
          lkp lp i im ∧ voxCode (nf 0 * nf 1 * nf 2) (nf 3) mf vf i = code
      · simp only [hcon, and_self, if_true]
        by_cases he : j1 = j
        · simp only [he, if_true]
        · have h3 : j < j1 := by omega
          simp only [he, h3, if_true, if_false]; ring
      · simp only [hcon, if_false]

/-- Witness of C1 on the test volume, pattern 3, class 0. -/
theorem C1_suffstats_are_weighted_sums_witness :
    (∀ code, code < 2 ^ testNf 3 → ((allocate_gmm_loop 2 2).tbl code).P = bitcount (testNf 3) code) ∧
    1 ≤ 3 ∧ 3 < 2 ^ testNf 3 ∧ 0 < 2 ∧
    (suffstats_missing testLibm testNf testMf (fun _ => 1) 2 (allocate_gmm_loop 2 2).tbl
        (fun _ => 1) testNf (fun _ => 1) (fun k => k) testLp
        (suffstat_pointers_loop (testNf 3) 2).tbl testScr
        ⟨fun _ => 0, fun _ => 0, fun _ => 0⟩).2.s0
        (((suffstat_pointers_loop (testNf 3) 2).tbl 3).s0 + 0)
      = latticeSum testNf testNf (fun _ => 1) (fun i im =>
          if contributes (testNf 0 * testNf 1 * testNf 2) (testNf 3) 2 testMf (fun _ => 1)
              (testNf 0 * testNf 1 * testNf 2) (fun k => k) testLp i im ∧
              voxCode (testNf 0 * testNf 1 * testNf 2) (testNf 3) testMf (fun _ => 1) i = 3 then
            (voxNresp testLibm (testNf 0 * testNf 1 * testNf 2) (testNf 3) 2 testMf (fun _ => 1)
              (allocate_gmm_loop 2 2).tbl (fun _ => 1) (testNf 0 * testNf 1 * testNf 2)
              (fun k => k) testLp i im).2 0
          else 0) :=
  ⟨fun code h => allocate_gmm_P 2 2 code h, by decide, by decide, by decide, by
    have h := (C1_suffstats_are_weighted_sums testLibm testNf testMf (fun _ => 1) 2
      (allocate_gmm_loop 2 2).tbl (fun _ => 1) testNf (fun _ => 1) (fun k => k) testLp testScr
      (fun code h => allocate_gmm_P 2 2 code h) 3 0 (by decide) (by decide) (by decide)).1
    convert h using 5⟩

/-- C2: whatever the statistics buffers hold on entry, after `suffstats_missing` (with the
layout of `suffstat_pointers` and a pattern table whose dimensions are the bit counts of
the codes) every block of `s2` is symmetric: for `code` in `[1, 2^P)`, `k < K` and
`j, j1 < Po(code)`, `s2[code][k][j, j1] = s2[code][k][j1, j]`. -/
theorem C2_s2_symmetric (m : Libm α) (nf : Nat → Nat) (mf : Nat → FVal α)
    (vf : Nat → α) (K : Nat) (gmm : Nat → GMMtype) (buf : Nat → α) (nm skip lkp : Nat → Nat)
    (lp : Nat → FVal α) (scr : Scratch α) (st : Stats α)
    (hg : ∀ code, code < 2 ^ nf 3 → (gmm code).P = bitcount (nf 3) code)
    (code k j j1 : Nat) (hc1 : 1 ≤ code) (hc : code < 2 ^ nf 3) (hk : k < K)
    (hj : j < (gmm code).P) (hj1 : j1 < (gmm code).P) :
    (suffstats_missing m nf mf vf K gmm buf nm skip lkp lp (suffstat_pointers_loop (nf 3) K).tbl
        scr st).2.s2
        (((suffstat_pointers_loop (nf 3) K).tbl code).s2
          + k * ((gmm code).P * (gmm code).P) + (j + (gmm code).P * j1))
    = (suffstats_missing m nf mf vf K gmm buf nm skip lkp lp (suffstat_pointers_loop (nf 3) K).tbl
        scr st).2.s2
        (((suffstat_pointers_loop (nf 3) K).tbl code).s2
          + k * ((gmm code).P * (gmm code).P) + (j1 + (gmm code).P * j)) := by
  unfold suffstats_missing
  simp only []
  rw [mirror_cell (nf 3) K gmm hg _ code k j j1 hc1 hc hk hj hj1,
    mirror_cell (nf 3) K gmm hg _ code k j1 j hc1 hc hk hj1 hj]
  rcases Nat.lt_trichotomy j j1 with h | h | h
  · have h' : ¬ j1 < j := by omega
    simp only [h, h', if_true, if_false]
  · subst h; rfl
  · have h' : ¬ j < j1 := by omega
    simp only [h, h', if_true, if_false]

/-- Witness of C2 on the test volume, pattern 3, class 1, cells `(0, 1)` and `(1, 0)`. -/
theorem C2_s2_symmetric_witness :
    (∀ code, code < 2 ^ testNf 3 → ((allocate_gmm_loop 2 2).tbl code).P = bitcount (testNf 3) code) ∧
    1 ≤ 3 ∧ 3 < 2 ^ testNf 3 ∧ 1 < 2 ∧
    0 < ((allocate_gmm_loop 2 2).tbl 3).P ∧ 1 < ((allocate_gmm_loop 2 2).tbl 3).P ∧
    (suffstats_missing testLibm testNf testMf (fun _ => 1) 2 (allocate_gmm_loop 2 2).tbl
        (fun _ => 1) testNf (fun _ => 1) (fun k => k) testLp
        (suffstat_pointers_loop (testNf 3) 2).tbl testScr testStats).2.s2
        (((suffstat_pointers_loop (testNf 3) 2).tbl 3).s2
          + 1 * (((allocate_gmm_loop 2 2).tbl 3).P * ((allocate_gmm_loop 2 2).tbl 3).P)
          + (0 + ((allocate_gmm_loop 2 2).tbl 3).P * 1))
    = (suffstats_missing testLibm testNf testMf (fun _ => 1) 2 (allocate_gmm_loop 2 2).tbl
        (fun _ => 1) testNf (fun _ => 1) (fun k => k) testLp
        (suffstat_pointers_loop (testNf 3) 2).tbl testScr testStats).2.s2
        (((suffstat_pointers_loop (testNf 3) 2).tbl 3).s2
          + 1 * (((allocate_gmm_loop 2 2).tbl 3).P * ((allocate_gmm_loop 2 2).tbl 3).P)
          + (1 + ((allocate_gmm_loop 2 2).tbl 3).P * 0)) :=
  have hP : ((allocate_gmm_loop 2 2).tbl 3).P = 2 := by
    rw [allocate_gmm_P 2 2 3 (by decide)]; decide
  ⟨fun code h => allocate_gmm_P 2 2 code h, by decide, by decide, by decide,
    by rw [hP]; decide, by rw [hP]; decide,
    C2_s2_symmetric testLibm testNf testMf (fun _ => 1) 2
      (allocate_gmm_loop 2 2).tbl (fun _ => 1) testNf (fun _ => 1) (fun k => k) testLp testScr
      testStats (fun code h => allocate_gmm_P 2 2 code h) 3 1 0 1 (by decide) (by decide)
      (by decide) (by rw [hP]; decide) (by rw [hP]; decide)⟩

/-- C3: for every `K ≥ 1` and every input, the vector `p` left by `Nresp` and the vector
left by `Tresp` have all entries in `(0, 1]` and sum to exactly one (exact arithmetic,
libm `exp` positive with `exp 0 = 1`); the arguments that `softmax1` exponentiates are
`≤ 0`, one of them is `0`, and its normaliser is `≥ 1`. -/
theorem C3_responsibilities_sum_to_one (m : Libm α) (hm : m.ExpOk) (K : Nat) (hK : 1 ≤ K)
    (gmm : Nat → GMMtype) (buf : Nat → α) (code : Nat) (x v p : Nat → α) :
    ((∀ k, k < K → 0 < (Nresp m K gmm buf code x v p).2 k ∧
        (Nresp m K gmm buf code x v p).2 k ≤ 1) ∧
      Finset.sum (Finset.range K) (fun k => (Nresp m K gmm buf code x v p).2 k) = 1) ∧
    ((∀ k, k < K → 0 < (Tresp m K gmm buf code x v p).2 k ∧
        (Tresp m K gmm buf code x v p).2 k ≤ 1) ∧
      Finset.sum (Finset.range K) (fun k => (Tresp m K gmm buf code x v p).2 k) = 1) ∧
    (∀ q : Nat → α, (∀ k, k < K → q k - softmax1_max K q ≤ 0) ∧
      (∃ k, k < K ∧ q k - softmax1_max K q = 0) ∧ 1 ≤ softmax1_norm m K q ∧
      (softmax1 m K q q).1 = m.log (softmax1_norm m K q) + softmax1_max K q) := by
  refine ⟨softmax1_closure m hm K hK _ _, softmax1_closure m hm K hK _ _, fun q => ?_⟩
  obtain ⟨n, rfl⟩ : ∃ n, K = n + 1 := ⟨K - 1, by omega⟩
  obtain ⟨h1, k0, hk0, h2⟩ := softmax1_max_spec q n
  refine ⟨fun k hk => sub_nonpos.mpr (h1 k hk), ⟨k0, hk0, by rw [h2, sub_self]⟩,
    softmax1_norm_ge_one m hm _ hK q, ?_⟩
  rw [softmax1_eq]

/-- Witness of C3 on the rational instance with two classes. -/
theorem C3_responsibilities_sum_to_one_witness :
    testLibm.ExpOk ∧ 1 ≤ 2 ∧
    Finset.sum (Finset.range 2) (fun k =>
      (Nresp testLibm 2 (fun _ => ⟨1, 0, 2, 4, 6, 8, 10, 12⟩) (fun _ => (1 : ℚ)) 1
        (fun _ => 3) (fun _ => 1) (fun k => (k : ℚ))).2 k) = 1 :=
  ⟨testLibm_expOk, by decide,
    (C3_responsibilities_sum_to_one testLibm testLibm_expOk 2 (by decide)
      (fun _ => ⟨1, 0, 2, 4, 6, 8, 10, 12⟩) (fun _ => (1 : ℚ)) 1
      (fun _ => 3) (fun _ => 1) (fun k => (k : ℚ))).1.2⟩

/-- C4: when `P ≥ 50` or `K ≥ 128`, each of `call_suffstats_missing`,
`call_responsibilities` and `call_INUgrads` returns NaN and leaves its output buffers
(`s0, s1, s2`; `r`; `g1, g2`) as they were on entry. -/
theorem C4_bound_violation_returns_nan (m : Libm α) (ok1 ok2 ok3 : Bool) (nf : Nat → Nat)
    (mf : Nat → FVal α) (vf : Nat → α) (K : Nat) (mu b W nu gam : Nat → α)
    (nm skip lkp : Nat → Nat) (lp : Nat → FVal α) (K1 ic : Nat) (scr : Scratch α)
    (st : Stats α) (r g1 g2 : Nat → FVal α) (h : nf 3 ≥ 50 ∨ K ≥ 128) :
    call_suffstats_missing m ok1 ok2 ok3 nf mf vf K mu b W nu gam nm skip lkp lp scr st
      = (FVal.nan, st) ∧
    call_responsibilities m ok1 ok2 nf skip mf vf K mu b W nu gam K1 lkp lp scr r
      = (FVal.nan, r) ∧
    call_INUgrads m ok1 ok2 ok3 nf mf vf K mu b W nu gam nm skip lkp lp ic scr g1 g2
      = (FVal.nan, g1, g2) := by
  have hb : boundFails (nf 3) K := h
  refine ⟨?_, ?_, ?_⟩
  · unfold call_suffstats_missing; simp only [hb, if_true]
  · unfold call_responsibilities; simp only [hb, if_true]
  · unfold call_INUgrads; simp only [hb, if_true]

/-- Witness of C4 with `P = 50`, `K = 2`. -/
theorem C4_bound_violation_returns_nan_witness :
    ((fun d => if d = 3 then 50 else 2 : Nat → Nat) 3 ≥ 50 ∨ 2 ≥ 128) ∧
    call_suffstats_missing testLibm true true true (fun d => if d = 3 then 50 else 2)
      (fun _ => FVal.fin 1) (fun _ => 1) 2 (fun _ => 1) (fun _ => 1) (fun _ => 1) (fun _ => 60)
      (fun _ => 1) (fun d => if d = 3 then 2 else 2) (fun _ => 1) (fun k => k) (fun _ => FVal.fin 0)
      ⟨fun _ => 0, fun _ => 0, fun _ => 0⟩ ⟨fun _ => 5, fun _ => 6, fun _ => 7⟩
      = (FVal.nan, ⟨fun _ => 5, fun _ => 6, fun _ => 7⟩) :=
  ⟨by decide,
    (C4_bound_violation_returns_nan testLibm true true true (fun d => if d = 3 then 50 else 2)
      (fun _ => FVal.fin 1) (fun _ => 1) 2 (fun _ => 1) (fun _ => 1) (fun _ => 1) (fun _ => 60)
      (fun _ => 1) (fun d => if d = 3 then 2 else 2) (fun _ => 1) (fun k => k) (fun _ => FVal.fin 0)
      2 0 ⟨fun _ => 0, fun _ => 0, fun _ => 0⟩ ⟨fun _ => 5, fun _ => 6, fun _ => 7⟩
      (fun _ => FVal.nan) (fun _ => FVal.nan) (fun _ => FVal.nan) (by decide)).1⟩

/-- C5 as stated fails: with `P = 50` (and `K = 1`), and with `K = 128` (and `P = 1`),
`call_suffstats_missing` is failed by the bound check although neither `P > 50` nor
`K > 128`. -/
theorem C5_counterexample :
    ((call_suffstats_missing testLibm true true true (fun d => if d = 3 then 50 else 1)
      (fun _ => FVal.fin 1) (fun _ => 1) 1 (fun _ => 1) (fun _ => 1) (fun _ => 1) (fun _ => 60)
      (fun _ => 1) (fun _ => 1) (fun _ => 1) (fun _ => 0) (fun _ => FVal.fin 0)
      ⟨fun _ => 0, fun _ => 0, fun _ => 0⟩ ⟨fun _ => 0, fun _ => 0, fun _ => 0⟩).1 = FVal.nan ∧
      boundFails 50 1 ∧ ¬ (50 > 50 ∨ 1 > 128)) ∧
    ((call_suffstats_missing testLibm true true true (fun _ => 1)
      (fun _ => FVal.fin 1) (fun _ => 1) 128 (fun _ => 1) (fun _ => 1) (fun _ => 1) (fun _ => 60)
      (fun _ => 1) (fun _ => 1) (fun _ => 1) (fun _ => 0) (fun _ => FVal.fin 0)
      ⟨fun _ => 0, fun _ => 0, fun _ => 0⟩ ⟨fun _ => 0, fun _ => 0, fun _ => 0⟩).1 = FVal.nan ∧
      boundFails 1 128 ∧ ¬ (1 > 50 ∨ 128 > 128)) := by
  refine ⟨⟨?_, by decide, by decide⟩, ⟨?_, by decide, by decide⟩⟩
  · have hb : boundFails 50 1 := by decide
    simp [call_suffstats_missing, hb]
  · have hb : boundFails 1 128 := by decide
    simp [call_suffstats_missing, hb]

/-- C5 (amended): the bound check of every entry point accepts a channel count `P` up to
and including 49 and a class count `K` up to and including 127; with every allocation
succeeding, each entry point returns NaN exactly when `P ≥ 50` or `K ≥ 128`. -/
theorem C5_bound_check_exact (m : Libm α) (nf : Nat → Nat)
    (mf : Nat → FVal α) (vf : Nat → α) (K : Nat) (mu b W nu gam : Nat → α)
    (nm skip lkp : Nat → Nat) (lp : Nat → FVal α) (K1 ic : Nat) (scr : Scratch α)
    (st : Stats α) (r g1 g2 : Nat → FVal α) :
    (boundFails (nf 3) K ↔ (nf 3 ≥ 50 ∨ K ≥ 128)) ∧
    ((call_suffstats_missing m true true true nf mf vf K mu b W nu gam nm skip lkp lp scr st).1
      = FVal.nan ↔ ¬ (nf 3 ≤ 49 ∧ K ≤ 127)) ∧
    ((call_responsibilities m true true nf skip mf vf K mu b W nu gam K1 lkp lp scr r).1
      = FVal.nan ↔ ¬ (nf 3 ≤ 49 ∧ K ≤ 127)) ∧
    ((call_INUgrads m true true true nf mf vf K mu b W nu gam nm skip lkp lp ic scr g1 g2).1
      = FVal.nan ↔ ¬ (nf 3 ≤ 49 ∧ K ≤ 127)) := by
  have hiff : boundFails (nf 3) K ↔ ¬ (nf 3 ≤ 49 ∧ K ≤ 127) := by
    unfold boundFails MaxChan; omega
  refine ⟨Iff.rfl, ?_, ?_, ?_⟩
  · rw [← hiff]
    by_cases hb : boundFails (nf 3) K
    · simp [call_suffstats_missing, hb]
    · simp [call_suffstats_missing, hb, sub_gmm, allocate_gmm, suffstat_pointers]
  · rw [← hiff]
    by_cases hb : boundFails (nf 3) K
    · simp [call_responsibilities, hb]
    · simp [call_responsibilities, hb, sub_gmm, allocate_gmm]
  · rw [← hiff]
    by_cases hb : boundFails (nf 3) K
    · simp [call_INUgrads, hb]
    · simp [call_INUgrads, hb, sub_gmm, allocate_gmm]

/-- C6: for `P ≤ 10` and `1 ≤ K ≤ 20`, the sizes returned by `space_needed P K` are the
final offsets reached by `suffstat_pointers`; the region of pattern `code` in `s0` starts
at `K * code`; and in each of the three buffers the regions of the patterns (of `K`,
`K * Po` and `K * Po * Po` elements, `Po = bitcount P code`) come in increasing code order,
are pairwise disjoint and cover exactly `[0, m0)`, `[0, m1)`, `[0, m2)`. -/
theorem C6_sizes_match_layout (P K : Nat) (hP : P ≤ 10) (hK1 : 1 ≤ K) (hK : K ≤ 20) :
    space_needed P K = some ((suffstat_pointers_loop P K).o0, (suffstat_pointers_loop P K).o1,
      (suffstat_pointers_loop P K).o2) ∧
    suffstat_pointers true P K = some (suffstat_pointers_loop P K).tbl ∧
    (∀ code, code < 2 ^ P → ((suffstat_pointers_loop P K).tbl code).s0 = K * code) ∧
    Tiles (2 ^ P) (fun c => ((suffstat_pointers_loop P K).tbl c).s0) (fun _ => K)
      (suffstat_pointers_loop P K).o0 ∧
    Tiles (2 ^ P) (fun c => ((suffstat_pointers_loop P K).tbl c).s1)
      (fun c => K * bitcount P c) (suffstat_pointers_loop P K).o1 ∧
    Tiles (2 ^ P) (fun c => ((suffstat_pointers_loop P K).tbl c).s2)
      (fun c => K * bitcount P c * bitcount P c) (suffstat_pointers_loop P K).o2 := by
  have hl := suffstat_loop_spec P K (1 <<< P)
  rw [Nat.one_shiftLeft] at hl
  obtain ⟨h0, h1, h2, _⟩ := hl
  have e0 : (suffstat_pointers_loop P K).o0 = K * 2 ^ P := by
    unfold suffstat_pointers_loop; rw [Nat.one_shiftLeft]; exact h0
  have e1 : (suffstat_pointers_loop P K).o1 = offsetOf (fun c => K * bitcount P c) (2 ^ P) := by
    unfold suffstat_pointers_loop; rw [Nat.one_shiftLeft]; exact h1
  have e2 : (suffstat_pointers_loop P K).o2
      = offsetOf (fun c => K * bitcount P c * bitcount P c) (2 ^ P) := by
    unfold suffstat_pointers_loop; rw [Nat.one_shiftLeft]; exact h2
  refine ⟨?_, by simp [suffstat_pointers], fun code hc => by rw [suffstat_tbl P K code hc],
    ?_, ?_, ?_⟩
  · rw [space_needed_small P K hP hK, e0, e1, e2, offsetOf_mul]
    have e3 : (fun c => K * bitcount P c * bitcount P c)
        = fun c => K * (bitcount P c * bitcount P c) := by
      funext c; ring
    rw [e3, offsetOf_mul, (bitcount_sums_small P hP).1, (bitcount_sums_small P hP).2]
  · rw [e0, ← offsetOf_const]
    refine Tiles_congr (offsetOf_tiles (fun _ => K) (2 ^ P)) (fun c hc => ?_)
    rw [suffstat_tbl P K c hc, offsetOf_const]
  · rw [e1]
    refine Tiles_congr (offsetOf_tiles _ (2 ^ P)) (fun c hc => ?_)
    rw [suffstat_tbl P K c hc]
  · rw [e2]
    refine Tiles_congr (offsetOf_tiles _ (2 ^ P)) (fun c hc => ?_)
    rw [suffstat_tbl P K c hc]

/-- Witness of C6 at `P = 2`, `K = 3`. -/
theorem C6_sizes_match_layout_witness :
    2 ≤ 10 ∧ 1 ≤ 3 ∧ 3 ≤ 20 ∧
    space_needed 2 3 = some ((suffstat_pointers_loop 2 3).o0, (suffstat_pointers_loop 2 3).o1,
      (suffstat_pointers_loop 2 3).o2) :=
  ⟨by decide, by decide, by decide,
    (C6_sizes_match_layout 2 3 (by decide) (by decide) (by decide)).1⟩

/-- C7: in `suffstats_missing`, a voxel with no finite channel mean or with a non-finite
prior entry leaves the log-likelihood and all three statistics buffers as they are; the
`s0` cells of pattern 0 (the only cells pattern 0 has) are the same after a pass as before
it; and a pass in which every visited voxel is skipped returns 0, with `s0`, `s1` and the
diagonal and lower triangle of `s2` unchanged. -/
theorem C7_skipped_voxels_change_nothing (m : Libm α) (nf : Nat → Nat) (mf : Nat → FVal α)
    (vf : Nat → α) (K : Nat) (gmm : Nat → GMMtype) (buf : Nat → α) (nm skip lkp : Nat → Nat)
    (lp : Nat → FVal α) (scr : Scratch α) (st : Stats α)
    (hg : ∀ code, code < 2 ^ nf 3 → (gmm code).P = bitcount (nf 3) code) :
    (∀ (i im : Nat) (s : SSstate α),
      ((∀ j, j < nf 3 → (mf (i + j * (nf 0 * nf 1 * nf 2))).isfinite = false) ∨
       (∃ k, k < K ∧ (lp (im + nm 0 * nm 1 * nm 2 * lkp k)).isfinite = false)) →
      (suffstats_voxel m (nf 0 * nf 1 * nf 2) (nf 3) K mf vf gmm buf (nm 0 * nm 1 * nm 2)
        lkp lp (suffstat_pointers_loop (nf 3) K).tbl i im s).ll = s.ll ∧
      (suffstats_voxel m (nf 0 * nf 1 * nf 2) (nf 3) K mf vf gmm buf (nm 0 * nm 1 * nm 2)
        lkp lp (suffstat_pointers_loop (nf 3) K).tbl i im s).st = s.st) ∧
    (((suffstat_pointers_loop (nf 3) K).tbl 0).s0 = 0 ∧ (gmm 0).P = 0 ∧
      ∀ idx, idx < K →
        (suffstats_missing m nf mf vf K gmm buf nm skip lkp lp
          (suffstat_pointers_loop (nf 3) K).tbl scr st).2.s0 idx = st.s0 idx) ∧
    ((∀ i2, i2 < extent nf nm skip 2 → ∀ i1, i1 < extent nf nm skip 1 →
        ∀ i0, i0 < extent nf nm skip 0 →
        ((∀ j, j < nf 3 →
            (mf (i0 + nf 0 * (i1 + nf 1 * i2) + j * (nf 0 * nf 1 * nf 2))).isfinite = false) ∨
         (∃ k, k < K ∧
            (lp (i0 * skip 0 + nm 0 * (i1 * skip 1 + nm 1 * i2 * skip 2)
              + nm 0 * nm 1 * nm 2 * lkp k)).isfinite = false))) →
      (suffstats_missing m nf mf vf K gmm buf nm skip lkp lp
        (suffstat_pointers_loop (nf 3) K).tbl scr st).1 = 0 ∧
      (suffstats_missing m nf mf vf K gmm buf nm skip lkp lp
        (suffstat_pointers_loop (nf 3) K).tbl scr st).2.s0 = st.s0 ∧
      (suffstats_missing m nf mf vf K gmm buf nm skip lkp lp
        (suffstat_pointers_loop (nf 3) K).tbl scr st).2.s1 = st.s1 ∧
      ∀ code k a b, 1 ≤ code → code < 2 ^ nf 3 → k < K → a < (gmm code).P → b ≤ a →
        (suffstats_missing m nf mf vf K gmm buf nm skip lkp lp
          (suffstat_pointers_loop (nf 3) K).tbl scr st).2.s2
          (((suffstat_pointers_loop (nf 3) K).tbl code).s2
            + k * ((gmm code).P * (gmm code).P) + (a + (gmm code).P * b))
        = st.s2 (((suffstat_pointers_loop (nf 3) K).tbl code).s2
            + k * ((gmm code).P * (gmm code).P) + (a + (gmm code).P * b))) := by
  have hpos : 0 < 2 ^ nf 3 := Nat.two_pow_pos (nf 3)
  refine ⟨fun i im s h => ?_, ⟨?_, ?_, fun idx hidx => ?_⟩, fun h => ?_⟩
  · exact suffstats_voxel_skip m _ _ K mf vf gmm buf _ lkp lp _ i im s
      ((not_contributes_iff _ _ K mf vf _ lkp lp i im).mpr h)
  · rw [suffstat_tbl _ _ 0 hpos]; simp
  · rw [hg 0 hpos, bitcount_zero]
  · unfold suffstats_missing
    simp only []
    rw [suffstats_pass_acc m nf mf vf K gmm buf nm skip lkp lp _
      (fun s => s.st.s0 idx) _
      (fun i im s => suffstats_voxel_s0 m _ _ K mf vf gmm buf _ lkp lp _ hg i im s _)]
    rw [latticeSum_congr _ _ _ _ (fun _ _ => 0) (fun i im => ?_), latticeSum_zero, add_zero]
    by_cases hcon : contributes (nf 0 * nf 1 * nf 2) (nf 3) K mf vf (nm 0 * nm 1 * nm 2)
        lkp lp i im
    · simp only [hcon, if_true]
      refine scal_sum_zero K _ _ _ (fun r _ e => ?_)
      rw [suffstat_tbl _ _ _ (voxCode_lt _ _ mf vf i)] at e
      simp only [] at e
      have h1 : 1 ≤ voxCode (nf 0 * nf 1 * nf 2) (nf 3) mf vf i := hcon.1
      have h2 : K * 1 ≤ K * voxCode (nf 0 * nf 1 * nf 2) (nf 3) mf vf i :=
        Nat.mul_le_mul_left K h1
      omega
    · simp only [hcon, if_false]
  · have hs := suffstats_pass_skip m nf mf vf K gmm buf nm skip lkp lp
      (suffstat_pointers_loop (nf 3) K).tbl ⟨0, scr, st⟩
      (fun i2 h2 i1 h1 i0 h0 =>
        (not_contributes_iff _ _ K mf vf _ lkp lp _ _).mpr (h i2 h2 i1 h1 i0 h0))
    unfold suffstats_missing
    simp only []
    refine ⟨hs.1, by rw [hs.2], by rw [hs.2], fun code k a b hc1 hc hk ha hba => ?_⟩
    rw [mirror_cell (nf 3) K gmm hg _ code k a b hc1 hc hk ha (by omega)]
    have : ¬ a < b := by omega
    simp only [this, if_false]
    rw [hs.2]

/-- Witness of C7 on the test volume: the `s0` cells of pattern 0 are untouched. -/
theorem C7_skipped_voxels_change_nothing_witness :
    (∀ code, code < 2 ^ testNf 3 → ((allocate_gmm_loop 2 2).tbl code).P = bitcount (testNf 3) code) ∧
    ∀ idx, idx < 2 →
      (suffstats_missing testLibm testNf testMf (fun _ => 1) 2 (allocate_gmm_loop 2 2).tbl
        (fun _ => 1) testNf (fun _ => 1) (fun k => k) testLp
        (suffstat_pointers_loop (testNf 3) 2).tbl testScr testStats).2.s0 idx
      = testStats.s0 idx :=
  ⟨fun code h => allocate_gmm_P 2 2 code h,
    (C7_skipped_voxels_change_nothing testLibm testNf testMf (fun _ => 1) 2
      (allocate_gmm_loop 2 2).tbl (fun _ => 1) testNf (fun _ => 1) (fun k => k) testLp testScr
      testStats (fun code h => allocate_gmm_P 2 2 code h)).2.1.2.2⟩

/-- C8 as stated fails: on a `2 x 2 x 2` volume with `P = 2`, `K = 2`, where only voxel 3 has
channel 2 missing, with uniform priors and unit strides, the total occupancy returned by
`call_suffstats_missing` on zeroed buffers is not 7 (it is 8: the voxel with one missing
channel still contributes through pattern 1). -/
theorem C8_counterexample :
    Finset.sum (Finset.range 4) (fun code => Finset.sum (Finset.range 2) (fun k =>
      (call_suffstats_missing testLibm true true true (fun _ => 2)
        (fun i => if i = 11 then FVal.nan else FVal.fin 1) (fun _ => 1) 2
        (fun _ => 0) (fun _ => 1) (fun i => if i % 3 = 0 then 1 else 0) (fun _ => 3) (fun _ => 1)
        (fun _ => 2) (fun _ => 1) (fun k => k) (fun _ => FVal.fin (testLibm.log (1 / 2)))
        ⟨fun _ => 0, fun _ => 0, fun _ => 0⟩ ⟨fun _ => 0, fun _ => 0, fun _ => 0⟩).2.s0
        (((suffstat_pointers_loop 2 2).tbl code).s0 + k))) ≠ 7 := by
  have h := occupancy_P2K2 testLibm testLibm_expOk
    (fun i => if i = 11 then FVal.nan else FVal.fin 1) (fun _ => 1)
    (fun _ => 0) (fun _ => 1) (fun i => if i % 3 = 0 then 1 else 0) (fun _ => 3) (fun _ => 1)
    (fun k => k) (fun _ => FVal.fin (testLibm.log (1 / 2)))
    ⟨fun _ => 0, fun _ => 0, fun _ => 0⟩
    (fun i hi => by
      have : ¬ i = 11 := by omega
      simp [this, FVal.isfinite])
    (fun i => rfl)
  rw [h]
  norm_num

/-- C8 (amended): for `P = 2`, `K = 2` and a `2 x 2 x 2` volume in which exactly one voxel
has channel 2 missing (all other channel values finite), with uniform priors `log 0.5`
on a prior grid equal to the data grid, unit strides and zeroed statistics buffers, the
total occupancy `s0` summed over all patterns and classes returned by
`call_suffstats_missing` equals 8. -/
theorem C8_total_occupancy_is_eight (m : Libm α) (hm : m.ExpOk) (mf : Nat → FVal α)
    (vf : Nat → α) (mu b W nu gam : Nat → α) (lkp : Nat → Nat) (scr : Scratch α)
    (istar : Nat) (histar : istar < 8)
    (hfin : ∀ i j, i < 8 → j < 2 →
      ((mf (i + j * 8)).isfinite = true ↔ ¬ (i = istar ∧ j = 1))) :
    Finset.sum (Finset.range 4) (fun code => Finset.sum (Finset.range 2) (fun k =>
      (call_suffstats_missing m true true true (fun _ => 2) mf vf 2 mu b W nu gam
        (fun _ => 2) (fun _ => 1) lkp (fun _ => FVal.fin (m.log (1 / 2))) scr
        ⟨fun _ => 0, fun _ => 0, fun _ => 0⟩).2.s0
        (((suffstat_pointers_loop 2 2).tbl code).s0 + k))) = 8 :=
  occupancy_P2K2 m hm mf vf mu b W nu gam lkp _ scr
    (fun i hi => by
      have := (hfin i 0 hi (by omega)).mpr (by omega)
      simpa using this)
    (fun i => rfl)

/-- Witness of C8 (amended) on the test volume, whose voxel 3 has channel 2 missing. -/
theorem C8_total_occupancy_is_eight_witness :
    testLibm.ExpOk ∧ 3 < 8 ∧
    (∀ i j, i < 8 → j < 2 → ((testMf (i + j * 8)).isfinite = true ↔ ¬ (i = 3 ∧ j = 1))) ∧
    Finset.sum (Finset.range 4) (fun code => Finset.sum (Finset.range 2) (fun k =>
      (call_suffstats_missing testLibm true true true (fun _ => 2) testMf (fun _ => 1) 2
        (fun _ => 0) (fun _ => 1) (fun _ => 1) (fun _ => 3) (fun _ => 1)
        (fun _ => 2) (fun _ => 1) (fun k => k) (fun _ => FVal.fin (testLibm.log (1 / 2))) testScr
        ⟨fun _ => 0, fun _ => 0, fun _ => 0⟩).2.s0
        (((suffstat_pointers_loop 2 2).tbl code).s0 + k))) = 8 :=
  have hfin : ∀ i j, i < 8 → j < 2 →
      ((testMf (i + j * 8)).isfinite = true ↔ ¬ (i = 3 ∧ j = 1)) := by
    intro i j hi hj
    unfold testMf
    by_cases h : i + j * 8 = 11
    · have : i = 3 ∧ j = 1 := by omega
      simp [h, this, FVal.isfinite]
    · have : ¬ (i = 3 ∧ j = 1) := by omega
      simp [h, this, FVal.isfinite]
  ⟨testLibm_expOk, by decide, hfin, by
    have h := C8_total_occupancy_is_eight testLibm testLibm_expOk testMf (fun _ => 1)
      (fun _ => 0) (fun _ => 1) (fun _ => 1) (fun _ => 3) (fun _ => 1) (fun k => k) testScr
      3 (by decide) hfin
    convert h using 8⟩

/-- C9: in `responsibilities` with `K1 ≥ 1`, for every voxel `i` of the volume whose prior
lookup has a non-finite entry, and for every voxel with no finite channel mean, `r[i + t*N1]`
is NaN for every output class `t < K1 - 1` after the call, and the voxel adds nothing to the
log-likelihood. -/
theorem C9_invalid_voxels_are_nan (m : Libm α) (nf skip : Nat → Nat) (mf : Nat → FVal α)
    (vf : Nat → α) (K : Nat) (gmm : Nat → GMMtype) (buf : Nat → α) (K1 : Nat)
    (lkp : Nat → Nat) (lp : Nat → FVal α) (scr : Scratch α) (r : Nat → FVal α)
    (hK1 : 1 ≤ K1) (hK1' : K1 < 2 ^ 64) (i : Nat) (hi : i < nf 0 * nf 1 * nf 2)
    (hbad : (∃ k, k < K ∧ (lp (i + nf 0 * nf 1 * nf 2 * lkp k)).isfinite = false) ∨
      (∀ j, j < nf 3 → (mf (i + j * (nf 0 * nf 1 * nf 2))).isfinite = false)) :
    (∀ t, t < K1 - 1 →
      (responsibilities m nf skip mf vf K gmm buf K1 lkp lp scr r).2 (i + t * (nf 0 * nf 1 * nf 2))
        = FVal.nan) ∧
    (∀ (i0 i1 i2 : Nat) (s : RState α),
      (responsibilities_voxel m (nf 0 * nf 1 * nf 2) (nf 3) K skip mf vf gmm buf K1 lkp lp
        i0 i1 i2 i s).ll = s.ll) := by
  refine ⟨fun t ht => ?_, fun i0 i1 i2 s =>
    (responsibilities_voxel_bad m _ _ K skip mf vf gmm buf K1 lkp lp i0 i1 i2 i s hbad).1⟩
  rw [responsibilities_linear]
  simp only []
  refine forUp_set_once (fun s : RState α => s.r (i + t * (nf 0 * nf 1 * nf 2))) _ FVal.nan _ i hi
    (fun s => ?_) (fun i' hi' hne s => ?_) _
  · exact (responsibilities_voxel_bad m _ _ K skip mf vf gmm buf K1 lkp lp _ _ _ i s hbad).2 t
      (by rw [wsub_one K1 hK1 hK1']; exact ht)
  · refine responsibilities_voxel_frame m _ _ K skip mf vf gmm buf K1 lkp lp _ _ _ i' s _
      (fun t' e => hne ?_)
    have := radix_inj (nf 0 * nf 1 * nf 2) i t i' t' hi hi'
      (by rw [Nat.mul_comm _ t, Nat.mul_comm _ t']; exact e)
    exact this.1.symm

/-- Witness of C9 on the test volume with non-finite priors: voxel 3 is NaN in the map. -/
theorem C9_invalid_voxels_are_nan_witness :
    1 ≤ 2 ∧ 2 < 2 ^ 64 ∧ 3 < testNf 0 * testNf 1 * testNf 2 ∧
    (∃ k, k < 2 ∧ ((fun _ => FVal.nan : Nat → FVal ℚ)
      (3 + testNf 0 * testNf 1 * testNf 2 * (fun k => k) k)).isfinite = false) ∧
    ∀ t, t < 2 - 1 →
      (responsibilities testLibm testNf (fun _ => 1) testMf (fun _ => 1) 2
        (allocate_gmm_loop 2 2).tbl (fun _ => 1) 2 (fun k => k) (fun _ => FVal.nan) testScr
        (fun _ => FVal.fin 0)).2 (3 + t * (testNf 0 * testNf 1 * testNf 2)) = FVal.nan :=
  ⟨by decide, by decide, by decide, ⟨0, by decide, rfl⟩,
    (C9_invalid_voxels_are_nan testLibm testNf (fun _ => 1) testMf (fun _ => 1) 2
      (allocate_gmm_loop 2 2).tbl (fun _ => 1) 2 (fun k => k) (fun _ => FVal.nan) testScr
      (fun _ => FVal.fin 0) (by decide) (by decide) 3 (by decide)
      (Or.inl ⟨0, by decide, rfl⟩)).1⟩

/-- C10: in `responsibilities`, at every voxel with a finite prior for every class and at
least one finite channel mean, and for strides `skip ≥ 1`, the kernel that is run is `Nresp`
when `i0`, `i1`, `i2` are multiples of the strides and `Tresp` otherwise; and the three
voxel loops visit each linear voxel index `0 .. nf[0]*nf[1]*nf[2]-1` exactly once, in
increasing order. -/
theorem C10_kernel_choice_and_full_pass (m : Libm α) (nf skip : Nat → Nat) (mf : Nat → FVal α)
    (vf : Nat → α) (K : Nat) (gmm : Nat → GMMtype) (buf : Nat → α) (K1 : Nat)
    (lkp : Nat → Nat) (lp : Nat → FVal α) (scr : Scratch α) (r : Nat → FVal α)
    (hs0 : 1 ≤ skip 0) (hs1 : 1 ≤ skip 1) (hs2 : 1 ≤ skip 2) :
    (∀ (i0 i1 i2 i : Nat) (s : RState α),
      (∀ k, k < K → (lp (i + nf 0 * nf 1 * nf 2 * lkp k)).isfinite = true) →
      (∃ j, j < nf 3 ∧ (mf (i + j * (nf 0 * nf 1 * nf 2))).isfinite = true) →
      (responsibilities_voxel m (nf 0 * nf 1 * nf 2) (nf 3) K skip mf vf gmm buf K1 lkp lp
          i0 i1 i2 i s).ll
        = s.ll + (if i0 % skip 0 = 0 ∧ i1 % skip 1 = 0 ∧ i2 % skip 2 = 0 then
            Nresp m K gmm buf
              (get_vox (nf 0 * nf 1 * nf 2) (nf 3) (shift mf i) (shift vf i) s.scr.mx s.scr.vx).code
              (get_vox (nf 0 * nf 1 * nf 2) (nf 3) (shift mf i) (shift vf i) s.scr.mx s.scr.vx).x
              (get_vox (nf 0 * nf 1 * nf 2) (nf 3) (shift mf i) (shift vf i) s.scr.mx s.scr.vx).v
              (get_priors (nf 0 * nf 1 * nf 2) (shift lp i) K lkp s.scr.p).2
          else
            Tresp m K gmm buf
              (get_vox (nf 0 * nf 1 * nf 2) (nf 3) (shift mf i) (shift vf i) s.scr.mx s.scr.vx).code
              (get_vox (nf 0 * nf 1 * nf 2) (nf 3) (shift mf i) (shift vf i) s.scr.mx s.scr.vx).x
              (get_vox (nf 0 * nf 1 * nf 2) (nf 3) (shift mf i) (shift vf i) s.scr.mx s.scr.vx).v
              (get_priors (nf 0 * nf 1 * nf 2) (shift lp i) K lkp s.scr.p).2).1 ∧
      (responsibilities_voxel m (nf 0 * nf 1 * nf 2) (nf 3) K skip mf vf gmm buf K1 lkp lp
          i0 i1 i2 i s).scr.p
        = (if i0 % skip 0 = 0 ∧ i1 % skip 1 = 0 ∧ i2 % skip 2 = 0 then
            Nresp m K gmm buf
              (get_vox (nf 0 * nf 1 * nf 2) (nf 3) (shift mf i) (shift vf i) s.scr.mx s.scr.vx).code
              (get_vox (nf 0 * nf 1 * nf 2) (nf 3) (shift mf i) (shift vf i) s.scr.mx s.scr.vx).x
              (get_vox (nf 0 * nf 1 * nf 2) (nf 3) (shift mf i) (shift vf i) s.scr.mx s.scr.vx).v
              (get_priors (nf 0 * nf 1 * nf 2) (shift lp i) K lkp s.scr.p).2
          else
            Tresp m K gmm buf
              (get_vox (nf 0 * nf 1 * nf 2) (nf 3) (shift mf i) (shift vf i) s.scr.mx s.scr.vx).code
              (get_vox (nf 0 * nf 1 * nf 2) (nf 3) (shift mf i) (shift vf i) s.scr.mx s.scr.vx).x
              (get_vox (nf 0 * nf 1 * nf 2) (nf 3) (shift mf i) (shift vf i) s.scr.mx s.scr.vx).v
              (get_priors (nf 0 * nf 1 * nf 2) (shift lp i) K lkp s.scr.p).2).2) ∧
    responsibilities m nf skip mf vf K gmm buf K1 lkp lp scr r =
      ((forUp (nf 0 * nf 1 * nf 2) (fun i s =>
          responsibilities_voxel m (nf 0 * nf 1 * nf 2) (nf 3) K skip mf vf gmm buf K1 lkp lp
            (i % nf 0) (i / nf 0 % nf 1) (i / (nf 0 * nf 1)) i s) (⟨0, scr, r⟩ : RState α)).ll,
       (forUp (nf 0 * nf 1 * nf 2) (fun i s =>
          responsibilities_voxel m (nf 0 * nf 1 * nf 2) (nf 3) K skip mf vf gmm buf K1 lkp lp
            (i % nf 0) (i / nf 0 % nf 1) (i / (nf 0 * nf 1)) i s) (⟨0, scr, r⟩ : RState α)).r) := by
  refine ⟨fun i0 i1 i2 i s hpr hobs => ?_, responsibilities_linear m nf skip mf vf K gmm buf K1
    lkp lp scr r⟩
  have hz0 : (get_vox (nf 0 * nf 1 * nf 2) (nf 3) (shift mf i) (shift vf i)
        s.scr.mx s.scr.vx).code = 0 ↔
      ∀ j, j < nf 3 → (mf (i + j * (nf 0 * nf 1 * nf 2))).isfinite = false :=
    get_vox_code_zero_iff _ _ (shift mf i) (shift vf i) s.scr.mx s.scr.vx
  have hp0 : (get_priors (nf 0 * nf 1 * nf 2) (shift lp i) K lkp s.scr.p).1 = true ↔
      ∀ k, k < K → (lp (i + nf 0 * nf 1 * nf 2 * lkp k)).isfinite = true :=
    get_priors_ok_iff _ (shift lp i) K lkp s.scr.p
  have hpr' := hp0.mpr hpr
  have hcode : (get_vox (nf 0 * nf 1 * nf 2) (nf 3) (shift mf i) (shift vf i)
        s.scr.mx s.scr.vx).code ≠ 0 := by
    intro e
    obtain ⟨j, hj, hf⟩ := hobs
    have := hz0.mp e j hj
    rw [hf] at this
    exact Bool.noConfusion this
  have hcond : (i2 % skip 2 = 0 ∧ (i1 % skip 1 = 0 ∧ i0 % skip 0 = 0)) ↔
      (i0 % skip 0 = 0 ∧ i1 % skip 1 = 0 ∧ i2 % skip 2 = 0) := by
    constructor
    · rintro ⟨a, b, c⟩; exact ⟨c, b, a⟩
    · rintro ⟨a, b, c⟩; exact ⟨c, b, a⟩
  rw [responsibilities_voxel_valid m _ _ K skip mf vf gmm buf K1 lkp lp i0 i1 i2 i s
    hpr' hcode _ rfl]
  simp only [hcond]
  exact ⟨trivial, trivial⟩

/-- Witness of C10 on the test volume with strides `(2, 1, 1)`. -/
theorem C10_kernel_choice_and_full_pass_witness :
    1 ≤ (fun d => if d = 0 then 2 else 1 : Nat → Nat) 0 ∧
    1 ≤ (fun d => if d = 0 then 2 else 1 : Nat → Nat) 1 ∧
    1 ≤ (fun d => if d = 0 then 2 else 1 : Nat → Nat) 2 ∧
    responsibilities testLibm testNf (fun d => if d = 0 then 2 else 1) testMf (fun _ => 1) 2
        (allocate_gmm_loop 2 2).tbl (fun _ => 1) 2 (fun k => k) testLp testScr
        (fun _ => FVal.fin 0) =
      ((forUp (testNf 0 * testNf 1 * testNf 2) (fun i s =>
          responsibilities_voxel testLibm (testNf 0 * testNf 1 * testNf 2) (testNf 3) 2
            (fun d => if d = 0 then 2 else 1) testMf (fun _ => 1)
            (allocate_gmm_loop 2 2).tbl (fun _ => 1) 2 (fun k => k) testLp
            (i % testNf 0) (i / testNf 0 % testNf 1) (i / (testNf 0 * testNf 1)) i s)
          (⟨0, testScr, fun _ => FVal.fin 0⟩ : RState ℚ)).ll,
       (forUp (testNf 0 * testNf 1 * testNf 2) (fun i s =>
          responsibilities_voxel testLibm (testNf 0 * testNf 1 * testNf 2) (testNf 3) 2
            (fun d => if d = 0 then 2 else 1) testMf (fun _ => 1)
            (allocate_gmm_loop 2 2).tbl (fun _ => 1) 2 (fun k => k) testLp
            (i % testNf 0) (i / testNf 0 % testNf 1) (i / (testNf 0 * testNf 1)) i s)
          (⟨0, testScr, fun _ => FVal.fin 0⟩ : RState ℚ)).r) :=
  ⟨by decide, by decide, by decide,
    (C10_kernel_choice_and_full_pass testLibm testNf (fun d => if d = 0 then 2 else 1) testMf
      (fun _ => 1) 2 (allocate_gmm_loop 2 2).tbl (fun _ => 1) 2 (fun k => k) testLp testScr
      (fun _ => FVal.fin 0) (by decide) (by decide) (by decide)).2⟩

/-- C11 (amended): in `responsibilities` with at least one class (`K ≥ 1`) and the map `r`
zero on entry (and a pattern table whose dimensions are the bit counts of the codes,
`K1 ≥ 1`): for every voxel `i` with a
finite prior for every class and at least one finite channel mean, and every tissue index
`t < K1 - 1`, `r[i + t*N1]` on return is the sum of the responsibilities `p[k]` of the classes
`k < K` with `lkp[k] = t`, `p` being the output of the kernel run at that voxel; no cell at or
beyond `(K1-1)*N1` is written, so classes with `lkp[k] ≥ K1 - 1` are written nowhere; and the
sum over `t < K1 - 1` of `r[i + t*N1]` is `1` minus the sum of `p[k]` over those dropped
classes, hence at most `1`. -/
theorem C11_tissue_maps_are_class_sums (m : Libm α) (hm : m.ExpOk) (nf skip : Nat → Nat)
    (mf : Nat → FVal α) (vf : Nat → α) (K : Nat) (gmm : Nat → GMMtype) (buf : Nat → α)
    (K1 : Nat) (lkp : Nat → Nat) (lp : Nat → FVal α) (scr : Scratch α) (r : Nat → FVal α)
    (hg : ∀ code, code < 2 ^ nf 3 → (gmm code).P = bitcount (nf 3) code)
    (hK : 1 ≤ K) (hK1 : 1 ≤ K1) (hK1' : K1 < 2 ^ 64)
    (hr : ∀ idx, r idx = FVal.fin 0)
    (i : Nat) (hi : i < nf 0 * nf 1 * nf 2)
    (hpr : ∀ k, k < K → (lp (i + nf 0 * nf 1 * nf 2 * lkp k)).isfinite = true)
    (hobs : ∃ j, j < nf 3 ∧ (mf (i + j * (nf 0 * nf 1 * nf 2))).isfinite = true) :
    (∀ t, t < K1 - 1 →
      (responsibilities m nf skip mf vf K gmm buf K1 lkp lp scr r).2 (i + t * (nf 0 * nf 1 * nf 2))
        = FVal.fin (Finset.sum (Finset.range K) (fun k =>
            if lkp k = t then
              (voxResp m (nf 0 * nf 1 * nf 2) (nf 3) K skip mf vf gmm buf lkp lp
                (i % nf 0) (i / nf 0 % nf 1) (i / (nf 0 * nf 1)) i).2 k
            else 0))) ∧
    (∀ idx, (K1 - 1) * (nf 0 * nf 1 * nf 2) ≤ idx →
      (responsibilities m nf skip mf vf K gmm buf K1 lkp lp scr r).2 idx = r idx) ∧
    Finset.sum (Finset.range (K1 - 1)) (fun t =>
      ((responsibilities m nf skip mf vf K gmm buf K1 lkp lp scr r).2
        (i + t * (nf 0 * nf 1 * nf 2))).toD)
      = 1 - Finset.sum (Finset.range K) (fun k =>
          if K1 - 1 ≤ lkp k then
            (voxResp m (nf 0 * nf 1 * nf 2) (nf 3) K skip mf vf gmm buf lkp lp
              (i % nf 0) (i / nf 0 % nf 1) (i / (nf 0 * nf 1)) i).2 k
          else 0) ∧
    Finset.sum (Finset.range (K1 - 1)) (fun t =>
      ((responsibilities m nf skip mf vf K gmm buf K1 lkp lp scr r).2
        (i + t * (nf 0 * nf 1 * nf 2))).toD) ≤ 1 := by
  have hN : 0 < nf 0 * nf 1 * nf 2 := by omega
  have hw := wsub_one K1 hK1 hK1'
  have hcl := voxResp_closure m hm (nf 0 * nf 1 * nf 2) (nf 3) K hK skip mf vf gmm buf lkp lp
    (i % nf 0) (i / nf 0 % nf 1) (i / (nf 0 * nf 1)) i
  have h1 : ∀ t, t < K1 - 1 →
      (responsibilities m nf skip mf vf K gmm buf K1 lkp lp scr r).2 (i + t * (nf 0 * nf 1 * nf 2))
        = FVal.fin (Finset.sum (Finset.range K) (fun k =>
            if lkp k = t then
              (voxResp m (nf 0 * nf 1 * nf 2) (nf 3) K skip mf vf gmm buf lkp lp
                (i % nf 0) (i / nf 0 % nf 1) (i / (nf 0 * nf 1)) i).2 k
            else 0)) := by
    intro t ht
    rw [responsibilities_linear]
    simp only []
    refine forUp_step_once (fun s : RState α => s.r (i + t * (nf 0 * nf 1 * nf 2))) _
      (FVal.fin 0) _ _ i hi (fun s hs => ?_) (fun i' hi' hne s => ?_) _ (hr _)
    · have e := responsibilities_voxel_sum m _ _ K skip mf vf gmm buf K1 lkp lp hg
        (i % nf 0) (i / nf 0 % nf 1) (i / (nf 0 * nf 1)) i s hN hpr hobs
        t (by rw [hw]; exact ht) 0 hs
      rw [zero_add] at e
      exact e
    · refine responsibilities_voxel_frame m _ _ K skip mf vf gmm buf K1 lkp lp _ _ _ i' s _
        (fun t' e => hne ?_)
      have := radix_inj (nf 0 * nf 1 * nf 2) i t i' t' hi hi'
        (by rw [Nat.mul_comm _ t, Nat.mul_comm _ t']; exact e)
      exact this.1.symm
  have h3 : Finset.sum (Finset.range (K1 - 1)) (fun t =>
      ((responsibilities m nf skip mf vf K gmm buf K1 lkp lp scr r).2
        (i + t * (nf 0 * nf 1 * nf 2))).toD)
      = 1 - Finset.sum (Finset.range K) (fun k =>
          if K1 - 1 ≤ lkp k then
            (voxResp m (nf 0 * nf 1 * nf 2) (nf 3) K skip mf vf gmm buf lkp lp
              (i % nf 0) (i / nf 0 % nf 1) (i / (nf 0 * nf 1)) i).2 k
          else 0) := by
    rw [Finset.sum_congr rfl (fun t ht => by rw [h1 t (Finset.mem_range.mp ht)])]
    simp only [FVal.toD]
    rw [tissue_sum, hcl.2]
  refine ⟨h1, fun idx hidx => ?_, h3, ?_⟩
  · rw [responsibilities_linear]
    simp only []
    refine forUp_keep_lt (fun s : RState α => s.r idx) _ _ (fun i' hi' s => ?_) _
    refine responsibilities_voxel_frame_lt m _ _ K skip mf vf gmm buf K1 lkp lp _ _ _ i' s idx
      (fun t ht e => ?_)
    rw [hw] at ht
    have : (t + 1) * (nf 0 * nf 1 * nf 2) ≤ (K1 - 1) * (nf 0 * nf 1 * nf 2) :=
      Nat.mul_le_mul_right _ (by omega)
    rw [Nat.add_mul, Nat.one_mul] at this
    omega
  · rw [h3, sub_le_self_iff]
    refine Finset.sum_nonneg (fun k hk => ?_)
    by_cases hc : K1 - 1 ≤ lkp k
    · rw [if_pos hc]; exact le_of_lt (hcl.1 k (Finset.mem_range.mp hk))
    · rw [if_neg hc]

/-- Witness of C11 on the test volume, voxel 0, with three tissue classes of which two
are written. -/
theorem C11_tissue_maps_are_class_sums_witness :
    testLibm.ExpOk ∧
    (∀ code, code < 2 ^ testNf 3 → ((allocate_gmm_loop 2 2).tbl code).P = bitcount (testNf 3) code) ∧
    1 ≤ 2 ∧ 1 ≤ 3 ∧ 3 < 2 ^ 64 ∧ (∀ idx, (fun _ => FVal.fin 0 : Nat → FVal ℚ) idx = FVal.fin 0) ∧
    0 < testNf 0 * testNf 1 * testNf 2 ∧
    (∀ k, k < 2 → (testLp (0 + testNf 0 * testNf 1 * testNf 2 * (fun k => k) k)).isfinite = true) ∧
    (∃ j, j < testNf 3 ∧ (testMf (0 + j * (testNf 0 * testNf 1 * testNf 2))).isfinite = true) ∧
    Finset.sum (Finset.range (3 - 1)) (fun t =>
      ((responsibilities testLibm testNf (fun _ => 1) testMf (fun _ => 1) 2
        (allocate_gmm_loop 2 2).tbl (fun _ => 1) 3 (fun k => k) testLp testScr
        (fun _ => FVal.fin 0)).2 (0 + t * (testNf 0 * testNf 1 * testNf 2))).toD) ≤ 1 :=
  ⟨testLibm_expOk, fun code h => allocate_gmm_P 2 2 code h, by decide, by decide, by decide,
    fun _ => rfl, by decide, fun _ _ => rfl, ⟨0, by decide, by decide⟩,
    (C11_tissue_maps_are_class_sums testLibm testLibm_expOk testNf (fun _ => 1) testMf (fun _ => 1)
      2 (allocate_gmm_loop 2 2).tbl (fun _ => 1) 3 (fun k => k) testLp testScr
      (fun _ => FVal.fin 0) (fun code h => allocate_gmm_P 2 2 code h) (by decide) (by decide)
      (by decide) (fun _ => rfl) 0 (by decide) (fun _ _ => rfl) ⟨0, by decide, by decide⟩).2.2.2⟩

/-- C12: in `INUgrads` (bounds accepted, pattern table with the bit counts as dimensions,
`index` made by `make_index` for a channel `ic < P`), for every visited voxel with data index
`i` whose prior is finite for every class and whose pattern `code` holds channel `ic`: the
local position is `nc = index[code]`, the number of channels of `code` below `ic`; with
`g = Σ_k nu'[k] p_k Σ_j (x_j - mu_k[j]) W_k[j, nc]` and `h = Σ_k nu'[k] p_k W_k[nc, nc]`
(`p` the Normal-kernel responsibilities, `x`, `v` the packed observed means and variances),
`g1[i]` on return is `G = g x_nc + h v_nc - 1` and `g2[i]` is `h (x_nc^2 + v_nc) + 1`, plus
`G` when `G > 0`. -/
theorem C12_gradient_and_hessian_values (m : Libm α) (nf : Nat → Nat) (mf : Nat → FVal α)
    (vf : Nat → α) (K : Nat) (gmm : Nat → GMMtype) (buf : Nat → α) (nm skip lkp : Nat → Nat)
    (lp : Nat → FVal α) (ic : Nat) (index0 : Nat → Nat) (scr : Scratch α)
    (g1 g2 : Nat → FVal α)
    (hb : ¬ boundFails (nf 3) K)
    (hg : ∀ code, code < 2 ^ nf 3 → (gmm code).P = bitcount (nf 3) code)
    (hic : ic < nf 3)
    (i0 i1 i2 : Nat) (hi0 : i0 < extent nf nm skip 0) (hi1 : i1 < extent nf nm skip 1)
    (hi2 : i2 < extent nf nm skip 2)
    (hpr : priorOk K (nm 0 * nm 1 * nm 2) lkp lp
      (i0 * skip 0 + nm 0 * (i1 * skip 1 + nm 1 * i2 * skip 2)) = true)
    (hbit : (voxCode (nf 0 * nf 1 * nf 2) (nf 3) mf vf (i0 + nf 0 * (i1 + nf 1 * i2))).testBit ic
      = true) :
    make_index (nf 3) ic index0
        (voxCode (nf 0 * nf 1 * nf 2) (nf 3) mf vf (i0 + nf 0 * (i1 + nf 1 * i2)))
      = bitcount ic (voxCode (nf 0 * nf 1 * nf 2) (nf 3) mf vf (i0 + nf 0 * (i1 + nf 1 * i2))) ∧
    (INUgrads m nf mf vf K gmm buf nm skip lkp lp (make_index (nf 3) ic index0) scr g1 g2).2.1
        (i0 + nf 0 * (i1 + nf 1 * i2))
      = FVal.fin (voxGrad m (nf 0 * nf 1 * nf 2) (nf 3) K mf vf gmm buf (nm 0 * nm 1 * nm 2)
          lkp lp (make_index (nf 3) ic index0) (i0 + nf 0 * (i1 + nf 1 * i2))
          (i0 * skip 0 + nm 0 * (i1 * skip 1 + nm 1 * i2 * skip 2))) ∧
    (INUgrads m nf mf vf K gmm buf nm skip lkp lp (make_index (nf 3) ic index0) scr g1 g2).2.2
        (i0 + nf 0 * (i1 + nf 1 * i2))
      = FVal.fin (if voxGrad m (nf 0 * nf 1 * nf 2) (nf 3) K mf vf gmm buf (nm 0 * nm 1 * nm 2)
            lkp lp (make_index (nf 3) ic index0) (i0 + nf 0 * (i1 + nf 1 * i2))
            (i0 * skip 0 + nm 0 * (i1 * skip 1 + nm 1 * i2 * skip 2)) > 0 then
          voxHess m (nf 0 * nf 1 * nf 2) (nf 3) K mf vf gmm buf (nm 0 * nm 1 * nm 2)
            lkp lp (make_index (nf 3) ic index0) (i0 + nf 0 * (i1 + nf 1 * i2))
            (i0 * skip 0 + nm 0 * (i1 * skip 1 + nm 1 * i2 * skip 2))
          + voxGrad m (nf 0 * nf 1 * nf 2) (nf 3) K mf vf gmm buf (nm 0 * nm 1 * nm 2)
            lkp lp (make_index (nf 3) ic index0) (i0 + nf 0 * (i1 + nf 1 * i2))
            (i0 * skip 0 + nm 0 * (i1 * skip 1 + nm 1 * i2 * skip 2))
        else
          voxHess m (nf 0 * nf 1 * nf 2) (nf 3) K mf vf gmm buf (nm 0 * nm 1 * nm 2)
            lkp lp (make_index (nf 3) ic index0) (i0 + nf 0 * (i1 + nf 1 * i2))
            (i0 * skip 0 + nm 0 * (i1 * skip 1 + nm 1 * i2 * skip 2))) := by
  have hidx : make_index (nf 3) ic index0
        (voxCode (nf 0 * nf 1 * nf 2) (nf 3) mf vf (i0 + nf 0 * (i1 + nf 1 * i2)))
      = bitcount ic (voxCode (nf 0 * nf 1 * nf 2) (nf 3) mf vf (i0 + nf 0 * (i1 + nf 1 * i2))) := by
    rw [make_index_eq, if_pos (voxCode_lt _ _ _ _ _), if_pos hbit]
  have hP : nf 3 < 50 := by
    unfold boundFails MaxChan at hb
    omega
  have hle := bitcount_le ic
    (voxCode (nf 0 * nf 1 * nf 2) (nf 3) mf vf (i0 + nf 0 * (i1 + nf 1 * i2)))
  refine ⟨hidx, ?_⟩
  refine INUgrads_hit m nf mf vf K gmm buf nm skip lkp lp _ scr g1 g2 hb hg i0 i1 i2 hi0 hi1 hi2
    (contributes_of_testBit _ _ K mf vf _ lkp lp _ _ ic hpr hbit) ?_ ?_
  · rw [hidx]
    exact undefined_gt _ (by omega)
  · rw [hidx]
    exact bitcount_lt_of_testBit _ _ _ hic hbit

/-- Witness of C12 on the test volume: channel 1 at voxel 0. -/
theorem C12_gradient_and_hessian_values_witness :
    ¬ boundFails (testNf 3) 2 ∧
    (∀ code, code < 2 ^ testNf 3 → ((allocate_gmm_loop 2 2).tbl code).P = bitcount (testNf 3) code) ∧
    1 < testNf 3 ∧ 0 < extent testNf testNf (fun _ => 1) 0 ∧
    priorOk 2 (testNf 0 * testNf 1 * testNf 2) (fun k => k) testLp
      (0 * (fun _ => 1 : Nat → Nat) 0
        + testNf 0 * (0 * (fun _ => 1 : Nat → Nat) 1 + testNf 1 * 0 * (fun _ => 1 : Nat → Nat) 2))
      = true ∧
    (voxCode (testNf 0 * testNf 1 * testNf 2) (testNf 3) testMf (fun _ => (1 : ℚ))
      (0 + testNf 0 * (0 + testNf 1 * 0))).testBit 1 = true ∧
    (INUgrads testLibm testNf testMf (fun _ => 1) 2 (allocate_gmm_loop 2 2).tbl (fun _ => 1)
        testNf (fun _ => 1) (fun k => k) testLp (make_index (testNf 3) 1 (fun _ => 0)) testScr
        (fun _ => FVal.nan) (fun _ => FVal.nan)).2.1 (0 + testNf 0 * (0 + testNf 1 * 0))
      = FVal.fin (voxGrad testLibm (testNf 0 * testNf 1 * testNf 2) (testNf 3) 2 testMf
          (fun _ => 1) (allocate_gmm_loop 2 2).tbl (fun _ => 1) (testNf 0 * testNf 1 * testNf 2)
          (fun k => k) testLp (make_index (testNf 3) 1 (fun _ => 0))
          (0 + testNf 0 * (0 + testNf 1 * 0))
          (0 * (fun _ => 1 : Nat → Nat) 0
            + testNf 0 * (0 * (fun _ => 1 : Nat → Nat) 1
              + testNf 1 * 0 * (fun _ => 1 : Nat → Nat) 2))) := by
  have hpr : priorOk 2 (testNf 0 * testNf 1 * testNf 2) (fun k => k) testLp
      (0 * (fun _ => 1 : Nat → Nat) 0
        + testNf 0 * (0 * (fun _ => 1 : Nat → Nat) 1 + testNf 1 * 0 * (fun _ => 1 : Nat → Nat) 2))
      = true :=
    (get_priors_ok_iff _ _ 2 _ _).mpr (fun _ _ => rfl)
  have hbit : (voxCode (testNf 0 * testNf 1 * testNf 2) (testNf 3) testMf (fun _ => (1 : ℚ))
      (0 + testNf 0 * (0 + testNf 1 * 0))).testBit 1 = true :=
    (get_vox_testBit _ (testNf 3) _ _ _ _ 1 (by decide)).trans (by decide)
  exact ⟨by decide, fun code h => allocate_gmm_P 2 2 code h, by decide, by decide, hpr, hbit,
    (C12_gradient_and_hessian_values testLibm testNf testMf (fun _ => 1) 2
      (allocate_gmm_loop 2 2).tbl (fun _ => 1) testNf (fun _ => 1) (fun k => k) testLp 1
      (fun _ => 0) testScr (fun _ => FVal.nan) (fun _ => FVal.nan) (by decide)
      (fun code h => allocate_gmm_P 2 2 code h) (by decide) 0 0 0 (by decide) (by decide)
      (by decide) hpr hbit).2.1⟩

/-- C14, as stated, fails: on the test volume, whose voxel 3 has a non-finite mean in the
selected channel 1, `call_INUgrads` returns with `g1[3]` and `g2[3]` still holding the value
`7` they had on entry, not NaN. -/
theorem C14_counterexample :
    (testMf (3 + 1 * (testNf 0 * testNf 1 * testNf 2))).isfinite = false ∧
    (call_INUgrads testLibm true true true testNf testMf (fun _ => 1) 2 (fun _ => 1) (fun _ => 1)
      (fun _ => 1) (fun _ => 3) (fun _ => 1) testNf (fun _ => 1) (fun k => k) testLp 1 testScr
      (fun _ => FVal.fin 7) (fun _ => FVal.fin 7)).2.1 3 ≠ FVal.nan ∧
    (call_INUgrads testLibm true true true testNf testMf (fun _ => 1) 2 (fun _ => 1) (fun _ => 1)
      (fun _ => 1) (fun _ => 3) (fun _ => 1) testNf (fun _ => 1) (fun k => k) testLp 1 testScr
      (fun _ => FVal.fin 7) (fun _ => FVal.fin 7)).2.2 3 ≠ FVal.nan := by
  have h := call_INUgrads_frame testLibm true true true testNf testMf (fun _ => 1) 2 (fun _ => 1)
    (fun _ => 1) (fun _ => 1) (fun _ => 3) (fun _ => 1) testNf (fun _ => 1) (fun k => k) testLp 1
    testScr (fun _ => FVal.fin 7) (fun _ => FVal.fin 7) 3
    (fun i2 _ i1 _ i0 _ e hc => by
      rw [voxCode_testBit_false _ _ testMf _ _ 1 (Or.inr (by rw [e]; rfl))] at hc
      exact Bool.noConfusion hc.2)
  refine ⟨rfl, ?_, ?_⟩
  · rw [h.1]; exact fun e => FVal.noConfusion e
  · rw [h.2]; exact fun e => FVal.noConfusion e

/-- C14 (amended): in `call_INUgrads`, at every visited voxel that is invalid (the mean of
the selected channel `ic` is not finite, or no channel mean is finite, or the prior is not
finite for some class) `g1[i]` and `g2[i]` are not written: they keep the values they held
on entry. -/
theorem C14_invalid_voxels_keep_entry_values (m : Libm α) (ok1 ok2 ok3 : Bool)
    (nf : Nat → Nat) (mf : Nat → FVal α) (vf : Nat → α) (K : Nat) (mu b W nu gam : Nat → α)
    (nm skip lkp : Nat → Nat) (lp : Nat → FVal α) (ic : Nat) (scr : Scratch α)
    (g1 g2 : Nat → FVal α)
    (i0 i1 i2 : Nat) (hi0 : i0 < extent nf nm skip 0) (hi1 : i1 < extent nf nm skip 1)
    (hbad : (mf (i0 + nf 0 * (i1 + nf 1 * i2) + ic * (nf 0 * nf 1 * nf 2))).isfinite = false ∨
      (∀ j, j < nf 3 →
        (mf (i0 + nf 0 * (i1 + nf 1 * i2) + j * (nf 0 * nf 1 * nf 2))).isfinite = false) ∨
      (∃ k, k < K ∧ (lp (i0 * skip 0 + nm 0 * (i1 * skip 1 + nm 1 * i2 * skip 2)
        + nm 0 * nm 1 * nm 2 * lkp k)).isfinite = false)) :
    (call_INUgrads m ok1 ok2 ok3 nf mf vf K mu b W nu gam nm skip lkp lp ic scr g1 g2).2.1
        (i0 + nf 0 * (i1 + nf 1 * i2)) = g1 (i0 + nf 0 * (i1 + nf 1 * i2)) ∧
    (call_INUgrads m ok1 ok2 ok3 nf mf vf K mu b W nu gam nm skip lkp lp ic scr g1 g2).2.2
        (i0 + nf 0 * (i1 + nf 1 * i2)) = g2 (i0 + nf 0 * (i1 + nf 1 * i2)) := by
  have hn0 := extent_le nf nm skip 0
  have hn1 := extent_le nf nm skip 1
  refine call_INUgrads_frame m ok1 ok2 ok3 nf mf vf K mu b W nu gam nm skip lkp lp ic scr g1 g2 _
    (fun j2 _ j1 hj1 j0 hj0 e hc => ?_)
  obtain ⟨e0, e1, e2⟩ := lattice_inj (nf 0) (nf 1) j0 j1 j2 i0 i1 i2 (by omega) (by omega)
    (by omega) (by omega) e
  subst e0 e1 e2
  rcases hbad with h | h | h
  · rw [voxCode_testBit_false _ _ mf vf _ ic (Or.inr h)] at hc
    exact Bool.noConfusion hc.2
  · have hz : voxCode (nf 0 * nf 1 * nf 2) (nf 3) mf vf (j0 + nf 0 * (j1 + nf 1 * j2)) = 0 :=
      (get_vox_code_zero_iff _ _ (shift mf _) (shift vf _) _ _).mpr h
    rw [hz, Nat.zero_testBit] at hc
    exact Bool.noConfusion hc.2
  · obtain ⟨k, hk, hf⟩ := h
    have := (get_priors_ok_iff _ (shift lp _) K lkp _).mp hc.1 k hk
    unfold shift at this
    rw [hf] at this
    exact Bool.noConfusion this

/-- Witness of the amended C14 on the test volume: voxel 3 and channel 1. -/
theorem C14_invalid_voxels_keep_entry_values_witness :
    1 < extent testNf testNf (fun _ => 1) 0 ∧ 1 < extent testNf testNf (fun _ => 1) 1 ∧
    (testMf (1 + testNf 0 * (1 + testNf 1 * 0) + 1 * (testNf 0 * testNf 1 * testNf 2))).isfinite
      = false ∧
    (call_INUgrads testLibm true true true testNf testMf (fun _ => 1) 2 (fun _ => 1) (fun _ => 1)
      (fun _ => 1) (fun _ => 3) (fun _ => 1) testNf (fun _ => 1) (fun k => k) testLp 1 testScr
      (fun _ => FVal.fin 7) (fun _ => FVal.fin 7)).2.1 (1 + testNf 0 * (1 + testNf 1 * 0))
      = (fun _ => FVal.fin 7 : Nat → FVal ℚ) (1 + testNf 0 * (1 + testNf 1 * 0)) :=
  ⟨by decide, by decide, rfl,
    (C14_invalid_voxels_keep_entry_values testLibm true true true testNf testMf (fun _ => 1) 2
      (fun _ => 1) (fun _ => 1) (fun _ => 1) (fun _ => 3) (fun _ => 1) testNf (fun _ => 1)
      (fun k => k) testLp 1 testScr (fun _ => FVal.fin 7) (fun _ => FVal.fin 7) 1 1 0
      (by decide) (by decide) (Or.inl rfl)).1⟩

/-- C20, as stated, fails: the `1 × 1` matrix `W = (10^15)` is symmetric positive-definite,
but its pivot `10^15` is not above the floor `((1e-40 + 10^15) * 1e-7)^2` of `choldc`, which
replaces it; `invert` then leaves in `S` the inverse of the floor and `W * S ≠ 1`. -/
theorem C20_counterexample :
    (0 : ℚ) < (fun _ => (10 : ℚ) ^ 15 : Nat → ℚ) (0 * 1 + 0) ∧
    (fun _ => (10 : ℚ) ^ 15 : Nat → ℚ) (0 * 1 + 0)
      * (invert testLibm 1 (fun _ => (10 : ℚ) ^ 15) (fun _ => 0) (fun _ => 0)).2.1 (0 + 0 * 1)
      ≠ 1 := by
  have hfl : choldc_floor 1 (fun _ => (10 : ℚ) ^ 15 : Nat → ℚ)
      = ((1 / 10 ^ 40 + 10 ^ 15) * (1 / 10 ^ 7)) * ((1 / 10 ^ 40 + 10 ^ 15) * (1 / 10 ^ 7)) := by
    rw [choldc_floor_trace]
    simp only [Finset.sum_range_one]
  have hle : (fun _ => (10 : ℚ) ^ 15 : Nat → ℚ) 0
      ≤ choldc_floor 1 (fun _ => (10 : ℚ) ^ 15 : Nat → ℚ) := by
    rw [hfl]; norm_num
  have hsq : testLibm.sqrt (choldc_floor 1 (fun _ => (10 : ℚ) ^ 15 : Nat → ℚ))
      = (1 / 10 ^ 40 + 10 ^ 15) * (1 / 10 ^ 7) := by
    rw [hfl]
    show Rat.sqrt _ = _
    rw [Rat.sqrt_eq, abs_of_pos (by norm_num)]
  refine ⟨by norm_num, ?_⟩
  rw [invert_one, if_pos hle, hsq]
  norm_num

/-- C20 (amended): over exact arithmetic (`sqrt` exact on squares, `log` turning products
into sums), for every `n` and every `n × n` array `W` with a Cholesky factor `L` (lower
triangular, positive diagonal, `W = L Lᵀ`, so `W` is symmetric positive-definite) whose
squared diagonal entries all lie above the pivot floor `((1e-40 + trace W) * 1e-7)^2` of
`choldc`: `invert(n, W, S, T)` leaves in `S` the inverse of `W` (`W S = I`, column `j` of `S`
at `S[j*n ..]`), writes no cell of `S` from `n*n` on and no cell of `T` from `n*n + n` on
(`W` itself is only read), and returns `-2 Σ_j log(p[j])`, `p = T + n*n`, which is
`-log det(W)`. -/
theorem C20_invert_gives_inverse_and_logdet (m : Libm α) (hs : m.SqrtOk) (hlog : m.LogOk)
    (n : Nat) (W S T : Nat → α) (L : Nat → Nat → α) (hL : CholFactor n W L) :
    (∀ r j, r < n → j < n →
      Finset.sum (Finset.range n) (fun c => W (r * n + c) * (invert m n W S T).2.1 (c + j * n))
        = if r = j then 1 else 0) ∧
    (∀ idx, n * n ≤ idx → (invert m n W S T).2.1 idx = S idx) ∧
    (∀ idx, n * n + n ≤ idx → (invert m n W S T).2.2 idx = T idx) ∧
    (invert m n W S T).1
      = -2 * Finset.sum (Finset.range n) (fun j => m.log ((invert m n W S T).2.2 (n * n + j))) ∧
    (invert m n W S T).1 = - m.log (Matrix.det (matOf n (fun i j => W (i * n + j)))) := by
  obtain ⟨h1, h2, h3, h4, h5, _⟩ := invert_spec m hs n W S T L hL
  obtain ⟨hLT, hpos, hA, _⟩ := hL
  refine ⟨fun r j hr hj => h2 j r hj hr, h3, h4, ?_, ?_⟩
  · rw [h1]
    congr 1
    exact Finset.sum_congr rfl (fun j hj => by rw [h5 j (Finset.mem_range.mp hj)])
  · rw [h1, det_of_factor n W L hLT hA,
      log_prod m hlog n _ (fun j hj => mul_pos (hpos j hj) (hpos j hj))]
    have e : Finset.sum (Finset.range n) (fun j => m.log (L j j * L j j))
        = Finset.sum (Finset.range n) (fun j => m.log (L j j) + m.log (L j j)) :=
      Finset.sum_congr rfl (fun j hj => by
        rw [hlog _ _ (hpos j (Finset.mem_range.mp hj)) (hpos j (Finset.mem_range.mp hj))])
    rw [e, Finset.sum_add_distrib]
    ring

/-- Witness of the amended C20 over the reals with the real `sqrt` and `log`: the `1 × 1`
matrix `(4)` with factor `(2)`. -/
theorem C20_invert_gives_inverse_and_logdet_witness :
    (⟨Real.exp, Real.log, Real.sqrt, fun x => Real.log (Real.Gamma x)⟩ : Libm ℝ).SqrtOk ∧
    (⟨Real.exp, Real.log, Real.sqrt, fun x => Real.log (Real.Gamma x)⟩ : Libm ℝ).LogOk ∧
    CholFactor 1 (fun _ => (4 : ℝ)) (fun _ _ => 2) ∧
    (invert (⟨Real.exp, Real.log, Real.sqrt, fun x => Real.log (Real.Gamma x)⟩ : Libm ℝ) 1
        (fun _ => 4) (fun _ => 0) (fun _ => 0)).1
      = - Real.log (Matrix.det (matOf 1 (fun i j => (fun _ => (4 : ℝ)) (i * 1 + j)))) := by
  have hs : (⟨Real.exp, Real.log, Real.sqrt, fun x => Real.log (Real.Gamma x)⟩ : Libm ℝ).SqrtOk :=
    fun x hx => Real.sqrt_mul_self (le_of_lt hx)
  have hlog : (⟨Real.exp, Real.log, Real.sqrt, fun x => Real.log (Real.Gamma x)⟩ : Libm ℝ).LogOk :=
    fun x y hx hy => Real.log_mul (ne_of_gt hx) (ne_of_gt hy)
  have hL : CholFactor 1 (fun _ => (4 : ℝ)) (fun _ _ => 2) := by
    refine ⟨fun r c h1 h2 => by omega, fun _ _ => by norm_num, fun i j _ _ => by norm_num,
      fun i _ => ?_⟩
    rw [choldc_floor_trace]
    norm_num
  exact ⟨hs, hlog, hL,
    (C20_invert_gives_inverse_and_logdet _ hs hlog 1 (fun _ => 4) (fun _ => 0) (fun _ => 0)
      (fun _ _ => 2) hL).2.2.2.2⟩

/-- C17 (amended): for `P = 1` the loop of `allocate_gmm` writes exactly the two entries
`code = 0` (dimension `0`) and `code = 1` (dimension `1`); and for every `K ≥ 1` and
precisions `W_k = l_k^2`, `l_k > 0`, such that `W_k` and `1 / W_k` lie above the pivot
floor of `choldc` for the `1 × 1` arrays `(W_k)` and `(1 / W_k)` (square root exact on
squares, logarithm additive), the responsibilities that `Nresp` produces for pattern `1`
from the table built by `sub_gmm` are the softmax (`softmax1`, with the program's `fastexp`
and `psi`) of the one-channel VB-GMM logits `vb1d_logit`. -/
theorem C17_single_channel_responsibilities (m : Libm α) (hs : m.SqrtOk) (hlog : m.LogOk)
    (K : Nat) (hK : 1 ≤ K) (mu b W nu gam x v p : Nat → α) (l : Nat → α)
    (hl : ∀ k, k < K → 0 < l k ∧ W k = l k * l k)
    (hf : ∀ k, k < K → choldc_floor 1 (fun _ => W k) < W k ∧
      choldc_floor 1 (fun _ => 1 / W k) < 1 / W k) :
    ((allocate_gmm_loop 1 K).tbl 0).P = 0 ∧ ((allocate_gmm_loop 1 K).tbl 1).P = 1 ∧
    (∀ code, 2 ≤ code → (allocate_gmm_loop 1 K).tbl code = ⟨0, 0, 0, 0, 0, 0, 0, 0⟩) ∧
    ∃ buf, sub_gmm m true true 1 K mu b W nu gam = some ((allocate_gmm_loop 1 K).tbl, buf) ∧
      ∀ k, k < K →
        (Nresp m K (allocate_gmm_loop 1 K).tbl buf 1 x v p).2 k
          = (softmax1 m K (vb1d_logit m mu b W nu gam (x 0) (v 0) p)
              (vb1d_logit m mu b W nu gam (x 0) (v 0) p)).2 k := by
  have hP0 : ((allocate_gmm_loop 1 K).tbl 0).P = 0 := by
    rw [allocate_gmm_P 1 K 0 (by decide)]; rfl
  have hP1 : ((allocate_gmm_loop 1 K).tbl 1).P = 1 := by
    rw [allocate_gmm_P 1 K 1 (by decide)]; rfl
  refine ⟨hP0, hP1, fun code hc => allocate_gmm_tbl_ge 1 K code (by simpa using hc), ?_⟩
  obtain ⟨buf, hsub, hcells⟩ := sub_gmm_P1_cells m K mu b W nu gam
  refine ⟨buf, hsub, fun k hk => ?_⟩
  rw [Nresp_eq]
  refine (softmax1_congr m K _ _ _ _ hK (fun j hj => ?_)).2 k hk
  obtain ⟨c1, c2, c3, c4⟩ := hcells j hj
  obtain ⟨hl0, hW⟩ := hl j hj
  obtain ⟨hf1, hf2⟩ := hf j hj
  rw [hW] at hf1 hf2
  obtain ⟨t1, t2⟩ := invert1_twice m hs hlog (l j) hl0 hf1 hf2
  rw [if_pos hj, Nresp_logit_one _ _ _ _ _ _ _ hP1, c1, c2, c3, c4, hW, t1, t2]
  unfold vb1d_logit
  rw [hW]
  have e : nu j * (1 / 2) = nu j / 2 := by ring
  rw [e]
  ring

/-- C17, as stated, fails (over the reals with the real `exp`, `log`, `sqrt`): one channel,
two classes with `W = (10^15, 1)`, `b = gam = 1`, `nu = 2`, `mu = 0`, log priors
`(-0.5 * log 10^15, 0)`, voxel `x = 0`, `v = 0`. The two logits of the formula are equal, so
its first responsibility is `1/2`; the pivot floor of `choldc` replaces the pivot `10^15`,
the constant `conN[0]` is built from `log det` of the floored matrix, and the first
responsibility of `Nresp` is not `1/2`. -/
theorem C17_counterexample :
    (fun m : Libm ℝ =>
      (∀ k, k < 2 → (0 : ℝ) < (fun k : Nat => if k = 0 then (10 : ℝ) ^ 15 else 1) k ∧
        (0 : ℝ) < (fun _ : Nat => (1 : ℝ)) k ∧ (0 : ℝ) < (fun _ : Nat => (1 : ℝ)) k ∧
        (0 : ℝ) < (fun _ : Nat => (2 : ℝ)) k) ∧
      ∃ buf, sub_gmm m true true 1 2 (fun _ => 0) (fun _ => 1)
          (fun k => if k = 0 then 10 ^ 15 else 1) (fun _ => 2) (fun _ => 1)
          = some ((allocate_gmm_loop 1 2).tbl, buf) ∧
        (Nresp m 2 (allocate_gmm_loop 1 2).tbl buf 1 (fun _ => 0) (fun _ => 0)
            (fun k => if k = 0 then -(1 / 2) * Real.log (10 ^ 15) else 0)).2 0
          ≠ (softmax1 m 2
              (vb1d_logit m (fun _ => 0) (fun _ => 1) (fun k => if k = 0 then 10 ^ 15 else 1)
                (fun _ => 2) (fun _ => 1) 0 0
                (fun k => if k = 0 then -(1 / 2) * Real.log (10 ^ 15) else 0))
              (vb1d_logit m (fun _ => 0) (fun _ => 1) (fun k => if k = 0 then 10 ^ 15 else 1)
                (fun _ => 2) (fun _ => 1) 0 0
                (fun k => if k = 0 then -(1 / 2) * Real.log (10 ^ 15) else 0))).2 0)
      ⟨Real.exp, Real.log, Real.sqrt, fun x => Real.log (Real.Gamma x)⟩ := by
  have hs : (⟨Real.exp, Real.log, Real.sqrt, fun x => Real.log (Real.Gamma x)⟩ : Libm ℝ).SqrtOk :=
    fun x hx => Real.sqrt_mul_self (le_of_lt hx)
  have hlog : (⟨Real.exp, Real.log, Real.sqrt, fun x => Real.log (Real.Gamma x)⟩ : Libm ℝ).LogOk :=
    fun x y hx hy => Real.log_mul (ne_of_gt hx) (ne_of_gt hy)
  have hexp : (⟨Real.exp, Real.log, Real.sqrt, fun x => Real.log (Real.Gamma x)⟩ : Libm ℝ).ExpOk :=
    ⟨Real.exp_pos, Real.exp_zero⟩
  have hlm : (⟨Real.exp, Real.log, Real.sqrt, fun x => Real.log (Real.Gamma x)⟩ : Libm ℝ).log
      = Real.log := rfl
  have hem : (⟨Real.exp, Real.log, Real.sqrt, fun x => Real.log (Real.Gamma x)⟩ : Libm ℝ).exp
      = Real.exp := rfl
  generalize (⟨Real.exp, Real.log, Real.sqrt, fun x => Real.log (Real.Gamma x)⟩ : Libm ℝ) = m
    at hs hlog hexp hlm hem ⊢
  dsimp only
  refine ⟨fun k _ => ⟨by split <;> norm_num, by norm_num, by norm_num, by norm_num⟩, ?_⟩
  obtain ⟨buf, hsub, hcells⟩ := sub_gmm_P1_cells m 2 (fun _ => 0) (fun _ => 1)
    (fun k => if k = 0 then (10 : ℝ) ^ 15 else 1) (fun _ => 2) (fun _ => 1)
  refine ⟨buf, hsub, ?_⟩
  have hP1 : ((allocate_gmm_loop 1 2).tbl 1).P = 1 := by
    rw [allocate_gmm_P 1 2 1 (by decide)]; rfl
  obtain ⟨a1, a2, a3, a4⟩ := hcells 0 (by decide)
  obtain ⟨b1, b2, b3, b4⟩ := hcells 1 (by decide)
  simp only [if_true, one_ne_zero, if_false] at a1 a2 a3 a4 b1 b2 b3 b4
  -- the two inversions of the floored class and of the exact class
  have hc : (0 : ℝ) < (1 / 10 ^ 40 + 10 ^ 15) * (1 / 10 ^ 7) := by norm_num
  have hi0 : invert1 m (10 ^ 15)
      = 1 / ((1 / 10 ^ 40 + 10 ^ 15) * (1 / 10 ^ 7)) * (1 / ((1 / 10 ^ 40 + 10 ^ 15) * (1 / 10 ^ 7))) := by
    rw [invert1_floored m hs ((1 / 10 ^ 40 + 10 ^ 15) * (1 / 10 ^ 7)) (10 ^ 15) hc rfl
      (by norm_num)]
    ring
  have hp0 : pivot1 (1 / ((1 / 10 ^ 40 + 10 ^ 15) * (1 / 10 ^ 7))
      * (1 / ((1 / 10 ^ 40 + 10 ^ 15) * (1 / 10 ^ 7)) : ℝ))
      = 1 / ((1 / 10 ^ 40 + 10 ^ 15) * (1 / 10 ^ 7)) * (1 / ((1 / 10 ^ 40 + 10 ^ 15) * (1 / 10 ^ 7))) := by
    unfold pivot1
    rw [if_neg (by norm_num)]
  have hld0 : -2 * m.log (m.sqrt (pivot1 (invert1 m (10 ^ 15))))
      = 2 * Real.log ((1 / 10 ^ 40 + 10 ^ 15) * (1 / 10 ^ 7)) := by
    rw [hi0, hp0, hs _ (by positivity), logOk_inv m hlog _ hc, hlm]
    ring
  have hld1 : -2 * m.log (m.sqrt (pivot1 (invert1 m 1))) = 0 := by
    have h := (invert1_twice m hs hlog 1 one_pos (by rw [choldc_floor_one]; norm_num)
      (by rw [choldc_floor_one]; norm_num)).2
    rw [mul_one] at h
    rw [h, logOk_one m hlog]
  rw [hld0] at a4
  rw [hld1] at b4
  obtain ⟨hgap1, hgap2⟩ := floor_gap_bounds
  -- the logits of the program and of the formula
  have hR0 : Nresp_logit (allocate_gmm_loop 1 2).tbl buf 1 (fun _ => (0 : ℝ)) (fun _ => 0)
      (fun k => if k = 0 then -(1 / 2) * Real.log (10 ^ 15) else 0) 0
      = -(1 / 2) * Real.log (10 ^ 15) + (1 / 2 * (psi m (2 * (1 / 2))
          + (m.log 2 + 2 * Real.log ((1 / 10 ^ 40 + 10 ^ 15) * (1 / 10 ^ 7)))
          - (m.log (2 * pi) + 1 / 1)) + m.log 1) := by
    rw [Nresp_logit_one _ _ _ _ _ _ _ hP1, a1, a2, a4]
    simp
  have hR1 : Nresp_logit (allocate_gmm_loop 1 2).tbl buf 1 (fun _ => (0 : ℝ)) (fun _ => 0)
      (fun k => if k = 0 then -(1 / 2) * Real.log (10 ^ 15) else 0) 1
      = 1 / 2 * (psi m (2 * (1 / 2)) + (m.log 2 + 0) - (m.log (2 * pi) + 1 / 1)) + m.log 1 := by
    rw [Nresp_logit_one _ _ _ _ _ _ _ hP1, b1, b2, b4]
    simp
  have hQ : vb1d_logit m (fun _ => 0) (fun _ => 1) (fun k => if k = 0 then 10 ^ 15 else 1)
      (fun _ => 2) (fun _ => 1) 0 0
      (fun k => if k = 0 then -(1 / 2) * Real.log (10 ^ 15) else 0) 1
      = vb1d_logit m (fun _ => 0) (fun _ => 1) (fun k => if k = 0 then 10 ^ 15 else 1)
      (fun _ => 2) (fun _ => 1) 0 0
      (fun k => if k = 0 then -(1 / 2) * Real.log (10 ^ 15) else 0) 0 := by
    unfold vb1d_logit
    simp only [if_true, one_ne_zero, if_false]
    rw [hlm, Real.log_one]
    ring
  rw [Nresp_eq, softmax1_two m hexp _ _ (by
      simp only [Nat.lt_succ_self, Nat.zero_lt_succ, if_true]
      rw [hR0, hR1]
      linarith),
    softmax1_two m hexp _ _ (le_of_eq hQ), hQ, sub_self, fastexp_zero m hexp]
  simp only [Nat.lt_succ_self, Nat.zero_lt_succ, if_true]
  rw [hR0, hR1]
  generalize psi m (2 * (1 / 2)) = t1
  generalize m.log 2 = t2
  generalize m.log (2 * pi) = t3
  generalize m.log 1 = t4
  generalize Real.log (10 ^ 15) = t5 at hgap1 hgap2 ⊢
  generalize Real.log ((1 / 10 ^ 40 + 10 ^ 15) * (1 / 10 ^ 7)) = t6 at hgap1 hgap2 ⊢
  have hy1 : -(3 / 2 : ℝ) < 1 / 2 * (t1 + (t2 + 0) - (t3 + 1 / 1))
      + t4 - (-(1 / 2) * t5 + (1 / 2 * (t1
          + (t2 + 2 * t6)
          - (t3 + 1 / 1)) + t4)) := by linarith
  have hy2 : 1 / 2 * (t1 + (t2 + 0) - (t3 + 1 / 1))
      + t4 - (-(1 / 2) * t5 + (1 / 2 * (t1
          + (t2 + 2 * t6)
          - (t3 + 1 / 1)) + t4)) < -(1 / 2 : ℝ) := by linarith
  generalize 1 / 2 * (t1 + (t2 + 0) - (t3 + 1 / 1))
      + t4 - (-(1 / 2) * t5 + (1 / 2 * (t1
          + (t2 + 2 * t6)
          - (t3 + 1 / 1)) + t4)) = y at hy1 hy2 ⊢
  have hfe : fastexp m y < 1 := fastexp_lt_one_near m hem y hy1 hy2
  intro h
  rw [one_div, one_div, inv_inj] at h
  linarith

/-- Witness of the amended C17 over the reals with the real `exp`, `log`, `sqrt`: two
classes with `W = (4, 1) = (2^2, 1^2)`. -/
theorem C17_single_channel_responsibilities_witness :
    (fun m : Libm ℝ =>
      m.SqrtOk ∧ m.LogOk ∧
      ((allocate_gmm_loop 1 2).tbl 0).P = 0 ∧ ((allocate_gmm_loop 1 2).tbl 1).P = 1 ∧
      (∀ code, 2 ≤ code → (allocate_gmm_loop 1 2).tbl code = ⟨0, 0, 0, 0, 0, 0, 0, 0⟩) ∧
      ∃ buf, sub_gmm m true true 1 2 (fun k => (k : ℝ)) (fun _ => 1)
          (fun k => if k = 0 then 4 else 1) (fun _ => 2) (fun _ => 1 / 2)
          = some ((allocate_gmm_loop 1 2).tbl, buf) ∧
        ∀ k, k < 2 →
          (Nresp m 2 (allocate_gmm_loop 1 2).tbl buf 1 (fun _ => 1) (fun _ => 1 / 4)
              (fun _ => 0)).2 k
            = (softmax1 m 2
                (vb1d_logit m (fun k => (k : ℝ)) (fun _ => 1) (fun k => if k = 0 then 4 else 1)
                  (fun _ => 2) (fun _ => 1 / 2) ((fun _ : Nat => (1 : ℝ)) 0)
                  ((fun _ : Nat => (1 / 4 : ℝ)) 0) (fun _ => 0))
                (vb1d_logit m (fun k => (k : ℝ)) (fun _ => 1) (fun k => if k = 0 then 4 else 1)
                  (fun _ => 2) (fun _ => 1 / 2) ((fun _ : Nat => (1 : ℝ)) 0)
                  ((fun _ : Nat => (1 / 4 : ℝ)) 0) (fun _ => 0))).2 k)
      ⟨Real.exp, Real.log, Real.sqrt, fun x => Real.log (Real.Gamma x)⟩ := by
  have hs : (⟨Real.exp, Real.log, Real.sqrt, fun x => Real.log (Real.Gamma x)⟩ : Libm ℝ).SqrtOk :=
    fun x hx => Real.sqrt_mul_self (le_of_lt hx)
  have hlog : (⟨Real.exp, Real.log, Real.sqrt, fun x => Real.log (Real.Gamma x)⟩ : Libm ℝ).LogOk :=
    fun x y hx hy => Real.log_mul (ne_of_gt hx) (ne_of_gt hy)
  refine ⟨hs, hlog, C17_single_channel_responsibilities _ hs hlog 2 (by decide)
    (fun k => (k : ℝ)) (fun _ => 1) (fun k => if k = 0 then 4 else 1) (fun _ => 2)
    (fun _ => 1 / 2) (fun _ => 1) (fun _ => 1 / 4) (fun _ => 0)
    (fun k => if k = 0 then 2 else 1) (fun k hk => ?_) (fun k hk => ?_)⟩
  · have hk2 : k = 0 ∨ k = 1 := by omega
    rcases hk2 with rfl | rfl <;> norm_num
  · rw [choldc_floor_one, choldc_floor_one]
    have hk2 : k = 0 ∨ k = 1 := by omega
    rcases hk2 with rfl | rfl <;> norm_num

/-- C25: for every `P`, every symmetric `P × P` matrix `W` and all `mu`, `x`, `v`,
`del2(P, mu, W, x, v) = (x - mu)ᵀ W (x - mu) + Σ_j W[j,j] * v[j]`; the function reads `W`
only at the entries `W[j*P+i]` with `i ≥ j` (any `W'` that agrees with `W` there gives the
same value); and without symmetry the equality can fail (`P = 2`, `W[0,1] = 1`, every other
entry `0`, `x = (1, 1)`, `mu = v = 0`). -/
theorem C25_del2_is_expected_squared_distance (P : Nat) (mu W x v : Nat → α)
    (hsym : ∀ i j, i < P → j < P → W (i * P + j) = W (j * P + i)) :
    del2 P mu W x v
      = Finset.sum (Finset.range P) (fun j => Finset.sum (Finset.range P) (fun i =>
          (x j - mu j) * W (j * P + i) * (x i - mu i)))
        + Finset.sum (Finset.range P) (fun j => W (j * P + j) * v j) ∧
    (∀ W' : Nat → α, (∀ j i, j ≤ i → i < P → W' (j * P + i) = W (j * P + i)) →
      del2 P mu W' x v = del2 P mu W x v) ∧
    del2 2 (fun _ => (0 : α)) (fun idx => if idx = 1 then 1 else 0) (fun _ => 1) (fun _ => 0)
      ≠ Finset.sum (Finset.range 2) (fun j => Finset.sum (Finset.range 2) (fun i =>
          ((fun _ => (1 : α)) j - (fun _ => (0 : α)) j)
            * (fun idx : Nat => if idx = 1 then (1 : α) else 0) (j * 2 + i)
            * ((fun _ => (1 : α)) i - (fun _ => (0 : α)) i)))
        + Finset.sum (Finset.range 2) (fun j =>
            (fun idx : Nat => if idx = 1 then (1 : α) else 0) (j * 2 + j) * (fun _ => (0 : α)) j) := by
  refine ⟨?_, fun W' h => del2_congr_W P mu W W' x v h, ?_⟩
  · rw [del2_sum, quad_split P (fun j i => W (j * P + i)) (fun j => x j - mu j) hsym,
      ← Finset.sum_add_distrib]
    refine Finset.sum_congr rfl (fun j _ => ?_)
    ring
  · rw [del2_sum]
    simp only [Finset.sum_Ico_eq_sum_range, Finset.sum_range_succ, Finset.sum_range_zero,
      Nat.reduceAdd, Nat.reduceMul, Nat.reduceSub, Nat.reduceEqDiff, if_true, if_false,
      OfNat.ofNat_ne_one, OfNat.zero_ne_ofNat, Nat.zero_ne_one]
    norm_num

/-- Witness of C25: the symmetric `2 × 2` matrix `((2, 1), (1, 3))`. -/
theorem C25_del2_is_expected_squared_distance_witness :
    del2 2 (fun _ => (1 : ℚ)) (fun idx => if idx = 0 then 2 else if idx = 3 then 3 else 1)
        (fun j => (j : ℚ)) (fun _ => 1 / 2)
      = Finset.sum (Finset.range 2) (fun j => Finset.sum (Finset.range 2) (fun i =>
          ((fun j : Nat => (j : ℚ)) j - (fun _ => (1 : ℚ)) j)
            * (fun idx : Nat => if idx = 0 then (2 : ℚ) else if idx = 3 then 3 else 1) (j * 2 + i)
            * ((fun j : Nat => (j : ℚ)) i - (fun _ => (1 : ℚ)) i)))
        + Finset.sum (Finset.range 2) (fun j =>
            (fun idx : Nat => if idx = 0 then (2 : ℚ) else if idx = 3 then 3 else 1) (j * 2 + j)
              * (fun _ => (1 / 2 : ℚ)) j) :=
  (C25_del2_is_expected_squared_distance 2 (fun _ => (1 : ℚ))
    (fun idx => if idx = 0 then 2 else if idx = 3 then 3 else 1) (fun j => (j : ℚ))
    (fun _ => 1 / 2) (fun i j hi hj => by
      have hi2 : i = 0 ∨ i = 1 := by omega
      have hj2 : j = 0 ∨ j = 1 := by omega
      rcases hi2 with rfl | rfl <;> rcases hj2 with rfl | rfl <;> rfl)).1

/-- C23: for every pattern `code`, `Nresp` is `softmax1` applied in place to the `K` values
`p_in[k] + conN[k] - 0.5 * nu'[k] * del2(Po, mu_k, W_k, x, v)`, `k < K`, where `conN`, `nu'`,
`mu_k = mu + k*Po` and `W_k = W + k*Po*Po` are the entries of the pattern's table; the value
it returns is the one `softmax1` computes from these values, `log(s) + mx` with `mx` their
maximum and `s` the sum of `fastexp(value - mx)`. -/
theorem C23_Nresp_passes_normal_logits_to_softmax1 (m : Libm α) (K : Nat)
    (gmm : Nat → GMMtype) (buf : Nat → α) (code : Nat) (x v p : Nat → α) :
    Nresp m K gmm buf code x v p
      = softmax1 m K
          (fun k => if k < K then
            p k + (buf ((gmm code).conN + k) - (1 / 2) * buf ((gmm code).nu + k) *
              del2 (gmm code).P (shift buf ((gmm code).mu + k * (gmm code).P))
                (shift buf ((gmm code).W + k * ((gmm code).P * (gmm code).P))) x v)
            else p k)
          (fun k => if k < K then
            p k + (buf ((gmm code).conN + k) - (1 / 2) * buf ((gmm code).nu + k) *
              del2 (gmm code).P (shift buf ((gmm code).mu + k * (gmm code).P))
                (shift buf ((gmm code).W + k * ((gmm code).P * (gmm code).P))) x v)
            else p k) ∧
    (Nresp m K gmm buf code x v p).1
      = m.log (Finset.sum (Finset.range K) (fun k =>
          fastexp m (Nresp_logit gmm buf code x v p k
            - softmax1_max K (fun i => if i < K then Nresp_logit gmm buf code x v p i else p i))))
        + softmax1_max K (fun i => if i < K then Nresp_logit gmm buf code x v p i else p i) := by
  refine ⟨Nresp_eq m K gmm buf code x v p, ?_⟩
  rw [Nresp_eq, softmax1_eq]
  dsimp only
  unfold softmax1_norm
  congr 2
  refine Finset.sum_congr rfl (fun k hk => ?_)
  dsimp only
  rw [if_pos (Finset.mem_range.mp hk)]

/-- C24: for every pattern `code`, `Tresp` is the same `softmax1` applied in place to the `K`
values `p_in[k] + conT[k] - 0.5 * (nu[k] + 1) * log(1 + b[k]/(b[k] + 1) * del2(Po, mu_k, W_k,
x, v))`, `k < K`, where `conT`, `nu`, `b`, `mu_k`, `W_k` are the entries of the pattern's
table (the same `nu` cell that `Nresp` reads); the value it returns is the one `softmax1`
computes from these values. -/
theorem C24_Tresp_passes_student_logits_to_softmax1 (m : Libm α) (K : Nat)
    (gmm : Nat → GMMtype) (buf : Nat → α) (code : Nat) (x v p : Nat → α) :
    Tresp m K gmm buf code x v p
      = softmax1 m K
          (fun k => if k < K then
            p k + (buf ((gmm code).conT + k) - (1 / 2) * (buf ((gmm code).nu + k) + 1) *
              m.log (1 + buf ((gmm code).b + k) / (buf ((gmm code).b + k) + 1) *
                del2 (gmm code).P (shift buf ((gmm code).mu + k * (gmm code).P))
                  (shift buf ((gmm code).W + k * ((gmm code).P * (gmm code).P))) x v))
            else p k)
          (fun k => if k < K then
            p k + (buf ((gmm code).conT + k) - (1 / 2) * (buf ((gmm code).nu + k) + 1) *
              m.log (1 + buf ((gmm code).b + k) / (buf ((gmm code).b + k) + 1) *
                del2 (gmm code).P (shift buf ((gmm code).mu + k * (gmm code).P))
                  (shift buf ((gmm code).W + k * ((gmm code).P * (gmm code).P))) x v))
            else p k) ∧
    (Tresp m K gmm buf code x v p).1
      = m.log (Finset.sum (Finset.range K) (fun k =>
          fastexp m (Tresp_logit m gmm buf code x v p k
            - softmax1_max K (fun i => if i < K then Tresp_logit m gmm buf code x v p i else p i))))
        + softmax1_max K (fun i => if i < K then Tresp_logit m gmm buf code x v p i else p i) := by
  refine ⟨Tresp_eq m K gmm buf code x v p, ?_⟩
  rw [Tresp_eq, softmax1_eq]
  dsimp only
  unfold softmax1_norm
  congr 2
  refine Finset.sum_congr rfl (fun k hk => ?_)
  dsimp only
  rw [if_pos (Finset.mem_range.mp hk)]

/-- C26: for every `K` and every `q`, the closed softmax `softmax(K, q, p)` returns the value
and produces the first `K` outputs of `softmax1` applied to the vector
`(q[0], ..., q[K-1], 0)` of length `K + 1` (exact arithmetic); hence, with libm `exp`
positive and `exp 0 = 1`, its outputs are positive, their sum is strictly below `1`, and
the missing mass is the output of the zero-logit class. -/
theorem C26_closed_softmax_has_implicit_zero_logit (m : Libm α) (hm : m.ExpOk) (K : Nat)
    (q p p' : Nat → α) :
    (∀ k, k < K →
      (softmax m K q p).2 k
        = (softmax1 m (K + 1) (fun i => if i < K then q i else 0) p').2 k) ∧
    (softmax m K q p).1 = (softmax1 m (K + 1) (fun i => if i < K then q i else 0) p').1 ∧
    (∀ k, k < K → 0 < (softmax m K q p).2 k) ∧
    Finset.sum (Finset.range K) (fun k => (softmax m K q p).2 k) < 1 ∧
    Finset.sum (Finset.range K) (fun k => (softmax m K q p).2 k)
      + (softmax1 m (K + 1) (fun i => if i < K then q i else 0) p').2 K = 1 := by
  obtain ⟨e1, e2⟩ := softmax_as_softmax1 m K q p p'
  obtain ⟨c1, c2⟩ := softmax1_closure m hm (K + 1) (by omega)
    (fun i => if i < K then q i else 0) p'
  have hsum : Finset.sum (Finset.range K) (fun k => (softmax m K q p).2 k)
      = Finset.sum (Finset.range K) (fun k =>
          (softmax1 m (K + 1) (fun i => if i < K then q i else 0) p').2 k) :=
    Finset.sum_congr rfl (fun k hk => e2 k (Finset.mem_range.mp hk))
  rw [Finset.sum_range_succ] at c2
  refine ⟨e2, e1, fun k hk => ?_, ?_, ?_⟩
  · rw [e2 k hk]; exact (c1 k (by omega)).1
  · rw [hsum]
    have := (c1 K (by omega)).1
    linarith
  · rw [hsum]; exact c2

/-- Witness of C26 on the rational instance with two classes. -/
theorem C26_closed_softmax_has_implicit_zero_logit_witness :
    testLibm.ExpOk ∧
    Finset.sum (Finset.range 2) (fun k =>
      (softmax testLibm 2 (fun k => (k : ℚ) - 1) (fun _ => 0)).2 k) < 1 :=
  ⟨testLibm_expOk,
    (C26_closed_softmax_has_implicit_zero_logit testLibm testLibm_expOk 2
      (fun k => (k : ℚ) - 1) (fun _ => 0) (fun _ => 0)).2.2.2.1⟩

/-- C28: with the shift read mathematically (zero once the count passes the width), for
every `P` and `code < 2^P` the dimension `gmm[code].P` that `allocate_gmm` assigns with its
loop over `i < code` is `popcount(code)`, the `Po` that the loop over `i < P` of
`suffstat_pointers` computes, and `gmm[0].P = 0`. With the shift of C on the 64-bit
`size_t`, the loop over `i < P` has this value for every `P ≤ 64`, and the loop over
`i < code` has it exactly when `code ≤ 64`: for `code > 64` it evaluates `code >> 64`, which
C leaves undefined. At `code = 65` (`P = 7`) the loop of `suffstat_pointers` gives `2`,
the loop of `allocate_gmm` has no defined value, and with the shift count taken modulo `64`
it gives `3`. -/
theorem C28_allocate_gmm_dimension_is_popcount (P K code : Nat) (hc : code < 2 ^ P) :
    (((allocate_gmm_loop P K).tbl code).P = popcount code ∧
      bitcount P code = popcount code ∧ ((allocate_gmm_loop P K).tbl 0).P = 0) ∧
    ((P ≤ 64 → bitcount_c P code = some (popcount code)) ∧
      (code ≤ 64 → bitcount_c code code = some (popcount code)) ∧
      (64 < code → bitcount_c code code = none)) ∧
    (bitcount_c 7 65 = some 2 ∧ bitcount_c 65 65 = none ∧ bitcount_masked 65 65 = 3 ∧
      popcount 65 = 2) := by
  have hpc := bitcount_eq_popcount P code hc
  refine ⟨⟨?_, hpc, ?_⟩, ⟨fun hP => ?_, fun h64 => ?_, fun h64 => bitcount_c_of_gt code code h64⟩,
    ?_, bitcount_c_of_gt 65 65 (by decide), ?_, ?_⟩
  · rw [allocate_gmm_P P K code hc, hpc]
  · rw [allocate_gmm_P P K 0 (Nat.two_pow_pos P), bitcount_zero]
  · rw [bitcount_c_of_le P code hP, hpc]
  · rw [bitcount_c_of_le code code h64, bitcount_self P code hc, hpc]
  · rw [bitcount_c_of_le 7 65 (by decide)]; rfl
  · decide
  · rw [← bitcount_eq_popcount 7 65 (by decide)]; rfl

/-- Witness of C28: `P = 3`, `code = 5`. -/
theorem C28_allocate_gmm_dimension_is_popcount_witness :
    5 < 2 ^ 3 ∧ ((allocate_gmm_loop 3 2).tbl 5).P = popcount 5 ∧ bitcount 3 5 = popcount 5 :=
  ⟨by decide, (C28_allocate_gmm_dimension_is_popcount 3 2 5 (by decide)).1.1,
    (C28_allocate_gmm_dimension_is_popcount 3 2 5 (by decide)).1.2.1⟩

/-- C29: for every `P` and voxel (`mf`, `vf` the views at the voxel), the code returned by
`get_vox` is below `2^P` and has bit `j` set iff the mean of channel `j` is finite (it is
the same for any variances); the number `j1` of entries written is `popcount(code)`: the
cells of `x` and `v` from `popcount(code)` on are untouched, every cell below it holds an
observed channel, and for every observed channel `j` the cell `popcount(code mod 2^j)` of
`x` holds its mean and the same cell of `v` its variance, positions increasing with `j`. -/
theorem C29_get_vox_packs_observed_channels (N1 P : Nat) (mf : Nat → FVal α) (vf : Nat → α)
    (x v : Nat → α) :
    (get_vox N1 P mf vf x v).code < 2 ^ P ∧
    (∀ j, j < P → ((get_vox N1 P mf vf x v).code.testBit j = true ↔
      (mf (j * N1)).isfinite = true)) ∧
    (∀ vf' : Nat → α, (get_vox N1 P mf vf' x v).code = (get_vox N1 P mf vf x v).code) ∧
    (get_vox N1 P mf vf x v).j1 = popcount (get_vox N1 P mf vf x v).code ∧
    (∀ idx, popcount (get_vox N1 P mf vf x v).code ≤ idx →
      (get_vox N1 P mf vf x v).x idx = x idx ∧ (get_vox N1 P mf vf x v).v idx = v idx) ∧
    (∀ j1, j1 < popcount (get_vox N1 P mf vf x v).code →
      ∃ j, j < P ∧ (get_vox N1 P mf vf x v).code.testBit j = true ∧
        popcount ((get_vox N1 P mf vf x v).code % 2 ^ j) = j1) ∧
    (∀ j, j < P → (get_vox N1 P mf vf x v).code.testBit j = true →
      mf (j * N1) = FVal.fin ((get_vox N1 P mf vf x v).x
        (popcount ((get_vox N1 P mf vf x v).code % 2 ^ j))) ∧
      (get_vox N1 P mf vf x v).v (popcount ((get_vox N1 P mf vf x v).code % 2 ^ j))
        = vf (j * N1)) ∧
    (∀ j j', j < j' → (get_vox N1 P mf vf x v).code.testBit j = true →
      popcount ((get_vox N1 P mf vf x v).code % 2 ^ j)
        < popcount ((get_vox N1 P mf vf x v).code % 2 ^ j')) := by
  have hlt := get_vox_code_lt N1 P mf vf x v
  have hpc := bitcount_eq_popcount P _ hlt
  obtain ⟨hA, hB⟩ := get_vox_pack N1 mf vf x v P
  refine ⟨hlt, fun j hj => by rw [get_vox_testBit N1 P mf vf x v j hj],
    fun vf' => get_vox_code_vf N1 P mf vf vf' x v x v, ?_, fun idx hidx => ?_, fun j1 hj1 => ?_,
    fun j hj hb => ?_, fun j j' hjj hb => ?_⟩
  · rw [get_vox_j1, hpc]
  · refine hB idx ?_
    show (get_vox N1 P mf vf x v).j1 ≤ idx
    rw [get_vox_j1, hpc]; exact hidx
  · rw [← hpc] at hj1
    obtain ⟨j, hj, hb, e⟩ := pos_surj P _ j1 hj1
    exact ⟨j, hj, hb, by rw [← bitcount_eq_popcount_mod]; exact e⟩
  · rw [← bitcount_eq_popcount_mod]
    exact hA j hj (by rw [← get_vox_testBit N1 P mf vf x v j hj]; exact hb)
  · rw [← bitcount_eq_popcount_mod, ← bitcount_eq_popcount_mod]
    exact bitcount_lt_of_testBit j' j _ hjj hb

/-- C21, as stated, fails: for the `1 × 1` zero matrix the trace is `0`, so the claimed
floor `(1e-7 * trace)^2` is `0` and the claimed `p[0]` is `sqrt(max(0, 0)) = 0`; `choldc`
starts its sum at `1e-40`, floors the pivot at `(1e-47)^2` and returns `p[0] = 1e-47`. -/
theorem C21_counterexample :
    (choldc testLibm 1 (fun _ => 0) (fun _ => 0)).2 0
      ≠ testLibm.sqrt (max ((fun _ : Nat => (0 : ℚ)) (0 * 1 + 0))
          ((1 / 10 ^ 7 * Finset.sum (Finset.range 1) (fun i => (fun _ : Nat => (0 : ℚ)) (i * 1 + i)))
            ^ 2)) := by
  rw [choldc_one, choldc_floor_one]
  simp only [Function.update_same, Finset.sum_range_one, mul_zero, add_zero]
  have e1 : (0 : ℚ) ≤ 1 / 10 ^ 40 * (1 / 10 ^ 7) * (1 / 10 ^ 40 * (1 / 10 ^ 7)) := by norm_num
  rw [if_pos e1]
  have e2 : max (0 : ℚ) (0 ^ 2) = 0 * 0 := by norm_num
  rw [e2]
  show Rat.sqrt (1 / 10 ^ 40 * (1 / 10 ^ 7) * (1 / 10 ^ 40 * (1 / 10 ^ 7))) ≠ Rat.sqrt (0 * 0)
  rw [Rat.sqrt_eq, Rat.sqrt_eq]
  norm_num

/-- C21 (amended): in `choldc` the floor applied to each squared pivot is exactly
`((1e-40 + trace(A)) * 1e-7)^2`, with `trace(A)` the sum of the diagonal of the input
matrix: a squared pivot `sm = a[i,i] - Σ_{k<i} L[i,k]^2` (`L` the strict lower triangle
that `choldc` leaves in the array) that is `≤` this value is replaced by it, so that
`p[i] = sqrt(max(sm, ((1e-40 + trace(A)) * 1e-7)^2))`. -/
theorem C21_choldc_floor_is_squared_scaled_trace (m : Libm α) (n : Nat) (a p : Nat → α) :
    choldc_floor n a
      = ((1 / 10 ^ 40 + Finset.sum (Finset.range n) (fun i => a (i * n + i))) * (1 / 10 ^ 7)) ^ 2 ∧
    ∀ i, i < n →
      (choldc m n a p).2 i
        = m.sqrt (max (a (i * n + i) - Finset.sum (Finset.range i) (fun k =>
              (choldc m n a p).1 (i * n + k) * (choldc m n a p).1 (i * n + k)))
            (((1 / 10 ^ 40 + Finset.sum (Finset.range n) (fun i => a (i * n + i)))
              * (1 / 10 ^ 7)) ^ 2)) := by
  have hfl : choldc_floor n a
      = ((1 / 10 ^ 40 + Finset.sum (Finset.range n) (fun i => a (i * n + i))) * (1 / 10 ^ 7)) ^ 2 := by
    rw [choldc_floor_trace, sq]
  refine ⟨hfl, fun i hi => ?_⟩
  rw [(choldc_general m n a p).2.1 i hi, hfl, max_def]

/-- C22: for every `n` and every symmetric positive semi-definite (possibly singular)
`n × n` input, with a libm `sqrt` that is positive on positive numbers: the pivot floor of
`choldc` is positive, every pivot `p[i]` that `choldc` produces is positive, and `choldc`,
`cholls` (on the factor) and `invert` run without a fault: no division is by zero and no
square root or logarithm is taken of a number that is not positive, so the checked
functions return the results of the plain ones. -/
theorem C22_floored_pivots_are_positive (m : Libm α) (hsq : m.SqrtPos) (n : Nat)
    (a p S T : Nat → α) (hpsd : IsPSD n a) :
    0 < choldc_floor n a ∧
    (∀ i, i < n → 0 < (choldc m n a p).2 i) ∧
    choldc_chk m n a p = some (choldc m n a p) ∧
    (∀ b x : Nat → α, cholls_chk n (choldc m n a p).1 (choldc m n a p).2 b x
      = some (cholls n (choldc m n a p).1 (choldc m n a p).2 b x)) ∧
    invert_chk m n a S T = some (invert m n a S T) ∧
    (∀ j, j < n → 0 < (invert m n a S T).2.2 (n * n + j)) := by
  have hd := psd_diag_nonneg n a hpsd
  have hfl := choldc_floor_pos n a hd
  obtain ⟨c1, c2⟩ := choldc_chk_ok m hsq n a p hfl
  obtain ⟨i1, i2⟩ := invert_chk_ok m hsq n a S T hd
  exact ⟨hfl, c2, c1, fun b x => cholls_chk_ok n _ _ b x (fun i hi => ne_of_gt (c2 i hi)),
    i1, i2⟩

/-- Witness of C22 over the reals with the real `sqrt`: the singular `2 × 2` matrix of
ones. -/
theorem C22_floored_pivots_are_positive_witness :
    (fun m : Libm ℝ =>
      m.SqrtPos ∧ IsPSD 2 (fun _ => (1 : ℝ)) ∧
      0 < (choldc m 2 (fun _ => 1) (fun _ => 0)).2 1 ∧
      invert_chk m 2 (fun _ => 1) (fun _ => 0) (fun _ => 0)
        = some (invert m 2 (fun _ => 1) (fun _ => 0) (fun _ => 0)))
      ⟨Real.exp, Real.log, Real.sqrt, fun x => Real.log (Real.Gamma x)⟩ := by
  have hsq : (⟨Real.exp, Real.log, Real.sqrt, fun x => Real.log (Real.Gamma x)⟩ : Libm ℝ).SqrtPos :=
    fun x hx => Real.sqrt_pos.mpr hx
  have hpsd : IsPSD 2 (fun _ => (1 : ℝ)) := by
    refine ⟨fun _ _ _ _ => rfl, fun z => ?_⟩
    simp only [Finset.sum_range_succ, Finset.sum_range_zero]
    nlinarith [sq_nonneg (z 0 + z 1)]
  have h := C22_floored_pivots_are_positive _ hsq 2 (fun _ => (1 : ℝ)) (fun _ => 0)
    (fun _ => 0) (fun _ => 0) hpsd
  exact ⟨hsq, hpsd, h.2.1 1 (by decide), h.2.2.2.2.1⟩

/-- C31: in `INUgrads` (bounds accepted, pattern table with the bit counts as dimensions,
`index` made by `make_index` for a channel `ic < P`, libm `exp` positive), at every written
voxel (visited, prior finite for every class, pattern `code` holding channel `ic`): when
`nu'[k] ≥ 0` and `W_k[nc, nc] ≥ 0` for every class `k < K` of the pattern and the packed
variance `v_nc ≥ 0`, the cells `g1[i]`, `g2[i]` hold finite values `G`, `H` with `H ≥ 1`
and `G < H`, so that the Newton step `G / H` is below one. -/
theorem C31_hessian_at_least_one_and_above_gradient (m : Libm α) (hm : m.ExpOk)
    (nf : Nat → Nat) (mf : Nat → FVal α)
    (vf : Nat → α) (K : Nat) (gmm : Nat → GMMtype) (buf : Nat → α) (nm skip lkp : Nat → Nat)
    (lp : Nat → FVal α) (ic : Nat) (index0 : Nat → Nat) (scr : Scratch α)
    (g1 g2 : Nat → FVal α)
    (hb : ¬ boundFails (nf 3) K)
    (hg : ∀ code, code < 2 ^ nf 3 → (gmm code).P = bitcount (nf 3) code)
    (hic : ic < nf 3)
    (i0 i1 i2 : Nat) (hi0 : i0 < extent nf nm skip 0) (hi1 : i1 < extent nf nm skip 1)
    (hi2 : i2 < extent nf nm skip 2)
    (hpr : priorOk K (nm 0 * nm 1 * nm 2) lkp lp
      (i0 * skip 0 + nm 0 * (i1 * skip 1 + nm 1 * i2 * skip 2)) = true)
    (hbit : (voxCode (nf 0 * nf 1 * nf 2) (nf 3) mf vf (i0 + nf 0 * (i1 + nf 1 * i2))).testBit ic
      = true)
    (hnu : ∀ k, k < K → 0 ≤ buf ((gmm (voxCode (nf 0 * nf 1 * nf 2) (nf 3) mf vf
      (i0 + nf 0 * (i1 + nf 1 * i2)))).nu + k))
    (hW : ∀ k, k < K → 0 ≤ buf ((gmm (voxCode (nf 0 * nf 1 * nf 2) (nf 3) mf vf
        (i0 + nf 0 * (i1 + nf 1 * i2)))).W
      + (make_index (nf 3) ic index0 (voxCode (nf 0 * nf 1 * nf 2) (nf 3) mf vf
            (i0 + nf 0 * (i1 + nf 1 * i2)))
          + (gmm (voxCode (nf 0 * nf 1 * nf 2) (nf 3) mf vf (i0 + nf 0 * (i1 + nf 1 * i2)))).P
            * (make_index (nf 3) ic index0 (voxCode (nf 0 * nf 1 * nf 2) (nf 3) mf vf
                (i0 + nf 0 * (i1 + nf 1 * i2)))
              + (gmm (voxCode (nf 0 * nf 1 * nf 2) (nf 3) mf vf
                  (i0 + nf 0 * (i1 + nf 1 * i2)))).P * k))))
    (hv : 0 ≤ voxV (nf 0 * nf 1 * nf 2) (nf 3) mf vf (i0 + nf 0 * (i1 + nf 1 * i2))
      (make_index (nf 3) ic index0 (voxCode (nf 0 * nf 1 * nf 2) (nf 3) mf vf
        (i0 + nf 0 * (i1 + nf 1 * i2))))) :
    ∃ G H : α,
      (INUgrads m nf mf vf K gmm buf nm skip lkp lp (make_index (nf 3) ic index0) scr g1 g2).2.1
          (i0 + nf 0 * (i1 + nf 1 * i2)) = FVal.fin G ∧
      (INUgrads m nf mf vf K gmm buf nm skip lkp lp (make_index (nf 3) ic index0) scr g1 g2).2.2
          (i0 + nf 0 * (i1 + nf 1 * i2)) = FVal.fin H ∧
      1 ≤ H ∧ G < H ∧ G / H < 1 := by
  have hidx : make_index (nf 3) ic index0
        (voxCode (nf 0 * nf 1 * nf 2) (nf 3) mf vf (i0 + nf 0 * (i1 + nf 1 * i2)))
      = bitcount ic (voxCode (nf 0 * nf 1 * nf 2) (nf 3) mf vf (i0 + nf 0 * (i1 + nf 1 * i2))) := by
    rw [make_index_eq, if_pos (voxCode_lt _ _ _ _ _), if_pos hbit]
  have hP : nf 3 < 50 := by
    unfold boundFails MaxChan at hb
    omega
  have hle := bitcount_le ic
    (voxCode (nf 0 * nf 1 * nf 2) (nf 3) mf vf (i0 + nf 0 * (i1 + nf 1 * i2)))
  obtain ⟨e1, e2⟩ := INUgrads_hit m nf mf vf K gmm buf nm skip lkp lp
    (make_index (nf 3) ic index0) scr g1 g2 hb hg i0 i1 i2 hi0 hi1 hi2
    (contributes_of_testBit _ _ K mf vf _ lkp lp _ _ ic hpr hbit)
    (by rw [hidx]; exact undefined_gt _ (by omega))
    (by rw [hidx]; exact bitcount_lt_of_testBit _ _ _ hic hbit)
  have h1 := voxHess_ge_one m hm (nf 0 * nf 1 * nf 2) (nf 3) K mf vf gmm buf (nm 0 * nm 1 * nm 2)
    lkp lp (make_index (nf 3) ic index0) (i0 + nf 0 * (i1 + nf 1 * i2))
    (i0 * skip 0 + nm 0 * (i1 * skip 1 + nm 1 * i2 * skip 2)) hnu hW hv
  exact ⟨_, _, e1, e2, guarded_hessian _ _ h1⟩

/-- Witness of C31 on the test volume: channel 1 at voxel 0. -/
theorem C31_hessian_at_least_one_and_above_gradient_witness :
    testLibm.ExpOk ∧ ¬ boundFails (testNf 3) 2 ∧ 1 < testNf 3 ∧
    0 < extent testNf testNf (fun _ => 1) 0 ∧
    ∃ G H : ℚ,
      (INUgrads testLibm testNf testMf (fun _ => 1) 2 (allocate_gmm_loop 2 2).tbl (fun _ => 1)
        testNf (fun _ => 1) (fun k => k) testLp (make_index (testNf 3) 1 (fun _ => 0)) testScr
        (fun _ => FVal.nan) (fun _ => FVal.nan)).2.1 (0 + testNf 0 * (0 + testNf 1 * 0))
          = FVal.fin G ∧
      (INUgrads testLibm testNf testMf (fun _ => 1) 2 (allocate_gmm_loop 2 2).tbl (fun _ => 1)
        testNf (fun _ => 1) (fun k => k) testLp (make_index (testNf 3) 1 (fun _ => 0)) testScr
        (fun _ => FVal.nan) (fun _ => FVal.nan)).2.2 (0 + testNf 0 * (0 + testNf 1 * 0))
          = FVal.fin H ∧
      1 ≤ H ∧ G < H ∧ G / H < 1 := by
  have hpr : priorOk 2 (testNf 0 * testNf 1 * testNf 2) (fun k => k) testLp
      (0 * (fun _ => 1 : Nat → Nat) 0
        + testNf 0 * (0 * (fun _ => 1 : Nat → Nat) 1 + testNf 1 * 0 * (fun _ => 1 : Nat → Nat) 2))
      = true :=
    (get_priors_ok_iff _ _ 2 _ _).mpr (fun _ _ => rfl)
  have hbit : (voxCode (testNf 0 * testNf 1 * testNf 2) (testNf 3) testMf (fun _ => (1 : ℚ))
      (0 + testNf 0 * (0 + testNf 1 * 0))).testBit 1 = true :=
    (get_vox_testBit _ (testNf 3) _ _ _ _ 1 (by decide)).trans (by decide)
  exact ⟨testLibm_expOk, by decide, by decide, by decide,
    C31_hessian_at_least_one_and_above_gradient testLibm testLibm_expOk testNf testMf
      (fun _ => 1) 2 (allocate_gmm_loop 2 2).tbl (fun _ => 1) testNf (fun _ => 1) (fun k => k)
      testLp 1 (fun _ => 0) testScr (fun _ => FVal.nan) (fun _ => FVal.nan) (by decide)
      (fun code h => allocate_gmm_P 2 2 code h) (by decide) 0 0 0 (by decide) (by decide)
      (by decide) hpr hbit (fun _ _ => zero_le_one) (fun _ _ => zero_le_one)
      (voxV_nonneg _ _ _ _ _ (fun _ => zero_le_one) _)⟩

/-- C32, as stated, fails for `K = 0`: on the test volume (`2 × 2 × 2`, two channels) all
eight voxels have a finite channel mean and, there being no class, an all-finite prior
lookup, so eight voxels contribute; but `s0` has no cell, and its sum over all patterns
and classes is `0`. -/
theorem C32_counterexample :
    Finset.sum (Finset.range (2 ^ testNf 3)) (fun code => Finset.sum (Finset.range 0) (fun k =>
      (suffstats_missing testLibm testNf testMf (fun _ => 1) 0 (allocate_gmm_loop 2 0).tbl
        (fun _ => 1) testNf (fun _ => 1) (fun k => k) testLp
        (suffstat_pointers_loop (testNf 3) 0).tbl testScr
        ⟨fun _ => 0, fun _ => 0, fun _ => 0⟩).2.s0
        (((suffstat_pointers_loop (testNf 3) 0).tbl code).s0 + k))) = 0 ∧
    contributingCount testNf testMf (fun _ => (1 : ℚ)) 0 testNf (fun _ => 1) (fun k => k)
      testLp = 8 ∧
    ((0 : ℚ) ≠ ((8 : Nat) : ℚ)) := by
  refine ⟨by simp, ?_, by norm_num⟩
  decide


/-- C32 (amended): over exact arithmetic (libm `exp` positive, `exp(0) = 1`), with `K ≥ 1`, the
layout of `suffstat_pointers` and a pattern table whose dimensions are the bit counts of
the codes: after `suffstats_missing` run on zeroed statistics buffers, the sum of `s0` over
all patterns `code < 2^P` and classes `k < K` is the number of contributing voxels, that
is, of the visited lattice points whose voxel has at least one finite channel mean and a
prior lookup that is finite for every class. -/
theorem C32_total_occupancy_counts_contributing_voxels (m : Libm α) (hm : m.ExpOk)
    (nf : Nat → Nat) (mf : Nat → FVal α) (vf : Nat → α) (K : Nat) (hK : 1 ≤ K)
    (gmm : Nat → GMMtype) (buf : Nat → α) (nm skip lkp : Nat → Nat) (lp : Nat → FVal α)
    (scr : Scratch α)
    (hg : ∀ code, code < 2 ^ nf 3 → (gmm code).P = bitcount (nf 3) code) :
    Finset.sum (Finset.range (2 ^ nf 3)) (fun code => Finset.sum (Finset.range K) (fun k =>
      (suffstats_missing m nf mf vf K gmm buf nm skip lkp lp
        (suffstat_pointers_loop (nf 3) K).tbl scr ⟨fun _ => 0, fun _ => 0, fun _ => 0⟩).2.s0
        (((suffstat_pointers_loop (nf 3) K).tbl code).s0 + k)))
      = ((contributingCount nf mf vf K nm skip lkp lp : Nat) : α) ∧
    (∀ i im, contributes (nf 0 * nf 1 * nf 2) (nf 3) K mf vf (nm 0 * nm 1 * nm 2) lkp lp i im ↔
      ((∃ j, j < nf 3 ∧ (mf (i + j * (nf 0 * nf 1 * nf 2))).isfinite = true) ∧
       (∀ k, k < K → (lp (im + nm 0 * nm 1 * nm 2 * lkp k)).isfinite = true))) := by
  refine ⟨?_, fun i im => contributes_iff_finite _ _ K mf vf _ lkp lp i im⟩
  rw [total_occupancy m hm nf mf vf K hK gmm buf nm skip lkp lp scr
    ⟨fun _ => 0, fun _ => 0, fun _ => 0⟩ hg, latticeSum_indicator]
  simp

/-- Witness of C32 on the test volume (`2 × 2 × 2`, two channels, two classes, voxel 3
without its second channel): all eight voxels contribute. -/
theorem C32_total_occupancy_counts_contributing_voxels_witness :
    testLibm.ExpOk ∧ 1 ≤ 2 ∧
    (∀ code, code < 2 ^ testNf 3 → ((allocate_gmm_loop 2 2).tbl code).P = bitcount (testNf 3) code) ∧
    Finset.sum (Finset.range (2 ^ testNf 3)) (fun code => Finset.sum (Finset.range 2) (fun k =>
      (suffstats_missing testLibm testNf testMf (fun _ => 1) 2 (allocate_gmm_loop 2 2).tbl
        (fun _ => 1) testNf (fun _ => 1) (fun k => k) testLp
        (suffstat_pointers_loop (testNf 3) 2).tbl testScr
        ⟨fun _ => 0, fun _ => 0, fun _ => 0⟩).2.s0
        (((suffstat_pointers_loop (testNf 3) 2).tbl code).s0 + k)))
      = ((contributingCount testNf testMf (fun _ => (1 : ℚ)) 2 testNf (fun _ => 1) (fun k => k)
          testLp : Nat) : ℚ) :=
  ⟨testLibm_expOk, by decide, fun code h => allocate_gmm_P 2 2 code h, by
    have h := (C32_total_occupancy_counts_contributing_voxels testLibm testLibm_expOk testNf
      testMf (fun _ => 1) 2 (by decide) (allocate_gmm_loop 2 2).tbl (fun _ => 1) testNf
      (fun _ => 1) (fun k => k) testLp testScr (fun code h => allocate_gmm_P 2 2 code h)).1
    convert h using 2⟩

/-- C33: `space_needed(P, K)` returns the exact sizes (`m0 = Σ_{m ≤ P} K*C(P,m) = K*2^P`,
`m1 = Σ_m K*C(P,m)*m = Σ_{code < 2^P} K*popcount(code)`,
`m2 = Σ_m K*C(P,m)*m^2 = Σ_{code < 2^P} K*popcount(code)^2`), every read of `factorial`
inside its table and nothing wrapping around, for `K < 128` and `P ≤ 19`, and for `P = 20`
when `K ≤ 7`. It does not for every `P < 50`, `K < 128`: from `P = 21` on `factorial(P)`
reads outside the 21 entries of its table (no value in the model), and at `P = 20`, `K = 8`
the product `K * 20!` wraps around and the sizes returned are `438091`, `4380910`,
`45999314` instead of `8388608`, `83886080`, `880803840`. -/
theorem C33_space_needed_exact_up_to_19_channels :
    (∀ P K, (P ≤ 19 ∧ K < 128) ∨ (P = 20 ∧ K ≤ 7) →
      space_needed P K = some
        (Finset.sum (Finset.range (P + 1)) (fun m => K * P.choose m),
         Finset.sum (Finset.range (P + 1)) (fun m => K * P.choose m * m),
         Finset.sum (Finset.range (P + 1)) (fun m => K * P.choose m * m * m)) ∧
      space_needed P K = some (K * 2 ^ P, offsetOf (fun c => K * bitcount P c) (2 ^ P),
        offsetOf (fun c => K * bitcount P c * bitcount P c) (2 ^ P))) ∧
    (∀ P K, 21 ≤ P → space_needed P K = none) ∧
    ¬ boundFails 21 1 ∧ ¬ boundFails 20 8 ∧
    space_needed 20 8 = some (438091, 4380910, 45999314) ∧
    (438091, 4380910, 45999314) ≠ (8 * 2 ^ 20, 8 * (20 * 2 ^ 19), 8 * (20 * 21 * 2 ^ 18)) := by
  have hex : ∀ P K, (P ≤ 19 ∧ K < 128) ∨ (P = 20 ∧ K ≤ 7) →
      space_needed P K = some
        (Finset.sum (Finset.range (P + 1)) (fun m => K * P.choose m),
         Finset.sum (Finset.range (P + 1)) (fun m => K * P.choose m * m),
         Finset.sum (Finset.range (P + 1)) (fun m => K * P.choose m * m * m)) := by
    intro P K h
    have hP : P ≤ 20 := by omega
    have hK : K < 128 := by omega
    have h20 : Nat.factorial 20 = 2432902008176640000 := by decide
    have h19 : Nat.factorial 19 = 121645100408832000 := by decide
    have hf : K * Nat.factorial P < 2 ^ 64 := by
      rcases h with ⟨h1, h2⟩ | ⟨h1, h2⟩
      · have a1 : Nat.factorial P ≤ Nat.factorial 19 := Nat.factorial_le h1
        have a2 : K * Nat.factorial P ≤ 127 * Nat.factorial 19 :=
          Nat.mul_le_mul (by omega) a1
        rw [h19] at a2
        omega
      · subst h1
        have a2 : K * Nat.factorial 20 ≤ 7 * Nat.factorial 20 := Nat.mul_le_mul_right _ h2
        rw [h20] at a2 ⊢
        omega
    have hS : K * 2 ^ P * (P * P + 1) < 2 ^ 64 := by
      have a1 : 2 ^ P ≤ 2 ^ 20 := Nat.pow_le_pow_right (by omega) hP
      have a2 : P * P ≤ 20 * 20 := Nat.mul_le_mul hP hP
      have a3 : K * 2 ^ P ≤ 127 * 2 ^ 20 := Nat.mul_le_mul (by omega) a1
      have a4 : K * 2 ^ P * (P * P + 1) ≤ 127 * 2 ^ 20 * (20 * 20 + 1) :=
        Nat.mul_le_mul a3 (by omega)
      omega
    exact space_needed_exact P K hP hf hS
  refine ⟨fun P K h => ⟨hex P K h, ?_⟩, fun P K h => space_needed_outside P K h,
    by unfold boundFails MaxChan; omega, by unfold boundFails MaxChan; omega, ?_, by decide⟩
  · rw [hex P K h, (choose_sums P K).1, (choose_sums P K).2.1, (choose_sums P K).2.2]
  · decide

/-- C34: over exact arithmetic (`sqrt` of a positive number positive and exact), for every
`n`, every symmetric `n × n` array `A` on which `choldc` replaces no pivot by its floor
(each squared pivot `A[i,i] - Σ_{k<i} L[i,k]^2` is above the floor) and every `b`: the
lower-triangular matrix `L` left by `choldc` (strict lower triangle in `a[j*n+i]`, `j > i`,
diagonal in `p`) has a positive diagonal and satisfies `L Lᵀ = A`, and `cholls` on the
results of `choldc` returns `x` with `A x = b`, leaving the cells of `x` from `n` on
untouched. -/
theorem C34_choldc_factors_and_cholls_solves (m : Libm α) (hx : m.SqrtExact) (n : Nat)
    (a p b x : Nat → α)
    (hsym : ∀ i j, i < n → j < n → a (i * n + j) = a (j * n + i))
    (hnf : ∀ i, i < n → choldc_floor n a < cholPivot m n a p i) :
    (∀ r c, r < c → c < n → cholLeft n (choldc m n a p) r c = 0) ∧
    (∀ i, i < n → 0 < cholLeft n (choldc m n a p) i i) ∧
    (∀ i j, i < n → j < n →
      Finset.sum (Finset.range n) (fun k =>
        cholLeft n (choldc m n a p) i k * cholLeft n (choldc m n a p) j k) = a (i * n + j)) ∧
    (∀ r, r < n →
      Finset.sum (Finset.range n) (fun c =>
        a (r * n + c) * cholls n (choldc m n a p).1 (choldc m n a p).2 b x c) = b r) ∧
    (∀ k, n ≤ k → cholls n (choldc m n a p).1 (choldc m n a p).2 b x k = x k) := by
  obtain ⟨hLT, hpos, hA, _⟩ := choldc_run_factor m hx n a p hsym hnf
  obtain ⟨s1, s2⟩ := cholls_spec n (choldc m n a p).1 (choldc m n a p).2 b x
    (cholLeft n (choldc m n a p)) hLT hpos
    (fun r c hc _ => by unfold cholLeft; rw [if_pos hc])
    (fun r _ => by unfold cholLeft; rw [if_neg (by omega), if_pos rfl])
  refine ⟨hLT, hpos, fun i j hi hj => (hA i j hi hj).symm, fun r hr => ?_, s2⟩
  rw [← s1 r hr]
  exact Finset.sum_congr rfl (fun c hc => by rw [hA r c hr (Finset.mem_range.mp hc)])

/-- Witness of C34 over the reals with the real `sqrt`: the `1 × 1` matrix `(4)` and the
right-hand side `(6)`. -/
theorem C34_choldc_factors_and_cholls_solves_witness :
    (⟨Real.exp, Real.log, Real.sqrt, fun x => Real.log (Real.Gamma x)⟩ : Libm ℝ).SqrtExact ∧
    (∀ i j, i < 1 → j < 1 →
      (fun _ => (4 : ℝ) : Nat → ℝ) (i * 1 + j) = (fun _ => (4 : ℝ) : Nat → ℝ) (j * 1 + i)) ∧
    (∀ i, i < 1 → choldc_floor 1 (fun _ => (4 : ℝ))
      < cholPivot (⟨Real.exp, Real.log, Real.sqrt, fun x => Real.log (Real.Gamma x)⟩ : Libm ℝ)
          1 (fun _ => 4) (fun _ => 0) i) ∧
    (∀ r, r < 1 →
      Finset.sum (Finset.range 1) (fun c =>
        (fun _ => (4 : ℝ) : Nat → ℝ) (r * 1 + c) *
          cholls 1
            (choldc (⟨Real.exp, Real.log, Real.sqrt, fun x => Real.log (Real.Gamma x)⟩ : Libm ℝ)
              1 (fun _ => 4) (fun _ => 0)).1
            (choldc (⟨Real.exp, Real.log, Real.sqrt, fun x => Real.log (Real.Gamma x)⟩ : Libm ℝ)
              1 (fun _ => 4) (fun _ => 0)).2 (fun _ => 6) (fun _ => 0) c)
        = (fun _ => (6 : ℝ) : Nat → ℝ) r) := by
  have hx : (⟨Real.exp, Real.log, Real.sqrt, fun x => Real.log (Real.Gamma x)⟩ :
      Libm ℝ).SqrtExact :=
    fun x h => ⟨Real.sqrt_pos.mpr h, Real.mul_self_sqrt (le_of_lt h)⟩
  have hsym : ∀ i j, i < 1 → j < 1 →
      (fun _ => (4 : ℝ) : Nat → ℝ) (i * 1 + j) = (fun _ => (4 : ℝ) : Nat → ℝ) (j * 1 + i) :=
    fun _ _ _ _ => rfl
  have hnf : ∀ i, i < 1 → choldc_floor 1 (fun _ => (4 : ℝ))
      < cholPivot (⟨Real.exp, Real.log, Real.sqrt, fun x => Real.log (Real.Gamma x)⟩ : Libm ℝ)
          1 (fun _ => 4) (fun _ => 0) i := by
    intro i hi
    have e : i = 0 := by omega
    subst e
    rw [choldc_floor_trace]
    unfold cholPivot
    norm_num
  exact ⟨hx, hsym, hnf,
    (C34_choldc_factors_and_cholls_solves _ hx 1 (fun _ => 4) (fun _ => 0) (fun _ => 6)
      (fun _ => 0) hsym hnf).2.2.2.1⟩

/-- C35: in the voxel loops of `suffstats_missing` and `INUgrads`, for strides `skip[d] ≥ 1`
and a visited lattice point `(i0, i1, i2)`, `i_d < extent d = min(nm[d]/skip[d], nf[d])`:
the data index `i = i0 + nf[0]*(i1 + nf[1]*i2)` is below `Nf = nf[0]*nf[1]*nf[2]` (so the
reads `mf[i + j*Nf]`, `j < nf[3]`, are inside the data volume) and the prior index
`im = i0*skip[0] + nm[0]*(i1*skip[1] + nm[1]*i2*skip[2])` is below `Nm = nm[0]*nm[1]*nm[2]`;
with `lkp[k] < nm[3]` for the classes `k < K`, every index `im + Nm*lkp[k]` read by
`get_priors` is below `Nm*nm[3]`, and `get_priors` at the voxel gives the same result on
any two prior arrays that agree inside the prior volume. -/
theorem C35_lattice_indices_stay_inside_volumes (nf nm skip lkp : Nat → Nat) (K : Nat)
    (hs : ∀ d, d < 3 → 1 ≤ skip d)
    (i0 i1 i2 : Nat) (hi0 : i0 < extent nf nm skip 0) (hi1 : i1 < extent nf nm skip 1)
    (hi2 : i2 < extent nf nm skip 2)
    (hl : ∀ k, k < K → lkp k < nm 3) :
    i0 + nf 0 * (i1 + nf 1 * i2) < nf 0 * nf 1 * nf 2 ∧
    (∀ j, j < nf 3 → i0 + nf 0 * (i1 + nf 1 * i2) + j * (nf 0 * nf 1 * nf 2)
      < nf 0 * nf 1 * nf 2 * nf 3) ∧
    i0 * skip 0 + nm 0 * (i1 * skip 1 + nm 1 * i2 * skip 2) < nm 0 * nm 1 * nm 2 ∧
    (∀ k, k < K →
      i0 * skip 0 + nm 0 * (i1 * skip 1 + nm 1 * i2 * skip 2) + nm 0 * nm 1 * nm 2 * lkp k
        < nm 0 * nm 1 * nm 2 * nm 3) ∧
    (∀ (lp lp' : Nat → FVal α) (p : Nat → α),
      (∀ idx, idx < nm 0 * nm 1 * nm 2 * nm 3 → lp idx = lp' idx) →
      get_priors (nm 0 * nm 1 * nm 2)
          (shift lp (i0 * skip 0 + nm 0 * (i1 * skip 1 + nm 1 * i2 * skip 2))) K lkp p
        = get_priors (nm 0 * nm 1 * nm 2)
          (shift lp' (i0 * skip 0 + nm 0 * (i1 * skip 1 + nm 1 * i2 * skip 2))) K lkp p) := by
  obtain ⟨a0, b0⟩ := extent_bounds nf nm skip 0 i0 (hs 0 (by omega)) hi0
  obtain ⟨a1, b1⟩ := extent_bounds nf nm skip 1 i1 (hs 1 (by omega)) hi1
  obtain ⟨a2, b2⟩ := extent_bounds nf nm skip 2 i2 (hs 2 (by omega)) hi2
  have hf := box_index_lt (nf 0) (nf 1) (nf 2) i0 i1 i2 a0 a1 a2
  have hm : i0 * skip 0 + nm 0 * (i1 * skip 1 + nm 1 * i2 * skip 2) < nm 0 * nm 1 * nm 2 := by
    have := box_index_lt (nm 0) (nm 1) (nm 2) (i0 * skip 0) (i1 * skip 1) (i2 * skip 2) b0 b1 b2
    rw [Nat.mul_assoc (nm 1)]
    exact this
  have top : ∀ (N x n c : Nat), x < N → c < n → x + N * c < N * n := by
    intro N x n c hx hc
    have h1 : N * (c + 1) ≤ N * n := Nat.mul_le_mul_left _ hc
    have e : N * (c + 1) = N * c + N := by ring
    omega
  have hk : ∀ k, k < K →
      i0 * skip 0 + nm 0 * (i1 * skip 1 + nm 1 * i2 * skip 2) + nm 0 * nm 1 * nm 2 * lkp k
        < nm 0 * nm 1 * nm 2 * nm 3 := fun k hk => top _ _ _ _ hm (hl k hk)
  refine ⟨hf, fun j hj => ?_, hm, hk, fun lp lp' p h => ?_⟩
  · rw [Nat.mul_comm j]
    exact top _ _ _ _ hf hj
  · unfold get_priors
    refine get_priors_loop_congr _ _ _ lkp K 0 p (fun k _ h2 => ?_)
    unfold shift
    exact h _ (hk k (by omega))

/-- Witness of C35: the last voxel of a `4 × 4 × 4` prior grid sampled with stride 2 into a
`2 × 2 × 2` data grid, two classes. -/
theorem C35_lattice_indices_stay_inside_volumes_witness :
    (∀ d, d < 3 → 1 ≤ (fun _ => 2 : Nat → Nat) d) ∧
    1 < extent (fun _ => 2) (fun d => if d = 3 then 2 else 4) (fun _ => 2) 0 ∧
    1 + 2 * (1 + 2 * 1) < 2 * 2 * 2 ∧
    1 * 2 + 4 * (1 * 2 + 4 * 1 * 2) < 4 * 4 * 4 :=
  ⟨fun _ _ => (by decide : 1 ≤ 2), by decide,
    (C35_lattice_indices_stay_inside_volumes (α := ℚ) (fun _ => 2)
      (fun d => if d = 3 then 2 else 4) (fun _ => 2) (fun k => k) 2 (fun _ _ => (by decide : 1 ≤ 2))
      1 1 1 (by decide) (by decide) (by decide) (fun k hk => hk)).1,
    (C35_lattice_indices_stay_inside_volumes (α := ℚ) (fun _ => 2)
      (fun d => if d = 3 then 2 else 4) (fun _ => 2) (fun k => k) 2 (fun _ _ => (by decide : 1 ≤ 2))
      1 1 1 (by decide) (by decide) (by decide) (fun k hk => hk)).2.2.1⟩

/-- C36: with the bit count of `allocate_gmm` taken with the mathematical shift, for `P`,
`K` on which `space_needed` returns the exact sizes `n0 = K*2^P`,
`n1 = Σ_code K*popcount(code)`, `n2 = Σ_code K*popcount(code)^2`: every pattern
`code < 2^P` gets the dimension `Po = popcount(code)`; the final offset of `allocate_gmm`
is `5*n0 + n1 + n2`; the `7 * 2^P` views (`mu`, `b`, `W`, `nu`, `gam`, `conN`, `conT` of
code 0, then of code 1, …), of lengths `K*Po`, `K`, `K*Po^2`, `K`, `K`, `K`, `K`, lie
inside the `5*n0 + n1 + n2` cells, come one after the other without overlap and cover all
of them; every cell that `sub_gmm` writes for a class `k < K` of a pattern lies inside one
of the seven views of that pattern, below the final offset; and the buffer that `sub_gmm`
returns is untouched (zero) from the final offset on. With the shift count taken modulo 64
instead (what the loop `i < code` of `allocate_gmm` meets for `code > 64`), the final offset
for `P = 7`, `K = 1` is `6432`, beyond the `5*128 + 448 + 1792 = 2880` cells allocated. -/
theorem C36_gmm_views_tile_the_allocation (m : Libm α) (P K n0 n1 n2 : Nat)
    (mu b W nu gam : Nat → α)
    (hsp : space_needed P K = some (n0, n1, n2))
    (h0 : n0 = K * 2 ^ P)
    (h1 : n1 = offsetOf (fun c => K * bitcount P c) (2 ^ P))
    (h2 : n2 = offsetOf (fun c => K * bitcount P c * bitcount P c) (2 ^ P)) :
    (∀ code, code < 2 ^ P → ((allocate_gmm_loop P K).tbl code).P = bitcount P code) ∧
    (allocate_gmm_loop P K).o = 5 * n0 + n1 + n2 ∧
    Tiles (7 * 2 ^ P) (fun i => gmmViewStart ((allocate_gmm_loop P K).tbl (i / 7)) (i % 7))
      (fun i => gmmViewLen K ((allocate_gmm_loop P K).tbl (i / 7)).P (i % 7))
      (5 * n0 + n1 + n2) ∧
    (∀ code k idx, code < 2 ^ P → k < K → GmmCell ((allocate_gmm_loop P K).tbl code) k idx →
      idx < 5 * n0 + n1 + n2 ∧
      ∃ t, t < 7 ∧ gmmViewStart ((allocate_gmm_loop P K).tbl code) t ≤ idx ∧
        idx < gmmViewStart ((allocate_gmm_loop P K).tbl code) t
          + gmmViewLen K ((allocate_gmm_loop P K).tbl code).P t) ∧
    (∃ buf, sub_gmm m true true P K mu b W nu gam = some ((allocate_gmm_loop P K).tbl, buf) ∧
      ∀ idx, 5 * n0 + n1 + n2 ≤ idx → buf idx = 0) ∧
    (space_needed 7 1 = some (128, 448, 1792) ∧ allocate_gmm_masked_end 7 1 = 6432) := by
  have htot : (allocate_gmm_loop P K).o = 5 * n0 + n1 + n2 := by
    rw [allocate_gmm_final, offsetOf_gmmSize P K (2 ^ P) (le_refl _), h0, h1, h2]
  have hdiv : ∀ i, i < 7 * 2 ^ P → i / 7 < 2 ^ P := fun i hi => by omega
  refine ⟨fun code hc => allocate_gmm_P P K code hc, htot, ?_, ?_, ?_, allocate_gmm_masked_end_seven⟩
  · have ht := offsetOf_tiles (fun i => gmmViewLen K (bitcount (i / 7) (i / 7)) (i % 7))
      (7 * 2 ^ P)
    rw [offsetOf_views_block, ← allocate_gmm_final P K, htot] at ht
    refine Tiles_congr_size (Tiles_congr ht (fun i hi => ?_)) (fun i hi => ?_)
    · have e : i = 7 * (i / 7) + i % 7 := by omega
      rw [allocate_gmm_tbl P K (i / 7) (hdiv i hi), ← bitcount_self P (i / 7) (hdiv i hi),
        ← offsetOf_views K (i / 7) (i % 7) (Nat.mod_lt _ (by omega)), ← e]
    · rw [allocate_gmm_P P K (i / 7) (hdiv i hi), bitcount_self P (i / 7) (hdiv i hi)]
  · intro code k idx hc hk hcell
    refine ⟨?_, gmmCell_in_view K _ k idx hk hcell⟩
    rw [← htot]
    exact gmmCell_lt_total P K code k idx hc hk hcell
  · obtain ⟨buf, e1, e2⟩ := sub_gmm_within m P K mu b W nu gam
    exact ⟨buf, e1, fun idx hidx => e2 idx (by rw [htot]; exact hidx)⟩

/-- Witness of C36 at `P = 2`, `K = 3`: the sizes are `12`, `12`, `18` and the final offset
is `90`. -/
theorem C36_gmm_views_tile_the_allocation_witness :
    space_needed 2 3 = some (12, 12, 18) ∧ 12 = 3 * 2 ^ 2 ∧
    12 = offsetOf (fun c => 3 * bitcount 2 c) (2 ^ 2) ∧
    18 = offsetOf (fun c => 3 * bitcount 2 c * bitcount 2 c) (2 ^ 2) ∧
    (allocate_gmm_loop 2 3).o = 5 * 12 + 12 + 18 :=
  ⟨by decide, by decide, by decide, by decide,
    (C36_gmm_views_tile_the_allocation testLibm 2 3 12 12 18 (fun _ => 1) (fun _ => 1)
      (fun _ => 1) (fun _ => 3) (fun _ => 1) (by decide) (by decide) (by decide)
      (by decide)).2.1⟩

/-- C37: in `cgs3_mexFunction` the check that reports "Incompatible 3rd dimension." compares
the third dimension of `A` with the SECOND dimension of `b` (`dm[1]`), whereas
`fmg3_mexFunction` compares it with the third (`dm[2]`). With well-formed arguments, `cgs`
reports the message exactly when `A` and `b` agree in the first two dimensions and the third
dimension of `A` differs from the second of `b`, and `fmg` exactly when they agree in the
first two and differ in the third. So `cgs` rejects `A` of `2 × 3 × 5 × 6` with `b` of
`2 × 3 × 5 × 3`, whose first three dimensions agree and which `fmg` accepts; and `cgs`
accepts `A` of `2 × 3 × 3 × 6` with `b` of `2 × 3 × 5 × 3`, whose third dimensions differ
and which `fmg` rejects. -/
theorem C37_cgs_compares_third_dimension_with_second :
    (∀ a0 a1 a2 b0 b1 b2 : Nat,
      (cgs3_validate 1 3 (shootArgs (singleArray a0 a1 a2 6) (singleArray b0 b1 b2 3))
          = some "Incompatible 3rd dimension." ↔ (a0 = b0 ∧ a1 = b1 ∧ a2 ≠ b1)) ∧
      (fmg3_validate 1 3 (shootArgs (singleArray a0 a1 a2 6) (singleArray b0 b1 b2 3))
          = some "Incompatible 3rd dimension." ↔ (a0 = b0 ∧ a1 = b1 ∧ a2 ≠ b2)) ∧
      (cgs3_validate 1 3 (shootArgs (singleArray a0 a1 a2 6) (singleArray b0 b1 b2 3))
          = none ↔ (a0 = b0 ∧ a1 = b1 ∧ a2 = b1)) ∧
      (fmg3_validate 1 3 (shootArgs (singleArray a0 a1 a2 6) (singleArray b0 b1 b2 3))
          = none ↔ (a0 = b0 ∧ a1 = b1 ∧ a2 = b2))) ∧
    cgs3_validate 1 3 (shootArgs (singleArray 2 3 5 6) (singleArray 2 3 5 3))
      = some "Incompatible 3rd dimension." ∧
    fmg3_validate 1 3 (shootArgs (singleArray 2 3 5 6) (singleArray 2 3 5 3)) = none ∧
    cgs3_validate 1 3 (shootArgs (singleArray 2 3 3 6) (singleArray 2 3 5 3)) = none ∧
    fmg3_validate 1 3 (shootArgs (singleArray 2 3 3 6) (singleArray 2 3 5 3))
      = some "Incompatible 3rd dimension." := by
  have key : ∀ a0 a1 a2 b0 b1 b2 : Nat,
      (cgs3_validate 1 3 (shootArgs (singleArray a0 a1 a2 6) (singleArray b0 b1 b2 3))
          = some "Incompatible 3rd dimension." ↔ (a0 = b0 ∧ a1 = b1 ∧ a2 ≠ b1)) ∧
      (fmg3_validate 1 3 (shootArgs (singleArray a0 a1 a2 6) (singleArray b0 b1 b2 3))
          = some "Incompatible 3rd dimension." ↔ (a0 = b0 ∧ a1 = b1 ∧ a2 ≠ b2)) ∧
      (cgs3_validate 1 3 (shootArgs (singleArray a0 a1 a2 6) (singleArray b0 b1 b2 3))
          = none ↔ (a0 = b0 ∧ a1 = b1 ∧ a2 = b1)) ∧
      (fmg3_validate 1 3 (shootArgs (singleArray a0 a1 a2 6) (singleArray b0 b1 b2 3))
          = none ↔ (a0 = b0 ∧ a1 = b1 ∧ a2 = b2)) := by
    intro a0 a1 a2 b0 b1 b2
    by_cases h0 : a0 = b0 <;> by_cases h1 : a1 = b1 <;> by_cases h2 : a2 = b1 <;>
      by_cases h3 : a2 = b2 <;>
      simp [cgs3_validate, fmg3_validate, shootArgs, singleArray, doubleRow, h0, h1, h2, h3]
  refine ⟨key, ?_, ?_, ?_, ?_⟩
  · exact ((key 2 3 5 2 3 5).1).2 ⟨rfl, rfl, by decide⟩
  · exact ((key 2 3 5 2 3 5).2.2.2).2 ⟨rfl, rfl, rfl⟩
  · exact ((key 2 3 3 2 3 5).2.2.1).2 ⟨rfl, rfl, rfl⟩
  · exact ((key 2 3 3 2 3 5).2.1).2 ⟨rfl, rfl, by decide⟩

/-- C39: for every `x`, with `i = fastexp_index x` (the integer `rint x`, which is within one
half of `x` and as near to it as any integer, clamped to `[-128, 127]`) and `r = x - i`,
`fastexp x = exp(i) * (1 + 2r/(2 - r + r²/6)) = exp(i) * (r²/6 + r + 2)/(r²/6 - r + 2)`; for
every `r` (not only in `[-1/2, 1/2]`) the denominator `r²/6 - r + 2` is positive, the two
forms of the factor agree and the factor is positive; so `fastexp x > 0` for every `x` when
libm `exp` is positive; and `fastexp(i) = exp(i)` for every integer `i` in `[-128, 127]`,
in particular `fastexp(0) = 1` (with `exp(0) = 1`). -/
theorem C39_fastexp_is_positive (m : Libm α) (hm : m.ExpOk) :
    (∀ x : α,
      fastexp_index x = max (-128) (min 127 (rint x)) ∧
      |x - ((rint x : Int) : α)| ≤ 1 / 2 ∧
      (∀ n : Int, |x - ((rint x : Int) : α)| ≤ |x - (n : α)|) ∧
      fastexp m x = m.exp ((fastexp_index x : Int) : α)
        * (1 + 2 * (x - ((fastexp_index x : Int) : α))
            / (2 - (x - ((fastexp_index x : Int) : α))
              + (x - ((fastexp_index x : Int) : α)) * (x - ((fastexp_index x : Int) : α)) / 6)) ∧
      fastexp m x = m.exp ((fastexp_index x : Int) : α)
        * (((x - ((fastexp_index x : Int) : α)) * (x - ((fastexp_index x : Int) : α)) / 6
              + (x - ((fastexp_index x : Int) : α)) + 2)
            / ((x - ((fastexp_index x : Int) : α)) * (x - ((fastexp_index x : Int) : α)) / 6
              - (x - ((fastexp_index x : Int) : α)) + 2)) ∧
      0 < fastexp m x) ∧
    (∀ r : α, r * r / 6 - r + 2 ≠ 0 ∧
      1 + 2 * r / (2 - r + r * r / 6) = (r * r / 6 + r + 2) / (r * r / 6 - r + 2) ∧
      0 < (r * r / 6 + r + 2) / (r * r / 6 - r + 2)) ∧
    (∀ i : Int, -128 ≤ i → i ≤ 127 → fastexp m ((i : Int) : α) = m.exp ((i : Int) : α)) ∧
    fastexp m 0 = 1 := by
  refine ⟨fun x => ⟨fastexp_index_clamp x, rint_dist x, rint_nearest x, fastexp_eq_index m x,
    ?_, fastexp_pos m hm x⟩, fun r => ⟨ne_of_gt (fastexp_factor_eq r).1, (fastexp_factor_eq r).2,
    ?_⟩, fun i h1 h2 => fastexp_intCast m i h1 h2, fastexp_zero m hm⟩
  · rw [← (fastexp_factor_eq _).2]
    exact fastexp_eq_index m x
  · rw [← (fastexp_factor_eq r).2]
    exact fastexp_factor_pos r

/-- Witness of C39 with the rational test library: `fastexp` is positive at `-7/3`. -/
theorem C39_fastexp_is_positive_witness :
    testLibm.ExpOk ∧ 0 < fastexp testLibm (-7 / 3) :=
  ⟨testLibm_expOk, ((C39_fastexp_is_positive testLibm testLibm_expOk).1 (-7 / 3)).2.2.2.2.2⟩

/-- C40: the loop of `psi` on any `z` makes exactly `max(0, ⌈7 - z⌉)` rounds: the loop test
`z < 7` holds before each of the first `⌈7 - z⌉` rounds, fails after them (the argument has
become `z + ⌈7 - z⌉ ≥ 7`), and allowing more rounds changes nothing. For every `z < 7`
(a non-positive integer or not: the model divides by zero to zero)
`psi(z) = psi(z + 1) - 1/z`, and for `z ≥ 7` the value is the series in `r = 1/(z - 1/2)`:
`log(z - 1/2) + r²/24 - 7 r⁴/960 + 31 r⁶/8064 - 127 r⁸/30720`. -/
theorem C40_psi_loop_terminates_and_satisfies_recurrence (m : Libm α) :
    (∀ z : α,
      (∀ j, j < Int.toNat ⌈7 - z⌉ → z + (j : α) < 7) ∧
      (∀ f : α, psi_loop (Int.toNat ⌈7 - z⌉) f z
        = (f - Finset.sum (Finset.range (Int.toNat ⌈7 - z⌉)) (fun j => 1 / (z + (j : α))),
            z + ((Int.toNat ⌈7 - z⌉ : Nat) : α))) ∧
      ¬ (psi_loop (Int.toNat ⌈7 - z⌉) 0 z).2 < 7 ∧
      (∀ k f, psi_loop (Int.toNat ⌈7 - z⌉ + k) f z = psi_loop (Int.toNat ⌈7 - z⌉) f z)) ∧
    (∀ z : α, z < 7 → psi m z = psi m (z + 1) - 1 / z) ∧
    (∀ z : α, 7 ≤ z →
      psi m z = m.log (z - 1 / 2) + (1 / 24) * ((1 / (z - 1 / 2)) * (1 / (z - 1 / 2)))
      - (7 / 960) * (((1 / (z - 1 / 2)) * (1 / (z - 1 / 2)))
          * ((1 / (z - 1 / 2)) * (1 / (z - 1 / 2))))
      + (31 / 8064) * (((1 / (z - 1 / 2)) * (1 / (z - 1 / 2)))
          * ((1 / (z - 1 / 2)) * (1 / (z - 1 / 2)))) * ((1 / (z - 1 / 2)) * (1 / (z - 1 / 2)))
      - (127 / 30720) * (((1 / (z - 1 / 2)) * (1 / (z - 1 / 2)))
          * ((1 / (z - 1 / 2)) * (1 / (z - 1 / 2))))
        * (((1 / (z - 1 / 2)) * (1 / (z - 1 / 2))) * ((1 / (z - 1 / 2)) * (1 / (z - 1 / 2))))) := by
  refine ⟨fun z => ?_, fun z h => psi_recurrence m z h, fun z h => psi_large m z h⟩
  have hr : ∀ j, j < Int.toNat ⌈7 - z⌉ → z + (j : α) < 7 := fun j hj => (psi_rounds z j).mp hj
  have hn : ¬ z + ((Int.toNat ⌈7 - z⌉ : Nat) : α) < 7 := fun c =>
    absurd ((psi_rounds z _).mpr c) (lt_irrefl _)
  refine ⟨hr, fun f => psi_loop_run _ f z hr, ?_, fun k f => psi_loop_add _ k f z hr hn⟩
  rw [psi_loop_run _ 0 z hr]
  exact hn

/-- C38, as stated, fails for `getfloat`: the argument `0x7F800001` is a signalling NaN; the
promotion of the old-style `float` parameter to `double` quiets it to `0x7FC00001` before the
bytes are swapped, so byte `1` of the result is `0xC0`, not byte `2` of the argument, `0x80`,
and the result `0x0100C07F` is not the reversal `0x0100807F`. -/
theorem C38_counterexample :
    signallingNaN 0x7F800001 ∧ floatParam 0x7F800001 = 0x7FC00001 ∧
    byteAt (getfloat 0x7F800001) 1 = 0xC0 ∧ byteAt (0x7F800001 % 2 ^ 32) (3 - 1) = 0x80 ∧
    getfloat 0x7F800001 = 0x0100C07F ∧ getint 0x7F800001 = 0x0100807F ∧
    ¬ (∀ i, i < 4 → byteAt (getfloat 0x7F800001) i = byteAt (0x7F800001 % 2 ^ 32) (3 - i)) := by
  have h1 : byteAt (getfloat 0x7F800001) 1 = 0xC0 := by decide
  have h2 : byteAt (0x7F800001 % 2 ^ 32) (3 - 1) = 0x80 := by decide
  refine ⟨by decide, by decide, h1, h2, by decide, by decide, fun h => ?_⟩
  have := h 1 (by decide)
  rw [h1, h2] at this
  exact absurd this (by decide)

/-- C38 (amended): each byte-order helper of `spm_getdata.c` returns a pattern of its width
whose byte `i` is byte `1 - i`, `3 - i`, `7 - i` (2-, 4- and 8-byte helpers) of the pattern it
works on.  For `getshort`, `getushort`, `getint`, `getuint` and `getdouble` that pattern is
the argument, and applying the helper twice gives the argument back.  For `getfloat` it is
the argument after the promotion of the old-style `float` parameter (`floatParam`): the
argument itself unless it is a signalling NaN, and the argument with bit 22 set if it is;
so `getfloat` reverses the bytes of every argument that is not a signalling NaN. -/
theorem C38_byte_order_helpers_reverse_and_are_involutions (x : Nat) :
    ((∀ i, i < 2 → byteAt (getshort x) i = byteAt (x % 2 ^ 16) (1 - i)) ∧
      getshort x < 2 ^ 16 ∧ getshort (getshort x) = x % 2 ^ 16) ∧
    ((∀ i, i < 2 → byteAt (getushort x) i = byteAt (x % 2 ^ 16) (1 - i)) ∧
      getushort x < 2 ^ 16 ∧ getushort (getushort x) = x % 2 ^ 16) ∧
    ((∀ i, i < 4 → byteAt (getint x) i = byteAt (x % 2 ^ 32) (3 - i)) ∧
      getint x < 2 ^ 32 ∧ getint (getint x) = x % 2 ^ 32) ∧
    ((∀ i, i < 4 → byteAt (getuint x) i = byteAt (x % 2 ^ 32) (3 - i)) ∧
      getuint x < 2 ^ 32 ∧ getuint (getuint x) = x % 2 ^ 32) ∧
    ((∀ i, i < 4 → byteAt (getfloat x) i = byteAt (floatParam x) (3 - i)) ∧
      getfloat x < 2 ^ 32 ∧
      (¬ signallingNaN x → floatParam x = x % 2 ^ 32 ∧
        ∀ i, i < 4 → byteAt (getfloat x) i = byteAt (x % 2 ^ 32) (3 - i)) ∧
      (signallingNaN x → floatParam x = x % 2 ^ 32 + 2 ^ 22)) ∧
    ((∀ i, i < 8 → byteAt (getdouble x) i = byteAt (x % 2 ^ 64) (7 - i)) ∧
      getdouble x < 2 ^ 64 ∧ getdouble (getdouble x) = x % 2 ^ 64) := by
  have es : getushort = getshort := rfl
  have eu : getuint = getint := rfl
  have hfb : ∀ i, i < 4 → byteAt (getfloat x) i = byteAt (floatParam x) (3 - i) := fun i hi => by
    rw [getfloat_eq, getint_byte _ i hi, Nat.mod_eq_of_lt (floatParam_lt x)]
  rw [es, eu]
  refine ⟨⟨getshort_byte x, getshort_lt x, getshort_twice x⟩,
    ⟨getshort_byte x, getshort_lt x, getshort_twice x⟩,
    ⟨getint_byte x, getint_lt x, getint_twice x⟩,
    ⟨getint_byte x, getint_lt x, getint_twice x⟩,
    ⟨hfb, ?_, fun hn => ?_, fun hs => ?_⟩,
    ⟨getdouble_byte x, getdouble_lt x, getdouble_twice x⟩⟩
  · rw [getfloat_eq]; exact getint_lt _
  · have e : floatParam x = x % 2 ^ 32 := by unfold floatParam; rw [if_neg hn]
    exact ⟨e, fun i hi => by rw [hfb i hi, e]⟩
  · unfold floatParam; rw [if_pos hs]

/-- Witness of C38: `getfloat` on the pattern `0x3F800000` of `1.0f`, which is not a
signalling NaN, and `getint` applied twice to `0x12345678`. -/
theorem C38_byte_order_helpers_reverse_and_are_involutions_witness :
    ¬ signallingNaN 0x3F800000 ∧
    (∀ i, i < 4 → byteAt (getfloat 0x3F800000) i = byteAt (0x3F800000 % 2 ^ 32) (3 - i)) ∧
    getint (getint 0x12345678) = 0x12345678 % 2 ^ 32 :=
  ⟨by decide,
    ((C38_byte_order_helpers_reverse_and_are_involutions 0x3F800000).2.2.2.2.1.2.2.1
      (by decide)).2,
    (C38_byte_order_helpers_reverse_and_are_involutions 0x12345678).2.2.1.2.2⟩

/-- C11, as stated, fails for `K = 0`, which the bound check accepts: on a `2 × 2 × 2` volume
with two channels, every mean finite, and `K1 = 2`, every voxel has a valid prior (there is
no class to look up) and an observed channel, no class is dropped, so the claimed sum over
`t < K1 - 1` of `r[i + t*N1]` is `1`; but with no class nothing is added to `r`, which stays
zero. -/
theorem C11_counterexample :
    (∀ k, k < 0 → ((fun _ => FVal.fin 0 : Nat → FVal ℚ)
      (0 + testNf 0 * testNf 1 * testNf 2 * (fun k => k) k)).isfinite = true) ∧
    (∃ j, j < testNf 3 ∧ ((fun _ => FVal.fin 1 : Nat → FVal ℚ)
      (0 + j * (testNf 0 * testNf 1 * testNf 2))).isfinite = true) ∧
    Finset.sum (Finset.range (2 - 1)) (fun t =>
      ((responsibilities testLibm testNf (fun _ => 1) (fun _ => FVal.fin 1) (fun _ => 1) 0
        (allocate_gmm_loop 2 0).tbl (fun _ => 0) 2 (fun k => k) (fun _ => FVal.fin 0) testScr
        (fun _ => FVal.fin 0)).2 (0 + t * (testNf 0 * testNf 1 * testNf 2))).toD) = 0 ∧
    (0 : ℚ) ≠ 1 - Finset.sum (Finset.range 0) (fun k =>
      if 2 - 1 ≤ (fun k => k : Nat → Nat) k then
        (voxResp testLibm (testNf 0 * testNf 1 * testNf 2) (testNf 3) 0 (fun _ => 1)
          (fun _ => FVal.fin 1) (fun _ => 1) (allocate_gmm_loop 2 0).tbl (fun _ => 0) (fun k => k)
          (fun _ => FVal.fin 0) 0 0 0 0).2 k
      else 0) := by
  have hr : (responsibilities testLibm testNf (fun _ => 1) (fun _ => FVal.fin 1) (fun _ => 1) 0
        (allocate_gmm_loop 2 0).tbl (fun _ => 0) 2 (fun k => k) (fun _ => FVal.fin 0) testScr
        (fun _ => FVal.fin 0)).2 = fun _ => FVal.fin 0 := by
    rw [responsibilities_linear]
    dsimp only
    refine forUp_keep (fun s : RState ℚ => s.r) _ (fun i s => ?_) _ _
    refine responsibilities_voxel_noclass _ _ _ _ _ _ _ _ _ _ _ _ _ _ _ s (fun h0 => ?_)
    have := (get_vox_code_zero_iff _ _ _ _ _ _).mp h0 0 (by decide)
    exact Bool.noConfusion this
  refine ⟨fun k hk => by omega, ⟨0, by decide, rfl⟩, ?_, by norm_num⟩
  rw [hr]
  simp [FVal.toD]

/-- C13, as stated, fails for `ic ≥ 64`: on the test volume (`P = 2`) with `ic = 64` the
claim says that nothing is written, since `ic ≥ P`.  In `make_index` the very first test
shifts `(size_t)1` by `64`, which C leaves undefined (`make_index_c` has no value); with the
shift count taken modulo `64`, as x86-64 takes it, the test reads bit `0`, voxel `0` (both
channels finite) gets an index entry, and `INUgrads` overwrites `g1[0]` and `g2[0]`, which
held NaN on entry, with finite values. -/
theorem C13_counterexample :
    testNf 3 ≤ 64 ∧ make_index_c (testNf 3) 64 (fun _ => 0) = none ∧
    ∃ buf, sub_gmm testLibm true true (testNf 3) 2 (fun _ => 1) (fun _ => 1) (fun _ => 1)
        (fun _ => 3) (fun _ => 1) = some ((allocate_gmm_loop (testNf 3) 2).tbl, buf) ∧
      (INUgrads testLibm testNf testMf (fun _ => 1) 2 (allocate_gmm_loop (testNf 3) 2).tbl buf
        testNf (fun _ => 1) (fun k => k) testLp (make_index_masked (testNf 3) 64 (fun _ => 0))
        testScr (fun _ => FVal.nan) (fun _ => FVal.nan)).2.1 0 ≠ FVal.nan ∧
      (INUgrads testLibm testNf testMf (fun _ => 1) 2 (allocate_gmm_loop (testNf 3) 2).tbl buf
        testNf (fun _ => 1) (fun k => k) testLp (make_index_masked (testNf 3) 64 (fun _ => 0))
        testScr (fun _ => FVal.nan) (fun _ => FVal.nan)).2.2 0 ≠ FVal.nan := by
  obtain ⟨buf, hbuf⟩ : ∃ buf, sub_gmm testLibm true true (testNf 3) 2 (fun _ => 1) (fun _ => 1)
      (fun _ => 1) (fun _ => 3) (fun _ => 1) = some ((allocate_gmm_loop (testNf 3) 2).tbl, buf) :=
    ⟨_, sub_gmm_ok testLibm (testNf 3) 2 _ _ _ _ _⟩
  refine ⟨by decide, make_index_c_of_ge _ 64 _ (by decide), buf, hbuf, ?_⟩
  have hpr : priorOk 2 (testNf 0 * testNf 1 * testNf 2) (fun k => k) testLp
      (0 * (fun _ => 1 : Nat → Nat) 0
        + testNf 0 * (0 * (fun _ => 1 : Nat → Nat) 1 + testNf 1 * 0 * (fun _ => 1 : Nat → Nat) 2))
      = true :=
    (get_priors_ok_iff _ _ 2 _ _).mpr (fun _ _ => rfl)
  have hbit : (voxCode (testNf 0 * testNf 1 * testNf 2) (testNf 3) testMf (fun _ => (1 : ℚ))
      (0 + testNf 0 * (0 + testNf 1 * 0))).testBit (64 % 64) = true :=
    (get_vox_testBit _ (testNf 3) _ _ _ _ 0 (by decide)).trans (by decide)
  have hcon := contributes_of_testBit (testNf 0 * testNf 1 * testNf 2) (testNf 3) 2 testMf
    (fun _ => (1 : ℚ)) (testNf 0 * testNf 1 * testNf 2) (fun k => k) testLp _ _ (64 % 64) hpr hbit
  have hidx : make_index_masked (testNf 3) 64 (fun _ => 0)
      (voxCode (testNf 0 * testNf 1 * testNf 2) (testNf 3) testMf (fun _ => (1 : ℚ))
        (0 + testNf 0 * (0 + testNf 1 * 0))) ≠ Undefined := by
    rw [make_index_masked_eq _ _ _ _ (by decide), if_pos (voxCode_lt _ _ _ _ _), if_pos hbit]
    have := masked_count_le (voxCode (testNf 0 * testNf 1 * testNf 2) (testNf 3) testMf
      (fun _ => (1 : ℚ)) (0 + testNf 0 * (0 + testNf 1 * 0))) 64
    unfold Undefined
    omega
  have h := INUgrads_written testLibm testNf testMf (fun _ => 1) 2
    (allocate_gmm_loop (testNf 3) 2).tbl buf
    testNf (fun _ => 1) (fun k => k) testLp (make_index_masked (testNf 3) 64 (fun _ => 0))
    testScr (fun _ => FVal.nan) (fun _ => FVal.nan) (by decide) 0 0 0 (by decide) (by decide)
    (by decide) hcon hidx
  have e0 : 0 + testNf 0 * (0 + testNf 1 * 0) = 0 := rfl
  rw [e0] at h
  constructor
  · intro e
    have h1 := h.1
    rw [e] at h1
    exact Bool.noConfusion h1
  · intro e
    have h2 := h.2
    rw [e] at h2
    exact Bool.noConfusion h2


/-- C13 (amended): for a selected channel `ic < 64`, every shift of `make_index` is defined
in C whenever the bound check lets the call through (`P < 50`), and the index array is the
one of `make_index`; `call_INUgrads` (and with it `INUgrads` on that index array) changes
`g1[i]`, `g2[i]` only at data indices `i` of voxels on the sampled sub-lattice whose prior is
finite for every class and whose pattern code has bit `ic` set: every cell that is not the
index of such a voxel holds its entry value on return.  In particular nothing is written
when `P ≤ ic < 64`. -/
theorem C13_gradients_written_only_where_observed (m : Libm α) (ok1 ok2 ok3 : Bool)
    (nf : Nat → Nat) (mf : Nat → FVal α) (vf : Nat → α) (K : Nat) (mu b W nu gam : Nat → α)
    (nm skip lkp : Nat → Nat) (lp : Nat → FVal α) (ic : Nat) (scr : Scratch α)
    (g1 g2 : Nat → FVal α) (hic : ic < 64) :
    (nf 3 < 50 → ∀ index, make_index_c (nf 3) ic index = some (make_index (nf 3) ic index)) ∧
    (∀ idx,
      (∀ i2, i2 < extent nf nm skip 2 → ∀ i1, i1 < extent nf nm skip 1 →
        ∀ i0, i0 < extent nf nm skip 0 → i0 + nf 0 * (i1 + nf 1 * i2) = idx →
        ¬ (priorOk K (nm 0 * nm 1 * nm 2) lkp lp
            (i0 * skip 0 + nm 0 * (i1 * skip 1 + nm 1 * i2 * skip 2)) = true ∧
          (voxCode (nf 0 * nf 1 * nf 2) (nf 3) mf vf (i0 + nf 0 * (i1 + nf 1 * i2))).testBit ic
            = true)) →
      (call_INUgrads m ok1 ok2 ok3 nf mf vf K mu b W nu gam nm skip lkp lp ic scr g1 g2).2.1 idx
        = g1 idx ∧
      (call_INUgrads m ok1 ok2 ok3 nf mf vf K mu b W nu gam nm skip lkp lp ic scr g1 g2).2.2 idx
        = g2 idx) ∧
    (nf 3 ≤ ic →
      (call_INUgrads m ok1 ok2 ok3 nf mf vf K mu b W nu gam nm skip lkp lp ic scr g1 g2).2.1 = g1 ∧
      (call_INUgrads m ok1 ok2 ok3 nf mf vf K mu b W nu gam nm skip lkp lp ic scr g1 g2).2.2
        = g2) := by
  refine ⟨fun hP index => make_index_c_of_lt (nf 3) ic index (by omega) hic,
    fun idx h => call_INUgrads_frame m ok1 ok2 ok3 nf mf vf K mu b W nu gam nm skip lkp lp
    ic scr g1 g2 idx h, fun hic' => ?_⟩
  have hall : ∀ idx,
      (call_INUgrads m ok1 ok2 ok3 nf mf vf K mu b W nu gam nm skip lkp lp ic scr g1 g2).2.1 idx
        = g1 idx ∧
      (call_INUgrads m ok1 ok2 ok3 nf mf vf K mu b W nu gam nm skip lkp lp ic scr g1 g2).2.2 idx
        = g2 idx := fun idx =>
    call_INUgrads_frame m ok1 ok2 ok3 nf mf vf K mu b W nu gam nm skip lkp lp ic scr g1 g2 idx
      (fun i2 _ i1 _ i0 _ _ hc => by
        rw [voxCode_testBit_false _ _ mf vf _ ic (Or.inl hic')] at hc
        exact Bool.noConfusion hc.2)
  exact ⟨funext (fun idx => (hall idx).1), funext (fun idx => (hall idx).2)⟩

/-- Witness of the amended C13 on the test volume (`P = 2`) with `ic = 5`: the shifts are
defined and nothing is written. -/
theorem C13_gradients_written_only_where_observed_witness :
    5 < 64 ∧ testNf 3 ≤ 5 ∧
    make_index_c (testNf 3) 5 (fun _ => 0) = some (make_index (testNf 3) 5 (fun _ => 0)) ∧
    (call_INUgrads testLibm true true true testNf testMf (fun _ => 1) 2 (fun _ => 1)
      (fun _ => 1) (fun _ => 1) (fun _ => 3) (fun _ => 1) testNf (fun _ => 1) (fun k => k)
      testLp 5 testScr (fun _ => FVal.fin 7) (fun _ => FVal.fin 7)).2.1 = fun _ => FVal.fin 7 :=
  ⟨by decide, by decide,
    (C13_gradients_written_only_where_observed testLibm true true true testNf testMf
      (fun _ => 1) 2 (fun _ => 1) (fun _ => 1) (fun _ => 1) (fun _ => 3) (fun _ => 1) testNf
      (fun _ => 1) (fun k => k) testLp 5 testScr (fun _ => FVal.fin 7) (fun _ => FVal.fin 7)
      (by decide)).1 (by decide) _,
    ((C13_gradients_written_only_where_observed testLibm true true true testNf testMf
      (fun _ => 1) 2 (fun _ => 1) (fun _ => 1) (fun _ => 1) (fun _ => 3) (fun _ => 1) testNf
      (fun _ => 1) (fun k => k) testLp 5 testScr (fun _ => FVal.fin 7) (fun _ => FVal.fin 7)
      (by decide)).2.2 (by decide)).1⟩

/-- C16, as stated, fails, and each of the two floor conditions of the amended claim is
needed: two channels, one class, diagonal precision with positive entries.  For
`W = diag(10^-16, 10^-16)` the covariance entry `10^16` of channel 2 is not above the pivot
floor of `choldc` in the second inversion; for `W = diag(10^20, 1)` the entry `W[1,1] = 1`
is below the pivot floor of `choldc` for `W` (the second inversion is then exact).  In both
cases the precision stored for the pattern `code = 2` is not `W[1,1]`. -/
theorem C16_counterexample :
    ((0 : ℚ) < 1 / 10 ^ 16 ∧
      ∃ buf, sub_gmm testLibm true true 2 1 (fun _ => 0) (fun _ => 1)
          (fun i => if i = 0 then 1 / 10 ^ 16 else if i = 3 then 1 / 10 ^ 16 else 0)
          (fun _ => 2) (fun _ => 1) = some ((allocate_gmm_loop 2 1).tbl, buf) ∧
        buf (((allocate_gmm_loop 2 1).tbl 2).W + 0 * 1 * 1 + 0)
          ≠ (fun i : Nat => if i = 0 then (1 : ℚ) / 10 ^ 16 else if i = 3 then 1 / 10 ^ 16 else 0)
              (2 * 2 * 0 + (1 + 2 * 1))) ∧
    ((0 : ℚ) < 10 ^ 20 ∧ (0 : ℚ) < 1 ∧
      choldc_floor 1 (fun _ => (1 : ℚ) / 1) ≤ 1 / 1 ∧
      ∃ buf, sub_gmm testLibm true true 2 1 (fun _ => 0) (fun _ => 1)
          (fun i => if i = 0 then 10 ^ 20 else if i = 3 then 1 else 0)
          (fun _ => 2) (fun _ => 1) = some ((allocate_gmm_loop 2 1).tbl, buf) ∧
        buf (((allocate_gmm_loop 2 1).tbl 2).W + 0 * 1 * 1 + 0)
          ≠ (fun i : Nat => if i = 0 then (10 : ℚ) ^ 20 else if i = 3 then 1 else 0)
              (2 * 2 * 0 + (1 + 2 * 1))) := by
  refine ⟨⟨by norm_num, ?_⟩, by norm_num, by norm_num,
    by rw [choldc_floor_one]; norm_num, ?_⟩
  · obtain ⟨buf, e1, _, _, e2, _⟩ := sub_gmm_diag2 testLibm testLibm_sqrtOk (fun _ => 0)
      (fun _ => 1) (fun i => if i = 0 then (1 : ℚ) / 10 ^ 16 else if i = 3 then 1 / 10 ^ 16 else 0)
      (fun _ => 2) (fun _ => 1) (1 / 10 ^ 8) (1 / 10 ^ 8) (by norm_num) (by norm_num)
      (by norm_num) (by norm_num) (by norm_num) (by norm_num)
      (by rw [choldc_floor_trace]; simp only [Finset.sum_range_succ, Finset.sum_range_zero]
          norm_num)
      (by rw [choldc_floor_trace]; simp only [Finset.sum_range_succ, Finset.sum_range_zero]
          norm_num)
    refine ⟨buf, e1, ?_⟩
    rw [e2, invert1_floored testLibm testLibm_sqrtOk
      ((1 / 10 ^ 40 + 1 / (1 / 10 ^ 8) * (1 / (1 / 10 ^ 8))) * (1 / 10 ^ 7)) _ (by norm_num) rfl
      (by norm_num)]
    norm_num
  · obtain ⟨buf, e1, _, _, e2, _⟩ := sub_gmm_diag2_any testLibm testLibm_sqrtOk (fun _ => 0)
      (fun _ => 1) (fun i => if i = 0 then (10 : ℚ) ^ 20 else if i = 3 then 1 else 0)
      (fun _ => 2) (fun _ => 1) (10 ^ 10) 1 (by norm_num) (by norm_num)
      (by norm_num) (by norm_num) (by norm_num)
    refine ⟨buf, e1, ?_⟩
    rw [e2, choldc_floor_two, if_pos (by norm_num)]
    rw [invert1_exact testLibm testLibm_sqrtOk _ (by norm_num) (by norm_num)]
    norm_num


/-- C16 (amended): for `P = 2`, `K = 1` and a diagonal full precision
`W = diag(l0^2, l1^2)`, `l0, l1 > 0`, whose entry `W[1,1]` is not below the pivot floor of
`choldc` for `W` and whose covariance entry `1 / W[1,1]` is not below the pivot floor of the
`1 × 1` inversion, the table built by `sub_gmm` has for the pattern `code = 2` dimension
`1`, marginal mean `mu[1]`, marginal precision `W[1,1]` and degrees of freedom `nu - 1`.
Nothing is asked of `W[0,0]` beyond being positive. -/
theorem C16_diagonal_precision_gives_direct_channel_parameters (m : Libm α) (hs : m.SqrtOk)
    (mu b W nu gam : Nat → α) (l0 l1 : α) (h0 : 0 < l0) (h1 : 0 < l1)
    (hW0 : W 0 = l0 * l0) (hW1 : W 1 = 0) (hW2 : W 2 = 0) (hW3 : W 3 = l1 * l1)
    (hf1 : choldc_floor 2 W ≤ W 3)
    (hf2 : choldc_floor 1 (fun _ => 1 / W 3) ≤ 1 / W 3) :
    ∃ buf, sub_gmm m true true 2 1 mu b W nu gam = some ((allocate_gmm_loop 2 1).tbl, buf) ∧
      ((allocate_gmm_loop 2 1).tbl 2).P = 1 ∧
      buf (((allocate_gmm_loop 2 1).tbl 2).mu + (0 + 1 * 0)) = mu (1 + 2 * 0) ∧
      buf (((allocate_gmm_loop 2 1).tbl 2).W + 0 * 1 * 1 + 0) = W (2 * 2 * 0 + (1 + 2 * 1)) ∧
      buf (((allocate_gmm_loop 2 1).tbl 2).nu + 0) = nu 0 - 1 := by
  have _ := hW2
  obtain ⟨buf, e1, e2, e3, e4, e5⟩ := sub_gmm_diag2_any m hs mu b W nu gam l0 l1 h0 h1 hW0 hW1
    hW3
  refine ⟨buf, e1, e2, e3, ?_, e5⟩
  have hl : l1 ≠ 0 := ne_of_gt h1
  have hw : 1 / W 3 = 1 / l1 * (1 / l1) := by rw [hW3]; field_simp
  rw [choldc_floor_one, hw] at hf2
  rw [e4, diag2_pivot W l0 l1 h0 h1 hW0 hW3 hf1,
    invert1_exact_le m hs (1 / l1) (by positivity) hf2]
  show 1 / (1 / l1) / (1 / l1) = W 3
  rw [hW3]
  field_simp

/-- Witness of C16 on the rational instance: `W = diag(1, 10^8)`, whose first entry is
below the pivot floor of `choldc` for `W`. -/
theorem C16_diagonal_precision_gives_direct_channel_parameters_witness :
    ∃ buf, sub_gmm testLibm true true 2 1 (fun i => (i : ℚ)) (fun _ => 1)
        (fun i => if i = 0 then 1 else if i = 3 then 10 ^ 8 else 0)
        (fun _ => 5) (fun _ => 1) = some ((allocate_gmm_loop 2 1).tbl, buf) ∧
      ((allocate_gmm_loop 2 1).tbl 2).P = 1 ∧
      buf (((allocate_gmm_loop 2 1).tbl 2).mu + (0 + 1 * 0)) = (fun i : Nat => (i : ℚ)) (1 + 2 * 0) ∧
      buf (((allocate_gmm_loop 2 1).tbl 2).W + 0 * 1 * 1 + 0)
        = (fun i : Nat => if i = 0 then (1 : ℚ) else if i = 3 then 10 ^ 8 else 0)
            (2 * 2 * 0 + (1 + 2 * 1)) ∧
      buf (((allocate_gmm_loop 2 1).tbl 2).nu + 0) = (fun _ : Nat => (5 : ℚ)) 0 - 1 :=
  C16_diagonal_precision_gives_direct_channel_parameters testLibm testLibm_sqrtOk
    (fun i => (i : ℚ)) (fun _ => 1) (fun i => if i = 0 then 1 else if i = 3 then 10 ^ 8 else 0)
    (fun _ => 5) (fun _ => 1) 1 (10 ^ 4) (by norm_num) (by norm_num)
    (by norm_num) (by norm_num) (by norm_num) (by norm_num)
    (by rw [choldc_floor_two]; norm_num)
    (by rw [choldc_floor_one]; norm_num)

/-- C15, as stated, fails.  One channel, one class, precision `W = (10^15)` (positive
definite), full pattern `code = 1 = 2^1 - 1`: the pivot floor of `choldc` replaces the pivot
in the first inversion, and the precision stored for the pattern is not `W`.  And seven
channels, pattern `code = 65` (two observed channels): the loop of `allocate_gmm` that
counts the channels shifts by `64`, which C leaves undefined, and with the shift count
taken modulo `64` the table entry has dimension `3`, so that `sub_gmm` stores a `3 × 3`
array for the pattern, which is not the inverse of a `2 × 2` sub-matrix. -/
theorem C15_counterexample :
    ((0 : ℚ) < 10 ^ 15 ∧
      ∃ buf, sub_gmm testLibm true true 1 1 (fun _ => 0) (fun _ => 1) (fun _ => 10 ^ 15)
          (fun _ => 1) (fun _ => 1) = some ((allocate_gmm_loop 1 1).tbl, buf) ∧
        buf (((allocate_gmm_loop 1 1).tbl (2 ^ 1 - 1)).W + 0 * 1 * 1 + 0)
          ≠ (fun _ : Nat => (10 : ℚ) ^ 15) (1 * 1 * 0 + 0)) ∧
    (65 < 2 ^ 7 ∧ allocate_gmm_loop_c 7 1 = none ∧
      ((allocate_gmm_loop_masked 7 1).tbl 65).P = 3 ∧ bitcount 7 65 = 2) := by
  refine ⟨⟨by norm_num, ?_⟩, by decide, allocate_gmm_loop_c_large 7 1 (by decide), ?_, by decide⟩
  · obtain ⟨buf, h1, h2⟩ := sub_gmm_P1_W testLibm 1 (fun _ => 0) (fun _ => 1)
      (fun _ => (10 : ℚ) ^ 15) (fun _ => 1) (fun _ => 1) 0 (by decide)
    refine ⟨buf, h1, ?_⟩
    show buf (((allocate_gmm_loop 1 1).tbl 1).W + 0 * 1 * 1 + 0) ≠ (10 : ℚ) ^ 15
    rw [h2]
    rw [invert1_floored testLibm testLibm_sqrtOk ((1 / 10 ^ 40 + 10 ^ 15) * (1 / 10 ^ 7)) (10 ^ 15)
      (by norm_num) rfl
      (by norm_num)]
    have e : (1 : ℚ) / ((1 / 10 ^ 40 + 10 ^ 15) * (1 / 10 ^ 7)) / ((1 / 10 ^ 40 + 10 ^ 15) * (1 / 10 ^ 7))
        = (1 / ((1 / 10 ^ 40 + 10 ^ 15) * (1 / 10 ^ 7))) * (1 / ((1 / 10 ^ 40 + 10 ^ 15) * (1 / 10 ^ 7))) := by
      ring
    rw [e, invert1_exact testLibm testLibm_sqrtOk _ (by norm_num) (by norm_num)]
    norm_num
  · rw [allocate_gmm_masked_P 7 1 65 (by decide) (by decide)]
    decide


/-- C15 (amended): for `P ≤ 6`, where every shift of `allocate_gmm` is defined (its loop
with the shift of C builds the table of `allocate_gmm_loop`, and for `K < 2^52` the buffer
it requests is filled exactly by the views of the table), and over exact arithmetic (`sqrt`
exact on squares): for every class `k` whose full precision `W_k` has an unfloored Cholesky
factor, and every pattern `code` for which the sub-matrix `Sub` of `W_k⁻¹` over the observed
channels (in increasing order) has an unfloored Cholesky factor, the marginal precision `M`
that `sub_gmm` stores in `gmm[code].W` for class `k` is the inverse of that sub-matrix
(`Sub M = I`); and for the full pattern `code = 2^P - 1` it is `W_k` itself. -/
theorem C15_marginal_precision_is_inverse_of_submatrix (m : Libm α) (hs : m.SqrtOk)
    (P K : Nat) (mu b W nu gam : Nat → α) (k code : Nat) (hP : P ≤ 6) (hk : k < K)
    (hc : code < 2 ^ P)
    (Lk : Nat → Nat → α) (hLk : CholFactor P (shift W (P * P * k)) Lk)
    (Sg : Nat → α)
    (hSg : ∀ j r, j < P → r < P →
      Finset.sum (Finset.range P) (fun c => W (P * P * k + (r * P + c)) * Sg (c + j * P))
        = if r = j then 1 else 0)
    (Sub : Nat → α) (hSub : IsSubMatrix P code Sg Sub)
    (Lc : Nat → Nat → α) (hLc : CholFactor (bitcount P code) Sub Lc) :
    allocate_gmm_loop_c P K = some (allocate_gmm_loop P K) ∧
    (K < 2 ^ 52 → allocate_gmm_size P K = some (allocate_gmm_loop P K).o) ∧
    ∃ buf, sub_gmm m true true P K mu b W nu gam = some ((allocate_gmm_loop P K).tbl, buf) ∧
      (∀ j r, j < bitcount P code → r < bitcount P code →
        Finset.sum (Finset.range (bitcount P code)) (fun c =>
          Sub (r * bitcount P code + c) *
            buf (((allocate_gmm_loop P K).tbl code).W + k * bitcount P code * bitcount P code
              + (c + j * bitcount P code)))
          = if r = j then 1 else 0) ∧
      (code = 2 ^ P - 1 → ∀ idx, idx < P * P →
        buf (((allocate_gmm_loop P K).tbl code).W + k * P * P + idx) = W (P * P * k + idx)) :=
  ⟨allocate_gmm_loop_c_small P K hP, fun hK => allocate_gmm_size_small P K hP hK,
    sub_gmm_marginal_precision m hs P K mu b W nu gam k code hk hc Lk hLk Sg hSg Sub hSub Lc hLc⟩

/-- Witness of C15 on the rational instance: two channels, one class, `W = diag(4, 9)`,
pattern `code = 2` (channel 1 only); the covariance is `diag(1/4, 1/9)`, its sub-matrix over
channel 1 is `(1/9)`. -/
theorem C15_marginal_precision_is_inverse_of_submatrix_witness :
    2 ≤ 6 ∧ 0 < 1 ∧ 2 < 2 ^ 2 ∧
    allocate_gmm_loop_c 2 1 = some (allocate_gmm_loop 2 1) ∧
    ∃ buf, sub_gmm testLibm true true 2 1 (fun _ => 0) (fun _ => 1)
        (fun i => if i = 0 then 4 else if i = 3 then 9 else 0)
        (fun _ => 1) (fun _ => 1) = some ((allocate_gmm_loop 2 1).tbl, buf) ∧
      (∀ j r, j < bitcount 2 2 → r < bitcount 2 2 →
        Finset.sum (Finset.range (bitcount 2 2)) (fun c =>
          (fun _ : Nat => (1 / 9 : ℚ)) (r * bitcount 2 2 + c) *
            buf (((allocate_gmm_loop 2 1).tbl 2).W + 0 * bitcount 2 2 * bitcount 2 2
              + (c + j * bitcount 2 2)))
          = if r = j then 1 else 0) := by
  have h := C15_marginal_precision_is_inverse_of_submatrix testLibm testLibm_sqrtOk 2 1
    (fun _ => 0) (fun _ => 1) (fun i => if i = 0 then (4 : ℚ) else if i = 3 then 9 else 0)
    (fun _ => 1) (fun _ => 1) 0 2 (by decide) (by decide) (by decide)
    (fun r c => if r = c then (if r = 0 then 2 else 3) else 0)
    (cholFactor_diag2 _ 2 3 (by norm_num) (by norm_num) (by simp [shift]; norm_num)
      (by simp [shift]) (by simp [shift]) (by simp [shift]; norm_num)
      (by rw [choldc_floor_two]; simp [shift]; norm_num)
      (by rw [choldc_floor_two]; simp [shift]; norm_num))
    (fun i => if i = 0 then 1 / 4 else if i = 3 then 1 / 9 else 0)
    (fun j r hj hr => by
      have hj2 : j = 0 ∨ j = 1 := by omega
      have hr2 : r = 0 ∨ r = 1 := by omega
      rcases hj2 with rfl | rfl <;> rcases hr2 with rfl | rfl <;>
        simp [Finset.sum_range_succ])
    (fun _ => 1 / 9)
    (fun i j hi hj hbi hbj => by
      have hi2 : i = 0 ∨ i = 1 := by omega
      have hj2 : j = 0 ∨ j = 1 := by omega
      rcases hi2 with rfl | rfl
      · exact absurd hbi (by decide)
      · rcases hj2 with rfl | rfl
        · exact absurd hbj (by decide)
        · norm_num)
    (fun _ _ => 1 / 3)
    (cholFactor_one _ (1 / 3) (by norm_num) (by norm_num) (by norm_num))
  obtain ⟨h1, _, buf, h2, h3, _⟩ := h
  exact ⟨by decide, by decide, by decide, h1, buf, h2, h3⟩

/-- C27, on the channel counts `P ≤ 6` for which every shift of `allocate_gmm` is defined
(its loop with the shift of C builds the table of `allocate_gmm_loop`, and for `K < 2^52`
the buffer it requests is filled exactly by the views of the table): with both allocations
succeeding, for every pattern `code < 2^P` (dimension `Po = popcount(code)`) and class
`k < K`, `sub_gmm` stores `nu'[k] = nu[k] - (P - Po)`, `b'[k] = b[k]`, the log weight
`log(gam[k])`, and the marginal mean `mu'[j1 + Po*k] = mu[j + P*k]` for every channel `j`
whose bit is set in `code`, where `j1 = popcount(code mod 2^j)` is the rank of `j` among
the set bits: the ranks increase with `j` and every `j1 < Po` is the rank of one such
channel.  For `P = 7` and `code = 65` (`popcount = 2`) the loop of `allocate_gmm` has no
defined value; with the shift count taken modulo `64` the table entry has dimension `3`, and
the round of `sub_gmm` for the pattern leaves `nu'[k] = nu[k] - 4`, not `nu[k] - 5`. -/
theorem C27_sub_gmm_stores_marginal_parameters (m : Libm α) (P K : Nat)
    (mu b W nu gam : Nat → α) (hP : P ≤ 6) :
    (allocate_gmm_loop_c P K = some (allocate_gmm_loop P K) ∧
      (K < 2 ^ 52 → allocate_gmm_size P K = some (allocate_gmm_loop P K).o) ∧
      ∃ buf, sub_gmm m true true P K mu b W nu gam = some ((allocate_gmm_loop P K).tbl, buf) ∧
        ∀ code k, code < 2 ^ P → k < K →
          ((allocate_gmm_loop P K).tbl code).P = popcount code ∧
          buf (((allocate_gmm_loop P K).tbl code).nu + k)
            = nu k - ((P - popcount code : Nat) : α) ∧
          buf (((allocate_gmm_loop P K).tbl code).b + k) = b k ∧
          buf (((allocate_gmm_loop P K).tbl code).gam + k) = m.log (gam k) ∧
          (∀ j, j < P → code.testBit j = true →
            buf (((allocate_gmm_loop P K).tbl code).mu
                + (popcount (code % 2 ^ j) + popcount code * k)) = mu (j + P * k)) ∧
          (∀ j j', j < j' → code.testBit j = true →
            popcount (code % 2 ^ j) < popcount (code % 2 ^ j')) ∧
          (∀ j1, j1 < popcount code →
            ∃ j, j < P ∧ code.testBit j = true ∧ popcount (code % 2 ^ j) = j1)) ∧
    (allocate_gmm_loop_c 7 K = none ∧ popcount 65 = 2 ∧
      ((allocate_gmm_loop_masked 7 K).tbl 65).P = 3 ∧
      ∀ (k : Nat) (lgam : α) (buf S : Nat → α), k < K →
        (sub_gmm_code m 7 mu b nu (allocate_gmm_loop_masked 7 K).tbl k lgam 65 (buf, S)).1
            (((allocate_gmm_loop_masked 7 K).tbl 65).nu + k) = nu k - 4) := by
  have h3 : bitcount_masked 65 65 = 3 := by decide
  refine ⟨⟨allocate_gmm_loop_c_small P K hP, fun hK => allocate_gmm_size_small P K hP hK,
    sub_gmm_marginal_parameters m P K mu b W nu gam
      (lt_of_le_of_lt hP (by decide))⟩,
    allocate_gmm_loop_c_large 7 K (by decide), ?_, ?_, fun k lgam buf S hk => ?_⟩
  · rw [← bitcount_eq_popcount 7 65 (by decide)]; rfl
  · rw [allocate_gmm_masked_P 7 K 65 (by decide) (by decide)]
    exact h3
  · obtain ⟨o, ho⟩ := allocate_gmm_masked_entry 7 K 65 (by decide) (by decide)
    rw [h3] at ho
    rw [round_nu_any m 7 K mu b nu _ 3 o k lgam 65 buf S hk (by decide) ho]
    have e : wsub 7 3 = 4 := by decide
    rw [e]
    norm_num

/-- Witness of C27 on the rational instance: two channels, two classes; the pattern
`code = 2` (channel 1 only) of class `1` has `nu' = nu - 1` and mean `mu[1 + 2*1]`. -/
theorem C27_sub_gmm_stores_marginal_parameters_witness :
    2 ≤ 6 ∧
    allocate_gmm_loop_c 2 2 = some (allocate_gmm_loop 2 2) ∧
    allocate_gmm_size 2 2 = some (allocate_gmm_loop 2 2).o ∧
    ∃ buf, sub_gmm testLibm true true 2 2 (fun i => (i : ℚ)) (fun _ => 1) (fun _ => 1)
        (fun _ => 5) (fun _ => 1) = some ((allocate_gmm_loop 2 2).tbl, buf) ∧
      buf (((allocate_gmm_loop 2 2).tbl 2).nu + 1) = 5 - ((2 - popcount 2 : Nat) : ℚ) ∧
      buf (((allocate_gmm_loop 2 2).tbl 2).mu + (popcount (2 % 2 ^ 1) + popcount 2 * 1))
        = ((1 + 2 * 1 : Nat) : ℚ) := by
  obtain ⟨⟨g1, g2, buf, h1, h2⟩, _⟩ := C27_sub_gmm_stores_marginal_parameters testLibm 2 2
    (fun i => (i : ℚ)) (fun _ => 1) (fun _ => 1) (fun _ => 5) (fun _ => 1) (by decide)
  obtain ⟨_, c1, _, _, c4, _, _⟩ := h2 2 1 (by decide) (by decide)
  exact ⟨by decide, g1, g2 (by decide), buf, h1, c1, c4 1 (by decide) (by decide)⟩

/-- C18, as stated, fails.  For `K = 0`, which the bound check accepts: on a volume of one
voxel with one finite channel, `call_suffstats_missing` returns `log(0) + p[0]`, `p[0]`
being the content of the uninitialised local array `p`, so that two calls with identical
arguments, both from the zeroed table of `fastexp`, return `log(0)` when the array held `0`
and `log(0) + 1` when it held `1`.  For seven channels the loop of `allocate_gmm` shifts by
`64`, which C leaves undefined; on the table that the loop builds with the shift count taken
modulo `64`, the pattern `65` (channels `0` and `6`) has dimension `3`, `Nresp` reads
`mx[2]`, which `get_vox` has not written, and `suffstats_missing` (one voxel, one class,
every parameter of the table equal to `1`) returns different values from two contents of
the local array `mx`.  For the selected channel `ic = 64`, `make_index` shifts by `64`; with
the shift count taken modulo `64` the pattern `3` of two channels gets the position `2`,
and `INUgrads` (one voxel, one class, every parameter equal to `1`) writes different
gradients from two contents of the local array `vx`. -/
theorem C18_counterexample :
    (¬ boundFails 1 0 ∧
      (call_suffstats_missing_memo testLibm (fun _ => 0) true true true (fun _ => 1)
          (fun _ => FVal.fin 1) (fun _ => 1) 0 (fun _ => 0) (fun _ => 1) (fun _ => 1)
          (fun _ => 1) (fun _ => 1) (fun _ => 1) (fun _ => 1) (fun k => k) (fun _ => FVal.fin 0)
          ⟨fun _ => 0, fun _ => 0, fun _ => 0⟩ testStats).1.1 = FVal.fin (testLibm.log 0) ∧
      (call_suffstats_missing_memo testLibm (fun _ => 0) true true true (fun _ => 1)
          (fun _ => FVal.fin 1) (fun _ => 1) 0 (fun _ => 0) (fun _ => 1) (fun _ => 1)
          (fun _ => 1) (fun _ => 1) (fun _ => 1) (fun _ => 1) (fun k => k) (fun _ => FVal.fin 0)
          ⟨fun _ => 0, fun _ => 0, fun _ => 1⟩ testStats).1.1 = FVal.fin (testLibm.log 0 + 1) ∧
      FVal.fin (testLibm.log 0) ≠ FVal.fin (testLibm.log 0 + 1)) ∧
    (allocate_gmm_loop_c 7 1 = none ∧ ((allocate_gmm_loop_masked 7 1).tbl 65).P = 3 ∧
      (suffstats_missing testLibm (fun d => if d = 3 then 7 else 1)
          (fun j => if j = 0 ∨ j = 6 then FVal.fin 1 else FVal.nan) (fun _ => 0) 1
          (allocate_gmm_loop_masked 7 1).tbl (fun _ => 1) (fun _ => 1) (fun _ => 1) (fun k => k)
          (fun _ => FVal.fin 0) (suffstat_pointers_loop 7 1).tbl
          ⟨fun _ => 1, fun _ => 0, fun _ => 0⟩ testStats).1
        ≠ (suffstats_missing testLibm (fun d => if d = 3 then 7 else 1)
          (fun j => if j = 0 ∨ j = 6 then FVal.fin 1 else FVal.nan) (fun _ => 0) 1
          (allocate_gmm_loop_masked 7 1).tbl (fun _ => 1) (fun _ => 1) (fun _ => 1) (fun k => k)
          (fun _ => FVal.fin 0) (suffstat_pointers_loop 7 1).tbl
          ⟨fun _ => 3, fun _ => 0, fun _ => 0⟩ testStats).1) ∧
    (make_index_c 2 64 (fun _ => 0) = none ∧ make_index_masked 2 64 (fun _ => 0) 3 = 2 ∧
      (INUgrads testLibm (fun d => if d = 3 then 2 else 1) (fun _ => FVal.fin 1) (fun _ => 0) 1
          (allocate_gmm_loop 2 1).tbl (fun _ => 1) (fun _ => 1) (fun _ => 1) (fun k => k)
          (fun _ => FVal.fin 0) (make_index_masked 2 64 (fun _ => 0))
          ⟨fun _ => 0, fun _ => 0, fun _ => 0⟩ (fun _ => FVal.nan) (fun _ => FVal.nan)).2.1 0
        ≠ (INUgrads testLibm (fun d => if d = 3 then 2 else 1) (fun _ => FVal.fin 1) (fun _ => 0) 1
          (allocate_gmm_loop 2 1).tbl (fun _ => 1) (fun _ => 1) (fun _ => 1) (fun k => k)
          (fun _ => FVal.fin 0) (make_index_masked 2 64 (fun _ => 0))
          ⟨fun _ => 0, fun _ => 1, fun _ => 0⟩ (fun _ => FVal.nan) (fun _ => FVal.nan)).2.1 0) := by
  have hcall : ∀ scr : Scratch ℚ,
      (call_suffstats_missing_memo testLibm (fun _ => 0) true true true (fun _ => 1)
        (fun _ => FVal.fin 1) (fun _ => 1) 0 (fun _ => 0) (fun _ => 1) (fun _ => 1)
        (fun _ => 1) (fun _ => 1) (fun _ => 1) (fun _ => 1) (fun k => k) (fun _ => FVal.fin 0)
        scr testStats).1.1 = FVal.fin (testLibm.log 0 + scr.p 0) := fun scr => by
    rw [(call_suffstats_missing_memo_eq testLibm _ TableReachable.init true true true _ _ _ _ _
      _ _ _ _ _ _ _ _ _ _).1]
    unfold call_suffstats_missing
    dsimp only
    rw [if_neg (by decide), sub_gmm_ok]
    dsimp only
    have hss : suffstat_pointers true 1 0 = some (suffstat_pointers_loop 1 0).tbl := rfl
    rw [hss]
    dsimp only
    rw [suffstats_missing_noclass]
  have h3 : bitcount_masked 65 65 = 3 := by decide
  have hi : make_index_masked 2 64 (fun _ => 0) 3 = 2 := by decide
  refine ⟨⟨by decide, ?_, ?_, ?_⟩, ⟨allocate_gmm_loop_c_large 7 1 (by decide), ?_, ?_⟩,
    make_index_c_of_ge 2 64 _ (by decide), hi, ?_⟩
  · rw [hcall]
    simp
  · rw [hcall]
  · intro e
    injection e with e
    linarith
  · rw [allocate_gmm_masked_P 7 1 65 (by decide) (by decide)]
    exact h3
  · obtain ⟨o, ho⟩ := allocate_gmm_masked_entry 7 1 65 (by decide) (by decide)
    rw [h3] at ho
    rw [suffstats_missing_stale testLibm _ o ho, suffstats_missing_stale testLibm _ o ho]
    intro e
    have e' := add_left_cancel e
    norm_num at e'
  · have hg : (allocate_gmm_loop 2 1).tbl 3 = gmmEntry 1 2 (offsetOf (gmmSize 1) 3) := by
      rw [allocate_gmm_tbl 2 1 3 (by decide)]
      rfl
    rw [INUgrads_stale testLibm testLibm_expOk _ _ hg _ hi,
      INUgrads_stale testLibm testLibm_expOk _ _ hg _ hi]
    intro e
    injection e with e
    norm_num at e


/-- C18 (amended): the value of `fastexp(x)` does not depend on the state of its memoised
table.  For every table state reachable from the zeroed static array by earlier calls:
every entry is `0` or `exp(i)` and no entry outside `[-128, 127]` is written; the clamped
index lies in `[-128, 127]`; the value returned is the one returned with the fully
precomputed table, and the one of the table-free `fastexp`; any two reachable tables give
the same value; `softmax1` and `softmax`, the only callers of `fastexp`, return from any
reachable table what their table-free versions return.  And for at least one class, at most
six channels and a selected channel `ic < 64` (where every shift of `allocate_gmm` and
`make_index` is defined): each of the entry points `call_suffstats_missing`,
`call_responsibilities` and `call_INUgrads`, run with the table of `fastexp` as state,
returns the same value and output buffers from any two reachable tables and any two
contents of its uninitialised local arrays, namely those of the table-free entry point, and
leaves a reachable table. -/
theorem C18_fastexp_is_table_independent (m : Libm α) (tbl : Int → α)
    (h : TableReachable m tbl) (x : α) :
    (∀ i, tbl i = 0 ∨ tbl i = m.exp (i : α)) ∧
    (∀ i, (i < -128 ∨ 127 < i) → tbl i = 0) ∧
    (-128 ≤ fastexp_index x ∧ fastexp_index x ≤ 127) ∧
    (fastexp_memo m tbl x).1 = (fastexp_memo m (fun i => m.exp (i : α)) x).1 ∧
    (fastexp_memo m tbl x).1 = fastexp m x ∧
    (∀ tbl', TableReachable m tbl' → (fastexp_memo m tbl' x).1 = (fastexp_memo m tbl x).1) ∧
    (∀ K q p, (softmax1_memo m tbl K q p).1 = softmax1 m K q p ∧
      TableReachable m (softmax1_memo m tbl K q p).2) ∧
    (∀ K q p, (softmax_memo m tbl K q p).1 = softmax m K q p ∧
      TableReachable m (softmax_memo m tbl K q p).2) ∧
    (∀ (tbl' : Int → α), TableReachable m tbl' →
      ∀ (ok1 ok2 ok3 : Bool) (nf : Nat → Nat) (mf : Nat → FVal α) (vf : Nat → α) (K : Nat)
        (mu b W nu gam : Nat → α) (nm skip lkp : Nat → Nat) (lp : Nat → FVal α) (K1 ic : Nat)
        (scr scr' : Scratch α) (st : Stats α) (r g1 g2 : Nat → FVal α),
      1 ≤ K → nf 3 ≤ 6 → ic < 64 →
      (allocate_gmm_loop_c (nf 3) K = some (allocate_gmm_loop (nf 3) K) ∧
        make_index_c (nf 3) ic (fun _ => 0) = some (make_index (nf 3) ic (fun _ => 0))) ∧
      ((call_suffstats_missing_memo m tbl ok1 ok2 ok3 nf mf vf K mu b W nu gam nm skip lkp lp
            scr st).1
          = (call_suffstats_missing_memo m tbl' ok1 ok2 ok3 nf mf vf K mu b W nu gam nm skip
            lkp lp scr' st).1 ∧
        (call_suffstats_missing_memo m tbl ok1 ok2 ok3 nf mf vf K mu b W nu gam nm skip lkp lp
            scr st).1
          = call_suffstats_missing m ok1 ok2 ok3 nf mf vf K mu b W nu gam nm skip lkp lp
            scr st ∧
        TableReachable m (call_suffstats_missing_memo m tbl ok1 ok2 ok3 nf mf vf K mu b W nu
          gam nm skip lkp lp scr st).2) ∧
      ((call_responsibilities_memo m tbl ok1 ok2 nf skip mf vf K mu b W nu gam K1 lkp lp
            scr r).1
          = (call_responsibilities_memo m tbl' ok1 ok2 nf skip mf vf K mu b W nu gam K1 lkp lp
            scr' r).1 ∧
        (call_responsibilities_memo m tbl ok1 ok2 nf skip mf vf K mu b W nu gam K1 lkp lp
            scr r).1
          = call_responsibilities m ok1 ok2 nf skip mf vf K mu b W nu gam K1 lkp lp scr r ∧
        TableReachable m (call_responsibilities_memo m tbl ok1 ok2 nf skip mf vf K mu b W nu
          gam K1 lkp lp scr r).2) ∧
      ((call_INUgrads_memo m tbl ok1 ok2 ok3 nf mf vf K mu b W nu gam nm skip lkp lp ic
            scr g1 g2).1
          = (call_INUgrads_memo m tbl' ok1 ok2 ok3 nf mf vf K mu b W nu gam nm skip lkp lp ic
            scr' g1 g2).1 ∧
        (call_INUgrads_memo m tbl ok1 ok2 ok3 nf mf vf K mu b W nu gam nm skip lkp lp ic
            scr g1 g2).1
          = call_INUgrads m ok1 ok2 ok3 nf mf vf K mu b W nu gam nm skip lkp lp ic scr g1 g2 ∧
        TableReachable m (call_INUgrads_memo m tbl ok1 ok2 ok3 nf mf vf K mu b W nu gam nm
          skip lkp lp ic scr g1 g2).2)) := by
  have hinv := table_inv m tbl h
  refine ⟨hinv.1, hinv.2, fastexp_index_range x, ?_, fastexp_memo_val m tbl hinv.1 x,
    fun tbl' h' => ?_, fun K q p => softmax1_memo_eq m tbl h K q p,
    fun K q p => softmax_memo_eq m tbl h K q p, ?_⟩
  · rw [fastexp_memo_val m tbl hinv.1 x, fastexp_memo_val m _ (fun i => Or.inr rfl) x]
  · rw [fastexp_memo_val m tbl hinv.1 x, fastexp_memo_val m tbl' (table_inv m tbl' h').1 x]
  · intro tbl' h' ok1 ok2 ok3 nf mf vf K mu b W nu gam nm skip lkp lp K1 ic scr scr' st r g1 g2
      hK hP hic
    have s1 := call_suffstats_missing_memo_eq m tbl h ok1 ok2 ok3 nf mf vf K mu b W nu gam nm
      skip lkp lp scr st
    have s2 := call_suffstats_missing_memo_eq m tbl' h' ok1 ok2 ok3 nf mf vf K mu b W nu gam nm
      skip lkp lp scr' st
    have r1 := call_responsibilities_memo_eq m tbl h ok1 ok2 nf skip mf vf K mu b W nu gam K1
      lkp lp scr r
    have r2 := call_responsibilities_memo_eq m tbl' h' ok1 ok2 nf skip mf vf K mu b W nu gam K1
      lkp lp scr' r
    have i1 := call_INUgrads_memo_eq m tbl h ok1 ok2 ok3 nf mf vf K mu b W nu gam nm skip lkp
      lp ic scr g1 g2
    have i2 := call_INUgrads_memo_eq m tbl' h' ok1 ok2 ok3 nf mf vf K mu b W nu gam nm skip lkp
      lp ic scr' g1 g2
    refine ⟨⟨allocate_gmm_loop_c_small (nf 3) K hP,
        make_index_c_of_lt (nf 3) ic _ (by omega) hic⟩,
      ⟨?_, s1.1, s1.2⟩, ⟨?_, r1.1, r1.2⟩, ⟨?_, i1.1, i1.2⟩⟩
    · rw [s1.1, s2.1]
      exact call_suffstats_missing_scr m ok1 ok2 ok3 nf mf vf K mu b W nu gam nm skip lkp lp hK
        scr scr' st
    · rw [r1.1, r2.1]
      exact call_responsibilities_scr m ok1 ok2 nf skip mf vf K mu b W nu gam K1 lkp lp hK
        scr scr' r
    · rw [i1.1, i2.1]
      exact call_INUgrads_scr m ok1 ok2 ok3 nf mf vf K mu b W nu gam nm skip lkp lp ic hK
        scr scr' g1 g2

/-- Witness of C18: the table left by the call `fastexp(1)` from the zeroed table, then
`fastexp(2)`; and `call_suffstats_missing` on the test volume (two channels, two classes),
from that table with the local arrays zeroed and from the zeroed table with the local
arrays holding `7`. -/
theorem C18_fastexp_is_table_independent_witness :
    TableReachable testLibm (fastexp_memo testLibm (fun _ => 0) 1).2 ∧
    (fastexp_memo testLibm (fastexp_memo testLibm (fun _ => 0) 1).2 2).1 = fastexp testLibm 2 ∧
    1 ≤ 2 ∧ testNf 3 ≤ 6 ∧
    (call_suffstats_missing_memo testLibm (fastexp_memo testLibm (fun _ => 0) 1).2
        true true true testNf testMf (fun _ => 1) 2 (fun _ => 1) (fun _ => 1) (fun _ => 1)
        (fun _ => 3) (fun _ => 1) testNf (fun _ => 1) (fun k => k) testLp testScr testStats).1
      = (call_suffstats_missing_memo testLibm (fun _ => 0)
        true true true testNf testMf (fun _ => 1) 2 (fun _ => 1) (fun _ => 1) (fun _ => 1)
        (fun _ => 3) (fun _ => 1) testNf (fun _ => 1) (fun k => k) testLp
        ⟨fun _ => 7, fun _ => 7, fun _ => 7⟩ testStats).1 :=
  ⟨TableReachable.call _ _ TableReachable.init,
    (C18_fastexp_is_table_independent testLibm (fastexp_memo testLibm (fun _ => 0) 1).2
      (TableReachable.call _ _ TableReachable.init) 2).2.2.2.2.1,
    by decide, by decide,
    ((C18_fastexp_is_table_independent testLibm (fastexp_memo testLibm (fun _ => 0) 1).2
      (TableReachable.call _ _ TableReachable.init) 2).2.2.2.2.2.2.2.2 (fun _ => 0)
      TableReachable.init true true true testNf testMf (fun _ => 1) 2 (fun _ => 1) (fun _ => 1)
      (fun _ => 1) (fun _ => 3) (fun _ => 1) testNf (fun _ => 1) (fun k => k) testLp 2 0
      testScr ⟨fun _ => 7, fun _ => 7, fun _ => 7⟩ testStats (fun _ => FVal.nan)
      (fun _ => FVal.nan) (fun _ => FVal.nan) (by decide) (by decide) (by decide)).2.1.1⟩

end Claims

end Gmmlib
